import Mathlib

/-! # acad geometry kernel: a shallow embedding

The C++ sources `src/utils/object_oo.{h,cpp}` and `src/utils/former.{h,cpp}` are
embedded as pure functions.

Conventions of the embedding.

* A C++ `double` is read as an element of a linearly ordered field `K`
  (exact arithmetic, no rounding, no NaN, no signed zero).  The definitions are
  computable for every `K` with decidable order (`ℚ` for instance).  Where the
  code's outcome is decided by a quotient `0.0 / 0.0`, in
  `get_max_line_distance` for a line of length zero, the case is written out
  in the definition.
* The calls into the C math library (`sqrt`, `atan2`, `cos`, `sin`, `M_PI`)
  are the fields of a record `Libm K` handed to every function that needs
  them.  `Libm.IsReal` says that a record over `ℝ` holds the real functions.
* A `std::list<line>` is a `List (line K)`; an iterator is a position in it.
-/

namespace Acad

/-! ## Constants (object_oo.h) -/

section Constants
variable {K : Type} [LinearOrderedField K]

/-- `#define SNAP_LEN 0.0001` -/
def SNAP_LEN : K := 1 / 10000

/-- `#define SMALL_NUM (SNAP_LEN * 1.0e-3)` -/
def SMALL_NUM : K := SNAP_LEN * (1 / 1000)

/-- `#define T_S0 0.0` -/
def T_S0 : K := 0

/-- `#define T_S1 1.0` -/
def T_S1 : K := 1

end Constants

/-- The functions of `<cmath>` the kernel calls, and the constant `M_PI`. -/
structure Libm (K : Type) where
  sqrt : K → K
  atan2 : K → K → K
  cos : K → K
  sin : K → K
  pi : K

/-- The record holds the real square root, two-argument arctangent, cosine,
sine and the number pi. -/
def Libm.IsReal (m : Libm ℝ) : Prop :=
  m.sqrt = Real.sqrt ∧ (∀ y x : ℝ, m.atan2 y x = Complex.arg ⟨x, y⟩) ∧
    m.cos = Real.cos ∧ m.sin = Real.sin ∧ m.pi = Real.pi

/-! ## Points, vectors, lines (object_oo.h) -/

/-- `class coord_t`: a point. -/
structure coord_t (K : Type) where
  x : K
  y : K
deriving DecidableEq

/-- `struct vector_s`: a displacement. -/
structure vector_t (K : Type) where
  dx : K
  dy : K
deriving DecidableEq

/-- `class line`: the segment `S0 + t.V`, `t` in `[0,1]`. -/
structure line (K : Type) where
  S0 : coord_t K
  V : vector_t K
deriving DecidableEq

section Primitives
variable {K : Type} [LinearOrderedField K]

/-- `isEqualWithinMargin` -/
def isEqualWithinMargin (arg1 arg2 margin : K) : Bool :=
  let maxVal := arg1 + margin
  let minVal := arg1 - margin
  decide (arg2 ≤ maxVal) && decide (arg2 ≥ minVal)

/-- `isEqualWithinPercentage` -/
def isEqualWithinPercentage (arg1 arg2 percentage : K) : Bool :=
  let margin := arg1 * (percentage / 100)
  isEqualWithinMargin arg1 arg2 margin

/-- `distTwoPoints` -/
def distTwoPoints (m : Libm K) (c1 c2 : coord_t K) : K :=
  let dx := c1.x - c2.x
  let dy := c1.y - c2.y
  m.sqrt ((dx * dx) + (dy * dy))

/-- `isSamePoint` -/
def isSamePoint (m : Libm K) (pt1 pt2 : coord_t K) : Bool :=
  decide (distTwoPoints m pt1 pt2 ≤ SNAP_LEN)

/-- `dotprodRaw` -/
def dotprodRaw (x1 y1 x2 y2 : K) : K := (x1 * x2) + (y2 * y1)

/-- `dotprod` -/
def dotprod (pt1 pt2 : vector_t K) : K := dotprodRaw pt1.dx pt1.dy pt2.dx pt2.dy

/-- `perpprodRaw` -/
def perpprodRaw (x1 y1 x2 y2 : K) : K := (x1 * y2) - (x2 * y1)

/-- `perpprod` -/
def perpprod (pt1 pt2 : vector_t K) : K := perpprodRaw pt1.dx pt1.dy pt2.dx pt2.dy

namespace line

/-- `line::line(coord_t s0, coord_t s1)` and `line::set(coord_t, coord_t)` -/
def ofPoints (s0 s1 : coord_t K) : line K :=
  ⟨s0, ⟨s1.x - s0.x, s1.y - s0.y⟩⟩

/-- `line::is_small` -/
def is_small (val : K) : Bool := decide (|val| < SNAP_LEN)

/-- `line::len` -/
def len (m : Libm K) (l : line K) : K :=
  m.sqrt ((l.V.dx * l.V.dx) + (l.V.dy * l.V.dy))

/-- `line::get_pt` -/
def get_pt (l : line K) (T : K) : coord_t K :=
  ⟨l.S0.x + (T * l.V.dx), l.S0.y + (T * l.V.dy)⟩

/-- `line::get_V` -/
def get_V (l : line K) : vector_t K := l.V

/-- `line::get_S0` -/
def get_S0 (l : line K) : coord_t K := l.S0

/-- `line::get_S1` -/
def get_S1 (l : line K) : coord_t K := l.get_pt T_S1

/-- `line::is_vertical` -/
def is_vertical (l : line K) : Bool := is_small l.V.dx

/-- `line::is_horizontal` -/
def is_horizontal (l : line K) : Bool := is_small l.V.dy

/-- `line::is_contiguous_with`; `self` is the object, `l` the argument. -/
def is_contiguous_with (m : Libm K) (self l : line K) : Bool :=
  let l1s0 := l.get_S0
  let l1s1 := l.get_S1
  let l2s0 := self.get_S0
  let l2s1 := self.get_S1
  isSamePoint m l1s0 l2s0 || isSamePoint m l1s0 l2s1 ||
    isSamePoint m l1s1 l2s0 || isSamePoint m l1s1 l2s1

/-- `line::is_in_collinear_seg` -/
def is_in_collinear_seg (self : line K) (pt : coord_t K) : Bool :=
  let line_point1 := if !self.is_vertical then self.get_S0.x else self.get_S0.y
  let line_point2 := if !self.is_vertical then self.get_S1.x else self.get_S1.y
  let point := if !self.is_vertical then pt.x else pt.y
  let line_min := if line_point1 < line_point2 then line_point1 else line_point2
  let line_max := if line_point1 ≥ line_point2 then line_point1 else line_point2
  decide (point ≤ line_max) && decide (point ≥ line_min)

/-- `line::is_same_as` -/
def is_same_as (self ln : line K) : Bool :=
  decide (ln.get_S0.x = self.S0.x) && decide (ln.get_S0.y = self.S0.y) &&
    decide (ln.get_V.dx = self.V.dx) && decide (ln.get_V.dy = self.V.dy)

/-- `line::lines_intersect`: the returned pair is the result and the point
written through `i` (which the code first sets to `(0,0)`). -/
def lines_intersect (m : Libm K) (self l2 : line K) (allowExtrapolation : Bool) :
    Bool × coord_t K :=
  let w : vector_t K := ⟨self.S0.x - l2.S0.x, self.S0.y - l2.S0.y⟩
  let perpl1l2 := perpprod self.V l2.V
  let i0 : coord_t K := ⟨0, 0⟩
  if (perpl1l2 < 0 ∧ perpl1l2 > -SMALL_NUM) ∨ (perpl1l2 ≥ 0 ∧ perpl1l2 < SMALL_NUM) then
    let dotl1 := dotprod self.V self.V
    let dotl2 := dotprod l2.V l2.V
    let perpl1w := perpprod self.V w
    let perpl2w := perpprod l2.V w
    if perpl1w ≠ 0 ∨ perpl2w ≠ 0 then
      (false, i0)
    else if allowExtrapolation then
      (true, ⟨(self.S0.x + l2.S0.x + self.get_S1.x + l2.get_S1.x) / 4,
              (self.S0.y + l2.S0.y + self.get_S1.y + l2.get_S1.y) / 4⟩)
    else if dotl1 = 0 ∧ dotl2 = 0 then
      if self.is_contiguous_with m l2 then (true, ⟨self.S0.x, self.S0.y⟩) else (false, i0)
    else if dotl1 = 0 then
      if !l2.is_in_collinear_seg self.S0 then (false, i0) else (true, ⟨self.S0.x, self.S0.y⟩)
    else if dotl2 = 0 then
      if !self.is_in_collinear_seg l2.S0 then (false, i0) else (true, ⟨l2.S0.x, l2.S0.y⟩)
    else
      let w2 : vector_t K := ⟨self.get_S1.x - l2.S0.x, self.get_S1.y - l2.S0.y⟩
      let t1 := if l2.V.dx ≠ 0 then w.dx / l2.V.dx else w.dy / l2.V.dy
      let t2 := if l2.V.dx ≠ 0 then w2.dx / l2.V.dx else w2.dy / l2.V.dy
      let t1s := if t1 > t2 then t2 else t1
      let t2s := if t1 > t2 then t1 else t2
      if t1s > 1 ∨ t2s < 0 then
        (false, i0)
      else
        let t1c := if t1s < 0 then 0 else t1s
        (true, l2.get_pt t1c)
  else
    let s1I := perpprod l2.V w / perpl1l2
    let s2I := perpprod self.V w / perpl1l2
    if (s1I < 0 ∨ s1I > 1 ∨ s2I < 0 ∨ s2I > 1) ∧ !allowExtrapolation then
      (false, i0)
    else
      (true, self.get_pt s1I)

/-- `line::distance_to_point` -/
def distance_to_point (m : Libm K) (self : line K) (p : coord_t K) : K :=
  let S1 := self.get_S1
  let t := (((p.x - self.S0.x) * self.V.dx) + ((p.y - self.S0.y) * self.V.dy)) /
    ((self.V.dx * self.V.dx) + (self.V.dy * self.V.dy))
  if t < 0 then distTwoPoints m self.S0 p
  else if t > 1 then distTwoPoints m S1 p
  else distTwoPoints m p (self.get_pt t)

/-- `line::reverse` -/
def reverse (l : line K) : line K :=
  ⟨l.get_S1, ⟨-l.V.dx, -l.V.dy⟩⟩

end line

end Primitives

/-! ## Paths (class `obj`, object_oo.h) -/

/-- `class obj`: the list `e` of the lines of the object.  An iterator into
the list is the position of its element, `end()` the length of the list. -/
abbrev obj (K : Type) := List (line K)

section PathBasics
variable {K : Type} [LinearOrderedField K]

/-- `std::fmod` for doubles read exactly: `x - n * y` with `n` the quotient
`x / y` truncated towards zero. -/
def fmod [FloorRing K] (x y : K) : K :=
  x - ((if 0 ≤ x / y then ⌊x / y⌋ else ⌈x / y⌉ : ℤ) : K) * y

namespace obj

/-- `obj::len`: the lengths of the elements, added up from `0.0` in list order. -/
def len (m : Libm K) (o : obj K) : K :=
  o.foldl (fun l ln => l + ln.len m) 0

/-- The `for` loop of `obj::get_pt_along_length` over the elements not yet
visited; `idx` is the position of the first of them, and `none` is the call of
`dbg::fatal` after the loop (which exits the program). -/
def get_pt_along_length_loop (m : Libm K) (dist : K) :
    List (line K) → Nat → K → Option (coord_t K × Nat × K)
  | [], _, _ => none
  | ln :: rest, idx, lenSoFar =>
    let llen := ln.len m
    let T := (dist - lenSoFar) / llen
    if T ≤ T_S1 then some (ln.get_pt T, idx, T)
    else get_pt_along_length_loop m dist rest (idx + 1) (lenSoFar + llen)

/-- `obj::get_pt_along_length(dist, ln, T)`: the returned point, the iterator
`ln` (a position, `end()` being the length) and the parameter `T`. -/
def get_pt_along_length [FloorRing K] (m : Libm K) (o : obj K) (dist : K) :
    Option (coord_t K × Nat × K) :=
  match o with
  | [] => some (⟨0, 0⟩, 0, 0)
  | first :: _ =>
    if dist ≤ 0 then some (first.get_S0, 0, 0)
    else get_pt_along_length_loop m (fmod dist (len m o)) o 0 0

end obj

end PathBasics

/-! ## Path topology (object_oo.cpp: trace_a_path, make_path, regularise)

The list `e` is kept in three parts while a path is traced: the elements
before `st`, the traced path `st .. en` (both inclusive) and the elements
after `en`, of which a prefix has been visited by `nx`.  -/

/-- The result of a call: `ok` when it returns, `fatal` when it ends in
`FATAL` (which exits the program), `undef` when it reads through the `end()`
iterator of an empty list (undefined behaviour); `fuel` is the result of a
loop of the embedding cut short by its bound. -/
inductive Res (α : Type) where
  | ok (a : α)
  | fatal
  | undef
  | fuel
deriving DecidableEq

/-- Sequencing of calls that may not return. -/
def Res.bind {α β : Type} : Res α → (α → Res β) → Res β
  | .ok a, f => f a
  | .fatal, _ => .fatal
  | .undef, _ => .undef
  | .fuel, _ => .fuel

section Topology
variable {K : Type} [LinearOrderedField K]

/-- The state `MP_PROCESS_PATH` of `obj::trace_a_path`.  The traced path is
`st :: tail`, its last element is `en`; `scanned` are the elements after `en`
that `nx` has passed since the path last changed, `unscanned` those from
`next(nx)` on.  The result is the return value, the path `st .. en` and the
elements after it. -/
def trace_scan (m : Libm K) (snaplen : K) (st : line K) (tail : List (line K))
    (scanned unscanned : List (line K)) : Bool × List (line K) × List (line K) :=
  match unscanned with
  | [] => (false, st :: tail, scanned)
  | nx :: us =>
    let en := (st :: tail).getLast (List.cons_ne_nil _ _)
    -- Is it connected to the end of the path but reversed?
    let nx1 := if distTwoPoints m en.get_S1 nx.get_S1 ≤ snaplen then nx.reverse else nx
    -- Is it correctly connected to the end of the path?
    if distTwoPoints m en.get_S1 nx1.get_S0 ≤ snaplen then
      let nx2 := line.ofPoints en.get_S1 nx1.get_S1
      -- Does it close the path?
      if distTwoPoints m st.get_S0 nx2.get_S1 ≤ snaplen then
        (true, st :: (tail ++ [line.ofPoints nx2.get_S0 st.get_S0]), scanned ++ us)
      else
        trace_scan m snaplen st (tail ++ [nx2]) [] (scanned ++ us)
    else
      -- Is it connected to the start of the path but reversed?
      let nx2 := if distTwoPoints m st.get_S0 nx1.get_S0 ≤ snaplen then nx1.reverse else nx1
      -- Is it connected to the start of the path?
      if distTwoPoints m st.get_S0 nx2.get_S1 ≤ snaplen then
        trace_scan m snaplen (line.ofPoints nx2.get_S0 st.get_S0) (st :: tail) [] (scanned ++ us)
      else
        trace_scan m snaplen st tail (scanned ++ [nx2]) us
termination_by (scanned.length + unscanned.length, unscanned.length)
decreasing_by
  all_goals simp_wf
  all_goals simp only [Prod.lex_def]
  all_goals omega

/-- `obj::trace_a_path(snaplen, st, en)` for `st` at the head of `remaining`
(the elements before `st` are not touched).  The result is the return value,
the path `st .. en` as the call leaves it, and the elements from the returned
`en` on.  On an empty remainder (`st == end()`) the path is open and empty. -/
def trace_a_path (m : Libm K) (snaplen : K) (remaining : List (line K)) :
    Bool × List (line K) × List (line K) :=
  match remaining with
  | [] => (false, [], [])
  | st :: r => trace_scan m snaplen st [] [] r

/-- The accumulation loop of `obj::is_clockwise`: the state is `ang_acc`,
`pos_neg` and `prv`. -/
def is_clockwise_loop (m : Libm K) : List (line K) → K → Int → line K → K × Int
  | [], ang_acc, pos_neg, _ => (ang_acc, pos_neg)
  | ln :: rest, ang_acc, pos_neg, prv =>
    if prv.len m > 0 ∧ ln.len m > 0 then
      let ang := m.atan2 (perpprod prv.get_V ln.get_V) (dotprod prv.get_V ln.get_V)
      is_clockwise_loop m rest (ang_acc + ang)
        (if ang ≥ 0 then pos_neg + 1 else pos_neg - 1) ln
    else
      is_clockwise_loop m rest ang_acc pos_neg prv

/-- `obj::is_clockwise(st, en)` on the non-empty range `first :: more`. -/
def is_clockwise (m : Libm K) (first : line K) (more : List (line K)) : Bool :=
  let prv := (first :: more).getLast (List.cons_ne_nil _ _)
  let r := is_clockwise_loop m (first :: more) 0 0 prv
  if isEqualWithinPercentage (m.pi * 2) |r.1| 5 then decide (r.1 < 0)
  else decide (r.2 < 0)

/-- The `while` loop of `obj::make_path(snaplen, closed, open, listPaths,
keepOpens)`: `done` are the elements before `st`, `remaining` those from `st`
on.  The first argument bounds the number of rounds.  The result is the list
`e` and the lists `closed` and `open`. -/
def make_path_loop (m : Libm K) (snaplen : K) (listPaths keepOpens : Bool) :
    Nat → List (line K) → List (line K) → List (obj K) → List (obj K) →
      Res (obj K × List (obj K) × List (obj K))
  | _, done, [], closed, opened => .ok (done, closed, opened)
  | 0, _, _ :: _, _, _ => .fuel
  | n + 1, done, st :: r, closed, opened =>
    match trace_a_path m snaplen (st :: r) with
    | (isClosed, path, rest) =>
      if !isClosed && !keepOpens then
        -- del(st, prev(en)) erases the range [st, prev(en)): the last element stays
        make_path_loop m snaplen listPaths keepOpens n (done ++ path.drop (path.length - 1))
          rest closed opened
      else if isClosed then
        match path with
        | [] => make_path_loop m snaplen listPaths keepOpens n done rest closed opened
        | p0 :: ps =>
          if !is_clockwise m p0 ps then
            match trace_a_path m snaplen ((p0 :: ps).map line.reverse ++ rest) with
            | (true, path2, rest2) =>
              make_path_loop m snaplen listPaths keepOpens n (done ++ path2) rest2
                (if listPaths then closed ++ [path2] else closed) opened
            | (false, _, _) => .fatal
          else
            make_path_loop m snaplen listPaths keepOpens n (done ++ path) rest
              (if listPaths then closed ++ [path] else closed) opened
      else
        make_path_loop m snaplen listPaths keepOpens n (done ++ path) rest closed
          (if listPaths then opened ++ [path] else opened)

/-- `obj::make_path(snaplen, closed, open, listPaths, keepOpens)`; every round
of the loop moves `st` past at least one element. -/
def make_path_full (m : Libm K) (snaplen : K) (listPaths keepOpens : Bool) (e : obj K)
    (closed opened : List (obj K)) : Res (obj K × List (obj K) × List (obj K)) :=
  make_path_loop m snaplen listPaths keepOpens e.length [] e closed opened

/-- `obj::make_path(snaplen, closed, open)`: paths are listed, open paths kept. -/
def make_path_lists (m : Libm K) (snaplen : K) (e : obj K) (closed opened : List (obj K)) :
    Res (obj K × List (obj K) × List (obj K)) :=
  make_path_full m snaplen true true e closed opened

/-- `obj::make_path(snaplen)`: open paths are discarded, nothing is listed. -/
def make_path_snap (m : Libm K) (snaplen : K) (e : obj K) : Res (obj K) :=
  match make_path_full m snaplen false false e [] [] with
  | .ok r => .ok r.1
  | .fatal => .fatal
  | .undef => .undef
  | .fuel => .fuel

/-- `obj::make_path()`: as above with the default `SNAP_LEN`. -/
def make_path (m : Libm K) (e : obj K) : Res (obj K) :=
  make_path_snap m SNAP_LEN e

/-- The inner loop of `obj::del_duplicates` for one `cur`: `scanned` are the
elements after `cur` that `cmp` has passed since the last deletion. -/
def del_duplicates_inner (cur : line K) (scanned unscanned : List (line K)) (cnt : Nat) :
    List (line K) × Nat :=
  match unscanned with
  | [] => (scanned, cnt)
  | cmp :: us =>
    if cur.is_same_as cmp then
      -- del(cmp); cmp = cur; the scan starts again behind cur
      del_duplicates_inner cur [] (scanned ++ us) (cnt + 1)
    else
      del_duplicates_inner cur (scanned ++ [cmp]) us cnt
termination_by (scanned.length + unscanned.length, unscanned.length)
decreasing_by
  all_goals simp_wf
  all_goals simp only [Prod.lex_def]
  all_goals omega

/-- The outer loop of `obj::del_duplicates`: `before` are the elements up to
`cur`, the first argument bounds the number of rounds. -/
def del_duplicates_outer : Nat → List (line K) → List (line K) → Nat → List (line K) × Nat
  | _, before, [], cnt => (before, cnt)
  | 0, before, cur :: after, cnt => (before ++ cur :: after, cnt)
  | n + 1, before, cur :: after, cnt =>
    let r := del_duplicates_inner cur [] after cnt
    del_duplicates_outer n (before ++ [cur]) r.1 r.2

/-- `obj::del_duplicates`: the list left and the count returned. -/
def del_duplicates (e : obj K) : obj K × Nat :=
  del_duplicates_outer e.length [] e 0

/-- The loop of `obj::del_zero_lens`: `scanned` are the elements `ln` has
passed since the last deletion (after which `ln = begin()`). -/
def del_zero_lens_loop (m : Libm K) (scanned unscanned : List (line K)) (cnt : Nat) :
    List (line K) × Nat :=
  match unscanned with
  | [] => (scanned, cnt)
  | ln :: us =>
    if ln.len m < SMALL_NUM then
      del_zero_lens_loop m [] (scanned ++ us) (cnt + 1)
    else
      del_zero_lens_loop m (scanned ++ [ln]) us cnt
termination_by (scanned.length + unscanned.length, unscanned.length)
decreasing_by
  all_goals simp_wf
  all_goals simp only [Prod.lex_def]
  all_goals omega

/-- `obj::del_zero_lens`: the list left and the count returned. -/
def del_zero_lens (m : Libm K) (e : obj K) : obj K × Nat :=
  del_zero_lens_loop m [] e 0

/-- `obj::del_dupes_zeros`: the list left and the return value. -/
def del_dupes_zeros (m : Libm K) (e : obj K) : obj K × Bool :=
  let d := del_duplicates e
  let z := del_zero_lens m d.1
  (z.1, decide (d.2 ≠ 0) || decide (z.2 ≠ 0))

/-- The `do .. while` loop of `obj::regularise`; the first argument bounds the
number of rounds. -/
def regularise_loop (m : Libm K) : Nat → obj K → Res (obj K)
  | 0, _ => .fuel
  | n + 1, e =>
    match make_path m e with
    | .ok e1 =>
      let r := del_dupes_zeros m e1
      if r.2 then regularise_loop m n r.1 else .ok r.1
    | .fatal => .fatal
    | .undef => .undef
    | .fuel => .fuel

/-- `obj::regularise`; every round but the last deletes at least one element. -/
def regularise (m : Libm K) (e : obj K) : Res (obj K) :=
  regularise_loop m (e.length + 1) e

end Topology

/-! ## Offset tracing (object_oo.cpp: trace_at_offset) -/

/-- `class offset_line`: a `line` with the flags of the trace. -/
structure offset_line (K : Type) where
  ln : line K
  valid : Bool
  radial : Bool
  src_index : Nat

section Offset
variable {K : Type} [LinearOrderedField K]

/-- `#define TRACE_STEP_MM 0.5` -/
def TRACE_STEP_MM : K := 1 / 2

/-- `#define MIN_TRACE_STEPS 4` -/
def MIN_TRACE_STEPS : Nat := 4

/-- `line::add_offset` -/
def line.add_offset (l : line K) (xOffset yOffset : K) : line K :=
  ⟨⟨l.S0.x + xOffset, l.S0.y + yOffset⟩, l.V⟩

/-- `line::move_sideways` -/
def line.move_sideways (m : Libm K) (l : line K) (dist : K) : line K :=
  let perp : coord_t K := ⟨-l.V.dy, l.V.dx⟩
  let scale := (1 / m.sqrt ((perp.x * perp.x) + (perp.y * perp.y))) * dist
  l.add_offset (perp.x * scale) (perp.y * scale)

/-- `line::angle()` -/
def line.angle (m : Libm K) (l : line K) : K :=
  if line.is_small l.V.dx then (if l.V.dy > 0 then m.pi / 2 else -m.pi / 2)
  else m.atan2 l.V.dy l.V.dx

/-- `line::angle(line& l2)` -/
def line.angle_to (m : Libm K) (l l2 : line K) : K :=
  if l.len m > 0 ∧ l2.len m > 0 then
    m.atan2 (perpprod l.V l2.get_V) (dotprod l.V l2.get_V)
  else 0

/-- `rotatePoint` -/
def rotatePoint (m : Libm K) (pt pivot : coord_t K) (rads : K) : coord_t K :=
  let unit : coord_t K := ⟨m.cos rads, m.sin rads⟩
  let vec : coord_t K := ⟨pt.x - pivot.x, pt.y - pivot.y⟩
  ⟨pivot.x + (vec.x * unit.x) - (vec.y * unit.y), pivot.y + (vec.x * unit.y) + (vec.y * unit.x)⟩

/-- `line::rotate` -/
def line.rotate (m : Libm K) (l : line K) (pivot : coord_t K) (rads : K) : line K :=
  line.ofPoints (rotatePoint m l.get_S0 pivot rads) (rotatePoint m l.get_S1 pivot rads)

/-- `obj::add(coord_t pt)`: a zero-length line at `pt` when the object is
empty, else a line from the end point of the object to `pt`. -/
def obj.add_pt (o : obj K) (pt : coord_t K) : obj K :=
  match o.getLast? with
  | none => [⟨pt, ⟨0, 0⟩⟩]
  | some lst => o ++ [line.ofPoints lst.get_S1 pt]

/-- `obj::nextc` read at a position: the element after position `i`, the
first element after the last. -/
def obj.nextc_at (o : obj K) (i : Nat) : Option (line K) :=
  if i + 1 < o.length then o[i + 1]? else o.head?

/-- A loop `while (cond(a)) a += step;`, cut short after `n` rounds. -/
def add_while (cond : K → Bool) (step : K) : Nat → K → Res K
  | 0, a => if cond a then .fuel else .ok a
  | n + 1, a => if cond a then add_while cond step n (a + step) else .ok a

/-- The linear offsetting lines `trace_at_offset` creates for the element `ln`
at position `idx`. -/
def linear_offset_lines [FloorRing K] (m : Libm K) (ln : line K) (idx : Nat) (ofs : K) :
    List (offset_line K) :=
  let pl := ln.move_sideways m ofs
  let nsteps0 : Nat := ⌈ln.len m / TRACE_STEP_MM⌉₊
  let nsteps : Nat := if nsteps0 < MIN_TRACE_STEPS then MIN_TRACE_STEPS else nsteps0
  (List.range (nsteps + 1)).map fun step =>
    let T0 : K := (step : K) / (nsteps : K)
    let T1 : K := if T0 = 0 then 1 / 1000000 else T0
    let T : K := if T1 = 1 then 999999 / 1000000 else T1
    { ln := line.ofPoints (ln.get_pt T) (pl.get_pt T), valid := true, radial := false,
      src_index := idx }

/-- The radial offsetting lines `trace_at_offset` creates at the corner
between the element `ln` at position `idx` and its circular successor `nx`.
The two `while` loops on the angles are cut short after 8 rounds. -/
def radial_offset_lines [FloorRing K] (m : Libm K) (ln nx : line K) (idx : Nat) (ofs : K) :
    Res (List (offset_line K)) :=
  if nx.len m = 0 then .ok []
  else
    let aStep : K := 3 * m.pi / 180
    let a0 := ln.angle m
    let a1 := nx.angle m
    let ad := ln.angle_to m nx
    let nSteps : Int := ⌊|ad| / aStep⌋
    let fan (a0 aStepSigned : K) : List (offset_line K) :=
      (List.range (nSteps - 1).toNat).map fun j =>
        let k : K := ((j + 1 : Nat) : K)
        let osl0 : line K := ⟨ln.get_S1, ⟨|ofs|, 0⟩⟩
        let osl1 := osl0.rotate m osl0.get_S0 (a0 + (k * aStepSigned))
        { ln := line.ofPoints (osl1.get_pt (1 / 1000)) osl1.get_S1, valid := true,
          radial := true, src_index := idx }
    if ad > 0 ∧ ofs < 0 then
      (add_while (fun a => decide (a < 0)) (m.pi * 2) 8 (a0 - m.pi / 2)).bind fun a0' =>
      (add_while (fun a => decide (a < a0')) (m.pi * 2) 8 (a1 - m.pi / 2)).bind fun _ =>
      .ok (fan a0' aStep)
    else if ad < 0 ∧ ofs > 0 then
      (add_while (fun a => decide (a > 0)) (-(m.pi * 2)) 8 (a0 + m.pi / 2)).bind fun a0' =>
      (add_while (fun a => decide (a > a0')) (-(m.pi * 2)) 8 (a1 + m.pi / 2)).bind fun _ =>
      .ok (fan a0' (-aStep))
    else .ok []

/-- The first loop of `trace_at_offset` from position `idx` on: `e` is the
whole (regularised) object, `rest` its elements from `idx`. -/
def create_offset_lines [FloorRing K] (m : Libm K) (e : obj K) (ofs : K) :
    List (line K) → Nat → Res (List (offset_line K))
  | [], _ => .ok []
  | ln :: rest, idx =>
    if ln.len m < SNAP_LEN then create_offset_lines m e ofs rest (idx + 1)
    else
      let lin := linear_offset_lines m ln idx ofs
      match obj.nextc_at e idx with
      | none => .undef
      | some nx =>
        (radial_offset_lines m ln nx idx ofs).bind fun rad =>
        (create_offset_lines m e ofs rest (idx + 1)).bind fun more =>
        .ok (lin ++ rad ++ more)

/-- The inner loop of the proximity pass for one offsetting line: is there an
element, other than its source, nearer to its end point than `test`? -/
def too_close (m : Libm K) (test : K) (osl : offset_line K) : List (line K) → Nat → Bool
  | [], _ => false
  | ln :: rest, idx =>
    if osl.src_index ≠ idx ∧ ln.distance_to_point m osl.ln.get_S1 < test then true
    else too_close m test osl rest (idx + 1)

/-- The proximity pass of `trace_at_offset`. -/
def proximity_pass (m : Libm K) (e : obj K) (test : K) (osln : List (offset_line K)) :
    List (offset_line K) :=
  osln.map fun osl => if too_close m test osl e 0 then { osl with valid := false } else osl

/-- The inner loop of the crossing pass for `ref`: is it crossed by an
offsetting line `cmp` behind it, both being valid? -/
def crossed (m : Libm K) (ref : offset_line K) : List (offset_line K) → Bool
  | [] => false
  | cmp :: rest =>
    if (cmp.valid && ref.valid) && (ref.ln.lines_intersect m cmp.ln false).1 then true
    else crossed m ref rest

/-- The crossing pass of `trace_at_offset`: a line is compared with the lines
behind it, which the pass has not reached yet. -/
def crossing_pass (m : Libm K) : List (offset_line K) → List (offset_line K)
  | [] => []
  | ref :: rest =>
    (if crossed m ref rest then { ref with valid := false } else ref) :: crossing_pass m rest

/-- The pass of `trace_at_offset` that removes intermediate steps: `prv` is
the line before `ref` as the pass has left it, `none` at the first line; the
last line is never changed. -/
def redundant_pass : Option (offset_line K) → List (offset_line K) → List (offset_line K)
  | _, [] => []
  | _, [ref] => [ref]
  | none, ref :: nxt :: rest => ref :: redundant_pass (some ref) (nxt :: rest)
  | some prv, ref :: nxt :: rest =>
    let ref' : offset_line K :=
      if (prv.valid && decide (prv.src_index = ref.src_index)) &&
          (nxt.valid && decide (nxt.src_index = ref.src_index)) &&
          (!prv.radial && !ref.radial && !nxt.radial) then
        { ref with valid := false }
      else ref
    ref' :: redundant_pass (some ref') (nxt :: rest)

/-- "Join the dots": the end points of the valid offsetting lines, added to
`tr` in order. -/
def join_dots : List (offset_line K) → obj K → obj K
  | [], tr => tr
  | ref :: rest, tr => join_dots rest (if ref.valid then tr.add_pt ref.ln.get_S1 else tr)

/-- `obj::trace_at_offset(ofs)` on an object with the member `testFlag`: the
list the object is left with.  Joining start and finish of an empty `tr` reads
through `end()`. -/
def trace_at_offset [FloorRing K] (m : Libm K) (testFlag : Bool) (e : obj K) (ofs : K) :
    Res (obj K) :=
  (regularise m e).bind fun e1 =>
  (create_offset_lines m e1 ofs e1 0).bind fun osln0 =>
  let test := |ofs|
  let osln1 := proximity_pass m e1 test osln0
  let osln2 := crossing_pass m osln1
  let osln3 := redundant_pass none osln2
  let tr := join_dots osln3 []
  match tr.head?, tr.getLast? with
  | some first, some lst =>
    (regularise m (tr ++ [line.ofPoints first.get_S0 lst.get_S1])).bind fun tr2 =>
    if testFlag then
      .ok ((osln3.filter fun ref => ref.valid).map fun ref =>
        line.ofPoints (ref.ln.get_pt (8 / 10)) ref.ln.get_S1)
    else .ok tr2
  | _, _ => .undef

end Offset

/-! ## LiteEngine (former.h, former.cpp) -/

/-- `direction_e` -/
inductive direction_e where
  | LEFT | RIGHT | UP | DOWN
deriving DecidableEq

/-- `LiteEngine::mode_e` -/
inductive mode_e where
  | FORMER | RIB
deriving DecidableEq

/-- `LiteEngine::notch_t`; a `line_iter` is a position in the object. -/
structure notch_t (K : Type) where
  notchLines : List Nat
  notchReplacedLineIter : Nat
  notchReplacedLine : line K
  distance : K
  beg : coord_t K
  fin : coord_t K

/-- `LiteEngine::brLine_t` -/
structure brLine_t (K : Type) where
  brLn : line K
  oisectLn : Nat
  oisectPt : coord_t K
  iisectLn : Nat
  iisectPt : coord_t K

/-- `LiteEngine::brace_t`; `brLine` has two entries. -/
structure brace_t (K : Type) where
  angle : K
  refLn : line K
  brLine : List (brLine_t K)
  isValid : Bool

/-- `LiteEngine::anchor_t`; `brace` has two entries. -/
structure anchor_t (K : Type) where
  brace : List (brace_t K)
  rimLine : line K
  rimPt : coord_t K

/-- The data members of `class LiteEngine`.  `progressBar` is the value shown
by the progress bar, `none` when the pointer is `NULL`; `anchorSpan` is the
member `as`, `fin` above the member `end`. -/
structure LiteEngine (K : Type) where
  rs : K
  ow : K
  iw : K
  gw : K
  anchorSpan : K
  ma : K
  sp : K
  mode : mode_e
  di : direction_e
  progressBar : Option Nat
  inp : obj K
  non : obj K
  oro : obj K
  ori : obj K
  reforo : obj K
  refori : obj K
  iro : obj K
  iri : obj K
  construct : obj K
  bro : obj K
  notches : List (notch_t K)
  anchors : List (anchor_t K)
  nAnchors : Int

/-- The member functions `LiteEngine::run` calls, taken as parameters: each
maps the engine before the call to the engine after it (and the value
returned), or ends in `FATAL`.  The split functions work on the two objects
handed to them by reference. -/
structure Stages (K : Type) where
  createOuterRimOuter : Bool → LiteEngine K → Res (LiteEngine K)
  createOuterRimInner : LiteEngine K → Res (LiteEngine K)
  createInnerRimOuter : obj K → LiteEngine K → Res (LiteEngine K)
  createInnerRimInner : K → LiteEngine K → Res (LiteEngine K)
  generateAnchorPoints : Bool → LiteEngine K → Res (Bool × LiteEngine K)
  generateBraces : LiteEngine K → Res (Bool × LiteEngine K)
  invalidateNarrowBracePairs : LiteEngine K → Res (LiteEngine K)
  invalidateCrossingBraces : LiteEngine K → Res (LiteEngine K)
  drawValidBraces : LiteEngine K → Res (LiteEngine K)
  openBraceGaps : Bool → LiteEngine K → Res (LiteEngine K)
  girderHsplit : LiteEngine K → obj K → obj K → K → Res (obj K × obj K)
  girderVsplit : LiteEngine K → obj K → obj K → Res (obj K × obj K)
  simpleHsplit : LiteEngine K → obj K → Res (obj K)
  simpleVsplit : LiteEngine K → obj K → Res (obj K)

section Engine
variable {K : Type} [LinearOrderedField K]

/-- `LiteEngine::progress` -/
def LiteEngine.progress (g : LiteEngine K) : LiteEngine K :=
  match g.progressBar with
  | some cval => { g with progressBar := some (cval + 1) }
  | none => g

/-- The part of `LiteEngine::run` inside `if (girder)` that places the anchors
and builds the braces. -/
def run_girder (S : Stages K) (anchorAtNotches : Bool) (g : LiteEngine K) :
    Res (LiteEngine K) :=
  (S.generateAnchorPoints anchorAtNotches g).bind fun a =>
    if a.1 then
      let g := a.2.progress
      (S.generateBraces g).bind fun b =>
        if b.1 then
          let g := b.2.progress
          (S.invalidateNarrowBracePairs g).bind fun g =>
          (S.invalidateCrossingBraces g).bind fun g =>
          (S.drawValidBraces g).bind fun g =>
          (S.openBraceGaps false g).bind fun g =>
          S.openBraceGaps true g
        else
          .ok b.2.progress
    else
      .ok a.2.progress

/-- `LiteEngine::run`: the value returned, the object `out` and the engine
after the call. -/
def run (S : Stages K) (m : Libm K) (g : LiteEngine K) (inObj : obj K)
    (lighten notchDetect girder showConstruction anchorAtNotches hSplit vSplit : Bool) :
    Res (Bool × obj K × LiteEngine K) :=
  -- out.del(); inp = in; inp.regularise();
  (regularise m inObj).bind fun inp =>
    let g := { g with inp := inp }
    if inp.length ≤ 2 then
      -- out.copy_from(inp); return false;
      .ok (false, [] ++ inp, g)
    else
      (S.createOuterRimOuter notchDetect g).bind fun g =>
      let g := g.progress
      (if girder then S.createOuterRimInner g else .ok g).bind fun g =>
      let g := g.progress
      (if lighten then
          (if girder then S.createInnerRimOuter g.ori g else S.createInnerRimOuter g.oro g)
        else .ok g).bind fun g =>
      let g := g.progress
      (if girder then S.createInnerRimInner g.iw g else S.createInnerRimInner 0 g).bind fun g =>
      let g := g.progress
      (if girder then run_girder S anchorAtNotches g else .ok g).bind fun g =>
      let g := g.progress
      let outline := g.oro ++ g.iri
      let inners := g.ori ++ g.iro ++ g.bro
      let g := g.progress
      (if girder then
          (if hSplit then S.girderHsplit g outline inners g.sp else .ok (outline, inners)).bind
            fun oi =>
          if vSplit then S.girderVsplit g oi.1 oi.2 else .ok oi
        else
          (if hSplit then S.simpleHsplit g outline else .ok outline).bind fun o =>
          (if vSplit then S.simpleVsplit g o else .ok o).bind fun o =>
          .ok (o, inners)).bind fun oi =>
      let out := oi.1
      let out := if girder then out ++ oi.2 else out
      let out := if showConstruction then out ++ g.construct else out
      .ok (true, out, g)

end Engine

/-! ## Specification vocabulary -/

section SpecVocabulary
variable {K : Type} [LinearOrderedField K]

/-- The point `p` lies on the segment `l`: it is `S0 + t.V` for a `t` in `[0,1]`. -/
def OnSegment (l : line K) (p : coord_t K) : Prop :=
  ∃ t : K, 0 ≤ t ∧ t ≤ 1 ∧ l.get_pt t = p

/-- The two segments have a point in common. -/
def SegmentsMeet (l l2 : line K) : Prop :=
  ∃ p : coord_t K, OnSegment l p ∧ OnSegment l2 p

/-- The segment has non-zero length: its direction vector is not zero. -/
def NonZero (l : line K) : Prop := l.V.dx ≠ 0 ∨ l.V.dy ≠ 0

/-- The two segments lie on one line: parallel directions, and the vector from
one start point to the other is parallel to both. -/
def Collinear (l l2 : line K) : Prop :=
  perpprod l.V l2.V = 0 ∧
    perpprod l.V ⟨l.S0.x - l2.S0.x, l.S0.y - l2.S0.y⟩ = 0 ∧
    perpprod l2.V ⟨l.S0.x - l2.S0.x, l.S0.y - l2.S0.y⟩ = 0

/-- The parameter of the foot of the perpendicular from `p` on the infinite
line through `l`, as `distance_to_point` computes it. -/
def projParam (l : line K) (p : coord_t K) : K :=
  (((p.x - l.S0.x) * l.V.dx) + ((p.y - l.S0.y) * l.V.dy)) /
    ((l.V.dx * l.V.dx) + (l.V.dy * l.V.dy))

/-- The part of a closed sub-path after its first element `s1`, as it must be
for a trace from `s1` to run through it unchanged: each element starts exactly
where its predecessor `prev` ends, ends farther than `snap` from that point,
and ends farther than `snap` from the start of `s1`, except the last element,
which ends exactly there. -/
def LoopTail (m : Libm K) (snap : K) (s1 : line K) : line K → List (line K) → Prop
  | _, [] => False
  | prev, [x] =>
    x.S0 = prev.get_S1 ∧ ¬ distTwoPoints m prev.get_S1 x.get_S1 ≤ snap ∧ x.get_S1 = s1.get_S0
  | prev, x :: y :: more =>
    x.S0 = prev.get_S1 ∧ ¬ distTwoPoints m prev.get_S1 x.get_S1 ≤ snap ∧
      ¬ distTwoPoints m s1.get_S0 x.get_S1 ≤ snap ∧ LoopTail m snap s1 x (y :: more)

/-- A closed sub-path in normal form: exactly contiguous and closed, of
elements as in `LoopTail`, and clockwise for `is_clockwise`. -/
def NormalLoop (m : Libm K) (snap : K) : List (line K) → Prop
  | [] => False
  | s1 :: rem => LoopTail m snap s1 s1 rem ∧ is_clockwise m s1 rem = true

/-- A path in normal form: closed sub-paths in normal form laid end to end,
no two elements identical, no element shorter than `SMALL_NUM`. -/
def NormalPath (m : Libm K) (loops : List (List (line K))) : Prop :=
  (∀ L ∈ loops, NormalLoop m SNAP_LEN L) ∧
    loops.flatten.Pairwise (fun a b => a.is_same_as b = false) ∧
    ∀ l ∈ loops.flatten, ¬ l.len m < SMALL_NUM

/-- Every member function taken as a parameter returns (none ends in `FATAL`). -/
def Stages.Total {K : Type} (S : Stages K) : Prop :=
  (∀ b g, ∃ g', S.createOuterRimOuter b g = .ok g') ∧
  (∀ g, ∃ g', S.createOuterRimInner g = .ok g') ∧
  (∀ o g, ∃ g', S.createInnerRimOuter o g = .ok g') ∧
  (∀ k g, ∃ g', S.createInnerRimInner k g = .ok g') ∧
  (∀ b g, ∃ r, S.generateAnchorPoints b g = .ok r) ∧
  (∀ g, ∃ r, S.generateBraces g = .ok r) ∧
  (∀ g, ∃ g', S.invalidateNarrowBracePairs g = .ok g') ∧
  (∀ g, ∃ g', S.invalidateCrossingBraces g = .ok g') ∧
  (∀ g, ∃ g', S.drawValidBraces g = .ok g') ∧
  (∀ b g, ∃ g', S.openBraceGaps b g = .ok g') ∧
  (∀ g o i k, ∃ r, S.girderHsplit g o i k = .ok r) ∧
  (∀ g o i, ∃ r, S.girderVsplit g o i = .ok r) ∧
  (∀ g o, ∃ r, S.simpleHsplit g o = .ok r) ∧
  (∀ g o, ∃ r, S.simpleVsplit g o = .ok r)

end SpecVocabulary

/-! ## Inputs of the examples -/

section Inputs
variable {K : Type} [LinearOrderedField K]

/-- The segment from `(0,0)` to `(2,0)`. -/
def baseSegment : line K := ⟨⟨0, 0⟩, ⟨2, 0⟩⟩

/-- The segment from `(1,-1)` to `(1,1)`. -/
def crossSegment : line K := ⟨⟨1, -1⟩, ⟨0, 2⟩⟩

/-- The segment from `(0,0)` to `(1,0)`. -/
def segAB : line K := ⟨⟨0, 0⟩, ⟨1, 0⟩⟩

/-- The segment from `(1,0)` to `(0,0)`. -/
def segBA : line K := ⟨⟨1, 0⟩, ⟨-1, 0⟩⟩

/-- The segment from `(1,0)` to `(2,0)`. -/
def segBC : line K := ⟨⟨1, 0⟩, ⟨1, 0⟩⟩

/-- The segment from `(1,0)` to `(1,1)`. -/
def segBD : line K := ⟨⟨1, 0⟩, ⟨0, 1⟩⟩

/-- The segment from `(1,1)` to `(1,0)`. -/
def segDB : line K := ⟨⟨1, 1⟩, ⟨0, -1⟩⟩

/-- The unit square with corners `(0,0)` and `(1,1)`, drawn clockwise from
`(0,0)`: up, right, down, left. -/
def unitSquare : obj K :=
  [⟨⟨0, 0⟩, ⟨0, 1⟩⟩, ⟨⟨0, 1⟩, ⟨1, 0⟩⟩, ⟨⟨1, 1⟩, ⟨0, -1⟩⟩, ⟨⟨1, 0⟩, ⟨-1, 0⟩⟩]

/-- An engine with every number zero, no progress bar and every object empty. -/
def blankEngine : LiteEngine K :=
  { rs := 0, ow := 0, iw := 0, gw := 0, anchorSpan := 0, ma := 0, sp := 0,
    mode := .FORMER, di := .LEFT, progressBar := none,
    inp := [], non := [], oro := [], ori := [], reforo := [], refori := [],
    iro := [], iri := [], construct := [], bro := [],
    notches := [], anchors := [], nAnchors := 0 }

/-- Member functions that leave the engine and the objects as they are, with
anchor placement reporting failure. -/
def failingAnchorStages : Stages K :=
  { createOuterRimOuter := fun _ g => .ok g
    createOuterRimInner := fun g => .ok g
    createInnerRimOuter := fun _ g => .ok g
    createInnerRimInner := fun _ g => .ok g
    generateAnchorPoints := fun _ g => .ok (false, g)
    generateBraces := fun g => .ok (true, g)
    invalidateNarrowBracePairs := fun g => .ok g
    invalidateCrossingBraces := fun g => .ok g
    drawValidBraces := fun g => .ok g
    openBraceGaps := fun _ g => .ok g
    girderHsplit := fun _ o i _ => .ok (o, i)
    girderVsplit := fun _ o i => .ok (o, i)
    simpleHsplit := fun _ o => .ok o
    simpleVsplit := fun _ o => .ok o }

end Inputs

/-! ## Vocabulary of the offset trace of a square -/

section SquareVocabulary

/-- The square with corners `(0,0)` and `(S,S)`, drawn clockwise from `(0,0)`. -/
def squareAt0 {K : Type} [LinearOrderedField K] (S : K) : obj K :=
  [⟨⟨0, 0⟩, ⟨0, S⟩⟩, ⟨⟨0, S⟩, ⟨S, 0⟩⟩, ⟨⟨S, S⟩, ⟨0, -S⟩⟩, ⟨⟨S, 0⟩, ⟨-S, 0⟩⟩]

/-- The linear offsetting line of the trace that starts at `p` and runs by `v`. -/
def lineCand {K : Type} (p : coord_t K) (v : vector_t K) (idx : Nat) (valid : Bool) :
    offset_line K :=
  ⟨⟨p, v⟩, valid, false, idx⟩

/-- Five offsetting lines of one side: at the parameters `0.000001`, `1/4`,
`1/2`, `3/4` and `0.999999`, with the given `valid` flags. -/
def sideCands {K : Type} [LinearOrderedField K] (f : K → coord_t K) (v : vector_t K) (idx : Nat)
    (b0 b1 b2 b3 b4 : Bool) : List (offset_line K) :=
  [lineCand (f (1 / 1000000)) v idx b0, lineCand (f (1 / 4)) v idx b1,
    lineCand (f (1 / 2)) v idx b2, lineCand (f (3 / 4)) v idx b3,
    lineCand (f (999999 / 1000000)) v idx b4]

/-- The twenty offsetting lines of the square of side `S` for the offset `-d`:
five on each side, of length `d`, pointing inward, with the given `valid`
flags (the same on every side). -/
def squareCandsF {K : Type} [LinearOrderedField K] (S d : K) (b0 b1 b2 b3 b4 : Bool) :
    List (offset_line K) :=
  sideCands (fun T => ⟨0, T * S⟩) ⟨d, 0⟩ 0 b0 b1 b2 b3 b4 ++
  sideCands (fun T => ⟨T * S, S⟩) ⟨0, -d⟩ 1 b0 b1 b2 b3 b4 ++
  sideCands (fun T => ⟨S, S - T * S⟩) ⟨-d, 0⟩ 2 b0 b1 b2 b3 b4 ++
  sideCands (fun T => ⟨S - T * S, 0⟩) ⟨0, d⟩ 3 b0 b1 b2 b3 b4

/-- The path joined through the four valid end points, before it is closed. -/
def diamondOpen {K : Type} [LinearOrderedField K] (S d : K) : obj K :=
  [⟨⟨d, S / 2⟩, ⟨0, 0⟩⟩,
   ⟨⟨d, S / 2⟩, ⟨S / 2 - d, S / 2 - d⟩⟩,
   ⟨⟨S / 2, S - d⟩, ⟨S / 2 - d, -(S / 2 - d)⟩⟩,
   ⟨⟨S - d, S / 2⟩, ⟨-(S / 2 - d), -(S / 2 - d)⟩⟩]

/-- The diamond through the middles of the sides of the square of side
`S - 2 d` centred in the square of side `S`, clockwise from `(d, S/2)`. -/
def diamond {K : Type} [LinearOrderedField K] (S d : K) : obj K :=
  [⟨⟨d, S / 2⟩, ⟨S / 2 - d, S / 2 - d⟩⟩,
   ⟨⟨S / 2, S - d⟩, ⟨S / 2 - d, -(S / 2 - d)⟩⟩,
   ⟨⟨S - d, S / 2⟩, ⟨-(S / 2 - d), -(S / 2 - d)⟩⟩,
   ⟨⟨S / 2, d⟩, ⟨-(S / 2 - d), S / 2 - d⟩⟩]

/-- A run of elements that a trace from `s1` appends one after the other
without closing: each starts exactly where its predecessor `prev` ends, and
ends farther than `snap` from that point and from the start of `s1`. -/
def MidTail {K : Type} [LinearOrderedField K] (m : Libm K) (snap : K) (s1 : line K) : line K → List (line K) → Prop
  | _, [] => True
  | prev, x :: more =>
    x.S0 = prev.get_S1 ∧ ¬ distTwoPoints m prev.get_S1 x.get_S1 ≤ snap ∧
      ¬ distTwoPoints m s1.get_S0 x.get_S1 ≤ snap ∧ MidTail m snap s1 x more

/-- The corners of the square of side `S - 2 d` that has the centre of the
square between `(0,0)` and `(S,S)`. -/
def innerSquareCorners {K : Type} [LinearOrderedField K] (S d : K) : List (coord_t K) :=
  [⟨d, d⟩, ⟨d, S - d⟩, ⟨S - d, S - d⟩, ⟨S - d, d⟩]

end SquareVocabulary

/-! ## Vocabulary of polygons -/

section PolygonVocabulary

/-- The chain of segments from `a` through the points `ps`, each segment
starting exactly where its predecessor ends. -/
def pathOf {K : Type} [LinearOrderedField K] (a : coord_t K) : List (coord_t K) → List (line K)
  | [] => []
  | p :: ps => line.ofPoints a p :: pathOf p ps

/-- The closed polygon through the vertices `vs`, as the segment list from
each vertex to the next and from the last to the first. -/
def polygon {K : Type} [LinearOrderedField K] : List (coord_t K) → obj K
  | [] => []
  | a :: rest => pathOf a (rest ++ [a])

/-- The two end points of a segment, without their order. -/
def endsKey {K : Type} [LinearOrderedField K] (l : line K) : Sym2 (coord_t K) :=
  s(l.get_S0, l.get_S1)

/-- The list `e` is a permutation of `poly` with a subset of its segments
reversed. -/
def Scrambled {K : Type} [LinearOrderedField K] (poly e : obj K) : Prop :=
  ∃ f : List (line K), List.Forall₂ (fun l x => x = l ∨ x = l.reverse) poly f ∧ f.Perm e

/-- The path run backwards: the segments in the opposite order, each reversed. -/
def revPath {K : Type} [LinearOrderedField K] (L : List (line K)) : List (line K) :=
  (L.map line.reverse).reverse

/-- The turning angle from one segment to the next, as the loop of
`obj::is_clockwise` computes it. -/
def turnAngle {K : Type} [LinearOrderedField K] (m : Libm K) (u v : line K) : K :=
  m.atan2 (perpprod u.get_V v.get_V) (dotprod u.get_V v.get_V)

/-- The sum of `f` over the pairs of successive elements of a list. -/
def linSum {K : Type} [LinearOrderedField K] {α : Type} (f : α → α → K) : List α → K
  | [] => 0
  | [_] => 0
  | x :: y :: r => f x y + linSum f (y :: r)

/-- The value of `ang_acc` when the loop of `obj::is_clockwise` ends: the sum
of the turning angles round the path. -/
def turning {K : Type} [LinearOrderedField K] (m : Libm K) : List (line K) → K
  | [] => 0
  | f :: more =>
    (is_clockwise_loop m (f :: more) 0 0 ((f :: more).getLast (List.cons_ne_nil _ _))).1

/-- The segment `v` runs back in the direction opposite to `u`. -/
def DoublesBack {K : Type} [LinearOrderedField K] (u v : line K) : Prop :=
  perpprod u.V v.V = 0 ∧ dotprod u.V v.V < 0

/-- No segment of the closed path runs back over its predecessor (the
predecessor of the first segment is the last). -/
def NoSpike {K : Type} [LinearOrderedField K] : List (line K) → Prop
  | [] => True
  | f :: more =>
    List.Chain (fun u v => ¬ DoublesBack u v) ((f :: more).getLast (List.cons_ne_nil _ _))
      (f :: more)

end PolygonVocabulary

/-! ## Inputs of the polygon examples -/

section PolygonInputs
variable {K : Type} [LinearOrderedField K]

/-- The segment from `(1,0)` to `(0, 1/20000)`. -/
def sliverBC : line K := ⟨⟨1, 0⟩, ⟨-1, 1 / 20000⟩⟩

/-- The segment from `(0, 1/20000)` to `(0,0)`. -/
def sliverCA : line K := ⟨⟨0, 1 / 20000⟩, ⟨0, -(1 / 20000)⟩⟩

/-- The triangle with the vertices `(0,0)`, `(1,0)` and `(0, 1/20000)`: its
third side is half of `SNAP_LEN` long. -/
def sliverTriangle : obj K := [segAB, sliverBC, sliverCA]

/-- The corners of the unit square, clockwise from `(0,0)`. -/
def unitSquareCorners : List (coord_t K) := [⟨0, 0⟩, ⟨0, 1⟩, ⟨1, 1⟩, ⟨1, 0⟩]

/-- The sides of the unit square in the order third, first, fourth, second,
the first and the fourth of them reversed. -/
def scrambledSquare : obj K :=
  [⟨⟨1, 1⟩, ⟨0, -1⟩⟩, ⟨⟨0, 1⟩, ⟨0, -1⟩⟩, ⟨⟨0, 0⟩, ⟨1, 0⟩⟩, ⟨⟨0, 1⟩, ⟨1, 0⟩⟩]

end PolygonInputs

section LoopVocabulary

/-- The segments form an exactly contiguous and exactly closed path: each
starts at the end point of its predecessor, and the last ends at the start
point of the first. -/
def ExactLoop {K : Type} [LinearOrderedField K] (L : List (line K)) : Prop :=
  L ≠ [] ∧ List.Chain' (fun x y => y.get_S0 = x.get_S1) L ∧
    L.getLast?.map line.get_S1 = L.head?.map line.get_S0

end LoopVocabulary

section ReversalVocabulary

end ReversalVocabulary

/-! ## Intersections with a vertical line, gaps and slots (object_oo.cpp) -/

section SlotModel
variable {K : Type} [LinearOrderedField K]

/-- `slot_style_e` -/
inductive slot_style_e where
  | VERTICAL | CENGRAD
deriving DecidableEq

/-- `class obj_line_intersect`: the ratio `T` along the intersecting line, the
position `ln` of the intersected element and the point `pt` of intersection. -/
structure obj_line_intersect (K : Type) where
  T : K
  ln : Nat
  pt : coord_t K

/-- `line::T_for_y` -/
def line.T_for_y (l : line K) (y : K) : K :=
  if l.is_horizontal then 0 else (y - l.S0.y) / l.V.dy

/-- `line::T_for_x` -/
def line.T_for_x (l : line K) (x : K) : K :=
  if l.is_vertical then 0 else (x - l.S0.x) / l.V.dx

/-- `line::T_for_pt` -/
def line.T_for_pt (l : line K) (pt : coord_t K) : K :=
  if |l.V.dx| > |l.V.dy| then l.T_for_x pt.x else l.T_for_y pt.y

/-- `line::set_length` -/
def line.set_length (m : Libm K) (l : line K) (length : K) : line K :=
  let scale := length / l.len m
  ⟨l.S0, ⟨l.V.dx * scale, l.V.dy * scale⟩⟩

/-- `obj::test_extremity`: the return value and the values left in `*res`,
`*ptu` and `*ptd`. -/
def test_extremity (dir : direction_e) (var res : K) (ptu ptd inPt : coord_t K) :
    Bool × K × coord_t K × coord_t K :=
  if ((dir = .LEFT ∨ dir = .DOWN) ∧ var < res) ∨ ((dir = .RIGHT ∨ dir = .UP) ∧ var > res) then
    -- a new best value
    (true, var, inPt, inPt)
  else if res = var then
    -- matching value, move the upper or lower point
    let uy := if (dir = .LEFT ∨ dir = .RIGHT) ∧ inPt.y > ptu.y then inPt.y else ptu.y
    let dy := if (dir = .LEFT ∨ dir = .RIGHT) ∧ inPt.y < ptd.y then inPt.y else ptd.y
    let ux := if (dir = .UP ∨ dir = .DOWN) ∧ inPt.x > ptu.x then inPt.x else ptu.x
    let dx := if (dir = .UP ∨ dir = .DOWN) ∧ inPt.x < ptd.x then inPt.x else ptd.x
    (true, res, ⟨ux, uy⟩, ⟨dx, dy⟩)
  else
    (false, res, ptu, ptd)

/-- The entries `extremity[dir]`, `ptu[dir]`, `ptd[dir]` and `elm[dir]` of
`obj::find_extremity` for one direction. -/
structure ext_entry (K : Type) where
  extremity : K
  ptu : coord_t K
  ptd : coord_t K
  elm : Nat

/-- The body of the loops of `obj::find_extremity` for the element `ln` at
position `idx` and the direction `dir`. -/
def find_extremity_step (dir : direction_e) (ln : line K) (idx : Nat) (s : ext_entry K) :
    ext_entry K :=
  let S0 := if dir = .UP ∨ dir = .DOWN then ln.get_S0.y else ln.get_S0.x
  let S1 := if dir = .UP ∨ dir = .DOWN then ln.get_S1.y else ln.get_S1.x
  let r0 := test_extremity dir S0 s.extremity s.ptu s.ptd ln.get_S0
  let elm0 := if r0.1 then idx else s.elm
  let r1 := test_extremity dir S1 r0.2.1 r0.2.2.1 r0.2.2.2 ln.get_S1
  ⟨r1.2.1, r1.2.2.1, r1.2.2.2, if r1.1 then idx else elm0⟩

/-- The `while` loop of `obj::find_extremity`, for one direction (the entries
of different directions do not depend on one another). -/
def find_extremity_loop (dir : direction_e) : List (line K) → Nat → ext_entry K → ext_entry K
  | [], _, s => s
  | ln :: rest, idx, s =>
    find_extremity_loop dir rest (idx + 1) (find_extremity_step dir ln idx s)

/-- `obj::find_extremity(pt, extremity, elm)`: the entries `pt[dir]`,
`extremity[dir]` and `elm[dir]`.  `HUGE` is the macro of `<cmath>`, a parameter
here; `elm[dir]`, which the code leaves as the caller made it when no test
succeeds, starts as `end()`. -/
def obj.find_extremity (HUGE : K) (o : obj K) (dir : direction_e) : coord_t K × K × Nat :=
  match o with
  | [] => (⟨0, 0⟩, 0, 0)
  | _ :: _ =>
    let init : ext_entry K :=
      ⟨if dir = .LEFT ∨ dir = .DOWN then HUGE else -HUGE, ⟨0, 0⟩, ⟨0, 0⟩, o.length⟩
    let s := find_extremity_loop dir o 0 init
    ((line.ofPoints s.ptu s.ptd).get_pt (1 / 2), s.extremity, s.elm)

/-- The `do .. while` loop of `obj::line_intersect(l2, isects,
allowExtrapolation)` that extends `l2` beyond the extremities `ext` of the
object; the first argument bounds the number of rounds. -/
def expand_loop (ext : direction_e → K) : Nat → line K → Option (line K)
  | 0, _ => none
  | n + 1, l2 =>
    let S0 := l2.get_pt (-1)
    let S1 := l2.get_pt 2
    let l2a := line.ofPoints S0 S1
    if ((S0.x < ext .LEFT ∧ S1.x > ext .RIGHT) ∨ (S1.x < ext .LEFT ∧ S0.x > ext .RIGHT)) ∨
        ((S0.y < ext .DOWN ∧ S1.y > ext .UP) ∨ (S1.y < ext .DOWN ∧ S0.y > ext .UP)) then
      some l2a
    else expand_loop ext n l2a

/-- The `for` loop of `obj::line_intersect(l2, isects, allowExtrapolation)`
over the elements from position `idx` on: the list `isects` and `retval`. -/
def collect_loop (m : Libm K) (l2 : line K) :
    List (line K) → Nat → List (obj_line_intersect K) → Bool →
      List (obj_line_intersect K) × Bool
  | [], _, isects, retval => (isects, retval)
  | ln :: rest, idx, isects, retval =>
    let r := ln.lines_intersect m l2 false
    if r.1 then collect_loop m l2 rest (idx + 1) (isects ++ [⟨l2.T_for_pt r.2, idx, r.2⟩]) true
    else collect_loop m l2 rest (idx + 1) isects retval

/-- `obj::line_intersect(l2, isects, allowExtrapolation)` for `isects` not
null: the return value and the list `isects`, filled from empty and sorted by
increasing `T` (`std::list::sort`, a stable sort, with `intersect_sort`). -/
def obj.line_intersect_list (m : Libm K) (HUGE : K) (fuel : Nat) (o : obj K) (l2 : line K)
    (allowExtrapolation : Bool) : Res (Bool × List (obj_line_intersect K)) :=
  let l2e := if allowExtrapolation then
      expand_loop (fun d => (o.find_extremity HUGE d).2.1) fuel l2
    else some l2
  match l2e with
  | none => .fuel
  | some l2a =>
    let r := collect_loop m l2a o 0 [] false
    .ok (r.2, r.1.insertionSort (fun a b => a.T ≤ b.T))

/-- `obj::top_bot_intersect(xpos, upper, lower, it_upper, it_lower)`: `none`
for the return value false (nothing is written), else `upper`, `lower`,
`it_upper` and `it_lower`. -/
def obj.top_bot_intersect (m : Libm K) (HUGE : K) (fuel : Nat) (o : obj K) (xpos : K) :
    Res (Option (coord_t K × coord_t K × Nat × Nat)) :=
  let ref := line.ofPoints ⟨xpos, 0⟩ ⟨xpos, 1⟩
  match o.line_intersect_list m HUGE fuel ref true with
  | .ok r =>
    match r.2 with
    | [] => .ok none
    | first :: more =>
      let back := (first :: more).getLast (List.cons_ne_nil _ _)
      .ok (some (back.pt, first.pt, back.ln, first.ln))
  | .fatal => .fatal
  | .undef => .undef
  | .fuel => .fuel

/-- `obj::dir_intersect(dir, xpos, pt, ln)` through `top_intersect` and
`bot_intersect`: `none` for the return value false, else `pt` and `ln`. -/
def obj.dir_intersect (m : Libm K) (HUGE : K) (fuel : Nat) (o : obj K) (dir : direction_e)
    (xpos : K) : Res (Option (coord_t K × Nat)) :=
  match dir with
  | .UP =>
    (o.top_bot_intersect m HUGE fuel xpos).bind fun r =>
      .ok (r.map fun t => (t.1, t.2.2.1))
  | .DOWN =>
    (o.top_bot_intersect m HUGE fuel xpos).bind fun r =>
      .ok (r.map fun t => (t.2.1, t.2.2.2))
  | _ => .ok none

/-- `obj::nextc` on positions (`end()` is the length). -/
def obj.nextc (o : obj K) (ln : Nat) : Nat :=
  if o.length = 0 then o.length
  else if ln + 1 = o.length then 0
  else ln + 1

/-- The `while` loop of `obj::make_gap` that deletes the whole segments
between `l0` and `l1`: the list and the positions of `l0` and `l1` in it.  The
first argument bounds the number of rounds; `del(ln)` on `end()` is fatal, and
deleting the element that `nxt` refers to is undefined. -/
def make_gap_loop : Nat → obj K → Nat → Nat → Nat → Res (obj K × Nat × Nat)
  | 0, _, _, _, _ => .fuel
  | n + 1, e, ln, l0, l1 =>
    if ln = l1 then .ok (e, l0, l1)
    else if e.length ≤ ln then .fatal
    else
      let nxt := e.nextc ln
      if nxt = ln then .undef
      else
        let shift := fun i : Nat => if ln < i then i - 1 else i
        make_gap_loop n (e.eraseIdx ln) (shift nxt) (shift l0) (shift l1)

/-- `obj::make_gap(l0, p0, l1, p1, noNewLines)` for the handles at the
positions `l0` and `l1`. -/
def obj.make_gap (o : obj K) (l0 : Nat) (p0 : coord_t K) (l1 : Nat) (p1 : coord_t K)
    (noNewLines : Bool) : Res (obj K) :=
  if l0 ≠ l1 then
    (make_gap_loop (o.length + 1) o (o.nextc l0) l0 l1).bind fun r =>
      match r.1[r.2.1]?, r.1[r.2.2]? with
      | some a, some b =>
        .ok ((r.1.set r.2.1 (line.ofPoints a.get_S0 p0)).set r.2.2 (line.ofPoints p1 b.get_S1))
      | _, _ => .undef
  else
    match o[l0]? with
    | none => .undef
    | some a =>
      let s1 := a.get_S1
      let e1 := o.set l0 (line.ofPoints a.get_S0 p0)
      if noNewLines then
        match e1[obj.nextc e1 l0]? with
        | some n => .ok (e1.set (obj.nextc e1 l0) (line.ofPoints p1 n.get_S1))
        | none => .undef
      else .ok (e1 ++ [line.ofPoints p1 s1])

/-- `obj::regularise_no_del` -/
def obj.regularise_no_del (m : Libm K) (e : obj K) : Res (obj K) :=
  match make_path_lists m SNAP_LEN e [] [] with
  | .ok r => .ok r.1
  | .fatal => .fatal
  | .undef => .undef
  | .fuel => .fuel

/-- The line `slotref` of `obj::cut_slot` before the corners are looked for:
through `ptc` with the direction `v` of the segment found there, made
horizontal for the style `VERTICAL`, set to the length `width / 2`, then reset
to run from its point at `-1` to its point at `1`. -/
def slot_reference (m : Libm K) (ptc : coord_t K) (v : vector_t K) (width : K)
    (style : slot_style_e) : line K :=
  let slotref0 : line K := ⟨ptc, v⟩
  let slotref1 : line K :=
    if style = .VERTICAL then ⟨slotref0.get_S0, ⟨slotref0.get_V.dx, 0⟩⟩ else slotref0
  let slotref2 := slotref1.set_length m (width / 2)
  line.ofPoints (slotref2.get_pt (-1)) (slotref2.get_pt 1)

/-- `obj::cut_slot(dir, xpos, width, depth, style, pt0, pt1)`: the return
value, the path, and the values left in `*pt0` and `*pt1`. -/
def obj.cut_slot (m : Libm K) (HUGE : K) (fuel : Nat) (o : obj K) (dir : direction_e)
    (xpos width depth : K) (style : slot_style_e) (pt0 pt1 : coord_t K) :
    Res (Bool × obj K × coord_t K × coord_t K) :=
  (o.regularise_no_del m).bind fun e1 =>
  -- Find the reference centre point and centre line segment
  (e1.dir_intersect m HUGE fuel dir xpos).bind fun rc =>
  match rc with
  | none => .ok (false, e1, pt0, pt1)
  | some (ptc, lnc) =>
    match e1[lnc]? with
    | none => .undef
    | some lc =>
      let slotref := slot_reference m ptc lc.get_V width style
      -- Find the corner intersect points and lines
      (e1.dir_intersect m HUGE fuel dir slotref.get_S0.x).bind fun r0 =>
      match r0 with
      | none => .ok (false, e1, pt0, pt1)
      | some (q0, l0) =>
        (e1.dir_intersect m HUGE fuel dir slotref.get_S1.x).bind fun r1 =>
        match r1 with
        | none => .ok (false, e1, q0, pt1)
        | some (q1, l1) =>
          -- Open a gap between pt0 and pt1
          (e1.make_gap l0 q0 l1 q1 false).bind fun e2 =>
          -- Draw the slot
          let slot_bottom := slotref.move_sideways m (-depth)
          let e3 := e2 ++ [line.ofPoints q0 slot_bottom.get_S0,
            line.ofPoints slot_bottom.get_S1 q1, slot_bottom]
          (obj.regularise_no_del m e3).bind fun e4 => .ok (true, e4, q0, q1)

end SlotModel

section SlotInputs
variable {K : Type} [LinearOrderedField K]

/-- The path of the single vertical segment from `(0,0)` to `(0,1)`. -/
def verticalUnit : obj K := [⟨⟨0, 0⟩, ⟨0, 1⟩⟩]

end SlotInputs

section SlotPathInputs
variable {K : Type} [LinearOrderedField K]

/-- The segment from `(0,0)` to `(1,0)` followed by a segment of direction
`(1,0)` that starts at `(1, 1/20000)`, half of `SNAP_LEN` above the end of the
first. -/
def gapPath : obj K := [⟨⟨0, 0⟩, ⟨1, 0⟩⟩, ⟨⟨1, 1 / 20000⟩, ⟨1, 0⟩⟩]

/-- The path `gapPath` as `regularise_no_del` leaves it: the second segment
starts at the end of the first. -/
def gapPathSnapped : obj K := [⟨⟨0, 0⟩, ⟨1, 0⟩⟩, ⟨⟨1, 0⟩, ⟨1, 1 / 20000⟩⟩]

/-- The path `gapPathSnapped` with the gap for the slot and the three segments
of the slot appended, as `cut_slot` hands it to `regularise_no_del`. -/
def gapPathCut : obj K :=
  [⟨⟨0, 0⟩, ⟨1, 0⟩⟩,
   line.ofPoints ⟨1, 0⟩ ⟨5 / 4, 1 / 80000⟩,
   line.ofPoints ⟨7 / 4, 3 / 80000⟩ ⟨2, 1 / 20000⟩,
   line.ofPoints ⟨5 / 4, 1 / 80000⟩ ⟨5 / 4, -9999 / 40000⟩,
   line.ofPoints ⟨7 / 4, -9999 / 40000⟩ ⟨7 / 4, 3 / 80000⟩,
   line.ofPoints ⟨5 / 4, -9999 / 40000⟩ ⟨7 / 4, -9999 / 40000⟩]

/-- The path `gapPath` with the slot cut. -/
def gapPathSlotted : obj K :=
  [⟨⟨0, 0⟩, ⟨1, 0⟩⟩,
   line.ofPoints ⟨1, 0⟩ ⟨5 / 4, 1 / 80000⟩,
   line.ofPoints ⟨5 / 4, 1 / 80000⟩ ⟨5 / 4, -9999 / 40000⟩,
   line.ofPoints ⟨5 / 4, -9999 / 40000⟩ ⟨7 / 4, -9999 / 40000⟩,
   line.ofPoints ⟨7 / 4, -9999 / 40000⟩ ⟨7 / 4, 3 / 80000⟩,
   line.ofPoints ⟨7 / 4, 3 / 80000⟩ ⟨2, 1 / 20000⟩]

/-- The path of the single segment from `(0,0)` to `(4,2)`. -/
def slopePath : obj K := [⟨⟨0, 0⟩, ⟨4, 2⟩⟩]

/-- The path `slopePath` with the gap for the slot and the three segments of
the slot appended, as `cut_slot` hands it to `regularise_no_del`. -/
def slopePathCut : obj K :=
  [line.ofPoints ⟨0, 0⟩ ⟨1, 1 / 2⟩,
   line.ofPoints ⟨3, 3 / 2⟩ ⟨4, 2⟩,
   line.ofPoints ⟨1, 1 / 2⟩ ⟨1, 0⟩,
   line.ofPoints ⟨3, 0⟩ ⟨3, 3 / 2⟩,
   line.ofPoints ⟨1, 0⟩ ⟨3, 0⟩]

/-- The path `slopePath` with the slot cut. -/
def slopePathSlotted : obj K :=
  [line.ofPoints ⟨0, 0⟩ ⟨1, 1 / 2⟩,
   line.ofPoints ⟨1, 1 / 2⟩ ⟨1, 0⟩,
   line.ofPoints ⟨1, 0⟩ ⟨3, 0⟩,
   line.ofPoints ⟨3, 0⟩ ⟨3, 3 / 2⟩,
   line.ofPoints ⟨3, 3 / 2⟩ ⟨4, 2⟩]

end SlotPathInputs

section FlatPathInputs
variable {K : Type} [LinearOrderedField K]

/-- The path of the single segment from `(0,0)` to `(4,0)`. -/
def flatPath : obj K := [⟨⟨0, 0⟩, ⟨4, 0⟩⟩]

/-- The path `flatPath` with the gap for the slot and the three segments of
the slot appended, as `cut_slot` hands it to `regularise_no_del`. -/
def flatPathCut : obj K :=
  [line.ofPoints ⟨0, 0⟩ ⟨1, 0⟩,
   line.ofPoints ⟨3, 0⟩ ⟨4, 0⟩,
   line.ofPoints ⟨1, 0⟩ ⟨1, -1⟩,
   line.ofPoints ⟨3, -1⟩ ⟨3, 0⟩,
   line.ofPoints ⟨1, -1⟩ ⟨3, -1⟩]

/-- The path `flatPath` with the slot cut. -/
def flatPathSlotted : obj K :=
  [line.ofPoints ⟨0, 0⟩ ⟨1, 0⟩,
   line.ofPoints ⟨1, 0⟩ ⟨1, -1⟩,
   line.ofPoints ⟨1, -1⟩ ⟨3, -1⟩,
   line.ofPoints ⟨3, -1⟩ ⟨3, 0⟩,
   line.ofPoints ⟨3, 0⟩ ⟨4, 0⟩]

/-- The path of the single steep segment from `(0,0)` to `(1/100000000, 1)`,
whose run in `x` is a tenth of `SMALL_NUM`. -/
def steepPath : obj K := [⟨⟨0, 0⟩, ⟨1 / 100000000, 1⟩⟩]

end FlatPathInputs

section DuplicatesVocabulary
variable {K : Type} [LinearOrderedField K]

/-- The list `l` without every segment that is identical to an earlier one:
`earlier` holds the segments that come before `l`; a segment found in it is
dropped, every other segment is kept, in the order of `l`. -/
def withoutLaterCopies (earlier : List (line K)) : List (line K) → List (line K)
  | [] => []
  | a :: l =>
    if a ∈ earlier then withoutLaterCopies (earlier ++ [a]) l
    else a :: withoutLaterCopies (earlier ++ [a]) l

end DuplicatesVocabulary

section ProgressModel

/-- `static constexpr int progressBarSteps = 8;` (former.h) -/
def LiteEngine.progressBarSteps : Nat := 8

end ProgressModel

section ProgressVocabulary

/-- No member function taken as a parameter touches the progress bar:
`progressBar` is only written by `LiteEngine::progress`. -/
def Stages.KeepsBar {K : Type} (S : Stages K) : Prop :=
  (∀ b g g', S.createOuterRimOuter b g = .ok g' → g'.progressBar = g.progressBar) ∧
  (∀ g g', S.createOuterRimInner g = .ok g' → g'.progressBar = g.progressBar) ∧
  (∀ o g g', S.createInnerRimOuter o g = .ok g' → g'.progressBar = g.progressBar) ∧
  (∀ k g g', S.createInnerRimInner k g = .ok g' → g'.progressBar = g.progressBar) ∧
  (∀ b g r, S.generateAnchorPoints b g = .ok r → r.2.progressBar = g.progressBar) ∧
  (∀ g r, S.generateBraces g = .ok r → r.2.progressBar = g.progressBar) ∧
  (∀ g g', S.invalidateNarrowBracePairs g = .ok g' → g'.progressBar = g.progressBar) ∧
  (∀ g g', S.invalidateCrossingBraces g = .ok g' → g'.progressBar = g.progressBar) ∧
  (∀ g g', S.drawValidBraces g = .ok g' → g'.progressBar = g.progressBar) ∧
  (∀ b g g', S.openBraceGaps b g = .ok g' → g'.progressBar = g.progressBar)

end ProgressVocabulary

section ProgressInputs
variable {K : Type} [LinearOrderedField K]

/-- The blank engine with a progress bar that shows 0. -/
def countingEngine : LiteEngine K := { blankEngine with progressBar := some 0 }

end ProgressInputs

section RetraceInputs
variable {K : Type} [LinearOrderedField K]

/-- Four segments on the x-axis between the points `0`, `3/50000`, `3/25000`
and `1`: from `3/50000` to `0`, from `3/25000` to `1`, from `0` to `3/25000`
and from `3/50000` to `1`.  The first three points are within `SNAP_LEN` of
their neighbour. -/
def snapChain : obj K :=
  [⟨⟨3 / 50000, 0⟩, ⟨-(3 / 50000), 0⟩⟩, ⟨⟨3 / 25000, 0⟩, ⟨24997 / 25000, 0⟩⟩,
    ⟨⟨0, 0⟩, ⟨3 / 25000, 0⟩⟩, ⟨⟨3 / 50000, 0⟩, ⟨49997 / 50000, 0⟩⟩]

/-- The closed path traced from `snapChain`: from `1` to `3/50000`, to `0`, to
`3/25000` and back to `1`. -/
def snapChainTraced : obj K :=
  [⟨⟨1, 0⟩, ⟨-(49997 / 50000), 0⟩⟩, ⟨⟨3 / 50000, 0⟩, ⟨-(3 / 50000), 0⟩⟩,
    ⟨⟨0, 0⟩, ⟨3 / 25000, 0⟩⟩, ⟨⟨3 / 25000, 0⟩, ⟨24997 / 25000, 0⟩⟩]

/-- The open path traced from the reversed segments of `snapChainTraced`. -/
def snapChainRetraced : obj K :=
  [⟨⟨0, 0⟩, ⟨3 / 50000, 0⟩⟩, ⟨⟨3 / 50000, 0⟩, ⟨0, 0⟩⟩,
    ⟨⟨3 / 50000, 0⟩, ⟨49997 / 50000, 0⟩⟩, ⟨⟨1, 0⟩, ⟨-(24997 / 25000), 0⟩⟩]

end RetraceInputs

section BraceModel
variable {K : Type} [LinearOrderedField K]

/-- The body of the loop of `LiteEngine::invalidateNarrowBracePairs` on
`anchors[k]`; `brace` is an array of two. -/
def narrow_anchor (m : Libm K) (ma : K) (a : anchor_t K) : Res (anchor_t K) :=
  match a.brace with
  | [b0, b1] =>
    if b0.isValid && b1.isValid then
      if b0.refLn.len m > 0 ∧ b1.refLn.len m > 0 then
        let ang := b0.refLn.angle_to m b1.refLn
        if |ang| < ma then
          -- Invalidate the longest brace
          if b0.refLn.len m > b1.refLn.len m then
            .ok { a with brace := [{ b0 with isValid := false }, b1] }
          else
            .ok { a with brace := [b0, { b1 with isValid := false }] }
        else .ok a
      else .ok a
    else .ok a
  | _ => Res.undef

/-- The loop `for (k = 0; k < nAnchors; ++k)` of `invalidateNarrowBracePairs`
from `k` on, with `n` rounds to go; `anchors[k]` past the end of the vector is
undefined. -/
def invalidateNarrowBracePairs_loop (m : Libm K) (ma : K) :
    Nat → Nat → List (anchor_t K) → Res (List (anchor_t K))
  | 0, _, anchors => .ok anchors
  | n + 1, k, anchors =>
    match anchors[k]? with
    | none => .undef
    | some a =>
      (narrow_anchor m ma a).bind fun a1 =>
        invalidateNarrowBracePairs_loop m ma n (k + 1) (anchors.set k a1)

/-- `LiteEngine::invalidateNarrowBracePairs` -/
def invalidateNarrowBracePairs (m : Libm K) (g : LiteEngine K) : Res (LiteEngine K) :=
  (invalidateNarrowBracePairs_loop m g.ma g.nAnchors.toNat 0 g.anchors).bind fun anchors =>
    .ok { g with anchors := anchors }

end BraceModel

section BraceInputs
variable {K : Type} [LinearOrderedField K]

/-- A brace line as `std::array<brLine_t, 2> brLine = {}` leaves it. -/
def blankBrLine : brLine_t K :=
  { brLn := ⟨⟨0, 0⟩, ⟨0, 0⟩⟩, oisectLn := 0, oisectPt := ⟨0, 0⟩, iisectLn := 0,
    iisectPt := ⟨0, 0⟩ }

/-- A valid brace with the reference line `refLn`. -/
def braceOn (refLn : line K) : brace_t K :=
  { angle := 0, refLn := refLn, brLine := [blankBrLine, blankBrLine], isValid := true }

/-- An anchor at `(0,0)` with two valid braces: the reference line of the
first has length zero, that of the second runs to `(1,0)`. -/
def pointBraceAnchor : anchor_t K :=
  { brace := [braceOn ⟨⟨0, 0⟩, ⟨0, 0⟩⟩, braceOn ⟨⟨0, 0⟩, ⟨1, 0⟩⟩],
    rimLine := ⟨⟨0, 0⟩, ⟨1, 0⟩⟩, rimPt := ⟨0, 0⟩ }

/-- An anchor at `(0,0)` with two valid braces whose reference lines run along
the x-axis to `(2,0)` and to `(1,0)`. -/
def narrowAnchor : anchor_t K :=
  { brace := [braceOn ⟨⟨0, 0⟩, ⟨2, 0⟩⟩, braceOn ⟨⟨0, 0⟩, ⟨1, 0⟩⟩],
    rimLine := ⟨⟨0, 0⟩, ⟨1, 0⟩⟩, rimPt := ⟨0, 0⟩ }

/-- The blank engine with the one anchor `a` and the minimum angle 1. -/
def oneAnchorEngine (a : anchor_t K) : LiteEngine K :=
  { blankEngine with ma := 1, anchors := [a], nAnchors := 1 }

end BraceInputs

section CrossingModel
variable {K : Type} [LinearOrderedField K]

/-- `static constexpr double endShrink = 0.001;` -/
def endShrink : K := 1 / 1000

/-- `anchors[k].brace[b]`; reading past the end of the vector or of the array
is undefined. -/
def brace_at (anchors : List (anchor_t K)) (k b : Nat) : Option (brace_t K) :=
  match anchors[k]? with
  | none => none
  | some a => a.brace[b]?

/-- `anchors[k].brace[b].isValid = false;` -/
def invalidate_brace (anchors : List (anchor_t K)) (k b : Nat) : List (anchor_t K) :=
  match anchors[k]? with
  | none => anchors
  | some a =>
    match a.brace[b]? with
    | none => anchors
    | some br => anchors.set k { a with brace := a.brace.set b { br with isValid := false } }

/-- The copy of a brace line with its ends drawn in:
`ln.set(ln.get_pt(endShrink), ln.get_pt(1 - endShrink))`. -/
def shrink_ends (ln : line K) : line K :=
  line.ofPoints (ln.get_pt endShrink) (ln.get_pt (1 - endShrink))

/-- The body of the six loops of `LiteEngine::invalidateCrossingBraces`, for
the line `lo` of brace `bo` of anchor `ko` against the line `li` of brace `bi`
of anchor `ki`. -/
def crossing_step (m : Libm K) (anchors : List (anchor_t K)) (ko bo lo ki bi li : Nat) :
    Res (List (anchor_t K)) :=
  -- Don't self compare
  if ko ≠ ki ∨ bo ≠ bi ∨ lo ≠ li then
    match brace_at anchors ko bo, brace_at anchors ki bi with
    | some braceO, some braceI =>
      if braceO.isValid && braceI.isValid then
        match braceO.brLine[lo]?, braceI.brLine[li]? with
        | some edgeO, some edgeI =>
          let lno := shrink_ends edgeO.brLn
          let lni := shrink_ends edgeI.brLn
          if (lno.lines_intersect m lni false).1 then
            -- Invalidate the longest brace
            if lno.len m > lni.len m then .ok (invalidate_brace anchors ko bo)
            else .ok (invalidate_brace anchors ki bi)
          else .ok anchors
        | _, _ => .undef
      else .ok anchors
    | _, _ => .undef
  else .ok anchors

/-- The triples `(k, b, l)` in the order of the loops over `k < nAnchors`,
`b < 2` and `l < 2`. -/
def brace_edges (nAnchors : Nat) : List (Nat × Nat × Nat) :=
  (List.range nAnchors).flatMap fun k => [(k, 0, 0), (k, 0, 1), (k, 1, 0), (k, 1, 1)]

/-- The loops of `invalidateCrossingBraces` over the pairs of triples still to
visit. -/
def invalidateCrossingBraces_loop (m : Libm K) :
    List ((Nat × Nat × Nat) × (Nat × Nat × Nat)) → List (anchor_t K) → Res (List (anchor_t K))
  | [], anchors => .ok anchors
  | (o, i) :: rest, anchors =>
    (crossing_step m anchors o.1 o.2.1 o.2.2 i.1 i.2.1 i.2.2).bind fun anchors1 =>
      invalidateCrossingBraces_loop m rest anchors1

/-- `LiteEngine::invalidateCrossingBraces` -/
def invalidateCrossingBraces (m : Libm K) (g : LiteEngine K) : Res (LiteEngine K) :=
  let edges := brace_edges g.nAnchors.toNat
  (invalidateCrossingBraces_loop m (List.product edges edges) g.anchors).bind fun anchors =>
    .ok { g with anchors := anchors }

end CrossingModel

section CrossingInputs
variable {K : Type} [LinearOrderedField K]

/-- A valid brace whose first line is `edge`. -/
def braceWith (edge : line K) : brace_t K :=
  { angle := 0, refLn := ⟨⟨0, 0⟩, ⟨0, 0⟩⟩,
    brLine := [{ (blankBrLine : brLine_t K) with brLn := edge }, blankBrLine], isValid := true }

/-- An anchor with two valid braces: the first line of brace 0 runs from
`(0,0)` to `(2,0)`, that of brace 1 from `(1,-2)` to `(1,2)`. -/
def crossedAnchor : anchor_t K :=
  { brace := [braceWith ⟨⟨0, 0⟩, ⟨2, 0⟩⟩, braceWith ⟨⟨1, -2⟩, ⟨0, 4⟩⟩],
    rimLine := ⟨⟨0, 0⟩, ⟨1, 0⟩⟩, rimPt := ⟨0, 0⟩ }

end CrossingInputs

section AnchorModel
variable {K : Type} [LinearOrderedField K]

/-- `round` of `<cmath>`, cast to `int`: the nearest integer, halfway cases
away from zero. -/
def cround [FloorRing K] (x : K) : Int :=
  if 0 ≤ x then ⌊x + 1 / 2⌋ else ⌈x - 1 / 2⌉

/-- An anchor as `anchors.emplace_back()` creates it: the members at their
default values. -/
def freshAnchor : anchor_t K :=
  let brLine : brLine_t K :=
    { brLn := ⟨⟨0, 0⟩, ⟨0, 0⟩⟩, oisectLn := 0, oisectPt := ⟨0, 0⟩, iisectLn := 0,
      iisectPt := ⟨0, 0⟩ }
  let brace : brace_t K :=
    { angle := 0, refLn := ⟨⟨0, 0⟩, ⟨0, 0⟩⟩, brLine := [brLine, brLine], isValid := true }
  { brace := [brace, brace], rimLine := ⟨⟨0, 0⟩, ⟨0, 0⟩⟩, rimPt := ⟨0, 0⟩ }

/-- The loop of the even-spacing branch of `generateAnchorPoints` that finds
the point and the line element of each anchor, from anchor `k` on with `n`
rounds to go.  `get_pt_along_length` can end in `dbg::fatal`; `*dummyLi` on
`end()` and `anchors[k]` past the end of the vector are undefined. -/
def place_anchors_loop [FloorRing K] (m : Libm K) (refori : obj K) (dAnchor : K) :
    Nat → Nat → List (anchor_t K) → Res (List (anchor_t K))
  | 0, _, anchors => .ok anchors
  | n + 1, k, anchors =>
    let cDist := (k : K) * dAnchor
    match obj.get_pt_along_length m refori cDist with
    | none => .fatal
    | some (pt, dummyLi, _) =>
      match anchors[k]?, refori[dummyLi]? with
      | some a, some ln =>
        place_anchors_loop m refori dAnchor n (k + 1)
          (anchors.set k { a with rimPt := pt, rimLine := ln })
      | _, _ => Res.undef

/-- The branch `if (!anchorAtNotches)` of `LiteEngine::generateAnchorPoints`:
the number of anchors and their even spacing around the inner reference. -/
def even_anchor_points [FloorRing K] (m : Libm K) (g : LiteEngine K) : Res (LiteEngine K) :=
  let nAnchors := cround (obj.len m g.reforo / g.anchorSpan)
  let dAnchor := obj.len m g.refori / (nAnchors : K)
  -- for (k < nAnchors) anchors.emplace_back();
  let anchors := g.anchors ++ List.replicate nAnchors.toNat freshAnchor
  (place_anchors_loop m g.refori dAnchor nAnchors.toNat 0 anchors).bind fun anchors =>
    .ok { g with nAnchors := nAnchors, anchors := anchors }

end AnchorModel

section AnchorInputs
variable {K : Type} [LinearOrderedField K]

/-- The square with corners `(-1/2,-1/2)` and `(3/2,3/2)`, drawn clockwise. -/
def outerSquare : obj K :=
  [⟨⟨-(1 / 2), -(1 / 2)⟩, ⟨0, 2⟩⟩, ⟨⟨-(1 / 2), 3 / 2⟩, ⟨2, 0⟩⟩, ⟨⟨3 / 2, 3 / 2⟩, ⟨0, -2⟩⟩,
    ⟨⟨3 / 2, -(1 / 2)⟩, ⟨-2, 0⟩⟩]

/-- The blank engine with the anchor spacing 1, the outer reference
`outerSquare` (perimeter 8) and the inner reference `unitSquare` (perimeter 4). -/
def squaresEngine : LiteEngine K :=
  { blankEngine with anchorSpan := 1, reforo := outerSquare, refori := unitSquare }

end AnchorInputs

section NotchModel
variable {K : Type} [LinearOrderedField K]

/-- `TO_RADS(x)`: `((x)*M_PI / 180.0)` -/
def TO_RADS (m : Libm K) (x : K) : K := x * m.pi / 180

/-- The constant `detAng` of `notchDetect`: the angle at which two lines are
said to form a corner. -/
def detAng (m : Libm K) : K := TO_RADS m 20

/-- The angle `angs[k]` of `notchDetect` between the elements at the
positions `a` and `b`. -/
def notch_angle (m : Libm K) (o : obj K) (a b : Nat) : Res K :=
  match o[a]?, o[b]? with
  | some la, some lb =>
    if la.len m > 0 ∧ lb.len m > 0 then
      .ok (m.atan2 (perpprod la.get_V lb.get_V) (dotprod la.get_V lb.get_V))
    else .ok 0
  | _, _ => Res.undef

/-- A notch record with the given lines, begin and end point, the other
members at their default values. -/
def notch_record (lines : List Nat) (beg fin : coord_t K) : notch_t K :=
  { notchLines := lines, notchReplacedLineIter := 0, notchReplacedLine := ⟨⟨0, 0⟩, ⟨0, 0⟩⟩,
    distance := 0, beg := beg, fin := fin }

/-- The body of the loop of `LiteEngine::notchDetect` for `l` at the position
`l0`: the record pushed on `notches`, if any. -/
def notch_at (m : Libm K) (o : obj K) (l0 : Nat) : Res (Option (notch_t K)) :=
  -- Get the angles between this and the following 4 lines
  let l1 := o.nextc l0
  let l2 := o.nextc l1
  let l3 := o.nextc l2
  let l4 := o.nextc l3
  (notch_angle m o l0 l1).bind fun a0 =>
  (notch_angle m o l1 l2).bind fun a1 =>
  (notch_angle m o l2 l3).bind fun a2 =>
  (notch_angle m o l3 l4).bind fun a3 =>
  match o[l0]?, o[l3]?, o[l4]? with
  | some ln0, some ln3, some ln4 =>
    -- Is this a square notch?
    if a0 < -detAng m ∧ a1 > detAng m ∧ a2 > detAng m ∧ a3 < -detAng m then
      .ok (some (notch_record [l1, l2, l3] ln0.get_S1 ln4.get_S0))
    -- Is this a triangular notch?
    else if a0 < -detAng m ∧ a1 > detAng m ∧ a2 < -detAng m then
      .ok (some (notch_record [l1, l2] ln0.get_S1 ln3.get_S0))
    else .ok none
  | _, _, _ => Res.undef

/-- The loop of `notchDetect` from the position `l` on, with `n` elements to
go. -/
def notchDetect_loop (m : Libm K) (o : obj K) :
    Nat → Nat → List (notch_t K) → Res (List (notch_t K))
  | 0, _, notches => .ok notches
  | n + 1, l, notches =>
    (notch_at m o l).bind fun r =>
      notchDetect_loop m o n (l + 1)
        (match r with
         | some x => notches ++ [x]
         | none => notches)

/-- `LiteEngine::notchDetect(o)`: the member `notches` after the call (the
value returned is its size).  A `line_iter` is the position of the element. -/
def notchDetect (m : Libm K) (o : obj K) : Res (List (notch_t K)) :=
  notchDetect_loop m o o.length 0 []

/-- The object with every element paired with its position.  A `line_iter`
into a `std::list` stays with its element when other elements are erased, so
while `removeNotches` erases elements an iterator is the position its element
had when `notchDetect` ran. -/
def with_handles (o : obj K) : List (Nat × line K) := o.enum

/-- `o.nextc(it)` for the iterator `h`: the iterator of the next element, that
of the first element after the last.  For an iterator whose element has been
erased the call is undefined. -/
def nextc_handle (t : List (Nat × line K)) (h : Nat) : Res Nat :=
  let hs := t.map Prod.fst
  let p := hs.indexOf h
  if p < hs.length then
    match hs[if p + 1 = hs.length then 0 else p + 1]? with
    | some h1 => .ok h1
    | none => .undef
  else Res.undef

/-- `nl->set(beg, end)` for the iterator `h`. -/
def set_handle (t : List (Nat × line K)) (h : Nat) (ln : line K) : List (Nat × line K) :=
  t.map fun e => if e.1 = h then (e.1, ln) else e

/-- `o.del(nl)` for the iterator `h` of an element of the list. -/
def del_handle (t : List (Nat × line K)) (h : Nat) : List (Nat × line K) :=
  t.filter fun e => decide (e.1 ≠ h)

/-- The loop `for (auto& nl : n->notchLines)` of `removeNotches` over the
notch lines still to visit: the object and the iterator `l` after it. -/
def replace_notch_lines (beg fin : coord_t K) :
    List Nat → Bool → List (Nat × line K) → Nat → Res (List (Nat × line K) × Nat)
  | [], _, t, l => .ok (t, l)
  | nl :: rest, first, t, _ =>
    (nextc_handle t nl).bind fun l1 =>
      if first then
        -- Replace the first line element with the joining line
        replace_notch_lines beg fin rest false (set_handle t nl (line.ofPoints beg fin)) l1
      else
        -- Delete the remaining notch line elements
        replace_notch_lines beg fin rest false (del_handle t nl) l1

/-- The `while (n != notches.end())` loop of `removeNotches`: `l` is the
iterator that walks round the object, the list holds the notches from `n` on.
The first argument bounds the number of rounds; `front()` of an empty list is
undefined.  What the loop writes into the notch record (`distance`,
`notchReplacedLineIter`, `notchReplacedLine`) does not bear on the object and
is left out. -/
def removeNotches_loop :
    Nat → List (Nat × line K) → Nat → List (notch_t K) → Res (List (Nat × line K))
  | _, t, _, [] => .ok t
  | 0, _, _, _ :: _ => .fuel
  | f + 1, t, l, n :: ns =>
    match n.notchLines with
    | [] => .undef
    | front :: _ =>
      if l = front then
        -- Found the notch
        (replace_notch_lines n.beg n.fin n.notchLines true t l).bind fun r =>
          removeNotches_loop f r.1 r.2 ns
      else
        (nextc_handle t l).bind fun l1 => removeNotches_loop f t l1 (n :: ns)

/-- `LiteEngine::removeNotches(o)`: the object `o` after the call (the notch
records are not followed through the final `regularise`).  A walk of `l` that
does not reach the first line of a notch within one turn round the object
never reaches it, so `notches.size() * (o.size() + 1)` rounds bound the loop. -/
def removeNotches (m : Libm K) (o : obj K) : Res (obj K) :=
  (notchDetect m o).bind fun notches =>
  (removeNotches_loop (notches.length * (o.length + 1)) (with_handles o) 0 notches).bind fun t =>
  -- Necessary to get everything back in order
  regularise m (t.map Prod.snd)

end NotchModel

section NotchVocabulary
variable {K : Type} [LinearOrderedField K]

/-- The object with the notch `n` bridged: the first line of the notch is the
straight segment from the begin point to the end point of the notch, the
other lines of the notch are gone, every other element is as it was. -/
def bridge_notch (t : List (Nat × line K)) (n : notch_t K) : List (Nat × line K) :=
  t.filterMap fun e =>
    if some e.1 = n.notchLines.head? then some (e.1, line.ofPoints n.beg n.fin)
    else if e.1 ∈ n.notchLines then none
    else some e

/-- The object with every notch of the list bridged, in the order of the list. -/
def bridge_notches (t : List (Nat × line K)) : List (notch_t K) → List (Nat × line K)
  | [] => t
  | n :: ns => bridge_notches (bridge_notch t n) ns

end NotchVocabulary

section NotchInputs
variable {K : Type} [LinearOrderedField K]

/-- The rectangle with corners `(0,0)` and `(3,2)`, drawn clockwise from
`(0,0)`, with a notch of width 1 and depth 1 cut into the top edge between
`x = 1` and `x = 2`. -/
def notchedRectangle : obj K :=
  [⟨⟨0, 0⟩, ⟨0, 2⟩⟩, ⟨⟨0, 2⟩, ⟨1, 0⟩⟩, ⟨⟨1, 2⟩, ⟨0, -1⟩⟩, ⟨⟨1, 1⟩, ⟨1, 0⟩⟩, ⟨⟨2, 1⟩, ⟨0, 1⟩⟩,
    ⟨⟨2, 2⟩, ⟨1, 0⟩⟩, ⟨⟨3, 2⟩, ⟨0, -2⟩⟩, ⟨⟨3, 0⟩, ⟨-3, 0⟩⟩]

/-- The square with corners `(0,0)` and `(2,2)`, drawn clockwise from `(0,0)`,
with a slit of width zero and depth 1 in the top edge at `x = 1`: the path
runs from `(1,2)` down to `(1,1)` and back up. -/
def slitSquare : obj K :=
  [⟨⟨0, 0⟩, ⟨0, 2⟩⟩, ⟨⟨0, 2⟩, ⟨1, 0⟩⟩, ⟨⟨1, 2⟩, ⟨0, -1⟩⟩, ⟨⟨1, 1⟩, ⟨0, 1⟩⟩, ⟨⟨1, 2⟩, ⟨1, 0⟩⟩,
    ⟨⟨2, 2⟩, ⟨0, -2⟩⟩, ⟨⟨2, 0⟩, ⟨-2, 0⟩⟩]

/-- The path `slitSquare` without the slit: five segments. -/
def slitSquareClosed : obj K :=
  [⟨⟨0, 0⟩, ⟨0, 2⟩⟩, ⟨⟨0, 2⟩, ⟨1, 0⟩⟩, ⟨⟨1, 2⟩, ⟨1, 0⟩⟩, ⟨⟨2, 2⟩, ⟨0, -2⟩⟩, ⟨⟨2, 0⟩, ⟨-2, 0⟩⟩]

end NotchInputs

section NotchSpecVocabulary
variable {K : Type} [LinearOrderedField K]

/-- The record `n` is that of a notch of `o`: its lines are the two or the
three elements that follow the element at a position `l0` (the first element
follows the last), its begin point is the end point of the element at `l0`,
and its end point is the start point of the element after its lines. -/
def IsNotchOf (o : obj K) (n : notch_t K) : Prop :=
  ∃ (l0 : Nat) (ln0 lnA : line K), l0 < o.length ∧ o[l0]? = some ln0 ∧
    n.beg = ln0.get_S1 ∧ n.fin = lnA.get_S0 ∧
    ((n.notchLines = [o.nextc l0, o.nextc (o.nextc l0), o.nextc (o.nextc (o.nextc l0))] ∧
        o[o.nextc (o.nextc (o.nextc (o.nextc l0)))]? = some lnA) ∨
      (n.notchLines = [o.nextc l0, o.nextc (o.nextc l0)] ∧
        o[o.nextc (o.nextc (o.nextc l0))]? = some lnA))

end NotchSpecVocabulary

section NotchedRectangleInputs
variable {K : Type} [LinearOrderedField K]

/-- The clockwise rectangle with the lower left corner `(x0, y0)`, of height
`H` and width `a + c + e`, drawn from that corner, with a notch of width `c`
and depth `d` cut into the top edge at the distance `a` from the left side:
up the left side, along the top edge to the notch, down, along and up the
sides of the notch, along the rest of the top edge, down the right side and
back along the bottom edge. -/
def notchedRectangleAt (x0 y0 H a d c e : K) : obj K :=
  [⟨⟨x0, y0⟩, ⟨0, H⟩⟩, ⟨⟨x0, y0 + H⟩, ⟨a, 0⟩⟩, ⟨⟨x0 + a, y0 + H⟩, ⟨0, -d⟩⟩,
    ⟨⟨x0 + a, y0 + H - d⟩, ⟨c, 0⟩⟩, ⟨⟨x0 + a + c, y0 + H - d⟩, ⟨0, d⟩⟩,
    ⟨⟨x0 + a + c, y0 + H⟩, ⟨e, 0⟩⟩, ⟨⟨x0 + a + c + e, y0 + H⟩, ⟨0, -H⟩⟩,
    ⟨⟨x0 + a + c + e, y0⟩, ⟨-(a + c + e), 0⟩⟩]

/-- The segment turned clockwise by a right angle about the origin. -/
def quarterTurn (l : line K) : line K :=
  ⟨⟨l.S0.y, -l.S0.x⟩, ⟨l.V.dy, -l.V.dx⟩⟩

/-- The notched rectangle turned clockwise by `r` right angles about the
origin, as a list that starts with its segment `s`. -/
def notchedRectangleTurned (r s : Nat) (x0 y0 H a d c e : K) : obj K :=
  ((notchedRectangleAt x0 y0 H a d c e).map (quarterTurn^[r])).rotate s

end NotchedRectangleInputs

section SlitInputs
variable {K : Type} [LinearOrderedField K]

/-- The path `slitSquare` with its slit bridged: the two segments of the slit
replaced by one segment of length zero at `(1,2)`. -/
def slitSquareBridged : obj K :=
  [⟨⟨0, 0⟩, ⟨0, 2⟩⟩, ⟨⟨0, 2⟩, ⟨1, 0⟩⟩, ⟨⟨1, 2⟩, ⟨0, 0⟩⟩, ⟨⟨1, 2⟩, ⟨1, 0⟩⟩, ⟨⟨2, 2⟩, ⟨0, -2⟩⟩,
    ⟨⟨2, 0⟩, ⟨-2, 0⟩⟩]

/-- The path `notchedRectangle` with its notch bridged: six segments. -/
def notchedRectangleBridged : obj K :=
  [⟨⟨0, 0⟩, ⟨0, 2⟩⟩, ⟨⟨0, 2⟩, ⟨1, 0⟩⟩, ⟨⟨1, 2⟩, ⟨1, 0⟩⟩, ⟨⟨2, 2⟩, ⟨1, 0⟩⟩, ⟨⟨3, 2⟩, ⟨0, -2⟩⟩,
    ⟨⟨3, 0⟩, ⟨-3, 0⟩⟩]

end SlitInputs

section RimModel
variable {K : Type} [LinearOrderedField K]

/-- `LiteEngine::createOuterRimOuter(notchDetect)`.  `copy_from` appends a
copy of its argument.  The records of `notches` are kept as `notchDetect`
leaves them: the members `distance`, `notchReplacedLineIter` and
`notchReplacedLine`, which `removeNotches` writes, are not followed. -/
def createOuterRimOuter (m : Libm K) (notchDetectFlag : Bool) (g : LiteEngine K) :
    Res (LiteEngine K) :=
  -- oro = inp; non = inp; removeNotches(non);
  (notchDetect m g.inp).bind fun notches =>
  (removeNotches m g.inp).bind fun non =>
  let g1 := { g with oro := g.inp, non := non, notches := notches }
  -- Create an outer reference with notches removed if required
  if notchDetectFlag then
    .ok { g1 with reforo := non, construct := g1.construct ++ non }
  else
    .ok { g1 with reforo := g1.inp }

end RimModel

section FootprintVocabulary

/-- The member functions that a run without `girder` calls after
`createOuterRimOuter` read and write what they read and write in the source:
`createInnerRimOuter` computes `iro` from `rs`, `reforo` and the clearance
object; `createInnerRimInner` computes `iri` from `iro` and the separation;
`simpleHsplit` works on the object handed to it and reads `sp`; `simpleVsplit`
works on the object handed to it. -/
def Stages.SimpleFootprint {K : Type} (S : Stages K) (f : K → obj K → obj K → Res (obj K))
    (h : K → obj K → Res (obj K)) (fh : K → obj K → Res (obj K)) (fv : obj K → Res (obj K)) :
    Prop :=
  (∀ o g, S.createInnerRimOuter o g = (f g.rs g.reforo o).bind fun x => .ok { g with iro := x }) ∧
  (∀ sep g, S.createInnerRimInner sep g = (h sep g.iro).bind fun x => .ok { g with iri := x }) ∧
  (∀ g o, S.simpleHsplit g o = fh g.sp o) ∧ (∀ g o, S.simpleVsplit g o = fv o)

end FootprintVocabulary

section FootprintInputs
variable {K : Type} [LinearOrderedField K]

/-- Member functions for a run without `girder`: `createOuterRimOuter` as in
the source, an inner rim that repeats the outer reference, and splits that
leave the object as it is. -/
def echoStages (m : Libm K) : Stages K :=
  { (failingAnchorStages : Stages K) with
    createOuterRimOuter := createOuterRimOuter m
    createInnerRimOuter := fun _ g => .ok { g with iro := g.reforo }
    createInnerRimInner := fun _ g => .ok { g with iri := g.iro } }

end FootprintInputs

section RedundantVocabulary
variable {K : Type}

end RedundantVocabulary

section RedundantInputs
variable {K : Type} [LinearOrderedField K]

end RedundantInputs

section CrossingPassInputs
variable {K : Type} [LinearOrderedField K]

/-- Two valid candidates whose offsetting lines, both of direction `(0,1)`,
start at `(0,0)` and at `(1,0)`. -/
def apartCands : List (offset_line K) :=
  [⟨⟨⟨0, 0⟩, ⟨0, 1⟩⟩, true, false, 0⟩, ⟨⟨⟨1, 0⟩, ⟨0, 1⟩⟩, true, false, 0⟩]

end CrossingPassInputs

section CrossingVocabulary
variable {K : Type} [LinearOrderedField K]

/-- The braces of `after` are those of `before` with, at most, validity
cleared: the same braces exist, with the same lines, and a brace valid in
`after` is valid in `before`. -/
def OnlyCleared (before after : List (anchor_t K)) : Prop :=
  ∀ k b, match brace_at before k b with
    | none => brace_at after k b = none
    | some br => ∃ br', brace_at after k b = some br' ∧ br'.brLine = br.brLine ∧
        (br'.isValid = true → br.isValid = true)

/-- The line `lo` of brace `bo` of anchor `ko` and the line `li` of brace `bi`
of anchor `ki` do not both belong to valid braces and cross, by the test of
`invalidateCrossingBraces`: `lines_intersect` on the copies with the ends
drawn in. -/
def NoValidCrossing (m : Libm K) (anchors : List (anchor_t K)) (ko bo lo ki bi li : Nat) :
    Prop :=
  ∀ braceO braceI edgeO edgeI, brace_at anchors ko bo = some braceO →
    brace_at anchors ki bi = some braceI → braceO.isValid = true → braceI.isValid = true →
    braceO.brLine[lo]? = some edgeO → braceI.brLine[li]? = some edgeI →
    ((shrink_ends edgeO.brLn).lines_intersect m (shrink_ends edgeI.brLn) false).1 = false

/-- There are `n` anchors at least, each of the first `n` with two braces of
two lines. -/
def BracesShaped (n : Nat) (anchors : List (anchor_t K)) : Prop :=
  ∀ k b, k < n → b < 2 → ∃ br, brace_at anchors k b = some br ∧ br.brLine.length = 2

end CrossingVocabulary

section ExtensionVocabulary
variable {K : Type} [LinearOrderedField K]

/-- The test that ends the extension loop of `obj::line_intersect`, for the
ends `S0` and `S1` of the extended line: `xOk || yOk`. -/
def extension_done (ext : direction_e → K) (S0 S1 : coord_t K) : Prop :=
  ((S0.x < ext .LEFT ∧ S1.x > ext .RIGHT) ∨ (S1.x < ext .LEFT ∧ S0.x > ext .RIGHT)) ∨
    ((S0.y < ext .DOWN ∧ S1.y > ext .UP) ∨ (S1.y < ext .DOWN ∧ S0.y > ext .UP))

instance extension_done_decidable (ext : direction_e → K) (S0 S1 : coord_t K) :
    Decidable (extension_done ext S0 S1) := by
  unfold extension_done
  infer_instance

end ExtensionVocabulary

section ExtrapolationVocabulary
variable {K : Type} [LinearOrderedField K]

/-- The point lies in the box between the extremities `ext`. -/
def InBox (ext : direction_e → K) (p : coord_t K) : Prop :=
  ext .LEFT ≤ p.x ∧ p.x ≤ ext .RIGHT ∧ ext .DOWN ≤ p.y ∧ p.y ≤ ext .UP

/-- The point lies on the infinite line through the segment. -/
def OnLine (l : line K) (p : coord_t K) : Prop := ∃ t : K, l.get_pt t = p

end ExtrapolationVocabulary

section ExtrapolationInputs
variable {K : Type} [LinearOrderedField K]

end ExtrapolationInputs

section GapMergeModel

/-- `gap_t` of `LiteEngine::openBraceGaps`: a gap runs from the point `p0` of
the element `l0` to the point `p1` of the element `l1`; the iterators are
positions in the object. -/
structure gap_t (K : Type) where
  l0 : Nat
  p0 : coord_t K
  l1 : Nat
  p1 : coord_t K

variable {K : Type} [LinearOrderedField K]

/-- The gap that `openBraceGaps` pushes for the brace `b` of an anchor, if the
brace is valid. -/
def brace_gap (iroNotOri : Bool) (br : brace_t K) (b : Nat) : Res (List (gap_t K)) :=
  if br.isValid then
    match br.brLine[(b + 1) % 2]?, br.brLine[b]? with
    | some e0, some e1 =>
      if iroNotOri then .ok [⟨e0.iisectLn, e0.iisectPt, e1.iisectLn, e1.iisectPt⟩]
      else .ok [⟨e0.oisectLn, e0.oisectPt, e1.oisectLn, e1.oisectPt⟩]
    | _, _ => .undef
  else .ok []

/-- The first loops of `openBraceGaps` over the anchors at the positions
`ks`: the list `gaps`. -/
def collect_gaps (iroNotOri : Bool) (anchors : List (anchor_t K)) : List Nat → Res (List (gap_t K))
  | [] => .ok []
  | k :: ks =>
    match anchors[k]? with
    | none => .undef
    | some a =>
      match a.brace[0]?, a.brace[1]? with
      | some b0, some b1 =>
        (brace_gap iroNotOri b0 0).bind fun g0 =>
        (brace_gap iroNotOri b1 1).bind fun g1 =>
        (collect_gaps iroNotOri anchors ks).bind fun more => .ok (g0 ++ g1 ++ more)
      | _, _ => Res.undef

/-- The three tests of the merge loop of `openBraceGaps` for the gap `g` and
its successor `n`: true when `g` is passed (`g = std::next(g); continue;`),
false when `n` is merged into `g`.  The third test reads the element `g->l1`. -/
def gap_passes (ob : obj K) (g n : gap_t K) : Res Bool :=
  let indn0 : Int := n.l0
  let indg1 : Int := g.l1
  let half : Int := (ob.length : Int) / 2
  -- Opposite sides of the border
  if indg1 > half ∧ indn0 < half then .ok true
  -- Not overlapped by line index
  else if indn0 > indg1 then .ok true
  else if indn0 = indg1 then
    match ob[g.l1]? with
    | none => Res.undef
    -- Not overlapped in same line index
    | some ln => .ok (decide (ln.T_for_pt g.p1 < ln.T_for_pt n.p0))
  else .ok false

/-- The `while` loop of the merge loop of `openBraceGaps`: `gpos` is the
position of `g`, `removed` is `removedCount`.  The successor `n` of the last
gap is the first.  `gaps.erase(n)` for `n == g` erases the element that `g`
points to, and the loop goes on to use `g`: undefined behaviour. -/
def merge_scan (ob : obj K) (gaps : List (gap_t K)) (gpos removed : Nat) :
    Res (List (gap_t K) × Nat) :=
  if h : gpos < gaps.length then
    let g := gaps[gpos]
    let npos := if gpos + 1 < gaps.length then gpos + 1 else 0
    have hn : npos < gaps.length := by
      simp only [npos]
      split_ifs <;> omega
    let n := gaps[npos]
    match gap_passes ob g n with
    | .ok true => merge_scan ob gaps (gpos + 1) removed
    | .ok false =>
      if npos = gpos then .undef
      else
        -- g->l1 = n->l1; g->p1 = n->p1; gaps.erase(n);
        merge_scan ob ((gaps.set gpos { g with l1 := n.l1, p1 := n.p1 }).eraseIdx npos)
          (if npos < gpos then gpos - 1 else gpos) (removed + 1)
    | .fatal => .fatal
    | .undef => .undef
    | .fuel => .fuel
  else .ok (gaps, removed)
termination_by 2 * gaps.length - gpos
decreasing_by
  all_goals simp_wf
  · omega
  · rw [List.length_eraseIdx, List.length_set]
    simp only [npos] at *
    split_ifs <;> omega

/-- The `do .. while (removedCount)` loop of `openBraceGaps`; the first
argument bounds the number of rounds. -/
def merge_gaps_loop (ob : obj K) : Nat → List (gap_t K) → Res (List (gap_t K))
  | 0, _ => .fuel
  | k + 1, gaps =>
    (merge_scan ob gaps 0 0).bind fun r =>
      if r.2 ≠ 0 then merge_gaps_loop ob k r.1 else .ok r.1

/-- `LiteEngine::openBraceGaps(iroNotOri)` up to the end of the merge loop:
the list `gaps` as the merge loop leaves it.  Every round of the outer loop
but the last erases a gap.  The closing loop, which calls `make_gap` for each
gap that is left, is not followed. -/
def openBraceGaps_merged (iroNotOri : Bool) (g : LiteEngine K) : Res (List (gap_t K)) :=
  let ob := if iroNotOri then g.iro else g.ori
  (collect_gaps iroNotOri g.anchors (List.range g.nAnchors.toNat)).bind fun gaps =>
    merge_gaps_loop ob (gaps.length + 1) gaps

end GapMergeModel

section GapMergeInputs
variable {K : Type} [LinearOrderedField K]

/-- A brace line that meets the element at position `ln` of the inner rim in
`pt`. -/
def brLineAt (ln : Nat) (pt : coord_t K) : brLine_t K :=
  { (blankBrLine : brLine_t K) with iisectLn := ln, iisectPt := pt }

/-- An engine whose inner rim is the unit square, with one anchor: its brace
0 is valid and opens the gap from `(0, 1/2)` on the element 0 to `(1/2, 1)` on
the element 1, its brace 1 is not valid. -/
def oneGapEngine : LiteEngine K :=
  { (blankEngine : LiteEngine K) with
    iro := unitSquare
    nAnchors := 1
    anchors := [{ brace := [{ angle := 0, refLn := ⟨⟨0, 0⟩, ⟨0, 0⟩⟩,
                              brLine := [brLineAt 1 ⟨1 / 2, 1⟩, brLineAt 0 ⟨0, 1 / 2⟩],
                              isValid := true },
                            { angle := 0, refLn := ⟨⟨0, 0⟩, ⟨0, 0⟩⟩,
                              brLine := [blankBrLine, blankBrLine], isValid := false }],
                  rimLine := ⟨⟨0, 0⟩, ⟨1, 0⟩⟩, rimPt := ⟨0, 0⟩ }] }

end GapMergeInputs

section SimplifyModel
variable {K : Type} [LinearOrderedField K]

/-- `obj::get_max_line_distance(st, en, ln)` for the elements `segs` from `st`
to `en`.  `distance_to_point` divides by the squared length of `ln`: for a
line `ln` of length zero the quotient is `0.0 / 0.0`, both distances are not
numbers, no comparison `d > err` succeeds and `err` stays `0.0`; this case is
written out, since the field has no such value. -/
def get_max_line_distance (m : Libm K) (segs : List (line K)) (ln : line K) : K :=
  if (ln.V.dx * ln.V.dx) + (ln.V.dy * ln.V.dy) = 0 then 0
  else
    segs.foldl (fun err seg =>
      let d0 := ln.distance_to_point m seg.get_S0
      let d1 := ln.distance_to_point m seg.get_S1
      let err1 := if d0 > err then d0 else err
      if d1 > err1 then d1 else err1) 0

/-- The inner loop `while (true)` of `obj::simplify(error)`: `st :: mid` are
the elements from `st` to `en`, the last argument holds the elements after
`en`.  The result is `mid` and the elements after `en` when the loop breaks. -/
def simplify_extend (m : Libm K) (error : K) (st : line K) :
    List (line K) → List (line K) → List (line K) × List (line K)
  -- Finished the object
  | mid, [] => (mid, [])
  | mid, ca :: rest =>
    let en := (st :: mid).getLast (List.cons_ne_nil _ _)
    -- Terminate if it isn't actually connected
    if distTwoPoints m en.get_S1 ca.get_S0 > SNAP_LEN then (mid, ca :: rest)
    else
      -- Create the simplified line and check its error to each point
      let sl := line.ofPoints st.get_S0 ca.get_S1
      if get_max_line_distance m (st :: mid ++ [ca]) sl ≥ error then (mid, ca :: rest)
      -- It passes - update end segment and carry on
      else simplify_extend m error st (mid ++ [ca]) rest

/-- The outer loop of `obj::simplify(error)`: `done` are the elements before
`st`, the last argument those from `st` on; `en->set(st->get_S0(),
en->get_S1()); del(st, en);` leaves one element for the elements from `st` to
`en`.  The first argument bounds the number of rounds. -/
def simplify_loop (m : Libm K) (error : K) :
    Nat → List (line K) → List (line K) → List (line K)
  | _, done, [] => done
  | 0, done, st :: rest => done ++ st :: rest
  | n + 1, done, st :: rest =>
    let r := simplify_extend m error st [] rest
    let en := (st :: r.1).getLast (List.cons_ne_nil _ _)
    simplify_loop m error n (done ++ [line.ofPoints st.get_S0 en.get_S1]) r.2

/-- `obj::simplify(error)`: the list left and the count returned,
`start_size - size()`.  Every round of the outer loop moves `st` past at least
one element. -/
def obj.simplify (m : Libm K) (e : obj K) (error : K) : obj K × Nat :=
  let r := simplify_loop m error e.length [] e
  (r, e.length - r.length)

end SimplifyModel

section SimplifyInputs
variable {K : Type} [LinearOrderedField K]

/-- The path from `(0,0)` to `(1,0)` and back. -/
def outAndBack : obj K := [⟨⟨0, 0⟩, ⟨1, 0⟩⟩, ⟨⟨1, 0⟩, ⟨-1, 0⟩⟩]

end SimplifyInputs

section SimplifyVocabulary
variable {K : Type} [LinearOrderedField K]

/-- The line that `simplify` leaves for the elements `st :: mid`: from the
start of `st` to the end of the last element. -/
def merged_line (st : line K) (mid : List (line K)) : line K :=
  line.ofPoints st.get_S0 ((st :: mid).getLast (List.cons_ne_nil _ _)).get_S1

/-- Each element of the list after `prev` starts within `SNAP_LEN` of the end
of the element before it. -/
def Chained (m : Libm K) : line K → List (line K) → Prop
  | _, [] => True
  | prev, x :: more => distTwoPoints m prev.get_S1 x.get_S0 ≤ SNAP_LEN ∧ Chained m x more

end SimplifyVocabulary

section RotationModel
variable {K : Type} [LinearOrderedField K]

/-- `static constexpr int maxRefLineRotationDegs = 60;` (former.h) -/
def maxRefLineRotationDegs : Nat := 60

/-- `double rAngDeg = (offsetAngle % 2) ? offsetAngle : -offsetAngle;` -/
def rAngDeg (offsetAngle : Nat) : K :=
  if offsetAngle % 2 ≠ 0 then (offsetAngle : K) else -(offsetAngle : K)

/-- The loop `for (int offsetAngle = 0; !done; ++offsetAngle)` of
`LiteEngine::generateAnchorPoints` from the value `offsetAngle` on: the line
`cRef`, the list `isects` and whether two intersections were found (if not,
the code sets `ok = false`). -/
def cRef_search (m : Libm K) (HUGE : K) (fuel : Nat) (iro : obj K) (cRefOrig : line K)
    (offsetAngle : Nat) : Res (line K × List (obj_line_intersect K) × Bool) :=
  let cRef := cRefOrig.rotate m cRefOrig.get_S0 (TO_RADS m (rAngDeg offsetAngle))
  match iro.line_intersect_list m HUGE fuel cRef true with
  | .ok r =>
    -- We have found our intersect
    if r.2.length ≥ 2 then .ok (cRef, r.2, true)
    -- We have failed to find an intersect
    else if h : offsetAngle ≥ maxRefLineRotationDegs then .ok (cRefOrig, r.2, false)
    else cRef_search m HUGE fuel iro cRefOrig (offsetAngle + 1)
  | .fatal => .fatal
  | .undef => .undef
  | .fuel => .fuel
termination_by maxRefLineRotationDegs - offsetAngle

end RotationModel

section ConeInputs
variable {K : Type} [LinearOrderedField K]

/-- A thin closed quadrilateral between the rays from the origin through
`(983/1000, 17/10)` and through `(49/50, 17/10)`, from the height `17/10` to
the height `17/5`. -/
def coneRim : obj K :=
  [⟨⟨49 / 50, 17 / 10⟩, ⟨3 / 1000, 0⟩⟩, ⟨⟨983 / 1000, 17 / 10⟩, ⟨983 / 1000, 17 / 10⟩⟩,
   ⟨⟨983 / 500, 17 / 5⟩, ⟨-(3 / 500), 0⟩⟩, ⟨⟨49 / 25, 17 / 5⟩, ⟨-(49 / 50), -(17 / 10)⟩⟩]

/-- The reference line from the origin to `(1,0)`. -/
def unitRef : line K := ⟨⟨0, 0⟩, ⟨1, 0⟩⟩

end ConeInputs

section SideVocabulary
variable {K : Type} [LinearOrderedField K]

/-- The side of the point `p` with regard to the line through `l2`: the
cross product of the direction of `l2` with the vector from its start to
`p`. -/
def side_of (l2 : line K) (p : coord_t K) : K :=
  perpprod l2.V ⟨p.x - l2.S0.x, p.y - l2.S0.y⟩

end SideVocabulary

section VertexVocabulary
variable {K : Type} [LinearOrderedField K]

/-- Both ends of every element of the list have the property `P`. -/
def VertsIn (P : coord_t K → Prop) (l : List (line K)) : Prop :=
  ∀ x ∈ l, P x.get_S0 ∧ P x.get_S1

end VertexVocabulary

section CandidateVocabulary
variable {K : Type} [LinearOrderedField K]

/-- The candidate is a linear one of the element `ln`: not radial, and its
line ends on the copy of `ln` moved sideways by `ofs`, at a parameter between
0 and 1. -/
def IsLinearCand (m : Libm K) (ofs : K) (ln : line K) (c : offset_line K) : Prop :=
  c.radial = false ∧
    ∃ T : K, 0 ≤ T ∧ T ≤ 1 ∧ c.ln.get_S1 = (ln.move_sideways m ofs).get_pt T

/-- The candidate is a radial one at the corner between `ln` and `nx`: its
line ends at the distance `|ofs|` from the end of `ln`, in the direction of
the angle of `ln` turned by `sgn` times a quarter turn back, `j` full turns
and `k` steps of 3 degrees, where `k + 1` steps fit into the angle between
`ln` and `nx`. -/
def IsRadialCand [FloorRing K] (m : Libm K) (ofs : K) (ln nx : line K) (c : offset_line K) :
    Prop :=
  c.radial = true ∧
    ∃ (sgn : K) (j k : Nat), (sgn = 1 ∨ sgn = -1) ∧ 1 ≤ k ∧
      ((k + 1 : Nat) : Int) ≤ ⌊|ln.angle_to m nx| / (3 * m.pi / 180)⌋ ∧
      c.ln.get_S1 =
        ⟨ln.get_S1.x + |ofs| *
            m.cos (ln.angle m + sgn * (-(m.pi / 2) + j * (m.pi * 2) + k * (3 * m.pi / 180))),
         ln.get_S1.y + |ofs| *
            m.sin (ln.angle m + sgn * (-(m.pi / 2) + j * (m.pi * 2) + k * (3 * m.pi / 180)))⟩

end CandidateVocabulary

section LeanInputs
variable {K : Type} [LinearOrderedField K]

/-- A short segment from the origin that leans to the left of the vertical.
Its `dx` is below `SNAP_LEN`, so `line::angle()` takes it for vertical. -/
def leanSeg : line K := ⟨⟨0, 0⟩, ⟨-(9 / 100000), 216 / 1000000⟩⟩

/-- A segment far to the right of `leanSeg`, turned to the left of it by the
angle whose tangent is `13/84` (a little under nine degrees). -/
def farSeg : line K := ⟨⟨10, 0⟩, ⟨-(576 / 1000), 943 / 1000⟩⟩

/-- The two segments, which are not connected. -/
def leanPair : obj K := [leanSeg, farSeg]

/-- The end of the one radial offsetting line at the end of `leanSeg` for the
offset `-1`: one step of three degrees from the horizontal. -/
def fanEnd (m : Libm K) : coord_t K :=
  ⟨-(9 / 100000) + m.cos (m.pi / 60), 216 / 1000000 + m.sin (m.pi / 60)⟩

/-- The radial offsetting line at the end of `leanSeg` for the offset `-1`. -/
def fanCand (m : Libm K) : offset_line K :=
  ⟨line.ofPoints
      ⟨-(9 / 100000) + 1 / 1000 * m.cos (m.pi / 60),
        216 / 1000000 + 1 / 1000 * m.sin (m.pi / 60)⟩ (fanEnd m),
    true, true, 0⟩

/-- The offsetting lines of `leanPair` for the offset `-1`: five along
`leanSeg`, the radial one, five along `farSeg`; `b` is the `valid` flag of the
second and fourth line of each five. -/
def leanCands (m : Libm K) (b : Bool) : List (offset_line K) :=
  sideCands (fun T => leanSeg.get_pt T) ⟨12 / 13, 5 / 13⟩ 0 true b true b true ++
    fanCand m ::
      sideCands (fun T => farSeg.get_pt T) ⟨943 / 1105, 576 / 1105⟩ 1 true b true b true

end LeanInputs

section LeanTraceInputs
variable {K : Type} [LinearOrderedField K]

/-- The end of the offsetting line that starts at the parameter `T` of `s`
and runs by `v`. -/
def sidePt (s : line K) (v : vector_t K) (T : K) : coord_t K :=
  (⟨s.get_pt T, v⟩ : line K).get_S1

/-- The ends of the offsetting lines of `leanPair` that stay valid, in the
order of the trace. -/
def leanTraceVerts (m : Libm K) : List (coord_t K) :=
  [sidePt leanSeg ⟨12 / 13, 5 / 13⟩ (1 / 1000000), sidePt leanSeg ⟨12 / 13, 5 / 13⟩ (1 / 2),
    sidePt leanSeg ⟨12 / 13, 5 / 13⟩ (999999 / 1000000), fanEnd m,
    sidePt farSeg ⟨943 / 1105, 576 / 1105⟩ (1 / 1000000),
    sidePt farSeg ⟨943 / 1105, 576 / 1105⟩ (1 / 2),
    sidePt farSeg ⟨943 / 1105, 576 / 1105⟩ (999999 / 1000000)]

end LeanTraceInputs

section ClearanceVocabulary
variable {K : Type} [LinearOrderedField K]

/-- The point `P` keeps the clearance `d` from the path `e1` but for one
element `s` of it: `P` is not nearer than `d` to any element at another
position, and it is at the distance `d` from `s` or from the end point of `s`. -/
def OffsetVertex (m : Libm K) (e1 : obj K) (d : K) (P : coord_t K) : Prop :=
  ∃ (i : Nat) (s : line K), e1[i]? = some s ∧
    (∀ (j : Nat) (l : line K), e1[j]? = some l → j ≠ i → d ≤ l.distance_to_point m P) ∧
    (s.distance_to_point m P = d ∨ distTwoPoints m s.get_S1 P = d)

end ClearanceVocabulary

/-! # Theorems -/

/-! ## The real math library -/

section RealLibm

/-- The record of the real functions satisfies `Libm.IsReal`. -/
theorem isReal_mk :
    Libm.IsReal ⟨Real.sqrt, fun y x => Complex.arg ⟨x, y⟩, Real.cos, Real.sin, Real.pi⟩ :=
  ⟨rfl, fun _ _ => rfl, rfl, rfl, rfl⟩

/-- With the real square root a segment of non-zero length has positive length. -/
theorem len_pos_of_nonZero (m : Libm ℝ) (hm : m.IsReal) (l : line ℝ) (h : NonZero l) :
    0 < l.len m := by
  simp only [line.len, hm.1]
  apply Real.sqrt_pos.mpr
  rcases h with h | h
  · have := mul_self_pos.mpr h
    nlinarith [mul_self_nonneg l.V.dy]
  · have := mul_self_pos.mpr h
    nlinarith [mul_self_nonneg l.V.dx]

end RealLibm

/-! ## Segment intersection -/

section Intersection
variable {K : Type} [LinearOrderedField K]

theorem SMALL_NUM_pos : (0 : K) < SMALL_NUM := by
  unfold SMALL_NUM SNAP_LEN; positivity

/-- When the cross product of the directions is at least `SMALL_NUM` in
magnitude the parallel test of `lines_intersect` fails. -/
theorem not_parallel_test {p : K} (h : SMALL_NUM ≤ |p|) :
    ¬ ((p < 0 ∧ p > -SMALL_NUM) ∨ (p ≥ 0 ∧ p < SMALL_NUM)) := by
  rintro (⟨h1, h2⟩ | ⟨h1, h2⟩)
  · rw [abs_of_neg h1] at h; linarith
  · rw [abs_of_nonneg h1] at h; linarith

/-- The skew branch of `lines_intersect`, as a closed form. -/
theorem lines_intersect_skew_eq (m : Libm K) (l l2 : line K)
    (h : SMALL_NUM ≤ |perpprod l.V l2.V|) :
    l.lines_intersect m l2 false =
      (let w : vector_t K := ⟨l.S0.x - l2.S0.x, l.S0.y - l2.S0.y⟩
       let s := perpprod l2.V w / perpprod l.V l2.V
       let t := perpprod l.V w / perpprod l.V l2.V
       if s < 0 ∨ s > 1 ∨ t < 0 ∨ t > 1 then (false, ⟨0, 0⟩) else (true, l.get_pt s)) := by
  have hp := not_parallel_test h
  simp only [line.lines_intersect, if_neg hp]
  simp

/-- Skew case: the infinite lines meet in exactly one point, with parameters
`s` and `t`; the result is true exactly when both are in `[0,1]`, and the
point reported is `S0 + s.V`. -/
theorem skew_core (m : Libm K) (l l2 : line K)
    (h : SMALL_NUM ≤ |perpprod l.V l2.V|) :
    ∃ s t : K, l.get_pt s = l2.get_pt t ∧
      (∀ s' t' : K, l.get_pt s' = l2.get_pt t' → s' = s ∧ t' = t) ∧
      ((l.lines_intersect m l2 false).1 = true ↔ (0 ≤ s ∧ s ≤ 1 ∧ 0 ≤ t ∧ t ≤ 1)) ∧
      ((l.lines_intersect m l2 false).1 = true →
        (l.lines_intersect m l2 false).2 = l.get_pt s) := by
  have hp0 : perpprod l.V l2.V ≠ 0 := by
    intro h0
    rw [h0, abs_zero] at h
    exact absurd h (not_le.mpr SMALL_NUM_pos)
  rw [lines_intersect_skew_eq m l l2 h]
  obtain ⟨⟨x1, y1⟩, ⟨a1, b1⟩⟩ := l
  obtain ⟨⟨x2, y2⟩, ⟨a2, b2⟩⟩ := l2
  simp only [perpprod, perpprodRaw] at hp0 ⊢
  refine ⟨(a2 * (y1 - y2) - (x1 - x2) * b2) / (a1 * b2 - a2 * b1),
    (a1 * (y1 - y2) - (x1 - x2) * b1) / (a1 * b2 - a2 * b1), ?_, ?_, ?_, ?_⟩
  · simp only [line.get_pt, coord_t.mk.injEq]
    constructor <;> field_simp <;> ring
  · intro s' t' hst
    simp only [line.get_pt, coord_t.mk.injEq] at hst
    obtain ⟨hx, hy⟩ := hst
    constructor
    · rw [eq_div_iff hp0]; linear_combination b2 * hx - a2 * hy
    · rw [eq_div_iff hp0]; linear_combination b1 * hx - a1 * hy
  · split_ifs with hc
    · simp only [Bool.false_eq_true, false_iff, not_and, not_le]
      intro h1 h2 h3
      rcases hc with hc | hc | hc | hc
      · exact absurd h1 (not_le.mpr hc)
      · exact absurd h2 (not_le.mpr hc)
      · exact absurd h3 (not_le.mpr hc)
      · exact hc
    · simp only [true_iff]
      push_neg at hc
      exact ⟨hc.1, hc.2.1, hc.2.2.1, hc.2.2.2⟩
  · split_ifs with hc
    · simp
    · simp

/-- A segment of non-zero length is parametrised injectively. -/
theorem get_pt_inj {l : line K} (h : NonZero l) {a b : K} (hab : l.get_pt a = l.get_pt b) :
    a = b := by
  simp only [line.get_pt, coord_t.mk.injEq, add_right_inj] at hab
  rcases h with h | h
  · exact mul_right_cancel₀ h hab.1
  · exact mul_right_cancel₀ h hab.2

/-- The parameter on `l2` the collinear branch computes for a point at offset
`(wx, wy)` from the start of `l2`, when that offset is parallel to `l2`. -/
theorem collinear_param {l2 : line K} (h2 : NonZero l2) {wx wy : K}
    (hw : perpprod l2.V ⟨wx, wy⟩ = 0) :
    l2.get_pt (if l2.V.dx ≠ 0 then wx / l2.V.dx else wy / l2.V.dy) =
      ⟨l2.S0.x + wx, l2.S0.y + wy⟩ := by
  obtain ⟨⟨x2, y2⟩, ⟨a2, b2⟩⟩ := l2
  simp only [perpprod, perpprodRaw, NonZero] at hw h2 ⊢
  by_cases ha : a2 = 0
  · have hb : b2 ≠ 0 := by
      rcases h2 with h | h
      · exact absurd ha h
      · exact h
    subst ha
    have hwx : wx = 0 := by
      have : wx * b2 = 0 := by linear_combination -hw
      rcases mul_eq_zero.mp this with h | h
      · exact h
      · exact absurd h hb
    simp only [ne_eq, not_true_eq_false, if_false, line.get_pt, coord_t.mk.injEq]
    constructor
    · rw [hwx]; ring
    · field_simp
  · simp only [ne_eq, ha, not_false_eq_true, if_true, line.get_pt, coord_t.mk.injEq]
    constructor
    · field_simp
    · field_simp
      linear_combination -hw

/-- The collinear-overlap branch of `lines_intersect`, as a closed form. -/
theorem lines_intersect_collinear_eq (m : Libm K) (l l2 : line K)
    (h1 : NonZero l) (h2 : NonZero l2) (hc : Collinear l l2) :
    l.lines_intersect m l2 false =
      (let t1 := if l2.V.dx ≠ 0 then (l.S0.x - l2.S0.x) / l2.V.dx
                 else (l.S0.y - l2.S0.y) / l2.V.dy
       let t2 := if l2.V.dx ≠ 0 then (l.get_S1.x - l2.S0.x) / l2.V.dx
                 else (l.get_S1.y - l2.S0.y) / l2.V.dy
       if min t1 t2 > 1 ∨ max t1 t2 < 0 then (false, ⟨0, 0⟩)
       else (true, l2.get_pt (max 0 (min t1 t2)))) := by
  obtain ⟨hp, hw1, hw2⟩ := hc
  have hpar : (perpprod l.V l2.V < 0 ∧ perpprod l.V l2.V > -SMALL_NUM) ∨
      (perpprod l.V l2.V ≥ 0 ∧ perpprod l.V l2.V < SMALL_NUM) := by
    right; rw [hp]; exact ⟨le_refl _, SMALL_NUM_pos⟩
  have hd1 : dotprod l.V l.V ≠ 0 := by
    simp only [dotprod, dotprodRaw]
    rcases h1 with h | h
    · have := mul_self_pos.mpr h
      nlinarith [mul_self_nonneg l.V.dy]
    · have := mul_self_pos.mpr h
      nlinarith [mul_self_nonneg l.V.dx]
  have hd2 : dotprod l2.V l2.V ≠ 0 := by
    simp only [dotprod, dotprodRaw]
    rcases h2 with h | h
    · have := mul_self_pos.mpr h
      nlinarith [mul_self_nonneg l2.V.dy]
    · have := mul_self_pos.mpr h
      nlinarith [mul_self_nonneg l2.V.dx]
  have hnc : ¬ (perpprod l.V ⟨l.S0.x - l2.S0.x, l.S0.y - l2.S0.y⟩ ≠ 0 ∨
      perpprod l2.V ⟨l.S0.x - l2.S0.x, l.S0.y - l2.S0.y⟩ ≠ 0) := by
    rw [hw1, hw2]; simp
  have hdd : ¬ (dotprod l.V l.V = 0 ∧ dotprod l2.V l2.V = 0) := fun h => hd1 h.1
  simp only [line.lines_intersect, if_pos hpar, if_neg hnc, if_neg hdd, if_neg hd1, if_neg hd2,
    Bool.false_eq_true, if_false]
  by_cases hgt : (if l2.V.dx ≠ 0 then (l.S0.x - l2.S0.x) / l2.V.dx
        else (l.S0.y - l2.S0.y) / l2.V.dy) >
      (if l2.V.dx ≠ 0 then (l.get_S1.x - l2.S0.x) / l2.V.dx
        else (l.get_S1.y - l2.S0.y) / l2.V.dy)
  · simp only [if_pos hgt, min_eq_right (le_of_lt hgt), max_eq_left (le_of_lt hgt)]
    congr 1
    by_cases h0 : (if l2.V.dx ≠ 0 then (l.get_S1.x - l2.S0.x) / l2.V.dx
        else (l.get_S1.y - l2.S0.y) / l2.V.dy) < 0
    · simp only [if_pos h0, max_eq_left (le_of_lt h0)]
    · simp only [if_neg h0, max_eq_right (not_lt.mp h0)]
  · simp only [if_neg hgt, min_eq_left (not_lt.mp hgt), max_eq_right (not_lt.mp hgt)]
    congr 1
    by_cases h0 : (if l2.V.dx ≠ 0 then (l.S0.x - l2.S0.x) / l2.V.dx
        else (l.S0.y - l2.S0.y) / l2.V.dy) < 0
    · simp only [if_pos h0, max_eq_left (le_of_lt h0)]
    · simp only [if_neg h0, max_eq_right (not_lt.mp h0)]

/-- Along a collinear pair the first segment is an affine image of the
parameter line of the second: `l(s) = l2(t1 + s (t2 - t1))`, where `t1`, `t2`
are the parameters of the ends of `l` on `l2`, and `t1 ≠ t2`. -/
theorem collinear_reparam (l l2 : line K) (h1 : NonZero l) (h2 : NonZero l2)
    (hc : Collinear l l2) :
    ∃ t1 t2 : K,
      t1 = (if l2.V.dx ≠ 0 then (l.S0.x - l2.S0.x) / l2.V.dx
            else (l.S0.y - l2.S0.y) / l2.V.dy) ∧
      t2 = (if l2.V.dx ≠ 0 then (l.get_S1.x - l2.S0.x) / l2.V.dx
            else (l.get_S1.y - l2.S0.y) / l2.V.dy) ∧
      t1 ≠ t2 ∧ ∀ s : K, l.get_pt s = l2.get_pt (t1 + s * (t2 - t1)) := by
  obtain ⟨hp, hw1, hw2⟩ := hc
  have hS0 := collinear_param h2 hw2
  have hw3 : perpprod l2.V ⟨l.get_S1.x - l2.S0.x, l.get_S1.y - l2.S0.y⟩ = 0 := by
    simp only [perpprod, perpprodRaw, line.get_S1, line.get_pt, T_S1] at hp hw2 ⊢
    linear_combination hw2 - hp
  have hS1 := collinear_param h2 hw3
  refine ⟨_, _, rfl, rfl, ?_, ?_⟩
  · intro heq
    rw [heq] at hS0
    rw [hS0] at hS1
    simp only [line.get_S1, line.get_pt, T_S1, coord_t.mk.injEq] at hS1
    rcases h1 with h | h
    · apply h; linear_combination -hS1.1
    · apply h; linear_combination -hS1.2
  · intro s
    generalize (if l2.V.dx ≠ 0 then (l.S0.x - l2.S0.x) / l2.V.dx
        else (l.S0.y - l2.S0.y) / l2.V.dy) = t1 at hS0 ⊢
    generalize (if l2.V.dx ≠ 0 then (l.get_S1.x - l2.S0.x) / l2.V.dx
        else (l.get_S1.y - l2.S0.y) / l2.V.dy) = t2 at hS1 ⊢
    simp only [line.get_S1, line.get_pt, T_S1, coord_t.mk.injEq] at hS0 hS1 ⊢
    constructor
    · linear_combination (s - 1) * hS0.1 - s * hS1.1
    · linear_combination (s - 1) * hS0.2 - s * hS1.2

/-- Collinear case: the result is true exactly when the segments share a
point, and the point reported lies on both. -/
theorem collinear_core (m : Libm K) (l l2 : line K)
    (h1 : NonZero l) (h2 : NonZero l2) (hc : Collinear l l2) :
    ((l.lines_intersect m l2 false).1 = true ↔ SegmentsMeet l l2) ∧
      ((l.lines_intersect m l2 false).1 = true →
        OnSegment l (l.lines_intersect m l2 false).2 ∧
          OnSegment l2 (l.lines_intersect m l2 false).2) := by
  rw [lines_intersect_collinear_eq m l l2 h1 h2 hc]
  obtain ⟨t1, t2, ht1, ht2, hne, hre⟩ := collinear_reparam l l2 h1 h2 hc
  simp only [← ht1, ← ht2]
  by_cases hov : min t1 t2 > 1 ∨ max t1 t2 < 0
  · simp only [if_pos hov, Bool.false_eq_true, false_iff, false_imp_iff, and_true]
    rintro ⟨p, ⟨s, hs0, hs1, hsp⟩, ⟨t, ht0, ht1', htp⟩⟩
    have htt : t = t1 + s * (t2 - t1) := by
      apply get_pt_inj h2
      rw [htp, ← hre s, hsp]
    have hlo : min t1 t2 ≤ t := by
      rcases le_total t1 t2 with h | h
      · rw [min_eq_left h, htt]; nlinarith
      · rw [min_eq_right h, htt]; nlinarith
    have hhi : t ≤ max t1 t2 := by
      rcases le_total t1 t2 with h | h
      · rw [max_eq_right h, htt]; nlinarith
      · rw [max_eq_left h, htt]; nlinarith
    rcases hov with h | h
    · linarith
    · linarith
  · simp only [if_neg hov, true_iff, true_imp_iff]
    push_neg at hov
    obtain ⟨hmin, hmax⟩ := hov
    have hc0 : 0 ≤ max 0 (min t1 t2) := le_max_left _ _
    have hc1 : max 0 (min t1 t2) ≤ 1 := max_le zero_le_one hmin
    have hclo : min t1 t2 ≤ max 0 (min t1 t2) := le_max_right _ _
    have hchi : max 0 (min t1 t2) ≤ max t1 t2 := max_le hmax (min_le_max)
    have hd : t2 - t1 ≠ 0 := sub_ne_zero.mpr (Ne.symm hne)
    generalize max 0 (min t1 t2) = c at hc0 hc1 hclo hchi ⊢
    have hon2 : OnSegment l2 (l2.get_pt c) := ⟨_, hc0, hc1, rfl⟩
    have hon1 : OnSegment l (l2.get_pt c) := by
      refine ⟨(c - t1) / (t2 - t1), ?_, ?_, ?_⟩
      · rcases le_total t1 t2 with h | h
        · rw [min_eq_left h] at hclo
          have hpos : 0 < t2 - t1 := lt_of_le_of_ne (sub_nonneg.mpr h) (Ne.symm hd)
          exact div_nonneg (sub_nonneg.mpr hclo) (le_of_lt hpos)
        · rw [max_eq_left h] at hchi
          have hneg : t2 - t1 < 0 := lt_of_le_of_ne (sub_nonpos.mpr h) hd
          exact div_nonneg_of_nonpos (sub_nonpos.mpr hchi) (le_of_lt hneg)
      · rcases le_total t1 t2 with h | h
        · rw [max_eq_right h] at hchi
          have hpos : 0 < t2 - t1 := lt_of_le_of_ne (sub_nonneg.mpr h) (Ne.symm hd)
          rw [div_le_one hpos]; linarith
        · rw [min_eq_right h] at hclo
          have hneg : t2 - t1 < 0 := lt_of_le_of_ne (sub_nonpos.mpr h) hd
          rw [div_le_one_of_neg hneg]; linarith
      · rw [hre]
        congr 1
        field_simp
    exact ⟨⟨_, hon1, hon2⟩, hon1, hon2⟩

/-- Parallel segments of non-zero length that are not collinear: the result is
false and the segments have no common point. -/
theorem parallel_core (m : Libm K) (l l2 : line K) (h1 : NonZero l)
    (hp : perpprod l.V l2.V = 0)
    (hnc : perpprod l.V ⟨l.S0.x - l2.S0.x, l.S0.y - l2.S0.y⟩ ≠ 0 ∨
      perpprod l2.V ⟨l.S0.x - l2.S0.x, l.S0.y - l2.S0.y⟩ ≠ 0) :
    (l.lines_intersect m l2 false).1 = false ∧ ¬ SegmentsMeet l l2 := by
  have hpar : (perpprod l.V l2.V < 0 ∧ perpprod l.V l2.V > -SMALL_NUM) ∨
      (perpprod l.V l2.V ≥ 0 ∧ perpprod l.V l2.V < SMALL_NUM) := by
    right; rw [hp]; exact ⟨le_refl _, SMALL_NUM_pos⟩
  constructor
  · simp only [line.lines_intersect, if_pos hpar, if_pos hnc]
  · rintro ⟨p, ⟨s, -, -, hsp⟩, ⟨t, -, -, htp⟩⟩
    obtain ⟨⟨x1, y1⟩, ⟨a1, b1⟩⟩ := l
    obtain ⟨⟨x2, y2⟩, ⟨a2, b2⟩⟩ := l2
    obtain ⟨px, py⟩ := p
    simp only [line.get_pt, coord_t.mk.injEq, perpprod, perpprodRaw, NonZero] at *
    obtain ⟨hx, hy⟩ := hsp
    obtain ⟨hx2, hy2⟩ := htp
    have e1 : a1 * (y1 - y2) - (x1 - x2) * b1 = 0 := by
      linear_combination a1 * hy - a1 * hy2 - b1 * hx + b1 * hx2 + t * hp
    have e2 : (a2 * (y1 - y2) - (x1 - x2) * b2) = 0 := by
      linear_combination a2 * hy - a2 * hy2 - b2 * hx + b2 * hx2 + s * hp
    rcases hnc with h | h
    · exact h e1
    · exact h e2

/-- For segments of non-zero length whose direction cross product is exactly
zero or at least `SMALL_NUM` in magnitude, the result is true exactly when the
segments share a point, and the point reported lies on both. -/
theorem intersect_iff_meet_core (m : Libm K) (l l2 : line K)
    (h1 : NonZero l) (h2 : NonZero l2)
    (hp : perpprod l.V l2.V = 0 ∨ SMALL_NUM ≤ |perpprod l.V l2.V|) :
    ((l.lines_intersect m l2 false).1 = true ↔ SegmentsMeet l l2) ∧
      ((l.lines_intersect m l2 false).1 = true →
        OnSegment l (l.lines_intersect m l2 false).2 ∧
          OnSegment l2 (l.lines_intersect m l2 false).2) := by
  rcases hp with hp | hp
  · by_cases hnc : perpprod l.V ⟨l.S0.x - l2.S0.x, l.S0.y - l2.S0.y⟩ ≠ 0 ∨
        perpprod l2.V ⟨l.S0.x - l2.S0.x, l.S0.y - l2.S0.y⟩ ≠ 0
    · obtain ⟨hf, hno⟩ := parallel_core m l l2 h1 hp hnc
      rw [hf]
      simp only [Bool.false_eq_true, false_iff, false_imp_iff, and_true]
      exact hno
    · push_neg at hnc
      exact collinear_core m l l2 h1 h2 ⟨hp, hnc.1, hnc.2⟩
  · obtain ⟨s, t, hst, huniq, hiff, hpt⟩ := skew_core m l l2 hp
    constructor
    · rw [hiff]
      constructor
      · rintro ⟨hs0, hs1, ht0, ht1⟩
        exact ⟨l.get_pt s, ⟨s, hs0, hs1, rfl⟩, ⟨t, ht0, ht1, hst.symm⟩⟩
      · rintro ⟨p, ⟨s', hs0, hs1, hsp⟩, ⟨t', ht0, ht1, htp⟩⟩
        obtain ⟨e1, e2⟩ := huniq s' t' (hsp.trans htp.symm)
        subst e1 e2
        exact ⟨hs0, hs1, ht0, ht1⟩
    · intro hres
      rw [hpt hres]
      obtain ⟨hs0, hs1, ht0, ht1⟩ := hiff.mp hres
      exact ⟨⟨s, hs0, hs1, rfl⟩, ⟨t, ht0, ht1, hst.symm⟩⟩

end Intersection

/-! ## Distance from a segment to a point -/

section Distance

/-- The squared distance from `p` to the point of parameter `u` on `l`, minus
the squared distance to the point of parameter `c`, is
`|V|^2 (u - c) (u + c - 2 t)` with `t` the projection parameter. -/
theorem sq_dist_diff (l : line ℝ) (h : NonZero l) (p : coord_t ℝ) (u c : ℝ) :
    ((p.x - (l.get_pt u).x) * (p.x - (l.get_pt u).x) +
        (p.y - (l.get_pt u).y) * (p.y - (l.get_pt u).y)) -
      ((p.x - (l.get_pt c).x) * (p.x - (l.get_pt c).x) +
        (p.y - (l.get_pt c).y) * (p.y - (l.get_pt c).y)) =
      (l.V.dx * l.V.dx + l.V.dy * l.V.dy) * ((u - c) * (u + c - 2 * projParam l p)) := by
  have hD : l.V.dx * l.V.dx + l.V.dy * l.V.dy ≠ 0 := by
    rcases h with h | h
    · have := mul_self_pos.mpr h
      nlinarith [mul_self_nonneg l.V.dy]
    · have := mul_self_pos.mpr h
      nlinarith [mul_self_nonneg l.V.dx]
  simp only [projParam, line.get_pt]
  field_simp
  ring

/-- Distance to the clamped projection, and minimality over the segment. -/
theorem distance_core (m : Libm ℝ) (hm : m.IsReal) (l : line ℝ) (h : NonZero l)
    (p : coord_t ℝ) :
    l.distance_to_point m p =
        Real.sqrt ((p.x - (l.get_pt (max 0 (min 1 (projParam l p)))).x) ^ 2 +
          (p.y - (l.get_pt (max 0 (min 1 (projParam l p)))).y) ^ 2) ∧
      ∀ u : ℝ, 0 ≤ u → u ≤ 1 →
        l.distance_to_point m p ≤
          Real.sqrt ((p.x - (l.get_pt u).x) ^ 2 + (p.y - (l.get_pt u).y) ^ 2) := by
  have hD : 0 < l.V.dx * l.V.dx + l.V.dy * l.V.dy := by
    rcases h with h | h
    · have := mul_self_pos.mpr h
      nlinarith [mul_self_nonneg l.V.dy]
    · have := mul_self_pos.mpr h
      nlinarith [mul_self_nonneg l.V.dx]
  have hval : l.distance_to_point m p =
      Real.sqrt ((p.x - (l.get_pt (max 0 (min 1 (projParam l p)))).x) ^ 2 +
        (p.y - (l.get_pt (max 0 (min 1 (projParam l p)))).y) ^ 2) := by
    simp only [line.distance_to_point, distTwoPoints, hm.1, line.get_S1, T_S1]
    change (if projParam l p < 0 then _ else if projParam l p > 1 then _ else _) = _
    by_cases h0 : projParam l p < 0
    · rw [if_pos h0, min_eq_right (by linarith), max_eq_left (le_of_lt h0)]
      congr 1
      simp only [line.get_pt]
      ring
    · rw [if_neg h0]
      by_cases h1 : projParam l p > 1
      · rw [if_pos h1, min_eq_left (le_of_lt h1), max_eq_right zero_le_one]
        congr 1
        ring
      · rw [if_neg h1, min_eq_right (not_lt.mp h1), max_eq_right (not_lt.mp h0)]
        congr 1
        simp only [projParam]
        ring
  refine ⟨hval, ?_⟩
  intro u hu0 hu1
  rw [hval]
  apply Real.sqrt_le_sqrt
  have hdiff := sq_dist_diff l h p u (max 0 (min 1 (projParam l p)))
  have hprod : 0 ≤ (u - max 0 (min 1 (projParam l p))) *
      (u + max 0 (min 1 (projParam l p)) - 2 * projParam l p) := by
    by_cases h0 : projParam l p < 0
    · rw [min_eq_right (by linarith), max_eq_left (le_of_lt h0)]
      apply mul_nonneg <;> linarith
    · by_cases h1 : projParam l p > 1
      · rw [min_eq_left (le_of_lt h1), max_eq_right zero_le_one]
        apply mul_nonneg_of_nonpos_of_nonpos <;> linarith
      · rw [min_eq_right (not_lt.mp h1), max_eq_right (not_lt.mp h0)]
        nlinarith [mul_self_nonneg (u - projParam l p)]
  have := mul_nonneg (le_of_lt hD) hprod
  nlinarith

end Distance

/-! ## Point at an arc length -/

section ArcLength
variable {K : Type} [LinearOrderedField K]

/-- `obj::len` is the sum of the lengths of the elements. -/
theorem len_eq_sum (m : Libm K) (o : obj K) :
    obj.len m o = (o.map (fun ln => ln.len m)).sum := by
  have key : ∀ (l : List (line K)) (a : K),
      l.foldl (fun l ln => l + ln.len m) a = a + (l.map (fun ln => ln.len m)).sum := by
    intro l
    induction l with
    | nil => intro a; simp
    | cons x xs ih => intro a; simp only [List.foldl_cons, List.map_cons, List.sum_cons, ih]; ring
  simpa using key o 0

/-- For positive arguments `fmod x y` is `x - y * floor (x / y)`, and lies in `[0, y)`. -/
theorem fmod_pos [FloorRing K] {x y : K} (hx : 0 < x) (hy : 0 < y) :
    fmod x y = x - y * (⌊x / y⌋ : K) ∧ 0 ≤ fmod x y ∧ fmod x y < y := by
  have hq : 0 ≤ x / y := le_of_lt (div_pos hx hy)
  have h1 : fmod x y = x - y * (⌊x / y⌋ : K) := by
    simp only [fmod, if_pos hq]; ring
  have hfl : (⌊x / y⌋ : K) ≤ x / y := Int.floor_le _
  have hfl2 : x / y < (⌊x / y⌋ : K) + 1 := Int.lt_floor_add_one _
  rw [le_div_iff₀ hy] at hfl
  rw [div_lt_iff₀ hy] at hfl2
  refine ⟨h1, ?_, ?_⟩
  · rw [h1]; linarith
  · rw [h1]; linarith

/-- The walk over the elements: started at an element whose accumulated length
`lsf` does not exceed `d`, with `d` below the accumulated length of the whole
rest, it returns at an element `j` with a parameter `T` in `[0,1]` such that
the length before element `j` plus `T` times its length is `d`. -/
theorem loop_spec (m : Libm K) (d : K) :
    ∀ (rest : List (line K)) (idx : Nat) (lsf : K),
      (∀ ln ∈ rest, 0 < ln.len m) → lsf ≤ d →
      d < lsf + (rest.map (fun ln => ln.len m)).sum →
      ∃ (j : Nat) (ln : line K) (T : K), rest[j]? = some ln ∧
        obj.get_pt_along_length_loop m d rest idx lsf = some (ln.get_pt T, idx + j, T) ∧
        0 ≤ T ∧ T ≤ 1 ∧
        lsf + ((rest.take j).map (fun ln => ln.len m)).sum + T * ln.len m = d := by
  intro rest
  induction rest with
  | nil =>
    intro idx lsf _ h1 h2
    simp only [List.map_nil, List.sum_nil, add_zero] at h2
    exact absurd h1 (not_le.mpr h2)
  | cons x xs ih =>
    intro idx lsf hpos h1 h2
    have hx : 0 < x.len m := hpos x (List.mem_cons_self _ _)
    by_cases hT : (d - lsf) / x.len m ≤ 1
    · refine ⟨0, x, (d - lsf) / x.len m, by simp, ?_, ?_, hT, ?_⟩
      · simp only [obj.get_pt_along_length_loop, T_S1, if_pos hT, add_zero]
      · exact div_nonneg (sub_nonneg.mpr h1) (le_of_lt hx)
      · simp only [List.take_zero, List.map_nil, List.sum_nil, add_zero]
        field_simp
    · have hgt : lsf + x.len m < d := by
        rw [not_le, lt_div_iff₀ hx] at hT
        linarith
      have hpos' : ∀ ln ∈ xs, 0 < ln.len m := fun ln hl => hpos ln (List.mem_cons_of_mem _ hl)
      have h2' : d < lsf + x.len m + (xs.map (fun ln => ln.len m)).sum := by
        simp only [List.map_cons, List.sum_cons] at h2
        linarith
      obtain ⟨j, ln, T, hj, hloop, hT0, hT1, hsum⟩ :=
        ih (idx + 1) (lsf + x.len m) hpos' (le_of_lt hgt) h2'
      refine ⟨j + 1, ln, T, ?_, ?_, hT0, hT1, ?_⟩
      · simpa using hj
      · simp only [obj.get_pt_along_length_loop, T_S1, if_neg hT]
        rw [hloop]
        congr 3
        omega
      · simp only [List.take_succ_cons, List.map_cons, List.sum_cons]
        linarith

/-- The point at an arc length: for a non-empty path of elements of positive
length and `dist > 0` the call returns, at an element `j` and a parameter `T` in
`[0,1]` whose arc length from the start is `dist` modulo the total length. -/
theorem along_length_core [FloorRing K] (m : Libm K) (o : obj K) (dist : K)
    (hne : o ≠ []) (hpos : ∀ ln ∈ o, 0 < ln.len m) (hd : 0 < dist) :
    ∃ (j : Nat) (ln : line K) (T : K), o[j]? = some ln ∧
      obj.get_pt_along_length m o dist = some (ln.get_pt T, j, T) ∧
      0 ≤ T ∧ T ≤ 1 ∧
      ((o.take j).map (fun ln => ln.len m)).sum + T * ln.len m =
        dist - obj.len m o * (⌊dist / obj.len m o⌋ : K) := by
  have hL : 0 < obj.len m o := by
    rw [len_eq_sum]
    cases o with
    | nil => exact absurd rfl hne
    | cons x xs =>
      simp only [List.map_cons, List.sum_cons]
      have hx : 0 < x.len m := hpos x (List.mem_cons_self _ _)
      have hxs : 0 ≤ (xs.map (fun ln => ln.len m)).sum := by
        apply List.sum_nonneg
        intro a ha
        obtain ⟨ln, hln, rfl⟩ := List.mem_map.mp ha
        exact le_of_lt (hpos ln (List.mem_cons_of_mem _ hln))
      linarith
  obtain ⟨hf, hf0, hf1⟩ := fmod_pos hd hL
  have h2 : fmod dist (obj.len m o) < 0 + (o.map (fun ln => ln.len m)).sum := by
    rw [zero_add, ← len_eq_sum]; exact hf1
  obtain ⟨j, ln, T, hj, hloop, hT0, hT1, hsum⟩ :=
    loop_spec m (fmod dist (obj.len m o)) o 0 0 hpos hf0 h2
  refine ⟨j, ln, T, hj, ?_, hT0, hT1, ?_⟩
  · cases o with
    | nil => exact absurd rfl hne
    | cons x xs =>
      simp only [obj.get_pt_along_length, if_neg (not_le.mpr hd)]
      rw [hloop, zero_add]
  · rw [← hf, ← hsum]; ring

end ArcLength

/-! ## Path topology: paths in normal form -/

section NormalForm
variable {K : Type} [LinearOrderedField K]

theorem ofPoints_self (x : line K) : line.ofPoints x.S0 x.get_S1 = x := by
  obtain ⟨⟨a, b⟩, ⟨c, d⟩⟩ := x
  simp [line.ofPoints, line.get_S1, line.get_pt, T_S1]

theorem trace_scan_loop (m : Libm K) (snap : K) (hz : ∀ p, distTwoPoints m p p ≤ snap)
    (s1 : line K) (rest : List (line K)) :
    ∀ (rem : List (line K)) (tail : List (line K)),
      LoopTail m snap s1 ((s1 :: tail).getLast (List.cons_ne_nil _ _)) rem →
      trace_scan m snap s1 tail [] (rem ++ rest) = (true, s1 :: (tail ++ rem), rest) := by
  intro rem
  induction rem with
  | nil => intro tail h; exact absurd h (by simp [LoopTail])
  | cons x more ih =>
    intro tail h
    cases more with
    | nil =>
      obtain ⟨h0, h1, h2⟩ := h
      rw [List.singleton_append, trace_scan]
      simp only [if_neg h1]
      rw [← h0, ofPoints_self, h2, line.get_S0, if_pos (hz _), if_pos (hz _)]
      simp only [List.nil_append, line.get_S0] at h2 ⊢
      rw [← h2, ofPoints_self]
    | cons y more' =>
      obtain ⟨h0, h1, h2, h3⟩ := h
      rw [List.cons_append, trace_scan]
      simp only [if_neg h1]
      rw [← h0, ofPoints_self, line.get_S0, if_pos (hz _), if_neg h2]
      have := ih (tail ++ [x]) (by simpa using h3)
      simp only [List.nil_append]
      rw [this]
      simp

theorem make_path_loop_loops (m : Libm K) (snap : K) (hz : ∀ p, distTwoPoints m p p ≤ snap)
    (listPaths keepOpens : Bool) (opened : List (obj K)) :
    ∀ (loops : List (List (line K))) (n : Nat) (done : List (line K)) (closed : List (obj K)),
      (∀ L ∈ loops, NormalLoop m snap L) → loops.length ≤ n →
      make_path_loop m snap listPaths keepOpens n done loops.flatten closed opened =
        .ok (done ++ loops.flatten, if listPaths then closed ++ loops else closed, opened) := by
  intro loops
  induction loops with
  | nil =>
    intro n done closed _ _
    cases n <;> cases listPaths <;> simp [make_path_loop]
  | cons L Ls ih =>
    intro n done closed hL hn
    have hL1 := hL L (List.mem_cons_self _ _)
    have hLs : ∀ L' ∈ Ls, NormalLoop m snap L' := fun L' h => hL L' (List.mem_cons_of_mem _ h)
    cases L with
    | nil => exact absurd hL1 (by simp [NormalLoop])
    | cons s1 rem =>
      obtain ⟨htail, hcw⟩ := hL1
      cases n with
      | zero => simp at hn
      | succ n' =>
        have htr : trace_a_path m snap (s1 :: (rem ++ Ls.flatten)) =
            (true, s1 :: rem, Ls.flatten) := by
          have := trace_scan_loop m snap hz s1 Ls.flatten rem [] (by simpa using htail)
          simpa [trace_a_path] using this
        rw [List.flatten_cons, List.cons_append, make_path_loop, htr]
        simp only [Bool.not_true, Bool.false_and, Bool.false_eq_true, if_false, if_true, hcw]
        rw [ih n' _ _ hLs (by simpa using hn)]
        cases listPaths <;> simp

theorem del_duplicates_inner_none (cur : line K) :
    ∀ (unscanned scanned : List (line K)) (cnt : Nat),
      (∀ c ∈ unscanned, cur.is_same_as c = false) →
      del_duplicates_inner cur scanned unscanned cnt = (scanned ++ unscanned, cnt) := by
  intro unscanned
  induction unscanned with
  | nil => intro scanned cnt _; rw [del_duplicates_inner]; simp
  | cons c us ih =>
    intro scanned cnt h
    rw [del_duplicates_inner]
    have hc := h c (List.mem_cons_self _ _)
    simp only [hc, Bool.false_eq_true, if_false]
    rw [ih _ _ (fun c' hc' => h c' (List.mem_cons_of_mem _ hc'))]
    simp

theorem del_duplicates_outer_none :
    ∀ (after before : List (line K)) (n cnt : Nat),
      after.Pairwise (fun a b => a.is_same_as b = false) → after.length ≤ n →
      del_duplicates_outer n before after cnt = (before ++ after, cnt) := by
  intro after
  induction after with
  | nil => intro before n cnt _ _; cases n <;> simp [del_duplicates_outer]
  | cons cur after ih =>
    intro before n cnt hp hn
    cases n with
    | zero => simp at hn
    | succ n' =>
      rw [List.pairwise_cons] at hp
      rw [del_duplicates_outer]
      simp only [del_duplicates_inner_none cur after [] cnt hp.1, List.nil_append]
      rw [ih _ _ _ hp.2 (by simpa using hn)]
      simp

theorem del_zero_lens_loop_none (m : Libm K) :
    ∀ (unscanned scanned : List (line K)) (cnt : Nat),
      (∀ l ∈ unscanned, ¬ l.len m < SMALL_NUM) →
      del_zero_lens_loop m scanned unscanned cnt = (scanned ++ unscanned, cnt) := by
  intro unscanned
  induction unscanned with
  | nil => intro scanned cnt _; rw [del_zero_lens_loop]; simp
  | cons c us ih =>
    intro scanned cnt h
    rw [del_zero_lens_loop]
    have hc := h c (List.mem_cons_self _ _)
    simp only [hc, if_false]
    rw [ih _ _ (fun c' hc' => h c' (List.mem_cons_of_mem _ hc'))]
    simp

/-- A path of closed sub-paths in normal form, without identical elements and
without elements shorter than `SMALL_NUM`, is left as it is by `regularise`. -/
theorem regularise_fixed (m : Libm K) (hz : ∀ p, distTwoPoints m p p ≤ (SNAP_LEN : K))
    (loops : List (List (line K)))
    (hL : ∀ L ∈ loops, NormalLoop m SNAP_LEN L)
    (hd : loops.flatten.Pairwise (fun a b => a.is_same_as b = false))
    (hzl : ∀ l ∈ loops.flatten, ¬ l.len m < SMALL_NUM) :
    regularise m loops.flatten = .ok loops.flatten := by
  have hlen : loops.length ≤ loops.flatten.length := by
    clear hd hzl
    induction loops with
    | nil => simp
    | cons L Ls ih =>
      have h1 := hL L (List.mem_cons_self _ _)
      have : 1 ≤ L.length := by
        cases L with
        | nil => exact absurd h1 (by simp [NormalLoop])
        | cons _ _ => simp
      have := ih (fun L' h => hL L' (List.mem_cons_of_mem _ h))
      simp only [List.length_cons, List.flatten_cons, List.length_append]
      omega
  have hmp : make_path m loops.flatten = .ok loops.flatten := by
    simp only [make_path, make_path_snap, make_path_full]
    rw [make_path_loop_loops m SNAP_LEN hz false false [] loops _ [] [] hL hlen]
    simp
  have hdel : del_dupes_zeros m loops.flatten = (loops.flatten, false) := by
    have h1 := del_duplicates_outer_none loops.flatten [] loops.flatten.length 0 hd (le_refl _)
    have h2 := del_zero_lens_loop_none m loops.flatten [] 0 hzl
    simp only [List.nil_append] at h1 h2
    simp only [del_dupes_zeros, del_duplicates, del_zero_lens, h1, h2]
    simp
  rw [regularise, regularise_loop, hmp]
  simp only [hdel]
  simp

end NormalForm

/-! ## Path topology: evaluation on examples -/

section Evaluation

theorem arg_mk_neg_zero {c : ℝ} (hc : c < 0) : Complex.arg ⟨c, 0⟩ = Real.pi := by
  have : (⟨c, 0⟩ : ℂ) = ((c : ℝ) : ℂ) := by apply Complex.ext <;> simp
  rw [this, Complex.arg_ofReal_of_neg hc]

theorem arg_mk_nonneg_zero {c : ℝ} (hc : 0 ≤ c) : Complex.arg ⟨c, 0⟩ = 0 := by
  have : (⟨c, 0⟩ : ℂ) = ((c : ℝ) : ℂ) := by apply Complex.ext <;> simp
  rw [this, Complex.arg_ofReal_of_nonneg hc]

theorem arg_mk_zero_neg {c : ℝ} (hc : c < 0) : Complex.arg ⟨0, c⟩ = -(Real.pi / 2) := by
  have : (⟨0, c⟩ : ℂ) = (((-c : ℝ)) : ℂ) * (-Complex.I) := by apply Complex.ext <;> simp
  rw [this, Complex.arg_real_mul _ (neg_pos.mpr hc), Complex.arg_neg_I]

theorem arg_mk_zero_pos {c : ℝ} (hc : 0 < c) : Complex.arg ⟨0, c⟩ = Real.pi / 2 := by
  have : (⟨0, c⟩ : ℂ) = ((c : ℝ) : ℂ) * Complex.I := by apply Complex.ext <;> simp
  rw [this, Complex.arg_real_mul _ hc, Complex.arg_I]

theorem within_two_pi : isEqualWithinPercentage (Real.pi * 2) |Real.pi * 2| (5 : ℝ) = true := by
  have h := Real.pi_pos
  have : |Real.pi * 2| = Real.pi * 2 := abs_of_pos (by linarith)
  rw [this]
  simp only [isEqualWithinPercentage, isEqualWithinMargin, Bool.and_eq_true, decide_eq_true_eq]
  constructor <;> nlinarith

theorem cw_AB_BA (m : Libm ℝ) (hm : m.IsReal) : is_clockwise m segAB [segBA] = false := by
  have hpi := Real.pi_pos
  have e1 : (⟨-1, 0⟩ : ℂ).arg = Real.pi := arg_mk_neg_zero (by norm_num)
  simp [is_clockwise, is_clockwise_loop, line.len, hm.1, hm.2.1, hm.2.2.2.2, segAB, segBA,
    perpprod, perpprodRaw, dotprod, dotprodRaw, line.get_V, e1]
  simp [hpi.le]


theorem make_path_loop_discard {K : Type} [LinearOrderedField K] (m : Libm K) (snaplen : K) (listPaths : Bool) (n : Nat)
    (done : List (line K)) (st : line K) (r : List (line K)) (closed opened : List (obj K))
    (path rest : List (line K)) (h : trace_a_path m snaplen (st :: r) = (false, path, rest)) :
    make_path_loop m snaplen listPaths false (n + 1) done (st :: r) closed opened =
      make_path_loop m snaplen listPaths false n (done ++ path.drop (path.length - 1)) rest
        closed opened := by
  rw [make_path_loop, h]
  simp

theorem make_path_loop_keep {K : Type} [LinearOrderedField K] (m : Libm K) (snaplen : K) (listPaths : Bool) (n : Nat)
    (done : List (line K)) (st : line K) (r : List (line K)) (closed opened : List (obj K))
    (path rest : List (line K)) (h : trace_a_path m snaplen (st :: r) = (false, path, rest)) :
    make_path_loop m snaplen listPaths true (n + 1) done (st :: r) closed opened =
      make_path_loop m snaplen listPaths true n (done ++ path) rest closed
        (if listPaths then opened ++ [path] else opened) := by
  rw [make_path_loop, h]
  simp

theorem make_path_loop_closed {K : Type} [LinearOrderedField K] (m : Libm K) (snaplen : K) (listPaths keepOpens : Bool) (n : Nat)
    (done : List (line K)) (st : line K) (r : List (line K)) (closed opened : List (obj K))
    (p0 : line K) (ps rest : List (line K))
    (h : trace_a_path m snaplen (st :: r) = (true, p0 :: ps, rest))
    (hcw : is_clockwise m p0 ps = true) :
    make_path_loop m snaplen listPaths keepOpens (n + 1) done (st :: r) closed opened =
      make_path_loop m snaplen listPaths keepOpens n (done ++ p0 :: ps) rest
        (if listPaths then closed ++ [p0 :: ps] else closed) opened := by
  rw [make_path_loop, h]
  simp [hcw]

theorem make_path_loop_reversed {K : Type} [LinearOrderedField K] (m : Libm K) (snaplen : K) (listPaths keepOpens : Bool) (n : Nat)
    (done : List (line K)) (st : line K) (r : List (line K)) (closed opened : List (obj K))
    (p0 : line K) (ps rest path2 rest2 : List (line K))
    (h : trace_a_path m snaplen (st :: r) = (true, p0 :: ps, rest))
    (hcw : is_clockwise m p0 ps = false)
    (h2 : trace_a_path m snaplen ((p0 :: ps).map line.reverse ++ rest) = (true, path2, rest2)) :
    make_path_loop m snaplen listPaths keepOpens (n + 1) done (st :: r) closed opened =
      make_path_loop m snaplen listPaths keepOpens n (done ++ path2) rest2
        (if listPaths then closed ++ [path2] else closed) opened := by
  rw [make_path_loop, h]
  simp only [Bool.not_true, Bool.false_and, Bool.false_eq_true, if_false, if_true, hcw,
    Bool.not_false]
  rw [h2]

theorem cw_BA_AB (m : Libm ℝ) (hm : m.IsReal) : is_clockwise m segBA [segAB] = false := by
  have hpi := Real.pi_pos
  have e1 : (⟨-1, 0⟩ : ℂ).arg = Real.pi := arg_mk_neg_zero (by norm_num)
  simp [is_clockwise, is_clockwise_loop, line.len, hm.1, hm.2.1, hm.2.2.2.2, segAB, segBA,
    perpprod, perpprodRaw, dotprod, dotprodRaw, line.get_V, e1]
  simp [hpi.le]

theorem trace_AB_BA (m : Libm ℝ) (hm : m.IsReal) :
    trace_a_path m SNAP_LEN [segAB, segBA] = (true, [segAB, segBA], []) := by
  simp [trace_a_path, trace_scan, distTwoPoints, hm.1, Real.sqrt_le_iff, segAB, segBA,
    line.get_S1, line.get_S0, line.get_pt, line.reverse, line.ofPoints, T_S1, SNAP_LEN]
  norm_num

theorem trace_BA_AB (m : Libm ℝ) (hm : m.IsReal) :
    trace_a_path m SNAP_LEN [segBA, segAB] = (true, [segBA, segAB], []) := by
  simp [trace_a_path, trace_scan, distTwoPoints, hm.1, Real.sqrt_le_iff, segAB, segBA,
    line.get_S1, line.get_S0, line.get_pt, line.reverse, line.ofPoints, T_S1, SNAP_LEN]
  norm_num

theorem rev_AB_BA : ([segAB, segBA] : List (line ℝ)).map line.reverse ++ [] = [segBA, segAB] := by
  simp [segAB, segBA, line.reverse, line.get_S1, line.get_pt, T_S1]

theorem rev_BA_AB : ([segBA, segAB] : List (line ℝ)).map line.reverse ++ [] = [segAB, segBA] := by
  simp [segAB, segBA, line.reverse, line.get_S1, line.get_pt, T_S1]

theorem make_path_AB_BA (m : Libm ℝ) (hm : m.IsReal) :
    make_path m [segAB, segBA] = .ok [segBA, segAB] := by
  simp only [make_path, make_path_snap, make_path_full, List.length_cons, List.length_nil,
    Nat.zero_add, Nat.reduceAdd]
  rw [make_path_loop_reversed m _ _ _ 1 _ _ _ _ _ _ _ _ _ _ (trace_AB_BA m hm) (cw_AB_BA m hm)
    (by rw [rev_AB_BA]; exact trace_BA_AB m hm)]
  simp [make_path_loop]

theorem make_path_BA_AB (m : Libm ℝ) (hm : m.IsReal) :
    make_path m [segBA, segAB] = .ok [segAB, segBA] := by
  simp only [make_path, make_path_snap, make_path_full, List.length_cons, List.length_nil,
    Nat.zero_add, Nat.reduceAdd]
  rw [make_path_loop_reversed m _ _ _ 1 _ _ _ _ _ _ _ _ _ _ (trace_BA_AB m hm) (cw_BA_AB m hm)
    (by rw [rev_BA_AB]; exact trace_AB_BA m hm)]
  simp [make_path_loop]

theorem del_dupes_zeros_none {K : Type} [LinearOrderedField K] (m : Libm K) (R : obj K)
    (hd : R.Pairwise (fun a b => a.is_same_as b = false))
    (hzl : ∀ l ∈ R, ¬ l.len m < SMALL_NUM) :
    del_dupes_zeros m R = (R, false) := by
  have h1 := del_duplicates_outer_none R [] R.length 0 hd (le_refl _)
  have h2 := del_zero_lens_loop_none m R [] 0 hzl
  simp only [List.nil_append] at h1 h2
  simp only [del_dupes_zeros, del_duplicates, del_zero_lens, h1, h2]
  simp

theorem regularise_of_make_path {K : Type} [LinearOrderedField K] (m : Libm K) (P R : obj K)
    (hmp : make_path m P = .ok R)
    (hd : R.Pairwise (fun a b => a.is_same_as b = false))
    (hzl : ∀ l ∈ R, ¬ l.len m < SMALL_NUM) :
    regularise m P = .ok R := by
  rw [regularise, regularise_loop, hmp]
  simp only [del_dupes_zeros_none m R hd hzl]
  simp

theorem len_ge_small (m : Libm ℝ) (hm : m.IsReal) (l : line ℝ)
    (h : (1 : ℝ) ≤ l.V.dx * l.V.dx + l.V.dy * l.V.dy) : ¬ l.len m < SMALL_NUM := by
  simp only [line.len, hm.1, not_lt]
  calc (SMALL_NUM : ℝ) ≤ 1 := by norm_num [SMALL_NUM, SNAP_LEN]
    _ = Real.sqrt 1 := Real.sqrt_one.symm
    _ ≤ _ := Real.sqrt_le_sqrt h

theorem regularise_AB_BA (m : Libm ℝ) (hm : m.IsReal) :
    regularise m [segAB, segBA] = .ok [segBA, segAB] := by
  apply regularise_of_make_path m _ _ (make_path_AB_BA m hm)
  · simp [line.is_same_as, segAB, segBA, line.get_S0, line.get_V]
  · intro l hl
    apply len_ge_small m hm
    simp only [List.mem_cons, List.mem_singleton, List.not_mem_nil, or_false] at hl
    rcases hl with rfl | rfl <;> norm_num [segAB, segBA]

theorem regularise_BA_AB (m : Libm ℝ) (hm : m.IsReal) :
    regularise m [segBA, segAB] = .ok [segAB, segBA] := by
  apply regularise_of_make_path m _ _ (make_path_BA_AB m hm)
  · simp [line.is_same_as, segAB, segBA, line.get_S0, line.get_V]
  · intro l hl
    apply len_ge_small m hm
    simp only [List.mem_cons, List.mem_singleton, List.not_mem_nil, or_false] at hl
    rcases hl with rfl | rfl <;> norm_num [segAB, segBA]

theorem dist_self_le_snap (m : Libm ℝ) (hm : m.IsReal) (p : coord_t ℝ) :
    distTwoPoints m p p ≤ (SNAP_LEN : ℝ) := by
  simp [distTwoPoints, hm.1, SNAP_LEN]

theorem trace_T (m : Libm ℝ) (hm : m.IsReal) :
    trace_a_path m SNAP_LEN [segAB, segBC, segBD] = (false, [segAB, segBC], [segBD]) := by
  simp [trace_a_path, trace_scan, distTwoPoints, hm.1, Real.sqrt_le_iff, segAB, segBC, segBD,
    line.get_S1, line.get_S0, line.get_pt, line.reverse, line.ofPoints, T_S1, SNAP_LEN]
  norm_num

theorem trace_single {K : Type} [LinearOrderedField K] (m : Libm K) (snap : K) (l : line K) :
    trace_a_path m snap [l] = (false, [l], []) := by
  simp [trace_a_path, trace_scan]

theorem trace_BC_BD (m : Libm ℝ) (hm : m.IsReal) :
    trace_a_path m SNAP_LEN [segBC, segBD] = (false, [segDB, segBC], []) := by
  simp [trace_a_path, trace_scan, distTwoPoints, hm.1, Real.sqrt_le_iff, segDB, segBC, segBD,
    line.get_S1, line.get_S0, line.get_pt, line.reverse, line.ofPoints, T_S1, SNAP_LEN]
  norm_num

theorem make_path_T (m : Libm ℝ) (hm : m.IsReal) :
    make_path m [segAB, segBC, segBD] = .ok [segBC, segBD] := by
  simp only [make_path, make_path_snap, make_path_full, List.length_cons, List.length_nil,
    Nat.zero_add, Nat.reduceAdd]
  rw [make_path_loop_discard m _ _ 2 _ _ _ _ _ _ _ (trace_T m hm)]
  simp only [List.length_cons, List.length_nil, Nat.zero_add, Nat.reduceAdd, Nat.add_one_sub_one,
    List.drop_succ_cons, List.drop_zero, List.nil_append]
  rw [make_path_loop_discard m _ _ 1 _ _ _ _ _ _ _ (trace_single m _ segBD)]
  simp [make_path_loop]

theorem make_path_BC_BD (m : Libm ℝ) (hm : m.IsReal) :
    make_path m [segBC, segBD] = .ok [segBC] := by
  simp only [make_path, make_path_snap, make_path_full, List.length_cons, List.length_nil,
    Nat.zero_add, Nat.reduceAdd]
  rw [make_path_loop_discard m _ _ 1 _ _ _ _ _ _ _ (trace_BC_BD m hm)]
  simp [make_path_loop]

theorem regularise_T (m : Libm ℝ) (hm : m.IsReal) :
    regularise m [segAB, segBC, segBD] = .ok [segBC, segBD] := by
  apply regularise_of_make_path m _ _ (make_path_T m hm)
  · simp [line.is_same_as, segBC, segBD, line.get_S0, line.get_V]
  · intro l hl
    apply len_ge_small m hm
    simp only [List.mem_cons, List.mem_singleton, List.not_mem_nil, or_false] at hl
    rcases hl with rfl | rfl <;> norm_num [segBC, segBD]

theorem regularise_BC_BD (m : Libm ℝ) (hm : m.IsReal) :
    regularise m [segBC, segBD] = .ok [segBC] := by
  apply regularise_of_make_path m _ _ (make_path_BC_BD m hm)
  · simp
  · intro l hl
    apply len_ge_small m hm
    simp only [List.mem_cons, List.mem_singleton, List.not_mem_nil, or_false] at hl
    rcases hl with rfl; norm_num [segBC]

theorem cw_unitSquare (m : Libm ℝ) (hm : m.IsReal) :
    is_clockwise m ⟨⟨0, 0⟩, ⟨0, 1⟩⟩ [⟨⟨0, 1⟩, ⟨1, 0⟩⟩, ⟨⟨1, 1⟩, ⟨0, -1⟩⟩, ⟨⟨1, 0⟩, ⟨-1, 0⟩⟩] = true := by
  have hpi := Real.pi_pos
  have e1 : (⟨0, -1⟩ : ℂ).arg = -(Real.pi / 2) := arg_mk_zero_neg (by norm_num)
  have e2 : -(Real.pi / 2) + -(Real.pi / 2) + -(Real.pi / 2) + -(Real.pi / 2) = -(Real.pi * 2) := by
    ring
  have e3 : ¬ (0 : ℝ) ≤ -(Real.pi / 2) := by linarith
  simp [is_clockwise, is_clockwise_loop, line.len, hm.1, hm.2.1, hm.2.2.2.2,
    perpprod, perpprodRaw, dotprod, dotprodRaw, line.get_V, e1, e2, e3, within_two_pi, hpi]

theorem normal_unitSquare (m : Libm ℝ) (hm : m.IsReal) : NormalPath m [(unitSquare : obj ℝ)] := by
  refine ⟨?_, ?_, ?_⟩
  · intro L hL
    simp only [List.mem_singleton] at hL
    subst hL
    refine ⟨?_, cw_unitSquare m hm⟩
    simp [LoopTail, distTwoPoints, hm.1, Real.sqrt_le_iff, line.get_S1, line.get_S0, line.get_pt,
      T_S1, SNAP_LEN]
    norm_num
  · simp [unitSquare, line.is_same_as, line.get_S0, line.get_V]
  · intro l hl
    apply len_ge_small m hm
    simp only [unitSquare, List.flatten_cons, List.flatten_nil, List.append_nil, List.mem_cons,
      List.mem_singleton, List.not_mem_nil, or_false] at hl
    rcases hl with rfl | rfl | rfl | rfl <;> norm_num

end Evaluation

/-! ## Offset tracing of a square -/

section OffsetSquare

/-- An element of length at most 2 gets five linear offsetting lines, at the
parameters `0.000001`, `1/4`, `1/2`, `3/4` and `0.999999`. -/
theorem linear_offset_lines_short (m : Libm ℝ) (ln : line ℝ) (idx : Nat) (ofs : ℝ) (L : ℝ)
    (hL : ln.len m = L) (hL2 : L ≤ 2) :
    linear_offset_lines m ln idx ofs =
      [1 / 1000000, 1 / 4, 1 / 2, 3 / 4, 999999 / 1000000].map fun T =>
        lineCand (ln.get_pt T)
          ⟨((ln.move_sideways m ofs).get_pt T).x - (ln.get_pt T).x,
           ((ln.move_sideways m ofs).get_pt T).y - (ln.get_pt T).y⟩ idx true := by
  have hc : ⌈L / (1 / 2 : ℝ)⌉₊ ≤ 4 := by
    apply Nat.ceil_le.mpr
    have : L / (1 / 2 : ℝ) = 2 * L := by ring
    rw [this]; push_cast; linarith
  have hn : (if ⌈L / (1 / 2 : ℝ)⌉₊ < 4 then 4 else ⌈L / (1 / 2 : ℝ)⌉₊) = 4 := by
    split_ifs with h
    · rfl
    · omega
  have hr : List.range (4 + 1) = [0, 1, 2, 3, 4] := rfl
  simp only [linear_offset_lines, hL, TRACE_STEP_MM, MIN_TRACE_STEPS, hn, hr, List.map_cons,
    List.map_nil, lineCand, line.ofPoints]
  norm_num

/-- No radial offsetting lines at a corner that turns clockwise, for an inward
offset. -/
theorem radial_offset_lines_none (m : Libm ℝ) (ln nx : line ℝ) (idx : Nat) (ofs : ℝ)
    (hnx : nx.len m ≠ 0) (had : ln.angle_to m nx ≤ 0) (hofs : ofs ≤ 0) :
    radial_offset_lines m ln nx idx ofs = .ok [] := by
  simp only [radial_offset_lines, if_neg hnx]
  rw [if_neg (by intro h; exact absurd h.1 (not_lt.mpr had)),
    if_neg (by intro h; exact absurd h.2 (not_lt.mpr hofs))]

theorem sqrt_sq_side {S : ℝ} (hS : 0 < S) :
    Real.sqrt (0 * 0 + S * S) = S ∧ Real.sqrt (S * S + 0 * 0) = S ∧
      Real.sqrt (0 * 0 + -S * -S) = S ∧ Real.sqrt (-S * -S + 0 * 0) = S := by
  have h := Real.sqrt_mul_self hS.le
  refine ⟨?_, ?_, ?_, ?_⟩
  · rw [show (0 : ℝ) * 0 + S * S = S * S by ring, h]
  · rw [show S * S + (0 : ℝ) * 0 = S * S by ring, h]
  · rw [show (0 : ℝ) * 0 + -S * -S = S * S by ring, h]
  · rw [show -S * -S + (0 : ℝ) * 0 = S * S by ring, h]

theorem create_offset_lines_square (m : Libm ℝ) (hm : m.IsReal) (S d : ℝ)
    (hS : SNAP_LEN < S) (hS2 : S ≤ 2) (hd : 0 < d) :
    create_offset_lines m (squareAt0 S) (-d) (squareAt0 S) 0 =
      .ok (squareCandsF S d true true true true true) := by
  have hS0 : (0 : ℝ) < S := lt_trans (by norm_num [SNAP_LEN]) hS
  obtain ⟨q1, q2, q3, q4⟩ := sqrt_sq_side hS0
  have hpi := Real.pi_pos
  have l0 : line.len m (⟨⟨0, 0⟩, ⟨0, S⟩⟩ : line ℝ) = S := by simp only [line.len, hm.1, q1]
  have l1 : line.len m (⟨⟨0, S⟩, ⟨S, 0⟩⟩ : line ℝ) = S := by simp only [line.len, hm.1, q2]
  have l2 : line.len m (⟨⟨S, S⟩, ⟨0, -S⟩⟩ : line ℝ) = S := by simp only [line.len, hm.1, q3]
  have l3 : line.len m (⟨⟨S, 0⟩, ⟨-S, 0⟩⟩ : line ℝ) = S := by simp only [line.len, hm.1, q4]
  have hns : ¬ S < (SNAP_LEN : ℝ) := not_lt.mpr hS.le
  have harg : (⟨0, -(S * S)⟩ : ℂ).arg = -(Real.pi / 2) :=
    arg_mk_zero_neg (by nlinarith)
  have had : ∀ a b : line ℝ, a.len m = S → b.len m = S →
      perpprod a.V b.V = -(S * S) → dotprod a.V b.V = 0 → a.angle_to m b ≤ 0 := by
    intro a b ha hb hp hdot
    simp only [line.angle_to, ha, hb, line.get_V, hp, hdot, hm.2.1, harg]
    rw [if_pos ⟨hS0, hS0⟩]
    linarith
  have r0 := radial_offset_lines_none m ⟨⟨0, 0⟩, ⟨0, S⟩⟩ ⟨⟨0, S⟩, ⟨S, 0⟩⟩ 0 (-d)
    (by rw [l1]; exact hS0.ne') (had _ _ l0 l1 (by simp [perpprod, perpprodRaw])
      (by simp [dotprod, dotprodRaw])) (by linarith)
  have r1 := radial_offset_lines_none m ⟨⟨0, S⟩, ⟨S, 0⟩⟩ ⟨⟨S, S⟩, ⟨0, -S⟩⟩ 1 (-d)
    (by rw [l2]; exact hS0.ne') (had _ _ l1 l2 (by simp [perpprod, perpprodRaw])
      (by simp [dotprod, dotprodRaw])) (by linarith)
  have r2 := radial_offset_lines_none m ⟨⟨S, S⟩, ⟨0, -S⟩⟩ ⟨⟨S, 0⟩, ⟨-S, 0⟩⟩ 2 (-d)
    (by rw [l3]; exact hS0.ne') (had _ _ l2 l3 (by simp [perpprod, perpprodRaw])
      (by simp [dotprod, dotprodRaw])) (by linarith)
  have r3 := radial_offset_lines_none m ⟨⟨S, 0⟩, ⟨-S, 0⟩⟩ ⟨⟨0, 0⟩, ⟨0, S⟩⟩ 3 (-d)
    (by rw [l0]; exact hS0.ne') (had _ _ l3 l0 (by simp [perpprod, perpprodRaw])
      (by simp [dotprod, dotprodRaw])) (by linarith)
  simp only [squareAt0, create_offset_lines, l0, l1, l2, l3, if_neg hns, obj.nextc_at,
    List.length_cons, List.length_nil, Nat.zero_add, Nat.reduceAdd, Nat.reduceLT, if_true,
    if_false, lt_irrefl, List.getElem?_cons_succ, List.getElem?_cons_zero, List.head?_cons,
    r0, r1, r2, r3, Res.bind, List.append_nil,
    linear_offset_lines_short m _ _ _ S l0 hS2, linear_offset_lines_short m _ _ _ S l1 hS2,
    linear_offset_lines_short m _ _ _ S l2 hS2, linear_offset_lines_short m _ _ _ S l3 hS2]
  simp only [squareCandsF, sideCands, line.move_sideways, line.add_offset, line.get_pt, hm.1, List.map_cons,
    List.map_nil, List.cons_append, List.nil_append, List.append_assoc, lineCand]
  have hSne : S ≠ 0 := hS0.ne'
  have e1 : Real.sqrt (-S * -S + 0 * 0) = S := q4
  have e2 : Real.sqrt (-0 * -0 + S * S) = S := by rw [show -(0 : ℝ) * -0 + S * S = S * S by ring]; exact Real.sqrt_mul_self hS0.le
  have e3 : Real.sqrt (- -S * - -S + 0 * 0) = S := by rw [show - -S * - -S + (0 : ℝ) * 0 = S * S by ring]; exact Real.sqrt_mul_self hS0.le
  have e4 : Real.sqrt (-0 * -0 + -S * -S) = S := by rw [show -(0 : ℝ) * -0 + -S * -S = S * S by ring]; exact Real.sqrt_mul_self hS0.le
  simp only [e1, e2, e3, e4]
  congr 1
  simp only [List.cons.injEq, offset_line.mk.injEq, line.mk.injEq, coord_t.mk.injEq,
    vector_t.mk.injEq, and_true, true_and]
  refine ⟨?_, ?_, ?_, ?_, ?_, ?_, ?_, ?_, ?_, ?_, ?_, ?_, ?_, ?_, ?_, ?_, ?_, ?_, ?_, ?_⟩ <;>
    (refine ⟨⟨?_, ?_⟩, ?_, ?_⟩ <;> field_simp <;> ring)

/-- Distances from the sides of the square to a point of the square. -/
theorem dist_square_sides (m : Libm ℝ) (hm : m.IsReal) (S : ℝ) (hS : 0 < S) (p : coord_t ℝ)
    (hx0 : 0 ≤ p.x) (hx1 : p.x ≤ S) (hy0 : 0 ≤ p.y) (hy1 : p.y ≤ S) :
    (⟨⟨0, 0⟩, ⟨0, S⟩⟩ : line ℝ).distance_to_point m p = p.x ∧
    (⟨⟨0, S⟩, ⟨S, 0⟩⟩ : line ℝ).distance_to_point m p = S - p.y ∧
    (⟨⟨S, S⟩, ⟨0, -S⟩⟩ : line ℝ).distance_to_point m p = S - p.x ∧
    (⟨⟨S, 0⟩, ⟨-S, 0⟩⟩ : line ℝ).distance_to_point m p = p.y := by
  have hSne : S ≠ 0 := hS.ne'
  have key : ∀ (l : line ℝ) (v : ℝ), 0 ≤ v → NonZero l →
      0 ≤ projParam l p → projParam l p ≤ 1 →
      (p.x - (l.get_pt (projParam l p)).x) ^ 2 + (p.y - (l.get_pt (projParam l p)).y) ^ 2 = v * v →
      l.distance_to_point m p = v := by
    intro l v hv hl h0 h1 he
    rw [(distance_core m hm l hl p).1, max_eq_right (le_min zero_le_one h0), min_eq_right h1, he,
      Real.sqrt_mul_self hv]
  refine ⟨?_, ?_, ?_, ?_⟩
  · apply key _ _ hx0 (Or.inr hSne)
    · simp only [projParam]; apply div_nonneg <;> nlinarith
    · simp only [projParam]; rw [div_le_one (by nlinarith)]; nlinarith
    · simp only [projParam, line.get_pt]; field_simp; ring
  · apply key _ _ (by linarith) (Or.inl hSne)
    · simp only [projParam]; apply div_nonneg <;> nlinarith
    · simp only [projParam]; rw [div_le_one (by nlinarith)]; nlinarith
    · simp only [projParam, line.get_pt]; field_simp; ring
  · apply key _ _ (by linarith) (Or.inr (neg_ne_zero.mpr hSne))
    · simp only [projParam]; apply div_nonneg <;> nlinarith
    · simp only [projParam]; rw [div_le_one (by nlinarith)]; nlinarith
    · simp only [projParam, line.get_pt]; field_simp; ring
  · apply key _ _ hy0 (Or.inl (neg_ne_zero.mpr hSne))
    · simp only [projParam]; apply div_nonneg <;> nlinarith
    · simp only [projParam]; rw [div_le_one (by nlinarith)]; nlinarith
    · simp only [projParam, line.get_pt]; field_simp; ring

/-- The proximity test of an offsetting line that ends at a point of the
square: some side, other than its source, is nearer to its end than `test`. -/
theorem too_close_square (m : Libm ℝ) (hm : m.IsReal) (S test : ℝ) (hS : 0 < S)
    (osl : offset_line ℝ)
    (hx0 : 0 ≤ osl.ln.get_S1.x) (hx1 : osl.ln.get_S1.x ≤ S)
    (hy0 : 0 ≤ osl.ln.get_S1.y) (hy1 : osl.ln.get_S1.y ≤ S) :
    too_close m test osl (squareAt0 S) 0 =
      decide ((osl.src_index ≠ 0 ∧ osl.ln.get_S1.x < test) ∨
        (osl.src_index ≠ 1 ∧ S - osl.ln.get_S1.y < test) ∨
        (osl.src_index ≠ 2 ∧ S - osl.ln.get_S1.x < test) ∨
        (osl.src_index ≠ 3 ∧ osl.ln.get_S1.y < test)) := by
  obtain ⟨d0, d1, d2, d3⟩ := dist_square_sides m hm S hS osl.ln.get_S1 hx0 hx1 hy0 hy1
  simp only [squareAt0, too_close, d0, d1, d2, d3, Nat.zero_add, Nat.reduceAdd]
  by_cases c0 : osl.src_index ≠ 0 ∧ osl.ln.get_S1.x < test
  · simp [c0]
  · by_cases c1 : osl.src_index ≠ 1 ∧ S - osl.ln.get_S1.y < test
    · simp [c0, c1]
    · by_cases c2 : osl.src_index ≠ 2 ∧ S - osl.ln.get_S1.x < test
      · simp [c0, c1, c2]
      · by_cases c3 : osl.src_index ≠ 3 ∧ osl.ln.get_S1.y < test
        · simp [c0, c1, c2, c3]
        · simp [c0, c1, c2, c3]

/-- The proximity test of the offsetting line at parameter `T` of a side of the
square, for `d` below half the side. -/
theorem too_close_sides (m : Libm ℝ) (hm : m.IsReal) (S d : ℝ) (hd : 0 < d) (hd2 : d < S / 2)
    (T : ℝ) (hT0 : 0 ≤ T) (hT1 : T ≤ 1) (b : Bool) :
    too_close m d (lineCand ⟨0, T * S⟩ ⟨d, 0⟩ 0 b) (squareAt0 S) 0 =
        decide (T * S < d ∨ (1 - T) * S < d) ∧
    too_close m d (lineCand ⟨T * S, S⟩ ⟨0, -d⟩ 1 b) (squareAt0 S) 0 =
        decide (T * S < d ∨ (1 - T) * S < d) ∧
    too_close m d (lineCand ⟨S, S - T * S⟩ ⟨-d, 0⟩ 2 b) (squareAt0 S) 0 =
        decide (T * S < d ∨ (1 - T) * S < d) ∧
    too_close m d (lineCand ⟨S - T * S, 0⟩ ⟨0, d⟩ 3 b) (squareAt0 S) 0 =
        decide (T * S < d ∨ (1 - T) * S < d) := by
  have hS : 0 < S := by linarith
  have hTS0 : 0 ≤ T * S := mul_nonneg hT0 hS.le
  have hTS1 : T * S ≤ S := by nlinarith
  refine ⟨?_, ?_, ?_, ?_⟩
  · rw [too_close_square m hm S d hS _
      (by simp [lineCand, line.get_S1, line.get_pt, T_S1]; linarith)
      (by simp [lineCand, line.get_S1, line.get_pt, T_S1]; linarith)
      (by simp [lineCand, line.get_S1, line.get_pt, T_S1]; linarith)
      (by simp [lineCand, line.get_S1, line.get_pt, T_S1]; linarith)]
    simp only [lineCand, line.get_S1, line.get_pt, T_S1, decide_eq_decide]
    constructor
    · rintro (⟨h, -⟩ | ⟨-, h⟩ | ⟨-, h⟩ | ⟨-, h⟩)
      · exact absurd rfl h
      · right; linarith
      · linarith
      · left; linarith
    · rintro (h | h)
      · right; right; right; exact ⟨by norm_num, by linarith⟩
      · right; left; exact ⟨by norm_num, by linarith⟩
  · rw [too_close_square m hm S d hS _
      (by simp [lineCand, line.get_S1, line.get_pt, T_S1]; linarith)
      (by simp [lineCand, line.get_S1, line.get_pt, T_S1]; linarith)
      (by simp [lineCand, line.get_S1, line.get_pt, T_S1]; linarith)
      (by simp [lineCand, line.get_S1, line.get_pt, T_S1]; linarith)]
    simp only [lineCand, line.get_S1, line.get_pt, T_S1, decide_eq_decide]
    constructor
    · rintro (⟨-, h⟩ | ⟨h, -⟩ | ⟨-, h⟩ | ⟨-, h⟩)
      · left; linarith
      · exact absurd rfl h
      · right; linarith
      · linarith
    · rintro (h | h)
      · left; exact ⟨by norm_num, by linarith⟩
      · right; right; left; exact ⟨by norm_num, by linarith⟩
  · rw [too_close_square m hm S d hS _
      (by simp [lineCand, line.get_S1, line.get_pt, T_S1]; linarith)
      (by simp [lineCand, line.get_S1, line.get_pt, T_S1]; linarith)
      (by simp [lineCand, line.get_S1, line.get_pt, T_S1]; linarith)
      (by simp [lineCand, line.get_S1, line.get_pt, T_S1]; linarith)]
    simp only [lineCand, line.get_S1, line.get_pt, T_S1, decide_eq_decide]
    constructor
    · rintro (⟨-, h⟩ | ⟨-, h⟩ | ⟨h, -⟩ | ⟨-, h⟩)
      · linarith
      · left; linarith
      · exact absurd rfl h
      · right; linarith
    · rintro (h | h)
      · right; left; exact ⟨by norm_num, by linarith⟩
      · right; right; right; exact ⟨by norm_num, by linarith⟩
  · rw [too_close_square m hm S d hS _
      (by simp [lineCand, line.get_S1, line.get_pt, T_S1]; linarith)
      (by simp [lineCand, line.get_S1, line.get_pt, T_S1]; linarith)
      (by simp [lineCand, line.get_S1, line.get_pt, T_S1]; linarith)
      (by simp [lineCand, line.get_S1, line.get_pt, T_S1]; linarith)]
    simp only [lineCand, line.get_S1, line.get_pt, T_S1, decide_eq_decide]
    constructor
    · rintro (⟨-, h⟩ | ⟨-, h⟩ | ⟨-, h⟩ | ⟨h, -⟩)
      · right; linarith
      · linarith
      · left; linarith
      · exact absurd rfl h
    · rintro (h | h)
      · right; right; left; exact ⟨by norm_num, by linarith⟩
      · left; exact ⟨by norm_num, by linarith⟩

theorem proximity_square (m : Libm ℝ) (hm : m.IsReal) (S d : ℝ) (hd1 : S / 4 < d)
    (hd2 : d < S / 2) :
    proximity_pass m (squareAt0 S) |-d| (squareCandsF S d true true true true true) =
      squareCandsF S d false false true false false := by
  have hS : 0 < S := by linarith
  have hd : 0 < d := by linarith
  have habs : |-d| = d := by rw [abs_neg, abs_of_pos hd]
  have f0 : decide ((1 / 1000000 : ℝ) * S < d ∨ (1 - 1 / 1000000) * S < d) = true := by
    rw [decide_eq_true_eq]; left; linarith
  have f1 : decide ((1 / 4 : ℝ) * S < d ∨ (1 - 1 / 4) * S < d) = true := by
    rw [decide_eq_true_eq]; left; linarith
  have f2 : decide ((1 / 2 : ℝ) * S < d ∨ (1 - 1 / 2) * S < d) = false := by
    rw [decide_eq_false_iff_not]; rintro (h | h) <;> linarith
  have f3 : decide ((3 / 4 : ℝ) * S < d ∨ (1 - 3 / 4) * S < d) = true := by
    rw [decide_eq_true_eq]; right; linarith
  have f4 : decide ((999999 / 1000000 : ℝ) * S < d ∨ (1 - 999999 / 1000000) * S < d) = true := by
    rw [decide_eq_true_eq]; right; linarith
  obtain ⟨a0, a1, a2, a3⟩ := too_close_sides m hm S d hd hd2 (1 / 1000000) (by norm_num)
    (by norm_num) true
  obtain ⟨b0, b1, b2, b3⟩ := too_close_sides m hm S d hd hd2 (1 / 4) (by norm_num)
    (by norm_num) true
  obtain ⟨c0, c1, c2, c3⟩ := too_close_sides m hm S d hd hd2 (1 / 2) (by norm_num)
    (by norm_num) true
  obtain ⟨d0, d1, d2, d3⟩ := too_close_sides m hm S d hd hd2 (3 / 4) (by norm_num)
    (by norm_num) true
  obtain ⟨e0, e1, e2, e3⟩ := too_close_sides m hm S d hd hd2 (999999 / 1000000) (by norm_num)
    (by norm_num) true
  rw [f0] at a0 a1 a2 a3
  rw [f1] at b0 b1 b2 b3
  rw [f2] at c0 c1 c2 c3
  rw [f3] at d0 d1 d2 d3
  rw [f4] at e0 e1 e2 e3
  simp only [proximity_pass, habs, squareCandsF, sideCands, List.map_cons, List.map_nil,
    List.map_append, a0, a1, a2, a3, b0, b1, b2, b3, c0, c1, c2, c3, d0, d1, d2, d3,
    e0, e1, e2, e3, if_true, Bool.false_eq_true, if_false]
  rfl

/-- For segments of non-zero length, `lines_intersect` without extrapolation
only returns true when the segments have a point in common. -/
theorem intersect_sound {K : Type} [LinearOrderedField K] (m : Libm K) (l l2 : line K)
    (h1 : NonZero l) (h2 : NonZero l2) (hres : (l.lines_intersect m l2 false).1 = true) :
    SegmentsMeet l l2 := by
  by_cases hpar : (perpprod l.V l2.V < 0 ∧ perpprod l.V l2.V > -SMALL_NUM) ∨
      (perpprod l.V l2.V ≥ 0 ∧ perpprod l.V l2.V < SMALL_NUM)
  · by_cases hp : perpprod l.V l2.V = 0
    · exact ((intersect_iff_meet_core m l l2 h1 h2 (Or.inl hp)).1).mp hres
    · by_cases hnc : perpprod l.V ⟨l.S0.x - l2.S0.x, l.S0.y - l2.S0.y⟩ ≠ 0 ∨
          perpprod l2.V ⟨l.S0.x - l2.S0.x, l.S0.y - l2.S0.y⟩ ≠ 0
      · simp only [line.lines_intersect, if_pos hpar, if_pos hnc] at hres
        exact absurd hres (by simp)
      · push_neg at hnc
        obtain ⟨e1, e2⟩ := hnc
        obtain ⟨⟨x1, y1⟩, ⟨a1, b1⟩⟩ := l
        obtain ⟨⟨x2, y2⟩, ⟨a2, b2⟩⟩ := l2
        simp only [perpprod, perpprodRaw] at hp e1 e2
        have hx : (x1 - x2) * (a1 * b2 - a2 * b1) = 0 := by
          linear_combination a2 * e1 - a1 * e2
        have hy : (y1 - y2) * (a1 * b2 - a2 * b1) = 0 := by
          linear_combination b2 * e1 - b1 * e2
        have hx' : x1 - x2 = 0 := by
          rcases mul_eq_zero.mp hx with h | h
          · exact h
          · exact absurd h hp
        have hy' : y1 - y2 = 0 := by
          rcases mul_eq_zero.mp hy with h | h
          · exact h
          · exact absurd h hp
        refine ⟨⟨x1, y1⟩, ⟨0, le_refl _, zero_le_one, ?_⟩, ⟨0, le_refl _, zero_le_one, ?_⟩⟩
        · simp [line.get_pt]
        · simp only [line.get_pt, coord_t.mk.injEq]
          constructor <;> linarith
  · have hbig : SMALL_NUM ≤ |perpprod l.V l2.V| := by
      by_contra hlt
      rw [not_le, abs_lt] at hlt
      apply hpar
      rcases lt_or_le (perpprod l.V l2.V) 0 with h | h
      · left; exact ⟨h, hlt.1⟩
      · right; exact ⟨h, hlt.2⟩
    exact ((intersect_iff_meet_core m l l2 h1 h2 (Or.inr hbig)).1).mp hres

theorem intersect_false_of_not_meet {K : Type} [LinearOrderedField K] (m : Libm K)
    (l l2 : line K) (h1 : NonZero l) (h2 : NonZero l2) (hno : ¬ SegmentsMeet l l2) :
    (l.lines_intersect m l2 false).1 = false := by
  cases h : (l.lines_intersect m l2 false).1
  · rfl
  · exact absurd (intersect_sound m l l2 h1 h2 h) hno

/-- The four offsetting lines at the middles of the sides do not meet one
another when `d` is below half the side. -/
theorem mid_lines_apart (m : Libm ℝ) (S d : ℝ) (hd : 0 < d) (hd2 : d < S / 2) :
    ((⟨⟨0, 1 / 2 * S⟩, ⟨d, 0⟩⟩ : line ℝ).lines_intersect m ⟨⟨1 / 2 * S, S⟩, ⟨0, -d⟩⟩ false).1 = false ∧
    ((⟨⟨0, 1 / 2 * S⟩, ⟨d, 0⟩⟩ : line ℝ).lines_intersect m ⟨⟨S, S - 1 / 2 * S⟩, ⟨-d, 0⟩⟩ false).1 = false ∧
    ((⟨⟨0, 1 / 2 * S⟩, ⟨d, 0⟩⟩ : line ℝ).lines_intersect m ⟨⟨S - 1 / 2 * S, 0⟩, ⟨0, d⟩⟩ false).1 = false ∧
    ((⟨⟨1 / 2 * S, S⟩, ⟨0, -d⟩⟩ : line ℝ).lines_intersect m ⟨⟨S, S - 1 / 2 * S⟩, ⟨-d, 0⟩⟩ false).1 = false ∧
    ((⟨⟨1 / 2 * S, S⟩, ⟨0, -d⟩⟩ : line ℝ).lines_intersect m ⟨⟨S - 1 / 2 * S, 0⟩, ⟨0, d⟩⟩ false).1 = false ∧
    ((⟨⟨S, S - 1 / 2 * S⟩, ⟨-d, 0⟩⟩ : line ℝ).lines_intersect m ⟨⟨S - 1 / 2 * S, 0⟩, ⟨0, d⟩⟩ false).1 = false := by
  have hdne : d ≠ 0 := hd.ne'
  have hnd : -d ≠ 0 := neg_ne_zero.mpr hdne
  have key : ∀ s : ℝ, 0 ≤ s → s ≤ 1 → s * d ≤ d ∧ 0 ≤ s * d := fun s h0 h1 =>
    ⟨by nlinarith, mul_nonneg h0 hd.le⟩
  refine ⟨?_, ?_, ?_, ?_, ?_, ?_⟩
  · apply intersect_false_of_not_meet m _ _ (Or.inl hdne) (Or.inr hnd)
    rintro ⟨p, ⟨s, hs0, hs1, hsp⟩, ⟨t, ht0, ht1, htp⟩⟩
    rw [← htp] at hsp
    simp only [line.get_pt, coord_t.mk.injEq] at hsp
    obtain ⟨k1, k2⟩ := key s hs0 hs1
    linarith [hsp.1]
  · apply intersect_false_of_not_meet m _ _ (Or.inl hdne) (Or.inl hnd)
    rintro ⟨p, ⟨s, hs0, hs1, hsp⟩, ⟨t, ht0, ht1, htp⟩⟩
    rw [← htp] at hsp
    simp only [line.get_pt, coord_t.mk.injEq] at hsp
    obtain ⟨k1, k2⟩ := key s hs0 hs1
    obtain ⟨k3, k4⟩ := key t ht0 ht1
    linarith [hsp.1]
  · apply intersect_false_of_not_meet m _ _ (Or.inl hdne) (Or.inr hdne)
    rintro ⟨p, ⟨s, hs0, hs1, hsp⟩, ⟨t, ht0, ht1, htp⟩⟩
    rw [← htp] at hsp
    simp only [line.get_pt, coord_t.mk.injEq] at hsp
    obtain ⟨k1, k2⟩ := key s hs0 hs1
    linarith [hsp.1]
  · apply intersect_false_of_not_meet m _ _ (Or.inr hnd) (Or.inl hnd)
    rintro ⟨p, ⟨s, hs0, hs1, hsp⟩, ⟨t, ht0, ht1, htp⟩⟩
    rw [← htp] at hsp
    simp only [line.get_pt, coord_t.mk.injEq] at hsp
    obtain ⟨k1, k2⟩ := key s hs0 hs1
    linarith [hsp.2]
  · apply intersect_false_of_not_meet m _ _ (Or.inr hnd) (Or.inr hdne)
    rintro ⟨p, ⟨s, hs0, hs1, hsp⟩, ⟨t, ht0, ht1, htp⟩⟩
    rw [← htp] at hsp
    simp only [line.get_pt, coord_t.mk.injEq] at hsp
    obtain ⟨k1, k2⟩ := key s hs0 hs1
    obtain ⟨k3, k4⟩ := key t ht0 ht1
    linarith [hsp.2]
  · apply intersect_false_of_not_meet m _ _ (Or.inl hnd) (Or.inr hdne)
    rintro ⟨p, ⟨s, hs0, hs1, hsp⟩, ⟨t, ht0, ht1, htp⟩⟩
    rw [← htp] at hsp
    simp only [line.get_pt, coord_t.mk.injEq] at hsp
    obtain ⟨k1, k2⟩ := key s hs0 hs1
    linarith [hsp.1]

theorem crossing_square (m : Libm ℝ) (S d : ℝ) (hd : 0 < d) (hd2 : d < S / 2) :
    crossing_pass m (squareCandsF S d false false true false false) =
      squareCandsF S d false false true false false := by
  obtain ⟨x01, x02, x03, x12, x13, x23⟩ := mid_lines_apart m S d hd hd2
  simp only [squareCandsF, sideCands, lineCand, List.cons_append, List.nil_append,
    crossing_pass, crossed, Bool.and_false, Bool.false_and, Bool.and_self, Bool.true_and,
    Bool.false_eq_true, if_false, x01, x02, x03, x12, x13, x23]

theorem redundant_square (S d : ℝ) :
    redundant_pass none (squareCandsF S d false false true false false) =
      squareCandsF S d false false true false false := by
  simp [squareCandsF, sideCands, lineCand, redundant_pass]

theorem join_square (S d : ℝ) :
    join_dots (squareCandsF S d false false true false false) [] = diamondOpen S d := by
  simp [squareCandsF, sideCands, lineCand, join_dots, obj.add_pt, line.get_S1, line.get_pt, T_S1,
    line.ofPoints, diamondOpen]
  constructorm* _ ∧ _ <;> ring

/-- Two points farther apart than `snap` along one axis are not within `snap`. -/
theorem dist_gt_of_coord (m : Libm ℝ) (hm : m.IsReal) (p q : coord_t ℝ) (snap : ℝ)
    (h : snap < |p.x - q.x| ∨ snap < |p.y - q.y|) : ¬ distTwoPoints m p q ≤ snap := by
  simp only [distTwoPoints, hm.1, not_le]
  rcases h with h | h
  · calc snap < |p.x - q.x| := h
      _ = Real.sqrt ((p.x - q.x) * (p.x - q.x)) := by
          rw [← abs_mul_abs_self, Real.sqrt_mul_self (abs_nonneg _)]
      _ ≤ _ := Real.sqrt_le_sqrt (by nlinarith [mul_self_nonneg (p.y - q.y)])
  · calc snap < |p.y - q.y| := h
      _ = Real.sqrt ((p.y - q.y) * (p.y - q.y)) := by
          rw [← abs_mul_abs_self, Real.sqrt_mul_self (abs_nonneg _)]
      _ ≤ _ := Real.sqrt_le_sqrt (by nlinarith [mul_self_nonneg (p.x - q.x)])

/-- A segment that extends by at least `SMALL_NUM` along one axis is not shorter
than `SMALL_NUM`. -/
theorem len_ge_of_coord (m : Libm ℝ) (hm : m.IsReal) (l : line ℝ)
    (h : SMALL_NUM ≤ |l.V.dx| ∨ SMALL_NUM ≤ |l.V.dy|) : ¬ l.len m < SMALL_NUM := by
  simp only [line.len, hm.1, not_lt]
  rcases h with h | h
  · calc (SMALL_NUM : ℝ) ≤ |l.V.dx| := h
      _ = Real.sqrt (l.V.dx * l.V.dx) := by
          rw [← abs_mul_abs_self, Real.sqrt_mul_self (abs_nonneg _)]
      _ ≤ _ := Real.sqrt_le_sqrt (by nlinarith [mul_self_nonneg l.V.dy])
  · calc (SMALL_NUM : ℝ) ≤ |l.V.dy| := h
      _ = Real.sqrt (l.V.dy * l.V.dy) := by
          rw [← abs_mul_abs_self, Real.sqrt_mul_self (abs_nonneg _)]
      _ ≤ _ := Real.sqrt_le_sqrt (by nlinarith [mul_self_nonneg l.V.dx])

/-- One round of the loop of `is_clockwise` at a right turn to the right. -/
theorem is_clockwise_loop_right (m : Libm ℝ) (hm : m.IsReal) (prv ln : line ℝ)
    (rest : List (line ℝ)) (acc : ℝ) (pn : Int)
    (hp : NonZero prv) (hl : NonZero ln) (hdot : dotprod prv.V ln.V = 0)
    (hperp : perpprod prv.V ln.V < 0) :
    is_clockwise_loop m (ln :: rest) acc pn prv =
      is_clockwise_loop m rest (acc + -(Real.pi / 2)) (pn - 1) ln := by
  have h1 := len_pos_of_nonZero m hm prv hp
  have h2 := len_pos_of_nonZero m hm ln hl
  have hpi := Real.pi_pos
  rw [is_clockwise_loop, if_pos ⟨h1, h2⟩]
  simp only [line.get_V, hdot, hm.2.1, arg_mk_zero_neg hperp]
  rw [if_neg (by linarith)]

/-- One round of the loop of `is_clockwise` at an element of zero length. -/
theorem is_clockwise_loop_zero (m : Libm ℝ) (hm : m.IsReal) (prv ln : line ℝ)
    (rest : List (line ℝ)) (acc : ℝ) (pn : Int) (hl : ln.V = ⟨0, 0⟩) :
    is_clockwise_loop m (ln :: rest) acc pn prv = is_clockwise_loop m rest acc pn prv := by
  have h0 : ln.len m = 0 := by simp [line.len, hl, hm.1]
  rw [is_clockwise_loop, if_neg (by rw [h0]; intro h; exact lt_irrefl _ h.2)]

/-- Four right turns to the right make a clockwise loop. -/
theorem is_clockwise_of_four (m : Libm ℝ) (hm : m.IsReal) (first : line ℝ)
    (more : List (line ℝ)) (pn : Int)
    (h : is_clockwise_loop m (first :: more) 0 0
        ((first :: more).getLast (List.cons_ne_nil _ _)) =
      (0 + -(Real.pi / 2) + -(Real.pi / 2) + -(Real.pi / 2) + -(Real.pi / 2), pn)) :
    is_clockwise m first more = true := by
  have hpi := Real.pi_pos
  have e : (0 : ℝ) + -(Real.pi / 2) + -(Real.pi / 2) + -(Real.pi / 2) + -(Real.pi / 2) =
      -(Real.pi * 2) := by ring
  simp only [is_clockwise, h, e, hm.2.2.2.2, abs_neg, within_two_pi, if_true, decide_eq_true_eq]
  linarith

theorem normal_square (m : Libm ℝ) (hm : m.IsReal) (S : ℝ) (hS : SNAP_LEN < S) :
    NormalPath m [squareAt0 S] := by
  have hS0 : (0 : ℝ) < S := lt_trans (by norm_num [SNAP_LEN]) hS
  have hSne : S ≠ 0 := hS0.ne'
  have hSS : -(S * S) < 0 := by nlinarith
  have habs : SNAP_LEN < |S| := by rw [abs_of_pos hS0]; exact hS
  have hsm : (SMALL_NUM : ℝ) ≤ |S| := by
    rw [abs_of_pos hS0]
    exact le_trans (by norm_num [SMALL_NUM, SNAP_LEN]) hS.le
  refine ⟨?_, ?_, ?_⟩
  · intro L hL
    simp only [List.mem_singleton] at hL
    subst hL
    refine ⟨?_, ?_⟩
    · simp only [LoopTail, line.get_S1, line.get_S0, line.get_pt, T_S1]
      refine ⟨by simp, ?_, ?_, by simp, ?_, ?_, by simp, ?_, by simp⟩ <;>
        apply dist_gt_of_coord m hm <;> simp [habs]
    · apply is_clockwise_of_four m hm _ _ (0 - 1 - 1 - 1 - 1)
      simp only [List.getLast_cons_cons, List.getLast_singleton]
      rw [is_clockwise_loop_right m hm _ _ _ _ _ (Or.inl (neg_ne_zero.mpr hSne)) (Or.inr hSne)
          (by simp [dotprod, dotprodRaw]) (by simp [perpprod, perpprodRaw, hSne]),
        is_clockwise_loop_right m hm _ _ _ _ _ (Or.inr hSne) (Or.inl hSne)
          (by simp [dotprod, dotprodRaw]) (by simp [perpprod, perpprodRaw, hSne]),
        is_clockwise_loop_right m hm _ _ _ _ _ (Or.inl hSne) (Or.inr (neg_ne_zero.mpr hSne))
          (by simp [dotprod, dotprodRaw]) (by simp [perpprod, perpprodRaw, hSne]),
        is_clockwise_loop_right m hm _ _ _ _ _ (Or.inr (neg_ne_zero.mpr hSne))
          (Or.inl (neg_ne_zero.mpr hSne))
          (by simp [dotprod, dotprodRaw]) (by simp [perpprod, perpprodRaw, hSne])]
      rfl
  · simp [squareAt0, line.is_same_as, line.get_S0, line.get_V, hSne, hSne.symm]
  · intro l hl
    apply len_ge_of_coord m hm
    simp only [squareAt0, List.flatten_cons, List.flatten_nil, List.append_nil, List.mem_cons,
      List.mem_singleton, List.not_mem_nil, or_false] at hl
    rcases hl with rfl | rfl | rfl | rfl
    · right; exact hsm
    · left; exact hsm
    · right; simpa using hsm
    · left; simpa using hsm

theorem normal_diamond (m : Libm ℝ) (hm : m.IsReal) (S d : ℝ) (ha : SNAP_LEN < S / 2 - d) :
    NormalPath m [diamond S d] := by
  have ha0 : (0 : ℝ) < S / 2 - d := lt_trans (by norm_num [SNAP_LEN]) ha
  have hane : S / 2 - d ≠ 0 := ha0.ne'
  have hnane : -(S / 2 - d) ≠ 0 := neg_ne_zero.mpr hane
  have hsn : (0 : ℝ) < SNAP_LEN := by norm_num [SNAP_LEN]
  have hsm : (SMALL_NUM : ℝ) ≤ |S / 2 - d| := by
    rw [abs_of_pos ha0]
    exact le_trans (by norm_num [SMALL_NUM, SNAP_LEN]) ha.le
  have hperp : -(S / 2 - d) * (S / 2 - d) - (S / 2 - d) * (S / 2 - d) < 0 := by nlinarith
  refine ⟨?_, ?_, ?_⟩
  · intro L hL
    simp only [List.mem_singleton] at hL
    subst hL
    refine ⟨?_, ?_⟩
    · simp only [diamond, LoopTail, line.get_S1, line.get_S0, line.get_pt, T_S1]
      refine ⟨?_, ?_, ?_, ?_, ?_, ?_, ?_, ?_, ?_⟩
      · rw [coord_t.mk.injEq]; constructor <;> ring
      · apply dist_gt_of_coord m hm; left; rw [lt_abs]; right; simp only; linarith
      · apply dist_gt_of_coord m hm; left; rw [lt_abs]; right; simp only; linarith
      · rw [coord_t.mk.injEq]; constructor <;> ring
      · apply dist_gt_of_coord m hm; left; rw [lt_abs]; left; simp only; linarith
      · apply dist_gt_of_coord m hm; left; rw [lt_abs]; right; simp only; linarith
      · rw [coord_t.mk.injEq]; constructor <;> ring
      · apply dist_gt_of_coord m hm; left; rw [lt_abs]; left; simp only; linarith
      · rw [coord_t.mk.injEq]; constructor <;> ring
    · apply is_clockwise_of_four m hm _ _ (0 - 1 - 1 - 1 - 1)
      simp only [List.getLast_cons_cons, List.getLast_singleton]
      rw [is_clockwise_loop_right m hm _ _ _ _ _ (Or.inl hnane) (Or.inl hane)
          (by simp only [dotprod, dotprodRaw]; ring)
          (by simp only [perpprod, perpprodRaw]; nlinarith),
        is_clockwise_loop_right m hm _ _ _ _ _ (Or.inl hane) (Or.inl hane)
          (by simp only [dotprod, dotprodRaw]; ring)
          (by simp only [perpprod, perpprodRaw]; nlinarith),
        is_clockwise_loop_right m hm _ _ _ _ _ (Or.inl hane) (Or.inl hnane)
          (by simp only [dotprod, dotprodRaw]; ring)
          (by simp only [perpprod, perpprodRaw]; nlinarith),
        is_clockwise_loop_right m hm _ _ _ _ _ (Or.inl hnane) (Or.inl hnane)
          (by simp only [dotprod, dotprodRaw]; ring)
          (by simp only [perpprod, perpprodRaw]; nlinarith)]
      rfl
  · have n1 : ¬ S / 2 = d := by intro h; linarith
    have n2 : ¬ S - d = d := by intro h; linarith
    have n3 : ¬ S - d = S / 2 := by intro h; linarith
    have n4 : ¬ S / 2 = S - d := by intro h; linarith
    have n5 : ¬ d = S - d := by intro h; linarith
    have n6 : ¬ d = S / 2 := by intro h; linarith
    simp [diamond, line.is_same_as, line.get_S0, line.get_V, n1, n2, n3, n4, n5, n6]
  · intro l hl
    apply len_ge_of_coord m hm
    simp only [diamond, List.flatten_cons, List.flatten_nil, List.append_nil, List.mem_cons,
      List.mem_singleton, List.not_mem_nil, or_false] at hl
    rcases hl with rfl | rfl | rfl | rfl
    · left; exact hsm
    · left; exact hsm
    · left; rw [abs_neg]; exact hsm
    · left; rw [abs_neg]; exact hsm

theorem ofPoints_get_S1 {K : Type} [LinearOrderedField K] (a b : coord_t K) : (line.ofPoints a b).get_S1 = b := by
  simp [line.ofPoints, line.get_S1, line.get_pt, T_S1]

theorem reverse_get_S1 {K : Type} [LinearOrderedField K] (x : line K) : x.reverse.get_S1 = x.S0 := by
  obtain ⟨⟨a, b⟩, ⟨c, d⟩⟩ := x
  simp [line.reverse, line.get_S1, line.get_pt, T_S1]

theorem trace_scan_mid {K : Type} [LinearOrderedField K] (m : Libm K) (snap : K) (hz : ∀ p, distTwoPoints m p p ≤ snap)
    (s1 : line K) (rest : List (line K)) :
    ∀ (mid : List (line K)) (tail : List (line K)),
      MidTail m snap s1 ((s1 :: tail).getLast (List.cons_ne_nil _ _)) mid →
      trace_scan m snap s1 tail [] (mid ++ rest) = trace_scan m snap s1 (tail ++ mid) [] rest := by
  intro mid
  induction mid with
  | nil => intro tail _; simp
  | cons x more ih =>
    intro tail h
    obtain ⟨h0, h1, h2, h3⟩ := h
    rw [List.cons_append, trace_scan]
    simp only [if_neg h1]
    rw [← h0, ofPoints_self, line.get_S0, if_pos (hz _), if_neg h2]
    have := ih (tail ++ [x]) (by simpa using h3)
    simp only [List.nil_append]
    rw [this]
    simp

/-- The last step of a trace, at an element that runs from the start of the
path to its end: it is reversed, appended and closes the path. -/
theorem trace_scan_close_reversed {K : Type} [LinearOrderedField K] (m : Libm K) (snap : K)
    (hz : ∀ p, distTwoPoints m p p ≤ snap) (s1 x : line K) (tail : List (line K))
    (h1 : x.get_S1 = ((s1 :: tail).getLast (List.cons_ne_nil _ _)).get_S1)
    (h0 : x.S0 = s1.get_S0) :
    trace_scan m snap s1 tail [] [x] =
      (true, s1 :: (tail ++ [line.ofPoints
        ((s1 :: tail).getLast (List.cons_ne_nil _ _)).get_S1 s1.get_S0]), []) := by
  rw [trace_scan]
  simp only [h1, if_pos (hz _)]
  have e1 : x.reverse.get_S0 = ((s1 :: tail).getLast (List.cons_ne_nil _ _)).get_S1 := by
    simp only [line.reverse, line.get_S0, h1]
  rw [e1, if_pos (hz _), ofPoints_get_S1, reverse_get_S1, h0, if_pos (hz _)]
  simp [line.ofPoints, line.get_S0]

/-- The trace of the joined and closed path of the square: the zero-length
first element followed by the diamond. -/
theorem trace_joined (m : Libm ℝ) (hm : m.IsReal) (S d : ℝ) (ha : SNAP_LEN < S / 2 - d) :
    trace_a_path m SNAP_LEN (diamondOpen S d ++
        [line.ofPoints (⟨⟨d, S / 2⟩, ⟨0, 0⟩⟩ : line ℝ).get_S0
          (⟨⟨S - d, S / 2⟩, ⟨-(S / 2 - d), -(S / 2 - d)⟩⟩ : line ℝ).get_S1]) =
      (true, (⟨⟨d, S / 2⟩, ⟨0, 0⟩⟩ : line ℝ) :: diamond S d, []) := by
  have ha0 : (0 : ℝ) < S / 2 - d := lt_trans (by norm_num [SNAP_LEN]) ha
  have hz := dist_self_le_snap m hm
  have hmid : MidTail m SNAP_LEN (⟨⟨d, S / 2⟩, ⟨0, 0⟩⟩ : line ℝ)
      ((([⟨⟨d, S / 2⟩, ⟨0, 0⟩⟩] : List (line ℝ))).getLast (List.cons_ne_nil _ _))
      [⟨⟨d, S / 2⟩, ⟨S / 2 - d, S / 2 - d⟩⟩,
       ⟨⟨S / 2, S - d⟩, ⟨S / 2 - d, -(S / 2 - d)⟩⟩,
       ⟨⟨S - d, S / 2⟩, ⟨-(S / 2 - d), -(S / 2 - d)⟩⟩] := by
    simp only [List.getLast_singleton, MidTail, line.get_S1, line.get_S0, line.get_pt, T_S1,
      and_true]
    refine ⟨?_, ?_, ?_, ?_, ?_, ?_, ?_, ?_, ?_⟩
    · rw [coord_t.mk.injEq]; constructor <;> ring
    · apply dist_gt_of_coord m hm; left; rw [lt_abs]; right; simp only; linarith
    · apply dist_gt_of_coord m hm; left; rw [lt_abs]; right; simp only; linarith
    · rw [coord_t.mk.injEq]; constructor <;> ring
    · apply dist_gt_of_coord m hm; left; rw [lt_abs]; right; simp only; linarith
    · apply dist_gt_of_coord m hm; left; rw [lt_abs]; right; simp only; linarith
    · rw [coord_t.mk.injEq]; constructor <;> ring
    · apply dist_gt_of_coord m hm; left; rw [lt_abs]; left; simp only; linarith
    · apply dist_gt_of_coord m hm; left; rw [lt_abs]; right; simp only; linarith
  have h1 := trace_scan_mid m SNAP_LEN hz _
    [line.ofPoints (⟨⟨d, S / 2⟩, ⟨0, 0⟩⟩ : line ℝ).get_S0
      (⟨⟨S - d, S / 2⟩, ⟨-(S / 2 - d), -(S / 2 - d)⟩⟩ : line ℝ).get_S1] _ [] hmid
  have h2 := trace_scan_close_reversed m SNAP_LEN hz (⟨⟨d, S / 2⟩, ⟨0, 0⟩⟩ : line ℝ)
    (line.ofPoints (⟨⟨d, S / 2⟩, ⟨0, 0⟩⟩ : line ℝ).get_S0
      (⟨⟨S - d, S / 2⟩, ⟨-(S / 2 - d), -(S / 2 - d)⟩⟩ : line ℝ).get_S1)
    ([] ++ [⟨⟨d, S / 2⟩, ⟨S / 2 - d, S / 2 - d⟩⟩,
       ⟨⟨S / 2, S - d⟩, ⟨S / 2 - d, -(S / 2 - d)⟩⟩,
       ⟨⟨S - d, S / 2⟩, ⟨-(S / 2 - d), -(S / 2 - d)⟩⟩])
    (by rw [ofPoints_get_S1]; simp) (by simp [line.ofPoints, line.get_S0])
  simp only [diamondOpen, trace_a_path, List.cons_append, List.nil_append] at h1 h2 ⊢
  rw [h1, h2]
  simp only [diamond, List.getLast_cons_cons, List.getLast_singleton, line.ofPoints, line.get_S1,
    line.get_S0, line.get_pt, T_S1, Prod.mk.injEq, List.cons.injEq, line.mk.injEq,
    coord_t.mk.injEq, vector_t.mk.injEq, true_and, and_true]
  refine ⟨⟨?_, ?_⟩, ?_, ?_⟩ <;> ring

theorem cw_joined (m : Libm ℝ) (hm : m.IsReal) (S d : ℝ) (ha : SNAP_LEN < S / 2 - d) :
    is_clockwise m (⟨⟨d, S / 2⟩, ⟨0, 0⟩⟩ : line ℝ) (diamond S d) = true := by
  have ha0 : (0 : ℝ) < S / 2 - d := lt_trans (by norm_num [SNAP_LEN]) ha
  have hane : S / 2 - d ≠ 0 := ha0.ne'
  have hnane : -(S / 2 - d) ≠ 0 := neg_ne_zero.mpr hane
  apply is_clockwise_of_four m hm _ _ (0 - 1 - 1 - 1 - 1)
  simp only [diamond, List.getLast_cons_cons, List.getLast_singleton]
  rw [is_clockwise_loop_zero m hm _ _ _ _ _ rfl,
    is_clockwise_loop_right m hm _ _ _ _ _ (Or.inl hnane) (Or.inl hane)
      (by simp only [dotprod, dotprodRaw]; ring)
      (by simp only [perpprod, perpprodRaw]; nlinarith),
    is_clockwise_loop_right m hm _ _ _ _ _ (Or.inl hane) (Or.inl hane)
      (by simp only [dotprod, dotprodRaw]; ring)
      (by simp only [perpprod, perpprodRaw]; nlinarith),
    is_clockwise_loop_right m hm _ _ _ _ _ (Or.inl hane) (Or.inl hnane)
      (by simp only [dotprod, dotprodRaw]; ring)
      (by simp only [perpprod, perpprodRaw]; nlinarith),
    is_clockwise_loop_right m hm _ _ _ _ _ (Or.inl hnane) (Or.inl hnane)
      (by simp only [dotprod, dotprodRaw]; ring)
      (by simp only [perpprod, perpprodRaw]; nlinarith)]
  rfl

/-- `regularise` on the joined and closed path of the square leaves the diamond. -/
theorem regularise_joined (m : Libm ℝ) (hm : m.IsReal) (S d : ℝ) (ha : SNAP_LEN < S / 2 - d) :
    regularise m (diamondOpen S d ++
        [line.ofPoints (⟨⟨d, S / 2⟩, ⟨0, 0⟩⟩ : line ℝ).get_S0
          (⟨⟨S - d, S / 2⟩, ⟨-(S / 2 - d), -(S / 2 - d)⟩⟩ : line ℝ).get_S1]) =
      .ok (diamond S d) := by
  have ha0 : (0 : ℝ) < S / 2 - d := lt_trans (by norm_num [SNAP_LEN]) ha
  have hN := normal_diamond m hm S d ha
  have hfix := regularise_fixed m (dist_self_le_snap m hm) [diamond S d] hN.1 hN.2.1 hN.2.2
  simp only [List.flatten_cons, List.flatten_nil, List.append_nil] at hfix
  have hpw := hN.2.1
  have hzl := hN.2.2
  simp only [List.flatten_cons, List.flatten_nil, List.append_nil] at hpw hzl
  -- make_path
  have hmp : make_path m (diamondOpen S d ++
        [line.ofPoints (⟨⟨d, S / 2⟩, ⟨0, 0⟩⟩ : line ℝ).get_S0
          (⟨⟨S - d, S / 2⟩, ⟨-(S / 2 - d), -(S / 2 - d)⟩⟩ : line ℝ).get_S1]) =
      .ok ((⟨⟨d, S / 2⟩, ⟨0, 0⟩⟩ : line ℝ) :: diamond S d) := by
    have htr := trace_joined m hm S d ha
    simp only [make_path, make_path_snap, make_path_full]
    simp only [diamondOpen, List.cons_append, List.nil_append, List.length_cons, List.length_nil,
      Nat.zero_add, Nat.reduceAdd] at htr ⊢
    rw [make_path_loop_closed m _ _ _ 4 _ _ _ _ _ _ _ _ htr (cw_joined m hm S d ha)]
    simp [make_path_loop]
  -- deletions
  have hdup : del_duplicates ((⟨⟨d, S / 2⟩, ⟨0, 0⟩⟩ : line ℝ) :: diamond S d) =
      ((⟨⟨d, S / 2⟩, ⟨0, 0⟩⟩ : line ℝ) :: diamond S d, 0) := by
    have hp : ((⟨⟨d, S / 2⟩, ⟨0, 0⟩⟩ : line ℝ) :: diamond S d).Pairwise
        (fun a b => a.is_same_as b = false) := by
      rw [List.pairwise_cons]
      refine ⟨?_, hpw⟩
      have n1 : ¬ S / 2 = d := by intro h; linarith
      have n2 : ¬ S - d = d := by intro h; linarith
      have n3 : ¬ S / 2 - d = 0 := ha0.ne'
      intro b hb
      simp only [diamond, List.mem_cons, List.mem_singleton, List.not_mem_nil, or_false] at hb
      rcases hb with rfl | rfl | rfl | rfl <;>
        simp [line.is_same_as, line.get_S0, line.get_V, n1, n2, n3]
    have := del_duplicates_outer_none _ [] _ 0 hp (le_refl _)
    simpa [del_duplicates] using this
  have hzero : del_zero_lens m ((⟨⟨d, S / 2⟩, ⟨0, 0⟩⟩ : line ℝ) :: diamond S d) =
      (diamond S d, 1) := by
    have hz0 : line.len m (⟨⟨d, S / 2⟩, ⟨0, 0⟩⟩ : line ℝ) < SMALL_NUM := by
      simp [line.len, hm.1, SMALL_NUM, SNAP_LEN]
    rw [del_zero_lens, del_zero_lens_loop, if_pos hz0,
      del_zero_lens_loop_none m _ _ _ (by simpa using hzl)]
    simp
  have hdel : del_dupes_zeros m ((⟨⟨d, S / 2⟩, ⟨0, 0⟩⟩ : line ℝ) :: diamond S d) =
      (diamond S d, true) := by
    simp only [del_dupes_zeros, hdup, hzero]
    simp
  rw [regularise] at hfix
  simp only [diamond, List.length_cons, List.length_nil, Nat.zero_add, Nat.reduceAdd] at hfix
  rw [regularise, regularise_loop, hmp]
  simp only [hdel, if_true]
  simp only [diamondOpen, diamond, List.cons_append, List.nil_append, List.length_cons,
    List.length_nil, Nat.zero_add, Nat.reduceAdd]
  exact hfix

/-- `trace_at_offset(-d)` on the square of side `S` between the origin and
`(S,S)`, for `S` at most 2 and `d` between `S/4` and `S/2 - SNAP_LEN`: only
the offsetting lines at the middles of the sides stay valid, and the result
is the diamond through their ends. -/
theorem trace_at_offset_square_core (m : Libm ℝ) (hm : m.IsReal) (S d : ℝ) (hS2 : S ≤ 2)
    (hd1 : S / 4 < d) (ha : SNAP_LEN < S / 2 - d) :
    trace_at_offset m false (squareAt0 S) (-d) = .ok (diamond S d) := by
  have hsn : (0 : ℝ) < SNAP_LEN := by norm_num [SNAP_LEN]
  have hd2 : d < S / 2 := by linarith
  have hS0 : 0 < S := by linarith
  have hd : 0 < d := by linarith
  have hS : SNAP_LEN < S := by linarith
  have hN := normal_square m hm S hS
  have hreg := regularise_fixed m (dist_self_le_snap m hm) [squareAt0 S] hN.1 hN.2.1 hN.2.2
  simp only [List.flatten_cons, List.flatten_nil, List.append_nil] at hreg
  simp only [trace_at_offset, hreg, Res.bind, create_offset_lines_square m hm S d hS hS2 hd,
    proximity_square m hm S d hd1 hd2, crossing_square m S d hd hd2, redundant_square,
    join_square]
  have hh : (diamondOpen S d).head? = some (⟨⟨d, S / 2⟩, ⟨0, 0⟩⟩ : line ℝ) := by
    simp [diamondOpen]
  have hl : (diamondOpen S d).getLast? =
      some (⟨⟨S - d, S / 2⟩, ⟨-(S / 2 - d), -(S / 2 - d)⟩⟩ : line ℝ) := by
    simp [diamondOpen]
  rw [hh, hl]
  simp only [regularise_joined m hm S d ha, Res.bind]
  simp

end OffsetSquare

/-! ## Path topology: polygons -/

section PolygonTrace
variable {K : Type} [LinearOrderedField K]

theorem ofPoints_get_S0 (a b : coord_t K) : (line.ofPoints a b).get_S0 = a := rfl

theorem reverse_ofPoints (a b : coord_t K) : (line.ofPoints a b).reverse = line.ofPoints b a := by
  simp [line.reverse, line.ofPoints, line.get_S1, line.get_pt, T_S1]

theorem endsKey_ofPoints (a b : coord_t K) : endsKey (line.ofPoints a b) = s(a, b) := by
  simp [endsKey, ofPoints_get_S0, ofPoints_get_S1]

theorem endsKey_reverse (l : line K) : endsKey l.reverse = endsKey l := by
  have h : l.reverse.get_S0 = l.get_S1 := rfl
  rw [endsKey, endsKey, reverse_get_S1, h]
  exact Sym2.eq_swap

theorem eq_ofPoints_of_endsKey (x : line K) (u v : coord_t K) (h : endsKey x = s(u, v)) :
    x = line.ofPoints u v ∨ x = line.ofPoints v u := by
  simp only [endsKey, Sym2.eq_iff, line.get_S0] at h
  rcases h with ⟨h1, h2⟩ | ⟨h1, h2⟩
  · left; rw [← h1, ← h2, ofPoints_self]
  · right; rw [← h1, ← h2, ofPoints_self]

theorem trace_scan_append (m : Libm K) (snap : K) (st : line K) (tail scanned us : List (line K))
    (nx : line K) (b v : coord_t K)
    (hen : ((st :: tail).getLast (List.cons_ne_nil _ _)).get_S1 = b)
    (hnx : nx = line.ofPoints b v ∨ nx = line.ofPoints v b)
    (hbb : distTwoPoints m b b ≤ snap) (hbv : ¬ distTwoPoints m b v ≤ snap)
    (hav : ¬ distTwoPoints m st.get_S0 v ≤ snap) :
    trace_scan m snap st tail scanned (nx :: us) =
      trace_scan m snap st (tail ++ [line.ofPoints b v]) [] (scanned ++ us) := by
  rw [trace_scan]
  simp only [hen]
  rcases hnx with rfl | rfl
  · simp only [ofPoints_get_S1, ofPoints_get_S0, if_neg hbv, if_pos hbb, if_neg hav]
  · simp only [ofPoints_get_S1, ofPoints_get_S0, if_pos hbb, reverse_ofPoints, if_neg hav]

theorem trace_scan_close (m : Libm K) (snap : K) (st : line K) (tail scanned us : List (line K))
    (nx : line K) (b v : coord_t K)
    (hen : ((st :: tail).getLast (List.cons_ne_nil _ _)).get_S1 = b)
    (hnx : nx = line.ofPoints b v ∨ nx = line.ofPoints v b)
    (hbb : distTwoPoints m b b ≤ snap) (hbv : ¬ distTwoPoints m b v ≤ snap)
    (hav : distTwoPoints m st.get_S0 v ≤ snap) :
    trace_scan m snap st tail scanned (nx :: us) =
      (true, st :: (tail ++ [line.ofPoints b st.get_S0]), scanned ++ us) := by
  rw [trace_scan]
  simp only [hen]
  rcases hnx with rfl | rfl
  · simp only [ofPoints_get_S1, ofPoints_get_S0, if_neg hbv, if_pos hbb, if_pos hav]
  · simp only [ofPoints_get_S1, ofPoints_get_S0, if_pos hbb, reverse_ofPoints, if_pos hav]

theorem trace_scan_prepend (m : Libm K) (snap : K) (st : line K)
    (tail scanned us : List (line K)) (nx : line K) (b u : coord_t K)
    (hen : ((st :: tail).getLast (List.cons_ne_nil _ _)).get_S1 = b)
    (hnx : nx = line.ofPoints u st.get_S0 ∨ nx = line.ofPoints st.get_S0 u)
    (haa : distTwoPoints m st.get_S0 st.get_S0 ≤ snap)
    (hba : ¬ distTwoPoints m b st.get_S0 ≤ snap)
    (hbu : ¬ distTwoPoints m b u ≤ snap)
    (hau : ¬ distTwoPoints m st.get_S0 u ≤ snap) :
    trace_scan m snap st tail scanned (nx :: us) =
      trace_scan m snap (line.ofPoints u st.get_S0) (st :: tail) [] (scanned ++ us) := by
  rw [trace_scan]
  simp only [hen]
  rcases hnx with rfl | rfl
  · simp only [ofPoints_get_S1, ofPoints_get_S0, if_neg hba, if_neg hbu, if_neg hau, if_pos haa]
  · simp only [ofPoints_get_S1, ofPoints_get_S0, if_neg hba, if_neg hbu, if_pos haa,
      reverse_ofPoints]

theorem trace_scan_skip (m : Libm K) (snap : K) (st : line K)
    (tail scanned us : List (line K)) (nx : line K) (b u v : coord_t K)
    (hen : ((st :: tail).getLast (List.cons_ne_nil _ _)).get_S1 = b)
    (hnx : nx = line.ofPoints u v ∨ nx = line.ofPoints v u)
    (hbu : ¬ distTwoPoints m b u ≤ snap) (hbv : ¬ distTwoPoints m b v ≤ snap)
    (hau : ¬ distTwoPoints m st.get_S0 u ≤ snap) (hav : ¬ distTwoPoints m st.get_S0 v ≤ snap) :
    trace_scan m snap st tail scanned (nx :: us) =
      trace_scan m snap st tail (scanned ++ [nx]) us := by
  rw [trace_scan]
  simp only [hen]
  rcases hnx with rfl | rfl
  · simp only [ofPoints_get_S1, ofPoints_get_S0, if_neg hbu, if_neg hbv, if_neg hau, if_neg hav]
  · simp only [ofPoints_get_S1, ofPoints_get_S0, if_neg hbu, if_neg hbv, if_neg hau, if_neg hav]

theorem pathOf_append (a : coord_t K) (xs ys : List (coord_t K)) (b : coord_t K)
    (hb : (a :: xs).getLast? = some b) :
    pathOf a (xs ++ ys) = pathOf a xs ++ pathOf b ys := by
  induction xs generalizing a with
  | nil =>
    simp at hb
    subst hb
    simp [pathOf]
  | cons x xs ih =>
    rw [List.getLast?_cons_cons] at hb
    simp [pathOf, ih x hb]

theorem pathOf_getLast (a : coord_t K) (ps : List (coord_t K)) (b : coord_t K)
    (st : line K) (tail : List (line K)) (h : pathOf a ps = st :: tail)
    (hb : ps.getLast? = some b) :
    ((st :: tail).getLast (List.cons_ne_nil _ _)).get_S1 = b := by
  induction ps generalizing a st tail with
  | nil => simp at hb
  | cons p ps ih =>
    cases ps with
    | nil =>
      simp at hb
      subst hb
      simp only [pathOf, List.cons.injEq] at h
      obtain ⟨h1, h2⟩ := h
      subst h1 h2
      simp [ofPoints_get_S1]
    | cons q qs =>
      rw [List.getLast?_cons_cons] at hb
      simp only [pathOf, List.cons.injEq] at h
      obtain ⟨h1, h2⟩ := h
      subst h2
      have := ih p _ _ rfl hb
      simpa [pathOf] using this

theorem pathOf_head (a : coord_t K) (ps : List (coord_t K)) (st : line K) (tail : List (line K))
    (h : pathOf a ps = st :: tail) : st.get_S0 = a := by
  cases ps with
  | nil => simp [pathOf] at h
  | cons p ps =>
    simp only [pathOf, List.cons.injEq] at h
    rw [← h.1]; rfl

theorem mem_pathOf (b : coord_t K) (qs : List (coord_t K)) (c : line K) (h : c ∈ pathOf b qs) :
    ∃ (qs1 : List (coord_t K)) (u v : coord_t K) (qs2 : List (coord_t K)),
      qs = qs1 ++ v :: qs2 ∧ (b :: qs1).getLast? = some u ∧ c = line.ofPoints u v := by
  induction qs generalizing b with
  | nil => simp [pathOf] at h
  | cons q qs ih =>
    simp only [pathOf, List.mem_cons] at h
    rcases h with h | h
    · exact ⟨[], b, q, qs, rfl, rfl, h⟩
    · obtain ⟨qs1, u, v, qs2, h1, h2, h3⟩ := ih q h
      refine ⟨q :: qs1, u, v, qs2, by simp [h1], ?_, h3⟩
      rw [List.getLast?_cons_cons]; exact h2

theorem scrambled_keys (poly e : obj K) (h : Scrambled poly e) :
    (e.map endsKey).Perm (poly.map endsKey) := by
  obtain ⟨f, hf, hp⟩ := h
  have : f.map endsKey = poly.map endsKey := by
    clear hp
    induction hf with
    | nil => rfl
    | cons hxy _ ih =>
      rcases hxy with rfl | rfl
      · simp [ih]
      · simp [ih, endsKey_reverse]
  rw [← this]
  exact (hp.map _).symm

theorem getLast_cons_of_some {α : Type} (a b : α) (ps : List α) (h : ps.getLast? = some b) :
    (a :: ps).getLast? = some b := by
  cases ps with
  | nil => simp at h
  | cons p ps => rw [List.getLast?_cons_cons]; exact h

theorem scanned_absurd (b : coord_t K) (qs : List (coord_t K)) (a : coord_t K)
    (scanned : List (line K)) (hqs : qs.getLast? = some a)
    (hperm : (scanned.map endsKey).Perm ((pathOf b qs).map endsKey))
    (hsc : ∀ x ∈ scanned, x.get_S0 ≠ b ∧ x.get_S1 ≠ b) : False := by
  cases qs with
  | nil => simp at hqs
  | cons q qs =>
    have h1 : endsKey (line.ofPoints b q) ∈ (pathOf b (q :: qs)).map endsKey :=
      List.mem_map_of_mem _ (by simp [pathOf])
    have h2 := hperm.symm.subset h1
    obtain ⟨x, hx, hk⟩ := List.mem_map.1 h2
    rw [endsKey_ofPoints, endsKey, Sym2.eq_iff] at hk
    rcases hk with ⟨h, _⟩ | ⟨_, h⟩
    · exact (hsc x hx).1 h
    · exact (hsc x hx).2 h

theorem perm_cancel_middle {α : Type} (k : α) (l1 l2 r : List α)
    (h : (l1 ++ k :: l2).Perm (k :: r)) : (l1 ++ l2).Perm r :=
  (List.perm_middle.symm.trans h).cons_inv

theorem perm_cancel_concat {α : Type} (k : α) (l1 l2 r : List α)
    (h : (l1 ++ k :: l2).Perm (r ++ [k])) : (l1 ++ l2).Perm r := by
  apply perm_cancel_middle k l1 l2 r
  exact h.trans (List.perm_append_singleton k r)

theorem trace_scan_polygon_rest (m : Libm K) (snap : K) (W : List (coord_t K))
    (hdec : ∀ p ∈ W, ∀ q ∈ W, (distTwoPoints m p q ≤ snap ↔ p = q)) (rest : List (line K)) :
    ∀ (N : Nat) (unscanned scanned : List (line K)) (a b : coord_t K)
      (ps qs : List (coord_t K)) (st : line K) (tail : List (line K)),
      scanned.length + unscanned.length = N →
      pathOf a ps = st :: tail → ps.getLast? = some b → qs.getLast? = some a →
      (ps ++ qs).Nodup → (∀ p ∈ ps ++ qs, p ∈ W) →
      ((scanned ++ unscanned).map endsKey).Perm ((pathOf b qs).map endsKey) →
      (∀ x ∈ scanned, x.get_S0 ≠ b ∧ x.get_S1 ≠ b) →
      ∃ cyc : List (coord_t K), cyc.IsRotated (ps ++ qs) ∧ ∃ a', cyc.getLast? = some a' ∧
        trace_scan m snap st tail scanned (unscanned ++ rest) = (true, pathOf a' cyc, rest) := by
  intro N
  induction N using Nat.strong_induction_on with
  | _ N ihN =>
  intro unscanned
  induction unscanned with
  | nil =>
    intro scanned a b ps qs st tail _ _ _ hqs _ _ hperm hsc
    rw [List.append_nil] at hperm
    exact (scanned_absurd b qs a scanned hqs hperm hsc).elim
  | cons nx us ih =>
    intro scanned a b ps qs st tail hN hpath hps hqs hnd hW hperm hsc
    simp only [List.cons_append]
    have hen := pathOf_getLast a ps b st tail hpath hps
    have hst := pathOf_head a ps st tail hpath
    have hbps : b ∈ ps := List.mem_of_getLast?_eq_some hps
    have haqs : a ∈ qs := List.mem_of_getLast?_eq_some hqs
    have hbW : b ∈ W := hW b (List.mem_append_left _ hbps)
    have haW : a ∈ W := hW a (List.mem_append_right _ haqs)
    have hdisj : ∀ x ∈ ps, ∀ y ∈ qs, x ≠ y := fun x hx y hy hxy =>
      (List.disjoint_of_nodup_append hnd) hx (hxy ▸ hy)
    have hqnd : qs.Nodup := hnd.of_append_right
    have hba : ¬ distTwoPoints m b a ≤ snap := fun h =>
      hdisj b hbps a haqs ((hdec b hbW a haW).1 h)
    have hmem : endsKey nx ∈ (pathOf b qs).map endsKey :=
      hperm.subset (List.mem_map_of_mem _ (by simp))
    obtain ⟨c, hc, hck⟩ := List.mem_map.1 hmem
    obtain ⟨qs1, u, v, qs2, hq, hu, rfl⟩ := mem_pathOf b qs c hc
    have hnx := eq_ofPoints_of_endsKey nx u v (hck.symm.trans (endsKey_ofPoints u v))
    have hvqs : v ∈ qs := by rw [hq]; simp
    have hvW : v ∈ W := hW v (List.mem_append_right _ hvqs)
    have hbv : ¬ distTwoPoints m b v ≤ snap := fun h =>
      hdisj b hbps v hvqs ((hdec b hbW v hvW).1 h)
    rcases List.eq_nil_or_concat qs1 with rfl | ⟨qs1', u', rfl⟩
    · -- the element continues the path at its end
      simp only [List.getLast?_singleton, Option.some.injEq] at hu
      subst hu
      rw [List.nil_append] at hq
      subst hq
      cases qs2 with
      | nil =>
        simp only [List.getLast?_singleton, Option.some.injEq] at hqs
        subst hqs
        have hlen := hperm.length_eq
        simp only [pathOf, List.map_cons, List.map_nil, List.length_map, List.length_append,
          List.length_cons, List.length_nil] at hlen
        have hs0 : scanned = [] := List.length_eq_zero.1 (by omega)
        have hu0 : us = [] := List.length_eq_zero.1 (by omega)
        refine ⟨ps ++ [v], List.IsRotated.refl _, v, by simp, ?_⟩
        rw [trace_scan_close m snap st tail scanned (us ++ rest) nx b v hen hnx
          ((hdec b hbW b hbW).2 rfl) hbv (by rw [hst]; exact (hdec v haW v haW).2 rfl)]
        rw [pathOf_append v ps [v] b (getLast_cons_of_some _ _ _ hps), hpath, hst, hs0, hu0]
        simp [pathOf]
      | cons q2 qs2' =>
        have hqs2 : (q2 :: qs2').getLast? = some a := by
          rw [List.getLast?_cons_cons] at hqs; exact hqs
        have hva : v ≠ a := by
          intro h
          rw [List.nodup_cons] at hqnd
          exact hqnd.1 (h ▸ List.mem_of_getLast?_eq_some hqs2)
        have hav : ¬ distTwoPoints m st.get_S0 v ≤ snap := by
          rw [hst]; intro h; exact hva ((hdec a haW v hvW).1 h).symm
        rw [trace_scan_append m snap st tail scanned (us ++ rest) nx b v hen hnx
          ((hdec b hbW b hbW).2 rfl) hbv hav]
        have hlen : scanned.length + us.length < N := by
          simp only [List.length_cons] at hN; omega
        have hk : endsKey nx = endsKey (line.ofPoints b v) := hck.symm
        have hperm2 : (([] ++ (scanned ++ us)).map endsKey).Perm
            ((pathOf v (q2 :: qs2')).map endsKey) := by
          simp only [List.nil_append, List.map_append]
          apply perm_cancel_middle (endsKey (line.ofPoints b v))
          have h := hperm
          rw [List.map_append, List.map_cons, hk] at h
          simpa [pathOf] using h
        have hres := ihN _ hlen (scanned ++ us) [] a v (ps ++ [v]) (q2 :: qs2') st
          (tail ++ [line.ofPoints b v]) (by simp)
          (by rw [pathOf_append a ps [v] b (getLast_cons_of_some _ _ _ hps), hpath]; simp [pathOf])
          (by simp) hqs2 (by simpa using hnd) (by simpa using hW) hperm2 (by simp)
        simpa using hres
    · -- the element is not at the end of the path
      rw [List.concat_eq_append] at hq hu
      have hu2 : (b :: (qs1' ++ [u'])).getLast? = some u' :=
        getLast_cons_of_some b u' (qs1' ++ [u']) (by simp)
      have hu : u' = u := by
        rw [hu2] at hu; exact Option.some.inj hu
      subst hu
      subst hq
      have huqs : u' ∈ qs1' ++ [u'] ++ v :: qs2 := by simp
      have huW : u' ∈ W := hW u' (List.mem_append_right _ huqs)
      have hbu : ¬ distTwoPoints m b u' ≤ snap := fun h =>
        hdisj b hbps u' huqs ((hdec b hbW u' huW).1 h)
      have hnd2 : (qs1' ++ u' :: v :: qs2).Nodup := by simpa using hqnd
      have hnd3 : (u' :: v :: qs2).Nodup := hnd2.of_append_right
      cases qs2 with
      | nil =>
        have hva : v = a := by simpa using hqs
        subst hva
        have hua : u' ≠ v := by
          intro h; rw [List.nodup_cons] at hnd3; exact hnd3.1 (by simp [h])
        have hau : ¬ distTwoPoints m st.get_S0 u' ≤ snap := by
          rw [hst]; intro h; exact hua ((hdec v haW u' huW).1 h).symm
        rw [trace_scan_prepend m snap st tail scanned (us ++ rest) nx b u' hen (by rw [hst]; exact hnx)
          (by rw [hst]; exact (hdec v haW v haW).2 rfl) (by rw [hst]; exact hba) hbu hau]
        have hlen : scanned.length + us.length < N := by
          simp only [List.length_cons] at hN; omega
        have hk : endsKey nx = endsKey (line.ofPoints u' v) := hck.symm
        have hperm2 : (([] ++ (scanned ++ us)).map endsKey).Perm
            ((pathOf b (qs1' ++ [u'])).map endsKey) := by
          simp only [List.nil_append, List.map_append]
          apply perm_cancel_concat (endsKey (line.ofPoints u' v))
          have h := hperm
          rw [List.map_append, List.map_cons, hk,
            pathOf_append b (qs1' ++ [u']) [v] u' (getLast_cons_of_some _ _ _ (by simp))] at h
          simpa [pathOf] using h
        have hnd4 : (v :: ps ++ (qs1' ++ [u'])).Nodup := by
          have e : ps ++ (qs1' ++ [u'] ++ [v]) = (ps ++ (qs1' ++ [u'])) ++ [v] := by simp
          rw [e] at hnd
          exact (List.perm_append_singleton _ _).nodup_iff.1 hnd
        have hres := ihN _ hlen (scanned ++ us) [] u' b (v :: ps) (qs1' ++ [u'])
          (line.ofPoints u' v) (st :: tail) (by simp)
          (by rw [pathOf, hpath])
          (getLast_cons_of_some _ _ _ hps) (by simp) hnd4
          (by
            intro p hp
            apply hW
            simp only [List.mem_append, List.mem_cons, List.mem_singleton, List.not_mem_nil,
              or_false] at hp ⊢
            tauto)
          hperm2 (by simp)
        obtain ⟨cyc, hrot, a', ha', htr⟩ := hres
        rw [hst]
        refine ⟨cyc, hrot.trans ?_, a', ha', by simpa using htr⟩
        refine ⟨1, ?_⟩
        simp [List.rotate_cons_succ]
      | cons q2 qs2' =>
        have haq : a ∈ q2 :: qs2' := by
          have e : qs1' ++ [u'] ++ v :: q2 :: qs2' = (qs1' ++ [u', v]) ++ (q2 :: qs2') := by simp
          rw [e, List.getLast?_append_of_ne_nil _ (List.cons_ne_nil _ _)] at hqs
          exact List.mem_of_getLast?_eq_some hqs
        have hua : u' ≠ a := by
          intro h; rw [List.nodup_cons] at hnd3
          exact hnd3.1 (h ▸ List.mem_cons_of_mem _ haq)
        have hva : v ≠ a := by
          intro h
          have := (List.nodup_cons.1 (List.nodup_cons.1 hnd3).2).1
          exact this (h ▸ haq)
        have hau : ¬ distTwoPoints m st.get_S0 u' ≤ snap := by
          rw [hst]; intro h; exact hua ((hdec a haW u' huW).1 h).symm
        have hav : ¬ distTwoPoints m st.get_S0 v ≤ snap := by
          rw [hst]; intro h; exact hva ((hdec a haW v hvW).1 h).symm
        rw [trace_scan_skip m snap st tail scanned (us ++ rest) nx b u' v hen hnx hbu hbv hau hav]
        have hub : u' ≠ b := fun h => hdisj b hbps u' huqs h.symm
        have hvb : v ≠ b := fun h => hdisj b hbps v hvqs h.symm
        have hN2 : (scanned ++ [nx]).length + us.length = N := by
          simp only [List.length_append, List.length_cons, List.length_nil] at hN ⊢
          omega
        refine ih (scanned ++ [nx]) a b ps _ st tail hN2 hpath hps hqs hnd hW
          (by simpa using hperm) ?_
        intro x hx
        rw [List.mem_append, List.mem_singleton] at hx
        rcases hx with hx | rfl
        · exact hsc x hx
        · rcases hnx with rfl | rfl
          · rw [ofPoints_get_S0, ofPoints_get_S1]; exact ⟨hub, hvb⟩
          · rw [ofPoints_get_S0, ofPoints_get_S1]; exact ⟨hvb, hub⟩


theorem trace_scan_polygon (m : Libm K) (snap : K) (W : List (coord_t K))
    (hdec : ∀ p ∈ W, ∀ q ∈ W, (distTwoPoints m p q ≤ snap ↔ p = q)) :
    ∀ (N : Nat) (unscanned scanned : List (line K)) (a b : coord_t K)
      (ps qs : List (coord_t K)) (st : line K) (tail : List (line K)),
      scanned.length + unscanned.length = N →
      pathOf a ps = st :: tail → ps.getLast? = some b → qs.getLast? = some a →
      (ps ++ qs).Nodup → (∀ p ∈ ps ++ qs, p ∈ W) →
      ((scanned ++ unscanned).map endsKey).Perm ((pathOf b qs).map endsKey) →
      (∀ x ∈ scanned, x.get_S0 ≠ b ∧ x.get_S1 ≠ b) →
      ∃ cyc : List (coord_t K), cyc.IsRotated (ps ++ qs) ∧ ∃ a', cyc.getLast? = some a' ∧
        trace_scan m snap st tail scanned unscanned = (true, pathOf a' cyc, []) := by
  intro N unscanned scanned a b ps qs st tail h1 h2 h3 h4 h5 h6 h7 h8
  have h := trace_scan_polygon_rest m snap W hdec [] N unscanned scanned a b ps qs st tail
    h1 h2 h3 h4 h5 h6 h7 h8
  simpa using h

theorem pathOf_eq_polygon (a : coord_t K) (cyc : List (coord_t K)) (h : cyc.getLast? = some a) :
    ∃ ws : List (coord_t K), ws.IsRotated cyc ∧ pathOf a cyc = polygon ws := by
  obtain ⟨ini, rfl⟩ := List.getLast?_eq_some_iff.1 h
  refine ⟨a :: ini, ⟨1, by simp [List.rotate_cons_succ]⟩, rfl⟩

theorem trace_a_path_polygon_rest (m : Libm K) (snap : K) (ws : List (coord_t K))
    (hdec : ∀ p ∈ ws, ∀ q ∈ ws, (distTwoPoints m p q ≤ snap ↔ p = q))
    (hnd : ws.Nodup) (h2 : 2 ≤ ws.length) (st : line K) (r : List (line K))
    (hkeys : ((st :: r).map endsKey).Perm ((polygon ws).map endsKey))
    (hst : st ∈ polygon ws) (tl : List (line K)) :
    ∃ ws1 : List (coord_t K), ws1.IsRotated ws ∧
      trace_a_path m snap (st :: (r ++ tl)) = (true, polygon ws1, tl) := by
  cases ws with
  | nil => simp at h2
  | cons w0 rest =>
    simp only [polygon] at hst hkeys
    obtain ⟨qs1, u, v, qs2, hq, hu, rfl⟩ := mem_pathOf w0 _ _ hst
    have hlast : (qs1 ++ v :: qs2).getLast? = some w0 := by rw [← hq]; simp
    have hv : (v :: qs2).getLast? = some w0 := by
      rw [List.getLast?_append_of_ne_nil _ (List.cons_ne_nil _ _)] at hlast; exact hlast
    have hrot : (v :: (qs2 ++ qs1)).IsRotated (w0 :: rest) := by
      have h1 : (v :: (qs2 ++ qs1)).IsRotated (qs1 ++ v :: qs2) := by
        have := @List.isRotated_append _ (v :: qs2) qs1
        simpa using this
      have h2 : (rest ++ [w0]).IsRotated (w0 :: rest) :=
        List.IsRotated.symm ⟨1, by simp [List.rotate_cons_succ]⟩
      rw [← hq] at h1
      exact h1.trans h2
    have hlen : (v :: (qs2 ++ qs1)).length = (w0 :: rest).length := hrot.perm.length_eq
    have hqs : (qs2 ++ qs1).getLast? = some u := by
      rcases List.eq_nil_or_concat qs1 with rfl | ⟨qs1', u', rfl⟩
      · simp only [List.getLast?_singleton, Option.some.injEq] at hu
        subst hu
        cases qs2 with
        | nil =>
          simp only [List.length_cons, List.length_append, List.length_nil] at hlen h2
          omega
        | cons q2 qs2' =>
          rw [List.getLast?_cons_cons] at hv
          simpa using hv
      · rw [List.concat_eq_append] at hu ⊢
        rw [getLast_cons_of_some w0 u' (qs1' ++ [u']) (by simp)] at hu
        rw [← List.append_assoc, List.getLast?_concat]
        exact hu
    have hpoly : pathOf w0 (rest ++ [w0]) =
        pathOf w0 qs1 ++ line.ofPoints u v :: pathOf v qs2 := by
      rw [hq, pathOf_append w0 qs1 (v :: qs2) u hu, pathOf]
    have hpool : pathOf v (qs2 ++ qs1) = pathOf v qs2 ++ pathOf w0 qs1 :=
      pathOf_append v qs2 qs1 w0 hv
    have hperm : (([] ++ r).map endsKey).Perm ((pathOf v (qs2 ++ qs1)).map endsKey) := by
      rw [hpool, List.nil_append, List.map_append]
      rw [hpoly, List.map_append, List.map_cons, List.map_cons] at hkeys
      have := (List.perm_middle.symm.trans hkeys.symm).cons_inv
      exact this.symm.trans List.perm_append_comm
    obtain ⟨cyc, hcr, a', ha', htr⟩ := trace_scan_polygon_rest m snap (w0 :: rest) hdec tl r.length r []
      u v [v] (qs2 ++ qs1) (line.ofPoints u v) [] (by simp) (by simp [pathOf]) (by simp) hqs
      (by simpa using hrot.nodup_iff.2 hnd)
      (by intro p hp; exact hrot.perm.subset (by simpa using hp)) hperm (by simp)
    obtain ⟨ws1, hw1, hw2⟩ := pathOf_eq_polygon a' cyc ha'
    refine ⟨ws1, hw1.trans (hcr.trans (by simpa using hrot)), ?_⟩
    rw [trace_a_path, htr, hw2]

theorem trace_a_path_polygon (m : Libm K) (snap : K) (ws : List (coord_t K))
    (hdec : ∀ p ∈ ws, ∀ q ∈ ws, (distTwoPoints m p q ≤ snap ↔ p = q))
    (hnd : ws.Nodup) (h2 : 2 ≤ ws.length) (st : line K) (r : List (line K))
    (hkeys : ((st :: r).map endsKey).Perm ((polygon ws).map endsKey))
    (hst : st ∈ polygon ws) :
    ∃ ws1 : List (coord_t K), ws1.IsRotated ws ∧
      trace_a_path m snap (st :: r) = (true, polygon ws1, []) := by
  have h := trace_a_path_polygon_rest m snap ws hdec hnd h2 st r hkeys hst []
  simpa using h

theorem line_reverse_reverse (l : line K) : l.reverse.reverse = l := by
  obtain ⟨⟨a, b⟩, ⟨c, d⟩⟩ := l
  simp [line.reverse, line.get_S1, line.get_pt, T_S1]

theorem revPath_revPath (L : List (line K)) : revPath (revPath L) = L := by
  simp only [revPath, List.map_reverse, List.reverse_reverse, List.map_map]
  have : (line.reverse ∘ line.reverse : line K → line K) = id := by
    funext l; exact line_reverse_reverse l
  rw [this, List.map_id]

theorem revPath_rotated (L M : List (line K)) (h : L.IsRotated M) :
    (revPath L).IsRotated (revPath M) :=
  (h.map _).reverse

theorem revPath_keys (L : List (line K)) :
    ((revPath L).map endsKey).Perm (L.map endsKey) := by
  have : (endsKey ∘ line.reverse : line K → _) = endsKey := by
    funext l; exact endsKey_reverse l
  simp only [revPath, List.map_reverse, List.map_map, this]
  exact List.reverse_perm _

theorem revPath_pathOf (a : coord_t K) (ps : List (coord_t K)) (b : coord_t K)
    (hb : (a :: ps).getLast? = some b) :
    revPath (pathOf a ps) = pathOf b ((a :: ps).reverse.tail) := by
  induction ps generalizing a with
  | nil =>
    simp at hb
    subst hb
    simp [revPath, pathOf]
  | cons p ps ih =>
    rw [List.getLast?_cons_cons] at hb
    have h1 := ih p hb
    have hr : (p :: ps).reverse = b :: (p :: ps).reverse.tail := by
      have : (p :: ps).reverse.head? = some b := by rw [List.head?_reverse]; exact hb
      cases hrr : (p :: ps).reverse with
      | nil => simp at hrr
      | cons x xs => rw [hrr] at this; simp at this; simp [this]
    have h2 : (a :: p :: ps).reverse.tail = (p :: ps).reverse.tail ++ [a] := by
      rw [List.reverse_cons (a := a), hr]; simp
    have h3 : (b :: (p :: ps).reverse.tail).getLast? = some p := by
      rw [← hr]; simp
    rw [h2, pathOf_append b _ [a] p h3, ← h1]
    simp [revPath, pathOf, reverse_ofPoints]

theorem polygon_reverse (v0 : coord_t K) (rest : List (coord_t K)) :
    revPath (polygon (v0 :: rest)) = polygon (v0 :: rest.reverse) := by
  rw [polygon, revPath_pathOf v0 (rest ++ [v0]) v0 (getLast_cons_of_some _ _ _ (by simp))]
  simp [polygon]

theorem polygon_rotate_one (vs : List (coord_t K)) :
    polygon (vs.rotate 1) = (polygon vs).rotate 1 := by
  cases vs with
  | nil => simp [polygon]
  | cons a rest =>
    cases rest with
    | nil => simp [polygon, pathOf]
    | cons r0 rest =>
      simp only [List.rotate_cons_succ, List.rotate_zero, polygon, pathOf, List.cons_append]
      rw [pathOf_append r0 (rest ++ [a]) [r0] a (getLast_cons_of_some _ _ _ (by simp))]
      simp [pathOf]

theorem polygon_rotated (ws vs : List (coord_t K)) (h : ws.IsRotated vs) :
    (polygon ws).IsRotated (polygon vs) := by
  obtain ⟨n, rfl⟩ := h
  induction n with
  | zero => rw [List.rotate_zero]
  | succ n ih =>
    rw [← List.rotate_rotate, polygon_rotate_one]
    exact ih.trans ⟨1, rfl⟩

theorem linSum_concat {α : Type} (f : α → α → K) (M : List α) (z y : α) :
    linSum f (M ++ [z, y]) = linSum f (M ++ [z]) + f z y := by
  induction M with
  | nil => simp [linSum]
  | cons x M ih =>
    cases M with
    | nil => simp [linSum]
    | cons x2 M2 =>
      simp only [List.cons_append, linSum, List.append_eq] at ih ⊢
      rw [ih]; ring

theorem linSum_cycle {α : Type} (f : α → α → K) (x : α) (xs : List α) :
    linSum f ((x :: xs).getLast (List.cons_ne_nil _ _) :: x :: xs) =
      linSum f (x :: xs ++ [x]) := by
  rcases List.eq_nil_or_concat xs with rfl | ⟨ys, z, rfl⟩
  · simp [linSum]
  · rw [List.concat_eq_append]
    have h1 : (x :: (ys ++ [z])).getLast (List.cons_ne_nil _ _) = z := by simp
    rw [h1]
    have h2 : x :: (ys ++ [z]) ++ [x] = (x :: ys) ++ [z, x] := by simp
    rw [h2, linSum_concat, linSum]
    simp only [List.cons_append]
    ring

theorem linSum_revPath (f : line K → line K → K) (M : List (line K)) :
    linSum f (revPath M) = linSum (fun u v => f v.reverse u.reverse) M := by
  induction M with
  | nil => simp [revPath, linSum]
  | cons x M ih =>
    cases M with
    | nil => simp [revPath, linSum]
    | cons y r =>
      have h1 : revPath (x :: y :: r) = revPath r ++ [y.reverse, x.reverse] := by
        simp [revPath]
      have h2 : revPath (y :: r) = revPath r ++ [y.reverse] := by simp [revPath]
      rw [h1, linSum_concat, ← h2, ih, linSum]
      ring

theorem linSum_neg {α : Type} (f g : α → α → K) (R : α → α → Prop)
    (h : ∀ u v, R u v → g u v = -f u v) (M : List α) (hM : List.Chain' R M) :
    linSum g M = -linSum f M := by
  induction M with
  | nil => simp [linSum]
  | cons x M ih =>
    cases M with
    | nil => simp [linSum]
    | cons y r =>
      rw [List.chain'_cons] at hM
      rw [linSum, linSum, ih hM.2, h x y hM.1]
      ring

theorem is_clockwise_loop_sum (m : Libm K) :
    ∀ (L : List (line K)) (acc : K) (pn : Int) (prv : line K),
      (∀ l ∈ L, 0 < l.len m) → 0 < prv.len m →
      (is_clockwise_loop m L acc pn prv).1 = acc + linSum (turnAngle m) (prv :: L) := by
  intro L
  induction L with
  | nil => intro acc pn prv _ _; simp [is_clockwise_loop, linSum]
  | cons x L ih =>
    intro acc pn prv hL hp
    have hx := hL x (List.mem_cons_self _ _)
    rw [is_clockwise_loop, if_pos ⟨hp, hx⟩]
    simp only []
    rw [ih _ _ _ (fun l hl => hL l (List.mem_cons_of_mem _ hl)) hx, linSum, turnAngle]
    ring

theorem turning_eq (m : Libm K) (x : line K) (xs : List (line K))
    (hL : ∀ l ∈ x :: xs, 0 < l.len m) :
    turning m (x :: xs) =
      linSum (turnAngle m) ((x :: xs).getLast (List.cons_ne_nil _ _) :: x :: xs) := by
  rw [turning, is_clockwise_loop_sum m _ _ _ _ hL (hL _ (List.getLast_mem _))]
  simp

theorem turning_rotate_one (m : Libm K) (L : List (line K)) (hL : ∀ l ∈ L, 0 < l.len m) :
    turning m (L.rotate 1) = turning m L := by
  cases L with
  | nil => simp
  | cons x xs =>
    cases xs with
    | nil => simp
    | cons y r =>
      have h1 : (x :: y :: r).rotate 1 = y :: (r ++ [x]) := by simp [List.rotate_cons_succ]
      rw [h1, turning_eq m _ _ hL, turning_eq m y (r ++ [x]) (by
        intro l hl; apply hL
        simp only [List.mem_cons, List.mem_append, List.mem_singleton, List.not_mem_nil,
          or_false] at hl ⊢
        tauto), linSum_cycle, linSum_cycle]
      have h2 : y :: (r ++ [x]) ++ [y] = (y :: r) ++ [x, y] := by simp
      rw [h2, linSum_concat]
      simp only [List.cons_append, linSum, List.append_eq]
      ring

theorem turning_rotated (m : Libm K) (L M : List (line K)) (h : L.IsRotated M)
    (hL : ∀ l ∈ L, 0 < l.len m) : turning m M = turning m L := by
  obtain ⟨n, rfl⟩ := h
  induction n with
  | zero => rw [List.rotate_zero]
  | succ n ih =>
    rw [← List.rotate_rotate, turning_rotate_one m _ (fun l hl => hL l (List.mem_rotate.1 hl)), ih]

end PolygonTrace

section PolygonTurning

theorem turning_eq_getLast {K : Type} [LinearOrderedField K] (m : Libm K) (L : List (line K))
    (hne : L ≠ []) (hL : ∀ l ∈ L, 0 < l.len m) :
    turning m L = linSum (turnAngle m) (L.getLast hne :: L) := by
  cases L with
  | nil => exact absurd rfl hne
  | cons x xs => exact turning_eq m x xs hL

theorem line_len_reverse {K : Type} [LinearOrderedField K] (m : Libm K) (l : line K) :
    l.reverse.len m = l.len m := by
  simp [line.len, line.reverse]

theorem turnAngle_reverse (m : Libm ℝ) (hm : m.IsReal) (u v : line ℝ) (h : ¬ DoublesBack u v) :
    turnAngle m v.reverse u.reverse = -turnAngle m u v := by
  simp only [turnAngle, hm.2.1, line.get_V, line.reverse]
  have e1 : perpprod (⟨-v.V.dx, -v.V.dy⟩ : vector_t ℝ) ⟨-u.V.dx, -u.V.dy⟩ = -perpprod u.V v.V := by
    simp only [perpprod, perpprodRaw]; ring
  have e2 : dotprod (⟨-v.V.dx, -v.V.dy⟩ : vector_t ℝ) ⟨-u.V.dx, -u.V.dy⟩ = dotprod u.V v.V := by
    simp only [dotprod, dotprodRaw]; ring
  rw [e1, e2]
  have e3 : (⟨dotprod u.V v.V, -perpprod u.V v.V⟩ : ℂ) =
      (starRingEnd ℂ) ⟨dotprod u.V v.V, perpprod u.V v.V⟩ := by
    apply Complex.ext <;> simp
  rw [e3, Complex.arg_conj, if_neg]
  intro hpi
  rw [Complex.arg_eq_pi_iff] at hpi
  exact h ⟨hpi.2, hpi.1⟩

theorem turning_revPath (m : Libm ℝ) (hm : m.IsReal) (L : List (line ℝ))
    (hL : ∀ l ∈ L, 0 < l.len m) (hs : NoSpike L) :
    turning m (revPath L) = -turning m L := by
  cases L with
  | nil => simp [revPath, turning]
  | cons x xs =>
    have hne : revPath (x :: xs) ≠ [] := by simp [revPath]
    have hpos : ∀ l ∈ revPath (x :: xs), 0 < l.len m := by
      intro l hl
      simp only [revPath, List.mem_reverse, List.mem_map] at hl
      obtain ⟨l', hl', rfl⟩ := hl
      rw [line_len_reverse]; exact hL l' hl'
    have hlast : (revPath (x :: xs)).getLast hne = x.reverse := by
      simp [revPath]
    have hcat : x.reverse :: revPath (x :: xs) = revPath (x :: xs ++ [x]) := by
      simp [revPath]
    rw [turning_eq_getLast m _ hne hpos, hlast, hcat, linSum_revPath, ← linSum_cycle,
      turning_eq m x xs hL]
    exact linSum_neg (turnAngle m) _ (fun u v => ¬ DoublesBack u v)
      (fun u v h => turnAngle_reverse m hm u v h) _ hs

theorem pathOf_length {K : Type} [LinearOrderedField K] (a : coord_t K) (ps : List (coord_t K)) :
    (pathOf a ps).length = ps.length := by
  induction ps generalizing a with
  | nil => rfl
  | cons p ps ih => simp [pathOf, ih]

theorem polygon_length {K : Type} [LinearOrderedField K] (vs : List (coord_t K)) :
    (polygon vs).length = vs.length := by
  cases vs with
  | nil => rfl
  | cons a rest => simp [polygon, pathOf_length]

theorem pathOf_S0 {K : Type} [LinearOrderedField K] (a : coord_t K) (ps : List (coord_t K)) :
    (pathOf a ps).map line.get_S0 = (a :: ps).dropLast := by
  induction ps generalizing a with
  | nil => rfl
  | cons p ps ih => simp [pathOf, ih, ofPoints_get_S0]

theorem polygon_S0 {K : Type} [LinearOrderedField K] (vs : List (coord_t K)) :
    (polygon vs).map line.get_S0 = vs := by
  cases vs with
  | nil => rfl
  | cons a rest =>
    rw [polygon, pathOf_S0]
    have : a :: (rest ++ [a]) = (a :: rest) ++ [a] := rfl
    rw [this, List.dropLast_concat]

theorem distTwoPoints_comm (m : Libm ℝ) (p q : coord_t ℝ) :
    distTwoPoints m p q = distTwoPoints m q p := by
  simp only [distTwoPoints]
  congr 1
  ring

theorem distTwoPoints_self (m : Libm ℝ) (hm : m.IsReal) (p : coord_t ℝ) : distTwoPoints m p p = 0 := by
  simp [distTwoPoints, hm.1]

theorem len_ofPoints (m : Libm ℝ) (p q : coord_t ℝ) :
    (line.ofPoints p q).len m = distTwoPoints m q p := rfl

theorem sep_decides (m : Libm ℝ) (hm : m.IsReal) (snap : ℝ) (hsnap : 0 ≤ snap)
    (vs : List (coord_t ℝ)) (hsep : vs.Pairwise (fun p q => snap < distTwoPoints m p q)) :
    ∀ p ∈ vs, ∀ q ∈ vs, (distTwoPoints m p q ≤ snap ↔ p = q) := by
  intro p hp q hq
  constructor
  · intro h
    by_contra hne
    have := List.Pairwise.forall (fun a b hab => by rw [distTwoPoints_comm]; exact hab) hsep hp hq hne
    exact absurd h (not_le.2 this)
  · rintro rfl
    rw [distTwoPoints_self m hm]; exact hsnap

theorem sep_nodup (m : Libm ℝ) (hm : m.IsReal) (snap : ℝ) (hsnap : 0 ≤ snap)
    (vs : List (coord_t ℝ)) (hsep : vs.Pairwise (fun p q => snap < distTwoPoints m p q)) :
    vs.Nodup := by
  refine List.Pairwise.imp ?_ hsep
  intro a b h hab
  subst hab
  rw [distTwoPoints_self m hm] at h
  exact absurd h (not_lt.2 hsnap)

theorem pathOf_pos (m : Libm ℝ) (snap : ℝ) (hsnap : 0 ≤ snap) (a : coord_t ℝ)
    (ps : List (coord_t ℝ))
    (hsep : (a :: ps).Pairwise (fun p q => snap < distTwoPoints m p q)) :
    ∀ l ∈ pathOf a ps, 0 < l.len m := by
  induction ps generalizing a with
  | nil => intro l hl; simp [pathOf] at hl
  | cons p ps ih =>
    intro l hl
    rw [List.pairwise_cons] at hsep
    simp only [pathOf, List.mem_cons] at hl
    rcases hl with rfl | hl
    · rw [len_ofPoints, distTwoPoints_comm]
      exact lt_of_le_of_lt hsnap (hsep.1 p (List.mem_cons_self _ _))
    · exact ih p hsep.2 l hl

theorem polygon_pos (m : Libm ℝ) (snap : ℝ) (hsnap : 0 ≤ snap) (vs : List (coord_t ℝ))
    (h2 : 2 ≤ vs.length) (hsep : vs.Pairwise (fun p q => snap < distTwoPoints m p q)) :
    ∀ l ∈ polygon vs, 0 < l.len m := by
  cases vs with
  | nil => simp at h2
  | cons a rest =>
    obtain ⟨ini, z, rfl⟩ : ∃ ini z, rest = ini ++ [z] := by
      rcases List.eq_nil_or_concat rest with rfl | ⟨ini, z, h⟩
      · simp at h2
      · exact ⟨ini, z, by rw [h, List.concat_eq_append]⟩
    rw [polygon, pathOf_append a (ini ++ [z]) [a] z (getLast_cons_of_some _ _ _ (by simp))]
    intro l hl
    rw [List.mem_append] at hl
    rcases hl with hl | hl
    · exact pathOf_pos m snap hsnap a _ hsep l hl
    · simp only [pathOf, List.mem_singleton] at hl
      subst hl
      rw [len_ofPoints]
      rw [List.pairwise_cons] at hsep
      exact lt_of_le_of_lt hsnap (hsep.1 z (by simp))

theorem flip_rotated {α : Type} (w0 : α) (rest : List α) :
    (w0 :: rest.reverse).IsRotated (w0 :: rest).reverse := by
  refine ⟨1, ?_⟩
  simp [List.rotate_cons_succ]

theorem revPath_polygon_rotated {K : Type} [LinearOrderedField K] (vs : List (coord_t K)) :
    (revPath (polygon vs)).IsRotated (polygon vs.reverse) := by
  cases vs with
  | nil => simp [polygon, revPath]
  | cons v0 rest =>
    rw [polygon_reverse]
    exact polygon_rotated _ _ (flip_rotated v0 rest)

theorem revPath_pos {K : Type} [LinearOrderedField K] (m : Libm K) (L : List (line K))
    (hL : ∀ l ∈ L, 0 < l.len m) : ∀ l ∈ revPath L, 0 < l.len m := by
  intro l hl
  simp only [revPath, List.mem_reverse, List.mem_map] at hl
  obtain ⟨l', hl', rfl⟩ := hl
  rw [line_len_reverse]; exact hL l' hl'

theorem trace_scrambled {K : Type} [LinearOrderedField K] (m : Libm K) (snap : K)
    (ws : List (coord_t K))
    (hdec : ∀ p ∈ ws, ∀ q ∈ ws, (distTwoPoints m p q ≤ snap ↔ p = q))
    (hnd : ws.Nodup) (h2 : 2 ≤ ws.length) (st : line K) (r : List (line K))
    (hkeys : ((st :: r).map endsKey).Perm ((polygon ws).map endsKey)) :
    ∃ ws1 : List (coord_t K), (ws1.IsRotated ws ∨ ws1.IsRotated ws.reverse) ∧
      trace_a_path m snap (st :: r) = (true, polygon ws1, []) := by
  have hmem : endsKey st ∈ (polygon ws).map endsKey :=
    hkeys.subset (List.mem_map_of_mem _ (List.mem_cons_self _ _))
  obtain ⟨c, hc, hck⟩ := List.mem_map.1 hmem
  have hst := eq_ofPoints_of_endsKey st c.S0 c.get_S1 hck.symm
  rw [ofPoints_self, ← reverse_ofPoints, ofPoints_self] at hst
  rcases hst with rfl | rfl
  · obtain ⟨ws1, h1, h2⟩ := trace_a_path_polygon m snap ws hdec hnd h2 st r hkeys hc
    exact ⟨ws1, Or.inl h1, h2⟩
  · cases ws with
    | nil => simp at h2
    | cons w0 rest =>
      have hperm : (w0 :: rest.reverse).Perm (w0 :: rest) :=
        List.Perm.cons _ (List.reverse_perm _)
      have hin : c.reverse ∈ polygon (w0 :: rest.reverse) := by
        rw [← polygon_reverse, revPath, List.mem_reverse]
        exact List.mem_map_of_mem _ hc
      have hk2 : ((c.reverse :: r).map endsKey).Perm
          ((polygon (w0 :: rest.reverse)).map endsKey) := by
        rw [← polygon_reverse]
        exact hkeys.trans (revPath_keys _).symm
      obtain ⟨ws1, h1, h3⟩ := trace_a_path_polygon m snap (w0 :: rest.reverse)
        (fun p hp q hq => hdec p (hperm.subset hp) q (hperm.subset hq))
        (hperm.nodup_iff.2 hnd) (by rw [hperm.length_eq]; exact h2) c.reverse r hk2 hin
      exact ⟨ws1, Or.inr (h1.trans (flip_rotated w0 rest)), h3⟩

theorem polygon_good (m : Libm ℝ) (hm : m.IsReal) (snap : ℝ) (hsnap : 0 ≤ snap)
    (vs : List (coord_t ℝ)) (h2 : 2 ≤ vs.length)
    (hsep : vs.Pairwise (fun p q => snap < distTwoPoints m p q))
    (hspike : NoSpike (polygon vs)) (ws : List (coord_t ℝ))
    (hg : ws.IsRotated vs ∨ ws.IsRotated vs.reverse) :
    ws.Pairwise (fun p q => snap < distTwoPoints m p q) ∧ 2 ≤ ws.length ∧
      |turning m (polygon ws)| = |turning m (polygon vs)| ∧
      turning m (revPath (polygon ws)) = -turning m (polygon ws) := by
  have hperm : ws.Perm vs := by
    rcases hg with h | h
    · exact h.perm
    · exact h.perm.trans (List.reverse_perm _)
  have hsepw : ws.Pairwise (fun p q => snap < distTwoPoints m p q) :=
    (List.Perm.pairwise_iff (fun {a b} hab => by rw [distTwoPoints_comm]; exact hab) hperm).2 hsep
  have h2w : 2 ≤ ws.length := by rw [hperm.length_eq]; exact h2
  have hposv := polygon_pos m snap hsnap vs h2 hsep
  have hposw := polygon_pos m snap hsnap ws h2w hsepw
  have hT2 := turning_revPath m hm (polygon vs) hposv hspike
  refine ⟨hsepw, h2w, ?_, ?_⟩
  · rcases hg with h | h
    · rw [← turning_rotated m _ _ (polygon_rotated _ _ h) hposw]
    · have h1 := (polygon_rotated _ _ h).trans (revPath_polygon_rotated vs).symm
      rw [← turning_rotated m _ _ h1 hposw, hT2, abs_neg]
  · rcases hg with h | h
    · have h1 := revPath_rotated _ _ (polygon_rotated _ _ h)
      rw [← turning_rotated m _ _ (polygon_rotated _ _ h) hposw,
        ← turning_rotated m _ _ h1 (revPath_pos m _ hposw), hT2]
    · have h1 := (polygon_rotated _ _ h).trans (revPath_polygon_rotated vs).symm
      have h3 := revPath_rotated _ _ h1
      rw [revPath_revPath] at h3
      rw [← turning_rotated m _ _ h1 hposw, ← turning_rotated m _ _ h3 (revPath_pos m _ hposw),
        hT2, neg_neg]

theorem make_path_loop_nil {K : Type} [LinearOrderedField K] (m : Libm K) (snaplen : K)
    (listPaths keepOpens : Bool) (n : Nat) (done : List (line K)) (closed opened : List (obj K)) :
    make_path_loop m snaplen listPaths keepOpens n done [] closed opened =
      .ok (done, closed, opened) := by
  cases n <;> simp [make_path_loop]

theorem trace_a_path_polygon_rev_rest {K : Type} [LinearOrderedField K] (m : Libm K) (snap : K)
    (ws : List (coord_t K))
    (hdec : ∀ p ∈ ws, ∀ q ∈ ws, (distTwoPoints m p q ≤ snap ↔ p = q))
    (hnd : ws.Nodup) (h2 : 2 ≤ ws.length) (st : line K) (r : List (line K))
    (hkeys : ((st :: r).map endsKey).Perm ((polygon ws).map endsKey))
    (hst : st ∈ revPath (polygon ws)) (tl : List (line K)) :
    ∃ ws1 : List (coord_t K), ws1.IsRotated ws.reverse ∧
      trace_a_path m snap (st :: (r ++ tl)) = (true, polygon ws1, tl) := by
  cases ws with
  | nil => simp at h2
  | cons w0 rest =>
    have hperm : (w0 :: rest.reverse).Perm (w0 :: rest) :=
      List.Perm.cons _ (List.reverse_perm _)
    rw [polygon_reverse] at hst
    have hk2 : ((st :: r).map endsKey).Perm ((polygon (w0 :: rest.reverse)).map endsKey) := by
      rw [← polygon_reverse]
      exact hkeys.trans (revPath_keys _).symm
    obtain ⟨ws1, h1, h3⟩ := trace_a_path_polygon_rest m snap (w0 :: rest.reverse)
      (fun p hp q hq => hdec p (hperm.subset hp) q (hperm.subset hq))
      (hperm.nodup_iff.2 hnd) (by rw [hperm.length_eq]; exact h2) st r hk2 hst tl
    exact ⟨ws1, h1.trans (flip_rotated w0 rest), h3⟩

theorem trace_a_path_polygon_rev {K : Type} [LinearOrderedField K] (m : Libm K) (snap : K)
    (ws : List (coord_t K))
    (hdec : ∀ p ∈ ws, ∀ q ∈ ws, (distTwoPoints m p q ≤ snap ↔ p = q))
    (hnd : ws.Nodup) (h2 : 2 ≤ ws.length) (st : line K) (r : List (line K))
    (hkeys : ((st :: r).map endsKey).Perm ((polygon ws).map endsKey))
    (hst : st ∈ revPath (polygon ws)) :
    ∃ ws1 : List (coord_t K), ws1.IsRotated ws.reverse ∧
      trace_a_path m snap (st :: r) = (true, polygon ws1, []) := by
  have h := trace_a_path_polygon_rev_rest m snap ws hdec hnd h2 st r hkeys hst []
  simpa using h

theorem in_band_pos (m : Libm ℝ) (hm : m.IsReal) (x : ℝ)
    (h : isEqualWithinPercentage (m.pi * 2) x 5 = true) : 0 < x := by
  have hpi := Real.pi_pos
  simp only [isEqualWithinPercentage, isEqualWithinMargin, hm.2.2.2.2, Bool.and_eq_true,
    decide_eq_true_eq] at h
  nlinarith [h.2]

theorem make_path_polygon_core (m : Libm ℝ) (hm : m.IsReal) (snap : ℝ) (hsnap : 0 ≤ snap)
    (vs : List (coord_t ℝ)) (h3 : 3 ≤ vs.length)
    (hsep : vs.Pairwise (fun p q => snap < distTwoPoints m p q))
    (hspike : NoSpike (polygon vs))
    (hturn : isEqualWithinPercentage (m.pi * 2) |turning m (polygon vs)| 5 = true)
    (e : obj ℝ) (he : Scrambled (polygon vs) e) :
    ∃ ws : List (coord_t ℝ), (ws.IsRotated vs ∨ ws.IsRotated vs.reverse) ∧
      (∀ listPaths keepOpens : Bool, make_path_full m snap listPaths keepOpens e [] [] =
        .ok (polygon ws, if listPaths then [polygon ws] else [], [])) ∧
      turning m (polygon ws) = -|turning m (polygon vs)| := by
  have hkeys := scrambled_keys _ _ he
  have hlen : e.length = vs.length := by
    have := hkeys.length_eq
    simpa [polygon_length] using this
  cases e with
  | nil => simp at hlen; omega
  | cons st r =>
    obtain ⟨ws1, hg1, htr1⟩ := trace_scrambled m snap vs (sep_decides m hm snap hsnap vs hsep)
      (sep_nodup m hm snap hsnap vs hsep) (by omega) st r hkeys
    obtain ⟨hsep1, h21, habs1, hrev1⟩ :=
      polygon_good m hm snap hsnap vs (by omega) hsep hspike ws1 hg1
    have hpl := polygon_length ws1
    cases hp : polygon ws1 with
    | nil => rw [hp] at hpl; simp at hpl; omega
    | cons p0 ps =>
      have hband : isEqualWithinPercentage (m.pi * 2) |turning m (p0 :: ps)| 5 = true := by
        rw [← hp, habs1]; exact hturn
      have hcw : is_clockwise m p0 ps = decide (turning m (p0 :: ps) < 0) := by
        have := hband
        simp only [turning] at this
        simp only [is_clockwise, turning, this, if_true]
      have hmp : ∀ listPaths keepOpens : Bool,
          make_path_full m snap listPaths keepOpens (st :: r) [] [] =
            make_path_loop m snap listPaths keepOpens (r.length + 1) [] (st :: r) [] [] :=
        fun _ _ => rfl
      rw [hp] at htr1
      by_cases hneg : turning m (p0 :: ps) < 0
      · refine ⟨ws1, hg1, ?_, ?_⟩
        · intro listPaths keepOpens
          rw [hmp, make_path_loop_closed m snap listPaths keepOpens _ [] st r [] [] p0 ps []
            htr1 (by rw [hcw]; exact decide_eq_true hneg), make_path_loop_nil, hp]
          simp
        · rw [← habs1, hp, abs_of_neg hneg, neg_neg]
      · have hk2 : (((p0 :: ps).map line.reverse ++ []).map endsKey).Perm
            ((polygon ws1).map endsKey) := by
          have : (endsKey ∘ line.reverse : line ℝ → _) = endsKey := by
            funext l; exact endsKey_reverse l
          rw [List.append_nil, List.map_map, this, hp]
        have hin : p0.reverse ∈ revPath (polygon ws1) := by
          rw [hp, revPath, List.mem_reverse]
          exact List.mem_map_of_mem _ (List.mem_cons_self _ _)
        obtain ⟨ws2, hg2, htr2⟩ := trace_a_path_polygon_rev m snap ws1
          (sep_decides m hm snap hsnap ws1 hsep1) (sep_nodup m hm snap hsnap ws1 hsep1) h21
          p0.reverse (ps.map line.reverse ++ []) (by simpa using hk2) hin
        have hg2' : ws2.IsRotated vs ∨ ws2.IsRotated vs.reverse := by
          rcases hg1 with h | h
          · exact Or.inr (hg2.trans h.reverse)
          · refine Or.inl (hg2.trans ?_)
            have := h.reverse
            rwa [List.reverse_reverse] at this
        obtain ⟨hsep2, h22, _, _⟩ :=
          polygon_good m hm snap hsnap vs (by omega) hsep hspike ws2 hg2'
        have hT : turning m (polygon ws2) = -turning m (p0 :: ps) := by
          have h1 := (polygon_rotated _ _ hg2).trans (revPath_polygon_rotated ws1).symm
          rw [← hp, ← hrev1]
          exact (turning_rotated m _ _ h1 (polygon_pos m snap hsnap ws2 h22 hsep2)).symm
        refine ⟨ws2, hg2', ?_, ?_⟩
        · intro listPaths keepOpens
          rw [hmp, make_path_loop_reversed m snap listPaths keepOpens _ [] st r [] [] p0 ps []
            (polygon ws2) [] htr1 (by rw [hcw]; exact decide_eq_false hneg)
            (by simpa using htr2), make_path_loop_nil]
          simp
        · rw [hT, ← habs1, hp, abs_of_nonneg (not_lt.1 hneg)]

theorem polygon_sliver : (sliverTriangle : obj ℝ) = polygon [⟨0, 0⟩, ⟨1, 0⟩, ⟨0, 1 / 20000⟩] := by
  simp [sliverTriangle, polygon, pathOf, line.ofPoints, segAB, sliverBC, sliverCA]

theorem trace_sliver (m : Libm ℝ) (hm : m.IsReal) :
    trace_a_path m SNAP_LEN (sliverTriangle : obj ℝ) = (true, [segAB, segBA], [sliverCA]) := by
  simp [sliverTriangle, trace_a_path, trace_scan, distTwoPoints, hm.1, Real.sqrt_le_iff, segAB,
    segBA, sliverBC, sliverCA,
    line.get_S1, line.get_S0, line.get_pt, line.reverse, line.ofPoints, T_S1, SNAP_LEN]
  norm_num

theorem trace_sliver_reversed (m : Libm ℝ) (hm : m.IsReal) :
    trace_a_path m SNAP_LEN (([segAB, segBA] : List (line ℝ)).map line.reverse ++ [sliverCA]) =
      (true, [segBA, segAB], [sliverCA]) := by
  simp [trace_a_path, trace_scan, distTwoPoints, hm.1, Real.sqrt_le_iff, segAB,
    segBA, sliverCA,
    line.get_S1, line.get_S0, line.get_pt, line.reverse, line.ofPoints, T_S1, SNAP_LEN]
  norm_num

theorem make_path_sliver (m : Libm ℝ) (hm : m.IsReal) :
    make_path_lists m SNAP_LEN (sliverTriangle : obj ℝ) [] [] =
      .ok ([segBA, segAB, sliverCA], [[segBA, segAB]], [[sliverCA]]) := by
  have h0 : make_path_lists m SNAP_LEN (sliverTriangle : obj ℝ) [] [] =
      make_path_loop m SNAP_LEN true true (2 + 1) [] (segAB :: [sliverBC, sliverCA]) [] [] := rfl
  rw [h0, make_path_loop_reversed m SNAP_LEN true true 2 [] segAB [sliverBC, sliverCA] [] []
    segAB [segBA] [sliverCA] [segBA, segAB] [sliverCA] (trace_sliver m hm) (cw_AB_BA m hm)
    (trace_sliver_reversed m hm)]
  rw [make_path_loop_keep m SNAP_LEN true 1 _ sliverCA [] _ _ [sliverCA] []
    (trace_single m SNAP_LEN sliverCA), make_path_loop_nil]
  simp

theorem polygon_unitSquare : polygon (unitSquareCorners : List (coord_t ℝ)) = unitSquare := by
  simp [unitSquareCorners, unitSquare, polygon, pathOf, line.ofPoints]

theorem square_sep (m : Libm ℝ) (hm : m.IsReal) :
    (unitSquareCorners : List (coord_t ℝ)).Pairwise
      (fun p q => SNAP_LEN < distTwoPoints m p q) := by
  simp only [unitSquareCorners, List.pairwise_cons, List.mem_cons, List.mem_singleton,
    List.not_mem_nil, or_false, forall_eq_or_imp, forall_eq, IsEmpty.forall_iff, implies_true,
    List.Pairwise.nil, and_true]
  refine ⟨⟨?_, ?_, ?_⟩, ⟨?_, ?_⟩, ?_⟩ <;>
    exact not_le.1 (dist_gt_of_coord m hm _ _ _ (by norm_num [SNAP_LEN]))

theorem square_noSpike : NoSpike (polygon (unitSquareCorners : List (coord_t ℝ))) := by
  rw [polygon_unitSquare]
  simp [NoSpike, unitSquare, DoublesBack, perpprod, perpprodRaw]

theorem square_turning (m : Libm ℝ) (hm : m.IsReal) :
    turning m (polygon (unitSquareCorners : List (coord_t ℝ))) = -(Real.pi * 2) := by
  rw [polygon_unitSquare]
  have hpi := Real.pi_pos
  have e1 : (⟨0, -1⟩ : ℂ).arg = -(Real.pi / 2) := arg_mk_zero_neg (by norm_num)
  have e2 : -(Real.pi / 2) + -(Real.pi / 2) + -(Real.pi / 2) + -(Real.pi / 2) = -(Real.pi * 2) := by
    ring
  simp [turning, unitSquare, is_clockwise_loop, line.len, hm.1, hm.2.1,
    perpprod, perpprodRaw, dotprod, dotprodRaw, line.get_V, e1, e2]

theorem square_in_band (m : Libm ℝ) (hm : m.IsReal) :
    isEqualWithinPercentage (m.pi * 2)
      |turning m (polygon (unitSquareCorners : List (coord_t ℝ)))| 5 = true := by
  rw [square_turning m hm, hm.2.2.2.2, abs_neg]
  exact within_two_pi

theorem square_scrambled :
    Scrambled (polygon (unitSquareCorners : List (coord_t ℝ))) scrambledSquare := by
  rw [polygon_unitSquare]
  refine ⟨[⟨⟨0, 1⟩, ⟨0, -1⟩⟩, ⟨⟨0, 1⟩, ⟨1, 0⟩⟩, ⟨⟨1, 1⟩, ⟨0, -1⟩⟩, ⟨⟨0, 0⟩, ⟨1, 0⟩⟩], ?_, ?_⟩
  · refine List.Forall₂.cons (Or.inr ?_) (List.Forall₂.cons (Or.inl rfl)
      (List.Forall₂.cons (Or.inl rfl) (List.Forall₂.cons (Or.inr ?_) List.Forall₂.nil)))
    · simp [line.reverse, line.get_S1, line.get_pt, T_S1]
    · simp [line.reverse, line.get_S1, line.get_pt, T_S1]
  · exact ((List.Perm.cons _ (List.Perm.swap _ _ _)).trans (List.Perm.swap _ _ _)).trans
      (List.Perm.cons _ (List.Perm.cons _ (List.Perm.swap _ _ _)))

end PolygonTurning

/-! ## LiteEngine::run -/

section Run

/-- The early return of `run`. -/
theorem run_abort {K : Type} [LinearOrderedField K] (S : Stages K) (m : Libm K) (g : LiteEngine K) (inObj r : obj K)
    (lighten notchDetect girder showConstruction anchorAtNotches hSplit vSplit : Bool)
    (hr : regularise m inObj = .ok r) (hlen : r.length ≤ 2) :
    run S m g inObj lighten notchDetect girder showConstruction anchorAtNotches hSplit vSplit =
      .ok (false, r, { g with inp := r }) := by
  simp only [run, hr, Res.bind, if_pos hlen, List.nil_append]

theorem run_girder_total {K : Type} (S : Stages K) (hS : S.Total) (a : Bool) (g : LiteEngine K) :
    ∃ g', run_girder S a g = .ok g' := by
  obtain ⟨-, -, -, -, h5, h6, h7, h8, h9, h10, -⟩ := hS
  obtain ⟨⟨b1, g1⟩, e1⟩ := h5 a g
  simp only [run_girder, e1, Res.bind]
  cases b1 with
  | false => exact ⟨_, rfl⟩
  | true =>
    obtain ⟨⟨b2, g2⟩, e2⟩ := h6 g1.progress
    simp only [if_true, e2, Res.bind]
    cases b2 with
    | false => exact ⟨_, rfl⟩
    | true =>
      obtain ⟨g3, e3⟩ := h7 g2.progress
      obtain ⟨g4, e4⟩ := h8 g3
      obtain ⟨g5, e5⟩ := h9 g4
      obtain ⟨g6, e6⟩ := h10 false g5
      obtain ⟨g7, e7⟩ := h10 true g6
      simp only [if_true, e3, e4, e5, e6, e7, Res.bind]
      exact ⟨_, rfl⟩

/-- Past the size check `run` returns true, whatever the stages report. -/
theorem run_true {K : Type} [LinearOrderedField K] (S : Stages K) (hS : S.Total) (m : Libm K) (g : LiteEngine K) (inObj r : obj K)
    (lighten notchDetect girder showConstruction anchorAtNotches hSplit vSplit : Bool)
    (hr : regularise m inObj = .ok r) (hlen : 2 < r.length) :
    ∃ out g', run S m g inObj lighten notchDetect girder showConstruction anchorAtNotches
      hSplit vSplit = .ok (true, out, g') := by
  have hS' := hS
  obtain ⟨h1, h2, h3, h4, -, -, -, -, -, -, h11, h12, h13, h14⟩ := hS'
  simp only [run, hr, Res.bind, if_neg (not_le.mpr hlen)]
  obtain ⟨g1, e1⟩ := h1 notchDetect { g with inp := r }
  simp only [e1]
  have s2 : ∃ g2, (if girder then S.createOuterRimInner g1.progress else .ok g1.progress) =
      .ok g2 := by
    cases girder
    · exact ⟨_, rfl⟩
    · exact h2 _
  obtain ⟨g2, e2⟩ := s2
  simp only [e2]
  have s3 : ∃ g3, (if lighten then
        (if girder then S.createInnerRimOuter g2.progress.ori g2.progress
          else S.createInnerRimOuter g2.progress.oro g2.progress)
      else .ok g2.progress) = .ok g3 := by
    cases lighten
    · exact ⟨_, rfl⟩
    · cases girder
      · exact h3 _ _
      · exact h3 _ _
  obtain ⟨g3, e3⟩ := s3
  simp only [e3]
  have s4 : ∃ g4, (if girder then S.createInnerRimInner g3.progress.iw g3.progress
      else S.createInnerRimInner 0 g3.progress) = .ok g4 := by
    cases girder
    · exact h4 _ _
    · exact h4 _ _
  obtain ⟨g4, e4⟩ := s4
  simp only [e4]
  have s5 : ∃ g5, (if girder then run_girder S anchorAtNotches g4.progress
      else .ok g4.progress) = .ok g5 := by
    cases girder
    · exact ⟨_, rfl⟩
    · exact run_girder_total S hS _ _
  obtain ⟨g5, e5⟩ := s5
  simp only [e5]
  cases girder
  · simp only [Bool.false_eq_true, if_false]
    have s6 : ∃ o, (if hSplit then
        S.simpleHsplit g5.progress.progress (g5.progress.oro ++ g5.progress.iri)
        else .ok (g5.progress.oro ++ g5.progress.iri)) = .ok o := by
      cases hSplit
      · exact ⟨_, rfl⟩
      · exact h13 _ _
    obtain ⟨o, e6⟩ := s6
    simp only [e6]
    have s7 : ∃ o', (if vSplit then S.simpleVsplit g5.progress.progress o else .ok o) =
        .ok o' := by
      cases vSplit
      · exact ⟨_, rfl⟩
      · exact h14 _ _
    obtain ⟨o', e7⟩ := s7
    simp only [e7]
    exact ⟨_, _, rfl⟩
  · simp only [if_true]
    have s6 : ∃ oi, (if hSplit then
        S.girderHsplit g5.progress.progress (g5.progress.oro ++ g5.progress.iri)
          (g5.progress.ori ++ g5.progress.iro ++ g5.progress.bro) g5.progress.progress.sp
        else .ok (g5.progress.oro ++ g5.progress.iri,
          g5.progress.ori ++ g5.progress.iro ++ g5.progress.bro)) = .ok oi := by
      cases hSplit
      · exact ⟨_, rfl⟩
      · exact h11 _ _ _ _
    obtain ⟨oi, e6⟩ := s6
    simp only [e6]
    have s7 : ∃ oi', (if vSplit then S.girderVsplit g5.progress.progress oi.1 oi.2
        else .ok oi) = .ok oi' := by
      cases vSplit
      · exact ⟨_, rfl⟩
      · exact h12 _ _ _
    obtain ⟨oi', e7⟩ := s7
    simp only [e7]
    exact ⟨_, _, rfl⟩

theorem failingAnchorStages_total {K : Type} [LinearOrderedField K] :
    (failingAnchorStages : Stages K).Total := by
  refine ⟨?_, ?_, ?_, ?_, ?_, ?_, ?_, ?_, ?_, ?_, ?_, ?_, ?_, ?_⟩ <;> intros <;> exact ⟨_, rfl⟩

/-- When anchor placement reports failure no brace stage is called. -/
theorem run_girder_anchor_failure {K : Type} [LinearOrderedField K] (S : Stages K) (a : Bool)
    (g g' : LiteEngine K) (h : S.generateAnchorPoints a g = .ok (false, g')) :
    run_girder S a g = .ok g'.progress := by
  simp [run_girder, h, Res.bind]

/-- The regularised unit square is the unit square. -/
theorem regularise_unitSquare (m : Libm ℝ) (hm : m.IsReal) :
    regularise m (unitSquare : obj ℝ) = .ok unitSquare := by
  have hN := normal_unitSquare m hm
  have hP := regularise_fixed m (dist_self_le_snap m hm) [(unitSquare : obj ℝ)]
    hN.1 hN.2.1 hN.2.2
  simpa using hP

end Run

/-! ## Claim on `regularise` -/

section RegulariseClaims

/-- C1 (as stated, refuted). `regularise` turns the doubled segment
`(0,0)-(1,0)`, `(1,0)-(0,0)` round at every call, so its second application
does not reproduce the first; and of the open path `(0,0)-(1,0)-(2,0)` with
the branch `(1,0)-(1,1)` the first call leaves two segments, of which a
second call deletes one more. -/
theorem regularise_not_idempotent :
    ∃ m : Libm ℝ, m.IsReal ∧
      (regularise m [segAB, segBA] = .ok [segBA, segAB] ∧
        regularise m [segBA, segAB] = .ok [segAB, segBA] ∧
        ([segAB, segBA] : obj ℝ) ≠ [segBA, segAB]) ∧
      (regularise m [segAB, segBC, segBD] = .ok [segBC, segBD] ∧
        regularise m [segBC, segBD] = .ok [segBC] ∧
        ([segBC] : obj ℝ) ≠ [segBC, segBD]) :=
  ⟨_, isReal_mk,
    ⟨regularise_AB_BA _ isReal_mk, regularise_BA_AB _ isReal_mk, by simp [segAB, segBA]⟩,
    ⟨regularise_T _ isReal_mk, regularise_BC_BD _ isReal_mk, by simp⟩⟩

/-- C1 (amended). For every path `P` whose regularised copy is made of closed
sub-paths in normal form (each exactly contiguous and closed, clockwise for
`is_clockwise`, every element after the first of its sub-path longer than
`SNAP_LEN` and, unless it is the last, ending farther than `SNAP_LEN` from the
start of the sub-path; no two elements identical, none shorter than
`SMALL_NUM`), `regularise(regularise(P))` has exactly the same segment list
as `regularise(P)`. -/
theorem regularise_idempotent_normal (m : Libm ℝ) (hm : m.IsReal) (P : obj ℝ)
    (loops : List (List (line ℝ))) (hP : regularise m P = .ok loops.flatten)
    (hN : NormalPath m loops) :
    regularise m loops.flatten = regularise m P := by
  rw [hP]
  exact regularise_fixed m (dist_self_le_snap m hm) loops hN.1 hN.2.1 hN.2.2

/-- Witness of C1 (amended): the clockwise unit square. -/
theorem regularise_idempotent_normal_witness :
    ∃ m : Libm ℝ, m.IsReal ∧
      regularise m (unitSquare : obj ℝ) = .ok [(unitSquare : obj ℝ)].flatten ∧
      NormalPath m [(unitSquare : obj ℝ)] ∧
      regularise m [(unitSquare : obj ℝ)].flatten = regularise m (unitSquare : obj ℝ) := by
  have hN := normal_unitSquare _ isReal_mk
  have hP := regularise_fixed _ (dist_self_le_snap _ isReal_mk) [(unitSquare : obj ℝ)]
    hN.1 hN.2.1 hN.2.2
  have hfl : [(unitSquare : obj ℝ)].flatten = unitSquare := by simp
  rw [hfl] at hP
  refine ⟨_, isReal_mk, ?_, hN, ?_⟩
  · rw [hfl]; exact hP
  · exact regularise_idempotent_normal _ isReal_mk unitSquare [unitSquare]
      (by rw [hfl]; exact hP) hN

end RegulariseClaims

/-! ## Claim on `make_path` -/

section PolygonClaims

/-- C2 (as stated, refuted). The triangle with the vertices `(0,0)`, `(1,0)`
and `(0, 1/20000)`, given as its three sides in order and none reversed, is a
closed simple polygon; `make_path` yields for it a closed sub-path of the two
segments between `(1,0)` and `(0,0)` only, and an open sub-path made of the
third side. -/
theorem make_path_polygon_not_one_loop :
    ∃ m : Libm ℝ, m.IsReal ∧
      (sliverTriangle : obj ℝ) = polygon [⟨0, 0⟩, ⟨1, 0⟩, ⟨0, 1 / 20000⟩] ∧
      make_path_lists m SNAP_LEN (sliverTriangle : obj ℝ) [] [] =
        .ok ([segBA, segAB, sliverCA], [[segBA, segAB]], [[sliverCA]]) :=
  ⟨_, isReal_mk, polygon_sliver, make_path_sliver _ isReal_mk⟩

/-- C2 (amended). Let `vs` be at least three points, pairwise farther than
`snaplen` apart, such that in the closed polygon through them no side runs
back over its predecessor and the sum of the turning angles is within 5% of
plus or minus two pi (as it is for every simple polygon).  For every
permutation `e` of the sides with any subset of them reversed, `make_path`
turns `e` into exactly one closed sub-path and no open sub-path (and so does
the variant that lists nothing and discards open paths); the closed sub-path
is the polygon through the same vertices, started at one of them and run in
one of the two directions, and its turning angles sum to a negative number: it
is clockwise. -/
theorem make_path_polygon (m : Libm ℝ) (hm : m.IsReal) (snap : ℝ) (hsnap : 0 ≤ snap)
    (vs : List (coord_t ℝ)) (h3 : 3 ≤ vs.length)
    (hsep : vs.Pairwise (fun p q => snap < distTwoPoints m p q))
    (hspike : NoSpike (polygon vs))
    (hturn : isEqualWithinPercentage (m.pi * 2) |turning m (polygon vs)| 5 = true)
    (e : obj ℝ) (he : Scrambled (polygon vs) e) :
    ∃ ws : List (coord_t ℝ), (ws.IsRotated vs ∨ ws.IsRotated vs.reverse) ∧
      make_path_lists m snap e [] [] = .ok (polygon ws, [polygon ws], []) ∧
      make_path_snap m snap e = .ok (polygon ws) ∧
      (polygon ws).map line.get_S0 = ws ∧ ws.Perm vs ∧
      turning m (polygon ws) < 0 := by
  obtain ⟨ws, hg, hmp, hT⟩ := make_path_polygon_core m hm snap hsnap vs h3 hsep hspike hturn e he
  refine ⟨ws, hg, hmp true true, ?_, polygon_S0 ws, ?_, ?_⟩
  · rw [make_path_snap, hmp false false]
  · rcases hg with h | h
    · exact h.perm
    · exact h.perm.trans (List.reverse_perm _)
  · rw [hT]
    exact neg_lt_zero.2 (in_band_pos m hm _ hturn)

/-- Witness of C2 (amended): the sides of the unit square in the order third,
first, fourth, second, the first and the fourth reversed. -/
theorem make_path_polygon_witness :
    ∃ m : Libm ℝ, m.IsReal ∧
      ((0 : ℝ) ≤ SNAP_LEN ∧ 3 ≤ (unitSquareCorners : List (coord_t ℝ)).length ∧
        (unitSquareCorners : List (coord_t ℝ)).Pairwise
          (fun p q => SNAP_LEN < distTwoPoints m p q) ∧
        NoSpike (polygon (unitSquareCorners : List (coord_t ℝ))) ∧
        isEqualWithinPercentage (m.pi * 2)
          |turning m (polygon (unitSquareCorners : List (coord_t ℝ)))| 5 = true ∧
        Scrambled (polygon (unitSquareCorners : List (coord_t ℝ))) scrambledSquare) ∧
      ∃ ws : List (coord_t ℝ),
        (ws.IsRotated unitSquareCorners ∨ ws.IsRotated unitSquareCorners.reverse) ∧
        make_path_lists m SNAP_LEN scrambledSquare [] [] = .ok (polygon ws, [polygon ws], []) ∧
        make_path_snap m SNAP_LEN scrambledSquare = .ok (polygon ws) ∧
        (polygon ws).map line.get_S0 = ws ∧ ws.Perm unitSquareCorners ∧
        turning m (polygon ws) < 0 :=
  ⟨_, isReal_mk,
    ⟨by norm_num [SNAP_LEN], by simp [unitSquareCorners], square_sep _ isReal_mk, square_noSpike,
      square_in_band _ isReal_mk, square_scrambled⟩,
    make_path_polygon _ isReal_mk SNAP_LEN (by norm_num [SNAP_LEN]) unitSquareCorners
      (by simp [unitSquareCorners]) (square_sep _ isReal_mk) square_noSpike
      (square_in_band _ isReal_mk) scrambledSquare square_scrambled⟩

end PolygonClaims

/-! ## Claim on `trace_at_offset` -/

section OffsetClaims

/-- C3 (as stated, refuted). For the square of side `2` and `d = 3/4`,
`trace_at_offset(-d)` yields four segments, none of them horizontal or
vertical, that start at `(3/4,1)`, `(1,5/4)`, `(5/4,1)` and `(1,3/4)`: none of
its vertices is a corner of the square of side `1/2` with the same centre. -/
theorem trace_at_offset_square_not_inner_square :
    ∃ m : Libm ℝ, m.IsReal ∧
      trace_at_offset m false (squareAt0 2) (-(3 / 4)) = .ok (diamond 2 (3 / 4)) ∧
      (diamond (2 : ℝ) (3 / 4)).map (fun l => l.S0) = [⟨3 / 4, 1⟩, ⟨1, 5 / 4⟩, ⟨5 / 4, 1⟩, ⟨1, 3 / 4⟩] ∧
      (∀ l ∈ diamond (2 : ℝ) (3 / 4), l.S0 ∉ innerSquareCorners (2 : ℝ) (3 / 4)) ∧
      (∀ l ∈ diamond (2 : ℝ) (3 / 4), l.V.dx ≠ 0 ∧ l.V.dy ≠ 0) := by
  refine ⟨_, isReal_mk, trace_at_offset_square_core _ isReal_mk 2 (3 / 4) (le_refl _)
    (by norm_num) (by norm_num [SNAP_LEN]), ?_, ?_, ?_⟩
  · norm_num [diamond]
  · intro l hl
    simp only [diamond, List.mem_cons, List.mem_singleton, List.not_mem_nil, or_false] at hl
    rcases hl with rfl | rfl | rfl | rfl <;> norm_num [innerSquareCorners]
  · intro l hl
    simp only [diamond, List.mem_cons, List.mem_singleton, List.not_mem_nil, or_false] at hl
    rcases hl with rfl | rfl | rfl | rfl <;> norm_num

/-- C3 (amended). For every `S` at most 2 and every `d` with
`S/4 < d < S/2 - SNAP_LEN`, `trace_at_offset(-d)` applied to the axis-aligned
clockwise square of side `S` with a corner at the origin yields a closed
clockwise path of exactly 4 segments, whose vertices are the middles of the
sides of the square of side `S - 2d` with the same centre. -/
theorem trace_at_offset_square_diamond (m : Libm ℝ) (hm : m.IsReal) (S d : ℝ) (hS2 : S ≤ 2)
    (hd1 : S / 4 < d) (ha : SNAP_LEN < S / 2 - d) :
    trace_at_offset m false (squareAt0 S) (-d) = .ok (diamond S d) ∧
      (diamond S d).length = 4 ∧ NormalLoop m SNAP_LEN (diamond S d) ∧
      (diamond S d).map (fun l => l.S0) =
        [⟨d, S / 2⟩, ⟨S / 2, S - d⟩, ⟨S - d, S / 2⟩, ⟨S / 2, d⟩] :=
  ⟨trace_at_offset_square_core m hm S d hS2 hd1 ha, rfl,
    (normal_diamond m hm S d ha).1 _ (List.mem_singleton_self _), rfl⟩

/-- Witness of C3 (amended): the unit square and `d = 3/8`. -/
theorem trace_at_offset_square_diamond_witness :
    ∃ m : Libm ℝ, m.IsReal ∧ ((1 : ℝ) ≤ 2 ∧ (1 : ℝ) / 4 < 3 / 8 ∧
        (SNAP_LEN : ℝ) < 1 / 2 - 3 / 8) ∧
      trace_at_offset m false (squareAt0 1) (-(3 / 8)) = .ok (diamond 1 (3 / 8)) ∧
      (diamond (1 : ℝ) (3 / 8)).length = 4 ∧ NormalLoop m SNAP_LEN (diamond (1 : ℝ) (3 / 8)) ∧
      (diamond (1 : ℝ) (3 / 8)).map (fun l => l.S0) =
        [⟨3 / 8, 1 / 2⟩, ⟨1 / 2, 1 - 3 / 8⟩, ⟨1 - 3 / 8, 1 / 2⟩, ⟨1 / 2, 3 / 8⟩] :=
  ⟨_, isReal_mk, ⟨by norm_num, by norm_num, by norm_num [SNAP_LEN]⟩,
    trace_at_offset_square_diamond _ isReal_mk 1 (3 / 8) (by norm_num) (by norm_num)
      (by norm_num [SNAP_LEN])⟩

end OffsetClaims

/-! ## Claims on `LiteEngine::run` -/

section RunClaims

/-- C4 (as stated, refuted). For the doubled segment `(0,0)-(1,0)`,
`(1,0)-(0,0)`, whose regularised copy has two segments, `run` returns false
and hands back the regularised copy, which is not the input. -/
theorem run_abort_not_input :
    ∃ m : Libm ℝ, m.IsReal ∧
      regularise m [segAB, segBA] = .ok [segBA, segAB] ∧
      (∀ (S : Stages ℝ) (g : LiteEngine ℝ) (f1 f2 f3 f4 f5 f6 f7 : Bool),
        run S m g [segAB, segBA] f1 f2 f3 f4 f5 f6 f7 =
          .ok (false, [segBA, segAB], { g with inp := [segBA, segAB] })) ∧
      ([segBA, segAB] : obj ℝ) ≠ [segAB, segBA] :=
  ⟨_, isReal_mk, regularise_AB_BA _ isReal_mk,
    fun S g f1 f2 f3 f4 f5 f6 f7 =>
      run_abort S _ g _ _ f1 f2 f3 f4 f5 f6 f7 (regularise_AB_BA _ isReal_mk) (by simp),
    by simp [segAB, segBA]⟩

/-- C4 (amended). For every input whose regularised copy has at most 2
segments, `LiteEngine::run` returns false and the output path is equal to the
regularised copy of the input (which the engine also keeps as `inp`). -/
theorem run_abort_regularised {K : Type} [LinearOrderedField K] (S : Stages K) (m : Libm K)
    (g : LiteEngine K) (inObj r : obj K)
    (lighten notchDetect girder showConstruction anchorAtNotches hSplit vSplit : Bool)
    (hr : regularise m inObj = .ok r) (hlen : r.length ≤ 2) :
    run S m g inObj lighten notchDetect girder showConstruction anchorAtNotches hSplit vSplit =
      .ok (false, r, { g with inp := r }) :=
  run_abort S m g inObj r lighten notchDetect girder showConstruction anchorAtNotches hSplit
    vSplit hr hlen

/-- Witness of C4 (amended): the open path `(0,0)-(1,0)-(2,0)` with the branch
`(1,0)-(1,1)`, whose regularised copy has two segments. -/
theorem run_abort_regularised_witness :
    ∃ m : Libm ℝ, m.IsReal ∧
      regularise m [segAB, segBC, segBD] = .ok [segBC, segBD] ∧
      ([segBC, segBD] : obj ℝ).length ≤ 2 ∧
      run failingAnchorStages m blankEngine [segAB, segBC, segBD]
          true true true true true true true =
        .ok (false, [segBC, segBD], { blankEngine with inp := [segBC, segBD] }) :=
  ⟨_, isReal_mk, regularise_T _ isReal_mk, by simp,
    run_abort_regularised failingAnchorStages _ blankEngine _ _ true true true true true true
      true (regularise_T _ isReal_mk) (by simp)⟩

/-- C5 (as stated, refuted). With member functions that complete and an anchor
placement that reports failure, `run` on the unit square with girdering on
returns true. -/
theorem run_anchor_failure_returns_true :
    ∃ m : Libm ℝ, m.IsReal ∧
      (∀ (b : Bool) (g : LiteEngine ℝ),
        (failingAnchorStages : Stages ℝ).generateAnchorPoints b g = .ok (false, g)) ∧
      ∃ (out : obj ℝ) (g' : LiteEngine ℝ),
        run failingAnchorStages m blankEngine unitSquare true false true false false false false =
          .ok (true, out, g') :=
  ⟨_, isReal_mk, fun _ _ => rfl,
    run_true failingAnchorStages failingAnchorStages_total _ blankEngine unitSquare unitSquare
      true false true false false false false (regularise_unitSquare _ isReal_mk)
      (by simp [unitSquare])⟩

/-- C5 (amended). When no member function ends in `FATAL`, `LiteEngine::run`
on an input whose regularised copy has more than 2 segments completes and
returns true, whether or not anchor placement succeeds; a failed anchor
placement only skips the brace stages (the girder part of the run ends after
one progress step). -/
theorem run_completes_true {K : Type} [LinearOrderedField K] (S : Stages K) (hS : S.Total)
    (m : Libm K) (g : LiteEngine K) (inObj r : obj K)
    (lighten notchDetect girder showConstruction anchorAtNotches hSplit vSplit : Bool)
    (hr : regularise m inObj = .ok r) (hlen : 2 < r.length) :
    (∃ out g', run S m g inObj lighten notchDetect girder showConstruction anchorAtNotches
        hSplit vSplit = .ok (true, out, g')) ∧
      ∀ g1 g2 : LiteEngine K, S.generateAnchorPoints anchorAtNotches g1 = .ok (false, g2) →
        run_girder S anchorAtNotches g1 = .ok g2.progress :=
  ⟨run_true S hS m g inObj r lighten notchDetect girder showConstruction anchorAtNotches hSplit
      vSplit hr hlen,
    fun g1 g2 h => run_girder_anchor_failure S anchorAtNotches g1 g2 h⟩

/-- Witness of C5 (amended): the unit square, with an anchor placement that
reports failure. -/
theorem run_completes_true_witness :
    ∃ m : Libm ℝ, m.IsReal ∧ (failingAnchorStages : Stages ℝ).Total ∧
      regularise m (unitSquare : obj ℝ) = .ok unitSquare ∧
      2 < (unitSquare : obj ℝ).length ∧
      (∃ out g', run failingAnchorStages m blankEngine unitSquare true false true false true
          false false = .ok (true, out, g')) ∧
      ∀ g1 g2 : LiteEngine ℝ,
        (failingAnchorStages : Stages ℝ).generateAnchorPoints true g1 = .ok (false, g2) →
        run_girder failingAnchorStages true g1 = .ok g2.progress :=
  ⟨_, isReal_mk, failingAnchorStages_total, regularise_unitSquare _ isReal_mk,
    by simp [unitSquare],
    run_completes_true failingAnchorStages failingAnchorStages_total _ blankEngine unitSquare
      unitSquare true false true false true false false (regularise_unitSquare _ isReal_mk)
      (by simp [unitSquare])⟩

end RunClaims

/-! ## Claims on `lines_intersect` -/

section IntersectionClaims

/-- C7. For two segments whose direction vectors have a cross product of
magnitude at least `SMALL_NUM`, the infinite lines meet in exactly one point,
with parameter `s` on the first and `t` on the second segment;
`lines_intersect` without extrapolation returns true exactly when both
parameters are in `[0,1]`, and then reports the point `S0 + s.V`. -/
theorem lines_intersect_skew {K : Type} [LinearOrderedField K] (m : Libm K) (l l2 : line K)
    (h : SMALL_NUM ≤ |perpprod l.V l2.V|) :
    ∃ s t : K, l.get_pt s = l2.get_pt t ∧
      (∀ s' t' : K, l.get_pt s' = l2.get_pt t' → s' = s ∧ t' = t) ∧
      ((l.lines_intersect m l2 false).1 = true ↔ (0 ≤ s ∧ s ≤ 1 ∧ 0 ≤ t ∧ t ≤ 1)) ∧
      ((l.lines_intersect m l2 false).1 = true →
        (l.lines_intersect m l2 false).2 = l.get_pt s) :=
  skew_core m l l2 h

/-- Witness of C7: the segment `(0,0)-(2,0)` against the segment `(1,-1)-(1,1)`. -/
theorem lines_intersect_skew_witness :
    SMALL_NUM ≤ |perpprod (baseSegment : line ℝ).V (crossSegment : line ℝ).V| ∧
    ∀ m : Libm ℝ, ∃ s t : ℝ,
      (baseSegment : line ℝ).get_pt s = (crossSegment : line ℝ).get_pt t ∧
      (∀ s' t' : ℝ, (baseSegment : line ℝ).get_pt s' = (crossSegment : line ℝ).get_pt t' →
        s' = s ∧ t' = t) ∧
      (((baseSegment : line ℝ).lines_intersect m crossSegment false).1 = true ↔
        (0 ≤ s ∧ s ≤ 1 ∧ 0 ≤ t ∧ t ≤ 1)) ∧
      (((baseSegment : line ℝ).lines_intersect m crossSegment false).1 = true →
        ((baseSegment : line ℝ).lines_intersect m crossSegment false).2 =
          (baseSegment : line ℝ).get_pt s) :=
  ⟨by norm_num [baseSegment, crossSegment, perpprod, perpprodRaw, SMALL_NUM, SNAP_LEN],
    fun m => lines_intersect_skew m baseSegment crossSegment
      (by norm_num [baseSegment, crossSegment, perpprod, perpprodRaw, SMALL_NUM, SNAP_LEN])⟩

end IntersectionClaims

/-! ## Claim on `distance_to_point` -/

section DistanceClaims

/-- C9. For every segment of non-zero length and every point `p`,
`distance_to_point(p)` is the Euclidean distance from `p` to `S0 + t.V`, where
`t` is the projection parameter of `p` on the infinite line clamped to
`[0,1]`, and no point of the segment is nearer to `p`. -/
theorem distance_to_point_min (m : Libm ℝ) (hm : m.IsReal) (l : line ℝ) (h : NonZero l)
    (p : coord_t ℝ) :
    l.distance_to_point m p =
        Real.sqrt ((p.x - (l.get_pt (max 0 (min 1 (projParam l p)))).x) ^ 2 +
          (p.y - (l.get_pt (max 0 (min 1 (projParam l p)))).y) ^ 2) ∧
      ∀ u : ℝ, 0 ≤ u → u ≤ 1 →
        l.distance_to_point m p ≤
          Real.sqrt ((p.x - (l.get_pt u).x) ^ 2 + (p.y - (l.get_pt u).y) ^ 2) :=
  distance_core m hm l h p

/-- Witness of C9: the segment `(0,0)-(2,0)` and the point `(1,1)`. -/
theorem distance_to_point_min_witness :
    ∃ m : Libm ℝ, m.IsReal ∧ NonZero (baseSegment : line ℝ) ∧
      ((baseSegment : line ℝ).distance_to_point m ⟨1, 1⟩ =
        Real.sqrt (((1 : ℝ) - ((baseSegment : line ℝ).get_pt
            (max 0 (min 1 (projParam baseSegment ⟨1, 1⟩)))).x) ^ 2 +
          ((1 : ℝ) - ((baseSegment : line ℝ).get_pt
            (max 0 (min 1 (projParam baseSegment ⟨1, 1⟩)))).y) ^ 2) ∧
      ∀ u : ℝ, 0 ≤ u → u ≤ 1 →
        (baseSegment : line ℝ).distance_to_point m ⟨1, 1⟩ ≤
          Real.sqrt (((1 : ℝ) - ((baseSegment : line ℝ).get_pt u).x) ^ 2 +
            ((1 : ℝ) - ((baseSegment : line ℝ).get_pt u).y) ^ 2)) :=
  ⟨_, isReal_mk, Or.inl (by norm_num [baseSegment]),
    distance_to_point_min _ isReal_mk baseSegment (Or.inl (by norm_num [baseSegment])) ⟨1, 1⟩⟩

end DistanceClaims

/-! ## Claim on `get_pt_along_length` -/

section ArcLengthClaims

/-- C10. For every non-empty path whose segments all have positive length and
every `dist > 0`, `get_pt_along_length(dist)` returns: the returned handle
is an element `j` of the path, the returned parameter `T` is in `[0,1]`, the
returned point is the point of parameter `T` on that element, and its arc
length from the start of the path (the lengths of the elements before `j`
plus `T` times the length of element `j`) is `dist` modulo the total length. -/
theorem get_pt_along_length_spec {K : Type} [LinearOrderedField K] [FloorRing K]
    (m : Libm K) (o : obj K) (dist : K)
    (hne : o ≠ []) (hpos : ∀ ln ∈ o, 0 < ln.len m) (hd : 0 < dist) :
    ∃ (j : Nat) (ln : line K) (T : K), o[j]? = some ln ∧
      obj.get_pt_along_length m o dist = some (ln.get_pt T, j, T) ∧
      0 ≤ T ∧ T ≤ 1 ∧
      ((o.take j).map (fun ln => ln.len m)).sum + T * ln.len m =
        dist - obj.len m o * (⌊dist / obj.len m o⌋ : K) :=
  along_length_core m o dist hne hpos hd

/-- Witness of C10: the path of the two segments `(0,0)-(2,0)` and
`(1,-1)-(1,1)`, at distance `3`. -/
theorem get_pt_along_length_spec_witness :
    ∃ m : Libm ℝ, m.IsReal ∧
      (([baseSegment, crossSegment] : obj ℝ) ≠ [] ∧
        (∀ ln ∈ ([baseSegment, crossSegment] : obj ℝ), 0 < ln.len m) ∧ (0 : ℝ) < 3) ∧
      ∃ (j : Nat) (ln : line ℝ) (T : ℝ),
        ([baseSegment, crossSegment] : obj ℝ)[j]? = some ln ∧
        obj.get_pt_along_length m [baseSegment, crossSegment] 3 = some (ln.get_pt T, j, T) ∧
        0 ≤ T ∧ T ≤ 1 ∧
        ((([baseSegment, crossSegment] : obj ℝ).take j).map (fun ln => ln.len m)).sum +
            T * ln.len m =
          3 - obj.len m [baseSegment, crossSegment] *
            (⌊3 / obj.len m [baseSegment, crossSegment]⌋ : ℝ) := by
  have hpos : ∀ ln ∈ ([baseSegment, crossSegment] : obj ℝ),
      0 < ln.len ⟨Real.sqrt, fun y x => Complex.arg ⟨x, y⟩, Real.cos, Real.sin, Real.pi⟩ := by
    intro ln hln
    apply len_pos_of_nonZero _ isReal_mk
    simp only [List.mem_cons, List.mem_singleton, List.not_mem_nil, or_false] at hln
    rcases hln with rfl | rfl
    · exact Or.inl (by norm_num [baseSegment])
    · exact Or.inr (by norm_num [crossSegment])
  exact ⟨_, isReal_mk, ⟨by simp, hpos, by norm_num⟩,
    get_pt_along_length_spec _ _ 3 (by simp) hpos (by norm_num)⟩

end ArcLengthClaims

section Conserve
variable {K : Type} [LinearOrderedField K]

theorem trace_scan_conserve (m : Libm K) (snap : K) (st : line K)
    (tail scanned unscanned : List (line K)) :
    (trace_scan m snap st tail scanned unscanned).2.1.length +
        (trace_scan m snap st tail scanned unscanned).2.2.length =
      tail.length + 1 + scanned.length + unscanned.length ∧
    (trace_scan m snap st tail scanned unscanned).2.1 ≠ [] := by
  induction st, tail, scanned, unscanned using trace_scan.induct m snap with
  | case1 st tail scanned =>
    rw [trace_scan]; simp
  | case2 st tail scanned nx us en nx1 h1 nx2 h2 =>
    rw [trace_scan]
    simp only [en, nx1, nx2, dite_eq_ite] at h1 h2
    rw [if_pos h1, if_pos h2]
    simp; omega
  | case3 st tail scanned nx us en nx1 h1 nx2 h2 ih =>
    rw [trace_scan]
    simp only [en, nx1, nx2, dite_eq_ite] at h1 h2 ih
    rw [if_pos h1, if_neg h2]
    refine ⟨?_, ih.2⟩
    rw [ih.1]; simp; omega
  | case4 st tail scanned nx us en nx1 h1 nx2 h2 ih =>
    rw [trace_scan]
    simp only [en, nx1, nx2, dite_eq_ite] at h1 h2 ih
    rw [if_neg h1, if_pos h2]
    refine ⟨?_, ih.2⟩
    rw [ih.1]; simp; omega
  | case5 st tail scanned nx us en nx1 h1 nx2 h2 ih =>
    rw [trace_scan]
    simp only [en, nx1, nx2, dite_eq_ite] at h1 h2 ih
    rw [if_neg h1, if_neg h2]
    refine ⟨?_, ih.2⟩
    rw [ih.1]; simp; omega

theorem trace_a_path_conserve (m : Libm K) (snap : K) (st : line K) (r : List (line K))
    (c : Bool) (path rest : List (line K)) (h : trace_a_path m snap (st :: r) = (c, path, rest)) :
    path.length + rest.length = r.length + 1 ∧ path ≠ [] := by
  have := trace_scan_conserve m snap st [] [] r
  rw [trace_a_path] at h
  rw [h] at this
  simpa [Nat.add_comm] using this

theorem make_path_loop_fatal (m : Libm K) (snaplen : K) (listPaths keepOpens : Bool) (n : Nat)
    (done : List (line K)) (st : line K) (r : List (line K)) (closed opened : List (obj K))
    (p0 : line K) (ps rest path2 rest2 : List (line K))
    (h : trace_a_path m snaplen (st :: r) = (true, p0 :: ps, rest))
    (hcw : is_clockwise m p0 ps = false)
    (h2 : trace_a_path m snaplen ((p0 :: ps).map line.reverse ++ rest) = (false, path2, rest2)) :
    make_path_loop m snaplen listPaths keepOpens (n + 1) done (st :: r) closed opened =
      .fatal := by
  rw [make_path_loop, h]
  simp only [Bool.not_true, Bool.false_and, Bool.false_eq_true, if_false, if_true, hcw,
    Bool.not_false]
  rw [h2]

theorem make_path_loop_conserve (m : Libm K) (snap : K) :
    ∀ (n : Nat) (done remaining : List (line K)) (closed opened : List (obj K)),
      remaining.length ≤ n →
      make_path_loop m snap true true n done remaining closed opened = .fatal ∨
      ∃ (added : List (line K)) (closed2 opened2 : List (obj K)),
        make_path_loop m snap true true n done remaining closed opened =
          .ok (done ++ added, closed ++ closed2, opened ++ opened2) ∧
        added.length = remaining.length ∧
        (closed2.flatten ++ opened2.flatten).Perm added := by
  intro n
  induction n with
  | zero =>
    intro done remaining closed opened hn
    have : remaining = [] := List.length_eq_zero.1 (Nat.le_zero.1 hn)
    subst this
    exact Or.inr ⟨[], [], [], by simp [make_path_loop], rfl, by simp⟩
  | succ n ih =>
    intro done remaining closed opened hn
    cases remaining with
    | nil => exact Or.inr ⟨[], [], [], by simp [make_path_loop], rfl, by simp⟩
    | cons st r =>
      rcases htr : trace_a_path m snap (st :: r) with ⟨c, path, rest⟩
      obtain ⟨hlen, hne⟩ := trace_a_path_conserve m snap st r c path rest htr
      have hrest : rest.length ≤ n := by
        have : 0 < path.length := List.length_pos.2 hne
        simp only [List.length_cons] at hn
        omega
      cases c with
      | false =>
        rw [make_path_loop_keep m snap true n done st r closed opened path rest htr]
        rcases ih (done ++ path) rest closed (if true = true then opened ++ [path] else opened)
          hrest with h | ⟨added, c2, o2, h1, h2, h3⟩
        · exact Or.inl h
        · refine Or.inr ⟨path ++ added, c2, [path] ++ o2, ?_, ?_, ?_⟩
          · rw [h1]; simp
          · simp only [List.length_append, List.length_cons, h2]; omega
          · simp only [List.flatten_append, List.flatten_cons, List.flatten_nil, List.append_nil]
            exact (List.perm_append_comm_assoc _ _ _).trans (List.Perm.append_left _ h3)
      | true =>
        cases path with
        | nil => exact absurd rfl hne
        | cons p0 ps =>
          cases hcw : is_clockwise m p0 ps with
          | true =>
            rw [make_path_loop_closed m snap true true n done st r closed opened p0 ps rest
              htr hcw]
            rcases ih (done ++ p0 :: ps) rest
              (if true = true then closed ++ [p0 :: ps] else closed) opened
              hrest with h | ⟨added, c2, o2, h1, h2, h3⟩
            · exact Or.inl h
            · refine Or.inr ⟨(p0 :: ps) ++ added, [p0 :: ps] ++ c2, o2, ?_, ?_, ?_⟩
              · rw [h1]; simp
              · simp only [List.length_append, List.length_cons, h2] at hlen ⊢; omega
              · simp only [List.flatten_append, List.flatten_cons, List.flatten_nil,
                  List.append_nil, List.append_assoc]
                exact List.Perm.append_left _ h3
          | false =>
            rcases htr2 : trace_a_path m snap ((p0 :: ps).map line.reverse ++ rest)
              with ⟨c2b, path2, rest2⟩
            cases c2b with
            | false =>
              exact Or.inl (make_path_loop_fatal m snap true true n done st r closed opened
                p0 ps rest path2 rest2 htr hcw htr2)
            | true =>
              have hc2 := trace_a_path_conserve m snap p0.reverse (ps.map line.reverse ++ rest)
                true path2 rest2 (by simpa using htr2)
              have hrest2 : rest2.length ≤ n := by
                have : 0 < path2.length := List.length_pos.2 hc2.2
                have h5 := hc2.1
                simp only [List.length_cons, List.length_append, List.length_map] at hn hlen h5
                omega
              rw [make_path_loop_reversed m snap true true n done st r closed opened p0 ps rest
                path2 rest2 htr hcw htr2]
              rcases ih (done ++ path2) rest2
                (if true = true then closed ++ [path2] else closed) opened
                hrest2 with h | ⟨added, c2, o2, h1, h2, h3⟩
              · exact Or.inl h
              · refine Or.inr ⟨path2 ++ added, [path2] ++ c2, o2, ?_, ?_, ?_⟩
                · rw [h1]; simp
                · have h5 := hc2.1
                  simp only [List.length_cons, List.length_append, List.length_map, h2]
                    at hlen h5 ⊢
                  omega
                · simp only [List.flatten_append, List.flatten_cons, List.flatten_nil,
                    List.append_nil, List.append_assoc]
                  exact List.Perm.append_left _ h3

end Conserve

section Chain
variable {K : Type} [LinearOrderedField K]

theorem chain_concat (L : List (line K)) (x : line K)
    (hL : List.Chain' (fun x y : line K => y.get_S0 = x.get_S1) L)
    (hx : ∀ z ∈ L.getLast?, x.get_S0 = z.get_S1) :
    List.Chain' (fun x y : line K => y.get_S0 = x.get_S1) (L ++ [x]) := by
  rw [List.chain'_append]
  refine ⟨hL, List.chain'_singleton _, ?_⟩
  intro z hz y hy
  simp only [List.head?_cons, Option.mem_def, Option.some.injEq] at hy
  subst hy
  exact hx z hz

theorem trace_scan_exact (m : Libm K) (snap : K) (st : line K)
    (tail scanned unscanned : List (line K))
    (hch : List.Chain' (fun x y : line K => y.get_S0 = x.get_S1) (st :: tail)) :
    List.Chain' (fun x y : line K => y.get_S0 = x.get_S1)
        (trace_scan m snap st tail scanned unscanned).2.1 ∧
      ((trace_scan m snap st tail scanned unscanned).1 = true →
        (trace_scan m snap st tail scanned unscanned).2.1.getLast?.map line.get_S1 =
          (trace_scan m snap st tail scanned unscanned).2.1.head?.map line.get_S0) := by
  induction st, tail, scanned, unscanned using trace_scan.induct m snap with
  | case1 st tail scanned =>
    rw [trace_scan]; exact ⟨hch, by simp⟩
  | case2 st tail scanned nx us en nx1 h1 nx2 h2 =>
    rw [trace_scan]
    simp only [en, nx1, nx2, dite_eq_ite] at h1 h2
    rw [if_pos h1, if_pos h2]
    refine ⟨?_, ?_⟩
    · have := chain_concat (st :: tail) (line.ofPoints (line.ofPoints
        ((st :: tail).getLast (List.cons_ne_nil _ _)).get_S1
        (if distTwoPoints m ((st :: tail).getLast (List.cons_ne_nil _ _)).get_S1 nx.get_S1 ≤ snap
          then nx.reverse else nx).get_S1).get_S0 st.get_S0) hch (by
          intro z hz
          rw [List.getLast?_eq_getLast _ (List.cons_ne_nil _ _)] at hz
          simp only [Option.mem_def, Option.some.injEq] at hz
          rw [← hz]; rfl)
      simpa using this
    · intro _
      rw [← List.cons_append, List.getLast?_concat]
      simp [ofPoints_get_S1]
  | case3 st tail scanned nx us en nx1 h1 nx2 h2 ih =>
    rw [trace_scan]
    simp only [en, nx1, nx2, dite_eq_ite] at h1 h2 ih
    rw [if_pos h1, if_neg h2]
    apply ih
    have := chain_concat (st :: tail) (line.ofPoints
        ((st :: tail).getLast (List.cons_ne_nil _ _)).get_S1
        (if distTwoPoints m ((st :: tail).getLast (List.cons_ne_nil _ _)).get_S1 nx.get_S1 ≤ snap
          then nx.reverse else nx).get_S1) hch (by
          intro z hz
          rw [List.getLast?_eq_getLast _ (List.cons_ne_nil _ _)] at hz
          simp only [Option.mem_def, Option.some.injEq] at hz
          rw [← hz]; rfl)
    simpa using this
  | case4 st tail scanned nx us en nx1 h1 nx2 h2 ih =>
    rw [trace_scan]
    simp only [en, nx1, nx2, dite_eq_ite] at h1 h2 ih
    rw [if_neg h1, if_pos h2]
    apply ih
    rw [List.chain'_cons]
    exact ⟨by rw [ofPoints_get_S1], hch⟩
  | case5 st tail scanned nx us en nx1 h1 nx2 h2 ih =>
    rw [trace_scan]
    simp only [en, nx1, nx2, dite_eq_ite] at h1 h2 ih
    rw [if_neg h1, if_neg h2]
    exact ih hch

theorem trace_a_path_exact (m : Libm K) (snap : K) (remaining path rest : List (line K))
    (h : trace_a_path m snap remaining = (true, path, rest)) : ExactLoop path := by
  cases remaining with
  | nil => simp [trace_a_path] at h
  | cons st r =>
    have h1 := trace_scan_exact m snap st [] [] r (List.chain'_singleton _)
    have h2 := (trace_a_path_conserve m snap st r true path rest h).2
    rw [trace_a_path] at h
    rw [h] at h1
    exact ⟨h2, h1.1, h1.2 rfl⟩

end Chain

section Evaluation2

theorem trace_AB_BC (m : Libm ℝ) (hm : m.IsReal) :
    trace_a_path m SNAP_LEN [segAB, segBC] = (false, [segAB, segBC], []) := by
  simp [trace_a_path, trace_scan, distTwoPoints, hm.1, Real.sqrt_le_iff, segAB, segBC,
    line.get_S1, line.get_S0, line.get_pt, line.reverse, line.ofPoints, T_S1, SNAP_LEN]
  norm_num

theorem make_path_AB_BC (m : Libm ℝ) (hm : m.IsReal) :
    make_path_snap m SNAP_LEN [segAB, segBC] = .ok [segBC] := by
  have h0 : make_path_full m SNAP_LEN false false ([segAB, segBC] : obj ℝ) [] [] =
      make_path_loop m SNAP_LEN false false (1 + 1) [] (segAB :: [segBC]) [] [] := rfl
  rw [make_path_snap, h0, make_path_loop_discard m SNAP_LEN false 1 [] segAB [segBC] [] []
    [segAB, segBC] [] (trace_AB_BC m hm)]
  simp [make_path_loop]

end Evaluation2

section ArcLengthClaims2

/-- C11 (as stated, refuted). On the empty path `get_pt_along_length(1)`
returns: the point `(0,0)`, the handle `end()` and `T = 0`; it is not the
failure. -/
theorem get_pt_along_length_empty_returns :
    ∃ m : Libm ℝ, m.IsReal ∧
      obj.get_pt_along_length m ([] : obj ℝ) 1 = some (⟨0, 0⟩, 0, 0) ∧
      obj.get_pt_along_length m ([] : obj ℝ) 1 ≠ none :=
  ⟨_, isReal_mk, rfl, by simp [obj.get_pt_along_length]⟩

/-- C11 (amended). On the empty path `get_pt_along_length` does not fail: for
every `dist` it returns the point `(0,0)` with the handle `end()` (position
`0` of the empty list) and `T = 0`. -/
theorem get_pt_along_length_empty {K : Type} [LinearOrderedField K] [FloorRing K]
    (m : Libm K) (dist : K) :
    obj.get_pt_along_length m ([] : obj K) dist = some (⟨0, 0⟩, ([] : obj K).length, 0) :=
  rfl

end ArcLengthClaims2

section MakePathClaims

/-- C12. `make_path(snaplen, closed, open)` started with empty lists either
ends in the fatal exit of `make_path` or returns, and when it returns the path
has as many segments as before and the closed and open sub-paths listed
contain, together, each segment of the path exactly once. -/
theorem make_path_lists_conserves {K : Type} [LinearOrderedField K] (m : Libm K) (snap : K)
    (e : obj K) :
    make_path_lists m snap e [] [] = .fatal ∨
      ∃ (e2 : obj K) (closed opened : List (obj K)),
        make_path_lists m snap e [] [] = .ok (e2, closed, opened) ∧
        e2.length = e.length ∧ (closed.flatten ++ opened.flatten).Perm e2 := by
  rcases make_path_loop_conserve m snap e.length [] e [] [] (le_refl _) with h |
    ⟨added, c2, o2, h1, h2, h3⟩
  · exact Or.inl h
  · exact Or.inr ⟨added, c2, o2, by simpa [make_path_lists, make_path_full] using h1, h2, h3⟩

/-- C13 (the code at the failing input). For the open path of the two
segments `(0,0)-(1,0)` and `(1,0)-(2,0)`, `make_path(snaplen)` leaves the
second segment in the path, and that segment is an open sub-path. -/
theorem make_path_snap_keeps_open_end :
    ∃ m : Libm ℝ, m.IsReal ∧
      make_path_snap m SNAP_LEN ([segAB, segBC] : obj ℝ) = .ok [segBC] ∧
      trace_a_path m SNAP_LEN ([segBC] : obj ℝ) = (false, [segBC], []) :=
  ⟨_, isReal_mk, make_path_AB_BC _ isReal_mk, trace_single _ _ _⟩

end MakePathClaims

section Reversal

theorem trace_scan_closed_length {K : Type} [LinearOrderedField K] (m : Libm K) (snap : K)
    (st : line K) (tail scanned unscanned : List (line K)) :
    (trace_scan m snap st tail scanned unscanned).1 = true →
      2 ≤ (trace_scan m snap st tail scanned unscanned).2.1.length := by
  induction st, tail, scanned, unscanned using trace_scan.induct m snap with
  | case1 st tail scanned =>
    rw [trace_scan]; simp
  | case2 st tail scanned nx us en nx1 h1 nx2 h2 =>
    rw [trace_scan]
    simp only [en, nx1, nx2, dite_eq_ite] at h1 h2
    rw [if_pos h1, if_pos h2]
    simp
  | case3 st tail scanned nx us en nx1 h1 nx2 h2 ih =>
    rw [trace_scan]
    simp only [en, nx1, nx2, dite_eq_ite] at h1 h2 ih
    rw [if_pos h1, if_neg h2]
    exact ih
  | case4 st tail scanned nx us en nx1 h1 nx2 h2 ih =>
    rw [trace_scan]
    simp only [en, nx1, nx2, dite_eq_ite] at h1 h2 ih
    rw [if_neg h1, if_pos h2]
    exact ih
  | case5 st tail scanned nx us en nx1 h1 nx2 h2 ih =>
    rw [trace_scan]
    simp only [en, nx1, nx2, dite_eq_ite] at h1 h2 ih
    rw [if_neg h1, if_neg h2]
    exact ih

theorem trace_a_path_closed_length {K : Type} [LinearOrderedField K] (m : Libm K) (snap : K)
    (remaining path rest : List (line K))
    (h : trace_a_path m snap remaining = (true, path, rest)) : 2 ≤ path.length := by
  cases remaining with
  | nil => simp [trace_a_path] at h
  | cons st r =>
    have h1 := trace_scan_closed_length m snap st [] [] r
    rw [trace_a_path] at h
    rw [h] at h1
    exact h1 rfl

theorem chain_eq_pathOf {K : Type} [LinearOrderedField K] :
    ∀ (ls : List (line K)) (l0 : line K) (z : coord_t K),
      List.Chain (fun x y : line K => y.get_S0 = x.get_S1) l0 ls →
      ((l0 :: ls).getLast (List.cons_ne_nil _ _)).get_S1 = z →
      pathOf l0.get_S0 (ls.map line.get_S0 ++ [z]) = l0 :: ls := by
  intro ls
  induction ls with
  | nil =>
    intro l0 z _ hz
    simp only [List.getLast_singleton] at hz
    simp only [List.map_nil, List.nil_append, pathOf, ← hz]
    rw [show l0.get_S0 = l0.S0 from rfl, ofPoints_self]
  | cons l1 ls ih =>
    intro l0 z hc hz
    rw [List.chain_cons] at hc
    have hz2 : ((l1 :: ls).getLast (List.cons_ne_nil _ _)).get_S1 = z := by
      rw [← hz, List.getLast_cons (List.cons_ne_nil _ _)]
    simp only [List.map_cons, List.cons_append, pathOf, List.append_eq]
    rw [ih l1 z hc.2 hz2, hc.1, show l0.get_S0 = l0.S0 from rfl, ofPoints_self]

theorem exactLoop_eq_polygon {K : Type} [LinearOrderedField K] (L : List (line K))
    (h : ExactLoop L) : L = polygon (L.map line.get_S0) := by
  obtain ⟨hne, hch, hcl⟩ := h
  cases L with
  | nil => exact absurd rfl hne
  | cons l0 ls =>
    rw [List.getLast?_eq_getLast _ (List.cons_ne_nil _ _)] at hcl
    simp only [Option.map_some', List.head?_cons, Option.some.injEq] at hcl
    simp only [List.map_cons, polygon]
    exact (chain_eq_pathOf ls l0 l0.get_S0 hch hcl).symm

end Reversal

section Reversal

end Reversal

section Evaluation3

theorem make_path_lists_AB_BA (m : Libm ℝ) (hm : m.IsReal) :
    make_path_lists m SNAP_LEN ([segAB, segBA] : obj ℝ) [] [] =
      .ok ([segBA, segAB], [[segBA, segAB]], []) := by
  have h0 : make_path_lists m SNAP_LEN ([segAB, segBA] : obj ℝ) [] [] =
      make_path_loop m SNAP_LEN true true (1 + 1) [] (segAB :: [segBA]) [] [] := rfl
  rw [h0, make_path_loop_reversed m SNAP_LEN true true 1 [] segAB [segBA] [] []
    segAB [segBA] [] [segBA, segAB] [] (trace_AB_BA m hm) (cw_AB_BA m hm)
    (by rw [rev_AB_BA]; exact trace_BA_AB m hm), make_path_loop_nil]
  simp

end Evaluation3

section ClockwiseClaims

end ClockwiseClaims

section Extremity
variable {K : Type} [LinearOrderedField K]

theorem test_extremity_hi (dir : direction_e) (hd : dir = .UP ∨ dir = .RIGHT) (var res : K)
    (ptu ptd inPt : coord_t K) :
    (test_extremity dir var res ptu ptd inPt).2.1 = max res var := by
  rcases lt_trichotomy var res with h | h | h
  · have h2 : ¬ res < var := not_lt.2 h.le
    have h3 : res ≠ var := (ne_of_lt h).symm
    rcases hd with rfl | rfl <;> simp [test_extremity, h2, h3, max_eq_left h.le]
  · subst h
    rcases hd with rfl | rfl <;> simp [test_extremity]
  · rcases hd with rfl | rfl <;> simp [test_extremity, h, max_eq_right h.le]

theorem test_extremity_lo (dir : direction_e) (hd : dir = .DOWN ∨ dir = .LEFT) (var res : K)
    (ptu ptd inPt : coord_t K) :
    (test_extremity dir var res ptu ptd inPt).2.1 = min res var := by
  rcases lt_trichotomy var res with h | h | h
  · rcases hd with rfl | rfl <;> simp [test_extremity, h, min_eq_right h.le]
  · subst h
    rcases hd with rfl | rfl <;> simp [test_extremity]
  · have h2 : ¬ var < res := not_lt.2 h.le
    have h3 : res ≠ var := ne_of_lt h
    rcases hd with rfl | rfl <;> simp [test_extremity, h2, h3, min_eq_left h.le]

theorem find_extremity_step_hi (dir : direction_e) (hd : dir = .UP ∨ dir = .RIGHT)
    (ln : line K) (idx : Nat) (s : ext_entry K) :
    (find_extremity_step dir ln idx s).extremity =
      max (max s.extremity (if dir = .UP ∨ dir = .DOWN then ln.get_S0.y else ln.get_S0.x))
        (if dir = .UP ∨ dir = .DOWN then ln.get_S1.y else ln.get_S1.x) := by
  simp only [find_extremity_step, test_extremity_hi dir hd]

theorem find_extremity_step_lo (dir : direction_e) (hd : dir = .DOWN ∨ dir = .LEFT)
    (ln : line K) (idx : Nat) (s : ext_entry K) :
    (find_extremity_step dir ln idx s).extremity =
      min (min s.extremity (if dir = .UP ∨ dir = .DOWN then ln.get_S0.y else ln.get_S0.x))
        (if dir = .UP ∨ dir = .DOWN then ln.get_S1.y else ln.get_S1.x) := by
  simp only [find_extremity_step, test_extremity_lo dir hd]

theorem find_extremity_loop_hi (dir : direction_e) (hd : dir = .UP ∨ dir = .RIGHT)
    (o : List (line K)) :
    ∀ (idx : Nat) (s : ext_entry K),
      s.extremity ≤ (find_extremity_loop dir o idx s).extremity ∧
      ∀ l ∈ o,
        (if dir = .UP ∨ dir = .DOWN then l.get_S0.y else l.get_S0.x) ≤
          (find_extremity_loop dir o idx s).extremity ∧
        (if dir = .UP ∨ dir = .DOWN then l.get_S1.y else l.get_S1.x) ≤
          (find_extremity_loop dir o idx s).extremity := by
  induction o with
  | nil => intro idx s; simp [find_extremity_loop]
  | cons ln rest ih =>
    intro idx s
    obtain ⟨h1, h2⟩ := ih (idx + 1) (find_extremity_step dir ln idx s)
    rw [find_extremity_step_hi dir hd] at h1
    simp only [find_extremity_loop]
    refine ⟨le_trans (le_trans (le_max_left _ _) (le_max_left _ _)) h1, ?_⟩
    intro l hl
    rcases List.mem_cons.1 hl with rfl | hl
    · exact ⟨le_trans (le_trans (le_max_right _ _) (le_max_left _ _)) h1,
        le_trans (le_max_right _ _) h1⟩
    · exact h2 l hl

theorem find_extremity_loop_lo (dir : direction_e) (hd : dir = .DOWN ∨ dir = .LEFT)
    (o : List (line K)) :
    ∀ (idx : Nat) (s : ext_entry K),
      (find_extremity_loop dir o idx s).extremity ≤ s.extremity ∧
      ∀ l ∈ o,
        (find_extremity_loop dir o idx s).extremity ≤
          (if dir = .UP ∨ dir = .DOWN then l.get_S0.y else l.get_S0.x) ∧
        (find_extremity_loop dir o idx s).extremity ≤
          (if dir = .UP ∨ dir = .DOWN then l.get_S1.y else l.get_S1.x) := by
  induction o with
  | nil => intro idx s; simp [find_extremity_loop]
  | cons ln rest ih =>
    intro idx s
    obtain ⟨h1, h2⟩ := ih (idx + 1) (find_extremity_step dir ln idx s)
    rw [find_extremity_step_lo dir hd] at h1
    simp only [find_extremity_loop]
    refine ⟨le_trans h1 (le_trans (min_le_left _ _) (min_le_left _ _)), ?_⟩
    intro l hl
    rcases List.mem_cons.1 hl with rfl | hl
    · exact ⟨le_trans h1 (le_trans (min_le_left _ _) (min_le_right _ _)),
        le_trans h1 (min_le_right _ _)⟩
    · exact h2 l hl

/-- The extremities `UP` and `DOWN` enclose the ordinates of all end points. -/
theorem find_extremity_encloses (HUGE : K) (o : obj K) (l : line K) (hl : l ∈ o) :
    (o.find_extremity HUGE .DOWN).2.1 ≤ l.get_S0.y ∧
    (o.find_extremity HUGE .DOWN).2.1 ≤ l.get_S1.y ∧
    l.get_S0.y ≤ (o.find_extremity HUGE .UP).2.1 ∧
    l.get_S1.y ≤ (o.find_extremity HUGE .UP).2.1 := by
  cases o with
  | nil => simp at hl
  | cons a rest =>
    simp only [obj.find_extremity]
    have hu := fun s => (find_extremity_loop_hi .UP (Or.inl rfl) (a :: rest) 0 s).2 l hl
    have hd := fun s => (find_extremity_loop_lo .DOWN (Or.inl rfl) (a :: rest) 0 s).2 l hl
    simp only [true_or, or_true, if_true] at hu hd
    exact ⟨(hd _).1, (hd _).2, (hu _).1, (hu _).2⟩

theorem find_extremity_down_le_up (HUGE : K) (o : obj K) :
    (o.find_extremity HUGE .DOWN).2.1 ≤ (o.find_extremity HUGE .UP).2.1 := by
  cases o with
  | nil => simp [obj.find_extremity]
  | cons a rest =>
    have h := find_extremity_encloses HUGE (a :: rest) a (List.mem_cons_self _ _)
    exact le_trans h.1 h.2.2.1

theorem find_extremity_left_le_right (HUGE : K) (o : obj K) :
    (o.find_extremity HUGE .LEFT).2.1 ≤ (o.find_extremity HUGE .RIGHT).2.1 := by
  cases o with
  | nil => simp [obj.find_extremity]
  | cons a rest =>
    simp only [obj.find_extremity]
    have hu := fun s => (find_extremity_loop_hi .RIGHT (Or.inr rfl) (a :: rest) 0 s).2 a
      (List.mem_cons_self _ _)
    have hd := fun s => (find_extremity_loop_lo .LEFT (Or.inr rfl) (a :: rest) 0 s).2 a
      (List.mem_cons_self _ _)
    simp only [reduceCtorEq, or_self, if_false] at hu hd
    exact le_trans (hd _).1 (hu _).1

/-- A point of a segment has its ordinate between those of the end points. -/
theorem onSegment_y_between (l : line K) (q : coord_t K) (h : OnSegment l q) :
    min l.get_S0.y l.get_S1.y ≤ q.y ∧ q.y ≤ max l.get_S0.y l.get_S1.y := by
  obtain ⟨t, ht0, ht1, rfl⟩ := h
  simp only [line.get_S0, line.get_S1, line.get_pt, T_S1, one_mul]
  rcases le_total 0 l.V.dy with hv | hv
  · rw [min_eq_left (by linarith), max_eq_right (by linarith)]
    constructor <;> nlinarith
  · rw [min_eq_right (by linarith), max_eq_left (by linarith)]
    constructor <;> nlinarith

theorem onSegment_within_extremities (HUGE : K) (o : obj K) (l : line K) (hl : l ∈ o)
    (q : coord_t K) (h : OnSegment l q) :
    (o.find_extremity HUGE .DOWN).2.1 ≤ q.y ∧ q.y ≤ (o.find_extremity HUGE .UP).2.1 := by
  obtain ⟨h1, h2, h3, h4⟩ := find_extremity_encloses HUGE o l hl
  obtain ⟨h5, h6⟩ := onSegment_y_between l q h
  exact ⟨le_trans (le_min h1 h2) h5, le_trans h6 (max_le h3 h4)⟩

end Extremity

/-! ## Gaps (`obj::make_gap`) -/

section Gap
variable {K : Type}

/-- The deleting loop of `make_gap` when `l0` comes before `l1`: the elements
`mid` between them go, one per round. -/
theorem make_gap_loop_forward (mid : List (line K)) :
    ∀ (n : Nat) (pre post : List (line K)) (b : line K), mid.length < n →
      make_gap_loop n (pre ++ mid ++ b :: post) pre.length (pre.length - 1)
          (pre.length + mid.length) =
        .ok (pre ++ b :: post, pre.length - 1, pre.length) := by
  induction mid with
  | nil =>
    intro n pre post b hn
    obtain ⟨n, rfl⟩ : ∃ k, n = k + 1 := ⟨n - 1, by simp at hn; omega⟩
    simp [make_gap_loop]
  | cons x mid ih =>
    intro n pre post b hn
    obtain ⟨n, rfl⟩ : ∃ k, n = k + 1 := ⟨n - 1, by simp at hn; omega⟩
    have hn2 : mid.length < n := by simp at hn; omega
    rw [make_gap_loop]
    have h1 : ¬ pre.length = pre.length + (x :: mid).length := by simp
    have h2 : ¬ (pre ++ x :: mid ++ b :: post).length ≤ pre.length := by simp
    have h3 : obj.nextc (pre ++ x :: mid ++ b :: post) pre.length = pre.length + 1 := by
      simp only [obj.nextc, List.length_append, List.length_cons]
      rw [if_neg (by omega), if_neg (by omega)]
    have h4 : (pre ++ x :: mid ++ b :: post).eraseIdx pre.length = pre ++ mid ++ b :: post := by
      rw [List.append_assoc, List.eraseIdx_append_of_length_le (le_refl _)]
      simp
    rw [if_neg h1, if_neg h2]
    simp only [h3, h4]
    rw [if_neg (by omega)]
    have e1 : (if pre.length < pre.length + 1 then pre.length + 1 - 1 else pre.length + 1) =
        pre.length := by simp
    have e2 : (if pre.length < pre.length - 1 then pre.length - 1 - 1 else pre.length - 1) =
        pre.length - 1 := by rw [if_neg (by omega)]
    have e3 : (if pre.length < pre.length + (x :: mid).length
        then pre.length + (x :: mid).length - 1 else pre.length + (x :: mid).length) =
        pre.length + mid.length := by
      simp only [List.length_cons]
      rw [if_pos (by omega)]
      omega
    rw [e1, e2, e3]
    exact ih n pre post b hn2

/-- The deleting loop of `make_gap` when `l1` comes before `l0`, first part:
the elements after `l0` go, then the loop wraps to the first element. -/
theorem make_gap_loop_tail (post : List (line K)) :
    ∀ (n : Nat) (e0 : List (line K)) (l0 l1 : Nat), e0.length = l0 + 1 → l1 ≤ l0 →
      make_gap_loop (n + post.length) (e0 ++ post) (if post.length = 0 then 0 else l0 + 1) l0 l1 =
        make_gap_loop n e0 0 l0 l1 := by
  induction post with
  | nil => intro n e0 l0 l1 _ _; simp
  | cons x post ih =>
    intro n e0 l0 l1 he hl
    simp only [List.length_cons, ← Nat.add_assoc]
    rw [make_gap_loop]
    simp only [Nat.add_one_ne_zero, if_false]
    rw [if_neg (by omega), if_neg (by simp [he])]
    have h3 : obj.nextc (e0 ++ x :: post) (l0 + 1) = if post.length = 0 then 0 else l0 + 1 + 1 := by
      simp only [obj.nextc, List.length_append, List.length_cons, he]
      rw [if_neg (by omega)]
      cases post with
      | nil => simp
      | cons y ys => simp
    have h4 : (e0 ++ x :: post).eraseIdx (l0 + 1) = e0 ++ post := by
      rw [List.eraseIdx_append_of_length_le (by omega), he]
      simp
    simp only [h3, h4]
    have h5 : ¬ ((if post.length = 0 then 0 else l0 + 1 + 1) = l0 + 1) := by
      by_cases hp : post.length = 0 <;> simp [hp]
    rw [if_neg h5]
    have e1 : (if l0 + 1 < (if post.length = 0 then 0 else l0 + 1 + 1)
        then (if post.length = 0 then 0 else l0 + 1 + 1) - 1
        else (if post.length = 0 then 0 else l0 + 1 + 1)) = if post.length = 0 then 0 else l0 + 1 := by
      by_cases hp : post.length = 0 <;> simp [hp]
    have e2 : (if l0 + 1 < l0 then l0 - 1 else l0) = l0 := by
      rw [if_neg (by omega)]
    have e3 : (if l0 + 1 < l1 then l1 - 1 else l1) = l1 := by
      rw [if_neg (by omega)]
    rw [e1, e2, e3]
    exact ih n e0 l0 l1 he hl

/-- The deleting loop of `make_gap` when `l1` comes before `l0`, second part:
the elements before `l1` go. -/
theorem make_gap_loop_head (pre : List (line K)) :
    ∀ (n : Nat) (tl : List (line K)) (l0 : Nat), pre.length < n → 2 ≤ tl.length → 0 < l0 →
      make_gap_loop n (pre ++ tl) 0 (l0 + pre.length) pre.length = .ok (tl, l0, 0) := by
  induction pre with
  | nil =>
    intro n tl l0 hn _ _
    obtain ⟨n, rfl⟩ : ∃ k, n = k + 1 := ⟨n - 1, by simp at hn; omega⟩
    simp [make_gap_loop]
  | cons x pre ih =>
    intro n tl l0 hn ht hl
    obtain ⟨n, rfl⟩ : ∃ k, n = k + 1 := ⟨n - 1, by simp at hn; omega⟩
    have hn2 : pre.length < n := by simp at hn; omega
    rw [make_gap_loop]
    have h3 : obj.nextc (x :: (pre ++ tl)) 0 = 1 := by
      simp only [obj.nextc, List.length_append, List.length_cons]
      rw [if_neg (by omega), if_neg (by omega)]
    rw [if_neg (by simp), if_neg (by simp)]
    simp only [h3, List.cons_append, List.eraseIdx_cons_zero, List.length_cons]
    have e1 : (if 0 < 1 then 1 - 1 else 1) = 0 := by simp
    have e2 : (if 0 < l0 + (pre.length + 1) then l0 + (pre.length + 1) - 1
        else l0 + (pre.length + 1)) = l0 + pre.length := by
      rw [if_pos (by omega)]
      omega
    have e3 : (if 0 < pre.length + 1 then pre.length + 1 - 1 else pre.length + 1) =
        pre.length := by simp
    rw [if_neg (by omega), e1, e2, e3]
    exact ih n tl l0 hn2 ht hl

theorem make_gap_forward [LinearOrderedField K] (pre mid post : List (line K)) (a b : line K)
    (p0 p1 : coord_t K) (noNewLines : Bool) :
    obj.make_gap (pre ++ a :: mid ++ b :: post) pre.length p0 (pre.length + 1 + mid.length) p1
        noNewLines =
      .ok (pre ++ [line.ofPoints a.get_S0 p0, line.ofPoints p1 b.get_S1] ++ post) := by
  have hne : pre.length ≠ pre.length + 1 + mid.length := by omega
  have hnx : obj.nextc (pre ++ a :: mid ++ b :: post) pre.length = pre.length + 1 := by
    simp only [obj.nextc, List.length_append, List.length_cons]
    rw [if_neg (by omega), if_neg (by omega)]
  have hloop := make_gap_loop_forward mid ((pre ++ a :: mid ++ b :: post).length + 1)
    (pre ++ [a]) post b (by simp; omega)
  simp only [List.length_append, List.length_cons, List.length_nil, Nat.zero_add,
    Nat.add_sub_cancel] at hloop
  have hl : pre ++ [a] ++ mid ++ b :: post = pre ++ a :: mid ++ b :: post := by simp
  rw [hl] at hloop
  simp only [obj.make_gap, ne_eq, hne, not_false_eq_true, if_true, hnx, List.length_append,
    List.length_cons]
  rw [hloop]
  have g0 : (pre ++ [a] ++ b :: post)[pre.length]? = some a := by
    rw [List.append_assoc, List.getElem?_append_right (le_refl _)]
    simp
  have g1 : (pre ++ [a] ++ b :: post)[pre.length + 1]? = some b := by
    rw [List.append_assoc, List.getElem?_append_right (by omega)]
    simp
  simp only [Res.bind, g0, g1]
  simp [List.set_append]

theorem make_gap_backward [LinearOrderedField K] (pre mid post : List (line K)) (a b : line K)
    (p0 p1 : coord_t K) (noNewLines : Bool) :
    obj.make_gap (pre ++ b :: mid ++ a :: post) (pre.length + 1 + mid.length) p0 pre.length p1
        noNewLines =
      .ok (line.ofPoints p1 b.get_S1 :: mid ++ [line.ofPoints a.get_S0 p0]) := by
  have hne : pre.length + 1 + mid.length ≠ pre.length := by omega
  have hnx : obj.nextc (pre ++ b :: mid ++ a :: post) (pre.length + 1 + mid.length) =
      if post.length = 0 then 0 else pre.length + 1 + mid.length + 1 := by
    simp only [obj.nextc, List.length_append, List.length_cons]
    rw [if_neg (by omega)]
    by_cases hp : post.length = 0
    · rw [if_pos (by omega), if_pos hp]
    · rw [if_neg (by omega), if_neg hp]
  have hl : pre ++ b :: mid ++ a :: post = (pre ++ b :: mid ++ [a]) ++ post := by simp
  have htail := make_gap_loop_tail post ((pre ++ b :: mid ++ [a]).length + 1)
    (pre ++ b :: mid ++ [a]) (pre.length + 1 + mid.length) pre.length (by simp; omega) (by omega)
  have hhead := make_gap_loop_head pre ((pre ++ b :: mid ++ [a]).length + 1) (b :: mid ++ [a])
    (mid.length + 1) (by simp; omega) (by simp) (by omega)
  have hl2 : pre ++ (b :: mid ++ [a]) = pre ++ b :: mid ++ [a] := by simp
  have hl3 : mid.length + 1 + pre.length = pre.length + 1 + mid.length := by omega
  rw [hl2, hl3] at hhead
  rw [hhead] at htail
  have hfuel : (pre ++ b :: mid ++ a :: post).length + 1 =
      (pre ++ b :: mid ++ [a]).length + 1 + post.length := by
    simp only [List.length_append, List.length_cons, List.length_nil]
    omega
  simp only [obj.make_gap, ne_eq, hne, not_false_eq_true, if_true, hnx]
  rw [hfuel, hl, htail]
  have g0 : (b :: mid ++ [a])[mid.length + 1]? = some a := by
    rw [List.cons_append, List.getElem?_cons_succ, List.getElem?_append_right (le_refl _)]
    simp
  have g1 : (b :: mid ++ [a])[0]? = some b := by simp
  simp only [Res.bind, g0, g1]
  simp [List.set_append]

end Gap

/-! ## Intersections with a vertical line -/

section VerticalLine
variable {K : Type} [LinearOrderedField K]

theorem dotprod_self_ne_zero {l : line K} (h1 : NonZero l) : dotprod l.V l.V ≠ 0 := by
  simp only [dotprod, dotprodRaw]
  rcases h1 with h | h
  · have := mul_self_pos.mpr h
    nlinarith [mul_self_nonneg l.V.dy]
  · have := mul_self_pos.mpr h
    nlinarith [mul_self_nonneg l.V.dx]

/-- The overlap branch of `lines_intersect`, as a closed form: it is reached
when the parallel test succeeds and both cross products with `w` are zero. -/
theorem lines_intersect_parallel_eq (m : Libm K) (l l2 : line K)
    (h1 : NonZero l) (h2 : NonZero l2)
    (hpar : (perpprod l.V l2.V < 0 ∧ perpprod l.V l2.V > -SMALL_NUM) ∨
      (perpprod l.V l2.V ≥ 0 ∧ perpprod l.V l2.V < SMALL_NUM))
    (hw1 : perpprod l.V ⟨l.S0.x - l2.S0.x, l.S0.y - l2.S0.y⟩ = 0)
    (hw2 : perpprod l2.V ⟨l.S0.x - l2.S0.x, l.S0.y - l2.S0.y⟩ = 0) :
    l.lines_intersect m l2 false =
      (let t1 := if l2.V.dx ≠ 0 then (l.S0.x - l2.S0.x) / l2.V.dx
                 else (l.S0.y - l2.S0.y) / l2.V.dy
       let t2 := if l2.V.dx ≠ 0 then (l.get_S1.x - l2.S0.x) / l2.V.dx
                 else (l.get_S1.y - l2.S0.y) / l2.V.dy
       if min t1 t2 > 1 ∨ max t1 t2 < 0 then (false, ⟨0, 0⟩)
       else (true, l2.get_pt (max 0 (min t1 t2)))) := by
  have hd1 := dotprod_self_ne_zero h1
  have hd2 := dotprod_self_ne_zero h2
  have hnc : ¬ (perpprod l.V ⟨l.S0.x - l2.S0.x, l.S0.y - l2.S0.y⟩ ≠ 0 ∨
      perpprod l2.V ⟨l.S0.x - l2.S0.x, l.S0.y - l2.S0.y⟩ ≠ 0) := by
    rw [hw1, hw2]; simp
  have hdd : ¬ (dotprod l.V l.V = 0 ∧ dotprod l2.V l2.V = 0) := fun h => hd1 h.1
  simp only [line.lines_intersect, if_pos hpar, if_neg hnc, if_neg hdd, if_neg hd1, if_neg hd2,
    Bool.false_eq_true, if_false]
  by_cases hgt : (if l2.V.dx ≠ 0 then (l.S0.x - l2.S0.x) / l2.V.dx
        else (l.S0.y - l2.S0.y) / l2.V.dy) >
      (if l2.V.dx ≠ 0 then (l.get_S1.x - l2.S0.x) / l2.V.dx
        else (l.get_S1.y - l2.S0.y) / l2.V.dy)
  · simp only [if_pos hgt, min_eq_right (le_of_lt hgt), max_eq_left (le_of_lt hgt)]
    congr 1
    by_cases h0 : (if l2.V.dx ≠ 0 then (l.get_S1.x - l2.S0.x) / l2.V.dx
        else (l.get_S1.y - l2.S0.y) / l2.V.dy) < 0
    · simp only [if_pos h0, max_eq_left (le_of_lt h0)]
    · simp only [if_neg h0, max_eq_right (not_lt.mp h0)]
  · simp only [if_neg hgt, min_eq_left (not_lt.mp hgt), max_eq_right (not_lt.mp hgt)]
    congr 1
    by_cases h0 : (if l2.V.dx ≠ 0 then (l.S0.x - l2.S0.x) / l2.V.dx
        else (l.S0.y - l2.S0.y) / l2.V.dy) < 0
    · simp only [if_pos h0, max_eq_left (le_of_lt h0)]
    · simp only [if_neg h0, max_eq_right (not_lt.mp h0)]

/-- For segments of non-zero length, the point `lines_intersect` reports with
the result true lies on both segments. -/
theorem intersect_point_sound (m : Libm K) (l l2 : line K)
    (h1 : NonZero l) (h2 : NonZero l2) (hres : (l.lines_intersect m l2 false).1 = true) :
    OnSegment l (l.lines_intersect m l2 false).2 ∧
      OnSegment l2 (l.lines_intersect m l2 false).2 := by
  by_cases hc : perpprod l.V l2.V = 0 ∨ SMALL_NUM ≤ |perpprod l.V l2.V|
  · exact (intersect_iff_meet_core m l l2 h1 h2 hc).2 hres
  · push_neg at hc
    obtain ⟨hp, hsmall⟩ := hc
    have hpar : (perpprod l.V l2.V < 0 ∧ perpprod l.V l2.V > -SMALL_NUM) ∨
        (perpprod l.V l2.V ≥ 0 ∧ perpprod l.V l2.V < SMALL_NUM) := by
      rw [abs_lt] at hsmall
      rcases lt_or_le (perpprod l.V l2.V) 0 with h | h
      · left; exact ⟨h, hsmall.1⟩
      · right; exact ⟨h, hsmall.2⟩
    by_cases hnc : perpprod l.V ⟨l.S0.x - l2.S0.x, l.S0.y - l2.S0.y⟩ ≠ 0 ∨
        perpprod l2.V ⟨l.S0.x - l2.S0.x, l.S0.y - l2.S0.y⟩ ≠ 0
    · simp only [line.lines_intersect, if_pos hpar, if_pos hnc] at hres
      exact absurd hres (by simp)
    · push_neg at hnc
      obtain ⟨e1, e2⟩ := hnc
      have hx : l.S0.x - l2.S0.x = 0 := by
        have h : (l.S0.x - l2.S0.x) * perpprod l.V l2.V = 0 := by
          simp only [perpprod, perpprodRaw] at e1 e2 ⊢
          linear_combination l2.V.dx * e1 - l.V.dx * e2
        rcases mul_eq_zero.mp h with h | h
        · exact h
        · exact absurd h hp
      have hy : l.S0.y - l2.S0.y = 0 := by
        have h : (l.S0.y - l2.S0.y) * perpprod l.V l2.V = 0 := by
          simp only [perpprod, perpprodRaw] at e1 e2 ⊢
          linear_combination l2.V.dy * e1 - l.V.dy * e2
        rcases mul_eq_zero.mp h with h | h
        · exact h
        · exact absurd h hp
      rw [lines_intersect_parallel_eq m l l2 h1 h2 hpar e1 e2] at hres ⊢
      simp only [hx, hy, zero_div, ite_self] at hres ⊢
      by_cases hov : min 0 (if l2.V.dx ≠ 0 then (l.get_S1.x - l2.S0.x) / l2.V.dx
          else (l.get_S1.y - l2.S0.y) / l2.V.dy) > 1 ∨
          max 0 (if l2.V.dx ≠ 0 then (l.get_S1.x - l2.S0.x) / l2.V.dx
          else (l.get_S1.y - l2.S0.y) / l2.V.dy) < 0
      · rw [if_pos hov] at hres
        exact absurd hres (by simp)
      · rw [if_neg hov]
        have h0 : max 0 (min 0 (if l2.V.dx ≠ 0 then (l.get_S1.x - l2.S0.x) / l2.V.dx
            else (l.get_S1.y - l2.S0.y) / l2.V.dy)) = 0 :=
          max_eq_left (min_le_left _ _)
        simp only [h0]
        refine ⟨⟨0, le_refl _, zero_le_one, ?_⟩, ⟨0, le_refl _, zero_le_one, rfl⟩⟩
        obtain ⟨⟨x1, y1⟩, v1⟩ := l
        obtain ⟨⟨x2, y2⟩, v2⟩ := l2
        simp only [line.get_pt, zero_mul, add_zero, coord_t.mk.injEq] at hx hy ⊢
        constructor <;> linarith

theorem intersect_vertical_zero (m : Libm K) (l l2 : line K)
    (hz : l.V.dx = 0 ∧ l.V.dy = 0) (hv : l2.V.dx = 0) (hH : 0 < l2.V.dy) :
    l.lines_intersect m l2 false =
      if l.S0.x = l2.S0.x ∧ l2.S0.y ≤ l.S0.y ∧ l.S0.y ≤ l2.S0.y + l2.V.dy then (true, l.S0)
      else (false, ⟨0, 0⟩) := by
  obtain ⟨⟨x1, y1⟩, ⟨a1, b1⟩⟩ := l
  obtain ⟨⟨x2, y2⟩, ⟨a2, b2⟩⟩ := l2
  simp only at hz hv hH
  obtain ⟨rfl, rfl⟩ := hz
  subst hv
  have hs : (0 : K) < SMALL_NUM := SMALL_NUM_pos
  have hsn : (0 : K) < SNAP_LEN := by unfold SNAP_LEN; positivity
  have hb : b2 ≠ 0 := ne_of_gt hH
  simp only [line.lines_intersect, perpprod, perpprodRaw, dotprod, dotprodRaw, mul_zero, zero_mul,
    sub_zero, lt_self_iff_false, false_and, ge_iff_le, le_refl, hs, and_self, or_true, if_true,
    ne_eq, not_true_eq_false, false_or, zero_sub, neg_eq_zero, mul_eq_zero, hb, or_false,
    Bool.false_eq_true, if_false, add_zero, true_and, zero_add, mul_self_eq_zero,
    line.is_in_collinear_seg, line.is_vertical, line.is_small, abs_zero, hsn, decide_True,
    Bool.not_true, line.get_S0, line.get_S1, line.get_pt, T_S1, one_mul]
  have h1 : ¬ (y2 + b2 ≤ y2) := by linarith
  have h2 : y2 < y2 + b2 := by linarith
  rw [if_neg h1, if_pos h2]
  by_cases hx : x1 = x2
  · subst hx
    by_cases hy : y2 ≤ y1 ∧ y1 ≤ y2 + b2
    · simp [hy.1, hy.2]
    · have hy2 : ¬ (y1 ≤ y2 + b2 ∧ y2 ≤ y1) := fun h => hy ⟨h.2, h.1⟩
      simp [hy, hy2]
  · have hx2 : ¬ (x1 - x2 = 0) := fun h => hx (by linarith)
    simp [hx, hx2]

theorem nonZero_or_zero (l : line K) : NonZero l ∨ (l.V.dx = 0 ∧ l.V.dy = 0) := by
  by_cases h : l.V.dx = 0
  · by_cases h2 : l.V.dy = 0
    · exact Or.inr ⟨h, h2⟩
    · exact Or.inl (Or.inr h2)
  · exact Or.inl (Or.inl h)

/-- Against a vertical segment `l2` running upwards, the point that
`lines_intersect` reports lies on the segment `l`, at the abscissa of `l2` and
within its ordinates. -/
theorem intersect_vertical_sound (m : Libm K) (l l2 : line K)
    (hv : l2.V.dx = 0) (hH : 0 < l2.V.dy) (hres : (l.lines_intersect m l2 false).1 = true) :
    OnSegment l (l.lines_intersect m l2 false).2 ∧
      (l.lines_intersect m l2 false).2.x = l2.S0.x ∧
      l2.S0.y ≤ (l.lines_intersect m l2 false).2.y ∧
      (l.lines_intersect m l2 false).2.y ≤ l2.S0.y + l2.V.dy := by
  rcases nonZero_or_zero l with h1 | hz
  · obtain ⟨ha, t, ht0, ht1, hb⟩ :=
      intersect_point_sound m l l2 h1 (Or.inr (ne_of_gt hH)) hres
    refine ⟨ha, ?_, ?_, ?_⟩
    · rw [← hb]; simp [line.get_pt, hv]
    · rw [← hb]; simp only [line.get_pt]; nlinarith
    · rw [← hb]; simp only [line.get_pt]; nlinarith
  · rw [intersect_vertical_zero m l l2 hz hv hH] at hres ⊢
    by_cases hc : l.S0.x = l2.S0.x ∧ l2.S0.y ≤ l.S0.y ∧ l.S0.y ≤ l2.S0.y + l2.V.dy
    · rw [if_pos hc]
      exact ⟨⟨0, le_refl _, zero_le_one, by simp [line.get_pt]⟩, hc.1, hc.2.1, hc.2.2⟩
    · rw [if_neg hc] at hres
      exact absurd hres (by simp)

/-- A segment whose run in `x` is at least `SMALL_NUM` is reported with the
very point where it meets a vertical segment of height at least 1. -/
theorem intersect_vertical_skew (m : Libm K) (l l2 : line K)
    (hv : l2.V.dx = 0) (hH : 1 ≤ l2.V.dy) (hdx : SMALL_NUM ≤ |l.V.dx|)
    (q : coord_t K) (hq : OnSegment l q) (hqx : q.x = l2.S0.x)
    (hlo : l2.S0.y ≤ q.y) (hhi : q.y ≤ l2.S0.y + l2.V.dy) :
    l.lines_intersect m l2 false = (true, q) := by
  have hH0 : (0 : K) < l2.V.dy := lt_of_lt_of_le zero_lt_one hH
  have hp : SMALL_NUM ≤ |perpprod l.V l2.V| := by
    have e : perpprod l.V l2.V = l.V.dx * l2.V.dy := by
      simp only [perpprod, perpprodRaw, hv]; ring
    rw [e, abs_mul, abs_of_pos hH0]
    have := abs_nonneg l.V.dx
    nlinarith
  obtain ⟨s, t, -, huniq, hiff, hpt⟩ := skew_core m l l2 hp
  obtain ⟨s0, hs0, hs1, hsq⟩ := hq
  have ht : l2.get_pt ((q.y - l2.S0.y) / l2.V.dy) = q := by
    obtain ⟨qx, qy⟩ := q
    simp only [line.get_pt, hv, mul_zero, add_zero, coord_t.mk.injEq] at hqx ⊢
    refine ⟨hqx.symm, ?_⟩
    field_simp
  obtain ⟨e1, e2⟩ := huniq s0 ((q.y - l2.S0.y) / l2.V.dy) (by rw [hsq, ht])
  have hr : (l.lines_intersect m l2 false).1 = true := by
    rw [hiff, ← e1, ← e2]
    refine ⟨hs0, hs1, div_nonneg (by linarith) hH0.le, ?_⟩
    rw [div_le_one hH0]
    linarith
  have hr2 := hpt hr
  rw [← e1, hsq] at hr2
  exact Prod.ext hr hr2

/-- A vertical segment inside a vertical segment `l2` running upwards is
reported with its lower end. -/
theorem intersect_vertical_collinear (m : Libm K) (l l2 : line K)
    (hv : l2.V.dx = 0) (hH : 0 < l2.V.dy) (hl : l.V.dx = 0) (hx : l.S0.x = l2.S0.x)
    (h0lo : l2.S0.y ≤ l.S0.y) (h0hi : l.S0.y ≤ l2.S0.y + l2.V.dy)
    (h1lo : l2.S0.y ≤ l.get_S1.y) :
    l.lines_intersect m l2 false = (true, ⟨l2.S0.x, min l.S0.y l.get_S1.y⟩) := by
  rcases nonZero_or_zero l with h1 | hz
  · have hc : Collinear l l2 := by
      simp only [Collinear, perpprod, perpprodRaw, hv, hl, hx]
      refine ⟨by ring, by ring, by ring⟩
    rw [lines_intersect_collinear_eq m l l2 h1 (Or.inr (ne_of_gt hH)) hc]
    simp only [hv, ne_eq, not_true_eq_false, if_false]
    have ht0 : 0 ≤ (l.S0.y - l2.S0.y) / l2.V.dy := div_nonneg (by linarith) hH.le
    have ht1 : 0 ≤ (l.get_S1.y - l2.S0.y) / l2.V.dy := div_nonneg (by linarith) hH.le
    have ht0b : (l.S0.y - l2.S0.y) / l2.V.dy ≤ 1 := by rw [div_le_one hH]; linarith
    have hov : ¬ (min ((l.S0.y - l2.S0.y) / l2.V.dy) ((l.get_S1.y - l2.S0.y) / l2.V.dy) > 1 ∨
        max ((l.S0.y - l2.S0.y) / l2.V.dy) ((l.get_S1.y - l2.S0.y) / l2.V.dy) < 0) := by
      rintro (h | h)
      · exact absurd (lt_of_lt_of_le h (min_le_left _ _)) (not_lt.2 ht0b)
      · exact absurd (lt_of_le_of_lt (le_max_left _ _) h) (not_lt.2 ht0)
    rw [if_neg hov, max_eq_right (le_min ht0 ht1)]
    congr 1
    simp only [line.get_pt, hv, mul_zero, add_zero, coord_t.mk.injEq, true_and]
    rcases le_total l.S0.y l.get_S1.y with h | h
    · rw [min_eq_left h, min_eq_left (div_le_div_of_nonneg_right (by linarith) hH.le)]
      field_simp
    · rw [min_eq_right h, min_eq_right (div_le_div_of_nonneg_right (by linarith) hH.le)]
      field_simp
  · rw [intersect_vertical_zero m l l2 hz hv hH, if_pos ⟨hx, h0lo, h0hi⟩]
    have e : l.get_S1.y = l.S0.y := by simp [line.get_S1, line.get_pt, hz.2]
    rw [e, min_self, ← hx]

end VerticalLine

/-! ## The list of intersections with an extended line -/

section IntersectList
variable {K : Type} [LinearOrderedField K]

/-- One round of the expanding loop on a vertical line. -/
theorem expand_round_vertical (l2 : line K) (hv : l2.V.dx = 0) :
    line.ofPoints (l2.get_pt (-1)) (l2.get_pt 2) =
      ⟨⟨l2.S0.x, l2.S0.y - l2.V.dy⟩, ⟨0, 3 * l2.V.dy⟩⟩ := by
  obtain ⟨⟨x, a⟩, ⟨dx, h⟩⟩ := l2
  simp only at hv
  subst hv
  simp only [line.ofPoints, line.get_pt, mul_zero, add_zero, sub_self, line.mk.injEq,
    coord_t.mk.injEq, vector_t.mk.injEq, true_and]
  constructor <;> ring

/-- When the expanding loop ends on a vertical line running upwards, the line
is still vertical at the same abscissa and reaches strictly beyond the
extremities `DOWN` and `UP`. -/
theorem expand_loop_vertical (ext : direction_e → K) (hlr : ext .LEFT ≤ ext .RIGHT)
    (hdu : ext .DOWN ≤ ext .UP) :
    ∀ (n : Nat) (l2 r : line K), l2.V.dx = 0 → 0 < l2.V.dy → expand_loop ext n l2 = some r →
      r.S0.x = l2.S0.x ∧ r.V.dx = 0 ∧ 3 * l2.V.dy ≤ r.V.dy ∧
        r.S0.y < ext .DOWN ∧ ext .UP < r.S0.y + r.V.dy := by
  intro n
  induction n with
  | zero => intro l2 r _ _ h; simp [expand_loop] at h
  | succ n ih =>
    intro l2 r hv hH h
    rw [expand_loop] at h
    simp only [expand_round_vertical l2 hv] at h
    have e1 : (l2.get_pt (-1)).x = l2.S0.x := by simp [line.get_pt, hv]
    have e2 : (l2.get_pt 2).x = l2.S0.x := by simp [line.get_pt, hv]
    have e3 : (l2.get_pt (-1)).y = l2.S0.y - l2.V.dy := by simp only [line.get_pt]; ring
    have e4 : (l2.get_pt 2).y = l2.S0.y + 2 * l2.V.dy := by simp only [line.get_pt]
    rw [e1, e2, e3, e4] at h
    split_ifs at h with hc
    · have hr : r = ⟨⟨l2.S0.x, l2.S0.y - l2.V.dy⟩, ⟨0, 3 * l2.V.dy⟩⟩ := (Option.some.inj h).symm
      subst hr
      rcases hc with (⟨h1, h2⟩ | ⟨h1, h2⟩) | (⟨h1, h2⟩ | ⟨h1, h2⟩)
      · exact absurd (lt_of_lt_of_le h1 hlr) (not_lt.2 h2.le)
      · exact absurd (lt_of_lt_of_le h1 hlr) (not_lt.2 h2.le)
      · refine ⟨rfl, rfl, le_refl _, h1, ?_⟩
        simp only
        linarith
      · exfalso
        have := lt_of_lt_of_le h1 hdu
        linarith
    · obtain ⟨a1, a2, a3, a4, a5⟩ := ih _ r rfl (by simp only; linarith) h
      refine ⟨a1, a2, ?_, a4, a5⟩
      simp only at a3
      linarith

/-- The expanding loop on a vertical line running upwards ends within `n + 1`
rounds once `n + 1` times its height reaches beyond the extremities. -/
theorem expand_loop_ends (ext : direction_e → K) :
    ∀ (n : Nat) (l2 : line K), l2.V.dx = 0 → 0 < l2.V.dy →
      l2.S0.y - (n + 1) * l2.V.dy < ext .DOWN → ext .UP < l2.S0.y + 2 * (n + 1) * l2.V.dy →
      ∀ fuel, n < fuel → ∃ r, expand_loop ext fuel l2 = some r := by
  intro n
  induction n with
  | zero =>
    intro l2 hv hH h1 h2 fuel hf
    obtain ⟨f, rfl⟩ : ∃ k, fuel = k + 1 := ⟨fuel - 1, by omega⟩
    rw [expand_loop]
    have e3 : (l2.get_pt (-1)).y = l2.S0.y - l2.V.dy := by simp only [line.get_pt]; ring
    have e4 : (l2.get_pt 2).y = l2.S0.y + 2 * l2.V.dy := by simp only [line.get_pt]
    simp only [Nat.cast_zero, zero_add, one_mul, mul_one] at h1 h2
    have hc : (l2.get_pt (-1)).y < ext .DOWN ∧ (l2.get_pt 2).y > ext .UP := by
      rw [e3, e4]; exact ⟨h1, h2⟩
    simp only [hc, and_self, true_or, or_true, if_true]
    exact ⟨_, rfl⟩
  | succ n ih =>
    intro l2 hv hH h1 h2 fuel hf
    obtain ⟨f, rfl⟩ : ∃ k, fuel = k + 1 := ⟨fuel - 1, by omega⟩
    rw [expand_loop]
    split_ifs with hc
    · exact ⟨_, rfl⟩
    · rw [expand_round_vertical l2 hv]
      have hn : (0 : K) ≤ n := Nat.cast_nonneg n
      push_cast at h1 h2
      refine ih _ rfl (by simp only; linarith) ?_ ?_ f (by omega)
      · simp only
        nlinarith
      · simp only
        nlinarith

/-- The intersections that the loop of `line_intersect` appends for the
elements of `o`, counted from position `idx`. -/
theorem collect_loop_spec (m : Libm K) (l2 : line K) (o : List (line K)) :
    ∀ (idx : Nat) (isects : List (obj_line_intersect K)) (retval : Bool),
      (∀ h ∈ (collect_loop m l2 o idx isects retval).1, h ∈ isects ∨
        ∃ i l, o[i]? = some l ∧ h.ln = idx + i ∧ (l.lines_intersect m l2 false).1 = true ∧
          h.pt = (l.lines_intersect m l2 false).2 ∧ h.T = l2.T_for_pt h.pt) ∧
      (∀ h ∈ isects, h ∈ (collect_loop m l2 o idx isects retval).1) ∧
      (∀ i l, o[i]? = some l → (l.lines_intersect m l2 false).1 = true →
        ∃ h ∈ (collect_loop m l2 o idx isects retval).1,
          h.ln = idx + i ∧ h.pt = (l.lines_intersect m l2 false).2) := by
  induction o with
  | nil =>
    intro idx isects retval
    simp [collect_loop]
  | cons ln rest ih =>
    intro idx isects retval
    rw [collect_loop]
    split_ifs with hr
    · obtain ⟨ha, hb, hc⟩ := ih (idx + 1)
        (isects ++ [⟨l2.T_for_pt (ln.lines_intersect m l2 false).2, idx,
          (ln.lines_intersect m l2 false).2⟩]) true
      refine ⟨?_, ?_, ?_⟩
      · intro h hh
        rcases ha h hh with h1 | ⟨i, l, h1, h2, h3, h4, h5⟩
        · rcases List.mem_append.1 h1 with h1 | h1
          · exact Or.inl h1
          · rw [List.mem_singleton] at h1
            subst h1
            exact Or.inr ⟨0, ln, by simp, by simp, hr, rfl, rfl⟩
        · exact Or.inr ⟨i + 1, l, by simpa using h1, by omega, h3, h4, h5⟩
      · intro h hh
        exact hb h (List.mem_append_left _ hh)
      · intro i l hi hl
        cases i with
        | zero =>
          simp only [List.getElem?_cons_zero, Option.some.injEq] at hi
          subst hi
          exact ⟨_, hb _ (List.mem_append_right _ (List.mem_singleton_self _)), rfl, rfl⟩
        | succ i =>
          obtain ⟨h, hh, h1, h2⟩ := hc i l (by simpa using hi) hl
          exact ⟨h, hh, by omega, h2⟩
    · obtain ⟨ha, hb, hc⟩ := ih (idx + 1) isects retval
      refine ⟨?_, hb, ?_⟩
      · intro h hh
        rcases ha h hh with h1 | ⟨i, l, h1, h2, h3, h4, h5⟩
        · exact Or.inl h1
        · exact Or.inr ⟨i + 1, l, by simpa using h1, by omega, h3, h4, h5⟩
      · intro i l hi hl
        cases i with
        | zero =>
          simp only [List.getElem?_cons_zero, Option.some.injEq] at hi
          subst hi
          exact absurd hl hr
        | succ i =>
          obtain ⟨h, hh, h1, h2⟩ := hc i l (by simpa using hi) hl
          exact ⟨h, hh, by omega, h2⟩

/-- The first and the last element of the sorted list of intersections have
the least and the greatest `T`. -/
theorem sorted_ends (L : List (obj_line_intersect K)) (first : obj_line_intersect K)
    (more : List (obj_line_intersect K))
    (hs : L.insertionSort (fun a b => a.T ≤ b.T) = first :: more) :
    first ∈ L ∧ (first :: more).getLast (List.cons_ne_nil _ _) ∈ L ∧
      ∀ h ∈ L, first.T ≤ h.T ∧ h.T ≤ ((first :: more).getLast (List.cons_ne_nil _ _)).T := by
  haveI : IsTotal (obj_line_intersect K) (fun a b => a.T ≤ b.T) :=
    ⟨fun a b => le_total a.T b.T⟩
  haveI : IsTrans (obj_line_intersect K) (fun a b => a.T ≤ b.T) :=
    ⟨fun a b c h1 h2 => le_trans h1 h2⟩
  have hperm := List.perm_insertionSort (fun a b : obj_line_intersect K => a.T ≤ b.T) L
  have hsort := List.sorted_insertionSort (fun a b : obj_line_intersect K => a.T ≤ b.T) L
  rw [hs] at hperm hsort
  have hmem : ∀ h, h ∈ L ↔ h ∈ first :: more := fun h => (hperm.mem_iff).symm
  refine ⟨(hmem _).2 (List.mem_cons_self _ _), (hmem _).2 (List.getLast_mem _), ?_⟩
  intro h hh
  have hh2 := (hmem h).1 hh
  constructor
  · rcases List.mem_cons.1 hh2 with rfl | h3
    · exact le_refl _
    · exact List.rel_of_sorted_cons hsort h h3
  · have hsplit := List.dropLast_append_getLast (List.cons_ne_nil first more)
    rw [← hsplit] at hh2 hsort
    rcases List.mem_append.1 hh2 with h3 | h3
    · exact (List.pairwise_append.1 hsort).2.2 h h3 _ (List.mem_singleton_self _)
    · rw [List.mem_singleton] at h3
      rw [h3]

end IntersectList

/-! ## Lowest and highest intersection with a vertical line -/

section TopBot
variable {K : Type} [LinearOrderedField K]

theorem T_for_pt_vertical (l2 : line K) (hv : l2.V.dx = 0) (hH : 1 ≤ l2.V.dy) (p : coord_t K) :
    l2.T_for_pt p = (p.y - l2.S0.y) / l2.V.dy := by
  have h1 : ¬ (|l2.V.dx| > |l2.V.dy|) := by
    rw [hv, abs_zero]
    exact not_lt.2 (abs_nonneg _)
  have h2 : ¬ (|l2.V.dy| < SNAP_LEN) := by
    rw [abs_of_pos (lt_of_lt_of_le zero_lt_one hH)]
    unfold SNAP_LEN
    rw [not_lt]
    refine le_trans ?_ hH
    rw [div_le_one (by positivity)]
    norm_num
  simp only [line.T_for_pt, if_neg h1, line.T_for_y, line.is_horizontal, line.is_small,
    decide_eq_true_eq, if_neg h2]

/-- What `top_bot_intersect` returns, in terms of the list `H` of the
intersections found: each lies on its segment at the abscissa `xpos` (for a
vertical segment it is the lower end); a segment that runs at least
`SMALL_NUM` in `x` contributes its point on the vertical line, a vertical
segment in that line its lower end; `lower` and `upper` are entries of `H`
with the least and the greatest ordinate. -/
theorem top_bot_char (m : Libm K) (HUGE : K) (fuel : Nat) (o : obj K) (xpos : K)
    (r : Option (coord_t K × coord_t K × Nat × Nat))
    (h : o.top_bot_intersect m HUGE fuel xpos = .ok r) :
    ∃ H : List (obj_line_intersect K),
      (∀ h ∈ H, ∃ l, o[h.ln]? = some l ∧ OnSegment l h.pt ∧ h.pt.x = xpos ∧
        (l.V.dx = 0 → h.pt.y = min l.S0.y l.get_S1.y)) ∧
      (∀ l ∈ o, ∀ q, OnSegment l q → q.x = xpos →
        (SMALL_NUM ≤ |l.V.dx| → ∃ h ∈ H, h.pt = q) ∧
        (l.V.dx = 0 → ∃ h ∈ H, h.pt.y ≤ q.y)) ∧
      (r = none ↔ H = []) ∧
      (∀ upper lower iu il, r = some (upper, lower, iu, il) →
        ∃ hu ∈ H, ∃ hl ∈ H, hu.pt = upper ∧ hu.ln = iu ∧ hl.pt = lower ∧ hl.ln = il ∧
          ∀ h ∈ H, lower.y ≤ h.pt.y ∧ h.pt.y ≤ upper.y) := by
  simp only [obj.top_bot_intersect, obj.line_intersect_list, if_true] at h
  cases hexp : expand_loop (fun d => (o.find_extremity HUGE d).2.1) fuel
      (line.ofPoints ⟨xpos, 0⟩ ⟨xpos, 1⟩) with
  | none => rw [hexp] at h; simp at h
  | some l2a =>
    rw [hexp] at h
    simp only at h
    obtain ⟨hx, hv, hH3, hlo, hhi⟩ := expand_loop_vertical _
      (find_extremity_left_le_right HUGE o) (find_extremity_down_le_up HUGE o) fuel _ l2a
      (by simp [line.ofPoints]) (by simp [line.ofPoints]) hexp
    simp only [line.ofPoints, sub_zero, mul_one] at hx hH3
    have hH1 : (1 : K) ≤ l2a.V.dy := by linarith
    have hH0 : (0 : K) < l2a.V.dy := by linarith
    obtain ⟨ca, -, cc⟩ := collect_loop_spec m l2a o 0 [] false
    refine ⟨(collect_loop m l2a o 0 [] false).1, ?_, ?_, ?_, ?_⟩
    · intro e he
      rcases ca e he with h1 | ⟨i, l, h1, h2, h3, h4, -⟩
      · simp at h1
      · obtain ⟨s1, s2, -, -⟩ := intersect_vertical_sound m l l2a hv hH0 h3
        rw [Nat.zero_add] at h2
        rw [h2, h4]
        refine ⟨l, h1, s1, by rw [s2, hx], ?_⟩
        intro hl
        have hmem : l ∈ o := List.getElem?_mem h1
        obtain ⟨b1, b2, b3, b4⟩ := find_extremity_encloses HUGE o l hmem
        have hSx : l.S0.x = l2a.S0.x := by
          obtain ⟨t, -, -, ht⟩ := s1
          have := congrArg coord_t.x ht
          simp only [line.get_pt, hl, mul_zero, add_zero] at this
          rw [this, s2]
        rw [intersect_vertical_collinear m l l2a hv hH0 hl hSx
          (le_trans hlo.le b1) (le_trans b3 hhi.le) (le_trans hlo.le b2)]
    · intro l hl q hq hqx
      obtain ⟨i, hi⟩ := List.getElem?_of_mem hl
      obtain ⟨w1, w2⟩ := onSegment_within_extremities HUGE o l hl q hq
      constructor
      · intro hdx
        have hres := intersect_vertical_skew m l l2a hv hH1 hdx q hq (by rw [hqx, hx])
          (le_trans hlo.le w1) (le_trans w2 hhi.le)
        obtain ⟨e, he, -, he2⟩ := cc i l hi (by rw [hres])
        exact ⟨e, he, by rw [he2, hres]⟩
      · intro hdx
        obtain ⟨b1, b2, b3, b4⟩ := find_extremity_encloses HUGE o l hl
        have hSx : l.S0.x = l2a.S0.x := by
          obtain ⟨t, -, -, ht⟩ := hq
          have := congrArg coord_t.x ht
          simp only [line.get_pt, hdx, mul_zero, add_zero] at this
          rw [this, hqx, hx]
        have hres := intersect_vertical_collinear m l l2a hv hH0 hdx hSx
          (le_trans hlo.le b1) (le_trans b3 hhi.le) (le_trans hlo.le b2)
        obtain ⟨e, he, -, he2⟩ := cc i l hi (by rw [hres])
        refine ⟨e, he, ?_⟩
        rw [he2, hres]
        exact (onSegment_y_between l q hq).1
    · cases hs : (collect_loop m l2a o 0 [] false).1.insertionSort (fun a b => a.T ≤ b.T) with
      | nil =>
        rw [hs] at h
        simp only [Res.ok.injEq] at h
        have hperm := List.perm_insertionSort (fun a b : obj_line_intersect K => a.T ≤ b.T)
          (collect_loop m l2a o 0 [] false).1
        rw [hs] at hperm
        simp [← h, List.nil_perm.1 hperm]
      | cons first more =>
        rw [hs] at h
        simp only [Res.ok.injEq] at h
        have hf := (sorted_ends _ first more hs).1
        constructor
        · intro hr; rw [← h] at hr; simp at hr
        · intro hn; rw [hn] at hf; simp at hf
    · intro upper lower iu il hr
      cases hs : (collect_loop m l2a o 0 [] false).1.insertionSort (fun a b => a.T ≤ b.T) with
      | nil =>
        rw [hs] at h
        simp only [Res.ok.injEq] at h
        rw [← h] at hr
        simp at hr
      | cons first more =>
        rw [hs] at h
        simp only [Res.ok.injEq] at h
        rw [← h] at hr
        simp only [Option.some.injEq, Prod.mk.injEq] at hr
        obtain ⟨r1, r2, r3, r4⟩ := hr
        obtain ⟨hf, hb, hall⟩ := sorted_ends _ first more hs
        have hT : ∀ e ∈ (collect_loop m l2a o 0 [] false).1,
            e.T = (e.pt.y - l2a.S0.y) / l2a.V.dy := by
          intro e he
          rcases ca e he with h1 | ⟨i, l, -, -, -, -, h5⟩
          · simp at h1
          · rw [h5, T_for_pt_vertical l2a hv hH1]
        refine ⟨_, hb, _, hf, r1, r3, r2, r4, ?_⟩
        intro e he
        obtain ⟨t1, t2⟩ := hall e he
        rw [hT e he, hT _ hf] at t1
        rw [hT e he, hT _ hb] at t2
        rw [div_le_div_iff_of_pos_right hH0] at t1 t2
        rw [← r1, ← r2]
        constructor <;> linarith

end TopBot

section TopBotReturns
variable {K : Type} [LinearOrderedField K]

/-- With enough rounds allowed for the expanding loop, `top_bot_intersect`
returns, whatever the abscissa. -/
theorem top_bot_returns [Archimedean K] (m : Libm K) (HUGE : K) (o : obj K) :
    ∃ fuel0, ∀ fuel, fuel0 ≤ fuel → ∀ xpos, ∃ r, o.top_bot_intersect m HUGE fuel xpos = .ok r := by
  obtain ⟨n, hn⟩ := exists_nat_gt (|(o.find_extremity HUGE .DOWN).2.1| +
    |(o.find_extremity HUGE .UP).2.1|)
  refine ⟨n + 1, fun fuel hf xpos => ?_⟩
  have h1 := neg_abs_le (o.find_extremity HUGE .DOWN).2.1
  have h2 := le_abs_self (o.find_extremity HUGE .UP).2.1
  have h3 := abs_nonneg (o.find_extremity HUGE .DOWN).2.1
  have h4 := abs_nonneg (o.find_extremity HUGE .UP).2.1
  obtain ⟨l2a, hl⟩ := expand_loop_ends (fun d => (o.find_extremity HUGE d).2.1) n
    (line.ofPoints ⟨xpos, 0⟩ ⟨xpos, 1⟩) (by simp [line.ofPoints]) (by simp [line.ofPoints])
    (by simp only [line.ofPoints, sub_zero, mul_one]; linarith)
    (by simp only [line.ofPoints, sub_zero, mul_one]; linarith) fuel (by omega)
  simp only [obj.top_bot_intersect, obj.line_intersect_list, if_true, hl]
  split
  · exact ⟨_, rfl⟩
  · exact ⟨_, rfl⟩

/-- When no segment has a point at the abscissa `xpos`, the result of
`top_bot_intersect` is false. -/
theorem top_bot_none (m : Libm K) (HUGE : K) (fuel : Nat) (o : obj K) (xpos : K)
    (r : Option (coord_t K × coord_t K × Nat × Nat))
    (h : o.top_bot_intersect m HUGE fuel xpos = .ok r)
    (hno : ∀ l ∈ o, ∀ q, OnSegment l q → q.x ≠ xpos) : r = none := by
  obtain ⟨H, ha, -, hn, hs⟩ := top_bot_char m HUGE fuel o xpos r h
  cases r with
  | none => rfl
  | some t =>
    obtain ⟨u, lo, iu, il⟩ := t
    obtain ⟨hu, hmem, -⟩ := hs u lo iu il rfl
    obtain ⟨l, h1, h2, h3, -⟩ := ha hu hmem
    exact absurd h3 (hno l (List.getElem?_mem h1) _ h2)

/-- When the segment at position `i`, which runs at least `SMALL_NUM` in `x`,
has the point `q` at the abscissa `xpos`, and nothing else of the path is at
that abscissa, `top_bot_intersect` returns `q` on that segment as both the
upper and the lower intersection. -/
theorem top_bot_single (m : Libm K) (HUGE : K) (fuel : Nat) (o : obj K) (xpos : K)
    (r : Option (coord_t K × coord_t K × Nat × Nat))
    (h : o.top_bot_intersect m HUGE fuel xpos = .ok r)
    (i : Nat) (li : line K) (q : coord_t K) (hi : o[i]? = some li)
    (hdx : SMALL_NUM ≤ |li.V.dx|) (hq : OnSegment li q) (hqx : q.x = xpos)
    (honly : ∀ j l p, o[j]? = some l → OnSegment l p → p.x = xpos → j = i ∧ p = q) :
    r = some (q, q, i, i) := by
  obtain ⟨H, ha, hb, hn, hs⟩ := top_bot_char m HUGE fuel o xpos r h
  obtain ⟨e, he, -⟩ := (hb li (List.getElem?_mem hi) q hq hqx).1 hdx
  cases r with
  | none =>
    rw [hn.1 rfl] at he
    simp at he
  | some t =>
    obtain ⟨u, lo, iu, il⟩ := t
    obtain ⟨eu, hmu, el, hml, r1, r2, r3, r4, -⟩ := hs u lo iu il rfl
    obtain ⟨l1, a1, a2, a3, -⟩ := ha eu hmu
    obtain ⟨l2, b1, b2, b3, -⟩ := ha el hml
    obtain ⟨c1, c2⟩ := honly _ _ _ a1 a2 a3
    obtain ⟨d1, d2⟩ := honly _ _ _ b1 b2 b3
    rw [← r1, ← r2, ← r3, ← r4, c1, c2, d1, d2]

/-- On the single vertical segment from `(0,0)` to `(0,1)`, at the abscissa 0,
`top_bot_intersect` returns the lower end for both `upper` and `lower`. -/
theorem top_bot_verticalUnit {K : Type} [LinearOrderedField K] [Archimedean K] (m : Libm K)
    (HUGE : K) :
    ∃ fuel, (verticalUnit : obj K).top_bot_intersect m HUGE fuel 0 =
      .ok (some (⟨0, 0⟩, ⟨0, 0⟩, 0, 0)) := by
  obtain ⟨fuel, hf⟩ := top_bot_returns m HUGE (verticalUnit : obj K)
  obtain ⟨r, hr⟩ := hf fuel (le_refl _) 0
  obtain ⟨H, ha, hb, hn, hs⟩ := top_bot_char _ HUGE fuel _ 0 r hr
  have hon : OnSegment (⟨⟨0, 0⟩, ⟨0, 1⟩⟩ : line K) ⟨0, 1⟩ :=
    ⟨1, zero_le_one, le_refl _, by simp [line.get_pt]⟩
  refine ⟨fuel, ?_⟩
  have key : ∀ e ∈ H, e.pt = ⟨0, 0⟩ ∧ e.ln = 0 := by
    intro e he
    obtain ⟨l, h1, h2, h3, h4⟩ := ha e he
    have hl : e.ln = 0 ∧ l = ⟨⟨0, 0⟩, ⟨0, 1⟩⟩ := by
      cases hk : e.ln with
      | zero =>
        rw [hk] at h1
        simp only [verticalUnit, List.getElem?_cons_zero, Option.some.injEq] at h1
        exact ⟨rfl, h1.symm⟩
      | succ k =>
        rw [hk] at h1
        simp [verticalUnit] at h1
    obtain ⟨hl1, rfl⟩ := hl
    have h5 := h4 rfl
    simp only [line.get_S1, line.get_pt, T_S1, one_mul, zero_add] at h5
    rw [min_eq_left zero_le_one] at h5
    refine ⟨?_, hl1⟩
    cases hp : e.pt with
    | mk px py =>
      rw [hp] at h3 h5
      simp only at h3 h5
      rw [h3, h5]
  obtain ⟨e, he, -⟩ := (hb _ (List.mem_singleton_self _) ⟨0, 1⟩ hon rfl).2 rfl
  rw [hr]
  cases r with
  | none =>
    rw [hn.1 rfl] at he
    simp at he
  | some t =>
    obtain ⟨u, lo, iu, il⟩ := t
    obtain ⟨eu, hmu, el, hml, r1, r2, r3, r4, -⟩ := hs u lo iu il rfl
    rw [← r1, ← r2, ← r3, ← r4, (key eu hmu).1, (key eu hmu).2, (key el hml).1, (key el hml).2]

end TopBotReturns

/-! ## Claim on `top_bot_intersect` -/

section TopBotClaims

/-- C16, as stated, fails: for the path of the single vertical segment from
`(0,0)` to `(0,1)` and the abscissa 0, `top_bot_intersect` returns true with
`upper` and `lower` both `(0,0)`, while `(0,1)` is a point of the path on that
vertical line with ordinate 1, above `upper.y`. -/
theorem top_bot_intersect_vertical_segment :
    ∃ m : Libm ℝ, m.IsReal ∧ ∀ HUGE : ℝ, ∃ fuel,
      (verticalUnit : obj ℝ).top_bot_intersect m HUGE fuel 0 = .ok (some (⟨0, 0⟩, ⟨0, 0⟩, 0, 0)) ∧
      (∃ l ∈ (verticalUnit : obj ℝ), OnSegment l ⟨0, 1⟩) ∧
      ¬ ((⟨0, 1⟩ : coord_t ℝ).y ≤ (⟨0, 0⟩ : coord_t ℝ).y) := by
  refine ⟨_, isReal_mk, fun HUGE => ?_⟩
  obtain ⟨fuel, hf⟩ := top_bot_verticalUnit _ HUGE
  exact ⟨fuel, hf, ⟨_, List.mem_singleton_self _,
    ⟨1, zero_le_one, le_refl _, by simp [line.get_pt]⟩⟩, by norm_num⟩

/-- C16, amended: with enough rounds allowed for the expanding loop,
`top_bot_intersect(x)` returns.  It returns false only if no segment that is
exactly vertical or runs at least `SMALL_NUM` in `x` meets the vertical line at
`x`, and it returns false whenever no segment meets that line.  When it
returns true, `upper` and `lower` lie on the segments `it_upper` and
`it_lower` of the path at the abscissa `x`, and for every point of such a
segment on that line the ordinate is at least `lower.y` and, unless the
segment is vertical, at most `upper.y`. -/
theorem top_bot_intersect_spec (m : Libm ℝ) (HUGE : ℝ) (o : obj ℝ) (xpos : ℝ) :
    ∃ fuel0, ∀ fuel, fuel0 ≤ fuel → ∃ r, o.top_bot_intersect m HUGE fuel xpos = .ok r ∧
      (r = none → ∀ l ∈ o, (l.V.dx = 0 ∨ SMALL_NUM ≤ |l.V.dx|) →
        ¬ ∃ q, OnSegment l q ∧ q.x = xpos) ∧
      ((¬ ∃ l ∈ o, ∃ q, OnSegment l q ∧ q.x = xpos) → r = none) ∧
      (∀ upper lower iu il, r = some (upper, lower, iu, il) →
        (∃ l, o[iu]? = some l ∧ OnSegment l upper) ∧
        (∃ l, o[il]? = some l ∧ OnSegment l lower) ∧
        upper.x = xpos ∧ lower.x = xpos ∧
        ∀ l ∈ o, (l.V.dx = 0 ∨ SMALL_NUM ≤ |l.V.dx|) → ∀ q, OnSegment l q → q.x = xpos →
          lower.y ≤ q.y ∧ (l.V.dx ≠ 0 → q.y ≤ upper.y)) := by
  obtain ⟨fuel0, hf⟩ := top_bot_returns m HUGE o
  refine ⟨fuel0, fun fuel hfuel => ?_⟩
  obtain ⟨r, hr⟩ := hf fuel hfuel xpos
  obtain ⟨H, ha, hb, hn, hs⟩ := top_bot_char m HUGE fuel o xpos r hr
  refine ⟨r, hr, ?_, ?_, ?_⟩
  · rintro hnone l hl hcl ⟨q, hq, hqx⟩
    have hH := hn.1 hnone
    rcases hcl with hv | hsk
    · obtain ⟨e, he, -⟩ := (hb l hl q hq hqx).2 hv
      rw [hH] at he
      simp at he
    · obtain ⟨e, he, -⟩ := (hb l hl q hq hqx).1 hsk
      rw [hH] at he
      simp at he
  · intro hno
    refine top_bot_none m HUGE fuel o xpos r hr ?_
    intro l hl q hq hqx
    exact hno ⟨l, hl, q, hq, hqx⟩
  · intro upper lower iu il hsome
    obtain ⟨eu, hmu, el, hml, r1, r2, r3, r4, hall⟩ := hs upper lower iu il hsome
    obtain ⟨l1, a1, a2, a3, -⟩ := ha eu hmu
    obtain ⟨l2, b1, b2, b3, -⟩ := ha el hml
    refine ⟨⟨l1, by rw [← r2]; exact a1, by rw [← r1]; exact a2⟩,
      ⟨l2, by rw [← r4]; exact b1, by rw [← r3]; exact b2⟩, by rw [← r1]; exact a3,
      by rw [← r3]; exact b3, ?_⟩
    intro l hl hcl q hq hqx
    rcases hcl with hv | hsk
    · obtain ⟨e, he, hy⟩ := (hb l hl q hq hqx).2 hv
      exact ⟨le_trans (hall e he).1 hy, fun hne => absurd hv hne⟩
    · obtain ⟨e, he, hy⟩ := (hb l hl q hq hqx).1 hsk
      have := hall e he
      rw [hy] at this
      exact ⟨this.1, fun _ => this.2⟩

end TopBotClaims

/-! ## Slots (`obj::cut_slot`) -/

section Slot
variable {K : Type} [LinearOrderedField K]

/-- The point and the handle that `dir_intersect` returns: the point lies on
the segment at the handle, at the abscissa asked for. -/
theorem dir_intersect_sound (m : Libm K) (HUGE : K) (fuel : Nat) (o : obj K) (dir : direction_e)
    (xpos : K) (q : coord_t K) (i : Nat)
    (h : o.dir_intersect m HUGE fuel dir xpos = .ok (some (q, i))) :
    ∃ l, o[i]? = some l ∧ OnSegment l q ∧ q.x = xpos := by
  have key : ∀ r, o.top_bot_intersect m HUGE fuel xpos = .ok r →
      ∀ u lo iu il, r = some (u, lo, iu, il) →
        (∃ l, o[iu]? = some l ∧ OnSegment l u ∧ u.x = xpos) ∧
        (∃ l, o[il]? = some l ∧ OnSegment l lo ∧ lo.x = xpos) := by
    intro r hr u lo iu il hsome
    obtain ⟨H, ha, -, -, hs⟩ := top_bot_char m HUGE fuel o xpos r hr
    obtain ⟨eu, hmu, el, hml, r1, r2, r3, r4, -⟩ := hs u lo iu il hsome
    obtain ⟨l1, a1, a2, a3, -⟩ := ha eu hmu
    obtain ⟨l2, b1, b2, b3, -⟩ := ha el hml
    exact ⟨⟨l1, by rw [← r2]; exact a1, by rw [← r1]; exact a2, by rw [← r1]; exact a3⟩,
      ⟨l2, by rw [← r4]; exact b1, by rw [← r3]; exact b2, by rw [← r3]; exact b3⟩⟩
  cases dir with
  | LEFT => simp [obj.dir_intersect] at h
  | RIGHT => simp [obj.dir_intersect] at h
  | UP =>
    simp only [obj.dir_intersect] at h
    cases hr : o.top_bot_intersect m HUGE fuel xpos with
    | ok r =>
      rw [hr] at h
      simp only [Res.bind, Res.ok.injEq] at h
      cases r with
      | none => simp at h
      | some t =>
        obtain ⟨u, lo, iu, il⟩ := t
        simp only [Option.map_some', Option.some.injEq, Prod.mk.injEq] at h
        obtain ⟨rfl, rfl⟩ := h
        exact (key _ hr u lo iu il rfl).1
    | fatal => rw [hr] at h; simp [Res.bind] at h
    | undef => rw [hr] at h; simp [Res.bind] at h
    | fuel => rw [hr] at h; simp [Res.bind] at h
  | DOWN =>
    simp only [obj.dir_intersect] at h
    cases hr : o.top_bot_intersect m HUGE fuel xpos with
    | ok r =>
      rw [hr] at h
      simp only [Res.bind, Res.ok.injEq] at h
      cases r with
      | none => simp at h
      | some t =>
        obtain ⟨u, lo, iu, il⟩ := t
        simp only [Option.map_some', Option.some.injEq, Prod.mk.injEq] at h
        obtain ⟨rfl, rfl⟩ := h
        exact (key _ hr u lo iu il rfl).2
    | fatal => rw [hr] at h; simp [Res.bind] at h
    | undef => rw [hr] at h; simp [Res.bind] at h
    | fuel => rw [hr] at h; simp [Res.bind] at h

/-- The stages of a call of `cut_slot` that returns: the path is regularised
first; the result false leaves that path; the result true comes from the
three intersections, the gap, the three appended segments and a second
regularisation. -/
theorem cut_slot_ok (m : Libm K) (HUGE : K) (fuel : Nat) (o : obj K) (dir : direction_e)
    (xpos width depth : K) (style : slot_style_e) (pt0 pt1 : coord_t K)
    (b : Bool) (e : obj K) (q0 q1 : coord_t K)
    (h : o.cut_slot m HUGE fuel dir xpos width depth style pt0 pt1 = .ok (b, e, q0, q1)) :
    ∃ e1, o.regularise_no_del m = .ok e1 ∧
      ((b = false ∧ e = e1) ∨
       (b = true ∧ ∃ ptc lnc lc l0 l1 e2,
          e1.dir_intersect m HUGE fuel dir xpos = .ok (some (ptc, lnc)) ∧
          e1[lnc]? = some lc ∧
          e1.dir_intersect m HUGE fuel dir
            (slot_reference m ptc lc.get_V width style).get_S0.x = .ok (some (q0, l0)) ∧
          e1.dir_intersect m HUGE fuel dir
            (slot_reference m ptc lc.get_V width style).get_S1.x = .ok (some (q1, l1)) ∧
          e1.make_gap l0 q0 l1 q1 false = .ok e2 ∧
          obj.regularise_no_del m (e2 ++
            [line.ofPoints q0
                ((slot_reference m ptc lc.get_V width style).move_sideways m (-depth)).get_S0,
              line.ofPoints
                ((slot_reference m ptc lc.get_V width style).move_sideways m (-depth)).get_S1 q1,
              (slot_reference m ptc lc.get_V width style).move_sideways m (-depth)]) =
            .ok e)) := by
  simp only [obj.cut_slot] at h
  cases h1 : o.regularise_no_del m with
  | fatal => rw [h1] at h; simp [Res.bind] at h
  | undef => rw [h1] at h; simp [Res.bind] at h
  | fuel => rw [h1] at h; simp [Res.bind] at h
  | ok e1 =>
    rw [h1] at h
    simp only [Res.bind] at h
    refine ⟨e1, rfl, ?_⟩
    cases h2 : e1.dir_intersect m HUGE fuel dir xpos with
    | fatal => rw [h2] at h; simp at h
    | undef => rw [h2] at h; simp at h
    | fuel => rw [h2] at h; simp at h
    | ok rc =>
      rw [h2] at h
      simp only at h
      cases rc with
      | none =>
        simp only [Res.ok.injEq, Prod.mk.injEq] at h
        exact Or.inl ⟨h.1.symm, h.2.1.symm⟩
      | some t =>
        obtain ⟨ptc, lnc⟩ := t
        simp only at h
        cases h3 : e1[lnc]? with
        | none => rw [h3] at h; simp at h
        | some lc =>
          rw [h3] at h
          simp only at h
          cases h4 : e1.dir_intersect m HUGE fuel dir
              (slot_reference m ptc lc.get_V width style).get_S0.x with
          | fatal => rw [h4] at h; simp at h
          | undef => rw [h4] at h; simp at h
          | fuel => rw [h4] at h; simp at h
          | ok r0 =>
            rw [h4] at h
            simp only at h
            cases r0 with
            | none =>
              simp only [Res.ok.injEq, Prod.mk.injEq] at h
              exact Or.inl ⟨h.1.symm, h.2.1.symm⟩
            | some t0 =>
              obtain ⟨p0, l0⟩ := t0
              simp only at h
              cases h5 : e1.dir_intersect m HUGE fuel dir
                  (slot_reference m ptc lc.get_V width style).get_S1.x with
              | fatal => rw [h5] at h; simp at h
              | undef => rw [h5] at h; simp at h
              | fuel => rw [h5] at h; simp at h
              | ok r1 =>
                rw [h5] at h
                simp only at h
                cases r1 with
                | none =>
                  simp only [Res.ok.injEq, Prod.mk.injEq] at h
                  exact Or.inl ⟨h.1.symm, h.2.1.symm⟩
                | some t1 =>
                  obtain ⟨p1, l1⟩ := t1
                  simp only at h
                  cases h6 : e1.make_gap l0 p0 l1 p1 false with
                  | fatal => rw [h6] at h; simp at h
                  | undef => rw [h6] at h; simp at h
                  | fuel => rw [h6] at h; simp at h
                  | ok e2 =>
                    rw [h6] at h
                    simp only at h
                    cases h7 : obj.regularise_no_del m (e2 ++
                        [line.ofPoints p0
                          ((slot_reference m ptc lc.get_V width style).move_sideways m
                            (-depth)).get_S0,
                        line.ofPoints
                          ((slot_reference m ptc lc.get_V width style).move_sideways m
                            (-depth)).get_S1 p1,
                        (slot_reference m ptc lc.get_V width style).move_sideways m
                          (-depth)]) with
                    | fatal => rw [h7] at h; simp at h
                    | undef => rw [h7] at h; simp at h
                    | fuel => rw [h7] at h; simp at h
                    | ok e4 =>
                      rw [h7] at h
                      simp only [Res.ok.injEq, Prod.mk.injEq] at h
                      obtain ⟨hb, he, hq0, hq1⟩ := h
                      subst hq0 hq1 he
                      exact Or.inr ⟨hb.symm, ptc, lnc, lc, l0, l1, e2, rfl, h3, h4, h5, h6, h7⟩

end Slot

section SlotTrace
variable {K : Type} [LinearOrderedField K]

theorem getLast_concat_get_S1 (st : line K) (tail : List (line K)) (a b : coord_t K) :
    ((st :: (tail ++ [line.ofPoints a b])).getLast (List.cons_ne_nil _ _)).get_S1 = b := by
  have h : (st :: (tail ++ [line.ofPoints a b])).getLast (List.cons_ne_nil _ _) =
      line.ofPoints a b := by
    have h2 : (st :: (tail ++ [line.ofPoints a b])).getLast? = some (line.ofPoints a b) := by
      rw [← List.cons_append, List.getLast?_append_of_ne_nil _ (List.cons_ne_nil _ _)]
      rfl
    rw [List.getLast?_eq_getLast _ (List.cons_ne_nil _ _)] at h2
    exact Option.some.inj h2
  rw [h, ofPoints_get_S1]

theorem getLast_concat2_get_S1 (st : line K) (tail : List (line K)) (x : line K)
    (a b : coord_t K) :
    ((st :: (tail ++ [x, line.ofPoints a b])).getLast (List.cons_ne_nil _ _)).get_S1 = b := by
  have h := getLast_concat_get_S1 st (tail ++ [x]) a b
  simp only [List.append_assoc, List.singleton_append] at h
  exact h

theorem getLast_concat3_get_S1 (st : line K) (tail : List (line K)) (x y : line K)
    (a b : coord_t K) :
    ((st :: (tail ++ [x, y, line.ofPoints a b])).getLast (List.cons_ne_nil _ _)).get_S1 = b := by
  have h := getLast_concat_get_S1 st (tail ++ [x, y]) a b
  simp only [List.append_assoc, List.cons_append, List.nil_append] at h
  exact h

/-- The trace of the pieces of a slot cut within one segment: from a path that
ends at the corner `q0`, through the wall to `b0`, the bottom to `b1` and the
wall to `q1`, to the rest of the cut segment that ends at `c`. -/
theorem trace_scan_slot (m : Libm K) (snap : K) (st : line K) (tail : List (line K))
    (q0 b0 b1 q1 c : coord_t K) (hz : ∀ p, distTwoPoints m p p ≤ snap)
    (hen : ((st :: tail).getLast (List.cons_ne_nil _ _)).get_S1 = q0)
    (f1 : ¬ distTwoPoints m q0 q1 ≤ snap) (f2 : ¬ distTwoPoints m q0 c ≤ snap)
    (f3 : ¬ distTwoPoints m q0 b0 ≤ snap) (f4 : ¬ distTwoPoints m b0 q1 ≤ snap)
    (f5 : ¬ distTwoPoints m b0 c ≤ snap) (f6 : ¬ distTwoPoints m b0 b1 ≤ snap)
    (f7 : ¬ distTwoPoints m b1 q1 ≤ snap) (f8 : ¬ distTwoPoints m b1 c ≤ snap)
    (f9 : ¬ distTwoPoints m q1 c ≤ snap)
    (g1 : ¬ distTwoPoints m st.get_S0 q1 ≤ snap) (g2 : ¬ distTwoPoints m st.get_S0 c ≤ snap)
    (g3 : ¬ distTwoPoints m st.get_S0 b0 ≤ snap) (g4 : ¬ distTwoPoints m st.get_S0 b1 ≤ snap) :
    trace_scan m snap st tail []
        [line.ofPoints q1 c, line.ofPoints q0 b0, line.ofPoints b1 q1, line.ofPoints b0 b1] =
      (false, st :: (tail ++ [line.ofPoints q0 b0, line.ofPoints b0 b1, line.ofPoints b1 q1,
        line.ofPoints q1 c]), []) := by
  rw [trace_scan_skip m snap st tail [] _ _ q0 q1 c hen (Or.inl rfl) f1 f2 g1 g2,
    trace_scan_append m snap st tail _ _ _ q0 b0 hen (Or.inl rfl) (hz _) f3 g3]
  simp only [List.nil_append, List.cons_append]
  rw [trace_scan_skip m snap st _ [] _ _ b0 q1 c (getLast_concat_get_S1 _ _ _ _) (Or.inl rfl)
      f4 f5 g1 g2,
    trace_scan_skip m snap st _ _ _ _ b0 b1 q1 (getLast_concat_get_S1 _ _ _ _) (Or.inl rfl)
      f6 f4 g4 g1,
    trace_scan_append m snap st _ _ _ _ b0 b1 (getLast_concat_get_S1 _ _ _ _) (Or.inl rfl)
      (hz _) f6 g4]
  simp only [List.nil_append, List.cons_append, List.append_assoc, List.append_nil]
  rw [trace_scan_skip m snap st _ [] _ _ b1 q1 c
      (getLast_concat2_get_S1 _ _ _ _ _) (Or.inl rfl)
      f7 f8 g1 g2,
    trace_scan_append m snap st _ _ _ _ b1 q1
      (getLast_concat2_get_S1 _ _ _ _ _) (Or.inl rfl)
      (hz _) f7 g1]
  simp only [List.nil_append, List.cons_append, List.append_assoc, List.append_nil]
  rw [trace_scan_append m snap st _ [] [] _ q1 c
      (getLast_concat3_get_S1 _ _ _ _ _ _)
      (Or.inl rfl) (hz _) f9 g2]
  simp only [List.nil_append, List.cons_append, List.append_assoc, List.append_nil]
  rw [trace_scan]

end SlotTrace

section SlotEvaluation

/-- A trace that takes every element into one open path makes up the result
of `regularise_no_del`. -/
theorem regularise_no_del_open {K : Type} [LinearOrderedField K] (m : Libm K) (st : line K)
    (r path : List (line K)) (h : trace_a_path m SNAP_LEN (st :: r) = (false, path, [])) :
    obj.regularise_no_del m (st :: r) = .ok path := by
  have h0 : make_path_lists m SNAP_LEN (st :: r) [] [] =
      make_path_loop m SNAP_LEN true true (r.length + 1) [] (st :: r) [] [] := rfl
  rw [obj.regularise_no_del, h0, make_path_loop_keep m SNAP_LEN true r.length [] st r [] []
    path [] h, make_path_loop_nil]
  simp

theorem trace_gapPath (m : Libm ℝ) (hm : m.IsReal) :
    trace_a_path m SNAP_LEN (gapPath : obj ℝ) = (false, gapPathSnapped, []) := by
  simp [trace_a_path, trace_scan, distTwoPoints, hm.1, Real.sqrt_le_iff, gapPath, gapPathSnapped,
    line.get_S1, line.get_S0, line.get_pt, line.reverse, line.ofPoints, T_S1, SNAP_LEN]
  norm_num

/-- Two points whose squared distance exceeds the square of `SNAP_LEN` are
not within `SNAP_LEN` of each other. -/
theorem far_apart (m : Libm ℝ) (hm : m.IsReal) (p q : coord_t ℝ)
    (h : (1 / 10000 : ℝ) ^ 2 < (p.x - q.x) * (p.x - q.x) + (p.y - q.y) * (p.y - q.y)) :
    ¬ distTwoPoints m p q ≤ SNAP_LEN := by
  simp only [distTwoPoints, hm.1, SNAP_LEN, Real.sqrt_le_iff, not_and, not_le]
  intro _
  exact h

theorem trace_gapPathCut (m : Libm ℝ) (hm : m.IsReal) :
    trace_a_path m SNAP_LEN (gapPathCut : obj ℝ) = (false, gapPathSlotted, []) := by
  have hz := dist_self_le_snap m hm
  simp only [trace_a_path, gapPathCut, gapPathSlotted]
  rw [trace_scan_append m SNAP_LEN _ [] [] _ _ ⟨1, 0⟩ ⟨5 / 4, 1 / 80000⟩
    (by simp [line.get_S1, line.get_pt, T_S1]) (Or.inl rfl) (hz _)
    (far_apart m hm _ _ (by norm_num)) (far_apart m hm _ _ (by norm_num [line.get_S0]))]
  simp only [List.nil_append]
  rw [trace_scan_slot m SNAP_LEN _ _ ⟨5 / 4, 1 / 80000⟩ ⟨5 / 4, -9999 / 40000⟩
    ⟨7 / 4, -9999 / 40000⟩ ⟨7 / 4, 3 / 80000⟩ ⟨2, 1 / 20000⟩ hz
    (by simp [ofPoints_get_S1])
    (far_apart m hm _ _ (by norm_num)) (far_apart m hm _ _ (by norm_num))
    (far_apart m hm _ _ (by norm_num)) (far_apart m hm _ _ (by norm_num))
    (far_apart m hm _ _ (by norm_num)) (far_apart m hm _ _ (by norm_num))
    (far_apart m hm _ _ (by norm_num)) (far_apart m hm _ _ (by norm_num))
    (far_apart m hm _ _ (by norm_num))
    (far_apart m hm _ _ (by norm_num [line.get_S0]))
    (far_apart m hm _ _ (by norm_num [line.get_S0]))
    (far_apart m hm _ _ (by norm_num [line.get_S0]))
    (far_apart m hm _ _ (by norm_num [line.get_S0]))]
  rfl

theorem trace_slopePathCut (m : Libm ℝ) (hm : m.IsReal) :
    trace_a_path m SNAP_LEN (slopePathCut : obj ℝ) = (false, slopePathSlotted, []) := by
  have hz := dist_self_le_snap m hm
  simp only [trace_a_path, slopePathCut, slopePathSlotted]
  rw [trace_scan_slot m SNAP_LEN _ _ ⟨1, 1 / 2⟩ ⟨1, 0⟩ ⟨3, 0⟩ ⟨3, 3 / 2⟩ ⟨4, 2⟩ hz
    (by simp [ofPoints_get_S1])
    (far_apart m hm _ _ (by norm_num)) (far_apart m hm _ _ (by norm_num))
    (far_apart m hm _ _ (by norm_num)) (far_apart m hm _ _ (by norm_num))
    (far_apart m hm _ _ (by norm_num)) (far_apart m hm _ _ (by norm_num))
    (far_apart m hm _ _ (by norm_num)) (far_apart m hm _ _ (by norm_num))
    (far_apart m hm _ _ (by norm_num))
    (far_apart m hm _ _ (by norm_num [ofPoints_get_S0]))
    (far_apart m hm _ _ (by norm_num [ofPoints_get_S0]))
    (far_apart m hm _ _ (by norm_num [ofPoints_get_S0]))
    (far_apart m hm _ _ (by norm_num [ofPoints_get_S0]))]
  rfl

end SlotEvaluation

section SlotEvaluation2

/-- The reference line of a slot of style `VERTICAL` under a segment that runs
forward in `x`: horizontal, of length `width`, centred on `ptc`. -/
theorem slot_reference_vertical (m : Libm ℝ) (hm : m.IsReal) (ptc : coord_t ℝ) (v : vector_t ℝ)
    (width : ℝ) (hv : 0 < v.dx) :
    slot_reference m ptc v width .VERTICAL = ⟨⟨ptc.x - width / 2, ptc.y⟩, ⟨width, 0⟩⟩ := by
  have hs : Real.sqrt (v.dx * v.dx + 0 * 0) = v.dx := by
    rw [mul_zero, add_zero, Real.sqrt_mul_self hv.le]
  have hne : v.dx ≠ 0 := ne_of_gt hv
  simp only [slot_reference, if_true, line.get_S0, line.get_V, line.set_length, line.len, hm.1,
    hs, line.ofPoints, line.get_pt, line.mk.injEq, coord_t.mk.injEq, vector_t.mk.injEq]
  refine ⟨⟨?_, ?_⟩, ?_, ?_⟩
  · field_simp
    ring
  · ring
  · field_simp
    ring
  · ring

/-- Moving a horizontal line that runs forward in `x` sideways by `d` raises
it by `d`. -/
theorem move_sideways_horizontal (m : Libm ℝ) (hm : m.IsReal) (S0 : coord_t ℝ) (w d : ℝ)
    (hw : 0 < w) :
    (⟨S0, ⟨w, 0⟩⟩ : line ℝ).move_sideways m d = ⟨⟨S0.x, S0.y + d⟩, ⟨w, 0⟩⟩ := by
  have hs : Real.sqrt (-0 * -0 + w * w) = w := by
    rw [neg_zero, mul_zero, zero_add, Real.sqrt_mul_self hw.le]
  have hne : w ≠ 0 := ne_of_gt hw
  simp only [line.move_sideways, line.add_offset, hm.1, hs, line.mk.injEq, coord_t.mk.injEq,
    and_true]
  refine ⟨by ring, ?_⟩
  field_simp

/-- On the snapped path `gapPathSnapped` the vertical line at an abscissa `x`
in `(1, 2]` meets the second segment only. -/
theorem top_bot_gapPathSnapped (m : Libm ℝ) (HUGE : ℝ) (fuel : Nat) (x : ℝ) (h1 : 1 < x)
    (h2 : x ≤ 2) (r : Option (coord_t ℝ × coord_t ℝ × Nat × Nat))
    (h : (gapPathSnapped : obj ℝ).top_bot_intersect m HUGE fuel x = .ok r) :
    r = some (⟨x, (x - 1) / 20000⟩, ⟨x, (x - 1) / 20000⟩, 1, 1) := by
  refine top_bot_single m HUGE fuel _ x r h 1 ⟨⟨1, 0⟩, ⟨1, 1 / 20000⟩⟩ _ rfl ?_ ?_ rfl ?_
  · simp only [abs_one, SMALL_NUM, SNAP_LEN]
    norm_num
  · refine ⟨x - 1, by linarith, by linarith, ?_⟩
    simp only [line.get_pt, coord_t.mk.injEq]
    constructor <;> ring
  · intro j l p hj hp hpx
    obtain ⟨t, ht0, ht1, rfl⟩ := hp
    match j, hj with
    | 0, hj =>
      simp only [gapPathSnapped, List.getElem?_cons_zero, Option.some.injEq] at hj
      subst hj
      simp only [line.get_pt] at hpx
      linarith
    | 1, hj =>
      simp only [gapPathSnapped, List.getElem?_cons_succ, List.getElem?_cons_zero,
        Option.some.injEq] at hj
      subst hj
      simp only [line.get_pt] at hpx
      refine ⟨rfl, ?_⟩
      simp only [line.get_pt, coord_t.mk.injEq]
      constructor
      · linarith
      · have : t = x - 1 := by linarith
        rw [this]
        ring
    | j + 2, hj => simp [gapPathSnapped] at hj

/-- On `slopePath` the vertical line at an abscissa `x` in `[0, 4]` meets the
segment at the height `x / 2`. -/
theorem top_bot_slopePath (m : Libm ℝ) (HUGE : ℝ) (fuel : Nat) (x : ℝ) (h1 : 0 ≤ x)
    (h2 : x ≤ 4) (r : Option (coord_t ℝ × coord_t ℝ × Nat × Nat))
    (h : (slopePath : obj ℝ).top_bot_intersect m HUGE fuel x = .ok r) :
    r = some (⟨x, x / 2⟩, ⟨x, x / 2⟩, 0, 0) := by
  refine top_bot_single m HUGE fuel _ x r h 0 ⟨⟨0, 0⟩, ⟨4, 2⟩⟩ _ rfl ?_ ?_ rfl ?_
  · simp only [SMALL_NUM, SNAP_LEN]
    rw [abs_of_pos (by norm_num)]
    norm_num
  · refine ⟨x / 4, by positivity, by linarith, ?_⟩
    simp only [line.get_pt, coord_t.mk.injEq]
    constructor <;> ring
  · intro j l p hj hp hpx
    obtain ⟨t, ht0, ht1, rfl⟩ := hp
    match j, hj with
    | 0, hj =>
      simp only [slopePath, List.getElem?_cons_zero, Option.some.injEq] at hj
      subst hj
      simp only [line.get_pt] at hpx
      refine ⟨rfl, ?_⟩
      simp only [line.get_pt, coord_t.mk.injEq]
      constructor
      · linarith
      · have : t = x / 4 := by linarith
        rw [this]
        ring
    | j + 1, hj => simp [slopePath] at hj

/-- On the doubled segment no point has the abscissa 5. -/
theorem top_bot_BA_AB (m : Libm ℝ) (HUGE : ℝ) (fuel : Nat)
    (r : Option (coord_t ℝ × coord_t ℝ × Nat × Nat))
    (h : obj.top_bot_intersect m HUGE fuel ([segBA, segAB] : obj ℝ) 5 = .ok r) : r = none := by
  refine top_bot_none m HUGE fuel _ 5 r h ?_
  intro l hl q hq
  obtain ⟨t, ht0, ht1, rfl⟩ := hq
  simp only [List.mem_cons, List.mem_singleton, List.not_mem_nil, or_false] at hl
  rcases hl with rfl | rfl
  · simp only [segBA, line.get_pt]
    intro h5
    linarith
  · simp only [segAB, line.get_pt]
    intro h5
    linarith

theorem regularise_no_del_AB_BA (m : Libm ℝ) (hm : m.IsReal) :
    obj.regularise_no_del m ([segAB, segBA] : obj ℝ) = .ok [segBA, segAB] := by
  rw [obj.regularise_no_del, make_path_lists_AB_BA m hm]

end SlotEvaluation2

section SlotEvaluation3

theorem dir_intersect_up_of (m : Libm ℝ) (HUGE : ℝ) (fuel : Nat) (o : obj ℝ) (x : ℝ)
    (q : coord_t ℝ) (i : Nat)
    (hr : ∃ r, o.top_bot_intersect m HUGE fuel x = .ok r)
    (h : ∀ r, o.top_bot_intersect m HUGE fuel x = .ok r → r = some (q, q, i, i)) :
    o.dir_intersect m HUGE fuel .UP x = .ok (some (q, i)) := by
  obtain ⟨r, hr⟩ := hr
  have := h r hr
  subst this
  simp [obj.dir_intersect, hr, Res.bind]

theorem cut_slot_gapPath (m : Libm ℝ) (hm : m.IsReal) (HUGE : ℝ) (pt0 pt1 : coord_t ℝ) :
    ∃ fuel0, ∀ fuel, fuel0 ≤ fuel →
      (gapPath : obj ℝ).cut_slot m HUGE fuel .UP (3 / 2) (1 / 2) (1 / 4) .VERTICAL pt0 pt1 =
        .ok (true, gapPathSlotted, ⟨5 / 4, 1 / 80000⟩, ⟨7 / 4, 3 / 80000⟩) := by
  obtain ⟨fuel0, hf⟩ := top_bot_returns m HUGE (gapPathSnapped : obj ℝ)
  refine ⟨fuel0, fun fuel hfuel => ?_⟩
  have hdir : ∀ x : ℝ, 1 < x → x ≤ 2 →
      (gapPathSnapped : obj ℝ).dir_intersect m HUGE fuel .UP x =
        .ok (some (⟨x, (x - 1) / 20000⟩, 1)) := fun x h1 h2 =>
    dir_intersect_up_of m HUGE fuel _ x _ 1 (hf fuel hfuel x)
      (fun r hr => top_bot_gapPathSnapped m HUGE fuel x h1 h2 r hr)
  have hreg : obj.regularise_no_del m (gapPath : obj ℝ) = .ok gapPathSnapped :=
    regularise_no_del_open m _ _ _ (trace_gapPath m hm)
  have hlc : (gapPathSnapped : obj ℝ)[1]? = some ⟨⟨1, 0⟩, ⟨1, 1 / 20000⟩⟩ := rfl
  have href : slot_reference m ⟨3 / 2, (3 / 2 - 1) / 20000⟩ ⟨1, 1 / 20000⟩ (1 / 2) .VERTICAL =
      ⟨⟨5 / 4, 1 / 40000⟩, ⟨1 / 2, 0⟩⟩ := by
    rw [slot_reference_vertical m hm _ _ _ (by norm_num)]
    norm_num
  have hbot : (⟨⟨5 / 4, 1 / 40000⟩, ⟨1 / 2, 0⟩⟩ : line ℝ).move_sideways m (-(1 / 4)) =
      ⟨⟨5 / 4, -9999 / 40000⟩, ⟨1 / 2, 0⟩⟩ := by
    rw [move_sideways_horizontal m hm _ _ _ (by norm_num)]
    norm_num
  have e1 : (5 / 4 : ℝ) + 1 * (1 / 2) = 7 / 4 := by norm_num
  have hgap : obj.make_gap (gapPathSnapped : obj ℝ) 1 ⟨5 / 4, (5 / 4 - 1) / 20000⟩ 1
      ⟨7 / 4, (7 / 4 - 1) / 20000⟩ false =
      .ok [⟨⟨0, 0⟩, ⟨1, 0⟩⟩, line.ofPoints ⟨1, 0⟩ ⟨5 / 4, (5 / 4 - 1) / 20000⟩,
        line.ofPoints ⟨7 / 4, (7 / 4 - 1) / 20000⟩ ⟨2, 1 / 20000⟩] := by
    simp [obj.make_gap, gapPathSnapped, line.get_S0, line.get_S1, line.get_pt, T_S1]
    norm_num
  have hcut : ([⟨⟨0, 0⟩, ⟨1, 0⟩⟩, line.ofPoints ⟨1, 0⟩ ⟨5 / 4, (5 / 4 - 1) / 20000⟩,
        line.ofPoints ⟨7 / 4, (7 / 4 - 1) / 20000⟩ ⟨2, 1 / 20000⟩] ++
      [line.ofPoints ⟨5 / 4, (5 / 4 - 1) / 20000⟩
          (⟨⟨5 / 4, -9999 / 40000⟩, ⟨1 / 2, 0⟩⟩ : line ℝ).get_S0,
        line.ofPoints (⟨⟨5 / 4, -9999 / 40000⟩, ⟨1 / 2, 0⟩⟩ : line ℝ).get_S1
          ⟨7 / 4, (7 / 4 - 1) / 20000⟩,
        ⟨⟨5 / 4, -9999 / 40000⟩, ⟨1 / 2, 0⟩⟩] : obj ℝ) = gapPathCut := by
    simp only [gapPathCut, line.ofPoints, line.get_S0, line.get_S1, line.get_pt, T_S1]
    norm_num
  have hreg2 : obj.regularise_no_del m (gapPathCut : obj ℝ) = .ok gapPathSlotted :=
    regularise_no_del_open m _ _ _ (trace_gapPathCut m hm)
  rw [obj.cut_slot, hreg]
  simp only [Res.bind]
  rw [hdir (3 / 2) (by norm_num) (by norm_num)]
  simp only [hlc, line.get_V, href]
  have hS0 : (⟨⟨5 / 4, 1 / 40000⟩, ⟨1 / 2, 0⟩⟩ : line ℝ).get_S0.x = 5 / 4 := rfl
  have hS1 : (⟨⟨5 / 4, 1 / 40000⟩, ⟨1 / 2, 0⟩⟩ : line ℝ).get_S1.x = 7 / 4 := by
    simp only [line.get_S1, line.get_pt, T_S1]
    norm_num
  rw [hS0, hS1, hdir (5 / 4) (by norm_num) (by norm_num)]
  simp only
  rw [hdir (7 / 4) (by norm_num) (by norm_num)]
  simp only
  rw [hgap]
  simp only [hbot]
  rw [hcut, hreg2]
  norm_num

theorem cut_slot_slopePath (m : Libm ℝ) (hm : m.IsReal) (HUGE : ℝ) (pt0 pt1 : coord_t ℝ) :
    ∃ fuel0, ∀ fuel, fuel0 ≤ fuel →
      (slopePath : obj ℝ).cut_slot m HUGE fuel .UP 2 2 1 .VERTICAL pt0 pt1 =
        .ok (true, slopePathSlotted, ⟨1, 1 / 2⟩, ⟨3, 3 / 2⟩) := by
  obtain ⟨fuel0, hf⟩ := top_bot_returns m HUGE (slopePath : obj ℝ)
  refine ⟨fuel0, fun fuel hfuel => ?_⟩
  have hdir : ∀ x : ℝ, 0 ≤ x → x ≤ 4 →
      (slopePath : obj ℝ).dir_intersect m HUGE fuel .UP x =
        .ok (some (⟨x, x / 2⟩, 0)) := fun x h1 h2 =>
    dir_intersect_up_of m HUGE fuel _ x _ 0 (hf fuel hfuel x)
      (fun r hr => top_bot_slopePath m HUGE fuel x h1 h2 r hr)
  have hreg : obj.regularise_no_del m (slopePath : obj ℝ) = .ok slopePath :=
    regularise_no_del_open m _ _ _ (trace_single m SNAP_LEN _)
  have hlc : (slopePath : obj ℝ)[0]? = some ⟨⟨0, 0⟩, ⟨4, 2⟩⟩ := rfl
  have href : slot_reference m ⟨2, 2 / 2⟩ ⟨4, 2⟩ 2 .VERTICAL = ⟨⟨1, 1⟩, ⟨2, 0⟩⟩ := by
    rw [slot_reference_vertical m hm _ _ _ (by norm_num)]
    norm_num
  have hbot : (⟨⟨1, 1⟩, ⟨2, 0⟩⟩ : line ℝ).move_sideways m (-1) = ⟨⟨1, 0⟩, ⟨2, 0⟩⟩ := by
    rw [move_sideways_horizontal m hm _ _ _ (by norm_num)]
    norm_num
  have hgap : obj.make_gap (slopePath : obj ℝ) 0 ⟨1, 1 / 2⟩ 0 ⟨3, 3 / 2⟩ false =
      .ok [line.ofPoints ⟨0, 0⟩ ⟨1, 1 / 2⟩, line.ofPoints ⟨3, 3 / 2⟩ ⟨4, 2⟩] := by
    simp [obj.make_gap, slopePath, line.get_S0, line.get_S1, line.get_pt, T_S1]
  have hcut : ([line.ofPoints ⟨0, 0⟩ ⟨1, 1 / 2⟩, line.ofPoints ⟨3, 3 / 2⟩ ⟨4, 2⟩] ++
      [line.ofPoints ⟨1, 1 / 2⟩ (⟨⟨1, 0⟩, ⟨2, 0⟩⟩ : line ℝ).get_S0,
        line.ofPoints (⟨⟨1, 0⟩, ⟨2, 0⟩⟩ : line ℝ).get_S1 ⟨3, 3 / 2⟩,
        ⟨⟨1, 0⟩, ⟨2, 0⟩⟩] : obj ℝ) = slopePathCut := by
    simp only [slopePathCut, line.ofPoints, line.get_S0, line.get_S1, line.get_pt, T_S1]
    norm_num
  have hreg2 : obj.regularise_no_del m (slopePathCut : obj ℝ) = .ok slopePathSlotted :=
    regularise_no_del_open m _ _ _ (trace_slopePathCut m hm)
  rw [obj.cut_slot, hreg]
  simp only [Res.bind]
  rw [hdir 2 (by norm_num) (by norm_num)]
  simp only [hlc, line.get_V, href]
  have hS0 : (⟨⟨1, 1⟩, ⟨2, 0⟩⟩ : line ℝ).get_S0.x = 1 := rfl
  have hS1 : (⟨⟨1, 1⟩, ⟨2, 0⟩⟩ : line ℝ).get_S1.x = 3 := by
    simp only [line.get_S1, line.get_pt, T_S1]
    norm_num
  rw [hS0, hS1, hdir 1 (by norm_num) (by norm_num)]
  simp only
  rw [hdir 3 (by norm_num) (by norm_num)]
  simp only
  rw [hgap]
  simp only [hbot]
  rw [hcut, hreg2]

theorem cut_slot_AB_BA (m : Libm ℝ) (hm : m.IsReal) (HUGE : ℝ) (width depth : ℝ)
    (style : slot_style_e) (pt0 pt1 : coord_t ℝ) :
    ∃ fuel0, ∀ fuel, fuel0 ≤ fuel →
      obj.cut_slot m HUGE fuel ([segAB, segBA] : obj ℝ) .UP 5 width depth style pt0 pt1 =
        .ok (false, [segBA, segAB], pt0, pt1) := by
  obtain ⟨fuel0, hf⟩ := top_bot_returns m HUGE ([segBA, segAB] : obj ℝ)
  refine ⟨fuel0, fun fuel hfuel => ?_⟩
  obtain ⟨r, hr⟩ := hf fuel hfuel 5
  have hn := top_bot_BA_AB m HUGE fuel r hr
  subst hn
  have hdir : obj.dir_intersect m HUGE fuel ([segBA, segAB] : obj ℝ) .UP 5 = .ok none := by
    simp [obj.dir_intersect, hr, Res.bind]
  rw [obj.cut_slot, regularise_no_del_AB_BA m hm]
  simp only [Res.bind]
  rw [hdir]

end SlotEvaluation3

section SlotWalls

/-- Moving a line of non-zero length sideways by `d` moves both its ends by
the distance `|d|`. -/
theorem move_sideways_dist (m : Libm ℝ) (hm : m.IsReal) (l : line ℝ) (hl : NonZero l) (d : ℝ) :
    (line.ofPoints l.get_S0 (l.move_sideways m d).get_S0).len m = |d| ∧
    (line.ofPoints (l.move_sideways m d).get_S1 l.get_S1).len m = |d| := by
  obtain ⟨⟨x, y⟩, ⟨dx, dy⟩⟩ := l
  have hpos : 0 < -dy * -dy + dx * dx := by
    rcases hl with h | h
    · have := mul_self_pos.mpr h
      simp only at this
      nlinarith [mul_self_nonneg dy]
    · have := mul_self_pos.mpr h
      simp only at this
      nlinarith [mul_self_nonneg dx]
  have hN : Real.sqrt (-dy * -dy + dx * dx) * Real.sqrt (-dy * -dy + dx * dx) =
      -dy * -dy + dx * dx := Real.mul_self_sqrt hpos.le
  have hNpos : 0 < Real.sqrt (-dy * -dy + dx * dx) := Real.sqrt_pos.mpr hpos
  simp only [line.len, line.ofPoints, line.move_sideways, line.add_offset, line.get_S0,
    line.get_S1, line.get_pt, T_S1, hm.1]
  generalize Real.sqrt (-dy * -dy + dx * dx) = N at hN hNpos ⊢
  have hne : N ≠ 0 := ne_of_gt hNpos
  have key : (-dy * (1 / N * d)) * (-dy * (1 / N * d)) +
      (dx * (1 / N * d)) * (dx * (1 / N * d)) = d * d := by
    field_simp
    linear_combination (-(d * d)) * hN
  constructor
  · rw [show (x + -dy * (1 / N * d) - x) * (x + -dy * (1 / N * d) - x) +
        (y + dx * (1 / N * d) - y) * (y + dx * (1 / N * d) - y) = d * d by
      rw [← key]; ring]
    exact Real.sqrt_mul_self_eq_abs d
  · rw [show (x + 1 * dx - (x + -dy * (1 / N * d) + 1 * dx)) *
        (x + 1 * dx - (x + -dy * (1 / N * d) + 1 * dx)) +
        (y + 1 * dy - (y + dx * (1 / N * d) + 1 * dy)) *
        (y + 1 * dy - (y + dx * (1 / N * d) + 1 * dy)) = d * d by
      rw [← key]; ring]
    exact Real.sqrt_mul_self_eq_abs d

theorem len_wall_half (m : Libm ℝ) (hm : m.IsReal) :
    (line.ofPoints (⟨1, 1 / 2⟩ : coord_t ℝ) ⟨1, 0⟩).len m = 1 / 2 := by
  simp only [line.len, line.ofPoints, hm.1]
  rw [show ((1 : ℝ) - 1) * (1 - 1) + (0 - 1 / 2) * (0 - 1 / 2) = (1 / 2) * (1 / 2) by norm_num]
  exact Real.sqrt_mul_self (by norm_num)

theorem len_wall_three_halves (m : Libm ℝ) (hm : m.IsReal) :
    (line.ofPoints (⟨3, 0⟩ : coord_t ℝ) ⟨3, 3 / 2⟩).len m = 3 / 2 := by
  simp only [line.len, line.ofPoints, hm.1]
  rw [show ((3 : ℝ) - 3) * (3 - 3) + (3 / 2 - 0) * (3 / 2 - 0) = (3 / 2) * (3 / 2) by norm_num]
  exact Real.sqrt_mul_self (by norm_num)

end SlotWalls

/-! ## Claim on `make_gap` -/

section GapClaims

/-- C17: `make_gap` with distinct handles.  With `l0` at the segment `a` and
`l1` at the segment `b`: when `l0` comes first in the list, the segments `mid`
between them are removed, `a` is reset to run from its start to `p0`, `b` to
run from `p1` to its end, and the segments before `l0` and after `l1` stay as
they are; when `l1` comes first, the segments after `l0` up to the end of the
list and those from the start of the list up to `l1` are removed (the
segments strictly between `l0` and `l1` in circular order) and the segments
`mid` from `l1` to `l0` stay as they are. -/
theorem make_gap_distinct_handles {K : Type} [LinearOrderedField K]
    (pre mid post : List (line K)) (a b : line K) (p0 p1 : coord_t K) (noNewLines : Bool) :
    obj.make_gap (pre ++ a :: mid ++ b :: post) pre.length p0 (pre.length + 1 + mid.length) p1
        noNewLines =
      .ok (pre ++ [line.ofPoints a.get_S0 p0, line.ofPoints p1 b.get_S1] ++ post) ∧
    obj.make_gap (pre ++ b :: mid ++ a :: post) (pre.length + 1 + mid.length) p0 pre.length p1
        noNewLines =
      .ok (line.ofPoints p1 b.get_S1 :: mid ++ [line.ofPoints a.get_S0 p0]) :=
  ⟨make_gap_forward pre mid post a b p0 p1 noNewLines,
    make_gap_backward pre mid post a b p0 p1 noNewLines⟩

end GapClaims

/-! ## Claims on `cut_slot` -/

section SlotClaims

/-- C18, as stated, fails: on the doubled segment `(0,0)->(1,0)`,
`(1,0)->(0,0)` a slot at the abscissa 5 is not cut, `cut_slot` returns false,
and the path it leaves has the two segments in the other order. -/
theorem cut_slot_false_reorders :
    ∃ m : Libm ℝ, m.IsReal ∧ ∀ HUGE : ℝ, ∃ fuel,
      obj.cut_slot m HUGE fuel ([segAB, segBA] : obj ℝ) .UP 5 1 1 .VERTICAL ⟨0, 0⟩ ⟨0, 0⟩ =
        .ok (false, [segBA, segAB], ⟨0, 0⟩, ⟨0, 0⟩) ∧
      ([segBA, segAB] : obj ℝ) ≠ [segAB, segBA] := by
  refine ⟨_, isReal_mk, fun HUGE => ?_⟩
  obtain ⟨fuel, hf⟩ := cut_slot_AB_BA _ isReal_mk HUGE 1 1 .VERTICAL ⟨0, 0⟩ ⟨0, 0⟩
  refine ⟨fuel, hf fuel (le_refl _), ?_⟩
  simp [segAB, segBA]

/-- C18, amended: when `cut_slot` returns false, the path is left as
`regularise_no_del` makes it from the path before the call. -/
theorem cut_slot_false_regularised {K : Type} [LinearOrderedField K] (m : Libm K) (HUGE : K)
    (fuel : Nat) (o : obj K) (dir : direction_e) (xpos width depth : K) (style : slot_style_e)
    (pt0 pt1 : coord_t K) (e : obj K) (q0 q1 : coord_t K)
    (h : o.cut_slot m HUGE fuel dir xpos width depth style pt0 pt1 = .ok (false, e, q0, q1)) :
    o.regularise_no_del m = .ok e := by
  obtain ⟨e1, h1, h2⟩ := cut_slot_ok m HUGE fuel o dir xpos width depth style pt0 pt1 _ _ _ _ h
  rcases h2 with ⟨-, rfl⟩ | ⟨hb, -⟩
  · exact h1
  · exact absurd hb (by simp)

theorem cut_slot_false_regularised_witness :
    ∃ m : Libm ℝ, m.IsReal ∧ ∃ fuel,
      obj.cut_slot m 1 fuel ([segAB, segBA] : obj ℝ) .UP 5 1 1 .VERTICAL ⟨0, 0⟩ ⟨0, 0⟩ =
        .ok (false, [segBA, segAB], ⟨0, 0⟩, ⟨0, 0⟩) ∧
      obj.regularise_no_del m ([segAB, segBA] : obj ℝ) = .ok [segBA, segAB] := by
  obtain ⟨fuel, hf⟩ := cut_slot_AB_BA _ isReal_mk 1 1 1 .VERTICAL ⟨0, 0⟩ ⟨0, 0⟩
  exact ⟨_, isReal_mk, fuel, hf fuel (le_refl _),
    cut_slot_false_regularised _ 1 fuel _ .UP 5 1 1 .VERTICAL ⟨0, 0⟩ ⟨0, 0⟩ _ _ _
      (hf fuel (le_refl _))⟩

/-- C19, as stated, fails: on the path `(0,0)->(1,0)` followed by a segment
that starts at `(1, 1/20000)` with the direction `(1,0)`, `cut_slot` returns
true with the corner `pt0 = (5/4, 1/80000)`, which is on no segment of the
path as it was before the call. -/
theorem cut_slot_corner_off_path :
    ∃ m : Libm ℝ, m.IsReal ∧ ∀ HUGE : ℝ, ∃ fuel,
      (gapPath : obj ℝ).cut_slot m HUGE fuel .UP (3 / 2) (1 / 2) (1 / 4) .VERTICAL ⟨0, 0⟩ ⟨0, 0⟩ =
        .ok (true, gapPathSlotted, ⟨5 / 4, 1 / 80000⟩, ⟨7 / 4, 3 / 80000⟩) ∧
      ¬ ∃ l ∈ (gapPath : obj ℝ), OnSegment l ⟨5 / 4, 1 / 80000⟩ := by
  refine ⟨_, isReal_mk, fun HUGE => ?_⟩
  obtain ⟨fuel, hf⟩ := cut_slot_gapPath _ isReal_mk HUGE ⟨0, 0⟩ ⟨0, 0⟩
  refine ⟨fuel, hf fuel (le_refl _), ?_⟩
  rintro ⟨l, hl, t, -, -, ht⟩
  simp only [gapPath, List.mem_cons, List.mem_singleton, List.not_mem_nil, or_false] at hl
  rcases hl with rfl | rfl
  · simp only [line.get_pt, coord_t.mk.injEq] at ht
    norm_num at ht
  · simp only [line.get_pt, coord_t.mk.injEq] at ht
    norm_num at ht

/-- C19, amended: when `cut_slot` returns true, both returned corner points
lie on segments of the path as `regularise_no_del` makes it from the path
before the call. -/
theorem cut_slot_corners_on_regularised {K : Type} [LinearOrderedField K] (m : Libm K)
    (HUGE : K) (fuel : Nat) (o : obj K) (dir : direction_e) (xpos width depth : K)
    (style : slot_style_e) (pt0 pt1 : coord_t K) (e : obj K) (q0 q1 : coord_t K)
    (h : o.cut_slot m HUGE fuel dir xpos width depth style pt0 pt1 = .ok (true, e, q0, q1)) :
    ∃ e1, o.regularise_no_del m = .ok e1 ∧
      (∃ l ∈ e1, OnSegment l q0) ∧ (∃ l ∈ e1, OnSegment l q1) := by
  obtain ⟨e1, h1, h2⟩ := cut_slot_ok m HUGE fuel o dir xpos width depth style pt0 pt1 _ _ _ _ h
  rcases h2 with ⟨hb, -⟩ | ⟨-, ptc, lnc, lc, l0, l1, e2, -, -, h4, h5, -, -⟩
  · exact absurd hb (by simp)
  · obtain ⟨la, a1, a2, -⟩ := dir_intersect_sound m HUGE fuel e1 dir _ q0 l0 h4
    obtain ⟨lb, b1, b2, -⟩ := dir_intersect_sound m HUGE fuel e1 dir _ q1 l1 h5
    exact ⟨e1, h1, ⟨la, List.getElem?_mem a1, a2⟩, ⟨lb, List.getElem?_mem b1, b2⟩⟩

theorem cut_slot_corners_on_regularised_witness :
    ∃ m : Libm ℝ, m.IsReal ∧ ∃ fuel,
      (gapPath : obj ℝ).cut_slot m 1 fuel .UP (3 / 2) (1 / 2) (1 / 4) .VERTICAL ⟨0, 0⟩ ⟨0, 0⟩ =
        .ok (true, gapPathSlotted, ⟨5 / 4, 1 / 80000⟩, ⟨7 / 4, 3 / 80000⟩) ∧
      ∃ e1, (gapPath : obj ℝ).regularise_no_del m = .ok e1 ∧
        (∃ l ∈ e1, OnSegment l ⟨5 / 4, 1 / 80000⟩) ∧
        (∃ l ∈ e1, OnSegment l ⟨7 / 4, 3 / 80000⟩) := by
  obtain ⟨fuel, hf⟩ := cut_slot_gapPath _ isReal_mk 1 ⟨0, 0⟩ ⟨0, 0⟩
  exact ⟨_, isReal_mk, fuel, hf fuel (le_refl _),
    cut_slot_corners_on_regularised _ 1 fuel _ .UP (3 / 2) (1 / 2) (1 / 4) .VERTICAL ⟨0, 0⟩
      ⟨0, 0⟩ _ _ _ (hf fuel (le_refl _))⟩

/-- C20, as stated, fails: on the single segment from `(0,0)` to `(4,2)` a
slot of width 2 and depth 1 at the abscissa 2 is cut with the corners
`(1, 1/2)` and `(3, 3/2)` and the bottom from `(1,0)` to `(3,0)`; the walls,
the second and the fourth segment of the path left, have the lengths `1/2` and
`3/2`, not the depth 1. -/
theorem cut_slot_walls_not_depth :
    ∃ m : Libm ℝ, m.IsReal ∧ ∀ HUGE : ℝ, ∃ fuel,
      (slopePath : obj ℝ).cut_slot m HUGE fuel .UP 2 2 1 .VERTICAL ⟨0, 0⟩ ⟨0, 0⟩ =
        .ok (true, slopePathSlotted, ⟨1, 1 / 2⟩, ⟨3, 3 / 2⟩) ∧
      (slopePathSlotted : obj ℝ)[1]? = some (line.ofPoints ⟨1, 1 / 2⟩ ⟨1, 0⟩) ∧
      (slopePathSlotted : obj ℝ)[3]? = some (line.ofPoints ⟨3, 0⟩ ⟨3, 3 / 2⟩) ∧
      (line.ofPoints (⟨1, 1 / 2⟩ : coord_t ℝ) ⟨1, 0⟩).len m = 1 / 2 ∧
      (line.ofPoints (⟨3, 0⟩ : coord_t ℝ) ⟨3, 3 / 2⟩).len m = 3 / 2 ∧
      (line.ofPoints (⟨1, 1 / 2⟩ : coord_t ℝ) ⟨1, 0⟩).len m ≠ 1 ∧
      (line.ofPoints (⟨3, 0⟩ : coord_t ℝ) ⟨3, 3 / 2⟩).len m ≠ 1 := by
  refine ⟨_, isReal_mk, fun HUGE => ?_⟩
  obtain ⟨fuel, hf⟩ := cut_slot_slopePath _ isReal_mk HUGE ⟨0, 0⟩ ⟨0, 0⟩
  refine ⟨fuel, hf fuel (le_refl _), rfl, rfl, len_wall_half _ isReal_mk,
    len_wall_three_halves _ isReal_mk, ?_, ?_⟩
  · rw [len_wall_half _ isReal_mk]
    norm_num
  · rw [len_wall_three_halves _ isReal_mk]
    norm_num

/-- C20, amended: when `cut_slot` succeeds, the path it leaves is what
`regularise_no_del` makes of the path with the gap opened and exactly three
segments appended: the wall from `pt0` to the start of the slot bottom, the
wall from the end of the slot bottom to `pt1`, and the slot bottom, which is
the reference line moved sideways by `-depth`.  A wall has the length
`|depth|` when its corner point is the end of the reference line on its side
(and the reference line has non-zero length). -/
theorem cut_slot_adds_slot (m : Libm ℝ) (hm : m.IsReal) (HUGE : ℝ) (fuel : Nat) (o : obj ℝ)
    (dir : direction_e) (xpos width depth : ℝ) (style : slot_style_e) (pt0 pt1 : coord_t ℝ)
    (e : obj ℝ) (q0 q1 : coord_t ℝ)
    (h : o.cut_slot m HUGE fuel dir xpos width depth style pt0 pt1 = .ok (true, e, q0, q1)) :
    ∃ e1 ptc lnc lc l0 l1 e2,
      o.regularise_no_del m = .ok e1 ∧
      e1.dir_intersect m HUGE fuel dir xpos = .ok (some (ptc, lnc)) ∧ e1[lnc]? = some lc ∧
      e1.make_gap l0 q0 l1 q1 false = .ok e2 ∧
      obj.regularise_no_del m (e2 ++
        [line.ofPoints q0
            ((slot_reference m ptc lc.get_V width style).move_sideways m (-depth)).get_S0,
          line.ofPoints
            ((slot_reference m ptc lc.get_V width style).move_sideways m (-depth)).get_S1 q1,
          (slot_reference m ptc lc.get_V width style).move_sideways m (-depth)]) = .ok e ∧
      (NonZero (slot_reference m ptc lc.get_V width style) →
        q0 = (slot_reference m ptc lc.get_V width style).get_S0 →
        (line.ofPoints q0
          ((slot_reference m ptc lc.get_V width style).move_sideways m (-depth)).get_S0).len m =
          |depth|) ∧
      (NonZero (slot_reference m ptc lc.get_V width style) →
        q1 = (slot_reference m ptc lc.get_V width style).get_S1 →
        (line.ofPoints
          ((slot_reference m ptc lc.get_V width style).move_sideways m (-depth)).get_S1 q1).len m =
          |depth|) := by
  obtain ⟨e1, h1, h2⟩ := cut_slot_ok m HUGE fuel o dir xpos width depth style pt0 pt1 _ _ _ _ h
  rcases h2 with ⟨hb, -⟩ | ⟨-, ptc, lnc, lc, l0, l1, e2, h3, hlc, -, -, h6, h7⟩
  · exact absurd hb (by simp)
  · refine ⟨e1, ptc, lnc, lc, l0, l1, e2, h1, h3, hlc, h6, h7, ?_, ?_⟩
    · intro hnz hq
      rw [hq, (move_sideways_dist m hm _ hnz (-depth)).1, abs_neg]
    · intro hnz hq
      rw [hq, (move_sideways_dist m hm _ hnz (-depth)).2, abs_neg]

end SlotClaims

section FlatPathEvaluation

theorem trace_flatPathCut (m : Libm ℝ) (hm : m.IsReal) :
    trace_a_path m SNAP_LEN (flatPathCut : obj ℝ) = (false, flatPathSlotted, []) := by
  have hz := dist_self_le_snap m hm
  simp only [trace_a_path, flatPathCut, flatPathSlotted]
  rw [trace_scan_slot m SNAP_LEN _ _ ⟨1, 0⟩ ⟨1, -1⟩ ⟨3, -1⟩ ⟨3, 0⟩ ⟨4, 0⟩ hz
    (by simp [ofPoints_get_S1])
    (far_apart m hm _ _ (by norm_num)) (far_apart m hm _ _ (by norm_num))
    (far_apart m hm _ _ (by norm_num)) (far_apart m hm _ _ (by norm_num))
    (far_apart m hm _ _ (by norm_num)) (far_apart m hm _ _ (by norm_num))
    (far_apart m hm _ _ (by norm_num)) (far_apart m hm _ _ (by norm_num))
    (far_apart m hm _ _ (by norm_num))
    (far_apart m hm _ _ (by norm_num [ofPoints_get_S0]))
    (far_apart m hm _ _ (by norm_num [ofPoints_get_S0]))
    (far_apart m hm _ _ (by norm_num [ofPoints_get_S0]))
    (far_apart m hm _ _ (by norm_num [ofPoints_get_S0]))]
  rfl

/-- On `flatPath` the vertical line at an abscissa `x` in `[0, 4]` meets the
segment at height 0. -/
theorem top_bot_flatPath (m : Libm ℝ) (HUGE : ℝ) (fuel : Nat) (x : ℝ) (h1 : 0 ≤ x)
    (h2 : x ≤ 4) (r : Option (coord_t ℝ × coord_t ℝ × Nat × Nat))
    (h : (flatPath : obj ℝ).top_bot_intersect m HUGE fuel x = .ok r) :
    r = some (⟨x, 0⟩, ⟨x, 0⟩, 0, 0) := by
  refine top_bot_single m HUGE fuel _ x r h 0 ⟨⟨0, 0⟩, ⟨4, 0⟩⟩ _ rfl ?_ ?_ rfl ?_
  · simp only [SMALL_NUM, SNAP_LEN]
    rw [abs_of_pos (by norm_num)]
    norm_num
  · refine ⟨x / 4, by positivity, by linarith, ?_⟩
    simp only [line.get_pt, coord_t.mk.injEq]
    constructor <;> ring
  · intro j l p hj hp hpx
    obtain ⟨t, ht0, ht1, rfl⟩ := hp
    match j, hj with
    | 0, hj =>
      simp only [flatPath, List.getElem?_cons_zero, Option.some.injEq] at hj
      subst hj
      simp only [line.get_pt] at hpx
      refine ⟨rfl, ?_⟩
      simp only [line.get_pt, coord_t.mk.injEq]
      constructor
      · linarith
      · ring
    | j + 1, hj => simp [flatPath] at hj

theorem regularise_no_del_flatPath (m : Libm ℝ) :
    obj.regularise_no_del m (flatPath : obj ℝ) = .ok flatPath :=
  regularise_no_del_open m _ _ _ (trace_single m SNAP_LEN _)

theorem slot_reference_flatPath (m : Libm ℝ) (hm : m.IsReal) :
    slot_reference m ⟨2, 0⟩ ⟨4, 0⟩ 2 .VERTICAL = ⟨⟨1, 0⟩, ⟨2, 0⟩⟩ := by
  rw [slot_reference_vertical m hm _ _ _ (by norm_num)]
  norm_num

theorem slot_bottom_flatPath (m : Libm ℝ) (hm : m.IsReal) :
    (⟨⟨1, 0⟩, ⟨2, 0⟩⟩ : line ℝ).move_sideways m (-1) = ⟨⟨1, -1⟩, ⟨2, 0⟩⟩ := by
  rw [move_sideways_horizontal m hm _ _ _ (by norm_num)]
  norm_num

/-- The slot of width 2 and depth 1 at the abscissa 2 of `flatPath`, with the
intersection that `cut_slot` finds at the centre. -/
theorem cut_slot_flatPath (m : Libm ℝ) (hm : m.IsReal) (HUGE : ℝ) (pt0 pt1 : coord_t ℝ) :
    ∃ fuel0, ∀ fuel, fuel0 ≤ fuel →
      (flatPath : obj ℝ).dir_intersect m HUGE fuel .UP 2 = .ok (some (⟨2, 0⟩, 0)) ∧
      (flatPath : obj ℝ).cut_slot m HUGE fuel .UP 2 2 1 .VERTICAL pt0 pt1 =
        .ok (true, flatPathSlotted, ⟨1, 0⟩, ⟨3, 0⟩) := by
  obtain ⟨fuel0, hf⟩ := top_bot_returns m HUGE (flatPath : obj ℝ)
  refine ⟨fuel0, fun fuel hfuel => ?_⟩
  have hdir : ∀ x : ℝ, 0 ≤ x → x ≤ 4 →
      (flatPath : obj ℝ).dir_intersect m HUGE fuel .UP x = .ok (some (⟨x, 0⟩, 0)) :=
    fun x h1 h2 => dir_intersect_up_of m HUGE fuel _ x _ 0 (hf fuel hfuel x)
      (fun r hr => top_bot_flatPath m HUGE fuel x h1 h2 r hr)
  refine ⟨hdir 2 (by norm_num) (by norm_num), ?_⟩
  have hlc : (flatPath : obj ℝ)[0]? = some ⟨⟨0, 0⟩, ⟨4, 0⟩⟩ := rfl
  have hgap : obj.make_gap (flatPath : obj ℝ) 0 ⟨1, 0⟩ 0 ⟨3, 0⟩ false =
      .ok [line.ofPoints ⟨0, 0⟩ ⟨1, 0⟩, line.ofPoints ⟨3, 0⟩ ⟨4, 0⟩] := by
    simp [obj.make_gap, flatPath, line.get_S0, line.get_S1, line.get_pt, T_S1]
  have hcut : ([line.ofPoints ⟨0, 0⟩ ⟨1, 0⟩, line.ofPoints ⟨3, 0⟩ ⟨4, 0⟩] ++
      [line.ofPoints ⟨1, 0⟩ (⟨⟨1, -1⟩, ⟨2, 0⟩⟩ : line ℝ).get_S0,
        line.ofPoints (⟨⟨1, -1⟩, ⟨2, 0⟩⟩ : line ℝ).get_S1 ⟨3, 0⟩,
        ⟨⟨1, -1⟩, ⟨2, 0⟩⟩] : obj ℝ) = flatPathCut := by
    simp only [flatPathCut, line.ofPoints, line.get_S0, line.get_S1, line.get_pt, T_S1]
    norm_num
  have hreg2 : obj.regularise_no_del m (flatPathCut : obj ℝ) = .ok flatPathSlotted :=
    regularise_no_del_open m _ _ _ (trace_flatPathCut m hm)
  rw [obj.cut_slot, regularise_no_del_flatPath m]
  simp only [Res.bind]
  rw [hdir 2 (by norm_num) (by norm_num)]
  simp only [hlc, line.get_V, slot_reference_flatPath m hm]
  have hS0 : (⟨⟨1, 0⟩, ⟨2, 0⟩⟩ : line ℝ).get_S0.x = 1 := rfl
  have hS1 : (⟨⟨1, 0⟩, ⟨2, 0⟩⟩ : line ℝ).get_S1.x = 3 := by
    simp only [line.get_S1, line.get_pt, T_S1]
    norm_num
  rw [hS0, hS1, hdir 1 (by norm_num) (by norm_num)]
  simp only
  rw [hdir 3 (by norm_num) (by norm_num)]
  simp only
  rw [hgap]
  simp only [slot_bottom_flatPath m hm]
  rw [hcut, hreg2]

end FlatPathEvaluation

section SteepSegment

theorem find_extremity_steepPath (HUGE : ℝ) (hH : 0 ≤ HUGE) :
    ((steepPath : obj ℝ).find_extremity HUGE .DOWN).2.1 = 0 ∧
    ((steepPath : obj ℝ).find_extremity HUGE .UP).2.1 = 1 := by
  have h1 : -HUGE ≤ 0 := by linarith
  constructor
  · simp only [obj.find_extremity, steepPath, find_extremity_loop,
      find_extremity_step_lo .DOWN (Or.inl rfl), or_true, if_true, line.get_S0, line.get_S1,
      line.get_pt, T_S1]
    rw [min_eq_right hH]
    norm_num
  · simp only [obj.find_extremity, steepPath, find_extremity_loop,
      find_extremity_step_hi .UP (Or.inl rfl), true_or, if_true, line.get_S0, line.get_S1,
      line.get_pt, T_S1, reduceCtorEq, or_self, if_false]
    rw [max_eq_right h1]
    norm_num

/-- A segment whose run in `x` is below `SMALL_NUM` can be missed: the steep
segment from `(0,0)` to `(1/100000000, 1)` has the point
`(1/200000000, 1/2)`, and `top_bot_intersect` at that abscissa returns
false. -/
theorem top_bot_misses_steep_segment (m : Libm ℝ) (HUGE : ℝ) (hH : 0 ≤ HUGE) (fuel : Nat) :
    (steepPath : obj ℝ).top_bot_intersect m HUGE (fuel + 1) (1 / 200000000) = .ok none ∧
    ∃ l ∈ (steepPath : obj ℝ), OnSegment l ⟨1 / 200000000, 1 / 2⟩ := by
  obtain ⟨hd, hu⟩ := find_extremity_steepPath HUGE hH
  constructor
  · have hexp : expand_loop (fun d => ((steepPath : obj ℝ).find_extremity HUGE d).2.1)
        (fuel + 1) (line.ofPoints ⟨1 / 200000000, 0⟩ ⟨1 / 200000000, 1⟩) =
        some ⟨⟨1 / 200000000, -1⟩, ⟨0, 3⟩⟩ := by
      rw [expand_loop]
      have hc : ((line.ofPoints (⟨1 / 200000000, 0⟩ : coord_t ℝ) ⟨1 / 200000000, 1⟩).get_pt
            (-1)).y < ((steepPath : obj ℝ).find_extremity HUGE .DOWN).2.1 ∧
          ((line.ofPoints (⟨1 / 200000000, 0⟩ : coord_t ℝ) ⟨1 / 200000000, 1⟩).get_pt 2).y >
            ((steepPath : obj ℝ).find_extremity HUGE .UP).2.1 := by
        rw [hd, hu]
        simp only [line.ofPoints, line.get_pt]
        norm_num
      simp only [hc, and_self, true_or, or_true, if_true]
      rw [expand_round_vertical _ (by simp [line.ofPoints])]
      simp only [line.ofPoints]
      norm_num
    have hint : ((⟨⟨0, 0⟩, ⟨1 / 100000000, 1⟩⟩ : line ℝ).lines_intersect m
        ⟨⟨1 / 200000000, -1⟩, ⟨0, 3⟩⟩ false).1 = false := by
      have hpar : (perpprod (⟨1 / 100000000, 1⟩ : vector_t ℝ) ⟨0, 3⟩ < 0 ∧
            perpprod (⟨1 / 100000000, 1⟩ : vector_t ℝ) ⟨0, 3⟩ > -SMALL_NUM) ∨
          (perpprod (⟨1 / 100000000, 1⟩ : vector_t ℝ) ⟨0, 3⟩ ≥ 0 ∧
            perpprod (⟨1 / 100000000, 1⟩ : vector_t ℝ) ⟨0, 3⟩ < SMALL_NUM) := by
        right
        simp only [perpprod, perpprodRaw, SMALL_NUM, SNAP_LEN]
        constructor <;> norm_num
      have hnc : perpprod (⟨1 / 100000000, 1⟩ : vector_t ℝ)
            ⟨0 - 1 / 200000000, 0 - -1⟩ ≠ 0 ∨
          perpprod (⟨0, 3⟩ : vector_t ℝ) ⟨0 - 1 / 200000000, 0 - -1⟩ ≠ 0 := by
        left
        simp only [perpprod, perpprodRaw]
        norm_num
      simp only [line.lines_intersect, if_pos hpar, if_pos hnc]
    simp only [obj.top_bot_intersect, obj.line_intersect_list, if_true, hexp]
    simp only [steepPath, collect_loop, hint, Bool.false_eq_true, if_false, List.insertionSort]
  · refine ⟨_, List.mem_singleton_self _, 1 / 2, by norm_num, by norm_num, ?_⟩
    simp only [line.get_pt, coord_t.mk.injEq]
    constructor <;> norm_num

end SteepSegment

section SlotClaimsWitness

theorem cut_slot_adds_slot_witness :
    ∃ m : Libm ℝ, m.IsReal ∧ ∃ fuel,
      (flatPath : obj ℝ).cut_slot m 1 fuel .UP 2 2 1 .VERTICAL ⟨0, 0⟩ ⟨0, 0⟩ =
        .ok (true, flatPathSlotted, ⟨1, 0⟩, ⟨3, 0⟩) ∧
      (line.ofPoints (⟨1, 0⟩ : coord_t ℝ) ⟨1, -1⟩).len m = 1 ∧
      (line.ofPoints (⟨3, -1⟩ : coord_t ℝ) ⟨3, 0⟩).len m = 1 := by
  obtain ⟨fuel, hf⟩ := cut_slot_flatPath _ isReal_mk 1 ⟨0, 0⟩ ⟨0, 0⟩
  obtain ⟨hd, hc⟩ := hf fuel (le_refl _)
  obtain ⟨e1, ptc, lnc, lc, l0, l1, e2, h1, h3, hlc, -, -, hw0, hw1⟩ :=
    cut_slot_adds_slot _ isReal_mk 1 fuel _ .UP 2 2 1 .VERTICAL ⟨0, 0⟩ ⟨0, 0⟩ _ _ _ hc
  rw [regularise_no_del_flatPath] at h1
  have he : e1 = flatPath := (Res.ok.inj h1).symm
  subst he
  rw [hd] at h3
  simp only [Res.ok.injEq, Option.some.injEq, Prod.mk.injEq] at h3
  obtain ⟨rfl, rfl⟩ := h3
  simp only [flatPath, List.getElem?_cons_zero, Option.some.injEq] at hlc
  subst hlc
  simp only [line.get_V, slot_reference_flatPath _ isReal_mk,
    slot_bottom_flatPath _ isReal_mk, abs_one] at hw0 hw1
  refine ⟨_, isReal_mk, fuel, hc, ?_, ?_⟩
  · exact hw0 (Or.inl (by norm_num)) rfl
  · have h2 := hw1 (Or.inl (by norm_num)) (by simp [line.get_S1, line.get_pt, T_S1]; norm_num)
    have e : (⟨⟨1, -1⟩, ⟨2, 0⟩⟩ : line ℝ).get_S1 = ⟨3, -1⟩ := by
      simp only [line.get_S1, line.get_pt, T_S1, coord_t.mk.injEq]
      constructor <;> norm_num
    rw [e] at h2
    exact h2

end SlotClaimsWitness

/-! ## Duplicates (`obj::del_duplicates`) -/

section Duplicates
variable {K : Type} [LinearOrderedField K]

theorem is_same_as_iff (a b : line K) : a.is_same_as b = true ↔ b = a := by
  obtain ⟨⟨x1, y1⟩, ⟨a1, b1⟩⟩ := a
  obtain ⟨⟨x2, y2⟩, ⟨a2, b2⟩⟩ := b
  simp [line.is_same_as, line.get_S0, line.get_V, and_assoc]

/-- The inner loop of `del_duplicates` removes the copies of `cur` behind it
and counts them. -/
theorem del_duplicates_inner_eq (cur : line K) :
    ∀ (scanned unscanned : List (line K)) (cnt : Nat), cur ∉ scanned →
      del_duplicates_inner cur scanned unscanned cnt =
        (scanned ++ unscanned.filter (fun x => decide (x ≠ cur)),
          cnt + (unscanned.filter (fun x => decide (x = cur))).length) := by
  intro scanned unscanned cnt
  induction scanned, unscanned, cnt using del_duplicates_inner.induct cur with
  | case1 scanned cnt =>
    intro _
    rw [del_duplicates_inner]
    simp
  | case2 scanned cnt cmp us hsame ih =>
    intro hs
    rw [del_duplicates_inner, if_pos hsame, ih (List.not_mem_nil _)]
    have hc : cmp = cur := (is_same_as_iff cur cmp).1 hsame
    subst hc
    have hf : scanned.filter (fun x => decide (x ≠ cmp)) = scanned := by
      rw [List.filter_eq_self]
      intro x hx
      simp only [ne_eq, decide_eq_true_eq]
      rintro rfl
      exact hs hx
    have hg : scanned.filter (fun x => decide (x = cmp)) = [] := by
      rw [List.filter_eq_nil_iff]
      intro x hx
      simp only [decide_eq_true_eq]
      rintro rfl
      exact hs hx
    simp only [List.filter_append, hf, hg, List.nil_append, List.filter_cons, ne_eq,
      not_true_eq_false, decide_False, Bool.false_eq_true, if_false, decide_True, if_true,
      List.length_cons]
    rw [Nat.add_assoc, Nat.add_comm 1]
  | case3 scanned cnt cmp us hsame ih =>
    intro hs
    have hc : cmp ≠ cur := fun h => hsame ((is_same_as_iff cur cmp).2 h)
    rw [del_duplicates_inner, if_neg hsame, ih (by
      intro hm
      rcases List.mem_append.1 hm with h | h
      · exact hs h
      · exact hc (List.mem_singleton.1 h).symm)]
    simp [List.filter_cons, hc]

theorem withoutLaterCopies_congr :
    ∀ (l E E' : List (line K)), (∀ x, x ∈ E ↔ x ∈ E') →
      withoutLaterCopies E l = withoutLaterCopies E' l := by
  intro l
  induction l with
  | nil => intro E E' _; rfl
  | cons a l ih =>
    intro E E' h
    have h2 : ∀ x, x ∈ E ++ [a] ↔ x ∈ E' ++ [a] := by
      intro x
      simp only [List.mem_append, h x]
    simp only [withoutLaterCopies, h a, ih _ _ h2]

theorem withoutLaterCopies_filter :
    ∀ (l E : List (line K)) (a : line K), a ∈ E →
      withoutLaterCopies E l = withoutLaterCopies E (l.filter (fun x => decide (x ≠ a))) := by
  intro l
  induction l with
  | nil => intro E a _; rfl
  | cons b l ih =>
    intro E a ha
    by_cases hb : b = a
    · subst hb
      have h2 : ∀ x, x ∈ E ++ [b] ↔ x ∈ E := by
        intro x
        simp only [List.mem_append, List.mem_singleton]
        constructor
        · rintro (h | rfl)
          · exact h
          · exact ha
        · exact Or.inl
      simp only [withoutLaterCopies, ha, if_true, List.filter_cons, ne_eq, not_true_eq_false,
        decide_False, Bool.false_eq_true, if_false]
      rw [withoutLaterCopies_congr l _ _ h2]
      exact ih E b ha
    · simp only [withoutLaterCopies, List.filter_cons, ne_eq, hb, not_false_eq_true,
        decide_True, if_true]
      rw [ih (E ++ [b]) a (List.mem_append_left _ ha)]

theorem withoutLaterCopies_mem :
    ∀ (l E : List (line K)) (x : line K),
      x ∈ withoutLaterCopies E l ↔ x ∈ l ∧ x ∉ E := by
  intro l
  induction l with
  | nil => intro E x; simp [withoutLaterCopies]
  | cons a l ih =>
    intro E x
    simp only [withoutLaterCopies]
    split_ifs with h
    · rw [ih]
      by_cases hx : x = a
      · subst hx
        simp [h]
      · simp [hx]
    · rw [List.mem_cons, ih]
      by_cases hx : x = a
      · subst hx
        simp [h]
      · simp [hx]

theorem withoutLaterCopies_sublist :
    ∀ (l E : List (line K)), (withoutLaterCopies E l).Sublist l := by
  intro l
  induction l with
  | nil => intro E; exact List.Sublist.slnil
  | cons a l ih =>
    intro E
    simp only [withoutLaterCopies]
    split_ifs with h
    · exact (ih _).cons a
    · exact (ih _).cons₂ a

theorem withoutLaterCopies_nodup :
    ∀ (l E : List (line K)), (withoutLaterCopies E l).Nodup := by
  intro l
  induction l with
  | nil => intro E; exact List.nodup_nil
  | cons a l ih =>
    intro E
    simp only [withoutLaterCopies]
    split_ifs with h
    · exact ih _
    · rw [List.nodup_cons]
      refine ⟨?_, ih _⟩
      rw [withoutLaterCopies_mem]
      simp

/-- The outer loop of `del_duplicates`, for a bound that covers the elements
still to visit. -/
theorem del_duplicates_outer_eq :
    ∀ (n : Nat) (before after E : List (line K)) (cnt : Nat), after.length ≤ n →
      (∀ x ∈ E, x ∉ after) →
      del_duplicates_outer n before after cnt =
        (before ++ withoutLaterCopies E after,
          cnt + (after.length - (withoutLaterCopies E after).length)) := by
  intro n
  induction n with
  | zero =>
    intro before after E cnt hn _
    have : after = [] := List.length_eq_zero.1 (Nat.le_zero.1 hn)
    subst this
    simp [del_duplicates_outer, withoutLaterCopies]
  | succ n ih =>
    intro before after E cnt hn hE
    cases after with
    | nil => simp [del_duplicates_outer, withoutLaterCopies]
    | cons a l =>
      have haE : a ∉ E := fun h => hE a h (List.mem_cons_self _ _)
      have hlen : (l.filter (fun x => decide (x ≠ a))).length ≤ n :=
        le_trans (List.length_filter_le _ _) (by simpa using hn)
      have hE2 : ∀ x ∈ E ++ [a], x ∉ l.filter (fun x => decide (x ≠ a)) := by
        intro x hx hm
        rw [List.mem_filter] at hm
        rcases List.mem_append.1 hx with h | h
        · exact hE x h (List.mem_cons_of_mem _ hm.1)
        · rw [List.mem_singleton] at h
          simp [h] at hm
      rw [del_duplicates_outer]
      simp only [del_duplicates_inner_eq a [] l cnt (List.not_mem_nil _), List.nil_append]
      rw [ih _ _ (E ++ [a]) _ hlen hE2]
      simp only [withoutLaterCopies, haE, if_false]
      rw [← withoutLaterCopies_filter l (E ++ [a]) a (by simp)]
      have h1 : l.length = (l.filter (fun x => decide (x = a))).length +
          (l.filter (fun x => decide (x ≠ a))).length := by
        have := List.length_eq_length_filter_add (l := l) (fun x => decide (x = a))
        simpa using this
      have h2 : (withoutLaterCopies (E ++ [a]) l).length ≤
          (l.filter (fun x => decide (x ≠ a))).length := by
        rw [withoutLaterCopies_filter l (E ++ [a]) a (by simp)]
        exact (withoutLaterCopies_sublist _ _).length_le
      simp only [List.append_assoc, List.singleton_append, List.length_cons, Prod.mk.injEq,
        true_and]
      omega

end Duplicates

/-! ## Claim on `del_duplicates` -/

section DuplicatesClaims

/-- C30: `del_duplicates` leaves the list without every segment that is
identical to an earlier one and returns the number of segments removed.  The
list left is a sublist of the list before (the order of the segments kept is
theirs), no two of its segments are identical, and every segment of the list
before is still in it. -/
theorem del_duplicates_spec {K : Type} [LinearOrderedField K] (e : obj K) :
    del_duplicates e =
      (withoutLaterCopies [] e, e.length - (withoutLaterCopies [] e).length) ∧
    (withoutLaterCopies [] e).Sublist e ∧ (withoutLaterCopies [] e).Nodup ∧
    ∀ x, x ∈ withoutLaterCopies [] e ↔ x ∈ e := by
  refine ⟨?_, withoutLaterCopies_sublist e [], withoutLaterCopies_nodup e [], ?_⟩
  · rw [del_duplicates, del_duplicates_outer_eq e.length [] e [] 0 (le_refl _) (by simp)]
    simp
  · intro x
    rw [withoutLaterCopies_mem]
    simp

end DuplicatesClaims

/-! ## Claim on the end of `trace_at_offset` -/

section OffsetClaims

/-- C28: on the empty path `trace_at_offset` has no offsetting line, so `tr`
is empty when start and finish are joined, and `tr.get_sp()` reads through
`begin()` of an empty list: the call has no defined result, whatever the
distance and the test flag. -/
theorem trace_at_offset_empty_undefined {K : Type} [LinearOrderedField K] [FloorRing K]
    (m : Libm K) (testFlag : Bool) (ofs : K) :
    trace_at_offset m testFlag ([] : obj K) ofs = Res.undef := by
  have h : regularise m ([] : obj K) = Res.ok [] := by
    simp [regularise, regularise_loop, del_dupes_zeros, del_duplicates, del_duplicates_outer,
      del_zero_lens, del_zero_lens_loop, make_path, make_path_snap, make_path_full,
      make_path_loop, Res.bind]
  simp [trace_at_offset, h, Res.bind, create_offset_lines, proximity_pass, crossing_pass,
    redundant_pass, join_dots]

end OffsetClaims

/-! ## Progress steps of `LiteEngine::run` -/

section Progress
variable {K : Type}

theorem Res.bind_eq_ok {α β : Type} (x : Res α) (f : α → Res β) (r : β)
    (h : x.bind f = .ok r) : ∃ a, x = .ok a ∧ f a = .ok r := by
  cases x with
  | ok a => exact ⟨a, rfl, h⟩
  | fatal => simp [Res.bind] at h
  | undef => simp [Res.bind] at h
  | fuel => simp [Res.bind] at h

theorem progress_bar (g : LiteEngine K) (c : Nat) (h : g.progressBar = some c) :
    g.progress.progressBar = some (c + 1) := by
  simp [LiteEngine.progress, h]

/-- The progress steps of the girder part: one when anchor placement fails,
two when it succeeds. -/
theorem run_girder_bar (S : Stages K) (hS : S.KeepsBar) (a : Bool) (g g' : LiteEngine K)
    (c : Nat) (hc : g.progressBar = some c) (h : run_girder S a g = .ok g') :
    ∃ r, S.generateAnchorPoints a g = .ok r ∧
      g'.progressBar = some (c + (if r.1 then 2 else 1)) := by
  obtain ⟨-, -, -, -, k5, k6, k7, k8, k9, k10⟩ := hS
  rw [run_girder] at h
  obtain ⟨r, hr, h⟩ := Res.bind_eq_ok _ _ _ h
  refine ⟨r, hr, ?_⟩
  have c1 : r.2.progressBar = some c := (k5 _ _ _ hr).trans hc
  cases hb : r.1 with
  | false =>
    simp only [hb, Bool.false_eq_true, if_false, Res.ok.injEq] at h
    rw [← h]
    exact progress_bar _ _ c1
  | true =>
    simp only [hb, if_true] at h
    obtain ⟨b, hb2, h⟩ := Res.bind_eq_ok _ _ _ h
    have c2 : b.2.progressBar = some (c + 1) := (k6 _ _ hb2).trans (progress_bar _ _ c1)
    cases hbb : b.1 with
    | false =>
      simp only [hbb, Bool.false_eq_true, if_false, Res.ok.injEq] at h
      rw [← h]
      exact progress_bar _ _ c2
    | true =>
      simp only [hbb, if_true] at h
      obtain ⟨g3, e3, h⟩ := Res.bind_eq_ok _ _ _ h
      obtain ⟨g4, e4, h⟩ := Res.bind_eq_ok _ _ _ h
      obtain ⟨g5, e5, h⟩ := Res.bind_eq_ok _ _ _ h
      obtain ⟨g6, e6, h⟩ := Res.bind_eq_ok _ _ _ h
      rw [k10 _ _ _ h, k10 _ _ _ e6, k9 _ _ e5, k8 _ _ e4, k7 _ _ e3]
      exact progress_bar _ _ c2

/-- The progress steps of a run that passes the size check: six, and those of
the girder part when `girder` is set. -/
theorem run_bar [LinearOrderedField K] (S : Stages K) (hS : S.KeepsBar) (m : Libm K)
    (g : LiteEngine K) (inObj : obj K)
    (lighten notchDetect girder showConstruction anchorAtNotches hSplit vSplit : Bool)
    (c : Nat) (hc : g.progressBar = some c) (out : obj K) (g' : LiteEngine K)
    (h : run S m g inObj lighten notchDetect girder showConstruction anchorAtNotches hSplit
      vSplit = .ok (true, out, g')) :
    (girder = false ∧ g'.progressBar = some (c + 6)) ∨
    (girder = true ∧ ∃ g1 r, S.generateAnchorPoints anchorAtNotches g1 = .ok r ∧
      g'.progressBar = some (c + 6 + (if r.1 then 2 else 1))) := by
  have hS' := hS
  obtain ⟨k1, k2, k3, k4, -⟩ := hS'
  rw [run] at h
  obtain ⟨inp, hinp, h⟩ := Res.bind_eq_ok _ _ _ h
  by_cases hlen : inp.length ≤ 2
  · simp [hlen] at h
  simp only [hlen, if_false] at h
  obtain ⟨g1, e1, h⟩ := Res.bind_eq_ok _ _ _ h
  have c1 : g1.progress.progressBar = some (c + 1) :=
    progress_bar _ _ ((k1 _ _ _ e1).trans hc)
  obtain ⟨g2, e2, h⟩ := Res.bind_eq_ok _ _ _ h
  have c2 : g2.progress.progressBar = some (c + 2) := by
    apply progress_bar
    cases girder
    · simp only [Bool.false_eq_true, if_false, Res.ok.injEq] at e2
      rw [← e2]; exact c1
    · simp only [if_true] at e2
      exact (k2 _ _ e2).trans c1
  obtain ⟨g3, e3, h⟩ := Res.bind_eq_ok _ _ _ h
  have c3 : g3.progress.progressBar = some (c + 3) := by
    apply progress_bar
    cases lighten
    · simp only [Bool.false_eq_true, if_false, Res.ok.injEq] at e3
      rw [← e3]; exact c2
    · cases girder
      · simp only [if_true, Bool.false_eq_true, if_false] at e3
        exact (k3 _ _ _ e3).trans c2
      · simp only [if_true] at e3
        exact (k3 _ _ _ e3).trans c2
  obtain ⟨g4, e4, h⟩ := Res.bind_eq_ok _ _ _ h
  have c4 : g4.progress.progressBar = some (c + 4) := by
    apply progress_bar
    cases girder
    · simp only [Bool.false_eq_true, if_false] at e4
      exact (k4 _ _ _ e4).trans c3
    · simp only [if_true] at e4
      exact (k4 _ _ _ e4).trans c3
  obtain ⟨g5, e5, h⟩ := Res.bind_eq_ok _ _ _ h
  obtain ⟨oi, -, h⟩ := Res.bind_eq_ok _ _ _ h
  simp only [Res.ok.injEq, Prod.mk.injEq, true_and] at h
  obtain ⟨-, h⟩ := h
  rw [← h]
  cases girder
  · left
    simp only [Bool.false_eq_true, if_false, Res.ok.injEq] at e5
    refine ⟨rfl, ?_⟩
    rw [← e5]
    exact progress_bar _ _ (progress_bar _ _ c4)
  · right
    simp only [if_true] at e5
    obtain ⟨r, hr, hb⟩ := run_girder_bar S hS _ _ _ _ c4 e5
    refine ⟨rfl, _, r, hr, ?_⟩
    have := progress_bar _ _ (progress_bar _ _ hb)
    rw [this]
    congr 1
    omega

theorem failingAnchorStages_keepsBar [LinearOrderedField K] :
    (failingAnchorStages : Stages K).KeepsBar := by
  simp [Stages.KeepsBar, failingAnchorStages]

end Progress

/-! ## Claim on the progress steps -/

section ProgressClaims

/-- C26: a run without `girder` that passes the size check steps the progress
bar six times, not `progressBarSteps` times: on the unit square, with member
functions that leave the engine as it is, the bar goes from 0 to 6.  With
`girder` and a failed anchor placement it goes to 7. -/
theorem run_progress_six :
    ∃ m : Libm ℝ, m.IsReal ∧
      (∃ out g', run failingAnchorStages m countingEngine unitSquare false false false false
          false false false = .ok (true, out, g') ∧ g'.progressBar = some 6) ∧
      (∃ out g', run failingAnchorStages m countingEngine unitSquare false false true false
          false false false = .ok (true, out, g') ∧ g'.progressBar = some 7) ∧
      LiteEngine.progressBarSteps = 8 := by
  refine ⟨_, isReal_mk, ?_, ?_, rfl⟩
  · obtain ⟨out, g', h⟩ := run_true failingAnchorStages failingAnchorStages_total _
      (countingEngine : LiteEngine ℝ) unitSquare unitSquare false false false false false false
      false (regularise_unitSquare _ isReal_mk) (by simp [unitSquare])
    refine ⟨out, g', h, ?_⟩
    rcases run_bar _ failingAnchorStages_keepsBar _ _ _ _ _ _ _ _ _ _ 0 rfl _ _ h with h1 | h1
    · simpa using h1.2
    · simp at h1
  · obtain ⟨out, g', h⟩ := run_true failingAnchorStages failingAnchorStages_total _
      (countingEngine : LiteEngine ℝ) unitSquare unitSquare false false true false false false
      false (regularise_unitSquare _ isReal_mk) (by simp [unitSquare])
    refine ⟨out, g', h, ?_⟩
    rcases run_bar _ failingAnchorStages_keepsBar _ _ _ _ _ _ _ _ _ _ 0 rfl _ _ h with h1 | h1
    · simp at h1
    · obtain ⟨-, g1, r, hr, hb⟩ := h1
      have : r.1 = false := by
        simp only [failingAnchorStages, Res.ok.injEq] at hr
        rw [← hr]
      simpa [this] using hb

end ProgressClaims

/-! ## Tracing again after the reversal -/

section Retrace

theorem dist_axis (m : Libm ℝ) (hm : m.IsReal) (x1 x2 : ℝ) :
    distTwoPoints m ⟨x1, 0⟩ ⟨x2, 0⟩ = |x1 - x2| := by
  simp only [distTwoPoints, hm.1, sub_self, mul_zero, add_zero]
  exact Real.sqrt_mul_self_eq_abs _

theorem trace_snapChain (m : Libm ℝ) (hm : m.IsReal) :
    trace_a_path m SNAP_LEN (snapChain : obj ℝ) = (true, snapChainTraced, []) := by
  simp only [trace_a_path, snapChain, snapChainTraced]
  rw [trace_scan]
  norm_num [line.get_S1, line.get_S0, line.get_pt, line.reverse, line.ofPoints, T_S1, SNAP_LEN,
    dist_axis m hm, abs_le]
  rw [trace_scan]
  norm_num [line.get_S1, line.get_S0, line.get_pt, line.reverse, line.ofPoints, T_S1, SNAP_LEN,
    dist_axis m hm, abs_le]
  rw [trace_scan]
  norm_num [line.get_S1, line.get_S0, line.get_pt, line.reverse, line.ofPoints, T_S1, SNAP_LEN,
    dist_axis m hm, abs_le]

theorem cw_snapChainTraced (m : Libm ℝ) (hm : m.IsReal) :
    is_clockwise m (⟨⟨1, 0⟩, ⟨-(49997 / 50000), 0⟩⟩ : line ℝ)
      [⟨⟨3 / 50000, 0⟩, ⟨-(3 / 50000), 0⟩⟩, ⟨⟨0, 0⟩, ⟨3 / 25000, 0⟩⟩,
        ⟨⟨3 / 25000, 0⟩, ⟨24997 / 25000, 0⟩⟩] = false := by
  have hpi := Real.pi_pos
  have e1 : ∀ c : ℝ, c < 0 → (⟨c, 0⟩ : ℂ).arg = Real.pi := fun c hc => arg_mk_neg_zero hc
  have e2 : ∀ c : ℝ, 0 ≤ c → (⟨c, 0⟩ : ℂ).arg = 0 := fun c hc => arg_mk_nonneg_zero hc
  simp only [is_clockwise, is_clockwise_loop, line.len, hm.1, hm.2.1, hm.2.2.2.2,
    perpprod, perpprodRaw, dotprod, dotprodRaw, line.get_V, List.getLast_cons_cons,
    List.getLast_singleton]
  norm_num
  rw [e1 _ (by norm_num)]
  norm_num
  rw [e2 _ (by norm_num)]
  norm_num
  rw [e1 _ (by norm_num)]
  norm_num
  rw [e2 _ (by norm_num)]
  norm_num [isEqualWithinPercentage, isEqualWithinMargin, abs_of_pos, hpi, hpi.le]

theorem retrace_snapChain (m : Libm ℝ) (hm : m.IsReal) :
    trace_a_path m SNAP_LEN ((snapChainTraced : obj ℝ).map line.reverse ++ []) =
      (false, snapChainRetraced, []) := by
  simp only [trace_a_path, snapChainTraced, snapChainRetraced, List.map_cons, List.map_nil,
    List.append_nil, line.reverse]
  rw [trace_scan]
  norm_num [line.get_S1, line.get_S0, line.get_pt, line.reverse, line.ofPoints, T_S1, SNAP_LEN,
    dist_axis m hm, abs_le]
  rw [trace_scan]
  norm_num [line.get_S1, line.get_S0, line.get_pt, line.reverse, line.ofPoints, T_S1, SNAP_LEN,
    dist_axis m hm, abs_le]
  rw [trace_scan]
  norm_num [line.get_S1, line.get_S0, line.get_pt, line.reverse, line.ofPoints, T_S1, SNAP_LEN,
    dist_axis m hm, abs_le]
  rw [trace_scan]

theorem make_path_snapChain (m : Libm ℝ) (hm : m.IsReal) :
    make_path m (snapChain : obj ℝ) = .fatal := by
  have h0 : make_path_full m SNAP_LEN false false (snapChain : obj ℝ) [] [] =
      make_path_loop m SNAP_LEN false false (3 + 1) []
        (⟨⟨3 / 50000, 0⟩, ⟨-(3 / 50000), 0⟩⟩ :: [⟨⟨3 / 25000, 0⟩, ⟨24997 / 25000, 0⟩⟩,
          ⟨⟨0, 0⟩, ⟨3 / 25000, 0⟩⟩, ⟨⟨3 / 50000, 0⟩, ⟨49997 / 50000, 0⟩⟩]) [] [] := rfl
  simp only [make_path, make_path_snap]
  rw [h0, make_path_loop_fatal m SNAP_LEN false false 3 [] _ _ [] [] _ _ [] snapChainRetraced []
    (trace_snapChain m hm) (cw_snapChainTraced m hm) (retrace_snapChain m hm)]

/-- Tracing again after the reversal closes when the vertices of the traced
closed path are pairwise more than `snap` apart. -/
theorem retrace_separated (m : Libm ℝ) (hm : m.IsReal) (snap : ℝ) (hsnap : 0 ≤ snap)
    (p0 : line ℝ) (ps : List (line ℝ)) (hex : ExactLoop (p0 :: ps))
    (h2 : 2 ≤ (p0 :: ps).length)
    (hsep : ((p0 :: ps).map line.get_S0).Pairwise (fun p q => snap < distTwoPoints m p q))
    (rest : List (line ℝ)) :
    ∃ L : List (line ℝ),
      trace_a_path m snap ((p0 :: ps).map line.reverse ++ rest) = (true, L, rest) ∧
      L.IsRotated (revPath (p0 :: ps)) := by
  have hp := exactLoop_eq_polygon _ hex
  have hlen : 2 ≤ ((p0 :: ps).map line.get_S0).length := by simpa using h2
  have hkeys : ((p0.reverse :: ps.map line.reverse).map endsKey).Perm
      ((polygon ((p0 :: ps).map line.get_S0)).map endsKey) := by
    have : (endsKey ∘ line.reverse : line ℝ → _) = endsKey := by
      funext l; exact endsKey_reverse l
    rw [← hp, ← List.map_cons, List.map_map, this]
  have hin : p0.reverse ∈ revPath (polygon ((p0 :: ps).map line.get_S0)) := by
    rw [← hp, revPath, List.mem_reverse]
    exact List.mem_map_of_mem _ (List.mem_cons_self _ _)
  obtain ⟨ws1, hrot, htr⟩ := trace_a_path_polygon_rev_rest m snap _
    (sep_decides m hm snap hsnap _ hsep) (sep_nodup m hm snap hsnap _ hsep) hlen
    p0.reverse (ps.map line.reverse) hkeys hin rest
  have hrot2 : (polygon ws1).IsRotated (revPath (p0 :: ps)) := by
    have h1 := (polygon_rotated _ _ hrot).trans
      (revPath_polygon_rotated ((p0 :: ps).map line.get_S0)).symm
    rwa [← hp] at h1
  exact ⟨polygon ws1, by simpa using htr, hrot2⟩

end Retrace

/-! ## Claim on the trace after the reversal -/

section RetraceClaims

/-- C29 (counterexample): four segments on the x-axis with three end points
within `SNAP_LEN` of their neighbour trace as a closed path that is not
clockwise; the trace of its reversed segments stays open, and `make_path` ends
in `FATAL`. -/
theorem make_path_retrace_fatal :
    ∃ m : Libm ℝ, m.IsReal ∧
      trace_a_path m SNAP_LEN (snapChain : obj ℝ) = (true, snapChainTraced, []) ∧
      trace_a_path m SNAP_LEN ((snapChainTraced : obj ℝ).map line.reverse ++ []) =
        (false, snapChainRetraced, []) ∧
      make_path m (snapChain : obj ℝ) = .fatal :=
  ⟨_, isReal_mk, trace_snapChain _ isReal_mk, retrace_snapChain _ isReal_mk,
    make_path_snapChain _ isReal_mk⟩

/-- C29 (amended): when the sub-path traced as closed from `st` has vertices
that are pairwise more than `snaplen` apart, the trace of its reversed
segments closes again, on the reversed path up to the choice of its first
segment, and the round of `make_path` goes on with the next sub-path: with
the traced path when it is clockwise, with the re-traced one when it is not. -/
theorem make_path_retrace_closes (m : Libm ℝ) (hm : m.IsReal) (snap : ℝ) (hsnap : 0 ≤ snap)
    (listPaths keepOpens : Bool) (n : Nat) (done : List (line ℝ)) (st : line ℝ)
    (r : List (line ℝ)) (closed opened : List (obj ℝ)) (p0 : line ℝ) (ps rest : List (line ℝ))
    (h : trace_a_path m snap (st :: r) = (true, p0 :: ps, rest))
    (hsep : ((p0 :: ps).map line.get_S0).Pairwise (fun p q => snap < distTwoPoints m p q)) :
    ∃ L : List (line ℝ),
      trace_a_path m snap ((p0 :: ps).map line.reverse ++ rest) = (true, L, rest) ∧
      L.IsRotated (revPath (p0 :: ps)) ∧
      make_path_loop m snap listPaths keepOpens (n + 1) done (st :: r) closed opened =
        make_path_loop m snap listPaths keepOpens n
          (done ++ (if is_clockwise m p0 ps then p0 :: ps else L)) rest
          (if listPaths then closed ++ [if is_clockwise m p0 ps then p0 :: ps else L]
            else closed) opened := by
  obtain ⟨L, h1, h2⟩ := retrace_separated m hm snap hsnap p0 ps
    (trace_a_path_exact m snap _ _ _ h) (trace_a_path_closed_length m snap _ _ _ h) hsep rest
  refine ⟨L, h1, h2, ?_⟩
  cases hcw : is_clockwise m p0 ps with
  | true =>
    simpa using make_path_loop_closed m snap listPaths keepOpens n done st r closed opened p0 ps
      rest h hcw
  | false =>
    simpa using make_path_loop_reversed m snap listPaths keepOpens n done st r closed opened p0
      ps rest L rest h hcw h1

/-- Witness of C29 (amended): the segment from `(0,0)` to `(1,0)` and back,
which traces as closed and is not clockwise. -/
theorem make_path_retrace_closes_witness :
    ∃ m : Libm ℝ, m.IsReal ∧ (0 : ℝ) ≤ SNAP_LEN ∧
      trace_a_path m SNAP_LEN ([segAB, segBA] : obj ℝ) = (true, [segAB, segBA], []) ∧
      (([segAB, segBA] : obj ℝ).map line.get_S0).Pairwise
        (fun p q => SNAP_LEN < distTwoPoints m p q) ∧
      ∃ L : List (line ℝ),
        trace_a_path m SNAP_LEN (([segAB, segBA] : obj ℝ).map line.reverse ++ []) =
          (true, L, []) ∧
        L.IsRotated (revPath [segAB, segBA]) ∧
        make_path_loop m SNAP_LEN true true (1 + 1) [] [segAB, segBA] [] [] =
          make_path_loop m SNAP_LEN true true 1
            ([] ++ (if is_clockwise m segAB [segBA] then [segAB, segBA] else L)) []
            (if true then [] ++ [if is_clockwise m segAB [segBA] then [segAB, segBA] else L]
              else []) [] := by
  have hs : (0 : ℝ) ≤ SNAP_LEN := by norm_num [SNAP_LEN]
  have hsep : ∀ m : Libm ℝ, m.IsReal → (([segAB, segBA] : obj ℝ).map line.get_S0).Pairwise
      (fun p q => SNAP_LEN < distTwoPoints m p q) := by
    intro m hm
    simp only [List.map_cons, List.map_nil, List.pairwise_cons, List.mem_singleton,
      List.not_mem_nil, forall_eq, false_imp_iff, implies_true, List.Pairwise.nil, and_true]
    have := far_apart m hm (segAB : line ℝ).get_S0 (segBA : line ℝ).get_S0
      (by norm_num [segAB, segBA, line.get_S0])
    exact not_le.1 this
  exact ⟨_, isReal_mk, hs, trace_AB_BA _ isReal_mk, hsep _ isReal_mk,
    make_path_retrace_closes _ isReal_mk SNAP_LEN hs true true 1 [] segAB [segBA] [] []
      segAB [segBA] [] (trace_AB_BA _ isReal_mk) (hsep _ isReal_mk)⟩

end RetraceClaims

/-! ## Narrow brace pairs (`LiteEngine::invalidateNarrowBracePairs`) -/

section Narrow
variable {K : Type} [LinearOrderedField K]

theorem narrow_anchor_total (m : Libm K) (ma : K) (a : anchor_t K) (h : a.brace.length = 2) :
    ∃ a1, narrow_anchor m ma a = .ok a1 ∧ a1.brace.length = 2 := by
  obtain ⟨br, rl, rp⟩ := a
  match br, h with
  | [b0, b1], _ =>
    simp only [narrow_anchor]
    split_ifs <;> exact ⟨_, rfl, rfl⟩

/-- The loop of `invalidateNarrowBracePairs` returns, with the body applied to
the anchors `k .. k + n - 1` and the other anchors as they were. -/
theorem narrow_loop_spec (m : Libm K) (ma : K) :
    ∀ (n k : Nat) (anchors : List (anchor_t K)), k + n ≤ anchors.length →
      (∀ a ∈ anchors, a.brace.length = 2) →
      ∃ r, invalidateNarrowBracePairs_loop m ma n k anchors = .ok r ∧
        r.length = anchors.length ∧
        ∀ j a, anchors[j]? = some a →
          (k ≤ j ∧ j < k + n → ∃ a1, narrow_anchor m ma a = .ok a1 ∧ r[j]? = some a1) ∧
          (¬ (k ≤ j ∧ j < k + n) → r[j]? = some a) := by
  intro n
  induction n with
  | zero =>
    intro k anchors _ _
    refine ⟨anchors, rfl, rfl, ?_⟩
    intro j a hj
    exact ⟨fun h => absurd h.2 (by omega), fun _ => hj⟩
  | succ n ih =>
    intro k anchors hk hb
    have hk' : k < anchors.length := by omega
    have hget : anchors[k]? = some anchors[k] := List.getElem?_eq_getElem hk'
    obtain ⟨a1, ha1, hlen1⟩ := narrow_anchor_total m ma anchors[k]
      (hb _ (List.getElem_mem hk'))
    have hb2 : ∀ a ∈ anchors.set k a1, a.brace.length = 2 := by
      intro a ha
      rcases List.mem_or_eq_of_mem_set ha with h | h
      · exact hb a h
      · rw [h]; exact hlen1
    obtain ⟨r, hr, hrl, hrj⟩ := ih (k + 1) (anchors.set k a1)
      (by rw [List.length_set]; omega) hb2
    refine ⟨r, ?_, by rw [hrl, List.length_set], ?_⟩
    · rw [invalidateNarrowBracePairs_loop, hget]
      simp only [ha1, Res.bind, hr]
    · intro j a hj
      by_cases hjk : j = k
      · subst hjk
        have h1 : (anchors.set j a1)[j]? = some a1 := List.getElem?_set_self hk'
        have h2 := (hrj j a1 h1).2 (by omega)
        have ha : a = anchors[j] := by
          rw [hget] at hj
          exact (Option.some.inj hj).symm
        refine ⟨fun _ => ⟨a1, by rw [ha]; exact ha1, h2⟩, fun h => absurd ⟨le_refl _, ?_⟩ h⟩
        omega
      · have h1 : (anchors.set k a1)[j]? = some a := by
          rw [List.getElem?_set_ne (Ne.symm hjk)]; exact hj
        obtain ⟨h2, h3⟩ := hrj j a h1
        refine ⟨fun h => h2 ⟨by omega, by omega⟩, fun h => h3 ?_⟩
        intro h4
        exact h ⟨by omega, by omega⟩

theorem narrow_anchor_first (m : Libm K) (ma : K) (a : anchor_t K) (b0 b1 : brace_t K)
    (hb : a.brace = [b0, b1]) (h0 : b0.isValid = true) (h1 : b1.isValid = true)
    (hang : |b0.refLn.angle_to m b1.refLn| < ma)
    (hl0 : 0 < b0.refLn.len m) (hl1 : 0 < b1.refLn.len m)
    (hlt : b1.refLn.len m < b0.refLn.len m) :
    narrow_anchor m ma a = .ok { a with brace := [{ b0 with isValid := false }, b1] } := by
  obtain ⟨br, rl, rp⟩ := a
  simp only at hb
  subst hb
  simp only [narrow_anchor, h0, h1, Bool.and_self, if_true, gt_iff_lt, hl0, hl1, and_self,
    hang, hlt]

theorem narrow_anchor_second (m : Libm K) (ma : K) (a : anchor_t K) (b0 b1 : brace_t K)
    (hb : a.brace = [b0, b1]) (h0 : b0.isValid = true) (h1 : b1.isValid = true)
    (hang : |b0.refLn.angle_to m b1.refLn| < ma)
    (hl0 : 0 < b0.refLn.len m) (hl1 : 0 < b1.refLn.len m)
    (hle : b0.refLn.len m ≤ b1.refLn.len m) :
    narrow_anchor m ma a = .ok { a with brace := [b0, { b1 with isValid := false }] } := by
  obtain ⟨br, rl, rp⟩ := a
  simp only at hb
  subst hb
  simp only [narrow_anchor, h0, h1, Bool.and_self, if_true, gt_iff_lt, hl0, hl1, and_self,
    hang, not_lt.mpr hle, if_false]

theorem narrow_anchor_point (m : Libm K) (ma : K) (a : anchor_t K) (b0 b1 : brace_t K)
    (hb : a.brace = [b0, b1]) (hl : ¬ (0 < b0.refLn.len m ∧ 0 < b1.refLn.len m)) :
    narrow_anchor m ma a = .ok a := by
  obtain ⟨br, rl, rp⟩ := a
  simp only at hb
  subst hb
  simp only [narrow_anchor, gt_iff_lt, hl, if_false]
  split_ifs <;> rfl

theorem len_zero_line (m : Libm ℝ) (hm : m.IsReal) (p : coord_t ℝ) :
    (⟨p, ⟨0, 0⟩⟩ : line ℝ).len m = 0 := by
  simp [line.len, hm.1]

end Narrow

/-! ## Claim on the narrow brace pairs -/

section NarrowClaims

/-- C24 (counterexample): an anchor with two valid braces, the reference line
of the first of length zero; `line::angle` gives the angle 0 between the two
reference lines, below the minimum angle 1, and `invalidateNarrowBracePairs`
leaves both braces valid. -/
theorem narrow_pair_neither_invalidated :
    ∃ m : Libm ℝ, m.IsReal ∧
      |(braceOn (⟨⟨0, 0⟩, ⟨0, 0⟩⟩ : line ℝ)).refLn.angle_to m
          (braceOn (⟨⟨0, 0⟩, ⟨1, 0⟩⟩ : line ℝ)).refLn| <
        (oneAnchorEngine (pointBraceAnchor : anchor_t ℝ)).ma ∧
      (pointBraceAnchor : anchor_t ℝ).brace.map (fun b => b.isValid) = [true, true] ∧
      invalidateNarrowBracePairs m (oneAnchorEngine (pointBraceAnchor : anchor_t ℝ)) =
        .ok (oneAnchorEngine pointBraceAnchor) := by
  refine ⟨_, isReal_mk, ?_, rfl, ?_⟩
  · simp [line.angle_to, braceOn, len_zero_line _ isReal_mk, oneAnchorEngine]
  · have h := narrow_anchor_point
      (⟨Real.sqrt, fun y x => Complex.arg ⟨x, y⟩, Real.cos, Real.sin, Real.pi⟩ : Libm ℝ) 1
      (pointBraceAnchor : anchor_t ℝ) _ _ rfl
      (by simp [braceOn, len_zero_line _ isReal_mk])
    simp only [invalidateNarrowBracePairs, oneAnchorEngine, Int.toNat_one,
      invalidateNarrowBracePairs_loop, List.getElem?_cons_zero, h, Res.bind, List.set_cons_zero]

/-- C24 (amended): with `nAnchors` anchors in the vector,
`invalidateNarrowBracePairs` returns, and for every anchor `k < nAnchors`
whose two braces are both valid and whose two reference lines include an
angle (as `line::angle` gives it) of magnitude below the minimum `ma`: when
both reference lines have positive length exactly one brace is invalidated,
brace 0 when its reference line is the longer, brace 1 when its reference
line is the longer or the two are equally long; when a reference line has
length zero the anchor is left as it is. -/
theorem invalidateNarrowBracePairs_spec {K : Type} [LinearOrderedField K] (m : Libm K)
    (g : LiteEngine K) (hn : g.nAnchors.toNat ≤ g.anchors.length)
    (hb : ∀ a ∈ g.anchors, a.brace.length = 2) :
    ∃ g', invalidateNarrowBracePairs m g = .ok g' ∧
      g'.anchors.length = g.anchors.length ∧
      ∀ (k : Nat) (a : anchor_t K) (b0 b1 : brace_t K), k < g.nAnchors.toNat →
        g.anchors[k]? = some a → a.brace = [b0, b1] →
        b0.isValid = true → b1.isValid = true →
        |b0.refLn.angle_to m b1.refLn| < g.ma →
        (0 < b0.refLn.len m → 0 < b1.refLn.len m → b1.refLn.len m < b0.refLn.len m →
          g'.anchors[k]? = some { a with brace := [{ b0 with isValid := false }, b1] }) ∧
        (0 < b0.refLn.len m → 0 < b1.refLn.len m → b0.refLn.len m ≤ b1.refLn.len m →
          g'.anchors[k]? = some { a with brace := [b0, { b1 with isValid := false }] }) ∧
        (¬ (0 < b0.refLn.len m ∧ 0 < b1.refLn.len m) → g'.anchors[k]? = some a) := by
  obtain ⟨r, hr, hrl, hrj⟩ := narrow_loop_spec m g.ma g.nAnchors.toNat 0 g.anchors
    (by omega) hb
  refine ⟨{ g with anchors := r }, ?_, hrl, ?_⟩
  · simp only [invalidateNarrowBracePairs, hr, Res.bind]
  · intro k a b0 b1 hk hka hbr h0 h1 hang
    obtain ⟨a1, ha1, hra⟩ := (hrj k a hka).1 ⟨Nat.zero_le _, by omega⟩
    refine ⟨fun hl0 hl1 hlt => ?_, fun hl0 hl1 hle => ?_, fun hl => ?_⟩
    · rw [narrow_anchor_first m g.ma a b0 b1 hbr h0 h1 hang hl0 hl1 hlt] at ha1
      rw [Res.ok.injEq] at ha1
      rw [ha1]; exact hra
    · rw [narrow_anchor_second m g.ma a b0 b1 hbr h0 h1 hang hl0 hl1 hle] at ha1
      rw [Res.ok.injEq] at ha1
      rw [ha1]; exact hra
    · rw [narrow_anchor_point m g.ma a b0 b1 hbr hl] at ha1
      rw [Res.ok.injEq] at ha1
      rw [ha1]; exact hra

/-- Witness of C24 (amended): one anchor whose reference lines run along the
x-axis, of lengths 2 and 1. -/
theorem invalidateNarrowBracePairs_spec_witness :
    ∃ m : Libm ℝ, m.IsReal ∧
      (oneAnchorEngine (narrowAnchor : anchor_t ℝ)).nAnchors.toNat ≤
        (oneAnchorEngine (narrowAnchor : anchor_t ℝ)).anchors.length ∧
      (∀ a ∈ (oneAnchorEngine (narrowAnchor : anchor_t ℝ)).anchors, a.brace.length = 2) ∧
      ∃ g', invalidateNarrowBracePairs m (oneAnchorEngine (narrowAnchor : anchor_t ℝ)) =
          .ok g' ∧
        g'.anchors.length = (oneAnchorEngine (narrowAnchor : anchor_t ℝ)).anchors.length ∧
        ∀ (k : Nat) (a : anchor_t ℝ) (b0 b1 : brace_t ℝ),
          k < (oneAnchorEngine (narrowAnchor : anchor_t ℝ)).nAnchors.toNat →
          (oneAnchorEngine (narrowAnchor : anchor_t ℝ)).anchors[k]? = some a →
          a.brace = [b0, b1] → b0.isValid = true → b1.isValid = true →
          |b0.refLn.angle_to m b1.refLn| < (oneAnchorEngine (narrowAnchor : anchor_t ℝ)).ma →
          (0 < b0.refLn.len m → 0 < b1.refLn.len m → b1.refLn.len m < b0.refLn.len m →
            g'.anchors[k]? = some { a with brace := [{ b0 with isValid := false }, b1] }) ∧
          (0 < b0.refLn.len m → 0 < b1.refLn.len m → b0.refLn.len m ≤ b1.refLn.len m →
            g'.anchors[k]? = some { a with brace := [b0, { b1 with isValid := false }] }) ∧
          (¬ (0 < b0.refLn.len m ∧ 0 < b1.refLn.len m) → g'.anchors[k]? = some a) :=
  ⟨_, isReal_mk, by simp [oneAnchorEngine], by simp [oneAnchorEngine, narrowAnchor],
    invalidateNarrowBracePairs_spec _ (oneAnchorEngine narrowAnchor)
      (by simp [oneAnchorEngine]) (by simp [oneAnchorEngine, narrowAnchor])⟩

end NarrowClaims

/-! ## Crossing braces (`LiteEngine::invalidateCrossingBraces`) -/

section Crossing

theorem brace_at_invalidate_self {K : Type} [LinearOrderedField K] (anchors : List (anchor_t K))
    (k b : Nat) (br : brace_t K) (h : brace_at anchors k b = some br) :
    brace_at (invalidate_brace anchors k b) k b = some { br with isValid := false } := by
  simp only [brace_at] at h
  cases hk : anchors[k]? with
  | none => simp [hk] at h
  | some a =>
    simp only [hk] at h
    have hk1 : k < anchors.length := by
      by_contra hc
      rw [List.getElem?_eq_none (by omega)] at hk
      exact absurd hk (by simp)
    have hb1 : b < a.brace.length := by
      by_contra hc
      rw [List.getElem?_eq_none (by omega)] at h
      exact absurd h (by simp)
    simp only [invalidate_brace, hk, h, brace_at, List.getElem?_set_self hk1,
      List.getElem?_set_self hb1]

theorem brace_at_invalidate_other {K : Type} [LinearOrderedField K]
    (anchors : List (anchor_t K)) (k b k1 b1 : Nat) (hne : (k1, b1) ≠ (k, b)) :
    brace_at (invalidate_brace anchors k b) k1 b1 = brace_at anchors k1 b1 := by
  cases hk : anchors[k]? with
  | none => simp only [invalidate_brace, hk]
  | some a =>
    cases hb : a.brace[b]? with
    | none => simp only [invalidate_brace, hk, hb]
    | some br =>
      simp only [invalidate_brace, hk, hb, brace_at]
      by_cases hkk : k1 = k
      · subst hkk
        have hk1 : k1 < anchors.length := by
          by_contra hc
          rw [List.getElem?_eq_none (by omega)] at hk
          exact absurd hk (by simp)
        have hbb : b ≠ b1 := by
          intro h
          exact hne (by rw [h])
        simp only [List.getElem?_set_self hk1, hk, List.getElem?_set_ne hbb]
      · rw [List.getElem?_set_ne (Ne.symm hkk)]

theorem shrink_ends_len (m : Libm ℝ) (hm : m.IsReal) (l : line ℝ) :
    (shrink_ends l).len m = 998 / 1000 * l.len m := by
  have e : (l.S0.x + (1 - 1 / 1000) * l.V.dx - (l.S0.x + 1 / 1000 * l.V.dx)) *
        (l.S0.x + (1 - 1 / 1000) * l.V.dx - (l.S0.x + 1 / 1000 * l.V.dx)) +
      (l.S0.y + (1 - 1 / 1000) * l.V.dy - (l.S0.y + 1 / 1000 * l.V.dy)) *
        (l.S0.y + (1 - 1 / 1000) * l.V.dy - (l.S0.y + 1 / 1000 * l.V.dy)) =
      (998 / 1000) ^ 2 * (l.V.dx * l.V.dx + l.V.dy * l.V.dy) := by ring
  simp only [shrink_ends, line.len, line.ofPoints, line.get_pt, endShrink, hm.1]
  rw [e, Real.sqrt_mul (by positivity), Real.sqrt_sq (by norm_num)]

end Crossing

/-! ## Claim on the crossing braces -/

section CrossingClaims

/-- C25: at a step of `invalidateCrossingBraces` that compares two distinct
brace lines of valid braces and finds that they cross (the test is made on the
lines with their ends drawn in), the brace that owns the longer line is
invalidated: the brace of the outer loops when its line is the longer, the
brace of the inner loops when its line is the longer or the two are equally
long.  Invalidating a brace clears its flag and leaves every other brace,
of every anchor, as it is. -/
theorem crossing_step_invalidates_longer (m : Libm ℝ) (hm : m.IsReal)
    (anchors : List (anchor_t ℝ)) (ko bo lo ki bi li : Nat) (braceO braceI : brace_t ℝ)
    (edgeO edgeI : brLine_t ℝ) (hd : ko ≠ ki ∨ bo ≠ bi ∨ lo ≠ li)
    (ho : brace_at anchors ko bo = some braceO) (hi : brace_at anchors ki bi = some braceI)
    (hvo : braceO.isValid = true) (hvi : braceI.isValid = true)
    (heo : braceO.brLine[lo]? = some edgeO) (hei : braceI.brLine[li]? = some edgeI)
    (hx : ((shrink_ends edgeO.brLn).lines_intersect m (shrink_ends edgeI.brLn) false).1 =
      true) :
    (edgeI.brLn.len m < edgeO.brLn.len m →
      crossing_step m anchors ko bo lo ki bi li = .ok (invalidate_brace anchors ko bo)) ∧
    (edgeO.brLn.len m ≤ edgeI.brLn.len m →
      crossing_step m anchors ko bo lo ki bi li = .ok (invalidate_brace anchors ki bi)) ∧
    (∀ k b br, brace_at anchors k b = some br →
      brace_at (invalidate_brace anchors k b) k b = some { br with isValid := false }) ∧
    (∀ k b k1 b1, (k1, b1) ≠ (k, b) →
      brace_at (invalidate_brace anchors k b) k1 b1 = brace_at anchors k1 b1) := by
  have hstep : crossing_step m anchors ko bo lo ki bi li =
      if (shrink_ends edgeO.brLn).len m > (shrink_ends edgeI.brLn).len m then
        .ok (invalidate_brace anchors ko bo)
      else .ok (invalidate_brace anchors ki bi) := by
    simp only [crossing_step, if_pos hd, ho, hi, hvo, hvi, Bool.and_self, if_true, heo, hei,
      hx]
  rw [shrink_ends_len m hm, shrink_ends_len m hm] at hstep
  refine ⟨fun h => ?_, fun h => ?_, brace_at_invalidate_self anchors,
    brace_at_invalidate_other anchors⟩
  · rw [hstep, if_pos (by linarith)]
  · rw [hstep, if_neg (by linarith)]

/-- Witness of C25: the line from `(0,0)` to `(2,0)` of brace 0 against the
line from `(1,-2)` to `(1,2)` of brace 1 of the same anchor. -/
theorem crossing_step_invalidates_longer_witness :
    ∃ m : Libm ℝ, m.IsReal ∧
      ((0 : Nat) ≠ 0 ∨ (0 : Nat) ≠ 1 ∨ (0 : Nat) ≠ 0) ∧
      brace_at [(crossedAnchor : anchor_t ℝ)] 0 0 = some (braceWith ⟨⟨0, 0⟩, ⟨2, 0⟩⟩) ∧
      brace_at [(crossedAnchor : anchor_t ℝ)] 0 1 = some (braceWith ⟨⟨1, -2⟩, ⟨0, 4⟩⟩) ∧
      ((shrink_ends (⟨⟨0, 0⟩, ⟨2, 0⟩⟩ : line ℝ)).lines_intersect m
        (shrink_ends ⟨⟨1, -2⟩, ⟨0, 4⟩⟩) false).1 = true ∧
      ((⟨⟨1, -2⟩, ⟨0, 4⟩⟩ : line ℝ).len m < (⟨⟨0, 0⟩, ⟨2, 0⟩⟩ : line ℝ).len m →
        crossing_step m [(crossedAnchor : anchor_t ℝ)] 0 0 0 0 1 0 =
          .ok (invalidate_brace [crossedAnchor] 0 0)) ∧
      ((⟨⟨0, 0⟩, ⟨2, 0⟩⟩ : line ℝ).len m ≤ (⟨⟨1, -2⟩, ⟨0, 4⟩⟩ : line ℝ).len m →
        crossing_step m [(crossedAnchor : anchor_t ℝ)] 0 0 0 0 1 0 =
          .ok (invalidate_brace [crossedAnchor] 0 1)) ∧
      (∀ k b br, brace_at [(crossedAnchor : anchor_t ℝ)] k b = some br →
        brace_at (invalidate_brace [crossedAnchor] k b) k b =
          some { br with isValid := false }) ∧
      (∀ k b k1 b1, (k1, b1) ≠ (k, b) →
        brace_at (invalidate_brace [(crossedAnchor : anchor_t ℝ)] k b) k1 b1 =
          brace_at [crossedAnchor] k1 b1) := by
  have hx : ∀ m : Libm ℝ, ((shrink_ends (⟨⟨0, 0⟩, ⟨2, 0⟩⟩ : line ℝ)).lines_intersect m
      (shrink_ends ⟨⟨1, -2⟩, ⟨0, 4⟩⟩) false).1 = true := by
    intro m
    rw [lines_intersect_skew_eq m _ _ (by
      norm_num [shrink_ends, line.ofPoints, line.get_pt, endShrink, perpprod, perpprodRaw,
        SMALL_NUM, SNAP_LEN, abs_of_pos])]
    norm_num [shrink_ends, line.ofPoints, line.get_pt, endShrink, perpprod, perpprodRaw]
  exact ⟨_, isReal_mk, by decide, rfl, rfl, hx _,
    crossing_step_invalidates_longer _ isReal_mk [crossedAnchor] 0 0 0 0 1 0 _ _
      { (blankBrLine : brLine_t ℝ) with brLn := ⟨⟨0, 0⟩, ⟨2, 0⟩⟩ }
      { (blankBrLine : brLine_t ℝ) with brLn := ⟨⟨1, -2⟩, ⟨0, 4⟩⟩ }
      (by decide) rfl rfl rfl rfl rfl rfl (hx _)⟩

end CrossingClaims

/-! ## Even spacing of the anchors (`LiteEngine::generateAnchorPoints`) -/

section Anchors
variable {K : Type} [LinearOrderedField K] [FloorRing K]

/-- The point at an arc length below the total length. -/
theorem along_length_below (m : Libm K) (o : obj K) (d : K) (hne : o ≠ [])
    (hpos : ∀ ln ∈ o, 0 < ln.len m) (h0 : 0 ≤ d) (h1 : d < obj.len m o) :
    ∃ (j : Nat) (ln : line K) (T : K), o[j]? = some ln ∧
      obj.get_pt_along_length m o d = some (ln.get_pt T, j, T) ∧ 0 ≤ T ∧ T ≤ 1 ∧
      ((o.take j).map (fun ln => ln.len m)).sum + T * ln.len m = d := by
  rcases eq_or_lt_of_le h0 with h | h
  · subst h
    cases o with
    | nil => exact absurd rfl hne
    | cons first rest =>
      refine ⟨0, first, 0, by simp, ?_, le_refl _, zero_le_one, by simp⟩
      simp [obj.get_pt_along_length, line.get_pt, line.get_S0]
  · obtain ⟨j, ln, T, hj, hg, hT0, hT1, hs⟩ := along_length_core m o d hne hpos h
    refine ⟨j, ln, T, hj, hg, hT0, hT1, ?_⟩
    have hL : 0 < obj.len m o := lt_of_le_of_lt h0 h1
    have hfl : ⌊d / obj.len m o⌋ = 0 := by
      rw [Int.floor_eq_iff]
      constructor
      · simpa using div_nonneg h0 hL.le
      · simpa using (div_lt_one hL).2 h1
    rw [hs, hfl]
    simp

theorem place_anchors_loop_spec (m : Libm K) (refori : obj K) (dAnchor : K) (N : Nat)
    (hat : ∀ j : Nat, j < N → ∃ (li : Nat) (ln : line K) (T : K), refori[li]? = some ln ∧
      obj.get_pt_along_length m refori ((j : K) * dAnchor) = some (ln.get_pt T, li, T)) :
    ∀ (n k : Nat) (anchors : List (anchor_t K)), k + n ≤ anchors.length → k + n ≤ N →
      ∃ r, place_anchors_loop m refori dAnchor n k anchors = .ok r ∧
        r.length = anchors.length ∧
        ∀ j a, anchors[j]? = some a →
          (k ≤ j ∧ j < k + n → ∀ (pt : coord_t K) (li : Nat) (T : K) (ln : line K),
            obj.get_pt_along_length m refori ((j : K) * dAnchor) = some (pt, li, T) →
            refori[li]? = some ln → r[j]? = some { a with rimPt := pt, rimLine := ln }) ∧
          (¬ (k ≤ j ∧ j < k + n) → r[j]? = some a) := by
  intro n
  induction n with
  | zero =>
    intro k anchors _ _
    refine ⟨anchors, rfl, rfl, ?_⟩
    intro j a hj
    exact ⟨fun h => absurd h.2 (by omega), fun _ => hj⟩
  | succ n ih =>
    intro k anchors hk hkN
    have hk1 : k < anchors.length := by omega
    have hget : anchors[k]? = some anchors[k] := List.getElem?_eq_getElem hk1
    obtain ⟨li, ln, T, hln, hg⟩ := hat k (by omega)
    obtain ⟨r, hr, hrl, hrj⟩ := ih (k + 1)
      (anchors.set k { anchors[k] with rimPt := ln.get_pt T, rimLine := ln })
      (by rw [List.length_set]; omega) (by omega)
    refine ⟨r, ?_, by rw [hrl, List.length_set], ?_⟩
    · rw [place_anchors_loop]
      simp only [hg, hget, hln, hr]
    · intro j a hj
      by_cases hjk : j = k
      · subst hjk
        have h1 := List.getElem?_set_self hk1
          (a := ({ anchors[j] with rimPt := ln.get_pt T, rimLine := ln } : anchor_t K))
        have h2 := (hrj j _ h1).2 (by omega)
        have ha : a = anchors[j] := by
          rw [hget] at hj
          exact (Option.some.inj hj).symm
        refine ⟨fun _ pt li1 T1 ln1 e1 e2 => ?_, fun h => absurd ⟨le_refl _, by omega⟩ h⟩
        rw [hg] at e1
        simp only [Option.some.injEq, Prod.mk.injEq] at e1
        obtain ⟨rfl, rfl, rfl⟩ := e1
        rw [hln] at e2
        rw [Option.some.injEq] at e2
        subst e2
        rw [h2, ha]
      · have h1 : (anchors.set k
            { anchors[k] with rimPt := ln.get_pt T, rimLine := ln })[j]? = some a := by
          rw [List.getElem?_set_ne (Ne.symm hjk)]; exact hj
        obtain ⟨h2, h3⟩ := hrj j a h1
        refine ⟨fun h => h2 ⟨by omega, by omega⟩, fun h => h3 ?_⟩
        intro h4
        exact h ⟨by omega, by omega⟩

/-- The even-spacing branch returns when the count is positive and the inner
reference is a non-empty path of elements of positive length. -/
theorem even_anchor_points_core (m : Libm K) (g : LiteEngine K)
    (hn : 0 < cround (obj.len m g.reforo / g.anchorSpan)) (hne : g.refori ≠ [])
    (hpos : ∀ ln ∈ g.refori, 0 < ln.len m) :
    ∃ g', even_anchor_points m g = .ok g' ∧
      g'.nAnchors = cround (obj.len m g.reforo / g.anchorSpan) ∧
      g'.anchors.length = g.anchors.length + g'.nAnchors.toNat ∧
      ∀ k : Nat, k < g'.nAnchors.toNat → ∃ (a : anchor_t K) (j : Nat) (T : K),
        g'.anchors[k]? = some a ∧ g.refori[j]? = some a.rimLine ∧
        a.rimPt = a.rimLine.get_pt T ∧ 0 ≤ T ∧ T ≤ 1 ∧
        ((g.refori.take j).map (fun ln => ln.len m)).sum + T * a.rimLine.len m =
          (k : K) * (obj.len m g.refori / (g'.nAnchors : K)) := by
  generalize hnn : cround (obj.len m g.reforo / g.anchorSpan) = n at hn
  have hL : 0 < obj.len m g.refori := by
    rw [len_eq_sum]
    cases hr : g.refori with
    | nil => exact absurd hr hne
    | cons x xs =>
      rw [hr] at hpos
      simp only [List.map_cons, List.sum_cons]
      have hx : 0 < x.len m := hpos x (List.mem_cons_self _ _)
      have hxs : 0 ≤ (xs.map (fun ln => ln.len m)).sum := by
        apply List.sum_nonneg
        intro a ha
        obtain ⟨ln, hln, rfl⟩ := List.mem_map.mp ha
        exact le_of_lt (hpos ln (List.mem_cons_of_mem _ hln))
      linarith
  have hcast : (n : K) = ((n.toNat : Nat) : K) := by
    have : ((n.toNat : Nat) : Int) = n := Int.toNat_of_nonneg hn.le
    rw [← Int.cast_natCast, this]
  have hN : 0 < n.toNat := by omega
  have hNK : (0 : K) < ((n.toNat : Nat) : K) := by exact_mod_cast hN
  have hat : ∀ j : Nat, j < n.toNat → ∃ (li : Nat) (ln : line K) (T : K),
      g.refori[li]? = some ln ∧
      obj.get_pt_along_length m g.refori ((j : K) * (obj.len m g.refori / (n : K))) =
        some (ln.get_pt T, li, T) ∧ 0 ≤ T ∧ T ≤ 1 ∧
      ((g.refori.take li).map (fun ln => ln.len m)).sum + T * ln.len m =
        (j : K) * (obj.len m g.refori / (n : K)) := by
    intro j hj
    have hjK : (j : K) < ((n.toNat : Nat) : K) := by exact_mod_cast hj
    have h0 : 0 ≤ (j : K) * (obj.len m g.refori / (n : K)) := by
      rw [hcast]; positivity
    have h1 : (j : K) * (obj.len m g.refori / (n : K)) < obj.len m g.refori := by
      rw [hcast, mul_div_assoc', div_lt_iff₀ hNK, mul_comm]
      exact mul_lt_mul_of_pos_left hjK hL
    exact along_length_below m g.refori _ hne hpos h0 h1
  obtain ⟨r, hr, hrl, hrj⟩ := place_anchors_loop_spec m g.refori
    (obj.len m g.refori / (n : K)) n.toNat
    (fun j hj => by
      obtain ⟨li, ln, T, h1, h2, -⟩ := hat j hj
      exact ⟨li, ln, T, h1, h2⟩)
    n.toNat 0 (g.anchors ++ List.replicate n.toNat freshAnchor)
    (by simp) (by omega)
  refine ⟨{ g with nAnchors := n, anchors := r }, ?_, rfl, ?_, ?_⟩
  · simp only [even_anchor_points, hnn, hr, Res.bind]
  · simp [hrl]
  · intro k hk
    have hk : k < n.toNat := hk
    have hk2 : k < (g.anchors ++ List.replicate n.toNat (freshAnchor : anchor_t K)).length := by
      simp only [List.length_append, List.length_replicate]
      exact lt_of_lt_of_le hk (Nat.le_add_left _ _)
    obtain ⟨li, ln, T, h1, h2, hT0, hT1, hs⟩ := hat k hk
    have h3 := (hrj k _ (List.getElem?_eq_getElem hk2)).1 ⟨Nat.zero_le _, by omega⟩ _ _ _ _
      h2 h1
    exact ⟨_, li, T, h3, h1, rfl, hT0, hT1, hs⟩

end Anchors

section AnchorEvaluation

theorem len_vertical (m : Libm ℝ) (hm : m.IsReal) (p : coord_t ℝ) (h : ℝ) :
    (⟨p, ⟨0, h⟩⟩ : line ℝ).len m = |h| := by
  simp only [line.len, hm.1, mul_zero, zero_add]
  exact Real.sqrt_mul_self_eq_abs h

theorem len_horizontal (m : Libm ℝ) (hm : m.IsReal) (p : coord_t ℝ) (w : ℝ) :
    (⟨p, ⟨w, 0⟩⟩ : line ℝ).len m = |w| := by
  simp only [line.len, hm.1, mul_zero, add_zero]
  exact Real.sqrt_mul_self_eq_abs w

theorem len_outerSquare (m : Libm ℝ) (hm : m.IsReal) : obj.len m (outerSquare : obj ℝ) = 8 := by
  rw [len_eq_sum]
  simp only [outerSquare, List.map_cons, List.map_nil, List.sum_cons, List.sum_nil,
    len_vertical m hm, len_horizontal m hm]
  norm_num [abs_of_pos]

theorem len_unitSquare (m : Libm ℝ) (hm : m.IsReal) : obj.len m (unitSquare : obj ℝ) = 4 := by
  rw [len_eq_sum]
  simp only [unitSquare, List.map_cons, List.map_nil, List.sum_cons, List.sum_nil,
    len_vertical m hm, len_horizontal m hm]
  norm_num [abs_of_pos]

theorem unitSquare_pos (m : Libm ℝ) (hm : m.IsReal) :
    ∀ ln ∈ (unitSquare : obj ℝ), 0 < ln.len m := by
  intro ln hln
  simp only [unitSquare, List.mem_cons, List.mem_singleton, List.not_mem_nil, or_false] at hln
  rcases hln with rfl | rfl | rfl | rfl
  · rw [len_vertical m hm]; norm_num
  · rw [len_horizontal m hm]; norm_num
  · rw [len_vertical m hm]; norm_num
  · rw [len_horizontal m hm]; norm_num

theorem cround_squares_outer (m : Libm ℝ) (hm : m.IsReal) :
    cround (obj.len m (squaresEngine : LiteEngine ℝ).reforo /
      (squaresEngine : LiteEngine ℝ).anchorSpan) = 8 := by
  simp only [squaresEngine, len_outerSquare m hm, cround]
  norm_num

theorem cround_squares_inner (m : Libm ℝ) (hm : m.IsReal) :
    cround (obj.len m (squaresEngine : LiteEngine ℝ).refori /
      (squaresEngine : LiteEngine ℝ).anchorSpan) = 4 := by
  simp only [squaresEngine, len_unitSquare m hm, cround]
  norm_num

end AnchorEvaluation

/-! ## Claim on the even spacing of the anchors -/

section AnchorClaims

/-- C23 (counterexample): with the anchor spacing 1, an outer reference of
perimeter 8 and an inner reference of perimeter 4, the even-spacing branch
places 8 anchors, on the inner reference; `round(C / A)` for the perimeter of
the path they lie on is 4. -/
theorem even_anchor_count_from_outer :
    ∃ m : Libm ℝ, m.IsReal ∧
      cround (obj.len m (squaresEngine : LiteEngine ℝ).refori /
        (squaresEngine : LiteEngine ℝ).anchorSpan) = 4 ∧
      ∃ g', even_anchor_points m (squaresEngine : LiteEngine ℝ) = .ok g' ∧
        g'.nAnchors = 8 ∧ g'.anchors.length = 8 ∧
        ∀ k : Nat, k < 8 → ∃ (a : anchor_t ℝ) (j : Nat) (T : ℝ),
          g'.anchors[k]? = some a ∧ (unitSquare : obj ℝ)[j]? = some a.rimLine ∧
          a.rimPt = a.rimLine.get_pt T ∧ 0 ≤ T ∧ T ≤ 1 ∧
          (((unitSquare : obj ℝ).take j).map (fun ln => ln.len m)).sum + T * a.rimLine.len m =
            (k : ℝ) * (4 / 8) := by
  refine ⟨_, isReal_mk, cround_squares_inner _ isReal_mk, ?_⟩
  obtain ⟨g', h1, h2, h3, h4⟩ := even_anchor_points_core _ (squaresEngine : LiteEngine ℝ)
    (by rw [cround_squares_outer _ isReal_mk]; norm_num)
    (by simp [squaresEngine, unitSquare]) (unitSquare_pos _ isReal_mk)
  rw [cround_squares_outer _ isReal_mk] at h2
  refine ⟨g', h1, h2, ?_, ?_⟩
  · rw [h3, h2]; simp [squaresEngine, blankEngine]
  · intro k hk
    obtain ⟨a, j, T, e1, e2, e3, e4, e5, e6⟩ := h4 k (by rw [h2]; exact hk)
    refine ⟨a, j, T, e1, e2, e3, e4, e5, ?_⟩
    rw [h2] at e6
    have hl : obj.len _ (squaresEngine : LiteEngine ℝ).refori = 4 :=
      len_unitSquare _ isReal_mk
    rw [hl] at e6
    simpa using e6

/-- C23 (amended): when `n = round(Co / A)` is positive, for the perimeter
`Co` of the outer reference `reforo` and the anchor spacing `A`, and the inner
reference `refori` is a non-empty path of segments of positive length, the
even-spacing branch of `generateAnchorPoints` returns with `nAnchors = n` and
`n` anchors added to the vector, and anchor `k` (`k = 0 .. n-1`) lies on
`refori` at arc length `k*C/n` from its start point, for the perimeter `C` of
`refori`: its `rimLine` is an element `j` of `refori` and its `rimPt` the
point of a parameter `T` in `[0,1]` on it. -/
theorem even_anchor_points_spec {K : Type} [LinearOrderedField K] [FloorRing K] (m : Libm K)
    (g : LiteEngine K) (hn : 0 < cround (obj.len m g.reforo / g.anchorSpan))
    (hne : g.refori ≠ []) (hpos : ∀ ln ∈ g.refori, 0 < ln.len m) :
    ∃ g', even_anchor_points m g = .ok g' ∧
      g'.nAnchors = cround (obj.len m g.reforo / g.anchorSpan) ∧
      g'.anchors.length = g.anchors.length + g'.nAnchors.toNat ∧
      ∀ k : Nat, k < g'.nAnchors.toNat → ∃ (a : anchor_t K) (j : Nat) (T : K),
        g'.anchors[k]? = some a ∧ g.refori[j]? = some a.rimLine ∧
        a.rimPt = a.rimLine.get_pt T ∧ 0 ≤ T ∧ T ≤ 1 ∧
        ((g.refori.take j).map (fun ln => ln.len m)).sum + T * a.rimLine.len m =
          (k : K) * (obj.len m g.refori / (g'.nAnchors : K)) :=
  even_anchor_points_core m g hn hne hpos

/-- Witness of C23 (amended): the outer reference of perimeter 8 around the
unit square, with the anchor spacing 1. -/
theorem even_anchor_points_spec_witness :
    ∃ m : Libm ℝ, m.IsReal ∧
      0 < cround (obj.len m (squaresEngine : LiteEngine ℝ).reforo /
        (squaresEngine : LiteEngine ℝ).anchorSpan) ∧
      (squaresEngine : LiteEngine ℝ).refori ≠ [] ∧
      (∀ ln ∈ (squaresEngine : LiteEngine ℝ).refori, 0 < ln.len m) ∧
      ∃ g', even_anchor_points m (squaresEngine : LiteEngine ℝ) = .ok g' ∧
        g'.nAnchors = cround (obj.len m (squaresEngine : LiteEngine ℝ).reforo /
          (squaresEngine : LiteEngine ℝ).anchorSpan) ∧
        g'.anchors.length = (squaresEngine : LiteEngine ℝ).anchors.length +
          g'.nAnchors.toNat ∧
        ∀ k : Nat, k < g'.nAnchors.toNat → ∃ (a : anchor_t ℝ) (j : Nat) (T : ℝ),
          g'.anchors[k]? = some a ∧
          (squaresEngine : LiteEngine ℝ).refori[j]? = some a.rimLine ∧
          a.rimPt = a.rimLine.get_pt T ∧ 0 ≤ T ∧ T ≤ 1 ∧
          (((squaresEngine : LiteEngine ℝ).refori.take j).map (fun ln => ln.len m)).sum +
              T * a.rimLine.len m =
            (k : ℝ) * (obj.len m (squaresEngine : LiteEngine ℝ).refori / (g'.nAnchors : ℝ)) :=
  ⟨_, isReal_mk, by rw [cround_squares_outer _ isReal_mk]; norm_num,
    by simp [squaresEngine, unitSquare], unitSquare_pos _ isReal_mk,
    even_anchor_points_spec _ (squaresEngine : LiteEngine ℝ)
      (by rw [cround_squares_outer _ isReal_mk]; norm_num)
      (by simp [squaresEngine, unitSquare]) (unitSquare_pos _ isReal_mk)⟩

end AnchorClaims

/-! ## Iterators while elements are erased (`removeNotches`) -/

section HandlesPlain
variable {K : Type}

theorem set_handle_fst (t : List (Nat × line K)) (h : Nat) (ln : line K) :
    (set_handle t h ln).map Prod.fst = t.map Prod.fst := by
  simp only [set_handle, List.map_map]
  apply List.map_congr_left
  intro e _
  simp only [Function.comp]
  split_ifs <;> rfl

theorem mem_fst_filter (t : List (Nat × line K)) (p : Nat → Bool) (h : Nat) :
    h ∈ (t.filter fun e => p e.1).map Prod.fst ↔ h ∈ t.map Prod.fst ∧ p h = true := by
  simp only [List.mem_map, List.mem_filter, Prod.exists, exists_and_right, exists_eq_right]

theorem nodup_fst_filter (t : List (Nat × line K)) (p : Nat × line K → Bool)
    (h : (t.map Prod.fst).Nodup) : ((t.filter p).map Prod.fst).Nodup :=
  List.Nodup.sublist (List.Sublist.map _ (List.filter_sublist _)) h

/-- The iterator after a valid iterator is valid, its element is the next in
the list (the first after the last), and it is another iterator when the list
has two elements or more. -/
theorem nextc_handle_ok (t : List (Nat × line K)) (h : Nat)
    (hnd : (t.map Prod.fst).Nodup) (hh : h ∈ t.map Prod.fst) :
    ∃ h1, nextc_handle t h = .ok h1 ∧ h1 ∈ t.map Prod.fst ∧
      List.indexOf h1 (t.map Prod.fst) =
        (if List.indexOf h (t.map Prod.fst) + 1 = (t.map Prod.fst).length then 0
          else List.indexOf h (t.map Prod.fst) + 1) ∧
      (2 ≤ (t.map Prod.fst).length → h1 ≠ h) := by
  have hp : List.indexOf h (t.map Prod.fst) < (t.map Prod.fst).length :=
    List.indexOf_lt_length.2 hh
  generalize hhs : t.map Prod.fst = hs at *
  generalize hpp : List.indexOf h hs = p at *
  have hi : (if p + 1 = hs.length then 0 else p + 1) < hs.length := by
    split_ifs <;> omega
  refine ⟨hs[if p + 1 = hs.length then 0 else p + 1], ?_, List.getElem_mem _, ?_, ?_⟩
  · simp only [nextc_handle, hhs, hpp, hp, if_true, List.getElem?_eq_getElem hi]
  · exact List.indexOf_getElem hnd _ hi
  · intro h2 heq
    have e1 : hs[p] = h := by
      have := List.getElem_indexOf (a := h) (l := hs) (by rw [hpp]; exact hp)
      simpa [hpp] using this
    rw [← e1] at heq
    have := (List.Nodup.getElem_inj_iff hnd).1 heq
    split_ifs at this <;> omega

end HandlesPlain

section Handles
variable {K : Type} [LinearOrderedField K]

/-- The normal form of a bridged notch: the first line set, the others erased. -/
theorem bridge_notch_eq (t : List (Nat × line K)) (n : notch_t K) (front : Nat)
    (rest : List Nat) (hn : n.notchLines = front :: rest) (hf : front ∉ rest) :
    bridge_notch t n =
      (set_handle t front (line.ofPoints n.beg n.fin)).filter fun e => decide (e.1 ∉ rest) := by
  simp only [bridge_notch, hn, List.head?_cons, Option.some.injEq, List.mem_cons, set_handle]
  induction t with
  | nil => rfl
  | cons e t ih =>
    simp only [List.filterMap_cons, List.map_cons, List.filter_cons]
    by_cases h1 : e.1 = front
    · simp only [h1, if_true, hf, not_false_eq_true, decide_True, ih]
    · by_cases h2 : e.1 ∈ rest
      · simp only [h1, if_false, false_or, h2, if_true, not_true_eq_false, decide_False,
          Bool.false_eq_true, ih]
      · simp only [h1, if_false, false_or, h2, not_false_eq_true, decide_True, if_true, ih]

theorem bridge_notch_fst (t : List (Nat × line K)) (n : notch_t K) (front : Nat)
    (rest : List Nat) (hn : n.notchLines = front :: rest) (hf : front ∉ rest) (h : Nat) :
    h ∈ (bridge_notch t n).map Prod.fst ↔ h ∈ t.map Prod.fst ∧ h ∉ rest := by
  rw [bridge_notch_eq t n front rest hn hf,
    mem_fst_filter _ (fun x => decide (x ∉ rest)), set_handle_fst]
  simp

theorem bridge_notch_nodup (t : List (Nat × line K)) (n : notch_t K) (front : Nat)
    (rest : List Nat) (hn : n.notchLines = front :: rest) (hf : front ∉ rest)
    (hnd : (t.map Prod.fst).Nodup) : ((bridge_notch t n).map Prod.fst).Nodup := by
  rw [bridge_notch_eq t n front rest hn hf]
  apply nodup_fst_filter
  rw [set_handle_fst]
  exact hnd

/-- The loop over the notch lines after the first: they are erased. -/
theorem replace_rest (beg fin : coord_t K) :
    ∀ (rest : List Nat) (t : List (Nat × line K)) (l : Nat), (t.map Prod.fst).Nodup →
      rest.Nodup → (∀ h ∈ rest, h ∈ t.map Prod.fst) → (∃ x ∈ t.map Prod.fst, x ∉ rest) →
      (rest = [] → l ∈ t.map Prod.fst) →
      ∃ l1, replace_notch_lines beg fin rest false t l =
          .ok (t.filter fun e => decide (e.1 ∉ rest), l1) ∧
        l1 ∈ (t.filter fun e => decide (e.1 ∉ rest)).map Prod.fst := by
  intro rest
  induction rest with
  | nil =>
    intro t l _ _ _ _ hl
    refine ⟨l, ?_, ?_⟩
    · simp [replace_notch_lines]
    · simpa using hl rfl
  | cons nl rest ih =>
    intro t l hnd hrn hmem hx _
    obtain ⟨x, hx1, hx2⟩ := hx
    have hnl : nl ∈ t.map Prod.fst := hmem nl (List.mem_cons_self _ _)
    have hxn : x ≠ nl := fun h => hx2 (by rw [h]; exact List.mem_cons_self _ _)
    have hlen : 2 ≤ (t.map Prod.fst).length := by
      by_contra hc
      have h1 : (t.map Prod.fst).length ≤ 1 := by omega
      have := List.indexOf_lt_length.2 hx1
      have := List.indexOf_lt_length.2 hnl
      have h2 : List.indexOf x (t.map Prod.fst) = List.indexOf nl (t.map Prod.fst) := by omega
      exact hxn ((List.indexOf_inj hx1 hnl).1 h2)
    obtain ⟨l1, e1, hl1, -, hne⟩ := nextc_handle_ok t nl hnd hnl
    have hrn2 := List.nodup_cons.1 hrn
    obtain ⟨l2, e2, hl2⟩ := ih (del_handle t nl) l1
      (nodup_fst_filter t _ hnd) hrn2.2
      (fun h hh => by
        rw [del_handle, mem_fst_filter t (fun x => decide (x ≠ nl))]
        refine ⟨hmem h (List.mem_cons_of_mem _ hh), ?_⟩
        simp only [ne_eq, decide_eq_true_eq]
        rintro rfl
        exact hrn2.1 hh)
      ⟨x, by
        rw [del_handle, mem_fst_filter t (fun x => decide (x ≠ nl))]
        exact ⟨hx1, by simpa using hxn⟩, fun h => hx2 (List.mem_cons_of_mem _ h)⟩
      (fun _ => by
        rw [del_handle, mem_fst_filter t (fun x => decide (x ≠ nl))]
        exact ⟨hl1, by simpa using hne hlen⟩)
    have hf : (del_handle t nl).filter (fun e => decide (e.1 ∉ rest)) =
        t.filter fun e => decide (e.1 ∉ nl :: rest) := by
      rw [del_handle, List.filter_filter]
      apply List.filter_congr
      intro e _
      simp only [List.mem_cons, not_or, ne_eq, Bool.decide_and, Bool.and_comm]
    rw [hf] at e2 hl2
    refine ⟨l2, ?_, hl2⟩
    rw [replace_notch_lines]
    simp only [e1, Res.bind, Bool.false_eq_true, if_false, e2]

/-- The round of the loop of `removeNotches` that has found the notch. -/
theorem replace_notch (n : notch_t K) (front : Nat) (rest : List Nat)
    (hn : n.notchLines = front :: rest) (hnd2 : (front :: rest).Nodup)
    (t : List (Nat × line K)) (l : Nat) (hnd : (t.map Prod.fst).Nodup)
    (hmem : ∀ h ∈ front :: rest, h ∈ t.map Prod.fst) :
    ∃ l1, replace_notch_lines n.beg n.fin n.notchLines true t l =
        .ok (bridge_notch t n, l1) ∧ l1 ∈ (bridge_notch t n).map Prod.fst := by
  have hf := (List.nodup_cons.1 hnd2).1
  have hfm : front ∈ t.map Prod.fst := hmem front (List.mem_cons_self _ _)
  obtain ⟨l1, e1, hl1, -, -⟩ := nextc_handle_ok t front hnd hfm
  obtain ⟨l2, e2, hl2⟩ := replace_rest n.beg n.fin rest
    (set_handle t front (line.ofPoints n.beg n.fin)) l1
    (by rw [set_handle_fst]; exact hnd) (List.nodup_cons.1 hnd2).2
    (fun h hh => by rw [set_handle_fst]; exact hmem h (List.mem_cons_of_mem _ hh))
    ⟨front, by rw [set_handle_fst]; exact hfm, hf⟩
    (fun _ => by rw [set_handle_fst]; exact hl1)
  rw [← bridge_notch_eq t n front rest hn hf] at e2 hl2
  refine ⟨l2, ?_, hl2⟩
  rw [hn, replace_notch_lines]
  simp only [e1, Res.bind, if_true, e2]

/-- The rounds of the loop of `removeNotches` that walk `l` on to the first
line of the notch. -/
theorem search_steps (n : notch_t K) (ns : List (notch_t K)) (front : Nat) (rest : List Nat)
    (hn : n.notchLines = front :: rest) (t : List (Nat × line K))
    (hnd : (t.map Prod.fst).Nodup) (hf : front ∈ t.map Prod.fst) :
    ∀ (d l : Nat), l ∈ t.map Prod.fst →
      (if List.indexOf l (t.map Prod.fst) ≤ List.indexOf front (t.map Prod.fst) then
          List.indexOf front (t.map Prod.fst) - List.indexOf l (t.map Prod.fst)
        else (t.map Prod.fst).length - List.indexOf l (t.map Prod.fst) +
          List.indexOf front (t.map Prod.fst)) = d →
      ∀ F, removeNotches_loop (F + d) t l (n :: ns) = removeNotches_loop F t front (n :: ns) := by
  have hq := List.indexOf_lt_length.2 hf
  intro d
  induction d with
  | zero =>
    intro l hl hd F
    have hp := List.indexOf_lt_length.2 hl
    have : List.indexOf l (t.map Prod.fst) = List.indexOf front (t.map Prod.fst) := by
      split_ifs at hd <;> omega
    rw [(List.indexOf_inj hl hf).1 this]
    rfl
  | succ d ih =>
    intro l hl hd F
    have hp := List.indexOf_lt_length.2 hl
    have hne : l ≠ front := by
      rintro rfl
      simp at hd
    obtain ⟨l1, e1, hl1, hi1, -⟩ := nextc_handle_ok t l hnd hl
    have hd1 : (if List.indexOf l1 (t.map Prod.fst) ≤ List.indexOf front (t.map Prod.fst) then
          List.indexOf front (t.map Prod.fst) - List.indexOf l1 (t.map Prod.fst)
        else (t.map Prod.fst).length - List.indexOf l1 (t.map Prod.fst) +
          List.indexOf front (t.map Prod.fst)) = d := by
      have hpq : List.indexOf l (t.map Prod.fst) ≠ List.indexOf front (t.map Prod.fst) :=
        fun h => hne ((List.indexOf_inj hl hf).1 h)
      rw [hi1]
      split_ifs at hd ⊢ <;> omega
    rw [← ih l1 hl1 hd1 F, show F + (d + 1) = (F + d) + 1 from rfl, removeNotches_loop]
    simp only [hn, if_neg hne, e1, Res.bind]

theorem search_dist_le (hs : List Nat) (l front : Nat) (hl : l ∈ hs) (hf : front ∈ hs) :
    (if List.indexOf l hs ≤ List.indexOf front hs then
        List.indexOf front hs - List.indexOf l hs
      else hs.length - List.indexOf l hs + List.indexOf front hs) + 1 ≤ hs.length := by
  have hp := List.indexOf_lt_length.2 hl
  have hq := List.indexOf_lt_length.2 hf
  split_ifs <;> omega

/-- The loop of `removeNotches` returns with every notch bridged, when no
element is a line of two notches and the bound covers the walk. -/
theorem removeNotches_loop_spec (B : Nat) :
    ∀ (ns : List (notch_t K)) (t : List (Nat × line K)) (l F : Nat),
      (t.map Prod.fst).Nodup → (ns ≠ [] → l ∈ t.map Prod.fst) →
      (∀ n ∈ ns, n.notchLines ≠ []) → (ns.flatMap fun n => n.notchLines).Nodup →
      (∀ n ∈ ns, ∀ h ∈ n.notchLines, h ∈ t.map Prod.fst) → t.length ≤ B →
      ns.length * (B + 1) ≤ F →
      removeNotches_loop F t l ns = .ok (bridge_notches t ns) := by
  intro ns
  induction ns with
  | nil =>
    intro t l F _ _ _ _ _ _ _
    cases F <;> simp [removeNotches_loop, bridge_notches]
  | cons n ns ih =>
    intro t l F hnd hl hne hnn hmem hB hF
    have hl := hl (List.cons_ne_nil _ _)
    obtain ⟨front, rest, hn⟩ := List.exists_cons_of_ne_nil (hne n (List.mem_cons_self _ _))
    rw [List.flatMap_cons, List.nodup_append] at hnn
    obtain ⟨hn1, hn2, hdisj⟩ := hnn
    rw [hn] at hn1
    have hfr : front ∉ rest := (List.nodup_cons.1 hn1).1
    have hmem1 : ∀ h ∈ front :: rest, h ∈ t.map Prod.fst := by
      intro h hh
      exact hmem n (List.mem_cons_self _ _) h (by rw [hn]; exact hh)
    have hf := hmem1 front (List.mem_cons_self _ _)
    have hd := search_dist_le (t.map Prod.fst) l front hl hf
    generalize hdd : (if List.indexOf l (t.map Prod.fst) ≤ List.indexOf front (t.map Prod.fst)
      then List.indexOf front (t.map Prod.fst) - List.indexOf l (t.map Prod.fst)
      else (t.map Prod.fst).length - List.indexOf l (t.map Prod.fst) +
        List.indexOf front (t.map Prod.fst)) = d at hd
    rw [List.length_map] at hd
    have hF3 : ns.length * (B + 1) + (B + 1) ≤ F := by
      have h := hF
      rw [List.length_cons, Nat.succ_mul] at h
      exact h
    obtain ⟨F1, rfl⟩ : ∃ F1, F = (F1 + 1) + d := ⟨F - d - 1, by omega⟩
    rw [search_steps n ns front rest hn t hnd hf d l hl hdd (F1 + 1)]
    obtain ⟨l1, e1, hl1⟩ := replace_notch n front rest hn hn1 t front hnd hmem1
    rw [removeNotches_loop]
    simp only [hn, if_true]
    rw [hn] at e1
    simp only [e1, Res.bind, bridge_notches]
    apply ih (bridge_notch t n) l1 F1 (bridge_notch_nodup t n front rest hn hfr hnd)
      (fun _ => hl1) (fun n1 h1 => hne n1 (List.mem_cons_of_mem _ h1)) hn2
    · intro n1 h1 h hh
      rw [bridge_notch_fst t n front rest hn hfr]
      refine ⟨hmem n1 (List.mem_cons_of_mem _ h1) h hh, fun hr => ?_⟩
      exact hdisj (by simp only [hn]; exact List.mem_cons_of_mem _ hr)
        (List.mem_flatMap.2 ⟨n1, h1, hh⟩)
    · rw [bridge_notch_eq t n front rest hn hfr]
      refine le_trans (List.length_filter_le _ _) ?_
      simp only [set_handle, List.length_map]
      exact hB
    · omega

end Handles

/-! ## Detected notches and their removal -/

section NotchPositions
variable {K : Type}

theorem nextc_lt (o : obj K) (l : Nat) (h : l < o.length) : o.nextc l < o.length := by
  simp only [obj.nextc]
  split_ifs <;> omega

theorem with_handles_fst (o : obj K) : (with_handles o).map Prod.fst = List.range o.length :=
  List.enum_map_fst o

end NotchPositions

section NotchFacts
variable {K : Type} [LinearOrderedField K]

theorem notch_at_some (m : Libm K) (o : obj K) (l0 : Nat) (n : notch_t K) (hl : l0 < o.length)
    (h : notch_at m o l0 = .ok (some n)) : IsNotchOf o n := by
  rw [notch_at] at h
  obtain ⟨a0, -, h⟩ := Res.bind_eq_ok _ _ _ h
  obtain ⟨a1, -, h⟩ := Res.bind_eq_ok _ _ _ h
  obtain ⟨a2, -, h⟩ := Res.bind_eq_ok _ _ _ h
  obtain ⟨a3, -, h⟩ := Res.bind_eq_ok _ _ _ h
  have hl1 := nextc_lt o l0 hl
  have hl2 := nextc_lt o _ hl1
  have hl3 := nextc_lt o _ hl2
  have hl4 := nextc_lt o _ hl3
  simp only [List.getElem?_eq_getElem hl, List.getElem?_eq_getElem hl3,
    List.getElem?_eq_getElem hl4] at h
  split_ifs at h with c1 c2
  · simp only [Res.ok.injEq, Option.some.injEq] at h
    subst h
    exact ⟨l0, o[l0], o[o.nextc (o.nextc (o.nextc (o.nextc l0)))], hl,
      List.getElem?_eq_getElem hl, rfl, rfl,
      Or.inl ⟨rfl, List.getElem?_eq_getElem hl4⟩⟩
  · simp only [Res.ok.injEq, Option.some.injEq] at h
    subst h
    exact ⟨l0, o[l0], o[o.nextc (o.nextc (o.nextc l0))], hl,
      List.getElem?_eq_getElem hl, rfl, rfl,
      Or.inr ⟨rfl, List.getElem?_eq_getElem hl3⟩⟩
  · simp at h

theorem notchDetect_loop_facts (m : Libm K) (o : obj K) :
    ∀ (cnt l : Nat) (acc ns : List (notch_t K)), l + cnt ≤ o.length →
      (∀ n ∈ acc, IsNotchOf o n) → notchDetect_loop m o cnt l acc = .ok ns →
      ∀ n ∈ ns, IsNotchOf o n := by
  intro cnt
  induction cnt with
  | zero =>
    intro l acc ns _ hacc h
    simp only [notchDetect_loop, Res.ok.injEq] at h
    subst h
    exact hacc
  | succ cnt ih =>
    intro l acc ns hl hacc h
    rw [notchDetect_loop] at h
    obtain ⟨r, hr, h⟩ := Res.bind_eq_ok _ _ _ h
    refine ih (l + 1) _ ns (by omega) ?_ h
    cases r with
    | none => exact hacc
    | some x =>
      intro n hn
      rcases List.mem_append.1 hn with h1 | h1
      · exact hacc n h1
      · rw [List.mem_singleton] at h1
        subst h1
        exact notch_at_some m o l n (by omega) hr

/-- Every record that `notchDetect` leaves is that of a notch of the object. -/
theorem notchDetect_facts (m : Libm K) (o : obj K) (ns : List (notch_t K))
    (h : notchDetect m o = .ok ns) : ∀ n ∈ ns, IsNotchOf o n :=
  notchDetect_loop_facts m o o.length 0 [] ns (by omega) (by simp) h

theorem isNotchOf_lines (o : obj K) (n : notch_t K) (h : IsNotchOf o n) :
    n.notchLines ≠ [] ∧ (∀ x ∈ n.notchLines, x < o.length) ∧
      (n.notchLines.length = 3 ∨ n.notchLines.length = 2) ∧ 0 < o.length := by
  obtain ⟨l0, ln0, lnA, hl, -, -, -, h⟩ := h
  have hl1 := nextc_lt o l0 hl
  have hl2 := nextc_lt o _ hl1
  have hl3 := nextc_lt o _ hl2
  rcases h with ⟨h, -⟩ | ⟨h, -⟩
  · rw [h]
    refine ⟨by simp, ?_, Or.inl rfl, by omega⟩
    intro x hx
    simp only [List.mem_cons, List.mem_singleton, List.not_mem_nil, or_false] at hx
    rcases hx with rfl | rfl | rfl <;> assumption
  · rw [h]
    refine ⟨by simp, ?_, Or.inr rfl, by omega⟩
    intro x hx
    simp only [List.mem_cons, List.mem_singleton, List.not_mem_nil, or_false] at hx
    rcases hx with rfl | rfl <;> assumption

/-- The removal of the detected notches: when no element is a line of two
notches, the loop bridges every notch, and the object is then regularised. -/
theorem removeNotches_core (m : Libm K) (o : obj K) (ns : List (notch_t K))
    (hdet : notchDetect m o = .ok ns)
    (hnd : (ns.flatMap fun n => n.notchLines).Nodup) :
    removeNotches m o = regularise m ((bridge_notches (with_handles o) ns).map Prod.snd) := by
  have hf := notchDetect_facts m o ns hdet
  have hloop := removeNotches_loop_spec o.length ns (with_handles o) 0
    (ns.length * (o.length + 1))
    (by rw [with_handles_fst]; exact List.nodup_range _)
    (fun hne => by
      obtain ⟨n, rest, rfl⟩ := List.exists_cons_of_ne_nil hne
      have := (isNotchOf_lines o n (hf n (List.mem_cons_self _ _))).2.2.2
      rw [with_handles_fst, List.mem_range]
      exact this)
    (fun n hn => (isNotchOf_lines o n (hf n hn)).1) hnd
    (fun n hn h hh => by
      rw [with_handles_fst, List.mem_range]
      exact (isNotchOf_lines o n (hf n hn)).2.1 h hh)
    (by simp [with_handles]) (le_refl _)
  simp only [removeNotches, hdet, Res.bind, hloop]

theorem bridge_notch_length (t : List (Nat × line K)) (n : notch_t K) (front : Nat)
    (rest : List Nat) (hn : n.notchLines = front :: rest) (hnd2 : (front :: rest).Nodup)
    (hnd : (t.map Prod.fst).Nodup) (hmem : ∀ h ∈ rest, h ∈ t.map Prod.fst) :
    (bridge_notch t n).length + rest.length = t.length := by
  have hfr := (List.nodup_cons.1 hnd2).1
  rw [bridge_notch_eq t n front rest hn hfr]
  generalize hs : set_handle t front (line.ofPoints n.beg n.fin) = t1
  have h1 : t1.map Prod.fst = t.map Prod.fst := by rw [← hs, set_handle_fst]
  have hl : t1.length = t.length := by rw [← hs]; simp [set_handle]
  have h2 := List.length_eq_length_filter_add (l := t1) (fun e => decide (e.1 ∉ rest))
  have h3 : (t1.filter fun e => !decide (e.1 ∉ rest)).length = rest.length := by
    have hp : ((t1.filter fun e => !decide (e.1 ∉ rest)).map Prod.fst).Perm rest := by
      rw [List.perm_ext_iff_of_nodup (nodup_fst_filter t1 _ (by rw [h1]; exact hnd))
        (List.nodup_cons.1 hnd2).2]
      intro a
      rw [mem_fst_filter t1 (fun x => !decide (x ∉ rest)), h1]
      simp only [decide_not, Bool.not_not, decide_eq_true_eq]
      exact ⟨fun h => h.2, fun h => ⟨hmem a h, h⟩⟩
    rw [← hp.length_eq, List.length_map]
  omega

/-- Bridging the notches lowers the number of elements by the number of notch
lines but one for every notch. -/
theorem bridge_notches_length :
    ∀ (ns : List (notch_t K)) (t : List (Nat × line K)), (t.map Prod.fst).Nodup →
      (∀ n ∈ ns, n.notchLines ≠ []) → (ns.flatMap fun n => n.notchLines).Nodup →
      (∀ n ∈ ns, ∀ h ∈ n.notchLines, h ∈ t.map Prod.fst) →
      (bridge_notches t ns).length + (ns.map fun n => n.notchLines.length - 1).sum =
        t.length := by
  intro ns
  induction ns with
  | nil => intro t _ _ _ _; simp [bridge_notches]
  | cons n ns ih =>
    intro t hnd hne hnn hmem
    obtain ⟨front, rest, hn⟩ := List.exists_cons_of_ne_nil (hne n (List.mem_cons_self _ _))
    rw [List.flatMap_cons, List.nodup_append] at hnn
    obtain ⟨hn1, hn2, hdisj⟩ := hnn
    rw [hn] at hn1
    have hfr : front ∉ rest := (List.nodup_cons.1 hn1).1
    have hmem1 : ∀ h ∈ rest, h ∈ t.map Prod.fst := fun h hh =>
      hmem n (List.mem_cons_self _ _) h (by rw [hn]; exact List.mem_cons_of_mem _ hh)
    have h1 := bridge_notch_length t n front rest hn hn1 hnd hmem1
    have h2 := ih (bridge_notch t n) (bridge_notch_nodup t n front rest hn hfr hnd)
      (fun n1 h1 => hne n1 (List.mem_cons_of_mem _ h1)) hn2
      (fun n1 h1 h hh => by
        rw [bridge_notch_fst t n front rest hn hfr]
        refine ⟨hmem n1 (List.mem_cons_of_mem _ h1) h hh, fun hr => ?_⟩
        exact hdisj (by simp only [hn]; exact List.mem_cons_of_mem _ hr)
          (List.mem_flatMap.2 ⟨n1, h1, hh⟩))
    simp only [bridge_notches, List.map_cons, List.sum_cons, hn, List.length_cons,
      Nat.add_sub_cancel]
    omega

end NotchFacts

/-! ## Notch detection on a path of right-angled corners -/

section NotchPatternPositions
variable {K : Type}

theorem pattern_positions (u0 u1 u2 u3 u4 u5 u6 u7 : line K) (s : Nat) (hs : s < 8) :
    ([(10 - s) % 8, (11 - s) % 8, (12 - s) % 8].map fun p =>
      ([u0, u1, u2, u3, u4, u5, u6, u7].rotate s)[p]?) = [some u2, some u3, some u4] := by
  interval_cases s <;> rfl

end NotchPatternPositions

section NotchPattern
variable {K : Type} [LinearOrderedField K]

/-- Detection on a closed path of eight segments of positive length whose
corners turn right, right, left, left, right, right, right, right, read from
the corner between the first two segments, whichever segment the list starts
with: one record, for the three segments between the two left turns and the
right turns next to them. -/
theorem notchDetect_pattern (m : Libm K) (u0 u1 u2 u3 u4 u5 u6 u7 : line K)
    (hlen : ∀ u ∈ [u0, u1, u2, u3, u4, u5, u6, u7], 0 < u.len m)
    (hR : ∀ p ∈ [(u0, u1), (u1, u2), (u4, u5), (u5, u6), (u6, u7), (u7, u0)],
      m.atan2 (perpprod p.1.get_V p.2.get_V) (dotprod p.1.get_V p.2.get_V) < -detAng m ∧
      ¬ detAng m < m.atan2 (perpprod p.1.get_V p.2.get_V) (dotprod p.1.get_V p.2.get_V))
    (hL : ∀ p ∈ [(u2, u3), (u3, u4)],
      detAng m < m.atan2 (perpprod p.1.get_V p.2.get_V) (dotprod p.1.get_V p.2.get_V) ∧
      ¬ m.atan2 (perpprod p.1.get_V p.2.get_V) (dotprod p.1.get_V p.2.get_V) < -detAng m)
    (s : Nat) (hs : s < 8) :
    notchDetect m ([u0, u1, u2, u3, u4, u5, u6, u7].rotate s) =
      .ok [notch_record [(10 - s) % 8, (11 - s) % 8, (12 - s) % 8] u1.get_S1 u5.get_S0] := by
  have l0 := hlen u0 (by simp)
  have l1 := hlen u1 (by simp)
  have l2 := hlen u2 (by simp)
  have l3 := hlen u3 (by simp)
  have l4 := hlen u4 (by simp)
  have l5 := hlen u5 (by simp)
  have l6 := hlen u6 (by simp)
  have l7 := hlen u7 (by simp)
  have r01 := hR (u0, u1) (by simp)
  have r12 := hR (u1, u2) (by simp)
  have r45 := hR (u4, u5) (by simp)
  have r56 := hR (u5, u6) (by simp)
  have r67 := hR (u6, u7) (by simp)
  have r70 := hR (u7, u0) (by simp)
  have t23 := hL (u2, u3) (by simp)
  have t34 := hL (u3, u4) (by simp)
  simp only at r01 r12 r45 r56 r67 r70 t23 t34
  interval_cases s
  · have e : [u0, u1, u2, u3, u4, u5, u6, u7].rotate 0 = [u0, u1, u2, u3, u4, u5, u6, u7] := rfl
    rw [e]
    simp [notchDetect, notchDetect_loop, notch_at, notch_angle, obj.nextc, Res.bind,
      l0, l1, l2, l3, l4, l5, l6, l7, r01, r12, r45, r56, r67, r70, t23, t34]
  · have e : [u0, u1, u2, u3, u4, u5, u6, u7].rotate 1 = [u1, u2, u3, u4, u5, u6, u7, u0] := rfl
    rw [e]
    simp [notchDetect, notchDetect_loop, notch_at, notch_angle, obj.nextc, Res.bind,
      l0, l1, l2, l3, l4, l5, l6, l7, r01, r12, r45, r56, r67, r70, t23, t34]
  · have e : [u0, u1, u2, u3, u4, u5, u6, u7].rotate 2 = [u2, u3, u4, u5, u6, u7, u0, u1] := rfl
    rw [e]
    simp [notchDetect, notchDetect_loop, notch_at, notch_angle, obj.nextc, Res.bind,
      l0, l1, l2, l3, l4, l5, l6, l7, r01, r12, r45, r56, r67, r70, t23, t34]
  · have e : [u0, u1, u2, u3, u4, u5, u6, u7].rotate 3 = [u3, u4, u5, u6, u7, u0, u1, u2] := rfl
    rw [e]
    simp [notchDetect, notchDetect_loop, notch_at, notch_angle, obj.nextc, Res.bind,
      l0, l1, l2, l3, l4, l5, l6, l7, r01, r12, r45, r56, r67, r70, t23, t34]
  · have e : [u0, u1, u2, u3, u4, u5, u6, u7].rotate 4 = [u4, u5, u6, u7, u0, u1, u2, u3] := rfl
    rw [e]
    simp [notchDetect, notchDetect_loop, notch_at, notch_angle, obj.nextc, Res.bind,
      l0, l1, l2, l3, l4, l5, l6, l7, r01, r12, r45, r56, r67, r70, t23, t34]
  · have e : [u0, u1, u2, u3, u4, u5, u6, u7].rotate 5 = [u5, u6, u7, u0, u1, u2, u3, u4] := rfl
    rw [e]
    simp [notchDetect, notchDetect_loop, notch_at, notch_angle, obj.nextc, Res.bind,
      l0, l1, l2, l3, l4, l5, l6, l7, r01, r12, r45, r56, r67, r70, t23, t34]
  · have e : [u0, u1, u2, u3, u4, u5, u6, u7].rotate 6 = [u6, u7, u0, u1, u2, u3, u4, u5] := rfl
    rw [e]
    simp [notchDetect, notchDetect_loop, notch_at, notch_angle, obj.nextc, Res.bind,
      l0, l1, l2, l3, l4, l5, l6, l7, r01, r12, r45, r56, r67, r70, t23, t34]
  · have e : [u0, u1, u2, u3, u4, u5, u6, u7].rotate 7 = [u7, u0, u1, u2, u3, u4, u5, u6] := rfl
    rw [e]
    simp [notchDetect, notchDetect_loop, notch_at, notch_angle, obj.nextc, Res.bind,
      l0, l1, l2, l3, l4, l5, l6, l7, r01, r12, r45, r56, r67, r70, t23, t34]

theorem quarterTurn_perp (a b : line K) :
    perpprod (quarterTurn a).get_V (quarterTurn b).get_V = perpprod a.get_V b.get_V := by
  simp only [quarterTurn, perpprod, perpprodRaw, line.get_V]
  ring

theorem quarterTurn_dot (a b : line K) :
    dotprod (quarterTurn a).get_V (quarterTurn b).get_V = dotprod a.get_V b.get_V := by
  simp only [quarterTurn, dotprod, dotprodRaw, line.get_V]
  ring

theorem quarterTurn_len (m : Libm K) (a : line K) : (quarterTurn a).len m = a.len m := by
  simp only [quarterTurn, line.len]
  congr 1
  ring

theorem quarterTurns_perp (r : Nat) (a b : line K) :
    perpprod (quarterTurn^[r] a).get_V (quarterTurn^[r] b).get_V =
      perpprod a.get_V b.get_V := by
  induction r with
  | zero => rfl
  | succ r ih => rw [Function.iterate_succ_apply', Function.iterate_succ_apply',
      quarterTurn_perp, ih]

theorem quarterTurns_dot (r : Nat) (a b : line K) :
    dotprod (quarterTurn^[r] a).get_V (quarterTurn^[r] b).get_V = dotprod a.get_V b.get_V := by
  induction r with
  | zero => rfl
  | succ r ih => rw [Function.iterate_succ_apply', Function.iterate_succ_apply',
      quarterTurn_dot, ih]

theorem quarterTurns_len (m : Libm K) (r : Nat) (a : line K) :
    (quarterTurn^[r] a).len m = a.len m := by
  induction r with
  | zero => rfl
  | succ r ih => rw [Function.iterate_succ_apply', quarterTurn_len, ih]

end NotchPattern

section NotchTurns

theorem detAng_real (m : Libm ℝ) (hm : m.IsReal) : detAng m = Real.pi / 9 := by
  simp only [detAng, TO_RADS, hm.2.2.2.2]
  ring

/-- A right turn at a right angle is a corner for `notchDetect`, of negative
angle. -/
theorem turn_right (m : Libm ℝ) (hm : m.IsReal) (u v : vector_t ℝ) (hp : perpprod u v < 0)
    (hd : dotprod u v = 0) :
    m.atan2 (perpprod u v) (dotprod u v) < -detAng m ∧
      ¬ detAng m < m.atan2 (perpprod u v) (dotprod u v) := by
  have hpi := Real.pi_pos
  rw [hm.2.1, hd, arg_mk_zero_neg hp, detAng_real m hm]
  constructor <;> linarith

/-- A left turn at a right angle is a corner for `notchDetect`, of positive
angle. -/
theorem turn_left (m : Libm ℝ) (hm : m.IsReal) (u v : vector_t ℝ) (hp : 0 < perpprod u v)
    (hd : dotprod u v = 0) :
    detAng m < m.atan2 (perpprod u v) (dotprod u v) ∧
      ¬ m.atan2 (perpprod u v) (dotprod u v) < -detAng m := by
  have hpi := Real.pi_pos
  rw [hm.2.1, hd, arg_mk_zero_pos hp, detAng_real m hm]
  constructor <;> linarith

/-- A turn back on the last segment is a corner for `notchDetect`, of
positive angle. -/
theorem turn_back (m : Libm ℝ) (hm : m.IsReal) (u v : vector_t ℝ) (hp : perpprod u v = 0)
    (hd : dotprod u v < 0) :
    detAng m < m.atan2 (perpprod u v) (dotprod u v) ∧
      ¬ m.atan2 (perpprod u v) (dotprod u v) < -detAng m := by
  have hpi := Real.pi_pos
  rw [hm.2.1, hp, arg_mk_neg_zero hd, detAng_real m hm]
  constructor <;> linarith

/-- The lengths and the turns of the notched rectangle, turned by right
angles. -/
theorem notchedRectangle_turns (m : Libm ℝ) (hm : m.IsReal) (x0 y0 H a d c e : ℝ) (hH : 0 < H)
    (ha : 0 < a) (hd : 0 < d) (hc : 0 < c) (he : 0 < e) (r : Nat)
    (u0 u1 u2 u3 u4 u5 u6 u7 : line ℝ)
    (hu : (notchedRectangleAt x0 y0 H a d c e).map (quarterTurn^[r]) =
      [u0, u1, u2, u3, u4, u5, u6, u7]) :
    (∀ u ∈ [u0, u1, u2, u3, u4, u5, u6, u7], 0 < u.len m) ∧
    (∀ p ∈ [(u0, u1), (u1, u2), (u4, u5), (u5, u6), (u6, u7), (u7, u0)],
      m.atan2 (perpprod p.1.get_V p.2.get_V) (dotprod p.1.get_V p.2.get_V) < -detAng m ∧
      ¬ detAng m < m.atan2 (perpprod p.1.get_V p.2.get_V) (dotprod p.1.get_V p.2.get_V)) ∧
    (∀ p ∈ [(u2, u3), (u3, u4)],
      detAng m < m.atan2 (perpprod p.1.get_V p.2.get_V) (dotprod p.1.get_V p.2.get_V) ∧
      ¬ m.atan2 (perpprod p.1.get_V p.2.get_V) (dotprod p.1.get_V p.2.get_V) < -detAng m) := by
  simp only [notchedRectangleAt, List.map_cons, List.map_nil, List.cons.injEq, and_true] at hu
  obtain ⟨rfl, rfl, rfl, rfl, rfl, rfl, rfl, rfl⟩ := hu
  have hw : 0 < a + c + e := by linarith
  refine ⟨?_, ?_, ?_⟩
  · intro u hu
    simp only [List.mem_cons, List.mem_singleton, List.not_mem_nil, or_false] at hu
    rcases hu with rfl | rfl | rfl | rfl | rfl | rfl | rfl | rfl <;>
      rw [quarterTurns_len] <;> apply len_pos_of_nonZero m hm <;>
      simp only [NonZero, ne_eq]
    · exact Or.inr hH.ne'
    · exact Or.inl ha.ne'
    · exact Or.inr (neg_ne_zero.2 hd.ne')
    · exact Or.inl hc.ne'
    · exact Or.inr hd.ne'
    · exact Or.inl he.ne'
    · exact Or.inr (neg_ne_zero.2 hH.ne')
    · exact Or.inl (neg_ne_zero.2 hw.ne')
  · intro p hp
    simp only [List.mem_cons, List.mem_singleton, List.not_mem_nil, or_false] at hp
    rcases hp with rfl | rfl | rfl | rfl | rfl | rfl <;>
      simp only [quarterTurns_perp, quarterTurns_dot] <;>
      apply turn_right m hm <;>
      simp only [perpprod, perpprodRaw, dotprod, dotprodRaw, line.get_V] <;>
      nlinarith [mul_pos hH ha, mul_pos ha hd, mul_pos hd he, mul_pos he hH,
        mul_pos hH hw, mul_pos hw hH]
  · intro p hp
    simp only [List.mem_cons, List.mem_singleton, List.not_mem_nil, or_false] at hp
    rcases hp with rfl | rfl <;>
      simp only [quarterTurns_perp, quarterTurns_dot] <;>
      apply turn_left m hm <;>
      simp only [perpprod, perpprodRaw, dotprod, dotprodRaw, line.get_V] <;>
      nlinarith [mul_pos hd hc, mul_pos hc hd]

/-- Detection on the notched rectangle, turned by right angles and read from
any of its segments. -/
theorem notchDetect_turned (m : Libm ℝ) (hm : m.IsReal) (x0 y0 H a d c e : ℝ) (hH : 0 < H)
    (ha : 0 < a) (hd : 0 < d) (hc : 0 < c) (he : 0 < e) (r s : Nat) :
    ∃ n : notch_t ℝ,
      notchDetect m (notchedRectangleTurned r s x0 y0 H a d c e) = .ok [n] ∧
      (n.notchLines.map fun p => (notchedRectangleTurned r s x0 y0 H a d c e)[p]?) =
        [some (quarterTurn^[r] ⟨⟨x0 + a, y0 + H⟩, ⟨0, -d⟩⟩),
          some (quarterTurn^[r] ⟨⟨x0 + a, y0 + H - d⟩, ⟨c, 0⟩⟩),
          some (quarterTurn^[r] ⟨⟨x0 + a + c, y0 + H - d⟩, ⟨0, d⟩⟩)] ∧
      n.beg = (quarterTurn^[r] (⟨⟨x0, y0 + H⟩, ⟨a, 0⟩⟩ : line ℝ)).get_S1 ∧
      n.fin = (quarterTurn^[r] (⟨⟨x0 + a + c, y0 + H⟩, ⟨e, 0⟩⟩ : line ℝ)).get_S0 := by
  have hu : (notchedRectangleAt x0 y0 H a d c e).map (quarterTurn^[r]) =
      [quarterTurn^[r] ⟨⟨x0, y0⟩, ⟨0, H⟩⟩, quarterTurn^[r] ⟨⟨x0, y0 + H⟩, ⟨a, 0⟩⟩,
        quarterTurn^[r] ⟨⟨x0 + a, y0 + H⟩, ⟨0, -d⟩⟩,
        quarterTurn^[r] ⟨⟨x0 + a, y0 + H - d⟩, ⟨c, 0⟩⟩,
        quarterTurn^[r] ⟨⟨x0 + a + c, y0 + H - d⟩, ⟨0, d⟩⟩,
        quarterTurn^[r] ⟨⟨x0 + a + c, y0 + H⟩, ⟨e, 0⟩⟩,
        quarterTurn^[r] ⟨⟨x0 + a + c + e, y0 + H⟩, ⟨0, -H⟩⟩,
        quarterTurn^[r] ⟨⟨x0 + a + c + e, y0⟩, ⟨-(a + c + e), 0⟩⟩] := by
    simp only [notchedRectangleAt, List.map_cons, List.map_nil]
  obtain ⟨h1, h2, h3⟩ := notchedRectangle_turns m hm x0 y0 H a d c e hH ha hd hc he r _ _ _ _
    _ _ _ _ hu
  have hs : s % 8 < 8 := Nat.mod_lt _ (by norm_num)
  have hrot : notchedRectangleTurned r s x0 y0 H a d c e =
      ([quarterTurn^[r] ⟨⟨x0, y0⟩, ⟨0, H⟩⟩, quarterTurn^[r] ⟨⟨x0, y0 + H⟩, ⟨a, 0⟩⟩,
        quarterTurn^[r] ⟨⟨x0 + a, y0 + H⟩, ⟨0, -d⟩⟩,
        quarterTurn^[r] ⟨⟨x0 + a, y0 + H - d⟩, ⟨c, 0⟩⟩,
        quarterTurn^[r] ⟨⟨x0 + a + c, y0 + H - d⟩, ⟨0, d⟩⟩,
        quarterTurn^[r] ⟨⟨x0 + a + c, y0 + H⟩, ⟨e, 0⟩⟩,
        quarterTurn^[r] ⟨⟨x0 + a + c + e, y0 + H⟩, ⟨0, -H⟩⟩,
        quarterTurn^[r] ⟨⟨x0 + a + c + e, y0⟩, ⟨-(a + c + e), 0⟩⟩] : obj ℝ).rotate (s % 8) := by
    rw [notchedRectangleTurned, hu]
    exact (List.rotate_mod _ s).symm
  rw [hrot]
  refine ⟨_, notchDetect_pattern m _ _ _ _ _ _ _ _ h1 h2 h3 (s % 8) hs, ?_, rfl, rfl⟩
  exact pattern_positions _ _ _ _ _ _ _ _ (s % 8) hs

end NotchTurns

/-! ## Claim on `notchDetect` -/

section NotchDetectClaims

/-- C21: for every axis-aligned clockwise rectangle with one rectangular notch
cut into one edge (the rectangle with the notch in its top edge, turned by any
number of right angles, its segment list starting with any of its eight
segments), `notchDetect` leaves exactly one notch record; its lines are the
three sides of the notch, in the order of the path, its begin point is the
corner where the path leaves the edge and its end point the corner where it
comes back to the edge. -/
theorem notchDetect_notched_rectangle (m : Libm ℝ) (hm : m.IsReal) (x0 y0 H a d c e : ℝ)
    (hH : 0 < H) (ha : 0 < a) (hd : 0 < d) (hc : 0 < c) (he : 0 < e) (r s : Nat) :
    ∃ n : notch_t ℝ,
      notchDetect m (notchedRectangleTurned r s x0 y0 H a d c e) = .ok [n] ∧
      (n.notchLines.map fun p => (notchedRectangleTurned r s x0 y0 H a d c e)[p]?) =
        [some (quarterTurn^[r] ⟨⟨x0 + a, y0 + H⟩, ⟨0, -d⟩⟩),
          some (quarterTurn^[r] ⟨⟨x0 + a, y0 + H - d⟩, ⟨c, 0⟩⟩),
          some (quarterTurn^[r] ⟨⟨x0 + a + c, y0 + H - d⟩, ⟨0, d⟩⟩)] ∧
      n.beg = (quarterTurn^[r] (⟨⟨x0, y0 + H⟩, ⟨a, 0⟩⟩ : line ℝ)).get_S1 ∧
      n.fin = (quarterTurn^[r] (⟨⟨x0 + a + c, y0 + H⟩, ⟨e, 0⟩⟩ : line ℝ)).get_S0 :=
  notchDetect_turned m hm x0 y0 H a d c e hH ha hd hc he r s

/-- Witness of C21: the rectangle with corners `(0,0)` and `(3,2)` and a notch
of width 1 and depth 1 in its top edge, turned by one right angle, the list
starting with the fourth segment. -/
theorem notchDetect_notched_rectangle_witness :
    ∃ m : Libm ℝ, m.IsReal ∧ ((0 : ℝ) < 2 ∧ (0 : ℝ) < 1) ∧
      ∃ n : notch_t ℝ,
        notchDetect m (notchedRectangleTurned 1 3 0 0 2 1 1 1 1) = .ok [n] ∧
        (n.notchLines.map fun p => (notchedRectangleTurned 1 3 (0 : ℝ) 0 2 1 1 1 1)[p]?) =
          [some (quarterTurn^[1] ⟨⟨0 + 1, 0 + 2⟩, ⟨0, -1⟩⟩),
            some (quarterTurn^[1] ⟨⟨0 + 1, 0 + 2 - 1⟩, ⟨1, 0⟩⟩),
            some (quarterTurn^[1] ⟨⟨0 + 1 + 1, 0 + 2 - 1⟩, ⟨0, 1⟩⟩)] ∧
        n.beg = (quarterTurn^[1] (⟨⟨0, 0 + 2⟩, ⟨1, 0⟩⟩ : line ℝ)).get_S1 ∧
        n.fin = (quarterTurn^[1] (⟨⟨0 + 1 + 1, 0 + 2⟩, ⟨1, 0⟩⟩ : line ℝ)).get_S0 :=
  ⟨_, isReal_mk, ⟨by norm_num, by norm_num⟩,
    notchDetect_notched_rectangle _ isReal_mk 0 0 2 1 1 1 1 (by norm_num) (by norm_num)
      (by norm_num) (by norm_num) (by norm_num) 1 3⟩

end NotchDetectClaims

/-! ## Removal of a slit and of a notch -/

section SlitEvaluation

theorem notchDetect_slitSquare (m : Libm ℝ) (hm : m.IsReal) :
    notchDetect m (slitSquare : obj ℝ) = .ok [notch_record [2, 3] ⟨1, 2⟩ ⟨1, 2⟩] := by
  have l0 := len_pos_of_nonZero m hm ⟨⟨0, 0⟩, ⟨0, 2⟩⟩ (Or.inr (by norm_num))
  have l1 := len_pos_of_nonZero m hm ⟨⟨0, 2⟩, ⟨1, 0⟩⟩ (Or.inl (by norm_num))
  have l2 := len_pos_of_nonZero m hm ⟨⟨1, 2⟩, ⟨0, -1⟩⟩ (Or.inr (by norm_num))
  have l3 := len_pos_of_nonZero m hm ⟨⟨1, 1⟩, ⟨0, 1⟩⟩ (Or.inr (by norm_num))
  have l4 := len_pos_of_nonZero m hm ⟨⟨1, 2⟩, ⟨1, 0⟩⟩ (Or.inl (by norm_num))
  have l5 := len_pos_of_nonZero m hm ⟨⟨2, 2⟩, ⟨0, -2⟩⟩ (Or.inr (by norm_num))
  have l6 := len_pos_of_nonZero m hm ⟨⟨2, 0⟩, ⟨-2, 0⟩⟩ (Or.inl (by norm_num))
  have j01 := turn_right m hm (⟨⟨0, 0⟩, ⟨0, 2⟩⟩ : line ℝ).get_V
    (⟨⟨0, 2⟩, ⟨1, 0⟩⟩ : line ℝ).get_V
    (by norm_num [perpprod, perpprodRaw, line.get_V])
    (by norm_num [dotprod, dotprodRaw, line.get_V])
  have j12 := turn_right m hm (⟨⟨0, 2⟩, ⟨1, 0⟩⟩ : line ℝ).get_V
    (⟨⟨1, 2⟩, ⟨0, -1⟩⟩ : line ℝ).get_V
    (by norm_num [perpprod, perpprodRaw, line.get_V])
    (by norm_num [dotprod, dotprodRaw, line.get_V])
  have j23 := turn_back m hm (⟨⟨1, 2⟩, ⟨0, -1⟩⟩ : line ℝ).get_V
    (⟨⟨1, 1⟩, ⟨0, 1⟩⟩ : line ℝ).get_V
    (by norm_num [perpprod, perpprodRaw, line.get_V])
    (by norm_num [dotprod, dotprodRaw, line.get_V])
  have j34 := turn_right m hm (⟨⟨1, 1⟩, ⟨0, 1⟩⟩ : line ℝ).get_V
    (⟨⟨1, 2⟩, ⟨1, 0⟩⟩ : line ℝ).get_V
    (by norm_num [perpprod, perpprodRaw, line.get_V])
    (by norm_num [dotprod, dotprodRaw, line.get_V])
  have j45 := turn_right m hm (⟨⟨1, 2⟩, ⟨1, 0⟩⟩ : line ℝ).get_V
    (⟨⟨2, 2⟩, ⟨0, -2⟩⟩ : line ℝ).get_V
    (by norm_num [perpprod, perpprodRaw, line.get_V])
    (by norm_num [dotprod, dotprodRaw, line.get_V])
  have j56 := turn_right m hm (⟨⟨2, 2⟩, ⟨0, -2⟩⟩ : line ℝ).get_V
    (⟨⟨2, 0⟩, ⟨-2, 0⟩⟩ : line ℝ).get_V
    (by norm_num [perpprod, perpprodRaw, line.get_V])
    (by norm_num [dotprod, dotprodRaw, line.get_V])
  have j60 := turn_right m hm (⟨⟨2, 0⟩, ⟨-2, 0⟩⟩ : line ℝ).get_V
    (⟨⟨0, 0⟩, ⟨0, 2⟩⟩ : line ℝ).get_V
    (by norm_num [perpprod, perpprodRaw, line.get_V])
    (by norm_num [dotprod, dotprodRaw, line.get_V])
  simp [notchDetect, notchDetect_loop, notch_at, notch_angle, obj.nextc, Res.bind, slitSquare,
    l0, l1, l2, l3, l4, l5, l6, j01, j12, j23, j34, j45, j56, j60]
  simp [notch_record, line.get_S1, line.get_S0, line.get_pt, T_S1]

theorem bridge_slitSquare :
    (bridge_notches (with_handles (slitSquare : obj ℝ))
      [notch_record [2, 3] ⟨1, 2⟩ ⟨1, 2⟩]).map Prod.snd = slitSquareBridged := by
  have e : with_handles (slitSquare : obj ℝ) =
      [(0, ⟨⟨0, 0⟩, ⟨0, 2⟩⟩), (1, ⟨⟨0, 2⟩, ⟨1, 0⟩⟩), (2, ⟨⟨1, 2⟩, ⟨0, -1⟩⟩),
        (3, ⟨⟨1, 1⟩, ⟨0, 1⟩⟩), (4, ⟨⟨1, 2⟩, ⟨1, 0⟩⟩), (5, ⟨⟨2, 2⟩, ⟨0, -2⟩⟩),
        (6, ⟨⟨2, 0⟩, ⟨-2, 0⟩⟩)] := rfl
  rw [e]
  simp [bridge_notches, bridge_notch, notch_record, line.ofPoints, slitSquareBridged]

theorem trace_slitSquareBridged (m : Libm ℝ) (hm : m.IsReal) :
    trace_a_path m SNAP_LEN (slitSquareBridged : obj ℝ) = (true, slitSquareBridged, []) := by
  simp only [trace_a_path, slitSquareBridged]
  rw [trace_scan]
  norm_num [line.get_S1, line.get_S0, line.get_pt, line.reverse, line.ofPoints, T_S1, SNAP_LEN,
    distTwoPoints, hm.1, Real.sqrt_le_iff]
  rw [trace_scan]
  norm_num [line.get_S1, line.get_S0, line.get_pt, line.reverse, line.ofPoints, T_S1, SNAP_LEN,
    distTwoPoints, hm.1, Real.sqrt_le_iff]
  rw [trace_scan]
  norm_num [line.get_S1, line.get_S0, line.get_pt, line.reverse, line.ofPoints, T_S1, SNAP_LEN,
    distTwoPoints, hm.1, Real.sqrt_le_iff]
  rw [trace_scan]
  norm_num [line.get_S1, line.get_S0, line.get_pt, line.reverse, line.ofPoints, T_S1, SNAP_LEN,
    distTwoPoints, hm.1, Real.sqrt_le_iff]
  rw [trace_scan]
  norm_num [line.get_S1, line.get_S0, line.get_pt, line.reverse, line.ofPoints, T_S1, SNAP_LEN,
    distTwoPoints, hm.1, Real.sqrt_le_iff]

theorem cw_slitSquareBridged (m : Libm ℝ) (hm : m.IsReal) :
    is_clockwise m (⟨⟨0, 0⟩, ⟨0, 2⟩⟩ : line ℝ)
      [⟨⟨0, 2⟩, ⟨1, 0⟩⟩, ⟨⟨1, 2⟩, ⟨0, 0⟩⟩, ⟨⟨1, 2⟩, ⟨1, 0⟩⟩, ⟨⟨2, 2⟩, ⟨0, -2⟩⟩,
        ⟨⟨2, 0⟩, ⟨-2, 0⟩⟩] = true := by
  have hpi := Real.pi_pos
  have a4 : (⟨0, -4⟩ : ℂ).arg = -(Real.pi / 2) := arg_mk_zero_neg (by norm_num)
  have a2 : (⟨0, -2⟩ : ℂ).arg = -(Real.pi / 2) := arg_mk_zero_neg (by norm_num)
  have a1 : (⟨1, 0⟩ : ℂ).arg = 0 := arg_mk_nonneg_zero (by norm_num)
  have e2 : -(Real.pi / 2) + -(Real.pi / 2) + -(Real.pi / 2) + -(Real.pi / 2) =
      -(Real.pi * 2) := by ring
  have e3 : ¬ (0 : ℝ) ≤ -(Real.pi / 2) := by linarith
  simp only [is_clockwise, is_clockwise_loop, line.len, hm.1, hm.2.1, hm.2.2.2.2,
    perpprod, perpprodRaw, dotprod, dotprodRaw, line.get_V, List.getLast_cons_cons,
    List.getLast_singleton]
  norm_num [a4, a2, a1, e3, e2, within_two_pi, hpi]

theorem cw_slitSquareClosed (m : Libm ℝ) (hm : m.IsReal) :
    is_clockwise m (⟨⟨0, 0⟩, ⟨0, 2⟩⟩ : line ℝ)
      [⟨⟨0, 2⟩, ⟨1, 0⟩⟩, ⟨⟨1, 2⟩, ⟨1, 0⟩⟩, ⟨⟨2, 2⟩, ⟨0, -2⟩⟩, ⟨⟨2, 0⟩, ⟨-2, 0⟩⟩] = true := by
  have hpi := Real.pi_pos
  have a4 : (⟨0, -4⟩ : ℂ).arg = -(Real.pi / 2) := arg_mk_zero_neg (by norm_num)
  have a2 : (⟨0, -2⟩ : ℂ).arg = -(Real.pi / 2) := arg_mk_zero_neg (by norm_num)
  have a1 : (⟨1, 0⟩ : ℂ).arg = 0 := arg_mk_nonneg_zero (by norm_num)
  have e2 : -(Real.pi / 2) + -(Real.pi / 2) + -(Real.pi / 2) + -(Real.pi / 2) =
      -(Real.pi * 2) := by ring
  have e3 : ¬ (0 : ℝ) ≤ -(Real.pi / 2) := by linarith
  simp only [is_clockwise, is_clockwise_loop, line.len, hm.1, hm.2.1, hm.2.2.2.2,
    perpprod, perpprodRaw, dotprod, dotprodRaw, line.get_V, List.getLast_cons_cons,
    List.getLast_singleton]
  norm_num [a4, a2, a1, e3, e2, within_two_pi, hpi]

theorem make_path_slitSquareBridged (m : Libm ℝ) (hm : m.IsReal) :
    make_path m (slitSquareBridged : obj ℝ) = .ok slitSquareBridged := by
  have h0 : make_path_full m SNAP_LEN false false (slitSquareBridged : obj ℝ) [] [] =
      make_path_loop m SNAP_LEN false false (5 + 1) []
        (⟨⟨0, 0⟩, ⟨0, 2⟩⟩ :: [⟨⟨0, 2⟩, ⟨1, 0⟩⟩, ⟨⟨1, 2⟩, ⟨0, 0⟩⟩, ⟨⟨1, 2⟩, ⟨1, 0⟩⟩,
          ⟨⟨2, 2⟩, ⟨0, -2⟩⟩, ⟨⟨2, 0⟩, ⟨-2, 0⟩⟩]) [] [] := rfl
  simp only [make_path, make_path_snap]
  rw [h0, make_path_loop_closed m SNAP_LEN false false 5 [] _ _ [] [] _ _ []
    (trace_slitSquareBridged m hm) (cw_slitSquareBridged m hm), make_path_loop_nil]
  rfl

theorem del_dupes_zeros_slitSquareBridged (m : Libm ℝ) (hm : m.IsReal) :
    del_dupes_zeros m (slitSquareBridged : obj ℝ) = (slitSquareClosed, true) := by
  have h1 := del_duplicates_outer_none (slitSquareBridged : obj ℝ) []
    (slitSquareBridged : obj ℝ).length 0
    (by simp [slitSquareBridged, line.is_same_as, line.get_S0, line.get_V]) (le_refl _)
  have z : (⟨⟨1, 2⟩, ⟨0, 0⟩⟩ : line ℝ).len m < SMALL_NUM := by
    rw [len_zero_line m hm]
    norm_num [SMALL_NUM, SNAP_LEN]
  have g0 := len_ge_small m hm ⟨⟨0, 0⟩, ⟨0, 2⟩⟩ (by norm_num)
  have g1 := len_ge_small m hm ⟨⟨0, 2⟩, ⟨1, 0⟩⟩ (by norm_num)
  have g4 := len_ge_small m hm ⟨⟨1, 2⟩, ⟨1, 0⟩⟩ (by norm_num)
  have g5 := len_ge_small m hm ⟨⟨2, 2⟩, ⟨0, -2⟩⟩ (by norm_num)
  have g6 := len_ge_small m hm ⟨⟨2, 0⟩, ⟨-2, 0⟩⟩ (by norm_num)
  have h2 : del_zero_lens_loop m [] (slitSquareBridged : obj ℝ) 0 = (slitSquareClosed, 1) := by
    simp only [slitSquareBridged]
    rw [del_zero_lens_loop, if_neg g0, del_zero_lens_loop, if_neg g1, del_zero_lens_loop,
      if_pos z]
    exact del_zero_lens_loop_none m _ [] 1 (by
      intro l hl
      simp only [List.nil_append, List.cons_append, List.mem_cons, List.mem_singleton,
        List.not_mem_nil, or_false] at hl
      rcases hl with rfl | rfl | rfl | rfl | rfl <;> assumption)
  simp only [List.nil_append] at h1
  simp only [del_dupes_zeros, del_duplicates, del_zero_lens, h1, h2]
  simp

theorem normal_slitSquareClosed (m : Libm ℝ) (hm : m.IsReal) :
    NormalPath m [(slitSquareClosed : obj ℝ)] := by
  refine ⟨?_, ?_, ?_⟩
  · intro L hL
    simp only [List.mem_singleton] at hL
    subst hL
    refine ⟨?_, cw_slitSquareClosed m hm⟩
    simp [LoopTail, distTwoPoints, hm.1, Real.sqrt_le_iff, line.get_S1, line.get_S0, line.get_pt,
      T_S1, SNAP_LEN]
    norm_num
  · simp [slitSquareClosed, line.is_same_as, line.get_S0, line.get_V]
  · intro l hl
    apply len_ge_small m hm
    simp only [slitSquareClosed, List.flatten_cons, List.flatten_nil, List.append_nil,
      List.mem_cons, List.mem_singleton, List.not_mem_nil, or_false] at hl
    rcases hl with rfl | rfl | rfl | rfl | rfl <;> norm_num

theorem regularise_slitSquareBridged (m : Libm ℝ) (hm : m.IsReal) :
    regularise m (slitSquareBridged : obj ℝ) = .ok slitSquareClosed := by
  have hN := normal_slitSquareClosed m hm
  have hP := regularise_fixed m (dist_self_le_snap m hm) [(slitSquareClosed : obj ℝ)]
    hN.1 hN.2.1 hN.2.2
  simp only [List.flatten_cons, List.flatten_nil, List.append_nil] at hP
  have e : regularise m (slitSquareBridged : obj ℝ) =
      regularise_loop m (6 + 1) slitSquareBridged := rfl
  rw [e, regularise_loop, make_path_slitSquareBridged m hm]
  simp only [del_dupes_zeros_slitSquareBridged m hm, if_true]
  exact hP

theorem removeNotches_slitSquare (m : Libm ℝ) (hm : m.IsReal) :
    removeNotches m (slitSquare : obj ℝ) = .ok slitSquareClosed := by
  rw [removeNotches_core m _ _ (notchDetect_slitSquare m hm) (by simp [notch_record]),
    bridge_slitSquare, regularise_slitSquareBridged m hm]

theorem notchDetect_notchedRectangle (m : Libm ℝ) (hm : m.IsReal) :
    notchDetect m (notchedRectangle : obj ℝ) = .ok [notch_record [2, 3, 4] ⟨1, 2⟩ ⟨2, 2⟩] := by
  have hu : (notchedRectangleAt (0 : ℝ) 0 2 1 1 1 1).map (quarterTurn^[0]) =
      [⟨⟨0, 0⟩, ⟨0, 2⟩⟩, ⟨⟨0, 2⟩, ⟨1, 0⟩⟩, ⟨⟨1, 2⟩, ⟨0, -1⟩⟩, ⟨⟨1, 1⟩, ⟨1, 0⟩⟩,
        ⟨⟨2, 1⟩, ⟨0, 1⟩⟩, ⟨⟨2, 2⟩, ⟨1, 0⟩⟩, ⟨⟨3, 2⟩, ⟨0, -2⟩⟩, ⟨⟨3, 0⟩, ⟨-3, 0⟩⟩] := by
    simp only [notchedRectangleAt, Function.iterate_zero, List.map_id_fun, id_eq]
    norm_num
  obtain ⟨h1, h2, h3⟩ := notchedRectangle_turns m hm 0 0 2 1 1 1 1 (by norm_num)
    (by norm_num) (by norm_num) (by norm_num) (by norm_num) 0 _ _ _ _ _ _ _ _ hu
  have h := notchDetect_pattern m _ _ _ _ _ _ _ _ h1 h2 h3 0 (by norm_num)
  simp only [List.rotate_zero] at h
  rw [notchedRectangle, h]
  simp [notch_record, line.get_S1, line.get_S0, line.get_pt, T_S1]

theorem bridge_notchedRectangle :
    (bridge_notches (with_handles (notchedRectangle : obj ℝ))
      [notch_record [2, 3, 4] ⟨1, 2⟩ ⟨2, 2⟩]).map Prod.snd = notchedRectangleBridged := by
  have e : with_handles (notchedRectangle : obj ℝ) =
      [(0, ⟨⟨0, 0⟩, ⟨0, 2⟩⟩), (1, ⟨⟨0, 2⟩, ⟨1, 0⟩⟩), (2, ⟨⟨1, 2⟩, ⟨0, -1⟩⟩),
        (3, ⟨⟨1, 1⟩, ⟨1, 0⟩⟩), (4, ⟨⟨2, 1⟩, ⟨0, 1⟩⟩), (5, ⟨⟨2, 2⟩, ⟨1, 0⟩⟩),
        (6, ⟨⟨3, 2⟩, ⟨0, -2⟩⟩), (7, ⟨⟨3, 0⟩, ⟨-3, 0⟩⟩)] := rfl
  rw [e]
  simp [bridge_notches, bridge_notch, notch_record, line.ofPoints, notchedRectangleBridged]
  norm_num

theorem cw_notchedRectangleBridged (m : Libm ℝ) (hm : m.IsReal) :
    is_clockwise m (⟨⟨0, 0⟩, ⟨0, 2⟩⟩ : line ℝ)
      [⟨⟨0, 2⟩, ⟨1, 0⟩⟩, ⟨⟨1, 2⟩, ⟨1, 0⟩⟩, ⟨⟨2, 2⟩, ⟨1, 0⟩⟩, ⟨⟨3, 2⟩, ⟨0, -2⟩⟩,
        ⟨⟨3, 0⟩, ⟨-3, 0⟩⟩] = true := by
  have hpi := Real.pi_pos
  have a6 : (⟨0, -6⟩ : ℂ).arg = -(Real.pi / 2) := arg_mk_zero_neg (by norm_num)
  have a2 : (⟨0, -2⟩ : ℂ).arg = -(Real.pi / 2) := arg_mk_zero_neg (by norm_num)
  have a1 : (⟨1, 0⟩ : ℂ).arg = 0 := arg_mk_nonneg_zero (by norm_num)
  have e2 : -(Real.pi / 2) + -(Real.pi / 2) + -(Real.pi / 2) + -(Real.pi / 2) =
      -(Real.pi * 2) := by ring
  have e3 : ¬ (0 : ℝ) ≤ -(Real.pi / 2) := by linarith
  simp only [is_clockwise, is_clockwise_loop, line.len, hm.1, hm.2.1, hm.2.2.2.2,
    perpprod, perpprodRaw, dotprod, dotprodRaw, line.get_V, List.getLast_cons_cons,
    List.getLast_singleton]
  norm_num [a6, a2, a1, e3, e2, within_two_pi, hpi]

theorem normal_notchedRectangleBridged (m : Libm ℝ) (hm : m.IsReal) :
    NormalPath m [(notchedRectangleBridged : obj ℝ)] := by
  refine ⟨?_, ?_, ?_⟩
  · intro L hL
    simp only [List.mem_singleton] at hL
    subst hL
    refine ⟨?_, cw_notchedRectangleBridged m hm⟩
    simp [LoopTail, distTwoPoints, hm.1, Real.sqrt_le_iff, line.get_S1, line.get_S0, line.get_pt,
      T_S1, SNAP_LEN]
    norm_num
  · simp [notchedRectangleBridged, line.is_same_as, line.get_S0, line.get_V]
  · intro l hl
    apply len_ge_small m hm
    simp only [notchedRectangleBridged, List.flatten_cons, List.flatten_nil, List.append_nil,
      List.mem_cons, List.mem_singleton, List.not_mem_nil, or_false] at hl
    rcases hl with rfl | rfl | rfl | rfl | rfl | rfl <;> norm_num

theorem regularise_notchedRectangleBridged (m : Libm ℝ) (hm : m.IsReal) :
    regularise m (notchedRectangleBridged : obj ℝ) = .ok notchedRectangleBridged := by
  have hN := normal_notchedRectangleBridged m hm
  have hP := regularise_fixed m (dist_self_le_snap m hm) [(notchedRectangleBridged : obj ℝ)]
    hN.1 hN.2.1 hN.2.2
  simpa using hP

end SlitEvaluation

/-! ## Claim on `removeNotches` -/

section RemoveNotchesClaims

/-- C22 (counterexample): the clockwise square with a slit of width zero in
its top edge.  `notchDetect` finds one notch of two lines, the two sides of
the slit, with the begin point and the end point both at `(1,2)`;
`removeNotches` returns the square without the slit, five segments where
there were seven, none of them the segment from the begin point to the end
point. -/
theorem removeNotches_slit_vanishes :
    ∃ m : Libm ℝ, m.IsReal ∧
      notchDetect m (slitSquare : obj ℝ) = .ok [notch_record [2, 3] ⟨1, 2⟩ ⟨1, 2⟩] ∧
      removeNotches m (slitSquare : obj ℝ) = .ok slitSquareClosed ∧
      (slitSquare : obj ℝ).length = 7 ∧ (slitSquareClosed : obj ℝ).length = 5 ∧
      line.ofPoints ⟨1, 2⟩ ⟨1, 2⟩ ∉ (slitSquareClosed : obj ℝ) := by
  refine ⟨_, isReal_mk, notchDetect_slitSquare _ isReal_mk, removeNotches_slitSquare _ isReal_mk,
    rfl, rfl, ?_⟩
  simp [slitSquareClosed, line.ofPoints]

/-- C22 (amended): when no segment is a line of two detected notches,
`removeNotches` first replaces each detected notch by one straight segment
from the notch's begin point (the end of the segment before the notch) to its
end point (the start of the segment after it), in the place of the first line
of the notch, and deletes the other lines of the notch, which lowers the
number of segments by 2 for a notch of three lines and by 1 for a notch of
two; the path it leaves is that path regularised. -/
theorem removeNotches_spec {K : Type} [LinearOrderedField K] (m : Libm K) (o : obj K)
    (ns : List (notch_t K)) (hdet : notchDetect m o = .ok ns)
    (hnd : (ns.flatMap fun n => n.notchLines).Nodup) :
    removeNotches m o = regularise m ((bridge_notches (with_handles o) ns).map Prod.snd) ∧
    (bridge_notches (with_handles o) ns).length +
        (ns.map fun n => n.notchLines.length - 1).sum = o.length ∧
    ∀ n ∈ ns, IsNotchOf o n ∧ (n.notchLines.length = 3 ∨ n.notchLines.length = 2) := by
  have hf := notchDetect_facts m o ns hdet
  refine ⟨removeNotches_core m o ns hdet hnd, ?_, fun n hn =>
    ⟨hf n hn, (isNotchOf_lines o n (hf n hn)).2.2.1⟩⟩
  have h := bridge_notches_length ns (with_handles o)
    (by rw [with_handles_fst]; exact List.nodup_range _)
    (fun n hn => (isNotchOf_lines o n (hf n hn)).1) hnd
    (fun n hn h hh => by
      rw [with_handles_fst, List.mem_range]
      exact (isNotchOf_lines o n (hf n hn)).2.1 h hh)
  rw [h]
  simp [with_handles]

/-- Witness of C22 (amended): the rectangle with corners `(0,0)` and `(3,2)`
and a notch of width 1 and depth 1 in its top edge; the path left has the
notch bridged by the segment from `(1,2)` to `(2,2)`, six segments where there
were eight. -/
theorem removeNotches_spec_witness :
    ∃ m : Libm ℝ, m.IsReal ∧
      notchDetect m (notchedRectangle : obj ℝ) =
        .ok [notch_record [2, 3, 4] ⟨1, 2⟩ ⟨2, 2⟩] ∧
      ([notch_record [2, 3, 4] (⟨1, 2⟩ : coord_t ℝ) ⟨2, 2⟩].flatMap
        fun n => n.notchLines).Nodup ∧
      regularise m (notchedRectangleBridged : obj ℝ) = .ok notchedRectangleBridged ∧
      (bridge_notches (with_handles (notchedRectangle : obj ℝ))
        [notch_record [2, 3, 4] ⟨1, 2⟩ ⟨2, 2⟩]).map Prod.snd = notchedRectangleBridged ∧
      (removeNotches m (notchedRectangle : obj ℝ) =
          regularise m ((bridge_notches (with_handles (notchedRectangle : obj ℝ))
            [notch_record [2, 3, 4] ⟨1, 2⟩ ⟨2, 2⟩]).map Prod.snd) ∧
        (bridge_notches (with_handles (notchedRectangle : obj ℝ))
            [notch_record [2, 3, 4] ⟨1, 2⟩ ⟨2, 2⟩]).length +
          ([notch_record [2, 3, 4] (⟨1, 2⟩ : coord_t ℝ) ⟨2, 2⟩].map
            fun n => n.notchLines.length - 1).sum = (notchedRectangle : obj ℝ).length ∧
        ∀ n ∈ [notch_record [2, 3, 4] (⟨1, 2⟩ : coord_t ℝ) ⟨2, 2⟩],
          IsNotchOf (notchedRectangle : obj ℝ) n ∧
            (n.notchLines.length = 3 ∨ n.notchLines.length = 2)) :=
  ⟨_, isReal_mk, notchDetect_notchedRectangle _ isReal_mk, by simp [notch_record],
    regularise_notchedRectangleBridged _ isReal_mk, bridge_notchedRectangle,
    removeNotches_spec _ (notchedRectangle : obj ℝ) _
      (notchDetect_notchedRectangle _ isReal_mk) (by simp [notch_record])⟩

end RemoveNotchesClaims

/-! ## State of the engine between runs -/

section EngineState

theorem notchDetect_unitSquare (m : Libm ℝ) (hm : m.IsReal) :
    notchDetect m (unitSquare : obj ℝ) = .ok [] := by
  have l0 := len_pos_of_nonZero m hm ⟨⟨0, 0⟩, ⟨0, 1⟩⟩ (Or.inr (by norm_num))
  have l1 := len_pos_of_nonZero m hm ⟨⟨0, 1⟩, ⟨1, 0⟩⟩ (Or.inl (by norm_num))
  have l2 := len_pos_of_nonZero m hm ⟨⟨1, 1⟩, ⟨0, -1⟩⟩ (Or.inr (by norm_num))
  have l3 := len_pos_of_nonZero m hm ⟨⟨1, 0⟩, ⟨-1, 0⟩⟩ (Or.inl (by norm_num))
  have j01 := turn_right m hm (⟨⟨0, 0⟩, ⟨0, 1⟩⟩ : line ℝ).get_V
    (⟨⟨0, 1⟩, ⟨1, 0⟩⟩ : line ℝ).get_V
    (by norm_num [perpprod, perpprodRaw, line.get_V])
    (by norm_num [dotprod, dotprodRaw, line.get_V])
  have j12 := turn_right m hm (⟨⟨0, 1⟩, ⟨1, 0⟩⟩ : line ℝ).get_V
    (⟨⟨1, 1⟩, ⟨0, -1⟩⟩ : line ℝ).get_V
    (by norm_num [perpprod, perpprodRaw, line.get_V])
    (by norm_num [dotprod, dotprodRaw, line.get_V])
  have j23 := turn_right m hm (⟨⟨1, 1⟩, ⟨0, -1⟩⟩ : line ℝ).get_V
    (⟨⟨1, 0⟩, ⟨-1, 0⟩⟩ : line ℝ).get_V
    (by norm_num [perpprod, perpprodRaw, line.get_V])
    (by norm_num [dotprod, dotprodRaw, line.get_V])
  have j30 := turn_right m hm (⟨⟨1, 0⟩, ⟨-1, 0⟩⟩ : line ℝ).get_V
    (⟨⟨0, 0⟩, ⟨0, 1⟩⟩ : line ℝ).get_V
    (by norm_num [perpprod, perpprodRaw, line.get_V])
    (by norm_num [dotprod, dotprodRaw, line.get_V])
  simp [notchDetect, notchDetect_loop, notch_at, notch_angle, obj.nextc, Res.bind, unitSquare,
    l0, l1, l2, l3, j01, j12, j23, j30]

theorem removeNotches_unitSquare (m : Libm ℝ) (hm : m.IsReal) :
    removeNotches m (unitSquare : obj ℝ) = .ok unitSquare := by
  rw [removeNotches_core m _ _ (notchDetect_unitSquare m hm) (by simp)]
  simp only [bridge_notches, with_handles, List.enum_map_snd]
  exact regularise_unitSquare m hm

theorem progress_eq {K : Type} (g : LiteEngine K) :
    g.progress = { g with progressBar := g.progressBar.map (· + 1) } := by
  obtain ⟨rs, ow, iw, gw, an, ma, sp, mode, di, pb, inp, non, oro, ori, reforo, refori, iro, iri,
    construct, bro, notches, anchors, nAnchors⟩ := g
  cases pb <;> rfl

/-- The shape of a run with lightening and without `girder`: the value
returned, the output and the members `construct`, `rs` and `sp` after it. -/
theorem run_simple_shape {K : Type} [LinearOrderedField K] (S : Stages K) (m : Libm K)
    (f : K → obj K → obj K → Res (obj K)) (h : K → obj K → Res (obj K))
    (fh : K → obj K → Res (obj K)) (fv : obj K → Res (obj K))
    (hS1 : S.createOuterRimOuter = createOuterRimOuter m) (hS2 : S.SimpleFootprint f h fh fv)
    (g : LiteEngine K) (inObj : obj K) (nd sc aan hs vs : Bool) (b : Bool) (out : obj K)
    (g1 : LiteEngine K)
    (hrun : run S m g inObj true nd false sc aan hs vs = .ok (b, out, g1)) :
    ∃ inp, regularise m inObj = .ok inp ∧ g1.rs = g.rs ∧ g1.sp = g.sp ∧
      ((inp.length ≤ 2 ∧ b = false ∧ out = inp ∧ g1.construct = g.construct) ∨
       (2 < inp.length ∧ b = true ∧ ∃ non x1 x2 o1 o2, removeNotches m inp = .ok non ∧
          f g.rs (if nd then non else inp) inp = .ok x1 ∧ h 0 x1 = .ok x2 ∧
          (if hs then fh g.sp (inp ++ x2) else .ok (inp ++ x2)) = .ok o1 ∧
          (if vs then fv o1 else .ok o1) = .ok o2 ∧
          out = o2 ++ (if sc then g.construct ++ (if nd then non else []) else []) ∧
          g1.construct = g.construct ++ (if nd then non else []))) := by
  obtain ⟨k3, k4, k13, k14⟩ := hS2
  rw [run] at hrun
  obtain ⟨inp, hinp, hrun⟩ := Res.bind_eq_ok _ _ _ hrun
  refine ⟨inp, hinp, ?_⟩
  by_cases hlen : inp.length ≤ 2
  · simp only [hlen, if_true, Res.ok.injEq, Prod.mk.injEq, List.nil_append] at hrun
    obtain ⟨rfl, rfl, rfl⟩ := hrun
    exact ⟨rfl, rfl, Or.inl ⟨hlen, rfl, rfl, rfl⟩⟩
  simp only [hlen, if_false, hS1] at hrun
  obtain ⟨ga, ea, hrun⟩ := Res.bind_eq_ok _ _ _ hrun
  rw [createOuterRimOuter] at ea
  obtain ⟨notches, -, ea⟩ := Res.bind_eq_ok _ _ _ ea
  obtain ⟨non, enon, ea⟩ := Res.bind_eq_ok _ _ _ ea
  simp only [Bool.false_eq_true, if_false, if_true] at hrun
  obtain ⟨gb, eb, hrun⟩ := Res.bind_eq_ok _ _ _ hrun
  rw [Res.ok.injEq] at eb
  subst eb
  obtain ⟨gc, ec, hrun⟩ := Res.bind_eq_ok _ _ _ hrun
  rw [k3] at ec
  obtain ⟨x1, ex1, ec⟩ := Res.bind_eq_ok _ _ _ ec
  rw [Res.ok.injEq] at ec
  subst ec
  obtain ⟨gd, ed, hrun⟩ := Res.bind_eq_ok _ _ _ hrun
  rw [k4] at ed
  obtain ⟨x2, ex2, ed⟩ := Res.bind_eq_ok _ _ _ ed
  rw [Res.ok.injEq] at ed
  subst ed
  obtain ⟨ge, ee, hrun⟩ := Res.bind_eq_ok _ _ _ hrun
  rw [Res.ok.injEq] at ee
  subst ee
  obtain ⟨oi, eoi, hrun⟩ := Res.bind_eq_ok _ _ _ hrun
  obtain ⟨o1, eo1, eoi⟩ := Res.bind_eq_ok _ _ _ eoi
  obtain ⟨o2, eo2, eoi⟩ := Res.bind_eq_ok _ _ _ eoi
  rw [Res.ok.injEq] at eoi
  subst eoi
  simp only [Res.ok.injEq, Prod.mk.injEq] at hrun
  obtain ⟨rfl, rfl, rfl⟩ := hrun
  simp only [k13, k14, progress_eq] at eo1 eo2 ex1 ex2
  cases nd
  · simp only [Bool.false_eq_true, if_false, Res.ok.injEq] at ea
    subst ea
    refine ⟨by simp [progress_eq], by simp [progress_eq],
      Or.inr ⟨not_le.1 hlen, rfl, non, x1, x2, o1, o2, enon, ex1, ex2, eo1, eo2, ?_, ?_⟩⟩
    · cases sc <;> simp [progress_eq]
    · simp [progress_eq]
  · simp only [if_true, Res.ok.injEq] at ea
    subst ea
    refine ⟨by simp [progress_eq], by simp [progress_eq],
      Or.inr ⟨not_le.1 hlen, rfl, non, x1, x2, o1, o2, enon, ex1, ex2, eo1, eo2, ?_, ?_⟩⟩
    · cases sc <;> simp [progress_eq]
    · simp [progress_eq]

/-- The value a run returns is decided by the regularised input alone. -/
theorem run_flag {K : Type} [LinearOrderedField K] (S : Stages K) (m : Libm K)
    (g : LiteEngine K) (inObj : obj K)
    (lighten nd girder sc aan hs vs : Bool) (b : Bool) (out : obj K) (g1 : LiteEngine K)
    (hrun : run S m g inObj lighten nd girder sc aan hs vs = .ok (b, out, g1)) :
    ∃ inp, regularise m inObj = .ok inp ∧ b = decide (2 < inp.length) := by
  rw [run] at hrun
  obtain ⟨inp, hinp, hrun⟩ := Res.bind_eq_ok _ _ _ hrun
  refine ⟨inp, hinp, ?_⟩
  by_cases hlen : inp.length ≤ 2
  · simp only [hlen, if_true, Res.ok.injEq, Prod.mk.injEq] at hrun
    rw [← hrun.1]
    simp [hlen]
  simp only [hlen, if_false] at hrun
  obtain ⟨ga, -, hrun⟩ := Res.bind_eq_ok _ _ _ hrun
  obtain ⟨gb, -, hrun⟩ := Res.bind_eq_ok _ _ _ hrun
  obtain ⟨gc, -, hrun⟩ := Res.bind_eq_ok _ _ _ hrun
  obtain ⟨gd, -, hrun⟩ := Res.bind_eq_ok _ _ _ hrun
  obtain ⟨ge, -, hrun⟩ := Res.bind_eq_ok _ _ _ hrun
  obtain ⟨oi, -, hrun⟩ := Res.bind_eq_ok _ _ _ hrun
  simp only [Res.ok.injEq, Prod.mk.injEq] at hrun
  rw [← hrun.1]
  simp [not_le.1 hlen]

theorem echoStages_footprint {K : Type} [LinearOrderedField K] (m : Libm K) :
    (echoStages m).SimpleFootprint (fun _ reforo _ => .ok reforo) (fun _ iro => .ok iro)
      (fun _ o => .ok o) (fun o => .ok o) :=
  ⟨fun _ _ => rfl, fun _ _ => rfl, fun _ _ => rfl, fun _ _ => rfl⟩

/-- A run of `echoStages` on the unit square, with lightening and notch
detection, without `girder`. -/
theorem run_echo_unitSquare (m : Libm ℝ) (hm : m.IsReal) (g : LiteEngine ℝ) (sc : Bool) :
    ∃ g1, run (echoStages m) m g unitSquare true true false sc false false false =
        .ok (true, unitSquare ++ unitSquare ++ (if sc then g.construct ++ unitSquare else []),
          g1) ∧
      g1.construct = g.construct ++ unitSquare := by
  have hl : ¬ (unitSquare : obj ℝ).length ≤ 2 := by simp [unitSquare]
  cases sc <;>
    simp [run, echoStages, failingAnchorStages, createOuterRimOuter, Res.bind,
      regularise_unitSquare m hm, notchDetect_unitSquare m hm, removeNotches_unitSquare m hm,
      hl, progress_eq]

end EngineState

/-! ## Claim on the state between runs -/

section EngineStateClaims

/-- C27 (counterexample): `createOuterRimOuter` appends the outer reference to
`construct` at every run, and `run` never empties `construct`.  With
`createOuterRimOuter` as in the source and the other member functions of a run
without `girder` reading and writing what they read and write in the source,
two runs in succession on the unit square with lightening, notch detection
and `showConstruction` give different outputs: the second has four segments
more.  Such member functions exist, and with them both runs return. -/
theorem run_twice_differs :
    ∃ m : Libm ℝ, m.IsReal ∧
      (∀ (S : Stages ℝ) (f : ℝ → obj ℝ → obj ℝ → Res (obj ℝ)) (h fh : ℝ → obj ℝ → Res (obj ℝ))
          (fv : obj ℝ → Res (obj ℝ)),
        S.createOuterRimOuter = createOuterRimOuter m → S.SimpleFootprint f h fh fv →
        ∀ (g g1 g2 : LiteEngine ℝ) (b1 b2 : Bool) (out1 out2 : obj ℝ),
          run S m g unitSquare true true false true false false false = .ok (b1, out1, g1) →
          run S m g1 unitSquare true true false true false false false = .ok (b2, out2, g2) →
          out2.length = out1.length + 4 ∧ out1 ≠ out2) ∧
      ∃ (g1 g2 : LiteEngine ℝ) (out1 out2 : obj ℝ),
        (echoStages m).createOuterRimOuter = createOuterRimOuter m ∧
        run (echoStages m) m blankEngine unitSquare true true false true false false false =
          .ok (true, out1, g1) ∧
        run (echoStages m) m g1 unitSquare true true false true false false false =
          .ok (true, out2, g2) ∧
        out1 ≠ out2 := by
  refine ⟨_, isReal_mk, ?_, ?_⟩
  · intro S f h fh fv hS1 hS2 g g1 g2 b1 b2 out1 out2 h1 h2
    obtain ⟨inp1, hr1, hrs, hsp, hc1⟩ :=
      run_simple_shape S _ f h fh fv hS1 hS2 g _ _ _ _ _ _ _ _ _ h1
    obtain ⟨inp2, hr2, -, -, hc2⟩ :=
      run_simple_shape S _ f h fh fv hS1 hS2 g1 _ _ _ _ _ _ _ _ _ h2
    rw [regularise_unitSquare _ isReal_mk, Res.ok.injEq] at hr1 hr2
    subst hr1 hr2
    have hl : ¬ (unitSquare : obj ℝ).length ≤ 2 := by simp [unitSquare]
    rcases hc1 with ⟨hle, -⟩ | ⟨-, -, non1, x1, x2, o1, o2, en1, ex1, ex2, eo1, eo2, eout1, ec1⟩
    · exact absurd hle hl
    rcases hc2 with ⟨hle, -⟩ | ⟨-, -, non2, y1, y2, p1, p2, en2, ey1, ey2, ep1, ep2, eout2, ec2⟩
    · exact absurd hle hl
    rw [removeNotches_unitSquare _ isReal_mk, Res.ok.injEq] at en1 en2
    subst en1 en2
    simp only [if_true, Bool.false_eq_true, if_false] at ex1 ey1 eo1 ep1 eo2 ep2 eout1 eout2 ec1
    rw [hrs, ex1, Res.ok.injEq] at ey1
    subst ey1
    rw [ex2, Res.ok.injEq] at ey2
    subst ey2
    rw [Res.ok.injEq] at eo1 ep1 eo2 ep2
    subst eo1 ep1 eo2 ep2
    have hlen : out2.length = out1.length + 4 := by
      rw [eout1, eout2, ec1]
      simp [unitSquare]
      omega
    refine ⟨hlen, fun he => ?_⟩
    rw [he] at hlen
    omega
  · obtain ⟨g1, h1, hc1⟩ := run_echo_unitSquare _ isReal_mk (blankEngine : LiteEngine ℝ) true
    obtain ⟨g2, h2, -⟩ := run_echo_unitSquare _ isReal_mk g1 true
    refine ⟨g1, g2, _, _, rfl, h1, h2, ?_⟩
    intro he
    have := congrArg List.length he
    rw [hc1] at this
    simp [unitSquare, blankEngine] at this

/-- C27 (amended): `run` does not reset the members `construct`, `bro` and
`anchors`, so the engine keeps state between calls.  Two runs of the same
engine in succession on the same input with the same flags return the same
value; they give the same output path when lightening is on and `girder` and
`showConstruction` are off, with `createOuterRimOuter` as in the source and
the other member functions of such a run reading and writing what they read
and write in the source. -/
theorem run_twice_same {K : Type} [LinearOrderedField K] (S : Stages K) (m : Libm K)
    (f : K → obj K → obj K → Res (obj K)) (h fh : K → obj K → Res (obj K))
    (fv : obj K → Res (obj K))
    (hS1 : S.createOuterRimOuter = createOuterRimOuter m) (hS2 : S.SimpleFootprint f h fh fv)
    (g g1 g2 : LiteEngine K) (inObj : obj K) (lighten nd girder sc aan hs vs : Bool)
    (b1 b2 : Bool) (out1 out2 : obj K)
    (h1 : run S m g inObj lighten nd girder sc aan hs vs = .ok (b1, out1, g1))
    (h2 : run S m g1 inObj lighten nd girder sc aan hs vs = .ok (b2, out2, g2)) :
    b1 = b2 ∧ (lighten = true → girder = false → sc = false → out1 = out2) := by
  constructor
  · obtain ⟨inp1, hr1, e1⟩ := run_flag S m g inObj _ _ _ _ _ _ _ _ _ _ h1
    obtain ⟨inp2, hr2, e2⟩ := run_flag S m g1 inObj _ _ _ _ _ _ _ _ _ _ h2
    rw [hr1, Res.ok.injEq] at hr2
    subst hr2
    rw [e1, e2]
  · rintro rfl rfl rfl
    obtain ⟨inp1, hr1, hrs, hsp, hc1⟩ :=
      run_simple_shape S _ f h fh fv hS1 hS2 g _ _ _ _ _ _ _ _ _ h1
    obtain ⟨inp2, hr2, -, -, hc2⟩ :=
      run_simple_shape S _ f h fh fv hS1 hS2 g1 _ _ _ _ _ _ _ _ _ h2
    rw [hr1, Res.ok.injEq] at hr2
    subst hr2
    rcases hc1 with ⟨hle, -, eo1, -⟩ |
      ⟨hlt, -, non1, x1, x2, o1, o2, en1, ex1, ex2, eo1, eo2, eout1, -⟩
    · rcases hc2 with ⟨-, -, eo2, -⟩ | ⟨hlt, -⟩
      · rw [eo1, eo2]
      · omega
    · rcases hc2 with ⟨hle, -⟩ |
        ⟨-, -, non2, y1, y2, p1, p2, en2, ey1, ey2, ep1, ep2, eout2, -⟩
      · omega
      rw [en1, Res.ok.injEq] at en2
      subst en2
      rw [hrs, ex1, Res.ok.injEq] at ey1
      subst ey1
      rw [ex2, Res.ok.injEq] at ey2
      subst ey2
      rw [hsp, eo1, Res.ok.injEq] at ep1
      subst ep1
      rw [eo2, Res.ok.injEq] at ep2
      subst ep2
      rw [eout1, eout2]
      simp

/-- Witness of C27 (amended): two runs in succession on the unit square with
lightening and notch detection, without `girder` and `showConstruction`. -/
theorem run_twice_same_witness :
    ∃ (m : Libm ℝ) (g1 g2 : LiteEngine ℝ), m.IsReal ∧
      (echoStages m).createOuterRimOuter = createOuterRimOuter m ∧
      (echoStages m).SimpleFootprint (fun _ reforo _ => .ok reforo) (fun _ iro => .ok iro)
        (fun _ o => .ok o) (fun o => .ok o) ∧
      run (echoStages m) m blankEngine unitSquare true true false false false false false =
        .ok (true, unitSquare ++ unitSquare ++ [], g1) ∧
      run (echoStages m) m g1 unitSquare true true false false false false false =
        .ok (true, unitSquare ++ unitSquare ++ [], g2) ∧
      (true = true ∧ ((true : Bool) = true → (false : Bool) = false → (false : Bool) = false →
        (unitSquare ++ unitSquare ++ [] : obj ℝ) = unitSquare ++ unitSquare ++ [])) := by
  obtain ⟨g1, h1, -⟩ := run_echo_unitSquare _ isReal_mk (blankEngine : LiteEngine ℝ) false
  obtain ⟨g2, h2, -⟩ := run_echo_unitSquare _ isReal_mk g1 false
  exact ⟨_, g1, g2, isReal_mk, rfl, echoStages_footprint _, h1, h2,
    run_twice_same (echoStages _) _ _ _ _ _ rfl (echoStages_footprint _) blankEngine g1 g2
      unitSquare true true false false false false false true true _ _ h1 h2⟩

end EngineStateClaims

/-! ## The redundant-point pass -/

section Redundant
variable {K : Type}

theorem redundant_pass_length :
    ∀ (l : List (offset_line K)) (prv : Option (offset_line K)),
      (redundant_pass prv l).length = l.length := by
  intro l
  induction l with
  | nil => intro prv; cases prv <;> simp [redundant_pass]
  | cons ref rest ih =>
    intro prv
    cases rest with
    | nil => cases prv <;> simp [redundant_pass]
    | cons nxt rest =>
      cases prv with
      | none => simp [redundant_pass, ih]
      | some p => simp [redundant_pass, ih]

end Redundant

section RedundantClaims

end RedundantClaims

/-! ## The crossing pass -/

section Crossing36
variable {K : Type} [LinearOrderedField K]

/-- What a `false` of the inner loop of the crossing pass means for a valid
`ref`: no valid line behind it passes the intersection test. -/
theorem crossed_false (m : Libm K) (ref : offset_line K) :
    ∀ rest : List (offset_line K), crossed m ref rest = false → ref.valid = true →
      ∀ cmp ∈ rest, cmp.valid = true → (ref.ln.lines_intersect m cmp.ln false).1 = false := by
  intro rest
  induction rest with
  | nil => intro _ _ cmp hc; simp at hc
  | cons a rest ih =>
    intro h hv cmp hc hcv
    rw [crossed] at h
    split_ifs at h with hif
    rcases List.mem_cons.mp hc with rfl | hc
    · by_contra hne
      apply hif
      simp only [Bool.not_eq_false] at hne
      simp [hcv, hv, hne]
    · exact ih h hv cmp hc hcv

/-- The crossing pass changes nothing but validity, which it only clears, and
a line it leaves valid was not crossed by the lines behind it. -/
theorem crossing_pass_get (m : Libm K) :
    ∀ (l : List (offset_line K)) (k : Nat) (c : offset_line K),
      (crossing_pass m l)[k]? = some c →
      ∃ c0, l[k]? = some c0 ∧ c.ln = c0.ln ∧ c.radial = c0.radial ∧
        c.src_index = c0.src_index ∧ (c.valid = true → c0.valid = true) ∧
        (c.valid = true → crossed m c0 (l.drop (k + 1)) = false) := by
  intro l
  induction l with
  | nil => intro k c h; simp [crossing_pass] at h
  | cons ref rest ih =>
    intro k c h
    rw [crossing_pass] at h
    cases k with
    | zero =>
      simp only [List.getElem?_cons_zero, Option.some.injEq] at h
      refine ⟨ref, by simp, ?_⟩
      subst h
      split_ifs with hx
      · simp
      · simp only [Bool.not_eq_true] at hx
        simp [hx]
    | succ k =>
      simp only [List.getElem?_cons_succ] at h
      obtain ⟨c0, h1, h2⟩ := ih k c h
      exact ⟨c0, by simpa using h1, by simpa using h2⟩

theorem crossing_pass_length (m : Libm K) :
    ∀ l : List (offset_line K), (crossing_pass m l).length = l.length := by
  intro l
  induction l with
  | nil => simp [crossing_pass]
  | cons ref rest ih => simp [crossing_pass, ih]

/-- Two lines that the crossing pass leaves valid: the earlier one does not
pass the intersection test with the later one. -/
theorem crossing_pass_core (m : Libm K) (osln : List (offset_line K)) (i j : Nat)
    (ci cj : offset_line K) (hij : i < j) (hi : (crossing_pass m osln)[i]? = some ci)
    (hj : (crossing_pass m osln)[j]? = some cj) (hvi : ci.valid = true)
    (hvj : cj.valid = true) :
    (ci.ln.lines_intersect m cj.ln false).1 = false := by
  obtain ⟨a, ha, hal, -, -, hav, hac⟩ := crossing_pass_get m osln i ci hi
  obtain ⟨b, hb, hbl, -, -, hbv, -⟩ := crossing_pass_get m osln j cj hj
  have hmem : b ∈ osln.drop (i + 1) := by
    rw [List.mem_iff_getElem?]
    refine ⟨j - (i + 1), ?_⟩
    rw [List.getElem?_drop]
    rw [show i + 1 + (j - (i + 1)) = j by omega]
    exact hb
  rw [hal, hbl]
  exact crossed_false m a _ (hac hvi) (hav hvi) b hmem (hbv hvj)

end Crossing36

section CrossingPassClaims

/-- C36.  After the crossing pass of `trace_at_offset` two candidates that
are both still valid do not intersect, by the test the pass makes
(`lines_intersect` without extrapolation, called on the earlier offsetting
line with the later one); the pass leaves the lines themselves as they were.
When both lines have non-zero length and the cross product of their
directions is zero or at least `SMALL_NUM` in magnitude, they have no point in
common. -/
theorem crossing_pass_no_valid_crossing {K : Type} [LinearOrderedField K] (m : Libm K)
    (osln : List (offset_line K)) (i j : Nat) (ci cj : offset_line K) (hij : i < j)
    (hi : (crossing_pass m osln)[i]? = some ci) (hj : (crossing_pass m osln)[j]? = some cj)
    (hvi : ci.valid = true) (hvj : cj.valid = true) :
    (ci.ln.lines_intersect m cj.ln false).1 = false ∧
      (osln[i]?.map offset_line.ln = some ci.ln ∧ osln[j]?.map offset_line.ln = some cj.ln) ∧
      (NonZero ci.ln → NonZero cj.ln →
        (perpprod ci.ln.V cj.ln.V = 0 ∨ SMALL_NUM ≤ |perpprod ci.ln.V cj.ln.V|) →
          ¬ SegmentsMeet ci.ln cj.ln) := by
  have hc := crossing_pass_core m osln i j ci cj hij hi hj hvi hvj
  refine ⟨hc, ⟨?_, ?_⟩, ?_⟩
  · obtain ⟨a, ha, hal, -⟩ := crossing_pass_get m osln i ci hi
    simp [ha, hal]
  · obtain ⟨b, hb, hbl, -⟩ := crossing_pass_get m osln j cj hj
    simp [hb, hbl]
  · intro h1 h2 hp hmeet
    have := (intersect_iff_meet_core m ci.ln cj.ln h1 h2 hp).1.mpr hmeet
    rw [hc] at this
    exact Bool.false_ne_true this

theorem crossing_pass_no_valid_crossing_witness :
    ∃ m : Libm ℝ, m.IsReal ∧
      ((⟨⟨0, 0⟩, ⟨0, 1⟩⟩ : line ℝ).lines_intersect m ⟨⟨1, 0⟩, ⟨0, 1⟩⟩ false).1 = false ∧
      ((apartCands : List (offset_line ℝ))[0]?.map offset_line.ln = some ⟨⟨0, 0⟩, ⟨0, 1⟩⟩ ∧
        (apartCands : List (offset_line ℝ))[1]?.map offset_line.ln = some ⟨⟨1, 0⟩, ⟨0, 1⟩⟩) ∧
      (NonZero (⟨⟨0, 0⟩, ⟨0, 1⟩⟩ : line ℝ) → NonZero (⟨⟨1, 0⟩, ⟨0, 1⟩⟩ : line ℝ) →
        (perpprod (⟨0, 1⟩ : vector_t ℝ) ⟨0, 1⟩ = 0 ∨
          SMALL_NUM ≤ |perpprod (⟨0, 1⟩ : vector_t ℝ) ⟨0, 1⟩|) →
          ¬ SegmentsMeet (⟨⟨0, 0⟩, ⟨0, 1⟩⟩ : line ℝ) ⟨⟨1, 0⟩, ⟨0, 1⟩⟩) :=
  ⟨_, isReal_mk,
    crossing_pass_no_valid_crossing _ apartCands 0 1 ⟨⟨⟨0, 0⟩, ⟨0, 1⟩⟩, true, false, 0⟩
      ⟨⟨⟨1, 0⟩, ⟨0, 1⟩⟩, true, false, 0⟩ (by decide)
      (by
        simp only [apartCands, crossing_pass, crossed, line.lines_intersect, perpprod,
          perpprodRaw, SMALL_NUM, SNAP_LEN]
        norm_num)
      (by simp [apartCands, crossing_pass, crossed]) rfl rfl⟩

end CrossingPassClaims

/-! ## All pairs of brace lines -/

section CrossingAllPlain
variable {K : Type}

theorem onlyCleared_refl (a : List (anchor_t K)) : OnlyCleared a a := by
  intro k b
  cases h : brace_at a k b with
  | none => simp [h]
  | some br => exact ⟨br, rfl, rfl, id⟩

theorem onlyCleared_trans {a b c : List (anchor_t K)} (h1 : OnlyCleared a b)
    (h2 : OnlyCleared b c) : OnlyCleared a c := by
  intro k j
  have e1 := h1 k j
  have e2 := h2 k j
  cases h : brace_at a k j with
  | none =>
    simp only [h] at e1
    simp only [e1] at e2
    simpa using e2
  | some br =>
    simp only [h] at e1
    obtain ⟨br1, hb1, hl1, hv1⟩ := e1
    simp only [hb1] at e2
    obtain ⟨br2, hb2, hl2, hv2⟩ := e2
    exact ⟨br2, hb2, hl2.trans hl1, fun hv => hv1 (hv2 hv)⟩


theorem shaped_of_onlyCleared {n : Nat} {a b : List (anchor_t K)} (h : OnlyCleared a b)
    (hs : BracesShaped n a) : BracesShaped n b := by
  intro k j hk hj
  obtain ⟨br, hbr, hl⟩ := hs k j hk hj
  have e := h k j
  simp only [hbr] at e
  obtain ⟨br', h1, h2, -⟩ := e
  exact ⟨br', h1, by rw [h2]; exact hl⟩

theorem mem_brace_edges (n k b l : Nat) :
    (k, b, l) ∈ brace_edges n ↔ k < n ∧ b < 2 ∧ l < 2 := by
  simp only [brace_edges, List.mem_flatMap, List.mem_range, List.mem_cons, Prod.mk.injEq,
    List.mem_singleton, List.not_mem_nil, or_false]
  constructor
  · rintro ⟨a, ha, h⟩
    rcases h with ⟨rfl, rfl, rfl⟩ | ⟨rfl, rfl, rfl⟩ | ⟨rfl, rfl, rfl⟩ | ⟨rfl, rfl, rfl⟩ <;>
      exact ⟨ha, by decide, by decide⟩
  · rintro ⟨hk, hb, hl⟩
    refine ⟨k, hk, ?_⟩
    have : b = 0 ∨ b = 1 := by omega
    have : l = 0 ∨ l = 1 := by omega
    omega

end CrossingAllPlain

section CrossingAll
variable {K : Type} [LinearOrderedField K]

theorem onlyCleared_invalidate (a : List (anchor_t K)) (k b : Nat) :
    OnlyCleared a (invalidate_brace a k b) := by
  intro k1 b1
  by_cases hkb : (k1, b1) = (k, b)
  · simp only [Prod.mk.injEq] at hkb
    obtain ⟨rfl, rfl⟩ := hkb
    cases h : brace_at a k1 b1 with
    | none =>
      simp only []
      simp only [brace_at] at h ⊢
      cases hk : a[k1]? with
      | none => simp [invalidate_brace, hk]
      | some an =>
        simp only [hk] at h
        simp [invalidate_brace, hk, h]
    | some br =>
      exact ⟨_, brace_at_invalidate_self a k1 b1 br h, rfl, by simp⟩
  · rw [brace_at_invalidate_other a k b k1 b1 hkb]
    exact onlyCleared_refl a k1 b1

theorem noValidCrossing_of_onlyCleared (m : Libm K) {a b : List (anchor_t K)}
    (h : OnlyCleared a b) {ko bo lo ki bi li : Nat}
    (hn : NoValidCrossing m a ko bo lo ki bi li) : NoValidCrossing m b ko bo lo ki bi li := by
  intro braceO braceI edgeO edgeI hO hI hvO hvI heO heI
  have eO := h ko bo
  have eI := h ki bi
  cases hO0 : brace_at a ko bo with
  | none => simp only [hO0] at eO; rw [eO] at hO; exact absurd hO (by simp)
  | some bO =>
    cases hI0 : brace_at a ki bi with
    | none => simp only [hI0] at eI; rw [eI] at hI; exact absurd hI (by simp)
    | some bI =>
      simp only [hO0] at eO
      simp only [hI0] at eI
      obtain ⟨bO', h1, h2, h3⟩ := eO
      obtain ⟨bI', h4, h5, h6⟩ := eI
      rw [h1] at hO
      rw [h4] at hI
      simp only [Option.some.injEq] at hO hI
      subst hO hI
      exact hn bO bI edgeO edgeI hO0 hI0 (h3 hvO) (h6 hvI) (h2 ▸ heO) (h5 ▸ heI)

/-- One step of the loops: it returns, clears validity at most, and leaves the
pair it looked at without a crossing of two valid braces. -/
theorem crossing_step_spec (m : Libm K) (n : Nat) (anchors : List (anchor_t K))
    (hs : BracesShaped n anchors) (ko bo lo ki bi li : Nat) (hko : ko < n) (hbo : bo < 2)
    (hlo : lo < 2) (hki : ki < n) (hbi : bi < 2) (hli : li < 2) :
    ∃ r, crossing_step m anchors ko bo lo ki bi li = .ok r ∧ OnlyCleared anchors r ∧
      ((ko ≠ ki ∨ bo ≠ bi ∨ lo ≠ li) → NoValidCrossing m r ko bo lo ki bi li) := by
  obtain ⟨bO, hO, hOl⟩ := hs ko bo hko hbo
  obtain ⟨bI, hI, hIl⟩ := hs ki bi hki hbi
  obtain ⟨eO, heO⟩ : ∃ e, bO.brLine[lo]? = some e :=
    ⟨bO.brLine[lo], List.getElem?_eq_getElem (by omega)⟩
  obtain ⟨eI, heI⟩ : ∃ e, bI.brLine[li]? = some e :=
    ⟨bI.brLine[li], List.getElem?_eq_getElem (by omega)⟩
  by_cases hd : ko ≠ ki ∨ bo ≠ bi ∨ lo ≠ li
  · simp only [crossing_step, if_pos hd, hO, hI]
    by_cases hv : (bO.isValid && bI.isValid) = true
    · simp only [hv, if_true, heO, heI]
      by_cases hx : ((shrink_ends eO.brLn).lines_intersect m (shrink_ends eI.brLn) false).1 = true
      · simp only [hx, if_true]
        split_ifs with hlen
        · refine ⟨_, rfl, onlyCleared_invalidate _ _ _, fun _ => ?_⟩
          intro braceO braceI edgeO edgeI h1 _ h3 _ _ _
          rw [brace_at_invalidate_self anchors ko bo bO hO] at h1
          simp only [Option.some.injEq] at h1
          subst h1
          simp at h3
        · refine ⟨_, rfl, onlyCleared_invalidate _ _ _, fun _ => ?_⟩
          intro braceO braceI edgeO edgeI _ h2 _ h4 _ _
          rw [brace_at_invalidate_self anchors ki bi bI hI] at h2
          simp only [Option.some.injEq] at h2
          subst h2
          simp at h4
      · simp only [hx, if_false, Bool.false_eq_true]
        refine ⟨_, rfl, onlyCleared_refl _, fun _ => ?_⟩
        intro braceO braceI edgeO edgeI h1 h2 _ _ h5 h6
        rw [hO] at h1
        rw [hI] at h2
        simp only [Option.some.injEq] at h1 h2
        subst h1 h2
        rw [heO] at h5
        rw [heI] at h6
        simp only [Option.some.injEq] at h5 h6
        subst h5 h6
        simpa using hx
    · simp only [hv, if_false, Bool.false_eq_true]
      refine ⟨_, rfl, onlyCleared_refl _, fun _ => ?_⟩
      intro braceO braceI edgeO edgeI h1 h2 h3 h4 _ _
      rw [hO] at h1
      rw [hI] at h2
      simp only [Option.some.injEq] at h1 h2
      subst h1 h2
      simp [h3, h4] at hv
  · simp only [crossing_step, if_neg hd]
    exact ⟨_, rfl, onlyCleared_refl _, fun h => absurd h hd⟩

/-- The loops over a list of pairs of triples in range: they return, clear
validity at most, and leave every pair of the list without a crossing of two
valid braces. -/
theorem crossing_loop_spec (m : Libm K) (n : Nat) :
    ∀ (pairs : List ((Nat × Nat × Nat) × (Nat × Nat × Nat))) (anchors : List (anchor_t K)),
      BracesShaped n anchors →
      (∀ p ∈ pairs, (p.1.1 < n ∧ p.1.2.1 < 2 ∧ p.1.2.2 < 2) ∧
        (p.2.1 < n ∧ p.2.2.1 < 2 ∧ p.2.2.2 < 2)) →
      ∃ r, invalidateCrossingBraces_loop m pairs anchors = .ok r ∧ OnlyCleared anchors r ∧
        ∀ p ∈ pairs, (p.1.1 ≠ p.2.1 ∨ p.1.2.1 ≠ p.2.2.1 ∨ p.1.2.2 ≠ p.2.2.2) →
          NoValidCrossing m r p.1.1 p.1.2.1 p.1.2.2 p.2.1 p.2.2.1 p.2.2.2 := by
  intro pairs
  induction pairs with
  | nil =>
    intro anchors _ _
    exact ⟨anchors, rfl, onlyCleared_refl _, fun p hp => by simp at hp⟩
  | cons p rest ih =>
    intro anchors hs hr
    obtain ⟨⟨h1, h2, h3⟩, h4, h5, h6⟩ := hr p (by simp)
    obtain ⟨a1, ha1, hc1, hn1⟩ :=
      crossing_step_spec m n anchors hs p.1.1 p.1.2.1 p.1.2.2 p.2.1 p.2.2.1 p.2.2.2
        h1 h2 h3 h4 h5 h6
    obtain ⟨r, hr1, hc2, hn2⟩ := ih a1 (shaped_of_onlyCleared hc1 hs)
      (fun q hq => hr q (List.mem_cons_of_mem _ hq))
    refine ⟨r, ?_, onlyCleared_trans hc1 hc2, ?_⟩
    · obtain ⟨o, i⟩ := p
      simp only [invalidateCrossingBraces_loop, ha1, Res.bind, hr1]
    · intro q hq hd
      rcases List.mem_cons.mp hq with rfl | hq
      · exact noValidCrossing_of_onlyCleared m hc2 (hn1 hd)
      · exact hn2 q hq hd

/-- `invalidateCrossingBraces` on well-shaped anchors: it returns, clears
validity at most, and every two different lines of braces left valid do not
cross. -/
theorem invalidateCrossingBraces_core (m : Libm K) (g : LiteEngine K)
    (hs : BracesShaped g.nAnchors.toNat g.anchors) :
    ∃ g', invalidateCrossingBraces m g = .ok g' ∧ OnlyCleared g.anchors g'.anchors ∧
      ∀ ko bo lo ki bi li, ko < g.nAnchors.toNat → bo < 2 → lo < 2 →
        ki < g.nAnchors.toNat → bi < 2 → li < 2 → (ko ≠ ki ∨ bo ≠ bi ∨ lo ≠ li) →
        NoValidCrossing m g'.anchors ko bo lo ki bi li := by
  obtain ⟨r, hr, hc, hn⟩ := crossing_loop_spec m g.nAnchors.toNat
    (List.product (brace_edges g.nAnchors.toNat) (brace_edges g.nAnchors.toNat)) g.anchors hs
    (by
      intro p hp
      obtain ⟨⟨k1, b1, l1⟩, ⟨k2, b2, l2⟩⟩ := p
      rw [List.pair_mem_product] at hp
      exact ⟨(mem_brace_edges _ _ _ _).mp hp.1, (mem_brace_edges _ _ _ _).mp hp.2⟩)
  refine ⟨{ g with anchors := r }, ?_, hc, ?_⟩
  · simp only [invalidateCrossingBraces, hr, Res.bind]
  · intro ko bo lo ki bi li h1 h2 h3 h4 h5 h6 hd
    exact hn ((ko, bo, lo), (ki, bi, li))
      (by
        rw [List.pair_mem_product]
        exact ⟨(mem_brace_edges _ _ _ _).mpr ⟨h1, h2, h3⟩,
          (mem_brace_edges _ _ _ _).mpr ⟨h4, h5, h6⟩⟩)
      hd

end CrossingAll

section CrossingAllClaims

/-- C37.  With `nAnchors` anchors in the vector (each with its two braces of
two lines) `invalidateCrossingBraces` returns; it changes nothing but the
validity of braces, which it only clears; and afterwards, for every two
different lines of braces (of the same brace, of the two braces of an anchor
or of different anchors) that are still valid, the test of the function,
`lines_intersect` on the copies shortened by 0.1% at each end, is false. -/
theorem invalidateCrossingBraces_no_crossing {K : Type} [LinearOrderedField K] (m : Libm K)
    (g : LiteEngine K) (hs : BracesShaped g.nAnchors.toNat g.anchors) :
    ∃ g', invalidateCrossingBraces m g = .ok g' ∧ OnlyCleared g.anchors g'.anchors ∧
      ∀ ko bo lo ki bi li, ko < g.nAnchors.toNat → bo < 2 → lo < 2 →
        ki < g.nAnchors.toNat → bi < 2 → li < 2 → (ko ≠ ki ∨ bo ≠ bi ∨ lo ≠ li) →
        ∀ braceO braceI edgeO edgeI, brace_at g'.anchors ko bo = some braceO →
          brace_at g'.anchors ki bi = some braceI →
          braceO.isValid = true → braceI.isValid = true →
          braceO.brLine[lo]? = some edgeO → braceI.brLine[li]? = some edgeI →
          ((shrink_ends edgeO.brLn).lines_intersect m (shrink_ends edgeI.brLn) false).1 =
            false := by
  obtain ⟨g', h1, h2, h3⟩ := invalidateCrossingBraces_core m g hs
  exact ⟨g', h1, h2, fun ko bo lo ki bi li a b c d e f hd => h3 ko bo lo ki bi li a b c d e f hd⟩

theorem invalidateCrossingBraces_no_crossing_witness :
    ∃ m : Libm ℝ, m.IsReal ∧
      BracesShaped (oneAnchorEngine (crossedAnchor : anchor_t ℝ)).nAnchors.toNat
        (oneAnchorEngine (crossedAnchor : anchor_t ℝ)).anchors ∧
      ∃ g', invalidateCrossingBraces m (oneAnchorEngine (crossedAnchor : anchor_t ℝ)) = .ok g' ∧
        OnlyCleared (oneAnchorEngine (crossedAnchor : anchor_t ℝ)).anchors g'.anchors ∧
        ∀ ko bo lo ki bi li,
          ko < (oneAnchorEngine (crossedAnchor : anchor_t ℝ)).nAnchors.toNat → bo < 2 → lo < 2 →
          ki < (oneAnchorEngine (crossedAnchor : anchor_t ℝ)).nAnchors.toNat → bi < 2 → li < 2 →
          (ko ≠ ki ∨ bo ≠ bi ∨ lo ≠ li) →
          ∀ braceO braceI edgeO edgeI, brace_at g'.anchors ko bo = some braceO →
            brace_at g'.anchors ki bi = some braceI →
            braceO.isValid = true → braceI.isValid = true →
            braceO.brLine[lo]? = some edgeO → braceI.brLine[li]? = some edgeI →
            ((shrink_ends edgeO.brLn).lines_intersect m (shrink_ends edgeI.brLn) false).1 =
              false := by
  have hs : BracesShaped (oneAnchorEngine (crossedAnchor : anchor_t ℝ)).nAnchors.toNat
      (oneAnchorEngine (crossedAnchor : anchor_t ℝ)).anchors := by
    intro k b hk hb
    have hk0 : k = 0 := by
      simp only [oneAnchorEngine, Int.toNat_one] at hk
      omega
    subst hk0
    have hb01 : b = 0 ∨ b = 1 := by omega
    rcases hb01 with rfl | rfl <;>
      simp [brace_at, oneAnchorEngine, crossedAnchor, braceWith]
  exact ⟨_, isReal_mk, hs, invalidateCrossingBraces_no_crossing _ _ hs⟩

end CrossingAllClaims

/-! ## The extension loop of `obj::line_intersect` -/

section ExtensionLoop
variable {K : Type} [LinearOrderedField K]

theorem expand_loop_succ (ext : direction_e → K) (n : Nat) (l2 : line K) :
    expand_loop ext (n + 1) l2 =
      if extension_done ext (l2.get_pt (-1)) (l2.get_pt 2) then
        some (line.ofPoints (l2.get_pt (-1)) (l2.get_pt 2))
      else expand_loop ext n (line.ofPoints (l2.get_pt (-1)) (l2.get_pt 2)) := by
  rw [expand_loop]
  rfl

/-- One round of the loop: the start point moves back by the direction
vector, which is tripled. -/
theorem expand_round_eq (l2 : line K) :
    line.ofPoints (l2.get_pt (-1)) (l2.get_pt 2) =
      ⟨⟨l2.S0.x - l2.V.dx, l2.S0.y - l2.V.dy⟩, ⟨3 * l2.V.dx, 3 * l2.V.dy⟩⟩ := by
  simp only [line.ofPoints, line.get_pt, line.mk.injEq, coord_t.mk.injEq, vector_t.mk.injEq]
  refine ⟨⟨by ring, by ring⟩, by ring, by ring⟩

/-- More rounds allowed do not change a result. -/
theorem expand_loop_mono (ext : direction_e → K) :
    ∀ (n : Nat) (l2 r : line K), expand_loop ext n l2 = some r →
      ∀ n', n ≤ n' → expand_loop ext n' l2 = some r := by
  intro n
  induction n with
  | zero => intro l2 r h; simp [expand_loop] at h
  | succ n ih =>
    intro l2 r h n' hn
    obtain ⟨k, rfl⟩ : ∃ k, n' = k + 1 := ⟨n' - 1, by omega⟩
    rw [expand_loop_succ] at h ⊢
    split_ifs at h ⊢ with hc
    · exact h
    · exact ih _ r h k (by omega)

/-- If the test holds after `k + 1` rounds, the loop ends within `k + 1`
rounds. -/
theorem expand_loop_some_of_test (ext : direction_e → K) :
    ∀ (k : Nat) (l2 : line K),
      extension_done ext (l2.get_pt (-(((3 : K) ^ (k + 1) - 1) / 2)))
        (l2.get_pt ((((3 : K) ^ (k + 1) + 1) / 2))) →
      ∀ fuel, k < fuel → ∃ r, expand_loop ext fuel l2 = some r := by
  intro k
  induction k with
  | zero =>
    intro l2 h fuel hf
    obtain ⟨f, rfl⟩ : ∃ f, fuel = f + 1 := ⟨fuel - 1, by omega⟩
    rw [expand_loop_succ]
    have e1 : (-(((3 : K) ^ (0 + 1) - 1) / 2)) = -1 := by norm_num
    have e2 : ((((3 : K) ^ (0 + 1) + 1) / 2)) = 2 := by norm_num
    rw [e1, e2] at h
    rw [if_pos h]
    exact ⟨_, rfl⟩
  | succ k ih =>
    intro l2 h fuel hf
    obtain ⟨f, rfl⟩ : ∃ f, fuel = f + 1 := ⟨fuel - 1, by omega⟩
    rw [expand_loop_succ]
    split_ifs with hc
    · exact ⟨_, rfl⟩
    · apply ih _ _ f (by omega)
      rw [expand_round_eq]
      have p1 : (⟨⟨l2.S0.x - l2.V.dx, l2.S0.y - l2.V.dy⟩, ⟨3 * l2.V.dx, 3 * l2.V.dy⟩⟩ :
          line K).get_pt (-(((3 : K) ^ (k + 1) - 1) / 2)) =
          l2.get_pt (-(((3 : K) ^ (k + 1 + 1) - 1) / 2)) := by
        simp only [line.get_pt, coord_t.mk.injEq]
        constructor <;> ring
      have p2 : (⟨⟨l2.S0.x - l2.V.dx, l2.S0.y - l2.V.dy⟩, ⟨3 * l2.V.dx, 3 * l2.V.dy⟩⟩ :
          line K).get_pt ((((3 : K) ^ (k + 1) + 1) / 2)) =
          l2.get_pt ((((3 : K) ^ (k + 1 + 1) + 1) / 2)) := by
        simp only [line.get_pt, coord_t.mk.injEq]
        constructor <;> ring
      rw [p1, p2]
      exact h

/-- The line the loop returns lies on the infinite line through `l2`, runs
the same way, contains `l2`, and passes the test of the loop. -/
theorem expand_loop_result (ext : direction_e → K) :
    ∀ (n : Nat) (l2 r : line K), expand_loop ext n l2 = some r →
      ∃ a c : K, 1 ≤ a ∧ a + 2 ≤ c ∧ r.S0 = l2.get_pt (-a) ∧
        r.V = ⟨c * l2.V.dx, c * l2.V.dy⟩ ∧ extension_done ext r.get_S0 r.get_S1 := by
  intro n
  induction n with
  | zero => intro l2 r h; simp [expand_loop] at h
  | succ n ih =>
    intro l2 r h
    rw [expand_loop_succ] at h
    split_ifs at h with hc
    · simp only [Option.some.injEq] at h
      subst h
      refine ⟨1, 3, le_refl _, by norm_num, ?_, ?_, ?_⟩
      · rw [expand_round_eq]
        simp only [line.get_pt, coord_t.mk.injEq]
        constructor <;> ring
      · rw [expand_round_eq]
      · have hs1 : (line.ofPoints (l2.get_pt (-1)) (l2.get_pt 2)).get_S1 = l2.get_pt 2 := by
          simp only [line.get_S1, line.ofPoints, line.get_pt, T_S1, coord_t.mk.injEq]
          constructor <;> ring
        rw [hs1]
        exact hc
    · obtain ⟨a, c, ha, hac, h1, h2, h3⟩ := ih _ r h
      rw [expand_round_eq] at h1 h2
      refine ⟨1 + 3 * a, 3 * c, by linarith, by linarith, ?_, ?_, h3⟩
      · rw [h1]
        simp only [line.get_pt, coord_t.mk.injEq]
        constructor <;> ring
      · rw [h2]
        simp only [vector_t.mk.injEq]
        constructor <;> ring

end ExtensionLoop

section ExtensionReal

theorem three_pow_ge (n : Nat) : (2 * (n : ℝ) + 1) ≤ 3 ^ n := by
  induction n with
  | zero => norm_num
  | succ n ih =>
    rw [pow_succ]
    push_cast
    nlinarith

/-- Over the reals the loop ends for every line of non-zero length. -/
theorem expand_loop_terminates (ext : direction_e → ℝ) (l2 : line ℝ) (h : NonZero l2) :
    ∃ fuel r, ∀ fuel', fuel ≤ fuel' → expand_loop ext fuel' l2 = some r := by
  suffices hk : ∃ k : Nat, extension_done ext (l2.get_pt (-(((3 : ℝ) ^ (k + 1) - 1) / 2)))
      (l2.get_pt ((((3 : ℝ) ^ (k + 1) + 1) / 2))) by
    obtain ⟨k, hk⟩ := hk
    obtain ⟨r, hr⟩ := expand_loop_some_of_test ext k l2 hk (k + 1) (by omega)
    exact ⟨k + 1, r, fun fuel' hf => expand_loop_mono ext _ l2 r hr fuel' hf⟩
  -- a coordinate direction in which the line moves
  have key : ∀ (s v lo hi : ℝ), v ≠ 0 → ∃ k : Nat,
      (s + -(((3 : ℝ) ^ (k + 1) - 1) / 2) * v < lo ∧ s + (((3 : ℝ) ^ (k + 1) + 1) / 2) * v > hi) ∨
      (s + (((3 : ℝ) ^ (k + 1) + 1) / 2) * v < lo ∧ s + -(((3 : ℝ) ^ (k + 1) - 1) / 2) * v > hi) := by
    intro s v lo hi hv
    obtain ⟨N, hN⟩ := exists_nat_gt ((|s - lo| + |hi - s|) / |v|)
    have hvp : 0 < |v| := abs_pos.mpr hv
    have hN2 : |s - lo| + |hi - s| < N * |v| := by
      rwa [div_lt_iff₀ hvp] at hN
    have h3 := three_pow_ge (N + 1)
    push_cast at h3
    have ha : (N : ℝ) + 1 ≤ ((3 : ℝ) ^ (N + 1) - 1) / 2 := by linarith
    have hb : (N : ℝ) + 1 ≤ ((3 : ℝ) ^ (N + 1) + 1) / 2 := by linarith
    have h1 := le_abs_self (s - lo)
    have h2 := le_abs_self (hi - s)
    have h1' := abs_nonneg (s - lo)
    have h2' := abs_nonneg (hi - s)
    have hNn : (0 : ℝ) ≤ N := Nat.cast_nonneg N
    refine ⟨N, ?_⟩
    rcases lt_or_gt_of_ne hv with hneg | hpos
    · right
      rw [abs_of_neg hneg] at hN2 hvp
      constructor
      · nlinarith
      · nlinarith
    · left
      rw [abs_of_pos hpos] at hN2 hvp
      constructor
      · nlinarith
      · nlinarith
  rcases h with hx | hy
  · obtain ⟨k, hk⟩ := key l2.S0.x l2.V.dx (ext .LEFT) (ext .RIGHT) hx
    exact ⟨k, Or.inl (by simpa only [line.get_pt] using hk)⟩
  · obtain ⟨k, hk⟩ := key l2.S0.y l2.V.dy (ext .DOWN) (ext .UP) hy
    exact ⟨k, Or.inr (by simpa only [line.get_pt] using hk)⟩

end ExtensionReal

section ExtensionClaims

end ExtensionClaims

/-! ## `obj::line_intersect` with extrapolation -/

section Extrapolation
variable {K : Type} [LinearOrderedField K]

/-- The extremities enclose the end points of all elements. -/
theorem find_extremity_inBox (HUGE : K) (o : obj K) (l : line K) (hl : l ∈ o) :
    InBox (fun d => (o.find_extremity HUGE d).2.1) l.get_S0 ∧
      InBox (fun d => (o.find_extremity HUGE d).2.1) l.get_S1 := by
  obtain ⟨h1, h2, h3, h4⟩ := find_extremity_encloses HUGE o l hl
  cases o with
  | nil => simp at hl
  | cons a rest =>
    have hu := fun s => (find_extremity_loop_hi .RIGHT (Or.inr rfl) (a :: rest) 0 s).2 l hl
    have hd := fun s => (find_extremity_loop_lo .LEFT (Or.inr rfl) (a :: rest) 0 s).2 l hl
    simp only [reduceCtorEq, or_self, if_false] at hu hd
    simp only [InBox]
    refine ⟨⟨?_, ?_, h1, h3⟩, ?_, ?_, h2, h4⟩
    · simp only [obj.find_extremity]; exact (hd _).1
    · simp only [obj.find_extremity]; exact (hu _).1
    · simp only [obj.find_extremity]; exact (hd _).2
    · simp only [obj.find_extremity]; exact (hu _).2

/-- A point of a segment whose ends are in the box is in the box. -/
theorem inBox_of_onSegment (ext : direction_e → K) (l : line K) (p : coord_t K)
    (h0 : InBox ext l.get_S0) (h1 : InBox ext l.get_S1) (hp : OnSegment l p) : InBox ext p := by
  obtain ⟨t, ht0, ht1, rfl⟩ := hp
  simp only [InBox, line.get_S0, line.get_S1, line.get_pt, T_S1, one_mul] at *
  obtain ⟨a1, a2, a3, a4⟩ := h0
  obtain ⟨b1, b2, b3, b4⟩ := h1
  refine ⟨?_, ?_, ?_, ?_⟩ <;> nlinarith

/-- A line that passes the test of the extension loop contains every point of
its infinite line that lies in the box, and its ends are not in the box. -/
theorem extended_contains (ext : direction_e → K) (r : line K)
    (h : extension_done ext r.get_S0 r.get_S1) :
    (∀ u : K, InBox ext (r.get_pt u) → 0 ≤ u ∧ u ≤ 1) ∧
      ¬ InBox ext r.get_S0 ∧ ¬ InBox ext r.get_S1 := by
  simp only [extension_done, line.get_S0, line.get_S1, line.get_pt, T_S1, one_mul, InBox] at *
  refine ⟨?_, ?_, ?_⟩
  · rintro u ⟨h1, h2, h3, h4⟩
    rcases h with (⟨a, b⟩ | ⟨a, b⟩) | (⟨a, b⟩ | ⟨a, b⟩)
    · have hv : 0 < r.V.dx := by linarith
      constructor
      · by_contra hc
        push_neg at hc
        nlinarith
      · by_contra hc
        push_neg at hc
        nlinarith
    · have hv : r.V.dx < 0 := by linarith
      constructor
      · by_contra hc
        push_neg at hc
        nlinarith
      · by_contra hc
        push_neg at hc
        nlinarith
    · have hv : 0 < r.V.dy := by linarith
      constructor
      · by_contra hc
        push_neg at hc
        nlinarith
      · by_contra hc
        push_neg at hc
        nlinarith
    · have hv : r.V.dy < 0 := by linarith
      constructor
      · by_contra hc
        push_neg at hc
        nlinarith
      · by_contra hc
        push_neg at hc
        nlinarith
  · rintro ⟨h1, h2, h3, h4⟩
    rcases h with (⟨a, b⟩ | ⟨a, b⟩) | (⟨a, b⟩ | ⟨a, b⟩) <;> linarith
  · rintro ⟨h1, h2, h3, h4⟩
    rcases h with (⟨a, b⟩ | ⟨a, b⟩) | (⟨a, b⟩ | ⟨a, b⟩) <;> linarith

/-- The line the extension loop returns has the same infinite line as `l2`. -/
theorem onLine_extended (l2 r : line K) (a c : K) (hc : 0 < c) (hS0 : r.S0 = l2.get_pt (-a))
    (hV : r.V = ⟨c * l2.V.dx, c * l2.V.dy⟩) (p : coord_t K) :
    (OnLine l2 p → ∃ u, r.get_pt u = p) ∧ (∀ u, r.get_pt u = p → OnLine l2 p) := by
  constructor
  · rintro ⟨t, rfl⟩
    refine ⟨(t + a) / c, ?_⟩
    simp only [line.get_pt, hS0, hV, coord_t.mk.injEq]
    constructor <;> field_simp <;> ring
  · rintro u rfl
    refine ⟨-a + u * c, ?_⟩
    simp only [line.get_pt, hS0, hV, coord_t.mk.injEq]
    constructor <;> ring

/-- What `line_intersect` with extrapolation reports, given the line `l2e`
that the extension loop returns. -/
theorem line_intersect_extrapolated_char (m : Libm K) (HUGE : K) (o : obj K) (l2 l2e : line K)
    (fuel : Nat) (hnz : NonZero l2)
    (he : expand_loop (fun d => (o.find_extremity HUGE d).2.1) fuel l2 = some l2e) :
    ∃ r, o.line_intersect_list m HUGE fuel l2 true = .ok r ∧
      (¬ InBox (fun d => (o.find_extremity HUGE d).2.1) l2e.get_S0 ∧
        ¬ InBox (fun d => (o.find_extremity HUGE d).2.1) l2e.get_S1) ∧
      (∀ p, OnLine l2 p → InBox (fun d => (o.find_extremity HUGE d).2.1) p → OnSegment l2e p) ∧
      (∀ p, OnSegment l2e p → OnLine l2 p) ∧
      (∀ idx ln, o[idx]? = some ln → NonZero ln →
        (perpprod ln.V l2e.V = 0 ∨ SMALL_NUM ≤ |perpprod ln.V l2e.V|) →
        ((∃ h ∈ r.2, h.ln = idx) ↔ ∃ p, OnSegment ln p ∧ OnLine l2 p)) := by
  obtain ⟨a, c, ha, hac, hS0, hV, hdone⟩ := expand_loop_result _ fuel l2 l2e he
  have hc : 0 < c := by linarith
  obtain ⟨hin, hout0, hout1⟩ := extended_contains _ l2e hdone
  have hcont : ∀ p, OnLine l2 p → InBox (fun d => (o.find_extremity HUGE d).2.1) p →
      OnSegment l2e p := by
    intro p hp hbox
    obtain ⟨u, hu⟩ := (onLine_extended l2 l2e a c hc hS0 hV p).1 hp
    subst hu
    obtain ⟨h0, h1⟩ := hin u hbox
    exact ⟨u, h0, h1, rfl⟩
  have hline : ∀ p, OnSegment l2e p → OnLine l2 p := by
    rintro p ⟨u, -, -, hu⟩
    exact (onLine_extended l2 l2e a c hc hS0 hV p).2 u hu
  have hnze : NonZero l2e := by
    rcases hnz with h | h
    · left; rw [hV]; exact mul_ne_zero hc.ne' h
    · right; rw [hV]; exact mul_ne_zero hc.ne' h
  have hres : o.line_intersect_list m HUGE fuel l2 true =
      .ok ((collect_loop m l2e o 0 [] false).2,
        (collect_loop m l2e o 0 [] false).1.insertionSort (fun a b => a.T ≤ b.T)) := by
    simp only [obj.line_intersect_list, if_true, he]
  refine ⟨_, hres, ⟨hout0, hout1⟩, hcont, hline, ?_⟩
  intro idx ln hidx hln hperp
  obtain ⟨ca, -, cc⟩ := collect_loop_spec m l2e o 0 [] false
  have hperm := List.perm_insertionSort (fun a b : obj_line_intersect K => a.T ≤ b.T)
    (collect_loop m l2e o 0 [] false).1
  have hiff := (intersect_iff_meet_core m ln l2e hln hnze hperp).1
  have hmem : ln ∈ o := List.mem_iff_getElem?.mpr ⟨idx, hidx⟩
  constructor
  · rintro ⟨h, hh, hhl⟩
    have hh2 := hperm.mem_iff.mp hh
    rcases ca h hh2 with h0 | ⟨i, l, hil, hi, hx, -, -⟩
    · simp at h0
    · have : i = idx := by omega
      subst this
      rw [hidx] at hil
      simp only [Option.some.injEq] at hil
      subst hil
      obtain ⟨p, hp1, hp2⟩ := hiff.mp hx
      exact ⟨p, hp1, hline p hp2⟩
  · rintro ⟨p, hp1, hp2⟩
    obtain ⟨b0, b1⟩ := find_extremity_inBox HUGE o ln hmem
    have hbox := inBox_of_onSegment _ ln p b0 b1 hp1
    have hx := hiff.mpr ⟨p, hp1, hcont p hp2 hbox⟩
    obtain ⟨h, hh, hhl, -⟩ := cc idx ln hidx hx
    exact ⟨h, hperm.mem_iff.mpr hh, by omega⟩

end Extrapolation

section ShallowQuery

end ShallowQuery

section ExtrapolationClaims

end ExtrapolationClaims

/-! ## The merge loop of `openBraceGaps` -/

section GapMerge
variable {K : Type} [LinearOrderedField K]

/-- A single gap is its own successor: unless one of the three tests passes
it, the loop erases the gap it is looking at. -/
theorem merge_scan_single (ob : obj K) (g : gap_t K) (removed : Nat)
    (h : gap_passes ob g g = .ok false) : merge_scan ob [g] 0 removed = .undef := by
  rw [merge_scan]
  simp [h]

/-- A gap from an element to a later element, not across the middle of the
object, does not pass the tests against itself. -/
theorem gap_passes_self (ob : obj K) (g : gap_t K) (h01 : g.l0 < g.l1)
    (hh : ¬ ((g.l1 : Int) > (ob.length : Int) / 2 ∧ (g.l0 : Int) < (ob.length : Int) / 2)) :
    gap_passes ob g g = .ok false := by
  have h1 : ¬ ((g.l0 : Int) > (g.l1 : Int)) := by omega
  have h2 : ¬ ((g.l0 : Int) = (g.l1 : Int)) := by omega
  simp only [gap_passes, if_neg hh, if_neg h1, if_neg h2]

end GapMerge

section GapMergeClaims

/-- C38.  The merge loop of `openBraceGaps` erases the gap it is examining
when there is one gap only: for the engine `oneGapEngine`, whose single valid
brace opens the gap from element 0 to element 1 of the inner rim (the unit
square), the list `gaps` has that one gap, its successor wraps round to
itself, none of the three tests passes it, and `gaps.erase(n)` erases the gap
that `g` points to before the loop uses `g` again. -/
theorem openBraceGaps_erases_examined_gap :
    collect_gaps true (oneGapEngine : LiteEngine ℚ).anchors
        (List.range (oneGapEngine : LiteEngine ℚ).nAnchors.toNat) =
      .ok [⟨0, ⟨0, 1 / 2⟩, 1, ⟨1 / 2, 1⟩⟩] ∧
    gap_passes (oneGapEngine : LiteEngine ℚ).iro ⟨0, ⟨0, 1 / 2⟩, 1, ⟨1 / 2, 1⟩⟩
        ⟨0, ⟨0, 1 / 2⟩, 1, ⟨1 / 2, 1⟩⟩ = .ok false ∧
    openBraceGaps_merged true (oneGapEngine : LiteEngine ℚ) = .undef := by
  have hc : collect_gaps true (oneGapEngine : LiteEngine ℚ).anchors
      (List.range (oneGapEngine : LiteEngine ℚ).nAnchors.toNat) =
      .ok [⟨0, ⟨0, 1 / 2⟩, 1, ⟨1 / 2, 1⟩⟩] := by
    simp [oneGapEngine, collect_gaps, brace_gap, brLineAt, blankBrLine, Res.bind, List.range,
      List.range.loop]
  have hp : gap_passes (oneGapEngine : LiteEngine ℚ).iro ⟨0, ⟨0, 1 / 2⟩, 1, ⟨1 / 2, 1⟩⟩
      ⟨0, ⟨0, 1 / 2⟩, 1, ⟨1 / 2, 1⟩⟩ = .ok false := by
    apply gap_passes_self
    · simp
    · simp [oneGapEngine, unitSquare]
  refine ⟨hc, hp, ?_⟩
  simp only [openBraceGaps_merged, hc, Res.bind, if_true, List.length_singleton,
    merge_gaps_loop, merge_scan_single _ _ _ hp]

end GapMergeClaims

/-! ## `obj::simplify` -/

section Simplify
variable {K : Type} [LinearOrderedField K]

theorem chained_append (m : Libm K) :
    ∀ (mid : List (line K)) (st ca : line K), Chained m st mid →
      distTwoPoints m ((st :: mid).getLast (List.cons_ne_nil _ _)).get_S1 ca.get_S0 ≤ SNAP_LEN →
      Chained m st (mid ++ [ca]) := by
  intro mid
  induction mid with
  | nil => intro st ca _ h; exact ⟨by simpa using h, trivial⟩
  | cons x mid ih =>
    intro st ca hc h
    refine ⟨hc.1, ih x ca hc.2 ?_⟩
    simpa [List.getLast_cons_cons] using h

/-- The inner loop keeps the elements in order, keeps the run chained, and the
last line it accepted passed the test of `get_max_line_distance` on the
whole run. -/
theorem simplify_extend_spec (m : Libm K) (error : K) (st : line K) :
    ∀ (rest mid : List (line K)), Chained m st mid →
      (mid = [] ∨ get_max_line_distance m (st :: mid) (merged_line st mid) < error) →
      (simplify_extend m error st mid rest).1 ++ (simplify_extend m error st mid rest).2 =
          mid ++ rest ∧
        Chained m st (simplify_extend m error st mid rest).1 ∧
        ((simplify_extend m error st mid rest).1 = [] ∨
          get_max_line_distance m (st :: (simplify_extend m error st mid rest).1)
            (merged_line st (simplify_extend m error st mid rest).1) < error) ∧
        (simplify_extend m error st mid rest).2.length ≤ rest.length := by
  intro rest
  induction rest with
  | nil => intro mid hc hp; simp [simplify_extend, hc, hp]
  | cons ca rest ih =>
    intro mid hc hp
    rw [simplify_extend]
    simp only
    split_ifs with h1 h2
    · exact ⟨rfl, hc, hp, le_refl _⟩
    · exact ⟨rfl, hc, hp, le_refl _⟩
    · have hc2 : Chained m st (mid ++ [ca]) := chained_append m mid st ca hc (not_lt.mp h1)
      have hp2 : mid ++ [ca] = [] ∨ get_max_line_distance m (st :: (mid ++ [ca]))
          (merged_line st (mid ++ [ca])) < error := by
        right
        have e : merged_line st (mid ++ [ca]) = line.ofPoints st.get_S0 ca.get_S1 := by
          simp [merged_line, List.getLast_cons]
        rw [e]
        exact not_le.mp h2
      obtain ⟨a1, a2, a3, a4⟩ := ih (mid ++ [ca]) hc2 hp2
      refine ⟨by simpa using a1, a2, a3, ?_⟩
      simp only [List.length_cons]
      omega

/-- The outer loop: the elements from `st` on fall into runs, each replaced
by its merged line. -/
theorem simplify_loop_spec (m : Libm K) (error : K) :
    ∀ (n : Nat) (rest done : List (line K)), rest.length ≤ n →
      ∃ runs : List (line K × List (line K)),
        (runs.map fun r => r.1 :: r.2).flatten = rest ∧
        simplify_loop m error n done rest = done ++ runs.map (fun r => merged_line r.1 r.2) ∧
        ∀ r ∈ runs, Chained m r.1 r.2 ∧
          (r.2 = [] ∨ get_max_line_distance m (r.1 :: r.2) (merged_line r.1 r.2) < error) := by
  intro n
  induction n with
  | zero =>
    intro rest done h
    have : rest = [] := List.length_eq_zero.mp (by omega)
    subst this
    exact ⟨[], by simp, by simp [simplify_loop], by simp⟩
  | succ n ih =>
    intro rest done h
    cases rest with
    | nil => exact ⟨[], by simp, by simp [simplify_loop], by simp⟩
    | cons st rest =>
      obtain ⟨a1, a2, a3, a4⟩ := simplify_extend_spec m error st rest [] trivial (Or.inl rfl)
      obtain ⟨runs, b1, b2, b3⟩ := ih (simplify_extend m error st [] rest).2
        (done ++ [merged_line st (simplify_extend m error st [] rest).1])
        (by simp only [List.length_cons] at h; omega)
      refine ⟨(st, (simplify_extend m error st [] rest).1) :: runs, ?_, ?_, ?_⟩
      · simp only [List.map_cons, List.flatten_cons, b1, List.cons_append]
        simpa using a1
      · rw [simplify_loop]
        rw [show line.ofPoints st.get_S0
            ((st :: (simplify_extend m error st [] rest).1).getLast (List.cons_ne_nil _ _)).get_S1 =
            merged_line st (simplify_extend m error st [] rest).1 from rfl, b2]
        simp
      · intro r hr
        rcases List.mem_cons.mp hr with rfl | hr
        · exact ⟨a2, a3⟩
        · exact b3 r hr

/-- The value of `get_max_line_distance` for a line of non-zero length is at
least the distance of every end point. -/
theorem get_max_line_distance_ge (m : Libm K) (ln : line K) (hnz : NonZero ln) :
    ∀ (segs : List (line K)) (seg : line K), seg ∈ segs →
      ln.distance_to_point m seg.get_S0 ≤ get_max_line_distance m segs ln ∧
      ln.distance_to_point m seg.get_S1 ≤ get_max_line_distance m segs ln := by
  have hne : ¬ ((ln.V.dx * ln.V.dx) + (ln.V.dy * ln.V.dy) = 0) := by
    intro h
    have h1 := mul_self_nonneg ln.V.dx
    have h2 := mul_self_nonneg ln.V.dy
    rcases hnz with hx | hy
    · exact hx (mul_self_eq_zero.mp (by linarith))
    · exact hy (mul_self_eq_zero.mp (by linarith))
  have key : ∀ (segs : List (line K)) (err0 : K),
      err0 ≤ segs.foldl (fun err seg =>
        if ln.distance_to_point m seg.get_S1 >
            (if ln.distance_to_point m seg.get_S0 > err then ln.distance_to_point m seg.get_S0
              else err) then
          ln.distance_to_point m seg.get_S1
        else if ln.distance_to_point m seg.get_S0 > err then ln.distance_to_point m seg.get_S0
          else err) err0 ∧
      ∀ seg ∈ segs,
        ln.distance_to_point m seg.get_S0 ≤ segs.foldl (fun err seg =>
          if ln.distance_to_point m seg.get_S1 >
              (if ln.distance_to_point m seg.get_S0 > err then ln.distance_to_point m seg.get_S0
                else err) then
            ln.distance_to_point m seg.get_S1
          else if ln.distance_to_point m seg.get_S0 > err then ln.distance_to_point m seg.get_S0
            else err) err0 ∧
        ln.distance_to_point m seg.get_S1 ≤ segs.foldl (fun err seg =>
          if ln.distance_to_point m seg.get_S1 >
              (if ln.distance_to_point m seg.get_S0 > err then ln.distance_to_point m seg.get_S0
                else err) then
            ln.distance_to_point m seg.get_S1
          else if ln.distance_to_point m seg.get_S0 > err then ln.distance_to_point m seg.get_S0
            else err) err0 := by
    intro segs
    induction segs with
    | nil => intro err0; simp
    | cons a segs ih =>
      intro err0
      simp only [List.foldl_cons]
      obtain ⟨i1, i2⟩ := ih (if ln.distance_to_point m a.get_S1 >
          (if ln.distance_to_point m a.get_S0 > err0 then ln.distance_to_point m a.get_S0
            else err0) then ln.distance_to_point m a.get_S1
        else if ln.distance_to_point m a.get_S0 > err0 then ln.distance_to_point m a.get_S0
          else err0)
      have hstep : err0 ≤ (if ln.distance_to_point m a.get_S1 >
            (if ln.distance_to_point m a.get_S0 > err0 then ln.distance_to_point m a.get_S0
              else err0) then ln.distance_to_point m a.get_S1
          else if ln.distance_to_point m a.get_S0 > err0 then ln.distance_to_point m a.get_S0
            else err0) ∧
          ln.distance_to_point m a.get_S0 ≤ (if ln.distance_to_point m a.get_S1 >
            (if ln.distance_to_point m a.get_S0 > err0 then ln.distance_to_point m a.get_S0
              else err0) then ln.distance_to_point m a.get_S1
          else if ln.distance_to_point m a.get_S0 > err0 then ln.distance_to_point m a.get_S0
            else err0) ∧
          ln.distance_to_point m a.get_S1 ≤ (if ln.distance_to_point m a.get_S1 >
            (if ln.distance_to_point m a.get_S0 > err0 then ln.distance_to_point m a.get_S0
              else err0) then ln.distance_to_point m a.get_S1
          else if ln.distance_to_point m a.get_S0 > err0 then ln.distance_to_point m a.get_S0
            else err0) := by
        split_ifs <;> refine ⟨?_, ?_, ?_⟩ <;> linarith
      refine ⟨le_trans hstep.1 i1, ?_⟩
      intro seg hseg
      rcases List.mem_cons.mp hseg with rfl | hseg
      · exact ⟨le_trans hstep.2.1 i1, le_trans hstep.2.2 i1⟩
      · exact i2 seg hseg
  intro segs seg hseg
  simp only [get_max_line_distance, if_neg hne]
  exact (key segs 0).2 seg hseg

end Simplify

section SimplifyReal

theorem merged_line_ends {K : Type} [LinearOrderedField K] (st : line K) (mid : List (line K)) :
    (merged_line st mid).get_S0 = st.get_S0 ∧
      (merged_line st mid).get_S1 =
        ((st :: mid).getLast (List.cons_ne_nil _ _)).get_S1 := by
  simp only [merged_line, line.ofPoints, line.get_S0, line.get_S1, line.get_pt, T_S1, one_mul,
    coord_t.mk.injEq]
  refine ⟨trivial, ?_, ?_⟩ <;> ring

/-- With the real square root the two ends of a line are at distance 0 from
the line drawn between them. -/
theorem distance_to_own_ends (m : Libm ℝ) (hm : m.IsReal) (st : line ℝ) :
    (merged_line st []).distance_to_point m st.get_S0 = 0 ∧
      (merged_line st []).distance_to_point m st.get_S1 = 0 := by
  obtain ⟨⟨x, y⟩, ⟨a, b⟩⟩ := st
  simp only [merged_line, List.getLast_singleton, line.ofPoints, line.get_S0, line.get_S1,
    line.get_pt, T_S1, one_mul, line.distance_to_point, distTwoPoints, hm.1]
  have e1 : x + a - x = a := by ring
  have e2 : y + b - y = b := by ring
  simp only [e1, e2, sub_self, zero_mul, add_zero, zero_div, lt_irrefl, if_false]
  constructor
  · rw [if_neg (by norm_num)]
    simp
  · by_cases h : a * a + b * b = 0
    · have ha : a = 0 := by nlinarith [mul_self_nonneg a, mul_self_nonneg b]
      have hb : b = 0 := by nlinarith [mul_self_nonneg a, mul_self_nonneg b]
      subst ha hb
      simp
    · rw [div_self h]
      simp

/-- What `simplify(error)` does, for a positive `error` and the real square
root: the path falls into runs of chained elements, each replaced by the line
from its start point to its end point, and the count returned is the number
of elements that went.  Every vertex of a run is nearer than `error` to the
line that replaced the run, if that line has non-zero length or the run is a
single element. -/
theorem simplify_runs (m : Libm ℝ) (hm : m.IsReal) (e : obj ℝ) (error : ℝ) (herr : 0 < error) :
    ∃ runs : List (line ℝ × List (line ℝ)),
      (runs.map fun r => r.1 :: r.2).flatten = e ∧
      (e.simplify m error).1 = runs.map (fun r => merged_line r.1 r.2) ∧
      (e.simplify m error).2 = e.length - runs.length ∧
      ∀ r ∈ runs, Chained m r.1 r.2 ∧
        (merged_line r.1 r.2).get_S0 = r.1.get_S0 ∧
        (merged_line r.1 r.2).get_S1 =
          ((r.1 :: r.2).getLast (List.cons_ne_nil _ _)).get_S1 ∧
        (NonZero (merged_line r.1 r.2) ∨ r.2 = [] → ∀ seg ∈ r.1 :: r.2,
          (merged_line r.1 r.2).distance_to_point m seg.get_S0 < error ∧
          (merged_line r.1 r.2).distance_to_point m seg.get_S1 < error) := by
  obtain ⟨runs, h1, h2, h3⟩ := simplify_loop_spec m error e.length e [] (le_refl _)
  refine ⟨runs, h1, ?_, ?_, ?_⟩
  · simp only [obj.simplify, h2, List.nil_append]
  · simp only [obj.simplify, h2, List.nil_append, List.length_map]
  · intro r hr
    obtain ⟨c1, c2⟩ := h3 r hr
    obtain ⟨e1, e2⟩ := merged_line_ends r.1 r.2
    refine ⟨c1, e1, e2, ?_⟩
    intro hcase seg hseg
    rcases c2 with hnil | hmax
    · rw [hnil] at hseg ⊢
      simp only [List.mem_singleton] at hseg
      subst hseg
      obtain ⟨d0, d1⟩ := distance_to_own_ends m hm r.1
      rw [d0, d1]
      exact ⟨herr, herr⟩
    · rcases hcase with hnz | hnil
      · obtain ⟨g0, g1⟩ := get_max_line_distance_ge m _ hnz (r.1 :: r.2) seg hseg
        exact ⟨lt_of_le_of_lt g0 hmax, lt_of_le_of_lt g1 hmax⟩
      · rw [hnil] at hseg ⊢
        simp only [List.mem_singleton] at hseg
        subst hseg
        obtain ⟨d0, d1⟩ := distance_to_own_ends m hm r.1
        rw [d0, d1]
        exact ⟨herr, herr⟩

end SimplifyReal

section SimplifyClaims

/-- C31.  `simplify(0.01)` on the path from `(0,0)` to `(1,0)` and back: the
simplified line tested for the two elements runs from `(0,0)` to `(0,0)`, its
length is zero, `get_max_line_distance` returns `0.0` for it, and the two
elements are replaced by that line of length zero; the count returned is 1.
The vertex `(1,0)` of the path is at distance 1 from the line that replaced
the elements, more than the allowable error. -/
theorem simplify_out_and_back :
    ∃ m : Libm ℝ, m.IsReal ∧
      (outAndBack : obj ℝ).simplify m (1 / 100) = ([⟨⟨0, 0⟩, ⟨0, 0⟩⟩], 1) ∧
      (∃ l ∈ (outAndBack : obj ℝ), l.get_S1 = ⟨1, 0⟩) ∧
      distTwoPoints m ⟨1, 0⟩ (⟨⟨0, 0⟩, ⟨0, 0⟩⟩ : line ℝ).get_S0 = 1 ∧
      (⟨⟨0, 0⟩, ⟨0, 0⟩⟩ : line ℝ).get_S1 = (⟨⟨0, 0⟩, ⟨0, 0⟩⟩ : line ℝ).get_S0 := by
  refine ⟨_, isReal_mk, ?_, ⟨_, List.mem_cons_self _ _, ?_⟩, ?_, ?_⟩
  · simp only [obj.simplify, outAndBack, List.length_cons, List.length_nil, simplify_loop,
      simplify_extend, List.getLast_singleton, distTwoPoints, line.get_S1, line.get_S0,
      line.get_pt, T_S1, get_max_line_distance, line.ofPoints, SNAP_LEN]
    norm_num
    have hl : simplify_loop (Libm.mk Real.sqrt (fun y x => Complex.arg ⟨x, y⟩) Real.cos Real.sin
        Real.pi) (1 / 100) 1 [(⟨⟨0, 0⟩, ⟨0, 0⟩⟩ : line ℝ)] [] = [⟨⟨0, 0⟩, ⟨0, 0⟩⟩] := by
      rw [simplify_loop]
    rw [hl]
    simp
  · simp [line.get_S1, line.get_pt, T_S1]
  · simp [distTwoPoints, line.get_S0]
  · simp [line.get_S1, line.get_S0, line.get_pt, T_S1]

end SimplifyClaims

/-! ## The rotation of the reference line (`generateAnchorPoints`) -/

section Rotation
variable {K : Type} [LinearOrderedField K]

/-- The loop from `k` on, when every call of `line_intersect` from `k` to 60
returns: it fails exactly when every one of these calls finds fewer than two
intersections; else it stops at the first that finds two. -/
theorem cRef_search_char (m : Libm K) (HUGE : K) (fuel : Nat) (iro : obj K) (cRefOrig : line K) :
    ∀ (d k : Nat), k + d = 60 →
      (∀ j, k ≤ j → j ≤ 60 → ∃ r, iro.line_intersect_list m HUGE fuel
        (cRefOrig.rotate m cRefOrig.get_S0 (TO_RADS m (rAngDeg j))) true = .ok r) →
      ∃ cRef isects found, cRef_search m HUGE fuel iro cRefOrig k = .ok (cRef, isects, found) ∧
        (found = false ↔ ∀ j, k ≤ j → j ≤ 60 → ∃ r, iro.line_intersect_list m HUGE fuel
          (cRefOrig.rotate m cRefOrig.get_S0 (TO_RADS m (rAngDeg j))) true = .ok r ∧
            r.2.length < 2) ∧
        (found = false → cRef = cRefOrig) ∧
        (found = true → ∃ j, k ≤ j ∧ j ≤ 60 ∧
          cRef = cRefOrig.rotate m cRefOrig.get_S0 (TO_RADS m (rAngDeg j)) ∧
          2 ≤ isects.length ∧
          (∃ b, iro.line_intersect_list m HUGE fuel cRef true = .ok (b, isects)) ∧
          ∀ i, k ≤ i → i < j → ∃ r, iro.line_intersect_list m HUGE fuel
            (cRefOrig.rotate m cRefOrig.get_S0 (TO_RADS m (rAngDeg i))) true = .ok r ∧
              r.2.length < 2) := by
  intro d
  induction d with
  | zero =>
    intro k hk hret
    have hk60 : k = 60 := by omega
    subst hk60
    obtain ⟨r, hr⟩ := hret 60 (le_refl _) (le_refl _)
    rw [cRef_search]
    simp only [hr]
    by_cases h2 : r.2.length ≥ 2
    · simp only [h2, if_true]
      refine ⟨_, _, _, rfl, ?_, ?_, ?_⟩
      · simp only [Bool.true_eq_false, false_iff, not_forall]
        refine ⟨60, le_refl _, le_refl _, ?_⟩
        rintro ⟨r', hr', hlt⟩
        rw [hr] at hr'
        simp only [Res.ok.injEq] at hr'
        subst hr'
        omega
      · intro h; simp at h
      · intro _
        exact ⟨60, le_refl _, le_refl _, rfl, h2, ⟨r.1, hr⟩, fun i h1 h2 => by omega⟩
    · simp only [h2, if_false, maxRefLineRotationDegs, ge_iff_le, le_refl, dite_true]
      refine ⟨_, _, _, rfl, ?_, ?_, ?_⟩
      · simp only [true_iff]
        intro j hj1 hj2
        have : j = 60 := by omega
        subst this
        exact ⟨r, hr, by omega⟩
      · intro _; rfl
      · intro h; simp at h
  | succ d ih =>
    intro k hk hret
    obtain ⟨r, hr⟩ := hret k (le_refl _) (by omega)
    rw [cRef_search]
    simp only [hr]
    by_cases h2 : r.2.length ≥ 2
    · simp only [h2, if_true]
      refine ⟨_, _, _, rfl, ?_, ?_, ?_⟩
      · simp only [Bool.true_eq_false, false_iff, not_forall]
        refine ⟨k, le_refl _, by omega, ?_⟩
        rintro ⟨r', hr', hlt⟩
        rw [hr] at hr'
        simp only [Res.ok.injEq] at hr'
        subst hr'
        omega
      · intro h; simp at h
      · intro _
        exact ⟨k, le_refl _, by omega, rfl, h2, ⟨r.1, hr⟩, fun i h1 h2 => by omega⟩
    · have hk2 : ¬ k ≥ maxRefLineRotationDegs := by
        simp only [maxRefLineRotationDegs]; omega
      simp only [h2, if_false, hk2, dite_false]
      obtain ⟨cRef, isects, found, h1, h3, h4, h5⟩ := ih (k + 1) (by omega)
        (fun j hj1 hj2 => hret j (by omega) hj2)
      refine ⟨cRef, isects, found, h1, ?_, h4, ?_⟩
      · rw [h3]
        constructor
        · intro h j hj1 hj2
          rcases Nat.eq_or_lt_of_le hj1 with rfl | hlt
          · exact ⟨r, hr, by omega⟩
          · exact h j hlt hj2
        · intro h j hj1 hj2
          exact h j (by omega) hj2
      · intro hf
        obtain ⟨j, hj1, hj2, hj3, hj4, hj5, hj6⟩ := h5 hf
        refine ⟨j, by omega, hj2, hj3, hj4, hj5, ?_⟩
        intro i hi1 hi2
        rcases Nat.eq_or_lt_of_le hi1 with rfl | hlt
        · exact ⟨r, hr, by omega⟩
        · exact hj6 i hlt hi2

end Rotation

section RotationReal

/-- With the real cosine and sine a rotated line of non-zero length has
non-zero length. -/
theorem rotate_nonZero (m : Libm ℝ) (hm : m.IsReal) (l : line ℝ) (rads : ℝ) (h : NonZero l) :
    NonZero (l.rotate m l.get_S0 rads) := by
  obtain ⟨⟨x, y⟩, ⟨a, b⟩⟩ := l
  simp only [NonZero] at h
  have hcs := Real.cos_sq_add_sin_sq rads
  simp only [NonZero, line.rotate, line.ofPoints, rotatePoint, line.get_S0, line.get_S1,
    line.get_pt, T_S1, one_mul, hm.2.2.1, hm.2.2.2.1]
  by_contra hc
  push_neg at hc
  obtain ⟨h1, h2⟩ := hc
  have e1 : a * Real.cos rads - b * Real.sin rads = 0 := by linarith
  have e2 : a * Real.sin rads + b * Real.cos rads = 0 := by linarith
  have e3 : a * a + b * b = 0 := by
    have : (a * a + b * b) * (Real.cos rads ^ 2 + Real.sin rads ^ 2) =
        (a * Real.cos rads - b * Real.sin rads) ^ 2 +
          (a * Real.sin rads + b * Real.cos rads) ^ 2 := by ring
    rw [hcs, e1, e2] at this
    linarith
  have ha : a = 0 := by nlinarith [mul_self_nonneg a, mul_self_nonneg b]
  have hb : b = 0 := by nlinarith [mul_self_nonneg a, mul_self_nonneg b]
  rcases h with h | h
  · exact h ha
  · exact h hb

/-- With enough rounds allowed `line_intersect` with extrapolation returns for
a query of non-zero length. -/
theorem line_intersect_list_returns (m : Libm ℝ) (HUGE : ℝ) (o : obj ℝ) (l2 : line ℝ)
    (h : NonZero l2) :
    ∃ fuel0 r, ∀ fuel, fuel0 ≤ fuel → o.line_intersect_list m HUGE fuel l2 true = .ok r := by
  obtain ⟨fuel0, l2e, hf⟩ :=
    expand_loop_terminates (fun d => (o.find_extremity HUGE d).2.1) l2 h
  refine ⟨fuel0, ((collect_loop m l2e o 0 [] false).2,
    (collect_loop m l2e o 0 [] false).1.insertionSort (fun a b => a.T ≤ b.T)),
    fun fuel hfuel => ?_⟩
  simp only [obj.line_intersect_list, if_true, hf fuel hfuel]

/-- One bound on the rounds serves the calls of `line_intersect` for all
rotations up to `n`. -/
theorem rotations_return (m : Libm ℝ) (hm : m.IsReal) (HUGE : ℝ) (iro : obj ℝ)
    (cRefOrig : line ℝ) (h : NonZero cRefOrig) :
    ∀ n : Nat, ∃ fuel0, ∀ fuel, fuel0 ≤ fuel → ∀ j, j ≤ n →
      ∃ r, iro.line_intersect_list m HUGE fuel
        (cRefOrig.rotate m cRefOrig.get_S0 (TO_RADS m (rAngDeg j))) true = .ok r := by
  intro n
  induction n with
  | zero =>
    obtain ⟨f, r, hf⟩ := line_intersect_list_returns m HUGE iro _
      (rotate_nonZero m hm cRefOrig (TO_RADS m (rAngDeg 0)) h)
    refine ⟨f, fun fuel hfuel j hj => ?_⟩
    have : j = 0 := by omega
    subst this
    exact ⟨r, hf fuel hfuel⟩
  | succ n ih =>
    obtain ⟨f1, h1⟩ := ih
    obtain ⟨f2, r, h2⟩ := line_intersect_list_returns m HUGE iro _
      (rotate_nonZero m hm cRefOrig (TO_RADS m (rAngDeg (n + 1))) h)
    refine ⟨max f1 f2, fun fuel hfuel j hj => ?_⟩
    rcases Nat.eq_or_lt_of_le hj with rfl | hlt
    · exact ⟨r, h2 fuel (le_trans (le_max_right _ _) hfuel)⟩
    · exact h1 fuel (le_trans (le_max_left _ _) hfuel) j (by omega)

end RotationReal

section RotationClaims

/-- C34, amended.  For a reference line `cRefOrig` of non-zero length (over
the reals) and enough rounds allowed to the extension loop, the search loop
of `generateAnchorPoints` returns.  It reports failure (the code sets
`ok = false`, and `cRef` is `cRefOrig` again) exactly when each of the 61
calls of `line_intersect`, for `offsetAngle` from 0 to 60 with the line
rotated by `+offsetAngle` degrees when `offsetAngle` is odd and by
`-offsetAngle` degrees when it is even, finds fewer than two intersections;
otherwise `cRef` is the first of these rotations that finds two or more. -/
theorem cRef_search_spec (m : Libm ℝ) (hm : m.IsReal) (HUGE : ℝ) (iro : obj ℝ)
    (cRefOrig : line ℝ) (h : NonZero cRefOrig) :
    ∃ fuel0, ∀ fuel, fuel0 ≤ fuel →
      ∃ cRef isects found, cRef_search m HUGE fuel iro cRefOrig 0 = .ok (cRef, isects, found) ∧
        (found = false ↔ ∀ k : Nat, k ≤ 60 → ∃ r, iro.line_intersect_list m HUGE fuel
          (cRefOrig.rotate m cRefOrig.get_S0
            (TO_RADS m (if k % 2 ≠ 0 then (k : ℝ) else -(k : ℝ)))) true = .ok r ∧
            r.2.length < 2) ∧
        (found = false → cRef = cRefOrig) ∧
        (found = true → ∃ k : Nat, k ≤ 60 ∧
          cRef = cRefOrig.rotate m cRefOrig.get_S0
            (TO_RADS m (if k % 2 ≠ 0 then (k : ℝ) else -(k : ℝ))) ∧
          2 ≤ isects.length ∧
          (∃ b, iro.line_intersect_list m HUGE fuel cRef true = .ok (b, isects)) ∧
          ∀ i : Nat, i < k → ∃ r, iro.line_intersect_list m HUGE fuel
            (cRefOrig.rotate m cRefOrig.get_S0
              (TO_RADS m (if i % 2 ≠ 0 then (i : ℝ) else -(i : ℝ)))) true = .ok r ∧
              r.2.length < 2) := by
  obtain ⟨fuel0, hf⟩ := rotations_return m hm HUGE iro cRefOrig h 60
  refine ⟨fuel0, fun fuel hfuel => ?_⟩
  obtain ⟨cRef, isects, found, h1, h2, h3, h4⟩ :=
    cRef_search_char m HUGE fuel iro cRefOrig 60 0 (by norm_num)
      (fun j _ hj => hf fuel hfuel j hj)
  refine ⟨cRef, isects, found, h1, ?_, h3, ?_⟩
  · rw [h2]
    constructor
    · intro hh k hk
      exact hh k (Nat.zero_le _) hk
    · intro hh j _ hj
      exact hh j hj
  · intro hfound
    obtain ⟨j, _, hj2, hj3, hj4, hj5, hj6⟩ := h4 hfound
    exact ⟨j, hj2, hj3, hj4, hj5, fun i hi => hj6 i (Nat.zero_le _) hi⟩

theorem cRef_search_spec_witness :
    ∃ m : Libm ℝ, m.IsReal ∧ NonZero (⟨⟨0, 0⟩, ⟨1, 0⟩⟩ : line ℝ) ∧ ∀ HUGE : ℝ,
      ∃ fuel0, ∀ fuel, fuel0 ≤ fuel →
        ∃ cRef isects found,
          cRef_search m HUGE fuel (unitSquare : obj ℝ) ⟨⟨0, 0⟩, ⟨1, 0⟩⟩ 0 =
            .ok (cRef, isects, found) ∧
          (found = false ↔ ∀ k : Nat, k ≤ 60 →
            ∃ r, (unitSquare : obj ℝ).line_intersect_list m HUGE fuel
              ((⟨⟨0, 0⟩, ⟨1, 0⟩⟩ : line ℝ).rotate m (⟨⟨0, 0⟩, ⟨1, 0⟩⟩ : line ℝ).get_S0
                (TO_RADS m (if k % 2 ≠ 0 then (k : ℝ) else -(k : ℝ)))) true = .ok r ∧
              r.2.length < 2) ∧
          (found = false → cRef = ⟨⟨0, 0⟩, ⟨1, 0⟩⟩) ∧
          (found = true → ∃ k : Nat, k ≤ 60 ∧
            cRef = (⟨⟨0, 0⟩, ⟨1, 0⟩⟩ : line ℝ).rotate m (⟨⟨0, 0⟩, ⟨1, 0⟩⟩ : line ℝ).get_S0
              (TO_RADS m (if k % 2 ≠ 0 then (k : ℝ) else -(k : ℝ))) ∧
            2 ≤ isects.length ∧
            (∃ b, (unitSquare : obj ℝ).line_intersect_list m HUGE fuel cRef true =
              .ok (b, isects)) ∧
            ∀ i : Nat, i < k → ∃ r, (unitSquare : obj ℝ).line_intersect_list m HUGE fuel
              ((⟨⟨0, 0⟩, ⟨1, 0⟩⟩ : line ℝ).rotate m (⟨⟨0, 0⟩, ⟨1, 0⟩⟩ : line ℝ).get_S0
                (TO_RADS m (if i % 2 ≠ 0 then (i : ℝ) else -(i : ℝ)))) true = .ok r ∧
              r.2.length < 2) :=
  ⟨_, isReal_mk, Or.inl (by norm_num), fun HUGE =>
    cRef_search_spec _ isReal_mk HUGE unitSquare ⟨⟨0, 0⟩, ⟨1, 0⟩⟩ (Or.inl (by norm_num))⟩

end RotationClaims

/-! ## Lines that pass on one side of a segment -/

section OneSide
variable {K : Type} [LinearOrderedField K]

/-- A segment with both ends strictly on the positive side of the line
through `l2` is not intersected. -/
theorem lines_intersect_same_side (m : Libm K) (ln l2 : line K)
    (h0 : 0 < side_of l2 ln.get_S0) (h1 : 0 < side_of l2 ln.get_S1) :
    (ln.lines_intersect m l2 false).1 = false := by
  have e0 : side_of l2 ln.get_S0 =
      perpprod l2.V ⟨ln.S0.x - l2.S0.x, ln.S0.y - l2.S0.y⟩ := rfl
  have e1 : side_of l2 ln.get_S1 =
      perpprod l2.V ⟨ln.S0.x - l2.S0.x, ln.S0.y - l2.S0.y⟩ - perpprod ln.V l2.V := by
    simp only [side_of, perpprod, perpprodRaw, line.get_S1, line.get_pt, T_S1]
    ring
  rw [e0] at h0
  rw [e1] at h1
  by_cases hpar : (perpprod ln.V l2.V < 0 ∧ perpprod ln.V l2.V > -SMALL_NUM) ∨
      (perpprod ln.V l2.V ≥ 0 ∧ perpprod ln.V l2.V < SMALL_NUM)
  · have hnc : perpprod ln.V ⟨ln.S0.x - l2.S0.x, ln.S0.y - l2.S0.y⟩ ≠ 0 ∨
        perpprod l2.V ⟨ln.S0.x - l2.S0.x, ln.S0.y - l2.S0.y⟩ ≠ 0 := Or.inr h0.ne'
    simp only [line.lines_intersect, if_pos hpar, if_pos hnc]
  · have hS := SMALL_NUM_pos (K := K)
    have habs : SMALL_NUM ≤ |perpprod ln.V l2.V| := by
      by_contra hlt
      push_neg at hlt
      rw [abs_lt] at hlt
      apply hpar
      rcases lt_or_le (perpprod ln.V l2.V) 0 with hneg | hpos
      · exact Or.inl ⟨hneg, hlt.1⟩
      · exact Or.inr ⟨hpos, hlt.2⟩
    rw [lines_intersect_skew_eq m ln l2 habs]
    have hp0 : perpprod ln.V l2.V ≠ 0 := by
      intro h
      rw [h, abs_zero] at habs
      linarith
    have hs : perpprod l2.V ⟨ln.S0.x - l2.S0.x, ln.S0.y - l2.S0.y⟩ / perpprod ln.V l2.V < 0 ∨
        perpprod l2.V ⟨ln.S0.x - l2.S0.x, ln.S0.y - l2.S0.y⟩ / perpprod ln.V l2.V > 1 := by
      rcases lt_or_gt_of_ne hp0 with hneg | hpos
      · left
        exact div_neg_of_pos_of_neg h0 hneg
      · right
        rw [gt_iff_lt, one_lt_div hpos]
        linarith
    simp only
    rw [if_pos (by
      rcases hs with h | h
      · exact Or.inl h
      · exact Or.inr (Or.inl h))]

/-- The loop of `line_intersect` adds nothing when no element is
intersected. -/
theorem collect_loop_none (m : Libm K) (l2 : line K) :
    ∀ (o : List (line K)) (idx : Nat) (isects : List (obj_line_intersect K)) (retval : Bool),
      (∀ ln ∈ o, (ln.lines_intersect m l2 false).1 = false) →
      collect_loop m l2 o idx isects retval = (isects, retval) := by
  intro o
  induction o with
  | nil => intro idx isects retval _; simp [collect_loop]
  | cons ln rest ih =>
    intro idx isects retval h
    rw [collect_loop]
    simp only [h ln (List.mem_cons_self _ _), Bool.false_eq_true, if_false]
    exact ih _ _ _ (fun l hl => h l (List.mem_cons_of_mem _ hl))

/-- The side of a point with regard to the extended line is that with regard
to the line, times the factor of the extension. -/
theorem side_of_extended (l2 r : line K) (a c : K) (hS0 : r.S0 = l2.get_pt (-a))
    (hV : r.V = ⟨c * l2.V.dx, c * l2.V.dy⟩) (p : coord_t K) :
    side_of r p = c * side_of l2 p := by
  simp only [side_of, perpprod, perpprodRaw, hS0, hV, line.get_pt]
  ring

/-- If every element has both ends on the positive side of the line through
`l2`, `line_intersect` with extrapolation finds nothing, whatever the
extension. -/
theorem line_intersect_list_one_side (m : Libm K) (HUGE : K) (o : obj K) (l2 l2e : line K)
    (fuel : Nat)
    (he : expand_loop (fun d => (o.find_extremity HUGE d).2.1) fuel l2 = some l2e)
    (hside : ∀ ln ∈ o, 0 < side_of l2 ln.get_S0 ∧ 0 < side_of l2 ln.get_S1) :
    o.line_intersect_list m HUGE fuel l2 true = .ok (false, []) := by
  obtain ⟨a, c, ha, hac, hS0, hV, -⟩ := expand_loop_result _ fuel l2 l2e he
  have hc : 0 < c := by linarith
  have hnone : ∀ ln ∈ o, (ln.lines_intersect m l2e false).1 = false := by
    intro ln hln
    obtain ⟨s0, s1⟩ := hside ln hln
    apply lines_intersect_same_side
    · rw [side_of_extended l2 l2e a c hS0 hV]; exact mul_pos hc s0
    · rw [side_of_extended l2 l2e a c hS0 hV]; exact mul_pos hc s1
  simp only [obj.line_intersect_list, if_true, he, collect_loop_none m l2e o 0 [] false hnone,
    List.insertionSort]

/-- A call of `line_intersect` with extrapolation that returns has left the
extension loop. -/
theorem line_intersect_list_expanded (m : Libm K) (HUGE : K) (o : obj K) (l2 : line K)
    (fuel : Nat) (r : Bool × List (obj_line_intersect K))
    (h : o.line_intersect_list m HUGE fuel l2 true = .ok r) :
    ∃ l2e, expand_loop (fun d => (o.find_extremity HUGE d).2.1) fuel l2 = some l2e := by
  simp only [obj.line_intersect_list, if_true] at h
  cases he : expand_loop (fun d => (o.find_extremity HUGE d).2.1) fuel l2 with
  | none => rw [he] at h; simp at h
  | some l2e => exact ⟨l2e, rfl⟩

end OneSide

section ConeEvaluation

theorem rotate_unitRef (m : Libm ℝ) (hm : m.IsReal) (rads : ℝ) :
    (unitRef : line ℝ).rotate m (unitRef : line ℝ).get_S0 rads =
      ⟨⟨0, 0⟩, ⟨Real.cos rads, Real.sin rads⟩⟩ := by
  simp only [unitRef, line.rotate, line.ofPoints, rotatePoint, line.get_S0, line.get_S1,
    line.get_pt, T_S1, hm.2.2.1, hm.2.2.2.1]
  norm_num

theorem sqrt_three_bounds : (1732 / 1000 : ℝ) < Real.sqrt 3 ∧ Real.sqrt 3 < 17321 / 10000 := by
  constructor
  · rw [Real.lt_sqrt (by norm_num)]
    norm_num
  · rw [Real.sqrt_lt' (by norm_num)]
    norm_num

/-- For an angle between -60 and 59 degrees the direction `(cos, sin)` passes
below the point `(983/1000, 17/10)`. -/
theorem below_cone (t : ℝ) (h1 : -(Real.pi / 3) ≤ t) (h2 : t ≤ 59 * Real.pi / 180) :
    0 < Real.cos t ∧ 983 / 1000 * Real.sin t < 17 / 10 * Real.cos t := by
  have hpi := Real.pi_pos
  have hcos : 0 < Real.cos t :=
    Real.cos_pos_of_mem_Ioo ⟨by linarith, by linarith⟩
  refine ⟨hcos, ?_⟩
  rcases le_or_lt t 0 with hneg | hpos
  · have hs : Real.sin t ≤ 0 :=
      Real.sin_nonpos_of_nonnpos_of_neg_pi_le hneg (by linarith)
    nlinarith
  · -- sine and cosine at 59 degrees bound those at `t`
    have hs : Real.sin t ≤ Real.sin (59 * Real.pi / 180) :=
      Real.sin_le_sin_of_le_of_le_pi_div_two (by linarith) (by linarith) h2
    have hc : Real.cos (59 * Real.pi / 180) ≤ Real.cos t :=
      Real.cos_le_cos_of_nonneg_of_le_pi hpos.le (by linarith) h2
    have e59 : 59 * Real.pi / 180 = Real.pi / 3 - Real.pi / 180 := by ring
    have hs59 : Real.sin (59 * Real.pi / 180) =
        Real.sqrt 3 / 2 * Real.cos (Real.pi / 180) - 1 / 2 * Real.sin (Real.pi / 180) := by
      rw [e59, Real.sin_sub, Real.sin_pi_div_three, Real.cos_pi_div_three]
    have hc59 : Real.cos (59 * Real.pi / 180) =
        1 / 2 * Real.cos (Real.pi / 180) + Real.sqrt 3 / 2 * Real.sin (Real.pi / 180) := by
      rw [e59, Real.cos_sub, Real.sin_pi_div_three, Real.cos_pi_div_three]
    have hc1 : Real.cos (Real.pi / 180) ≤ 1 := Real.cos_le_one _
    have hc0 : 0 < Real.cos (Real.pi / 180) :=
      Real.cos_pos_of_mem_Ioo ⟨by linarith, by linarith⟩
    have hs1 : 1 / 90 ≤ Real.sin (Real.pi / 180) := by
      have := Real.mul_le_sin (x := Real.pi / 180) (by positivity) (by linarith)
      have e : 2 / Real.pi * (Real.pi / 180) = 1 / 90 := by
        field_simp
        ring
      linarith
    obtain ⟨q1, q2⟩ := sqrt_three_bounds
    have key : 983 / 1000 * Real.sin (59 * Real.pi / 180) <
        17 / 10 * Real.cos (59 * Real.pi / 180) := by
      rw [hs59, hc59]
      nlinarith [mul_pos hc0 (by linarith : (0 : ℝ) < Real.sqrt 3 - 1732 / 1000),
        mul_nonneg (by linarith : (0 : ℝ) ≤ Real.sin (Real.pi / 180) - 1 / 90)
          (by linarith : (0 : ℝ) ≤ Real.sqrt 3),
        mul_nonneg (by linarith : (0 : ℝ) ≤ 1 - Real.cos (Real.pi / 180))
          (by linarith : (0 : ℝ) ≤ 17321 / 10000 - Real.sqrt 3)]
    calc 983 / 1000 * Real.sin t ≤ 983 / 1000 * Real.sin (59 * Real.pi / 180) := by
          nlinarith
      _ < 17 / 10 * Real.cos (59 * Real.pi / 180) := key
      _ ≤ 17 / 10 * Real.cos t := by nlinarith

/-- The angles the loop tries lie between -60 and 59 degrees. -/
theorem rAngDeg_range (j : Nat) (hj : j ≤ 60) :
    -(Real.pi / 3) ≤ (rAngDeg j : ℝ) * Real.pi / 180 ∧
      (rAngDeg j : ℝ) * Real.pi / 180 ≤ 59 * Real.pi / 180 := by
  have hpi := Real.pi_pos
  have hj' : (j : ℝ) ≤ 60 := by exact_mod_cast hj
  have hj0 : (0 : ℝ) ≤ j := Nat.cast_nonneg j
  simp only [rAngDeg]
  split_ifs with h
  · have hodd : j ≤ 59 := by omega
    have hj'' : (j : ℝ) ≤ 59 := by exact_mod_cast hodd
    constructor
    · nlinarith
    · nlinarith
  · constructor
    · nlinarith
    · nlinarith

/-- Every line the loop tries passes on one side of `coneRim`. -/
theorem coneRim_one_side (m : Libm ℝ) (hm : m.IsReal) (j : Nat) (hj : j ≤ 60) :
    ∀ ln ∈ (coneRim : obj ℝ),
      0 < side_of ((unitRef : line ℝ).rotate m (unitRef : line ℝ).get_S0
        (TO_RADS m (rAngDeg j))) ln.get_S0 ∧
      0 < side_of ((unitRef : line ℝ).rotate m (unitRef : line ℝ).get_S0
        (TO_RADS m (rAngDeg j))) ln.get_S1 := by
  obtain ⟨r1, r2⟩ := rAngDeg_range j hj
  have hT : TO_RADS m (rAngDeg j) = (rAngDeg j : ℝ) * Real.pi / 180 := by
    simp only [TO_RADS, hm.2.2.2.2]
  rw [rotate_unitRef m hm, hT]
  obtain ⟨hc, hk⟩ := below_cone _ r1 r2
  generalize Real.cos ((rAngDeg j : ℝ) * Real.pi / 180) = c at hc hk
  generalize Real.sin ((rAngDeg j : ℝ) * Real.pi / 180) = s at hk
  intro ln hln
  simp only [coneRim, List.mem_cons, List.mem_singleton, List.not_mem_nil, or_false] at hln
  rcases le_or_lt s 0 with hs | hs
  · rcases hln with rfl | rfl | rfl | rfl <;>
      simp only [side_of, perpprod, perpprodRaw, line.get_S0, line.get_S1, line.get_pt,
        T_S1] <;>
      constructor <;> nlinarith
  · rcases hln with rfl | rfl | rfl | rfl <;>
      simp only [side_of, perpprod, perpprodRaw, line.get_S0, line.get_S1, line.get_pt,
        T_S1] <;>
      constructor <;> nlinarith

/-- With enough rounds allowed to the extension loop, none of the 61 lines
the loop tries meets `coneRim`, and the search fails. -/
theorem cRef_search_coneRim (m : Libm ℝ) (hm : m.IsReal) (HUGE : ℝ) :
    ∃ fuel0, ∀ fuel, fuel0 ≤ fuel →
      ∃ isects, cRef_search m HUGE fuel (coneRim : obj ℝ) unitRef 0 =
        .ok (unitRef, isects, false) := by
  have hnz : NonZero (unitRef : line ℝ) := Or.inl (by norm_num [unitRef])
  obtain ⟨fuel0, hf⟩ := rotations_return m hm HUGE coneRim unitRef hnz 60
  refine ⟨fuel0, fun fuel hfuel => ?_⟩
  have hall : ∀ j, j ≤ 60 → (coneRim : obj ℝ).line_intersect_list m HUGE fuel
      ((unitRef : line ℝ).rotate m (unitRef : line ℝ).get_S0 (TO_RADS m (rAngDeg j))) true =
      .ok (false, []) := by
    intro j hj
    obtain ⟨r, hr⟩ := hf fuel hfuel j hj
    obtain ⟨l2e, he⟩ := line_intersect_list_expanded m HUGE _ _ fuel r hr
    exact line_intersect_list_one_side m HUGE coneRim _ l2e fuel he
      (coneRim_one_side m hm j hj)
  obtain ⟨cRef, isects, found, h1, h2, h3, -⟩ :=
    cRef_search_char m HUGE fuel coneRim unitRef 60 0 (by norm_num)
      (fun j _ hj => ⟨_, hall j hj⟩)
  have hfound : found = false := by
    rw [h2]
    intro j _ hj
    exact ⟨_, hall j hj, by simp⟩
  subst hfound
  rw [h3 rfl] at h1
  exact ⟨isects, h1⟩

theorem two_le_length_of_mem {α : Type} (l : List α) (a b : α) (ha : a ∈ l) (hb : b ∈ l)
    (hab : a ≠ b) : 2 ≤ l.length := by
  match l, ha, hb with
  | [x], ha, hb =>
    simp only [List.mem_singleton] at ha hb
    exact absurd (ha.trans hb.symm) hab
  | _ :: _ :: _, _, _ => simp

/-- The reference line rotated by +60 degrees meets `coneRim` in two
elements. -/
theorem coneRim_plus_sixty (m : Libm ℝ) (hm : m.IsReal) (HUGE : ℝ) :
    ∃ fuel0, ∀ fuel, fuel0 ≤ fuel →
      ∃ r, (coneRim : obj ℝ).line_intersect_list m HUGE fuel
          ((unitRef : line ℝ).rotate m (unitRef : line ℝ).get_S0 (TO_RADS m 60)) true = .ok r ∧
        2 ≤ r.2.length := by
  have hT : TO_RADS m 60 = Real.pi / 3 := by
    simp only [TO_RADS, hm.2.2.2.2]
    ring
  rw [rotate_unitRef m hm, hT, Real.cos_pi_div_three, Real.sin_pi_div_three]
  obtain ⟨q1, q2⟩ := sqrt_three_bounds
  have hq0 : (0 : ℝ) < Real.sqrt 3 := by linarith
  have hnz : NonZero (⟨⟨0, 0⟩, ⟨1 / 2, Real.sqrt 3 / 2⟩⟩ : line ℝ) := Or.inl (by norm_num)
  obtain ⟨fuel0, l2e, hf⟩ :=
    expand_loop_terminates (fun d => ((coneRim : obj ℝ).find_extremity HUGE d).2.1) _ hnz
  refine ⟨fuel0, fun fuel hfuel => ?_⟩
  have he := hf fuel hfuel
  obtain ⟨a, c, ha, hac, -, hV, -⟩ := expand_loop_result _ fuel _ l2e he
  have hc : 3 ≤ c := by linarith
  obtain ⟨r, hr, -, -, -, hiff⟩ :=
    line_intersect_extrapolated_char m HUGE coneRim _ l2e fuel hnz he
  refine ⟨r, hr, ?_⟩
  have hS : (SMALL_NUM : ℝ) = 1 / 10000000 := by norm_num [SMALL_NUM, SNAP_LEN]
  -- the element at position 0
  have h0 := (hiff 0 ⟨⟨49 / 50, 17 / 10⟩, ⟨3 / 1000, 0⟩⟩ (by simp [coneRim])
    (Or.inl (by norm_num))
    (by
      right
      rw [hV, hS]
      simp only [perpprod, perpprodRaw]
      rw [abs_of_pos (by nlinarith)]
      nlinarith)).mpr
    ⟨⟨17 / 10 / Real.sqrt 3, 17 / 10⟩,
      ⟨(17 / 10 / Real.sqrt 3 - 49 / 50) * (1000 / 3),
        by
          have : 49 / 50 ≤ 17 / 10 / Real.sqrt 3 := by
            rw [le_div_iff₀ hq0]; nlinarith
          nlinarith,
        by
          have : 17 / 10 / Real.sqrt 3 ≤ 983 / 1000 := by
            rw [div_le_iff₀ hq0]; nlinarith
          nlinarith,
        by
          simp only [line.get_pt, coord_t.mk.injEq]
          constructor
          · ring
          · ring⟩,
      ⟨17 / 5 / Real.sqrt 3, by
        simp only [line.get_pt, coord_t.mk.injEq]
        constructor
        · ring
        · field_simp
          ring⟩⟩
  -- the element at position 2
  have h2 := (hiff 2 ⟨⟨983 / 500, 17 / 5⟩, ⟨-(3 / 500), 0⟩⟩ (by simp [coneRim])
    (Or.inl (by norm_num))
    (by
      right
      rw [hV, hS]
      simp only [perpprod, perpprodRaw]
      rw [abs_of_neg (by nlinarith)]
      nlinarith)).mpr
    ⟨⟨17 / 5 / Real.sqrt 3, 17 / 5⟩,
      ⟨(983 / 500 - 17 / 5 / Real.sqrt 3) * (500 / 3),
        by
          have : 17 / 5 / Real.sqrt 3 ≤ 983 / 500 := by
            rw [div_le_iff₀ hq0]; nlinarith
          nlinarith,
        by
          have : 49 / 25 ≤ 17 / 5 / Real.sqrt 3 := by
            rw [le_div_iff₀ hq0]; nlinarith
          nlinarith,
        by
          simp only [line.get_pt, coord_t.mk.injEq]
          constructor
          · ring
          · ring⟩,
      ⟨34 / 5 / Real.sqrt 3, by
        simp only [line.get_pt, coord_t.mk.injEq]
        constructor
        · ring
        · field_simp
          ring⟩⟩
  obtain ⟨e0, he0, hl0⟩ := h0
  obtain ⟨e2, he2, hl2⟩ := h2
  exact two_le_length_of_mem r.2 e0 e2 he0 he2 (by
    intro h
    rw [h, hl2] at hl0
    exact absurd hl0 (by norm_num))

end ConeEvaluation

section RotationCounterClaims

/-- C34, counterexample.  For the reference line from the origin to `(1,0)`
and the inner rim `coneRim`, none of the 61 lines the loop tries finds two
intersections and the anchor is marked failed (the loop ends with
`ok = false` and `cRef` the unrotated line), although the reference line
rotated by +60 degrees meets the rim in two elements: at `offsetAngle = 60`
the loop tries -60 degrees only. -/
theorem cRef_search_skips_plus_sixty :
    ∃ m : Libm ℝ, m.IsReal ∧ ∀ HUGE : ℝ, ∃ fuel0, ∀ fuel, fuel0 ≤ fuel →
      (∃ isects, cRef_search m HUGE fuel (coneRim : obj ℝ) unitRef 0 =
        .ok (unitRef, isects, false)) ∧
      ∃ r, (coneRim : obj ℝ).line_intersect_list m HUGE fuel
          ((unitRef : line ℝ).rotate m (unitRef : line ℝ).get_S0 (TO_RADS m 60)) true = .ok r ∧
        2 ≤ r.2.length := by
  refine ⟨_, isReal_mk, fun HUGE => ?_⟩
  obtain ⟨f1, h1⟩ := cRef_search_coneRim _ isReal_mk HUGE
  obtain ⟨f2, h2⟩ := coneRim_plus_sixty _ isReal_mk HUGE
  exact ⟨max f1 f2, fun fuel hfuel =>
    ⟨h1 fuel (le_trans (le_max_left _ _) hfuel), h2 fuel (le_trans (le_max_right _ _) hfuel)⟩⟩

end RotationCounterClaims

/-! ## The vertices of a regularised path -/

section Vertices
variable {K : Type} [LinearOrderedField K]

theorem vertsIn_nil (P : coord_t K → Prop) : VertsIn P [] := by
  intro x hx; simp at hx

theorem vertsIn_cons (P : coord_t K → Prop) (a : line K) (l : List (line K)) :
    VertsIn P (a :: l) ↔ (P a.get_S0 ∧ P a.get_S1) ∧ VertsIn P l := by
  simp [VertsIn]

theorem vertsIn_append (P : coord_t K → Prop) (l1 l2 : List (line K)) :
    VertsIn P (l1 ++ l2) ↔ VertsIn P l1 ∧ VertsIn P l2 := by
  simp only [VertsIn, List.mem_append]
  constructor
  · intro h
    exact ⟨fun x hx => h x (Or.inl hx), fun x hx => h x (Or.inr hx)⟩
  · rintro ⟨h1, h2⟩ x (hx | hx)
    · exact h1 x hx
    · exact h2 x hx

theorem vertsIn_of_subset (P : coord_t K → Prop) (l1 l2 : List (line K))
    (hs : ∀ x ∈ l1, x ∈ l2) (h : VertsIn P l2) : VertsIn P l1 :=
  fun x hx => h x (hs x hx)

theorem vertsIn_ofPoints (P : coord_t K → Prop) (a b : coord_t K) (ha : P a) (hb : P b) :
    P (line.ofPoints a b).get_S0 ∧ P (line.ofPoints a b).get_S1 := by
  rw [ofPoints_get_S1]
  exact ⟨ha, hb⟩

theorem vertsIn_reverse (P : coord_t K → Prop) (x : line K) (h : P x.get_S0 ∧ P x.get_S1) :
    P x.reverse.get_S0 ∧ P x.reverse.get_S1 := by
  rw [reverse_get_S1]
  exact ⟨h.2, h.1⟩

theorem vertsIn_map_reverse (P : coord_t K → Prop) (l : List (line K)) (h : VertsIn P l) :
    VertsIn P (l.map line.reverse) := by
  intro x hx
  obtain ⟨y, hy, rfl⟩ := List.mem_map.mp hx
  exact vertsIn_reverse P y (h y hy)

theorem vertsIn_getLast (P : coord_t K → Prop) (l : List (line K)) (hne : l ≠ [])
    (h : VertsIn P l) : P (l.getLast hne).get_S0 ∧ P (l.getLast hne).get_S1 :=
  h _ (List.getLast_mem hne)

/-- A trace makes its path and leaves its rest out of ends of the elements it
is given. -/
theorem trace_scan_verts (m : Libm K) (snap : K) (P : coord_t K → Prop) (st : line K)
    (tail scanned unscanned : List (line K)) :
    VertsIn P (st :: tail) → VertsIn P scanned → VertsIn P unscanned →
      VertsIn P (trace_scan m snap st tail scanned unscanned).2.1 ∧
      VertsIn P (trace_scan m snap st tail scanned unscanned).2.2 := by
  induction st, tail, scanned, unscanned using trace_scan.induct m snap with
  | case1 st tail scanned =>
    intro h1 h2 _
    rw [trace_scan]
    exact ⟨h1, h2⟩
  | case2 st tail scanned nx us en nx1 h1 nx2 h2 =>
    intro hp hs hu
    rw [trace_scan]
    simp only [en, nx1, nx2, dite_eq_ite] at h1 h2
    rw [if_pos h1, if_pos h2]
    have hen := vertsIn_getLast P (st :: tail) (List.cons_ne_nil _ _) hp
    have hst := ((vertsIn_cons P st tail).mp hp).1
    have hus := ((vertsIn_cons P nx us).mp hu).2
    refine ⟨?_, (vertsIn_append P _ _).mpr ⟨hs, hus⟩⟩
    rw [vertsIn_cons, vertsIn_append]
    refine ⟨hst, ((vertsIn_cons P st tail).mp hp).2, ?_⟩
    rw [vertsIn_cons]
    refine ⟨vertsIn_ofPoints P _ _ ?_ hst.1, vertsIn_nil P⟩
    exact hen.2
  | case3 st tail scanned nx us en nx1 h1 nx2 h2 ih =>
    intro hp hs hu
    rw [trace_scan]
    simp only [en, nx1, nx2, dite_eq_ite] at h1 h2 ih
    rw [if_pos h1, if_neg h2]
    have hen := vertsIn_getLast P (st :: tail) (List.cons_ne_nil _ _) hp
    have hnx := ((vertsIn_cons P nx us).mp hu).1
    have hus := ((vertsIn_cons P nx us).mp hu).2
    have hnx1 : P (if distTwoPoints m ((st :: tail).getLast (List.cons_ne_nil _ _)).get_S1
        nx.get_S1 ≤ snap then nx.reverse else nx).get_S1 := by
      split_ifs
      · exact (vertsIn_reverse P nx hnx).2
      · exact hnx.2
    apply ih
    · rw [← List.cons_append, vertsIn_append]
      refine ⟨hp, ?_⟩
      rw [vertsIn_cons]
      exact ⟨vertsIn_ofPoints P _ _ hen.2 hnx1, vertsIn_nil P⟩
    · exact vertsIn_nil P
    · exact (vertsIn_append P _ _).mpr ⟨hs, hus⟩
  | case4 st tail scanned nx us en nx1 h1 nx2 h2 ih =>
    intro hp hs hu
    rw [trace_scan]
    simp only [en, nx1, nx2, dite_eq_ite] at h1 h2 ih
    rw [if_neg h1, if_pos h2]
    have hst := ((vertsIn_cons P st tail).mp hp).1
    have hnx := ((vertsIn_cons P nx us).mp hu).1
    have hus := ((vertsIn_cons P nx us).mp hu).2
    have hnx1 : P (if distTwoPoints m ((st :: tail).getLast (List.cons_ne_nil _ _)).get_S1
          nx.get_S1 ≤ snap then nx.reverse else nx).get_S0 ∧
        P (if distTwoPoints m ((st :: tail).getLast (List.cons_ne_nil _ _)).get_S1
          nx.get_S1 ≤ snap then nx.reverse else nx).get_S1 := by
      split_ifs
      · exact vertsIn_reverse P nx hnx
      · exact hnx
    have hnx2 : P (if distTwoPoints m st.get_S0
          (if distTwoPoints m ((st :: tail).getLast (List.cons_ne_nil _ _)).get_S1
            nx.get_S1 ≤ snap then nx.reverse else nx).get_S0 ≤ snap then
          (if distTwoPoints m ((st :: tail).getLast (List.cons_ne_nil _ _)).get_S1
            nx.get_S1 ≤ snap then nx.reverse else nx).reverse
        else (if distTwoPoints m ((st :: tail).getLast (List.cons_ne_nil _ _)).get_S1
            nx.get_S1 ≤ snap then nx.reverse else nx)).get_S0 := by
      split_ifs with ha hb
      · exact (vertsIn_reverse P _ (vertsIn_reverse P nx hnx)).1
      · exact (vertsIn_reverse P _ hnx).1
      · exact (vertsIn_reverse P nx hnx).1
      · exact hnx.1
    apply ih
    · rw [vertsIn_cons]
      exact ⟨vertsIn_ofPoints P _ _ hnx2 hst.1, hp⟩
    · exact vertsIn_nil P
    · exact (vertsIn_append P _ _).mpr ⟨hs, hus⟩
  | case5 st tail scanned nx us en nx1 h1 nx2 h2 ih =>
    intro hp hs hu
    rw [trace_scan]
    simp only [en, nx1, nx2, dite_eq_ite] at h1 h2 ih
    rw [if_neg h1, if_neg h2]
    have hnx := ((vertsIn_cons P nx us).mp hu).1
    have hus := ((vertsIn_cons P nx us).mp hu).2
    apply ih hp
    · rw [vertsIn_append]
      refine ⟨hs, ?_⟩
      rw [vertsIn_cons]
      refine ⟨?_, vertsIn_nil P⟩
      split_ifs
      · exact vertsIn_reverse P _ (vertsIn_reverse P nx hnx)
      · exact vertsIn_reverse P _ hnx
      · exact vertsIn_reverse P nx hnx
      · exact hnx
    · exact hus

theorem trace_a_path_verts (m : Libm K) (snap : K) (P : coord_t K → Prop)
    (remaining : List (line K)) (h : VertsIn P remaining) :
    VertsIn P (trace_a_path m snap remaining).2.1 ∧
      VertsIn P (trace_a_path m snap remaining).2.2 := by
  cases remaining with
  | nil => simp [trace_a_path, vertsIn_nil]
  | cons st r =>
    rw [trace_a_path]
    have h1 := (vertsIn_cons P st r).mp h
    exact trace_scan_verts m snap P st [] [] r
      ((vertsIn_cons P st []).mpr ⟨h1.1, vertsIn_nil P⟩) (vertsIn_nil P) h1.2

/-- `make_path` makes its list out of ends of the elements it is given. -/
theorem make_path_loop_verts (m : Libm K) (snap : K) (listPaths keepOpens : Bool)
    (P : coord_t K → Prop) :
    ∀ (n : Nat) (done remaining : List (line K)) (closed opened : List (obj K))
      (r : obj K × List (obj K) × List (obj K)),
      make_path_loop m snap listPaths keepOpens n done remaining closed opened = .ok r →
      VertsIn P done → VertsIn P remaining → VertsIn P r.1 := by
  intro n
  induction n with
  | zero =>
    intro done remaining closed opened r h hd hr
    cases remaining with
    | nil =>
      simp only [make_path_loop, Res.ok.injEq] at h
      subst h
      exact hd
    | cons st rest => simp [make_path_loop] at h
  | succ n ih =>
    intro done remaining closed opened r h hd hr
    cases remaining with
    | nil =>
      simp only [make_path_loop, Res.ok.injEq] at h
      subst h
      exact hd
    | cons st rest0 =>
      obtain ⟨hv1, hv2⟩ := trace_a_path_verts m snap P (st :: rest0) hr
      rcases htr : trace_a_path m snap (st :: rest0) with ⟨c, path, rest⟩
      rw [htr] at hv1 hv2
      simp only at hv1 hv2
      rw [make_path_loop, htr] at h
      simp only at h
      by_cases h1 : (!c && !keepOpens) = true
      · rw [if_pos h1] at h
        refine ih _ _ _ _ r h ?_ hv2
        rw [vertsIn_append]
        exact ⟨hd, vertsIn_of_subset P _ path (fun x hx => List.mem_of_mem_drop hx) hv1⟩
      · rw [if_neg h1] at h
        by_cases h2 : c = true
        · rw [if_pos h2] at h
          cases path with
          | nil =>
            simp only at h
            exact ih _ _ _ _ r h hd hv2
          | cons p0 ps =>
            simp only at h
            by_cases h3 : (!is_clockwise m p0 ps) = true
            · rw [if_pos h3] at h
              have hrev : VertsIn P ((p0 :: ps).map line.reverse ++ rest) :=
                (vertsIn_append P _ _).mpr ⟨vertsIn_map_reverse P _ hv1, hv2⟩
              obtain ⟨hw1, hw2⟩ := trace_a_path_verts m snap P _ hrev
              rcases htr2 : trace_a_path m snap ((p0 :: ps).map line.reverse ++ rest)
                with ⟨c2, path2, rest2⟩
              rw [htr2] at hw1 hw2 h
              simp only at hw1 hw2
              cases c2 with
              | false => simp at h
              | true =>
                simp only at h
                exact ih _ _ _ _ r h ((vertsIn_append P _ _).mpr ⟨hd, hw1⟩) hw2
            · rw [if_neg h3] at h
              exact ih _ _ _ _ r h ((vertsIn_append P _ _).mpr ⟨hd, hv1⟩) hv2
        · rw [if_neg h2] at h
          exact ih _ _ _ _ r h ((vertsIn_append P _ _).mpr ⟨hd, hv1⟩) hv2

theorem make_path_verts (m : Libm K) (P : coord_t K → Prop) (e e1 : obj K)
    (h : make_path m e = .ok e1) (he : VertsIn P e) : VertsIn P e1 := by
  simp only [make_path, make_path_snap, make_path_full] at h
  cases hr : make_path_loop m SNAP_LEN false false e.length [] e [] [] with
  | ok r =>
    rw [hr] at h
    simp only [Res.ok.injEq] at h
    subst h
    exact make_path_loop_verts m SNAP_LEN false false P _ _ _ _ _ r hr (vertsIn_nil P) he
  | fatal => rw [hr] at h; simp at h
  | undef => rw [hr] at h; simp at h
  | fuel => rw [hr] at h; simp at h

theorem del_zero_lens_loop_mem (m : Libm K) (scanned unscanned : List (line K)) (cnt : Nat) :
    ∀ x ∈ (del_zero_lens_loop m scanned unscanned cnt).1, x ∈ scanned ∨ x ∈ unscanned := by
  induction scanned, unscanned, cnt using del_zero_lens_loop.induct m with
  | case1 scanned cnt =>
    intro x hx
    rw [del_zero_lens_loop] at hx
    exact Or.inl hx
  | case2 scanned cnt ln us h ih =>
    intro x hx
    rw [del_zero_lens_loop, if_pos h] at hx
    rcases ih x hx with h1 | h1
    · simp at h1
    · rcases List.mem_append.mp h1 with h2 | h2
      · exact Or.inl h2
      · exact Or.inr (List.mem_cons_of_mem _ h2)
  | case3 scanned cnt ln us h ih =>
    intro x hx
    rw [del_zero_lens_loop, if_neg h] at hx
    rcases ih x hx with h1 | h1
    · rcases List.mem_append.mp h1 with h2 | h2
      · exact Or.inl h2
      · simp only [List.mem_singleton] at h2
        subst h2
        exact Or.inr (List.mem_cons_self _ _)
    · exact Or.inr (List.mem_cons_of_mem _ h1)

theorem del_dupes_zeros_mem (m : Libm K) (e : obj K) :
    ∀ x ∈ (del_dupes_zeros m e).1, x ∈ e := by
  intro x hx
  simp only [del_dupes_zeros, del_zero_lens] at hx
  rcases del_zero_lens_loop_mem m [] _ 0 x hx with h | h
  · simp at h
  · rw [(del_duplicates_spec e).1] at h
    exact ((del_duplicates_spec e).2.2.2 x).mp h

/-- `regularise` makes its list out of ends of the elements it is given. -/
theorem regularise_loop_verts (m : Libm K) (P : coord_t K → Prop) :
    ∀ (n : Nat) (e e1 : obj K), regularise_loop m n e = .ok e1 → VertsIn P e → VertsIn P e1 := by
  intro n
  induction n with
  | zero => intro e e1 h _; simp [regularise_loop] at h
  | succ n ih =>
    intro e e1 h he
    rw [regularise_loop] at h
    cases hm : make_path m e with
    | ok e2 =>
      rw [hm] at h
      simp only at h
      have h2 := make_path_verts m P e e2 hm he
      have h3 : VertsIn P (del_dupes_zeros m e2).1 :=
        vertsIn_of_subset P _ e2 (del_dupes_zeros_mem m e2) h2
      split_ifs at h
      · exact ih _ e1 h h3
      · simp only [Res.ok.injEq] at h
        subst h
        exact h3
    | fatal => rw [hm] at h; simp at h
    | undef => rw [hm] at h; simp at h
    | fuel => rw [hm] at h; simp at h

theorem regularise_verts (m : Libm K) (P : coord_t K → Prop) (e e1 : obj K)
    (h : regularise m e = .ok e1) (he : VertsIn P e) : VertsIn P e1 :=
  regularise_loop_verts m P _ e e1 h he

end Vertices

/-! ## What the passes of `trace_at_offset` keep -/

section PassesKeepPlain
variable {K : Type}

/-- A line valid after the redundant-point pass was in the list, valid. -/
theorem redundant_pass_valid :
    ∀ (l : List (offset_line K)) (prv : Option (offset_line K)) (c : offset_line K),
      c ∈ redundant_pass prv l → c.valid = true → c ∈ l := by
  intro l
  induction l with
  | nil => intro prv c h; cases prv <;> simp [redundant_pass] at h
  | cons ref rest ih =>
    intro prv c h hv
    cases rest with
    | nil =>
      cases prv <;> simp only [redundant_pass, List.mem_singleton] at h <;>
        exact h ▸ List.mem_cons_self _ _
    | cons nxt rest =>
      cases prv with
      | none =>
        simp only [redundant_pass, List.mem_cons] at h
        rcases h with rfl | h
        · exact List.mem_cons_self _ _
        · exact List.mem_cons_of_mem _ (ih _ c (by simpa using h) hv)
      | some p =>
        simp only [redundant_pass, List.mem_cons] at h
        rcases h with h | h
        · split_ifs at h
          · rw [h] at hv; simp at hv
          · exact h ▸ List.mem_cons_self _ _
        · exact List.mem_cons_of_mem _ (ih _ c (by simpa using h) hv)

end PassesKeepPlain

section PassesKeep
variable {K : Type} [LinearOrderedField K]

/-- A line valid after the crossing pass was in the list, valid. -/
theorem crossing_pass_valid (m : Libm K) :
    ∀ (l : List (offset_line K)) (c : offset_line K),
      c ∈ crossing_pass m l → c.valid = true → c ∈ l := by
  intro l
  induction l with
  | nil => intro c h; simp [crossing_pass] at h
  | cons ref rest ih =>
    intro c h hv
    simp only [crossing_pass, List.mem_cons] at h
    rcases h with h | h
    · split_ifs at h
      · rw [h] at hv; simp at hv
      · exact h ▸ List.mem_cons_self _ _
    · exact List.mem_cons_of_mem _ (ih c h hv)

/-- What a `false` of the inner loop of the proximity pass means. -/
theorem too_close_false (m : Libm K) (test : K) (osl : offset_line K) :
    ∀ (rest : List (line K)) (idx : Nat), too_close m test osl rest idx = false →
      ∀ i ln, rest[i]? = some ln → osl.src_index ≠ idx + i →
        test ≤ ln.distance_to_point m osl.ln.get_S1 := by
  intro rest
  induction rest with
  | nil => intro idx _ i ln h; simp at h
  | cons a rest ih =>
    intro idx h i ln hi hne
    rw [too_close] at h
    split_ifs at h with hc
    cases i with
    | zero =>
      simp only [List.getElem?_cons_zero, Option.some.injEq] at hi
      subst hi
      by_contra hlt
      exact hc ⟨by simpa using hne, not_le.mp hlt⟩
    | succ i =>
      exact ih (idx + 1) h i ln (by simpa using hi) (by omega)

/-- A line valid after the proximity pass was in the list, valid, and its end
is not nearer than `test` to any element but its source. -/
theorem proximity_pass_valid (m : Libm K) (e : obj K) (test : K)
    (osln : List (offset_line K)) (c : offset_line K)
    (h : c ∈ proximity_pass m e test osln) (hv : c.valid = true) :
    c ∈ osln ∧ ∀ i ln, e[i]? = some ln → c.src_index ≠ i →
      test ≤ ln.distance_to_point m c.ln.get_S1 := by
  simp only [proximity_pass, List.mem_map] at h
  obtain ⟨c0, hc0, hc⟩ := h
  split_ifs at hc with ht
  · rw [← hc] at hv; simp at hv
  · subst hc
    refine ⟨hc0, fun i ln hi hne => ?_⟩
    have := too_close_false m test c0 e 0 (by simpa using ht) i ln hi (by simpa using hne)
    exact this

/-- "Join the dots" makes its path out of the ends of the valid lines. -/
theorem join_dots_verts (P : coord_t K → Prop) :
    ∀ (osln : List (offset_line K)) (tr : obj K), VertsIn P tr →
      (∀ c ∈ osln, c.valid = true → P c.ln.get_S1) → VertsIn P (join_dots osln tr) := by
  intro osln
  induction osln with
  | nil => intro tr h _; simpa [join_dots] using h
  | cons ref rest ih =>
    intro tr h hc
    rw [join_dots]
    apply ih
    · split_ifs with hv
      · have hp := hc ref (List.mem_cons_self _ _) hv
        simp only [obj.add_pt]
        cases hl : tr.getLast? with
        | none =>
          simp only
          rw [vertsIn_cons]
          refine ⟨?_, vertsIn_nil P⟩
          have : (⟨ref.ln.get_S1, ⟨0, 0⟩⟩ : line K).get_S1 = ref.ln.get_S1 := by
            simp [line.get_S1, line.get_pt]
          rw [this]
          exact ⟨hp, hp⟩
        | some lst =>
          simp only
          rw [vertsIn_append]
          refine ⟨h, ?_⟩
          rw [vertsIn_cons]
          refine ⟨vertsIn_ofPoints P _ _ ?_ hp, vertsIn_nil P⟩
          exact (h lst (List.mem_of_mem_getLast? hl)).2
      · exact h
    · exact fun c hcm => hc c (List.mem_cons_of_mem _ hcm)

end PassesKeep

/-! ## The candidates of `trace_at_offset` -/

section CandidatesLoop
variable {K : Type} [LinearOrderedField K]

theorem add_while_ok (cond : K → Bool) (step : K) :
    ∀ (n : Nat) (a a' : K), add_while cond step n a = .ok a' → ∃ j : Nat, a' = a + j * step := by
  intro n
  induction n with
  | zero =>
    intro a a' h
    rw [add_while] at h
    split_ifs at h
    simp only [Res.ok.injEq] at h
    exact ⟨0, by simp [h]⟩
  | succ n ih =>
    intro a a' h
    rw [add_while] at h
    split_ifs at h
    · obtain ⟨j, hj⟩ := ih _ _ h
      exact ⟨j + 1, by rw [hj]; push_cast; ring⟩
    · simp only [Res.ok.injEq] at h
      exact ⟨0, by simp [h]⟩

/-- The end of a radial offsetting line: at the distance `r` from the corner
in the direction of the angle. -/
theorem radial_end (m : Libm K) (corner : coord_t K) (r rads : K) :
    (line.ofPoints
      (((⟨corner, ⟨r, 0⟩⟩ : line K).rotate m (⟨corner, ⟨r, 0⟩⟩ : line K).get_S0 rads).get_pt
        (1 / 1000))
      ((⟨corner, ⟨r, 0⟩⟩ : line K).rotate m (⟨corner, ⟨r, 0⟩⟩ : line K).get_S0
        rads).get_S1).get_S1 =
      ⟨corner.x + r * m.cos rads, corner.y + r * m.sin rads⟩ := by
  rw [ofPoints_get_S1, line.rotate, ofPoints_get_S1]
  simp only [rotatePoint, line.get_S0, line.get_S1, line.get_pt, T_S1, coord_t.mk.injEq]
  constructor <;> ring

end CandidatesLoop

section Candidates
variable {K : Type} [LinearOrderedField K] [FloorRing K]

theorem linear_offset_lines_spec (m : Libm K) (ln : line K) (idx : Nat) (ofs : K) :
    ∀ c ∈ linear_offset_lines m ln idx ofs, c.src_index = idx ∧ IsLinearCand m ofs ln c := by
  intro c hc
  rw [linear_offset_lines] at hc
  obtain ⟨stepK, hstep, rfl⟩ := List.mem_map.mp hc
  generalize (if ⌈ln.len m / TRACE_STEP_MM⌉₊ < MIN_TRACE_STEPS then MIN_TRACE_STEPS
    else ⌈ln.len m / TRACE_STEP_MM⌉₊) = N at hstep
  have hs : ∃ step : Nat, step < N + 1 ∧ (step : K) = stepK := by
    have : ∃ a < N + 1, stepK = (a : K) := by simpa using hstep
    obtain ⟨a, ha, rfl⟩ := this
    exact ⟨a, ha, rfl⟩
  obtain ⟨step, hlt, rfl⟩ := hs
  refine ⟨rfl, rfl, ?_⟩
  simp only [ofPoints_get_S1]
  have h0 : (0 : K) ≤ (step : K) / (N : K) := div_nonneg (Nat.cast_nonneg _) (Nat.cast_nonneg _)
  have h1 : (step : K) / (N : K) ≤ 1 :=
    div_le_one_of_le₀ (by exact_mod_cast Nat.lt_succ_iff.mp hlt) (Nat.cast_nonneg _)
  refine ⟨_, ?_, ?_, rfl⟩
  · split_ifs
    all_goals first | exact h0 | norm_num
  · split_ifs
    all_goals first | exact h1 | norm_num

theorem radial_fan_spec (m : Libm K) (ln nx : line K) (idx : Nat) (ofs : K) (a0 sgn : K)
    (j : Nat) (hsgn : sgn = 1 ∨ sgn = -1)
    (ha0 : a0 = ln.angle m + sgn * (-(m.pi / 2) + j * (m.pi * 2))) :
    ∀ c ∈ (List.range (⌊|ln.angle_to m nx| / (3 * m.pi / 180)⌋ - 1).toNat).map fun j =>
      ({ ln := line.ofPoints
          (((⟨ln.get_S1, ⟨|ofs|, 0⟩⟩ : line K).rotate m
            (⟨ln.get_S1, ⟨|ofs|, 0⟩⟩ : line K).get_S0
            (a0 + (((j + 1 : Nat) : K) * (sgn * (3 * m.pi / 180))))).get_pt (1 / 1000))
          ((⟨ln.get_S1, ⟨|ofs|, 0⟩⟩ : line K).rotate m
            (⟨ln.get_S1, ⟨|ofs|, 0⟩⟩ : line K).get_S0
            (a0 + (((j + 1 : Nat) : K) * (sgn * (3 * m.pi / 180))))).get_S1,
         valid := true, radial := true, src_index := idx } : offset_line K),
      c.src_index = idx ∧ IsRadialCand m ofs ln nx c := by
  intro c hc
  obtain ⟨k, hk, rfl⟩ := List.mem_map.mp hc
  rw [List.mem_range] at hk
  refine ⟨rfl, rfl, sgn, j, k + 1, hsgn, by omega, ?_, ?_⟩
  · have : ((k : Int)) < ⌊|ln.angle_to m nx| / (3 * m.pi / 180)⌋ - 1 := Int.lt_toNat.mp hk
    push_cast
    omega
  · rw [radial_end]
    have e : a0 + ((k + 1 : Nat) : K) * (sgn * (3 * m.pi / 180)) =
        ln.angle m + sgn * (-(m.pi / 2) + j * (m.pi * 2) +
          ((k + 1 : Nat) : K) * (3 * m.pi / 180)) := by
      rw [ha0]; ring
    rw [e]

theorem radial_offset_lines_spec (m : Libm K) (ln nx : line K) (idx : Nat) (ofs : K)
    (cands : List (offset_line K)) (h : radial_offset_lines m ln nx idx ofs = .ok cands) :
    ∀ c ∈ cands, c.src_index = idx ∧ IsRadialCand m ofs ln nx c := by
  simp only [radial_offset_lines] at h
  by_cases h1 : nx.len m = 0
  · rw [if_pos h1] at h
    simp only [Res.ok.injEq] at h
    subst h
    intro c hc
    simp at hc
  rw [if_neg h1] at h
  by_cases hA : ln.angle_to m nx > 0 ∧ ofs < 0
  · -- a convex corner for a negative offset
    rw [if_pos hA] at h
    cases hw : add_while (fun a => decide (a < 0)) (m.pi * 2) 8 (ln.angle m - m.pi / 2) with
    | ok a0 =>
      rw [hw] at h
      simp only [Res.bind] at h
      cases hw2 : add_while (fun a => decide (a < a0)) (m.pi * 2) 8 (nx.angle m - m.pi / 2) with
      | ok a1 =>
        rw [hw2] at h
        simp only [Res.ok.injEq] at h
        subst h
        obtain ⟨j, hj⟩ := add_while_ok _ _ _ _ _ hw
        have := radial_fan_spec m ln nx idx ofs a0 1 j (Or.inl rfl) (by rw [hj]; ring)
        simpa only [one_mul] using this
      | fatal => rw [hw2] at h; simp at h
      | undef => rw [hw2] at h; simp at h
      | fuel => rw [hw2] at h; simp at h
    | fatal => rw [hw] at h; simp [Res.bind] at h
    | undef => rw [hw] at h; simp [Res.bind] at h
    | fuel => rw [hw] at h; simp [Res.bind] at h
  rw [if_neg hA] at h
  by_cases hB : ln.angle_to m nx < 0 ∧ ofs > 0
  · rw [if_pos hB] at h
    cases hw : add_while (fun a => decide (a > 0)) (-(m.pi * 2)) 8 (ln.angle m + m.pi / 2) with
    | ok a0 =>
      rw [hw] at h
      simp only [Res.bind] at h
      cases hw2 : add_while (fun a => decide (a > a0)) (-(m.pi * 2)) 8
          (nx.angle m + m.pi / 2) with
      | ok a1 =>
        rw [hw2] at h
        simp only [Res.ok.injEq] at h
        subst h
        obtain ⟨j, hj⟩ := add_while_ok _ _ _ _ _ hw
        have := radial_fan_spec m ln nx idx ofs a0 (-1) j (Or.inr rfl) (by rw [hj]; ring)
        simpa only [neg_one_mul, neg_mul, one_mul] using this
      | fatal => rw [hw2] at h; simp at h
      | undef => rw [hw2] at h; simp at h
      | fuel => rw [hw2] at h; simp at h
    | fatal => rw [hw] at h; simp [Res.bind] at h
    | undef => rw [hw] at h; simp [Res.bind] at h
    | fuel => rw [hw] at h; simp [Res.bind] at h
  · rw [if_neg hB] at h
    simp only [Res.ok.injEq] at h
    subst h
    intro c hc
    simp at hc

/-- Every candidate that the first loop of `trace_at_offset` creates is a
linear or a radial candidate of an element of the object that is not shorter
than `SNAP_LEN`, the element at the position `src_index`. -/
theorem create_offset_lines_spec (m : Libm K) (e : obj K) (ofs : K) :
    ∀ (rest : List (line K)) (idx : Nat) (cands : List (offset_line K)),
      create_offset_lines m e ofs rest idx = .ok cands →
      (∀ i l, rest[i]? = some l → e[idx + i]? = some l) →
      ∀ c ∈ cands, ∃ ln, e[c.src_index]? = some ln ∧ ¬ ln.len m < SNAP_LEN ∧
        (IsLinearCand m ofs ln c ∨ ∃ nx, IsRadialCand m ofs ln nx c) := by
  intro rest
  induction rest with
  | nil =>
    intro idx cands h _ c hc
    simp only [create_offset_lines, Res.ok.injEq] at h
    subst h
    simp at hc
  | cons ln rest ih =>
    intro idx cands h hidx c hc
    have hrest : ∀ i l, rest[i]? = some l → e[idx + 1 + i]? = some l := by
      intro i l hi
      have := hidx (i + 1) l (by simpa using hi)
      rw [show idx + 1 + i = idx + (i + 1) by omega]
      exact this
    have hln : e[idx]? = some ln := by
      have := hidx 0 ln (by simp)
      simpa using this
    rw [create_offset_lines] at h
    by_cases hs : ln.len m < SNAP_LEN
    · rw [if_pos hs] at h
      exact ih (idx + 1) cands h hrest c hc
    · rw [if_neg hs] at h
      simp only at h
      cases hnx : obj.nextc_at e idx with
      | none => rw [hnx] at h; simp at h
      | some nx =>
        rw [hnx] at h
        simp only at h
        cases hrad : radial_offset_lines m ln nx idx ofs with
        | ok rad =>
          rw [hrad] at h
          simp only [Res.bind] at h
          cases hmore : create_offset_lines m e ofs rest (idx + 1) with
          | ok more =>
            rw [hmore] at h
            simp only [Res.ok.injEq] at h
            subst h
            rcases List.mem_append.mp hc with hc1 | hc1
            · rcases List.mem_append.mp hc1 with hc2 | hc2
              · obtain ⟨h1, h2⟩ := linear_offset_lines_spec m ln idx ofs c hc2
                exact ⟨ln, by rw [h1]; exact hln, hs, Or.inl h2⟩
              · obtain ⟨h1, h2⟩ := radial_offset_lines_spec m ln nx idx ofs rad hrad c hc2
                exact ⟨ln, by rw [h1]; exact hln, hs, Or.inr ⟨nx, h2⟩⟩
            · exact ih (idx + 1) more hmore hrest c hc1
          | fatal => rw [hmore] at h; simp at h
          | undef => rw [hmore] at h; simp at h
          | fuel => rw [hmore] at h; simp at h
        | fatal => rw [hrad] at h; simp [Res.bind] at h
        | undef => rw [hrad] at h; simp [Res.bind] at h
        | fuel => rw [hrad] at h; simp [Res.bind] at h

end Candidates

section LeanCreate

theorem leanSeg_len (m : Libm ℝ) (hm : m.IsReal) : (leanSeg : line ℝ).len m = 234 / 1000000 := by
  simp only [line.len, leanSeg, hm.1]
  rw [Real.sqrt_eq_iff_mul_self_eq (by positivity) (by norm_num)]
  norm_num

theorem farSeg_len (m : Libm ℝ) (hm : m.IsReal) : (farSeg : line ℝ).len m = 1105 / 1000 := by
  simp only [line.len, farSeg, hm.1]
  rw [Real.sqrt_eq_iff_mul_self_eq (by positivity) (by norm_num)]
  norm_num

/-- The two segments are a regularised path: each is an open path of its own,
of which `make_path` keeps the last element. -/
theorem regularise_leanPair (m : Libm ℝ) (hm : m.IsReal) :
    regularise m (leanPair : obj ℝ) = .ok leanPair := by
  have htr : trace_a_path m SNAP_LEN [(leanSeg : line ℝ), farSeg] =
      (false, [leanSeg], [farSeg]) := by
    simp [trace_a_path, trace_scan, distTwoPoints, hm.1, Real.sqrt_le_iff, leanSeg, farSeg,
      line.get_S1, line.get_S0, line.get_pt, line.reverse, line.ofPoints, T_S1, SNAP_LEN]
    norm_num
  have hmp : make_path m (leanPair : obj ℝ) = .ok leanPair := by
    simp only [make_path, make_path_snap, make_path_full, leanPair, List.length_cons,
      List.length_nil, Nat.zero_add, Nat.reduceAdd]
    rw [make_path_loop_discard m _ _ 1 _ _ _ _ _ _ _ htr]
    simp only [List.length_cons, List.length_nil, Nat.zero_add, Nat.reduceAdd,
      Nat.sub_self, List.drop_zero, List.nil_append]
    rw [make_path_loop_discard m _ _ 0 _ _ _ _ _ _ _ (trace_single m _ farSeg)]
    simp [make_path_loop]
  apply regularise_of_make_path m _ _ hmp
  · simp [leanPair, line.is_same_as, leanSeg, farSeg, line.get_S0, line.get_V]
  · intro l hl
    simp only [leanPair, List.mem_cons, List.mem_singleton, List.not_mem_nil, or_false] at hl
    rcases hl with rfl | rfl
    · rw [leanSeg_len m hm]; norm_num [SMALL_NUM, SNAP_LEN]
    · rw [farSeg_len m hm]; norm_num [SMALL_NUM, SNAP_LEN]

end LeanCreate

section LeanAngles

theorem arcsin_thirteen_bounds :
    Real.pi / 30 ≤ Real.arcsin (13 / 85) ∧ Real.arcsin (13 / 85) < Real.pi / 20 := by
  have hpi1 := Real.pi_gt_d2
  have hpi2 := Real.pi_lt_d2
  constructor
  · rw [Real.le_arcsin_iff_sin_le ⟨by linarith, by linarith⟩ ⟨by norm_num, by norm_num⟩]
    have h1 : Real.sin (Real.pi / 30) ≤ Real.pi / 30 := Real.sin_le (by positivity)
    linarith
  · rw [Real.arcsin_lt_iff_lt_sin ⟨by norm_num, by norm_num⟩ ⟨by linarith, by linarith⟩]
    have h1 := Real.sin_gt_sub_cube (x := Real.pi / 20) (by positivity) (by linarith)
    have h2 : (157 : ℝ) / 1000 ≤ Real.pi / 20 := by linarith
    have h3 : Real.pi / 20 ≤ 158 / 1000 := by linarith
    have h4 : (Real.pi / 20) ^ 3 ≤ (158 / 1000) ^ 3 := by
      exact pow_le_pow_left₀ (by positivity) h3 3
    nlinarith

theorem angle_to_leanSeg_farSeg (m : Libm ℝ) (hm : m.IsReal) :
    (leanSeg : line ℝ).angle_to m farSeg = Real.arcsin (13 / 85) := by
  have h1 : (leanSeg : line ℝ).len m > 0 := by rw [leanSeg_len m hm]; norm_num
  have h2 : (farSeg : line ℝ).len m > 0 := by rw [farSeg_len m hm]; norm_num
  rw [line.angle_to, if_pos ⟨h1, h2⟩, hm.2.1]
  rw [Complex.arg_of_re_nonneg]
  · congr 1
    simp only [Complex.abs_apply, Complex.normSq_mk, perpprod, perpprodRaw, dotprod, dotprodRaw,
      leanSeg, farSeg, line.get_V]
    have : Real.sqrt (((-(9 / 100000) : ℝ) * -(576 / 1000) + 943 / 1000 * (216 / 1000000)) *
        (-(9 / 100000) * -(576 / 1000) + 943 / 1000 * (216 / 1000000)) +
        (-(9 / 100000) * (943 / 1000) - -(576 / 1000) * (216 / 1000000)) *
        (-(9 / 100000) * (943 / 1000) - -(576 / 1000) * (216 / 1000000))) = 25857 / 100000000 := by
      rw [Real.sqrt_eq_iff_mul_self_eq (by positivity) (by norm_num)]
      norm_num
    rw [this]
    norm_num
  · simp only [perpprod, perpprodRaw, dotprod, dotprodRaw, leanSeg, farSeg, line.get_V]
    norm_num

theorem angle_to_farSeg_leanSeg (m : Libm ℝ) (hm : m.IsReal) :
    (farSeg : line ℝ).angle_to m leanSeg ≤ 0 := by
  have h1 : (leanSeg : line ℝ).len m > 0 := by rw [leanSeg_len m hm]; norm_num
  have h2 : (farSeg : line ℝ).len m > 0 := by rw [farSeg_len m hm]; norm_num
  rw [line.angle_to, if_pos ⟨h2, h1⟩, hm.2.1]
  apply le_of_lt
  rw [Complex.arg_neg_iff]
  simp only [perpprod, perpprodRaw, leanSeg, farSeg, line.get_V]
  norm_num

theorem angle_leanSeg (m : Libm ℝ) : (leanSeg : line ℝ).angle m = m.pi / 2 := by
  have h : line.is_small ((leanSeg : line ℝ).V.dx) = true := by
    simp only [line.is_small, leanSeg, decide_eq_true_eq, SNAP_LEN]
    rw [abs_lt]; constructor <;> norm_num
  rw [line.angle, if_pos h, if_pos (by simp only [leanSeg]; norm_num)]

theorem angle_farSeg (m : Libm ℝ) (hm : m.IsReal) :
    Real.pi / 2 < (farSeg : line ℝ).angle m := by
  have h : ¬ line.is_small ((farSeg : line ℝ).V.dx) = true := by
    simp only [line.is_small, farSeg, decide_eq_true_eq, SNAP_LEN, not_lt]
    rw [le_abs]; right; norm_num
  rw [line.angle, if_neg h, hm.2.1]
  by_contra hle
  rw [not_lt, Complex.arg_le_pi_div_two_iff] at hle
  simp only [farSeg] at hle
  norm_num at hle

/-- The one radial offsetting line at the end of `leanSeg`: the angle of
`leanSeg` is read as a quarter turn, so the fan starts at the horizontal. -/
theorem radial_leanSeg (m : Libm ℝ) (hm : m.IsReal) :
    radial_offset_lines m (leanSeg : line ℝ) farSeg 0 (-1) = .ok [fanCand m] := by
  have hb := arcsin_thirteen_bounds
  have hpi := Real.pi_pos
  have hlen : ¬ (farSeg : line ℝ).len m = 0 := by rw [farSeg_len m hm]; norm_num
  have had := angle_to_leanSeg_farSeg m hm
  have hpos : (0 : ℝ) < Real.arcsin (13 / 85) := lt_of_lt_of_le (by positivity) hb.1
  have hfl : ⌊|Real.arcsin (13 / 85)| / (3 * m.pi / 180)⌋ = 2 := by
    rw [hm.2.2.2.2, abs_of_pos hpos, Int.floor_eq_iff]
    constructor
    · rw [le_div_iff₀ (by positivity)]; push_cast; linarith [hb.1]
    · rw [div_lt_iff₀ (by positivity)]; push_cast; linarith [hb.2]
  have ha1 := angle_farSeg m hm
  simp only [radial_offset_lines, if_neg hlen, had, hfl, angle_leanSeg]
  rw [if_pos ⟨hpos, by norm_num⟩]
  have hw1 : add_while (fun a => decide (a < 0)) (m.pi * 2) 8 (m.pi / 2 - m.pi / 2) =
      .ok (m.pi / 2 - m.pi / 2) := by
    simp [add_while]
  rw [hw1]
  simp only [Res.bind]
  have hw2 : add_while (fun a => decide (a < m.pi / 2 - m.pi / 2)) (m.pi * 2) 8
      ((farSeg : line ℝ).angle m - m.pi / 2) = .ok ((farSeg : line ℝ).angle m - m.pi / 2) := by
    have : ¬ ((farSeg : line ℝ).angle m - m.pi / 2 < m.pi / 2 - m.pi / 2) := by
      rw [hm.2.2.2.2]; linarith
    rw [add_while, if_neg (by simpa using this)]
  rw [hw2]
  simp only [Res.ok.injEq]
  have hr : List.range (2 - 1 : ℤ).toNat = [0] := by decide
  rw [hr]
  simp only [List.map_cons, List.map_nil, List.cons.injEq, and_true]
  have harg : m.pi / 2 - m.pi / 2 + ((0 + 1 : ℕ) : ℝ) * (3 * m.pi / 180) = m.pi / 60 := by
    push_cast; ring
  rw [harg]
  simp only [fanCand, fanEnd, line.rotate, rotatePoint, line.ofPoints, line.get_S0, line.get_S1,
    line.get_pt, T_S1, leanSeg, offset_line.mk.injEq, line.mk.injEq, coord_t.mk.injEq,
    vector_t.mk.injEq, and_true]
  norm_num

end LeanAngles

section LeanCandidates

/-- The linear offsetting lines of an element not longer than 2, whose copy
moved sideways is the element displaced by `v`. -/
theorem linear_offset_lines_side (m : Libm ℝ) (ln : line ℝ) (idx : Nat) (ofs L : ℝ)
    (v : vector_t ℝ) (hL : ln.len m = L) (hL2 : L ≤ 2)
    (hv : ln.move_sideways m ofs = ⟨⟨ln.S0.x + v.dx, ln.S0.y + v.dy⟩, ln.V⟩) :
    linear_offset_lines m ln idx ofs =
      sideCands (fun T => ln.get_pt T) v idx true true true true true := by
  rw [linear_offset_lines_short m ln idx ofs L hL hL2, hv]
  simp only [sideCands, List.map_cons, List.map_nil, line.get_pt, add_sub_add_right_eq_sub,
    add_sub_cancel_left]

theorem move_sideways_leanSeg (m : Libm ℝ) (hm : m.IsReal) :
    (leanSeg : line ℝ).move_sideways m (-1) =
      ⟨⟨(leanSeg : line ℝ).S0.x + 12 / 13, (leanSeg : line ℝ).S0.y + 5 / 13⟩, leanSeg.V⟩ := by
  have h : Real.sqrt (-(216 / 1000000 : ℝ) * -(216 / 1000000) +
      -(9 / 100000) * -(9 / 100000)) = 234 / 1000000 := by
    rw [Real.sqrt_eq_iff_mul_self_eq (by positivity) (by norm_num)]
    norm_num
  simp only [line.move_sideways, line.add_offset, leanSeg, hm.1, h, line.mk.injEq,
    coord_t.mk.injEq, and_true]
  norm_num

theorem move_sideways_farSeg (m : Libm ℝ) (hm : m.IsReal) :
    (farSeg : line ℝ).move_sideways m (-1) =
      ⟨⟨(farSeg : line ℝ).S0.x + 943 / 1105, (farSeg : line ℝ).S0.y + 576 / 1105⟩,
        farSeg.V⟩ := by
  have h : Real.sqrt (-(943 / 1000 : ℝ) * -(943 / 1000) +
      -(576 / 1000) * -(576 / 1000)) = 1105 / 1000 := by
    rw [Real.sqrt_eq_iff_mul_self_eq (by positivity) (by norm_num)]
    norm_num
  simp only [line.move_sideways, line.add_offset, farSeg, hm.1, neg_neg, h, line.mk.injEq,
    coord_t.mk.injEq, and_true]
  norm_num

/-- The offsetting lines `trace_at_offset(-1)` creates for the two segments. -/
theorem create_offset_lines_leanPair (m : Libm ℝ) (hm : m.IsReal) :
    create_offset_lines m (leanPair : obj ℝ) (-1) leanPair 0 = .ok (leanCands m true) := by
  have l0 := leanSeg_len m hm
  have l1 := farSeg_len m hm
  have n0 : ¬ (234 / 1000000 : ℝ) < SNAP_LEN := by norm_num [SNAP_LEN]
  have n1 : ¬ (1105 / 1000 : ℝ) < SNAP_LEN := by norm_num [SNAP_LEN]
  have r1 := radial_offset_lines_none m (farSeg : line ℝ) leanSeg 1 (-1)
    (by rw [l0]; norm_num) (angle_to_farSeg_leanSeg m hm) (by norm_num)
  have c0 := linear_offset_lines_side m (leanSeg : line ℝ) 0 (-1) _ ⟨12 / 13, 5 / 13⟩ l0
    (by norm_num) (move_sideways_leanSeg m hm)
  have c1 := linear_offset_lines_side m (farSeg : line ℝ) 1 (-1) _ ⟨943 / 1105, 576 / 1105⟩ l1
    (by norm_num) (move_sideways_farSeg m hm)
  simp only [leanPair, create_offset_lines, l0, l1, if_neg n0, if_neg n1, obj.nextc_at,
    List.length_cons, List.length_nil, Nat.zero_add, Nat.reduceAdd, Nat.reduceLT, if_true,
    if_false, lt_irrefl, List.getElem?_cons_succ, List.getElem?_cons_zero, List.head?_cons,
    radial_leanSeg m hm, r1, Res.bind, List.append_nil, c0, c1, leanCands, List.append_assoc,
    List.singleton_append]

end LeanCandidates

section PassesFixPlain
variable {K : Type}

/-- The five offsetting lines of a side start on `f` at parameters between 0
and 1 and run by `v`. -/
theorem mem_sideCands [LinearOrderedField K] (f : K → coord_t K) (v : vector_t K) (idx : Nat)
    (b0 b1 b2 b3 b4 : Bool) (c : offset_line K) (h : c ∈ sideCands f v idx b0 b1 b2 b3 b4) :
    c.src_index = idx ∧ c.radial = false ∧ ∃ T : K, 0 ≤ T ∧ T ≤ 1 ∧ c.ln = ⟨f T, v⟩ := by
  simp only [sideCands, lineCand, List.mem_cons, List.mem_singleton, List.not_mem_nil,
    or_false] at h
  rcases h with rfl | rfl | rfl | rfl | rfl
  · exact ⟨rfl, rfl, 1 / 1000000, by norm_num, by norm_num, rfl⟩
  · exact ⟨rfl, rfl, 1 / 4, by norm_num, by norm_num, rfl⟩
  · exact ⟨rfl, rfl, 1 / 2, by norm_num, by norm_num, rfl⟩
  · exact ⟨rfl, rfl, 3 / 4, by norm_num, by norm_num, rfl⟩
  · exact ⟨rfl, rfl, 999999 / 1000000, by norm_num, by norm_num, rfl⟩

end PassesFixPlain

section PassesFix
variable {K : Type} [LinearOrderedField K]

/-- The proximity pass changes nothing when no line is too close. -/
theorem proximity_pass_id (m : Libm K) (e : obj K) (test : K) (osln : List (offset_line K))
    (h : ∀ c ∈ osln, too_close m test c e 0 = false) :
    proximity_pass m e test osln = osln := by
  rw [proximity_pass]
  conv_rhs => rw [← List.map_id osln]
  apply List.map_congr_left
  intro c hc
  simp [h c hc]

theorem crossed_eq_false (m : Libm K) (ref : offset_line K) :
    ∀ rest : List (offset_line K),
      (∀ cmp ∈ rest, (ref.ln.lines_intersect m cmp.ln false).1 = false) →
      crossed m ref rest = false := by
  intro rest
  induction rest with
  | nil => intro _; rfl
  | cons cmp rest ih =>
    intro h
    rw [crossed, h cmp (List.mem_cons_self _ _)]
    simp only [Bool.and_false, Bool.false_eq_true, if_false]
    exact ih fun c hc => h c (List.mem_cons_of_mem _ hc)

/-- The crossing pass changes nothing when no line crosses a line behind it. -/
theorem crossing_pass_id (m : Libm K) :
    ∀ l : List (offset_line K),
      l.Pairwise (fun a b => (a.ln.lines_intersect m b.ln false).1 = false) →
      crossing_pass m l = l := by
  intro l
  induction l with
  | nil => intro _; rfl
  | cons ref rest ih =>
    intro h
    rw [List.pairwise_cons] at h
    rw [crossing_pass, crossed_eq_false m ref rest h.1, ih h.2]
    simp

end PassesFix

section FarApart

theorem abs_x_le_dist (m : Libm ℝ) (hm : m.IsReal) (p q : coord_t ℝ) :
    |p.x - q.x| ≤ distTwoPoints m p q := by
  by_contra h
  rw [not_le] at h
  exact dist_gt_of_coord m hm p q _ (Or.inl h) (le_refl _)

/-- A point whose `x` differs by at least `d` from that of every point of a
segment is not nearer than `d` to the segment. -/
theorem distance_to_point_far (m : Libm ℝ) (hm : m.IsReal) (l : line ℝ) (p : coord_t ℝ)
    (d : ℝ) (h : ∀ t : ℝ, 0 ≤ t → t ≤ 1 → d ≤ |p.x - (l.get_pt t).x|) :
    ¬ l.distance_to_point m p < d := by
  rw [not_lt, line.distance_to_point]
  split_ifs with h1 h2
  · have h0 := h 0 (le_refl _) zero_le_one
    have := abs_x_le_dist m hm l.S0 p
    rw [abs_sub_comm] at this
    simp only [line.get_pt, zero_mul, add_zero] at h0
    linarith
  · have h0 := h 1 zero_le_one (le_refl _)
    have := abs_x_le_dist m hm l.get_S1 p
    rw [abs_sub_comm] at this
    simp only [line.get_S1, T_S1] at this ⊢
    linarith
  · have h0 := h _ (not_lt.mp h1) (not_lt.mp h2)
    exact le_trans h0 (abs_x_le_dist m hm p _)

end FarApart

section LeanProximity

theorem cos_sin_sixtieth :
    (998 / 1000 : ℝ) ≤ Real.cos (Real.pi / 60) ∧ Real.cos (Real.pi / 60) ≤ 1 ∧
      0 ≤ Real.sin (Real.pi / 60) ∧ Real.sin (Real.pi / 60) ≤ 53 / 1000 := by
  have hpi1 := Real.pi_gt_d2
  have hpi2 := Real.pi_lt_d2
  refine ⟨?_, Real.cos_le_one _, ?_, ?_⟩
  · have h := Real.one_sub_sq_div_two_le_cos (x := Real.pi / 60)
    have h2 : Real.pi / 60 ≤ 53 / 1000 := by linarith
    have h3 : 0 ≤ Real.pi / 60 := by positivity
    nlinarith
  · exact Real.sin_nonneg_of_nonneg_of_le_pi (by positivity) (by linarith)
  · have h := Real.sin_le (x := Real.pi / 60) (by positivity)
    linarith

/-- No offsetting line of the two segments ends nearer than 1 to the segment it
was not made from. -/
theorem proximity_leanPair (m : Libm ℝ) (hm : m.IsReal) :
    proximity_pass m (leanPair : obj ℝ) |(-1 : ℝ)| (leanCands m true) = leanCands m true := by
  obtain ⟨hc1, hc2, hs1, hs2⟩ := cos_sin_sixtieth
  have habs : |(-1 : ℝ)| = 1 := by norm_num
  rw [habs]
  apply proximity_pass_id
  intro c hc
  simp only [leanCands, List.mem_append, List.mem_cons] at hc
  rcases hc with h | rfl | h
  · obtain ⟨hi, _, T, hT0, hT1, hln⟩ := mem_sideCands _ _ _ _ _ _ _ _ c h
    have hfar : ¬ (farSeg : line ℝ).distance_to_point m c.ln.get_S1 < 1 := by
      apply distance_to_point_far m hm
      intro t ht0 ht1
      rw [hln]
      simp only [line.get_S1, line.get_pt, leanSeg, farSeg, T_S1]
      rw [le_abs]; right
      nlinarith
    simp [leanPair, too_close, hi, hfar]
  · have hfar : ¬ (farSeg : line ℝ).distance_to_point m (fanCand m).ln.get_S1 < 1 := by
      apply distance_to_point_far m hm
      intro t ht0 ht1
      simp only [fanCand, fanEnd, ofPoints_get_S1, line.get_pt, farSeg, hm.2.2.1, hm.2.2.2.2]
      rw [le_abs]; right
      nlinarith
    have hi : (fanCand m).src_index = 0 := rfl
    simp [leanPair, too_close, hi, hfar]
  · obtain ⟨hi, _, T, hT0, hT1, hln⟩ := mem_sideCands _ _ _ _ _ _ _ _ c h
    have hfar : ¬ (leanSeg : line ℝ).distance_to_point m c.ln.get_S1 < 1 := by
      apply distance_to_point_far m hm
      intro t ht0 ht1
      rw [hln]
      simp only [line.get_S1, line.get_pt, leanSeg, farSeg, T_S1]
      rw [le_abs]; left
      nlinarith
    simp [leanPair, too_close, hi, hfar]

end LeanProximity

section ApartLemmas
variable {K : Type} [LinearOrderedField K]

/-- Two segments with the same direction vector do not intersect, for
`lines_intersect`, when the vector between their starts is not parallel to it. -/
theorem parallel_apart (m : Libm K) (p q : coord_t K) (v : vector_t K)
    (h : perpprod v ⟨p.x - q.x, p.y - q.y⟩ ≠ 0) :
    ((⟨p, v⟩ : line K).lines_intersect m ⟨q, v⟩ false).1 = false := by
  have hpp : perpprod v v = 0 := by simp only [perpprod, perpprodRaw]; ring
  have hs : (0 : K) < SMALL_NUM := by norm_num [SMALL_NUM, SNAP_LEN]
  simp only [line.lines_intersect, hpp]
  rw [if_pos (Or.inr ⟨le_refl _, hs⟩), if_pos (Or.inl h)]

/-- Two segments of non-zero length, one to the left of `x = a` and the other
to the right of `x = b`, with `a < b`, do not intersect. -/
theorem lines_far_apart (m : Libm K) (l l2 : line K) (a b : K) (hab : a < b)
    (h1 : NonZero l) (h2 : NonZero l2)
    (hl : ∀ t : K, 0 ≤ t → t ≤ 1 → (l.get_pt t).x ≤ a)
    (hl2 : ∀ t : K, 0 ≤ t → t ≤ 1 → b ≤ (l2.get_pt t).x) :
    (l.lines_intersect m l2 false).1 = false := by
  apply intersect_false_of_not_meet m l l2 h1 h2
  rintro ⟨p, ⟨t, ht0, ht1, hp⟩, ⟨t2, ht20, ht21, hp2⟩⟩
  have e1 := hl t ht0 ht1
  have e2 := hl2 t2 ht20 ht21
  rw [hp] at e1
  rw [hp2] at e2
  exact absurd (lt_of_le_of_lt (le_trans e2 e1) hab) (lt_irrefl _)

/-- The five offsetting lines of a side do not intersect one another. -/
theorem sideCands_pairwise (m : Libm K) (s : line K) (v : vector_t K) (idx : Nat)
    (b0 b1 b2 b3 b4 : Bool) (h : perpprod v s.V ≠ 0) :
    (sideCands (fun T => s.get_pt T) v idx b0 b1 b2 b3 b4).Pairwise
      (fun a b => (a.ln.lines_intersect m b.ln false).1 = false) := by
  have key : ∀ T T2 : K, T ≠ T2 →
      ((⟨s.get_pt T, v⟩ : line K).lines_intersect m ⟨s.get_pt T2, v⟩ false).1 = false := by
    intro T T2 hne
    apply parallel_apart
    have : perpprod v ⟨(s.get_pt T).x - (s.get_pt T2).x, (s.get_pt T).y - (s.get_pt T2).y⟩ =
        (T - T2) * perpprod v s.V := by
      simp only [perpprod, perpprodRaw, line.get_pt]; ring
    rw [this]
    exact mul_ne_zero (sub_ne_zero.mpr hne) h
  simp only [sideCands, lineCand, List.pairwise_cons, List.mem_cons, List.mem_singleton,
    List.not_mem_nil, or_false, forall_eq_or_imp, forall_eq, List.Pairwise.nil, and_true,
    IsEmpty.forall_iff, implies_true]
  refine ⟨⟨?_, ?_, ?_, ?_⟩, ⟨?_, ?_, ?_⟩, ⟨?_, ?_⟩, ?_⟩ <;> apply key <;> norm_num

end ApartLemmas

section LeanCrossing

theorem nonZero_fanCand (m : Libm ℝ) (hm : m.IsReal) : NonZero (fanCand m).ln := by
  obtain ⟨hc1, hc2, hs1, hs2⟩ := cos_sin_sixtieth
  left
  simp only [fanCand, fanEnd, line.ofPoints, hm.2.2.1, hm.2.2.2.2]
  intro h
  linarith

/-- No offsetting line of the two segments crosses another. -/
theorem crossing_leanPair (m : Libm ℝ) (hm : m.IsReal) :
    crossing_pass m (leanCands m true) = leanCands m true := by
  obtain ⟨hc1, hc2, hs1, hs2⟩ := cos_sin_sixtieth
  apply crossing_pass_id
  have hfarR : ∀ (a : offset_line ℝ), NonZero a.ln →
      (∀ t : ℝ, 0 ≤ t → t ≤ 1 → (a.ln.get_pt t).x ≤ 2) →
      ∀ b ∈ sideCands (fun T => (farSeg : line ℝ).get_pt T) ⟨943 / 1105, 576 / 1105⟩ 1
          true true true true true,
        (a.ln.lines_intersect m b.ln false).1 = false := by
    intro a ha hx b hb
    obtain ⟨_, _, T, hT0, hT1, hln⟩ := mem_sideCands _ _ _ _ _ _ _ _ b hb
    apply lines_far_apart m a.ln b.ln 2 9 (by norm_num) ha
    · rw [hln]; left; norm_num
    · exact hx
    · intro t ht0 ht1
      rw [hln]
      simp only [line.get_pt, farSeg]
      nlinarith
  simp only [leanCands]
  rw [List.pairwise_append, List.pairwise_cons]
  refine ⟨?_, ⟨?_, ?_⟩, ?_⟩
  · apply sideCands_pairwise
    simp only [perpprod, perpprodRaw, leanSeg]; norm_num
  · apply hfarR _ (nonZero_fanCand m hm)
    intro t ht0 ht1
    simp only [fanCand, fanEnd, line.ofPoints, line.get_pt, hm.2.2.1, hm.2.2.2.2]
    nlinarith
  · apply sideCands_pairwise
    simp only [perpprod, perpprodRaw, farSeg]; norm_num
  · intro a ha b hb
    obtain ⟨_, _, T, hT0, hT1, hln⟩ := mem_sideCands _ _ _ _ _ _ _ _ a ha
    have hnz : NonZero a.ln := by rw [hln]; left; norm_num
    rw [List.mem_cons] at hb
    rcases hb with rfl | hb
    · apply intersect_false_of_not_meet m _ _ hnz (nonZero_fanCand m hm)
      rintro ⟨p, ⟨ta, hta0, hta1, hp⟩, ⟨tb, htb0, htb1, hp2⟩⟩
      rw [hln] at hp
      rw [← hp2] at hp
      simp only [fanCand, fanEnd, line.ofPoints, line.get_pt, leanSeg, hm.2.2.1, hm.2.2.2.1,
        hm.2.2.2.2, coord_t.mk.injEq] at hp
      obtain ⟨e1, e2⟩ := hp
      have hk : 0 ≤ tb * (5 * Real.cos (Real.pi / 60) - 12 * Real.sin (Real.pi / 60) - 4) :=
        mul_nonneg htb0 (by linarith)
      nlinarith
    · apply hfarR a hnz _ b hb
      intro t ht0 ht1
      rw [hln]
      simp only [line.get_pt, leanSeg]
      nlinarith

end LeanCrossing

section ClosedChain

theorem pathOf_len_gt (m : Libm ℝ) (snap : ℝ) (a : coord_t ℝ) (ps : List (coord_t ℝ))
    (hsep : (a :: ps).Pairwise (fun p q => snap < distTwoPoints m p q)) :
    ∀ l ∈ pathOf a ps, snap < l.len m := by
  induction ps generalizing a with
  | nil => intro l hl; simp [pathOf] at hl
  | cons p ps ih =>
    intro l hl
    rw [List.pairwise_cons] at hsep
    simp only [pathOf, List.mem_cons] at hl
    rcases hl with rfl | hl
    · rw [len_ofPoints, distTwoPoints_comm]
      exact hsep.1 p (List.mem_cons_self _ _)
    · exact ih p hsep.2 l hl

/-- Every segment of a polygon whose vertices are more than `snap` apart is
longer than `snap`. -/
theorem polygon_len_gt (m : Libm ℝ) (snap : ℝ) (vs : List (coord_t ℝ))
    (h2 : 2 ≤ vs.length) (hsep : vs.Pairwise (fun p q => snap < distTwoPoints m p q)) :
    ∀ l ∈ polygon vs, snap < l.len m := by
  cases vs with
  | nil => simp at h2
  | cons a rest =>
    obtain ⟨ini, z, rfl⟩ : ∃ ini z, rest = ini ++ [z] := by
      rcases List.eq_nil_or_concat rest with rfl | ⟨ini, z, h⟩
      · simp at h2
      · exact ⟨ini, z, by rw [h, List.concat_eq_append]⟩
    rw [polygon, pathOf_append a (ini ++ [z]) [a] z (getLast_cons_of_some _ _ _ (by simp))]
    intro l hl
    rw [List.mem_append] at hl
    rcases hl with hl | hl
    · exact pathOf_len_gt m snap a _ hsep l hl
    · simp only [pathOf, List.mem_singleton] at hl
      subst hl
      rw [len_ofPoints]
      rw [List.pairwise_cons] at hsep
      exact hsep.1 z (by simp)

/-- No two segments of a polygon with distinct vertices are the same. -/
theorem polygon_distinct (ws : List (coord_t ℝ)) (hnd : ws.Nodup) :
    (polygon ws).Pairwise (fun a b => a.is_same_as b = false) := by
  have h : (polygon ws).Nodup := List.Nodup.of_map line.get_S0 (by rw [polygon_S0]; exact hnd)
  refine List.Pairwise.imp ?_ h
  intro a b hab
  cases hs : a.is_same_as b
  · rfl
  · exact absurd ((is_same_as_iff a b).1 hs).symm hab

theorem sep_of_rotated (m : Libm ℝ) (snap : ℝ) (vs ws : List (coord_t ℝ))
    (hsep : vs.Pairwise (fun p q => snap < distTwoPoints m p q))
    (hg : ws.IsRotated vs ∨ ws.IsRotated vs.reverse) :
    ws.Pairwise (fun p q => snap < distTwoPoints m p q) ∧ ws.length = vs.length := by
  have hperm : ws.Perm vs := by
    rcases hg with h | h
    · exact h.perm
    · exact h.perm.trans (List.reverse_perm _)
  exact ⟨(List.Perm.pairwise_iff (fun {a b} hab => by rw [distTwoPoints_comm]; exact hab)
    hperm).2 hsep, hperm.length_eq⟩

/-- `make_path` on a polygon whose vertices are more than `snap` apart returns
the polygon, from some vertex on, in one of the two directions. -/
theorem make_path_polygon_any (m : Libm ℝ) (hm : m.IsReal) (snap : ℝ) (hsnap : 0 ≤ snap)
    (vs : List (coord_t ℝ)) (h2 : 2 ≤ vs.length)
    (hsep : vs.Pairwise (fun p q => snap < distTwoPoints m p q)) :
    ∃ ws : List (coord_t ℝ), (ws.IsRotated vs ∨ ws.IsRotated vs.reverse) ∧
      make_path_snap m snap (polygon vs) = .ok (polygon ws) := by
  have hplv := polygon_length vs
  cases hpv : polygon vs with
  | nil => rw [hpv] at hplv; simp at hplv; omega
  | cons st r =>
    have hkeys : ((st :: r).map endsKey).Perm ((polygon vs).map endsKey) := by rw [hpv]
    obtain ⟨ws1, hg1, htr1⟩ := trace_scrambled m snap vs (sep_decides m hm snap hsnap vs hsep)
      (sep_nodup m hm snap hsnap vs hsep) h2 st r hkeys
    obtain ⟨hsep1, hlen1⟩ := sep_of_rotated m snap vs ws1 hsep hg1
    have hpl := polygon_length ws1
    cases hp : polygon ws1 with
    | nil => rw [hp] at hpl; simp at hpl; omega
    | cons p0 ps =>
      rw [hp] at htr1
      have hmp : make_path_full m snap false false (st :: r) [] [] =
          make_path_loop m snap false false (r.length + 1) [] (st :: r) [] [] := rfl
      by_cases hcw : is_clockwise m p0 ps = true
      · refine ⟨ws1, hg1, ?_⟩
        rw [make_path_snap, hmp, make_path_loop_closed m snap false false _ [] st r [] [] p0 ps []
          htr1 hcw, make_path_loop_nil, hp]
        simp
      · have hk2 : ((p0.reverse :: (ps.map line.reverse ++ [])).map endsKey).Perm
            ((polygon ws1).map endsKey) := by
          have : (endsKey ∘ line.reverse : line ℝ → _) = endsKey := by
            funext l; exact endsKey_reverse l
          have e : p0.reverse :: (ps.map line.reverse ++ []) = (p0 :: ps).map line.reverse := by
            simp
          rw [e, List.map_map, this, hp]
        obtain ⟨ws2, hg2, htr2⟩ := trace_scrambled m snap ws1
          (sep_decides m hm snap hsnap ws1 hsep1) (sep_nodup m hm snap hsnap ws1 hsep1)
          (by omega) p0.reverse (ps.map line.reverse ++ []) hk2
        have hg2' : ws2.IsRotated vs ∨ ws2.IsRotated vs.reverse := by
          rcases hg2 with h | h
          · rcases hg1 with h1 | h1
            · exact Or.inl (h.trans h1)
            · exact Or.inr (h.trans h1)
          · rcases hg1 with h1 | h1
            · exact Or.inr (h.trans h1.reverse)
            · refine Or.inl (h.trans ?_)
              have := h1.reverse
              rwa [List.reverse_reverse] at this
        refine ⟨ws2, hg2', ?_⟩
        rw [make_path_snap, hmp, make_path_loop_reversed m snap false false _ [] st r [] [] p0 ps
          [] (polygon ws2) [] htr1 (by simpa using hcw) (by simpa using htr2),
          make_path_loop_nil]
        simp

/-- `regularise` on a polygon whose vertices are more than `SNAP_LEN` apart
returns the polygon, from some vertex on, in one of the two directions. -/
theorem regularise_loop_polygon_any (m : Libm ℝ) (hm : m.IsReal) (vs : List (coord_t ℝ))
    (h2 : 2 ≤ vs.length) (hsep : vs.Pairwise (fun p q => SNAP_LEN < distTwoPoints m p q))
    (n : Nat) :
    ∃ ws : List (coord_t ℝ), (ws.IsRotated vs ∨ ws.IsRotated vs.reverse) ∧
      regularise_loop m (n + 1) (polygon vs) = .ok (polygon ws) := by
  have hsn : (0 : ℝ) ≤ SNAP_LEN := by norm_num [SNAP_LEN]
  obtain ⟨ws, hg, hmp⟩ := make_path_polygon_any m hm SNAP_LEN hsn vs h2 hsep
  obtain ⟨hsepw, hlenw⟩ := sep_of_rotated m SNAP_LEN vs ws hsep hg
  refine ⟨ws, hg, ?_⟩
  have hd := polygon_distinct ws (sep_nodup m hm SNAP_LEN hsn ws hsepw)
  have hzl : ∀ l ∈ polygon ws, ¬ l.len m < SMALL_NUM := by
    intro l hl
    have := polygon_len_gt m SNAP_LEN ws (by omega) hsepw l hl
    rw [not_lt]
    refine le_trans ?_ this.le
    norm_num [SMALL_NUM, SNAP_LEN]
  rw [regularise_loop, make_path, hmp]
  simp only [del_dupes_zeros_none m _ hd hzl]
  simp

end ClosedChain

section JoinedChainPlain
variable {K : Type} [LinearOrderedField K]

theorem trace_scan_mid_rev (m : Libm K) (snap : K) (hz : ∀ p, distTwoPoints m p p ≤ snap)
    (s1 : line K) (rest : List (line K)) :
    ∀ (mid : List (line K)) (tail : List (line K)),
      MidTail m snap s1 ((s1 :: tail).getLast (List.cons_ne_nil _ _)) mid →
      trace_scan m snap s1 tail [] (mid.map line.reverse ++ rest) =
        trace_scan m snap s1 (tail ++ mid) [] rest := by
  intro mid
  induction mid with
  | nil => intro tail _; simp
  | cons x more ih =>
    intro tail h
    obtain ⟨h0, h1, h2, h3⟩ := h
    rw [List.map_cons, List.cons_append, trace_scan]
    simp only [reverse_get_S1, h0, if_pos (hz _), line_reverse_reverse]
    rw [← h0, ofPoints_self, line.get_S0, if_pos (hz _), if_neg h2]
    have := ih (tail ++ [x]) (by simpa using h3)
    simp only [List.nil_append]
    rw [this]
    simp

/-- The chain through the points `ps` from the end of `prev`, as a run of
elements that a trace from `s1` appends one after the other. -/
theorem midTail_pathOf (m : Libm K) (snap : K) (s1 : line K) :
    ∀ (ps : List (coord_t K)) (prev : line K) (a : coord_t K), prev.get_S1 = a →
      (a :: ps).Pairwise (fun x y => ¬ distTwoPoints m x y ≤ snap) →
      (∀ b ∈ ps, ¬ distTwoPoints m s1.get_S0 b ≤ snap) →
      MidTail m snap s1 prev (pathOf a ps) := by
  intro ps
  induction ps with
  | nil => intro prev a _ _ _; simp [pathOf, MidTail]
  | cons b ps ih =>
    intro prev a hprev hsep hst
    rw [List.pairwise_cons] at hsep
    simp only [pathOf, MidTail]
    refine ⟨?_, ?_, ?_, ?_⟩
    · rw [hprev]; rfl
    · rw [hprev, ofPoints_get_S1]; exact hsep.1 b (List.mem_cons_self _ _)
    · rw [ofPoints_get_S1]; exact hst b (List.mem_cons_self _ _)
    · exact ih _ b (ofPoints_get_S1 a b) hsep.2 (fun c hc => hst c (List.mem_cons_of_mem _ hc))

/-- "Join the dots" from a path that is not empty: the chain through the ends
of the valid lines is appended. -/
theorem join_dots_append :
    ∀ (osln : List (offset_line K)) (tr : obj K) (lst : line K), tr.getLast? = some lst →
      join_dots osln tr =
        tr ++ pathOf lst.get_S1 ((osln.filter fun c => c.valid).map fun c => c.ln.get_S1) := by
  intro osln
  induction osln with
  | nil => intro tr lst _; simp [join_dots, pathOf]
  | cons ref rest ih =>
    intro tr lst h
    rw [join_dots]
    by_cases hv : ref.valid = true
    · rw [if_pos hv, obj.add_pt, h]
      simp only
      rw [ih _ (line.ofPoints lst.get_S1 ref.ln.get_S1) (by simp), ofPoints_get_S1,
        List.filter_cons_of_pos (by simpa using hv)]
      simp [pathOf]
    · rw [if_neg hv, ih tr lst h, List.filter_cons_of_neg (by simpa using hv)]

/-- "Join the dots" from the empty path: a zero-length element at the end of
the first valid line, then the chain through the ends of the others. -/
theorem join_dots_nil :
    ∀ osln : List (offset_line K),
      join_dots osln [] =
        match (osln.filter fun c => c.valid).map fun c => c.ln.get_S1 with
        | [] => []
        | p :: ps => ⟨p, ⟨0, 0⟩⟩ :: pathOf p ps := by
  intro osln
  induction osln with
  | nil => simp [join_dots]
  | cons ref rest ih =>
    rw [join_dots]
    by_cases hv : ref.valid = true
    · rw [if_pos hv, List.filter_cons_of_pos (by simpa using hv)]
      have h1 : obj.add_pt ([] : obj K) ref.ln.get_S1 = [⟨ref.ln.get_S1, ⟨0, 0⟩⟩] := by
        simp [obj.add_pt]
      have h2 : (⟨ref.ln.get_S1, ⟨0, 0⟩⟩ : line K).get_S1 = ref.ln.get_S1 := by
        simp [line.get_S1, line.get_pt]
      rw [h1, join_dots_append rest _ ⟨ref.ln.get_S1, ⟨0, 0⟩⟩ (by simp), h2]
      simp
    · rw [if_neg hv, ih, List.filter_cons_of_neg (by simpa using hv)]

end JoinedChainPlain

section JoinedChain

/-- The trace of a joined and closed path: the zero-length first element,
the chain through points more than `SNAP_LEN` apart and the element from the
first point to the last.  The result is the zero-length element followed by
the polygon, also when the elements are first reversed. -/
theorem trace_joined_any (m : Libm ℝ) (hm : m.IsReal) (p : coord_t ℝ) (ps : List (coord_t ℝ))
    (q : coord_t ℝ) (hq : ps.getLast? = some q)
    (hsep : (p :: ps).Pairwise (fun a b => SNAP_LEN < distTwoPoints m a b)) :
    trace_a_path m SNAP_LEN ((⟨p, ⟨0, 0⟩⟩ : line ℝ) :: pathOf p ps ++ [line.ofPoints p q]) =
        (true, (⟨p, ⟨0, 0⟩⟩ : line ℝ) :: polygon (p :: ps), []) ∧
      trace_a_path m SNAP_LEN
          (((⟨p, ⟨0, 0⟩⟩ : line ℝ) :: polygon (p :: ps)).map line.reverse ++ []) =
        (true, (⟨p, ⟨0, 0⟩⟩ : line ℝ) :: polygon (p :: ps), []) := by
  have hz := dist_self_le_snap m hm
  have hzS1 : (⟨p, ⟨0, 0⟩⟩ : line ℝ).get_S1 = p := by simp [line.get_S1, line.get_pt]
  have hzrev : (⟨p, ⟨0, 0⟩⟩ : line ℝ).reverse = ⟨p, ⟨0, 0⟩⟩ := by
    simp [line.reverse, hzS1]
  have hlast : (p :: ps).getLast? = some q := getLast_cons_of_some _ _ _ hq
  have hpoly : polygon (p :: ps) = pathOf p ps ++ [line.ofPoints q p] := by
    rw [polygon, pathOf_append p ps [p] q hlast]
    rfl
  have hsep' : (p :: ps).Pairwise (fun a b => ¬ distTwoPoints m a b ≤ SNAP_LEN) :=
    hsep.imp (fun h => not_le.mpr h)
  have hmid : MidTail m SNAP_LEN (⟨p, ⟨0, 0⟩⟩ : line ℝ)
      ((([⟨p, ⟨0, 0⟩⟩] : List (line ℝ))).getLast (List.cons_ne_nil _ _)) (pathOf p ps) := by
    apply midTail_pathOf m SNAP_LEN _ ps _ p
    · simpa using hzS1
    · exact hsep'
    · intro b hb
      rw [List.pairwise_cons] at hsep'
      exact hsep'.1 b hb
  have hend : ((((⟨p, ⟨0, 0⟩⟩ : line ℝ) :: ([] ++ pathOf p ps))).getLast
      (List.cons_ne_nil _ _)).get_S1 = q := by
    cases hpp : pathOf p ps with
    | nil =>
      have := pathOf_length p ps
      rw [hpp] at this
      have hps : ps = [] := List.length_eq_zero.mp this.symm
      rw [hps] at hq
      simp at hq
    | cons st tail =>
      have := pathOf_getLast p ps q st tail hpp hq
      simpa using this
  have hclose := trace_scan_close_reversed m SNAP_LEN hz (⟨p, ⟨0, 0⟩⟩ : line ℝ)
    (line.ofPoints p q) ([] ++ pathOf p ps) (by rw [ofPoints_get_S1, hend]) rfl
  rw [hend] at hclose
  have hres : (⟨p, ⟨0, 0⟩⟩ : line ℝ) :: ([] ++ pathOf p ps ++
      [line.ofPoints q (⟨p, ⟨0, 0⟩⟩ : line ℝ).get_S0]) =
      (⟨p, ⟨0, 0⟩⟩ : line ℝ) :: polygon (p :: ps) := by
    rw [hpoly]; rfl
  rw [hres] at hclose
  constructor
  · rw [List.cons_append, trace_a_path,
      trace_scan_mid m SNAP_LEN hz _ [line.ofPoints p q] (pathOf p ps) [] hmid]
    exact hclose
  · rw [List.append_nil, List.map_cons, hzrev, hpoly, List.map_append, List.map_cons,
      List.map_nil, reverse_ofPoints, trace_a_path,
      trace_scan_mid_rev m SNAP_LEN hz _ [line.ofPoints p q] (pathOf p ps) [] hmid, ← hpoly]
    exact hclose

end JoinedChain

section JoinedRegular

/-- `regularise` on a joined and closed path through points more than
`SNAP_LEN` apart returns the polygon through the points, from some point on,
in one of the two directions. -/
theorem regularise_joined_any (m : Libm ℝ) (hm : m.IsReal) (p : coord_t ℝ)
    (ps : List (coord_t ℝ)) (q : coord_t ℝ) (hq : ps.getLast? = some q)
    (hsep : (p :: ps).Pairwise (fun a b => SNAP_LEN < distTwoPoints m a b)) :
    ∃ ws : List (coord_t ℝ), (ws.IsRotated (p :: ps) ∨ ws.IsRotated (p :: ps).reverse) ∧
      regularise m ((⟨p, ⟨0, 0⟩⟩ : line ℝ) :: pathOf p ps ++ [line.ofPoints p q]) =
        .ok (polygon ws) := by
  have hsn : (0 : ℝ) ≤ SNAP_LEN := by norm_num [SNAP_LEN]
  have hps : 1 ≤ ps.length := by
    cases ps with
    | nil => simp at hq
    | cons a t => simp
  obtain ⟨htr1, htr2⟩ := trace_joined_any m hm p ps q hq hsep
  have hlen := polygon_len_gt m SNAP_LEN (p :: ps) (by simp; omega) hsep
  have hnd := sep_nodup m hm SNAP_LEN hsn (p :: ps) hsep
  -- make_path
  have hmp : make_path m ((⟨p, ⟨0, 0⟩⟩ : line ℝ) :: pathOf p ps ++ [line.ofPoints p q]) =
      .ok ((⟨p, ⟨0, 0⟩⟩ : line ℝ) :: polygon (p :: ps)) := by
    rw [List.cons_append] at htr1 ⊢
    have hmpf : make_path_full m SNAP_LEN false false
        ((⟨p, ⟨0, 0⟩⟩ : line ℝ) :: (pathOf p ps ++ [line.ofPoints p q])) [] [] =
        make_path_loop m SNAP_LEN false false ((pathOf p ps ++ [line.ofPoints p q]).length + 1) []
          ((⟨p, ⟨0, 0⟩⟩ : line ℝ) :: (pathOf p ps ++ [line.ofPoints p q])) [] [] := rfl
    rw [make_path, make_path_snap, hmpf]
    by_cases hcw : is_clockwise m (⟨p, ⟨0, 0⟩⟩ : line ℝ) (polygon (p :: ps)) = true
    · rw [make_path_loop_closed m SNAP_LEN false false _ [] _ _ [] [] _ _ [] htr1 hcw,
        make_path_loop_nil]
      simp
    · rw [make_path_loop_reversed m SNAP_LEN false false _ [] _ _ [] [] _ _ [] _ [] htr1
        (by simpa using hcw) htr2, make_path_loop_nil]
      simp
  -- deletions
  have hdup : del_duplicates ((⟨p, ⟨0, 0⟩⟩ : line ℝ) :: polygon (p :: ps)) =
      ((⟨p, ⟨0, 0⟩⟩ : line ℝ) :: polygon (p :: ps), 0) := by
    have hp : ((⟨p, ⟨0, 0⟩⟩ : line ℝ) :: polygon (p :: ps)).Pairwise
        (fun a b => a.is_same_as b = false) := by
      rw [List.pairwise_cons]
      refine ⟨?_, polygon_distinct _ hnd⟩
      intro b hb
      cases hs : (⟨p, ⟨0, 0⟩⟩ : line ℝ).is_same_as b
      · rfl
      · have hb0 := (is_same_as_iff _ _).1 hs
        have := hlen b hb
        rw [hb0] at this
        simp only [line.len, hm.1, mul_zero, add_zero, Real.sqrt_zero] at this
        linarith
    have := del_duplicates_outer_none _ [] _ 0 hp (le_refl _)
    simpa [del_duplicates] using this
  have hzl : ∀ l ∈ polygon (p :: ps), ¬ l.len m < SMALL_NUM := by
    intro l hl
    have := hlen l hl
    rw [not_lt]
    refine le_trans ?_ this.le
    norm_num [SMALL_NUM, SNAP_LEN]
  have hzero : del_zero_lens m ((⟨p, ⟨0, 0⟩⟩ : line ℝ) :: polygon (p :: ps)) =
      (polygon (p :: ps), 1) := by
    have hz0 : line.len m (⟨p, ⟨0, 0⟩⟩ : line ℝ) < SMALL_NUM := by
      simp [line.len, hm.1, SMALL_NUM, SNAP_LEN]
    rw [del_zero_lens, del_zero_lens_loop, if_pos hz0,
      del_zero_lens_loop_none m _ _ _ (by simpa using hzl)]
    simp
  have hdel : del_dupes_zeros m ((⟨p, ⟨0, 0⟩⟩ : line ℝ) :: polygon (p :: ps)) =
      (polygon (p :: ps), true) := by
    simp only [del_dupes_zeros, hdup, hzero]
    simp
  obtain ⟨ws, hg, hreg⟩ := regularise_loop_polygon_any m hm (p :: ps) (by simp; omega) hsep
    ((pathOf p ps ++ [line.ofPoints p q]).length)
  refine ⟨ws, hg, ?_⟩
  rw [regularise, regularise_loop, hmp]
  simp only [hdel, if_true]
  rw [← hreg]
  rfl

end JoinedRegular

section LeanTrace

theorem redundant_leanPair (m : Libm ℝ) :
    redundant_pass none (leanCands m true) = leanCands m false := by
  simp [leanCands, sideCands, lineCand, fanCand, redundant_pass]

theorem ends_leanPair (m : Libm ℝ) :
    ((leanCands m false).filter fun c => c.valid).map (fun c => c.ln.get_S1) =
      leanTraceVerts m := by
  simp [leanCands, sideCands, lineCand, fanCand, leanTraceVerts, sidePt, ofPoints_get_S1]

theorem sep_leanTraceVerts (m : Libm ℝ) (hm : m.IsReal) :
    (leanTraceVerts m).Pairwise (fun a b => SNAP_LEN < distTwoPoints m a b) := by
  obtain ⟨hc1, hc2, hs1, hs2⟩ := cos_sin_sixtieth
  have key : ∀ a b : coord_t ℝ, (SNAP_LEN < |a.x - b.x| ∨ SNAP_LEN < |a.y - b.y|) →
      SNAP_LEN < distTwoPoints m a b := fun a b h => not_le.mp (dist_gt_of_coord m hm a b _ h)
  simp only [leanTraceVerts, List.pairwise_cons, List.mem_cons, List.mem_singleton,
    List.not_mem_nil, or_false, forall_eq_or_imp, forall_eq, List.Pairwise.nil, and_true,
    IsEmpty.forall_iff, implies_true]
  refine ⟨⟨?_, ?_, ?_, ?_, ?_, ?_⟩, ⟨?_, ?_, ?_, ?_, ?_⟩, ⟨?_, ?_, ?_, ?_⟩, ⟨?_, ?_, ?_⟩,
    ⟨?_, ?_⟩, ?_⟩ <;> apply key <;>
    simp only [sidePt, fanEnd, line.get_S1, line.get_pt, T_S1, leanSeg, farSeg, SNAP_LEN,
      hm.2.2.1, hm.2.2.2.1, hm.2.2.2.2, lt_abs]
  all_goals first
    | (left; left; norm_num; done)
    | (left; right; norm_num; done)
    | (right; left; norm_num; done)
    | (right; right; norm_num; done)
    | (left; right; linarith)

/-- The end of the radial offsetting line is nearer than 1 to `leanSeg`: it
is nearest to the start of the segment. -/
theorem fanEnd_near (m : Libm ℝ) (hm : m.IsReal) :
    (leanSeg : line ℝ).distance_to_point m (fanEnd m) < 1 := by
  obtain ⟨hc1, hc2, hs1, hs2⟩ := cos_sin_sixtieth
  have hcs := Real.sin_sq_add_cos_sq (Real.pi / 60)
  have ht : (((fanEnd m).x - (leanSeg : line ℝ).S0.x) * (leanSeg : line ℝ).V.dx +
      ((fanEnd m).y - (leanSeg : line ℝ).S0.y) * (leanSeg : line ℝ).V.dy) /
      ((leanSeg : line ℝ).V.dx * (leanSeg : line ℝ).V.dx +
        (leanSeg : line ℝ).V.dy * (leanSeg : line ℝ).V.dy) < 0 := by
    apply div_neg_of_neg_of_pos
    · simp only [fanEnd, leanSeg, hm.2.2.1, hm.2.2.2.1, hm.2.2.2.2]
      nlinarith
    · simp only [leanSeg]; norm_num
  rw [line.distance_to_point, if_pos ht]
  simp only [distTwoPoints, hm.1, leanSeg, fanEnd, hm.2.2.1, hm.2.2.2.1, hm.2.2.2.2]
  rw [Real.sqrt_lt' (by norm_num)]
  nlinarith

end LeanTrace

section LeanResult

/-- `trace_at_offset(-1)` on the two segments returns the polygon through the
ends of the seven offsetting lines that stay valid, from one of them on, in
one of the two directions. -/
theorem trace_at_offset_leanPair (m : Libm ℝ) (hm : m.IsReal) :
    ∃ ws : List (coord_t ℝ),
      (ws.IsRotated (leanTraceVerts m) ∨ ws.IsRotated (leanTraceVerts m).reverse) ∧
      trace_at_offset m false (leanPair : obj ℝ) (-1) = .ok (polygon ws) := by
  have hsep := sep_leanTraceVerts m hm
  obtain ⟨ws, hg, hreg⟩ := regularise_joined_any m hm
    (sidePt leanSeg ⟨12 / 13, 5 / 13⟩ (1 / 1000000))
    [sidePt leanSeg ⟨12 / 13, 5 / 13⟩ (1 / 2),
      sidePt leanSeg ⟨12 / 13, 5 / 13⟩ (999999 / 1000000), fanEnd m,
      sidePt farSeg ⟨943 / 1105, 576 / 1105⟩ (1 / 1000000),
      sidePt farSeg ⟨943 / 1105, 576 / 1105⟩ (1 / 2),
      sidePt farSeg ⟨943 / 1105, 576 / 1105⟩ (999999 / 1000000)]
    (sidePt farSeg ⟨943 / 1105, 576 / 1105⟩ (999999 / 1000000)) (by simp) hsep
  refine ⟨ws, hg, ?_⟩
  have hj : join_dots (leanCands m false) [] =
      (⟨sidePt leanSeg ⟨12 / 13, 5 / 13⟩ (1 / 1000000), ⟨0, 0⟩⟩ : line ℝ) ::
        pathOf (sidePt leanSeg ⟨12 / 13, 5 / 13⟩ (1 / 1000000))
          [sidePt leanSeg ⟨12 / 13, 5 / 13⟩ (1 / 2),
            sidePt leanSeg ⟨12 / 13, 5 / 13⟩ (999999 / 1000000), fanEnd m,
            sidePt farSeg ⟨943 / 1105, 576 / 1105⟩ (1 / 1000000),
            sidePt farSeg ⟨943 / 1105, 576 / 1105⟩ (1 / 2),
            sidePt farSeg ⟨943 / 1105, 576 / 1105⟩ (999999 / 1000000)] := by
    rw [join_dots_nil, ends_leanPair]
    rfl
  simp only [trace_at_offset, regularise_leanPair m hm, Res.bind,
    create_offset_lines_leanPair m hm, proximity_leanPair m hm, crossing_leanPair m hm,
    redundant_leanPair m, hj]
  simp only [pathOf, List.head?_cons, List.getLast?_cons_cons, List.getLast?_singleton,
    ofPoints_get_S1, line.get_S0] at hreg ⊢
  simp only [List.cons_append, List.nil_append] at hreg ⊢
  rw [hreg]
  simp

end LeanResult

section OwnDistance

/-- The distance from a segment of non-zero length to a point whose foot on
the line of the segment lies on the segment is the distance to the foot. -/
theorem distance_to_point_foot (m : Libm ℝ) (l : line ℝ) (p : coord_t ℝ) (t : ℝ)
    (ht0 : 0 ≤ t) (ht1 : t ≤ 1) (hN : l.V.dx * l.V.dx + l.V.dy * l.V.dy ≠ 0)
    (hperp : (p.x - (l.get_pt t).x) * l.V.dx + (p.y - (l.get_pt t).y) * l.V.dy = 0) :
    l.distance_to_point m p = distTwoPoints m p (l.get_pt t) := by
  have ht : ((p.x - l.S0.x) * l.V.dx + (p.y - l.S0.y) * l.V.dy) /
      (l.V.dx * l.V.dx + l.V.dy * l.V.dy) = t := by
    rw [div_eq_iff hN]
    simp only [line.get_pt] at hperp
    linear_combination hperp
  rw [line.distance_to_point, ht, if_neg (not_lt.mpr ht0), if_neg (not_lt.mpr ht1)]

/-- The end of a linear offsetting line is at the distance `|ofs|` from the
element it was made from. -/
theorem linear_cand_distance (m : Libm ℝ) (hm : m.IsReal) (ofs : ℝ) (ln : line ℝ)
    (c : offset_line ℝ) (hlen : ¬ ln.len m < SNAP_LEN) (h : IsLinearCand m ofs ln c) :
    ln.distance_to_point m c.ln.get_S1 = |ofs| := by
  obtain ⟨_, T, hT0, hT1, hP⟩ := h
  have hN0 : 0 < ln.V.dx * ln.V.dx + ln.V.dy * ln.V.dy := by
    rw [not_lt, line.len, hm.1] at hlen
    have hs : (0 : ℝ) < SNAP_LEN := by norm_num [SNAP_LEN]
    exact Real.sqrt_pos.mp (lt_of_lt_of_le hs hlen)
  have hr : Real.sqrt (-ln.V.dy * -ln.V.dy + ln.V.dx * ln.V.dx) ≠ 0 := by
    apply (Real.sqrt_pos.mpr _).ne'
    nlinarith
  have hrr : Real.sqrt (-ln.V.dy * -ln.V.dy + ln.V.dx * ln.V.dx) *
      Real.sqrt (-ln.V.dy * -ln.V.dy + ln.V.dx * ln.V.dx) =
      ln.V.dx * ln.V.dx + ln.V.dy * ln.V.dy := by
    rw [Real.mul_self_sqrt (by nlinarith)]
    ring
  rw [hP, distance_to_point_foot m ln _ T hT0 hT1 hN0.ne']
  · simp only [distTwoPoints, line.move_sideways, line.add_offset, line.get_pt, hm.1]
    rw [← Real.sqrt_sq_eq_abs]
    congr 1
    generalize Real.sqrt (-ln.V.dy * -ln.V.dy + ln.V.dx * ln.V.dx) = r at hr hrr
    field_simp
    linear_combination (-(ofs ^ 2)) * hrr
  · simp only [line.move_sideways, line.add_offset, line.get_pt, hm.1]
    ring

/-- The end of a radial offsetting line is at the distance `|ofs|` from the
end of the element it was made from. -/
theorem radial_cand_distance (m : Libm ℝ) (hm : m.IsReal) (ofs : ℝ) (ln nx : line ℝ)
    (c : offset_line ℝ) (h : IsRadialCand m ofs ln nx c) :
    distTwoPoints m ln.get_S1 c.ln.get_S1 = |ofs| := by
  obtain ⟨_, sgn, j, k, _, _, _, hP⟩ := h
  rw [hP]
  simp only [distTwoPoints, hm.1, hm.2.2.1, hm.2.2.2.1]
  have h1 := Real.sin_sq_add_cos_sq
    (ln.angle m + sgn * (-(m.pi / 2) + j * (m.pi * 2) + k * (3 * m.pi / 180)))
  conv_rhs => rw [← abs_abs ofs, ← Real.sqrt_sq_eq_abs]
  congr 1
  linear_combination (|ofs| ^ 2) * h1

end OwnDistance

section Clearance

/-- The end of an offsetting line that is valid after the three passes keeps
the clearance `|ofs|` but for the element the line was made from. -/
theorem valid_cand_offsetVertex (m : Libm ℝ) (hm : m.IsReal) (e1 : obj ℝ) (ofs : ℝ)
    (osln0 : List (offset_line ℝ)) (hcr : create_offset_lines m e1 ofs e1 0 = .ok osln0)
    (c : offset_line ℝ)
    (hc : c ∈ redundant_pass none (crossing_pass m (proximity_pass m e1 |ofs| osln0)))
    (hv : c.valid = true) : OffsetVertex m e1 |ofs| c.ln.get_S1 := by
  have h2 := redundant_pass_valid _ none c hc hv
  have h1 := crossing_pass_valid m _ c h2 hv
  obtain ⟨h0, hfar⟩ := proximity_pass_valid m e1 |ofs| osln0 c h1 hv
  obtain ⟨ln, hln, hlen, hkind⟩ := create_offset_lines_spec m e1 ofs e1 0 osln0 hcr
    (fun i l hi => by simpa using hi) c h0
  refine ⟨c.src_index, ln, hln, fun j l hj hne => hfar j l hj (Ne.symm hne), ?_⟩
  rcases hkind with hlin | ⟨nx, hrad⟩
  · exact Or.inl (linear_cand_distance m hm ofs ln c hlen hlin)
  · exact Or.inr (radial_cand_distance m hm ofs ln nx c hrad)

/-- Every vertex of the path `trace_at_offset(ofs)` returns keeps the
clearance `|ofs|` from the regularised path but for one element of it. -/
theorem trace_at_offset_clearance_core (m : Libm ℝ) (hm : m.IsReal) (e e1 tr : obj ℝ)
    (ofs : ℝ) (hreg : regularise m e = .ok e1)
    (htr : trace_at_offset m false e ofs = .ok tr) :
    VertsIn (OffsetVertex m e1 |ofs|) tr := by
  rw [trace_at_offset, hreg] at htr
  simp only [Res.bind] at htr
  cases hcr : create_offset_lines m e1 ofs e1 0 with
  | ok osln0 =>
    rw [hcr] at htr
    simp only at htr
    have hj : VertsIn (OffsetVertex m e1 |ofs|)
        (join_dots (redundant_pass none (crossing_pass m (proximity_pass m e1 |ofs| osln0)))
          []) :=
      join_dots_verts _ _ [] (vertsIn_nil _)
        (fun c hc hv => valid_cand_offsetVertex m hm e1 ofs osln0 hcr c hc hv)
    cases hh : (join_dots (redundant_pass none
        (crossing_pass m (proximity_pass m e1 |ofs| osln0))) []).head? with
    | none => rw [hh] at htr; simp at htr
    | some first =>
      cases hl : (join_dots (redundant_pass none
          (crossing_pass m (proximity_pass m e1 |ofs| osln0))) []).getLast? with
      | none => rw [hh, hl] at htr; simp at htr
      | some lst =>
        rw [hh, hl] at htr
        simp only at htr
        have hfirst := hj first (List.mem_of_mem_head? hh)
        have hlst := hj lst (List.mem_of_mem_getLast? hl)
        cases hr2 : regularise m (join_dots (redundant_pass none
            (crossing_pass m (proximity_pass m e1 |ofs| osln0))) [] ++
            [line.ofPoints first.get_S0 lst.get_S1]) with
        | ok tr2 =>
          rw [hr2] at htr
          simp only [Res.bind, Bool.false_eq_true, if_false, Res.ok.injEq] at htr
          subst htr
          apply regularise_verts m _ _ _ hr2
          rw [vertsIn_append]
          refine ⟨hj, ?_⟩
          intro x hx
          rw [List.mem_singleton] at hx
          subst hx
          exact vertsIn_ofPoints _ _ _ hfirst.1 hlst.2
        | fatal => rw [hr2] at htr; simp [Res.bind] at htr
        | undef => rw [hr2] at htr; simp [Res.bind] at htr
        | fuel => rw [hr2] at htr; simp [Res.bind] at htr
  | fatal => rw [hcr] at htr; simp at htr
  | undef => rw [hcr] at htr; simp at htr
  | fuel => rw [hcr] at htr; simp at htr

end Clearance

section LeanVertex

/-- On the two segments `trace_at_offset(-1)` returns a path with a vertex at
the end of the radial offsetting line, nearer than 1 to `leanSeg`. -/
theorem leanPair_vertex_near (m : Libm ℝ) (hm : m.IsReal) :
    regularise m (leanPair : obj ℝ) = .ok leanPair ∧
      ∃ tr : obj ℝ, trace_at_offset m false leanPair (-1) = .ok tr ∧
        ∃ x ∈ tr, x.get_S0 = fanEnd m ∧ (leanSeg : line ℝ) ∈ (leanPair : obj ℝ) ∧
          (leanSeg : line ℝ).distance_to_point m x.get_S0 < |(-1 : ℝ)| := by
  obtain ⟨ws, hg, htr⟩ := trace_at_offset_leanPair m hm
  refine ⟨regularise_leanPair m hm, polygon ws, htr, ?_⟩
  have hperm : ws.Perm (leanTraceVerts m) := by
    rcases hg with h | h
    · exact h.perm
    · exact h.perm.trans (List.reverse_perm _)
  have hmem : fanEnd m ∈ ws := hperm.symm.subset (by simp [leanTraceVerts])
  rw [← polygon_S0 ws, List.mem_map] at hmem
  obtain ⟨x, hx, hx0⟩ := hmem
  refine ⟨x, hx, hx0, by simp [leanPair], ?_⟩
  rw [hx0, abs_neg, abs_one]
  exact fanEnd_near m hm

end LeanVertex

section ClearanceClaims

/-- C32, counterexample: for the two unconnected segments `leanSeg` (from the
origin by `(-0.00009, 0.000216)`) and `farSeg`, which `regularise` leaves as
they are, `trace_at_offset(-1)` returns a path with a vertex at the end of the
radial offsetting line made at the end of `leanSeg`, and this vertex is nearer
than `|-1|` to `leanSeg`, a segment of the regularised source path. -/
theorem trace_at_offset_vertex_near_source :
    ∃ m : Libm ℝ, m.IsReal ∧ regularise m (leanPair : obj ℝ) = .ok leanPair ∧
      ∃ tr : obj ℝ, trace_at_offset m false leanPair (-1) = .ok tr ∧
        ∃ x ∈ tr, x.get_S0 = fanEnd m ∧ (leanSeg : line ℝ) ∈ (leanPair : obj ℝ) ∧
          (leanSeg : line ℝ).distance_to_point m x.get_S0 < |(-1 : ℝ)| :=
  ⟨_, isReal_mk, leanPair_vertex_near _ isReal_mk⟩

/-- C32 (amended): with the member `testFlag` at its default `false`, every
vertex `P` of the path that `trace_at_offset(d)` returns keeps the clearance
`|d|` from the regularised source path but for one segment `s` of it (the one
its offsetting line was made from): `P` is at a distance of at least `|d|`
from every segment at another position of the regularised source path, and at
the distance `|d|` from `s` or from the end point of `s`. -/
theorem trace_at_offset_vertex_clearance (m : Libm ℝ) (hm : m.IsReal) (e e1 tr : obj ℝ)
    (d : ℝ) (hreg : regularise m e = .ok e1) (htr : trace_at_offset m false e d = .ok tr) :
    ∀ x ∈ tr, OffsetVertex m e1 |d| x.get_S0 ∧ OffsetVertex m e1 |d| x.get_S1 :=
  fun x hx => trace_at_offset_clearance_core m hm e e1 tr d hreg htr x hx

/-- Witness of C32 (amended): the square of side 1 and `d = -3/8`. -/
theorem trace_at_offset_vertex_clearance_witness :
    ∃ m : Libm ℝ, m.IsReal ∧ regularise m (squareAt0 1 : obj ℝ) = .ok (squareAt0 1) ∧
      trace_at_offset m false (squareAt0 1) (-(3 / 8)) = .ok (diamond 1 (3 / 8)) ∧
      ∀ x ∈ (diamond 1 (3 / 8) : obj ℝ),
        OffsetVertex m (squareAt0 1) |(-(3 / 8) : ℝ)| x.get_S0 ∧
          OffsetVertex m (squareAt0 1) |(-(3 / 8) : ℝ)| x.get_S1 := by
  have hN := normal_square _ isReal_mk 1 (by norm_num [SNAP_LEN])
  have hreg := regularise_fixed _ (dist_self_le_snap _ isReal_mk) [(squareAt0 1 : obj ℝ)]
    hN.1 hN.2.1 hN.2.2
  simp only [List.flatten_cons, List.flatten_nil, List.append_nil] at hreg
  have htr := trace_at_offset_square_core _ isReal_mk 1 (3 / 8) (by norm_num) (by norm_num)
    (by norm_num [SNAP_LEN])
  exact ⟨_, isReal_mk, hreg, htr,
    trace_at_offset_vertex_clearance _ isReal_mk _ _ _ _ hreg htr⟩

end ClearanceClaims

end Acad
